import Mathlib

/-!
# ToplingDB merge iterator: a shallow embedding

Part I embeds `util/heap.h` (`BinaryHeap`), Part II embeds the merging engine of
`table/merging_iterator.cc` together with the child position wrapper of
`table/iterator_wrapper.h`.  All definitions come first, the theorems follow.
-/

set_option autoImplicit false

/-! ## Part I. `BinaryHeap<T, Compare>` (util/heap.h) -/

/-- The two data members of `BinaryHeap`: the backing vector `data_` and the root comparison
cache.  `root_cmp_cache_ = none` stands for `std::numeric_limits<size_t>::max()`, the value that
`reset_root_cmp_cache` stores and that is below no heap size. -/
structure BinaryHeap (T : Type) where
  data_ : List T := []
  root_cmp_cache_ : Option Nat := none
deriving Repr, DecidableEq, Inhabited

/-- Loop variables of `upheap` / `downheap`, with `cmps` counting the calls of `cmp_()` made
so far.  `picked_child = none` is the initial `numeric_limits<size_t>::max()`. -/
structure SiftState (T : Type) where
  data : List T
  index : Nat
  picked_child : Option Nat := none
  cmps : Nat := 0
deriving Repr, DecidableEq

namespace BinaryHeap

variable {T : Type}

def get_root : Nat := 0

def get_parent (index : Nat) : Nat := (index - 1) / 2

def get_left (index : Nat) : Nat := 2 * index + 1

def get_right (index : Nat) : Nat := 2 * index + 2

def empty (h : BinaryHeap T) : Bool := h.data_.isEmpty

def size (h : BinaryHeap T) : Nat := h.data_.length

/-- The method `top()`: `data_.front()`; `none` on the empty heap, where the source asserts. -/
def top (h : BinaryHeap T) : Option T := h.data_.head?

def reset_root_cmp_cache (h : BinaryHeap T) : BinaryHeap T :=
  { h with root_cmp_cache_ := none }

/-- The method `clear()`: `data_.resize(0)` and a cache reset. -/
def clear (_h : BinaryHeap T) : BinaryHeap T :=
  { data_ := [], root_cmp_cache_ := none }

/-- The test `root_cmp_cache_ < heap_size` of `downheap`. -/
def cacheBelow (root_cmp_cache_ : Option Nat) (heap_size : Nat) : Bool :=
  match root_cmp_cache_ with
  | some c => decide (c < heap_size)
  | none => false

/-- The `while (index > get_root())` loop of `upheap`, holding `v` aside. One unit of fuel per
iteration; `index` units always suffice because `get_parent index < index`. -/
def upheapLoop (cmp : T → T → Bool) (v : T) : Nat → SiftState T → SiftState T
  | 0, s => s
  | fuel + 1, s =>
    if s.index > get_root then
      let parent := get_parent s.index
      if !cmp (s.data[parent]?.getD v) v then
        { s with cmps := s.cmps + 1 }
      else
        upheapLoop cmp v fuel
          { s with data := s.data.set s.index (s.data[parent]?.getD v), index := parent,
                   cmps := s.cmps + 1 }
    else s

/-- The private method `upheap(index)`; the second component is the number of comparator calls. -/
def upheap (cmp : T → T → Bool) (h : BinaryHeap T) (index : Nat) : BinaryHeap T × Nat :=
  match h.data_[index]? with
  | none => (h, 0)
  | some v =>
    let s := upheapLoop cmp v index { data := h.data_, index := index }
    ({ data_ := s.data.set s.index v, root_cmp_cache_ := none }, s.cmps)

/-- Lines 157-163 of `downheap`: the child to compare `v` with, and the number of comparator
calls spent on choosing it. -/
def pickChild (cmp : T → T → Bool) (heap_size : Nat) (root_cmp_cache_ : Option Nat) (v : T)
    (data : List T) (index : Nat) : Nat × Nat :=
  let left_child := get_left index
  let right_child := left_child + 1
  if index == 0 && cacheBelow root_cmp_cache_ heap_size then
    (root_cmp_cache_.getD left_child, 0)
  else if right_child < heap_size then
    if cmp (data[left_child]?.getD v) (data[right_child]?.getD v) then (right_child, 1)
    else (left_child, 1)
  else (left_child, 0)

/-- The `while (1)` loop of `downheap`, holding `v` aside. One unit of fuel per iteration;
`heap_size` units always suffice because the index grows in every iteration. -/
def downheapLoop (cmp : T → T → Bool) (heap_size : Nat) (root_cmp_cache_ : Option Nat) (v : T) :
    Nat → SiftState T → SiftState T
  | 0, s => s
  | fuel + 1, s =>
    let left_child := get_left s.index
    if left_child ≥ heap_size then s
    else
      let pc := pickChild cmp heap_size root_cmp_cache_ v s.data s.index
      let picked_child := pc.1
      if !cmp v (s.data[picked_child]?.getD v) then
        { s with picked_child := some picked_child, cmps := s.cmps + pc.2 + 1 }
      else
        downheapLoop cmp heap_size root_cmp_cache_ v fuel
          { data := s.data.set s.index (s.data[picked_child]?.getD v), index := picked_child,
            picked_child := some picked_child, cmps := s.cmps + pc.2 + 1 }

/-- The private method `downheap(index)`; the second component is the number of comparator
calls. -/
def downheap (cmp : T → T → Bool) (h : BinaryHeap T) (index : Nat) : BinaryHeap T × Nat :=
  match h.data_[index]? with
  | none => (h, 0)
  | some v =>
    let heap_size := h.data_.length
    let s := downheapLoop cmp heap_size h.root_cmp_cache_ v heap_size
      { data := h.data_, index := index }
    ({ data_ := s.data.set s.index v,
       root_cmp_cache_ := if s.index == 0 then s.picked_child else none }, s.cmps)

/-- Instrumented `push(value)`: `data_.push_back(value); upheap(data_.size() - 1)`. -/
def pushC (cmp : T → T → Bool) (h : BinaryHeap T) (value : T) : BinaryHeap T × Nat :=
  let h1 := { h with data_ := h.data_ ++ [value] }
  upheap cmp h1 (h1.data_.length - 1)

/-- Instrumented `replace_top(value)`: `data_.front() = value; downheap(get_root())`.
On the empty heap (where the source asserts) nothing is done. -/
def replace_topC (cmp : T → T → Bool) (h : BinaryHeap T) (value : T) : BinaryHeap T × Nat :=
  if h.empty then (h, 0)
  else downheap cmp { h with data_ := h.data_.set 0 value } get_root

/-- Instrumented `update_top()`: `downheap(get_root())`. -/
def update_topC (cmp : T → T → Bool) (h : BinaryHeap T) : BinaryHeap T × Nat :=
  if h.empty then (h, 0)
  else downheap cmp h get_root

/-- Instrumented `pop()`. `data_.back()` is read through `getLast?`, which is `none` exactly on
the empty heap, where the source asserts and the model does nothing. -/
def popC (cmp : T → T → Bool) (h : BinaryHeap T) : BinaryHeap T × Nat :=
  match h.data_.getLast? with
  | none => (h, 0)
  | some back =>
    let data1 := if h.data_.length > 1 then h.data_.set 0 back else h.data_
    let h2 : BinaryHeap T := { h with data_ := data1.dropLast }
    if !h2.empty then downheap cmp h2 get_root
    else (h2.reset_root_cmp_cache, 0)

def push (cmp : T → T → Bool) (h : BinaryHeap T) (value : T) : BinaryHeap T :=
  (pushC cmp h value).1

def replace_top (cmp : T → T → Bool) (h : BinaryHeap T) (value : T) : BinaryHeap T :=
  (replace_topC cmp h value).1

def update_top (cmp : T → T → Bool) (h : BinaryHeap T) : BinaryHeap T :=
  (update_topC cmp h).1

def pop (cmp : T → T → Bool) (h : BinaryHeap T) : BinaryHeap T :=
  (popC cmp h).1

end BinaryHeap

/-! ## Part II. The merging engine (table/merging_iterator.cc, table/iterator_wrapper.h) -/

/-- The outcomes of `Status` that the engine tells apart: ok, the try-again signal of an
asynchronous read, and any other error. -/
inductive Status where
  | OK
  | TryAgain
  | Corruption
deriving DecidableEq, Repr, Inhabited

namespace Status

def ok (s : Status) : Bool := s == Status.OK

def IsTryAgain (s : Status) : Bool := s == Status.TryAgain

end Status

/-- Modelled from the spec: `db/dbformat.h` is not under src. The largest sequence number,
`kMaxSequenceNumber = (1 << 56) - 1`. -/
def kMaxSequenceNumber : Nat := 2 ^ 56 - 1

/-- Modelled from the spec: `db/dbformat.h` is not under src. The operation type of a range
deletion record. -/
def kTypeRangeDeletion : Nat := 0xF

/-- Modelled from the spec: `db/dbformat.h` is not under src. One past the last valid operation
type, the type `Finish` gives to tombstone boundary keys so that they order before point keys of
the same user key and sequence number. -/
def kTypeMaxValid : Nat := 0x18

/-- Modelled from the spec: `db/dbformat.h` is not under src. The operation type of a seek
target, the largest type of a stored record. -/
def kValueTypeForSeek : Nat := 0x17

/-- Modelled from the spec: `db/dbformat.h` is not under src. The operation type of a
seek-for-prev target, the smallest type. -/
def kValueTypeForSeekForPrev : Nat := 0

/-- An internal key in parsed form: user key, sequence number, operation type. Encoded keys
(`Slice`) and parsed keys are not told apart: `ParseInternalKey` and `AppendInternalKey` are the
identity. -/
structure ParsedInternalKey (UK : Type) where
  user_key : UK
  sequence : Nat
  type : Nat
deriving DecidableEq, Repr, Inhabited

namespace InternalKeyComparator

variable {UK : Type} [LinearOrder UK]

/-- Modelled from the spec: `InternalKeyComparator` is declared outside src. Increasing user key,
then decreasing sequence number, then decreasing type. The user comparator is the linear order of
`UK`. -/
def Compare (a b : ParsedInternalKey UK) : Ordering :=
  match compare a.user_key b.user_key with
  | .lt => .lt
  | .gt => .gt
  | .eq =>
    if a.sequence > b.sequence then .lt
    else if a.sequence < b.sequence then .gt
    else if a.type > b.type then .lt
    else if a.type < b.type then .gt
    else .eq

def Equal (a b : ParsedInternalKey UK) : Bool := Compare a b == .eq

end InternalKeyComparator

inductive IterBoundCheck where
  | kUnknown
  | kOutOfBound
  | kInbound
deriving DecidableEq, Repr, Inhabited

/-- Modelled from the spec: the iterator of one sorted run (`InternalIterator`) is an external
collaborator. The run is the list `run`; `pos` is the index of the current record, `none` when
the iterator is not valid. `sentinels` lists the indices that are file-boundary sentinel keys.
Two faults can be scripted: reading the record at index `corrupt_at` fails, and with
`async_seek` the next seek only submits its read and reports try-again. -/
structure InternalIterator (UK : Type) where
  run : List (ParsedInternalKey UK) := []
  pos : Option Nat := none
  status_ : Status := Status.OK
  sentinels : List Nat := []
  corrupt_at : Option Nat := none
  async_seek : Bool := false
deriving DecidableEq, Repr, Inhabited

namespace InternalIterator

variable {UK : Type} [LinearOrder UK] [Inhabited UK]

def Valid (it : InternalIterator UK) : Bool := it.pos.isSome

def key (it : InternalIterator UK) : ParsedInternalKey UK :=
  match it.pos with
  | some i => it.run[i]?.getD default
  | none => default

def status (it : InternalIterator UK) : Status := it.status_

def IsDeleteRangeSentinelKey (it : InternalIterator UK) : Bool :=
  match it.pos with
  | some i => it.sentinels.contains i
  | none => false

def UpperBoundCheckResult (_it : InternalIterator UK) : IterBoundCheck := IterBoundCheck.kUnknown

/-- Position the iterator at index `p`: valid there unless `p` is past the end (exhausted, status
ok) or the record cannot be read (not valid, status not ok). -/
def place (it : InternalIterator UK) (p : Nat) : InternalIterator UK :=
  if p < it.run.length then
    if it.corrupt_at = some p then { it with pos := none, status_ := Status.Corruption }
    else { it with pos := some p, status_ := Status.OK }
  else { it with pos := none, status_ := Status.OK }

def invalidate (it : InternalIterator UK) : InternalIterator UK :=
  { it with pos := none, status_ := Status.OK }

def SeekToFirst (it : InternalIterator UK) : InternalIterator UK := it.place 0

def SeekToLast (it : InternalIterator UK) : InternalIterator UK :=
  if it.run.length = 0 then it.invalidate else it.place (it.run.length - 1)

/-- First record `>= target`. -/
def Seek (it : InternalIterator UK) (target : ParsedInternalKey UK) : InternalIterator UK :=
  if it.async_seek then
    { it with pos := none, status_ := Status.TryAgain, async_seek := false }
  else
    it.place (it.run.takeWhile (fun k => InternalKeyComparator.Compare k target == .lt)).length

/-- Last record `<= target`. -/
def SeekForPrev (it : InternalIterator UK) (target : ParsedInternalKey UK) :
    InternalIterator UK :=
  if it.async_seek then
    { it with pos := none, status_ := Status.TryAgain, async_seek := false }
  else
    let n := (it.run.takeWhile (fun k => InternalKeyComparator.Compare k target != .gt)).length
    if n = 0 then it.invalidate else it.place (n - 1)

def Next (it : InternalIterator UK) : InternalIterator UK :=
  match it.pos with
  | some i => it.place (i + 1)
  | none => it

def Prev (it : InternalIterator UK) : InternalIterator UK :=
  match it.pos with
  | some (i + 1) => it.place i
  | some 0 => it.invalidate
  | none => it

end InternalIterator

/-- The struct `IterateResult`, with the `is_valid` member that the wrapper caches. -/
structure IterateResult (UK : Type) where
  key : ParsedInternalKey UK
  bound_check_result : IterBoundCheck := IterBoundCheck.kUnknown
  value_prepared : Bool := true
  is_valid : Bool := false
deriving DecidableEq, Repr, Inhabited

/-- The class `IteratorWrapperBase`: the wrapped iterator (`none` is `nullptr`) and the cached
result. -/
structure IteratorWrapper (UK : Type) where
  iter_ : Option (InternalIterator UK) := none
  result_ : IterateResult UK
deriving DecidableEq, Repr, Inhabited

namespace IteratorWrapper

variable {UK : Type} [LinearOrder UK] [Inhabited UK]

/-- The private method `Update()`. -/
def Update (w : IteratorWrapper UK) : IteratorWrapper UK :=
  match w.iter_ with
  | none => w
  | some it =>
    if it.Valid then
      { w with result_ := { key := it.key, bound_check_result := IterBoundCheck.kUnknown,
                            value_prepared := false, is_valid := true } }
    else { w with result_ := { w.result_ with is_valid := false } }

def Set (w : IteratorWrapper UK) (_iter : Option (InternalIterator UK)) : IteratorWrapper UK :=
  match _iter with
  | none => { iter_ := none, result_ := { w.result_ with is_valid := false } }
  | some it => Update { w with iter_ := some it }

def Valid (w : IteratorWrapper UK) : Bool := w.result_.is_valid

def key (w : IteratorWrapper UK) : ParsedInternalKey UK := w.result_.key

def status (w : IteratorWrapper UK) : Status :=
  match w.iter_ with
  | some it => it.status
  | none => Status.OK

/-- The method `Next()`: `result_.is_valid = iter_->NextAndGetResult(&result_)`, where the
default `NextAndGetResult` of the wrapped iterator steps and, if valid, stores key, bound check
result and `value_prepared = false`. -/
def Next (w : IteratorWrapper UK) : IteratorWrapper UK :=
  match w.iter_ with
  | none => w
  | some it =>
    let it1 := it.Next
    if it1.Valid then
      { iter_ := some it1,
        result_ := { key := it1.key, bound_check_result := it1.UpperBoundCheckResult,
                     value_prepared := false, is_valid := true } }
    else { iter_ := some it1, result_ := { w.result_ with is_valid := false } }

def Prev (w : IteratorWrapper UK) : IteratorWrapper UK :=
  match w.iter_ with
  | none => w
  | some it => Update { w with iter_ := some it.Prev }

def Seek (w : IteratorWrapper UK) (k : ParsedInternalKey UK) : IteratorWrapper UK :=
  match w.iter_ with
  | none => w
  | some it => Update { w with iter_ := some (it.Seek k) }

def SeekForPrev (w : IteratorWrapper UK) (k : ParsedInternalKey UK) : IteratorWrapper UK :=
  match w.iter_ with
  | none => w
  | some it => Update { w with iter_ := some (it.SeekForPrev k) }

def SeekToFirst (w : IteratorWrapper UK) : IteratorWrapper UK :=
  match w.iter_ with
  | none => w
  | some it => Update { w with iter_ := some it.SeekToFirst }

def SeekToLast (w : IteratorWrapper UK) : IteratorWrapper UK :=
  match w.iter_ with
  | none => w
  | some it => Update { w with iter_ := some it.SeekToLast }

def IsDeleteRangeSentinelKey (w : IteratorWrapper UK) : Bool :=
  match w.iter_ with
  | some it => it.IsDeleteRangeSentinelKey
  | none => false

def IsValuePrepared (w : IteratorWrapper UK) : Bool := w.result_.value_prepared

end IteratorWrapper

/-- One deletion range of a run: boundary keys as parsed internal keys, and the sequence number
of the tombstone. -/
structure RangeTombstone (UK : Type) where
  start_key : ParsedInternalKey UK
  end_key : ParsedInternalKey UK
  seq : Nat
deriving DecidableEq, Repr, Inhabited

/-- Modelled from the spec: the per-run deletion-range iterator (`TruncatedRangeDelIterator`) is
an external collaborator. It walks the list `tombstones`; `pos = none` when not valid. -/
structure TruncatedRangeDelIterator (UK : Type) where
  tombstones : List (RangeTombstone UK) := []
  pos : Option Nat := none
deriving DecidableEq, Repr, Inhabited

namespace TruncatedRangeDelIterator

variable {UK : Type} [LinearOrder UK] [Inhabited UK]

def Valid (it : TruncatedRangeDelIterator UK) : Bool := it.pos.isSome

def cur (it : TruncatedRangeDelIterator UK) : RangeTombstone UK :=
  match it.pos with
  | some i => it.tombstones[i]?.getD default
  | none => default

def start_key (it : TruncatedRangeDelIterator UK) : ParsedInternalKey UK := it.cur.start_key

def end_key (it : TruncatedRangeDelIterator UK) : ParsedInternalKey UK := it.cur.end_key

def seq (it : TruncatedRangeDelIterator UK) : Nat := it.cur.seq

def place (it : TruncatedRangeDelIterator UK) (p : Nat) : TruncatedRangeDelIterator UK :=
  if p < it.tombstones.length then { it with pos := some p } else { it with pos := none }

def SeekToFirst (it : TruncatedRangeDelIterator UK) : TruncatedRangeDelIterator UK := it.place 0

def SeekToLast (it : TruncatedRangeDelIterator UK) : TruncatedRangeDelIterator UK :=
  if it.tombstones.length = 0 then { it with pos := none }
  else it.place (it.tombstones.length - 1)

/-- First tombstone whose end user key is after `target`. -/
def Seek (it : TruncatedRangeDelIterator UK) (target : UK) : TruncatedRangeDelIterator UK :=
  it.place (it.tombstones.takeWhile (fun t => compare t.end_key.user_key target != .gt)).length

/-- Last tombstone whose start user key is at or before `target`. -/
def SeekForPrev (it : TruncatedRangeDelIterator UK) (target : UK) :
    TruncatedRangeDelIterator UK :=
  let n := (it.tombstones.takeWhile (fun t => compare t.start_key.user_key target != .gt)).length
  if n = 0 then { it with pos := none } else it.place (n - 1)

def Next (it : TruncatedRangeDelIterator UK) : TruncatedRangeDelIterator UK :=
  match it.pos with
  | some i => it.place (i + 1)
  | none => it

def Prev (it : TruncatedRangeDelIterator UK) : TruncatedRangeDelIterator UK :=
  match it.pos with
  | some (i + 1) => it.place i
  | some 0 => { it with pos := none }
  | none => it

end TruncatedRangeDelIterator

/-- The enum `HeapItem::Type`. -/
inductive HeapItemType where
  | ITERATOR
  | DELETE_RANGE_START
  | DELETE_RANGE_END
deriving DecidableEq, Repr, Inhabited

/-- Modelled from the spec: `struct HeapItem` is declared in `table/merging_iterator.h`, outside
src. Either one run's current position (`type = ITERATOR`, member `iter`) or one endpoint of one
run's current deletion range (member `parsed_ikey`), tagged with its level. -/
structure HeapItem (UK : Type) where
  iter : IteratorWrapper UK
  level : Nat := 0
  parsed_ikey : ParsedInternalKey UK
  type : HeapItemType := HeapItemType.ITERATOR
deriving DecidableEq, Repr, Inhabited

/-- A `HeapItem*`: the address of `children_[level]` or of `pinned_heap_item_[level]`. The heaps
hold such pointers, so a heap entry always shows the present key of the item it points to. -/
inductive HeapItemPtr where
  | child (level : Nat)
  | pinned (level : Nat)
deriving DecidableEq, Repr, Inhabited

namespace HeapItem

variable {UK : Type} [LinearOrder UK] [Inhabited UK]

/-- Modelled from the spec: `HeapItem::SetTombstoneKey` is declared outside src. It stores user
key and sequence number and keeps the operation type that `Finish` has set. -/
def SetTombstoneKey (item : HeapItem UK) (pik : ParsedInternalKey UK) : HeapItem UK :=
  { item with parsed_ikey := { item.parsed_ikey with user_key := pik.user_key,
                                                     sequence := pik.sequence } }

/-- Modelled from the spec: `HeapItem::IsDeleteRangeSentinelKey` is declared outside src. Only a
point item can be a file-boundary sentinel. -/
def IsDeleteRangeSentinelKey (item : HeapItem UK) : Bool :=
  item.type == HeapItemType.ITERATOR && item.iter.IsDeleteRangeSentinelKey

/-- The key that the heap comparators read from an item: `iter.key()` of a point item,
`parsed_ikey` of a tombstone endpoint. -/
def heapKey (item : HeapItem UK) : ParsedInternalKey UK :=
  if item.type == HeapItemType.ITERATOR then item.iter.key else item.parsed_ikey

end HeapItem

/-- The class `MaxHeapItemComparator`. -/
def MaxHeapItemComparator {UK : Type} [LinearOrder UK] [Inhabited UK] (a b : HeapItem UK) :
    Bool :=
  InternalKeyComparator.Compare a.heapKey b.heapKey == .lt

/-- Modelled from the spec: `MinHeapItemComparator` is declared in `table/merging_iterator.h`,
outside src; the converse of `MaxHeapItemComparator`. -/
def MinHeapItemComparator {UK : Type} [LinearOrder UK] [Inhabited UK] (a b : HeapItem UK) :
    Bool :=
  InternalKeyComparator.Compare a.heapKey b.heapKey == .gt

inductive Direction where
  | kForward
  | kReverse
deriving DecidableEq, Repr, Inhabited

/-- The data members of `MergingIterator` / `MergingIterTmpl`, instantiated as in the last branch
of `NewIter` (`Item = HeapItem*` with the two `HeapItemComparator`s). `heap_` is the storage of
the union of `minHeap_` and `maxHeap_`. `active_` is the ordered set as an increasing list.
`current_` points to the `iter` member of an item. -/
structure MergingIterator (UK : Type) where
  children_ : List (HeapItem UK) := []
  range_tombstone_iters_ : List (Option (TruncatedRangeDelIterator UK)) := []
  pinned_heap_item_ : List (HeapItem UK) := []
  active_ : List Nat := []
  direction_ : Direction := Direction.kForward
  current_ : Option HeapItemPtr := none
  status_ : Status := Status.OK
  heap_ : BinaryHeap HeapItemPtr := {}
  iterate_upper_bound_ : Option UK := none
  prefix_seek_mode_ : Bool := false
  is_arena_mode_ : Bool := false
deriving DecidableEq, Repr, Inhabited

namespace MergingIterator

variable {UK : Type} [LinearOrder UK] [Inhabited UK]

/-- Dereference a `HeapItem*`. -/
def deref (e : MergingIterator UK) : HeapItemPtr → HeapItem UK
  | .child l => e.children_[l]?.getD default
  | .pinned l => e.pinned_heap_item_[l]?.getD default

/-- Write through a `HeapItem*`. -/
def store (e : MergingIterator UK) (p : HeapItemPtr) (item : HeapItem UK) : MergingIterator UK :=
  match p with
  | .child l => { e with children_ := e.children_.set l item }
  | .pinned l => { e with pinned_heap_item_ := e.pinned_heap_item_.set l item }

/-- The comparator of `minHeap_` on the items as they are now. -/
def minCmp (e : MergingIterator UK) (a b : HeapItemPtr) : Bool :=
  MinHeapItemComparator (e.deref a) (e.deref b)

/-- The comparator of `maxHeap_` on the items as they are now. -/
def maxCmp (e : MergingIterator UK) (a b : HeapItemPtr) : Bool :=
  MaxHeapItemComparator (e.deref a) (e.deref b)

/-- The tombstone iterator of a level; the default (invalid) one where the slot is `nullptr`. -/
def rti (e : MergingIterator UK) (level : Nat) : TruncatedRangeDelIterator UK :=
  (e.range_tombstone_iters_[level]?.getD none).getD default

def setRti (e : MergingIterator UK) (level : Nat) (it : TruncatedRangeDelIterator UK) :
    MergingIterator UK :=
  { e with range_tombstone_iters_ := e.range_tombstone_iters_.set level (some it) }

/-- The call `active_.insert(level)` on the ordered set. -/
def setInsert (level : Nat) : List Nat → List Nat
  | [] => [level]
  | x :: xs =>
    if level < x then level :: x :: xs
    else if level = x then x :: xs
    else x :: setInsert level xs

/-- The constructor `MergingIterTmpl(comparator, children, n, ...)`. -/
def MergingIterTmpl (children : List (InternalIterator UK)) (prefix_seek_mode : Bool)
    (iterate_upper_bound : Option UK) : MergingIterator UK :=
  { children_ := children.enum.map (fun p =>
      { iter := (default : IteratorWrapper UK).Set (some p.2), level := p.1,
        parsed_ikey := default, type := HeapItemType.ITERATOR }),
    direction_ := Direction.kForward, current_ := none,
    iterate_upper_bound_ := iterate_upper_bound, prefix_seek_mode_ := prefix_seek_mode }

def AddIterator (e : MergingIterator UK) (iter : InternalIterator UK) : MergingIterator UK :=
  { e with
    children_ := e.children_ ++
      [{ iter := (default : IteratorWrapper UK).Set (some iter), level := e.children_.length,
         parsed_ikey := default, type := HeapItemType.ITERATOR }],
    current_ := none }

def AddRangeTombstoneIterator (e : MergingIterator UK)
    (iter : Option (TruncatedRangeDelIterator UK)) : MergingIterator UK :=
  { e with range_tombstone_iters_ := e.range_tombstone_iters_ ++ [iter] }

/-- The method `Finish()`: one boundary item per tombstone slot, with its level and the type
`kTypeMaxValid`. -/
def Finish (e : MergingIterator UK) : MergingIterator UK :=
  if !e.range_tombstone_iters_.isEmpty then
    { e with pinned_heap_item_ := (List.range e.range_tombstone_iters_.length).map (fun i =>
        { iter := default, level := i,
          parsed_ikey := { (default : ParsedInternalKey UK) with type := kTypeMaxValid },
          type := HeapItemType.ITERATOR }) }
  else e

def Valid (e : MergingIterator UK) : Bool := e.current_.isSome && e.status_.ok

def status (e : MergingIterator UK) : Status := e.status_

def considerStatus (e : MergingIterator UK) (s : Status) : MergingIterator UK :=
  if !s.ok && e.status_.ok then { e with status_ := s } else e

/-- The method `key()`: `current_->key()`. -/
def key (e : MergingIterator UK) : ParsedInternalKey UK :=
  match e.current_ with
  | some p => (e.deref p).iter.key
  | none => default

def ClearHeaps (e : MergingIterator UK) (clear_active : Bool) : MergingIterator UK :=
  { e with heap_ := e.heap_.clear, active_ := if clear_active then [] else e.active_ }

def InitMaxHeap (e : MergingIterator UK) : MergingIterator UK :=
  { e with heap_ := e.heap_.clear }

def minPush (e : MergingIterator UK) (p : HeapItemPtr) : MergingIterator UK :=
  { e with heap_ := e.heap_.push e.minCmp p }

def minReplaceTop (e : MergingIterator UK) (p : HeapItemPtr) : MergingIterator UK :=
  { e with heap_ := e.heap_.replace_top e.minCmp p }

def minUpdateTop (e : MergingIterator UK) : MergingIterator UK :=
  { e with heap_ := e.heap_.update_top e.minCmp }

def minPop (e : MergingIterator UK) : MergingIterator UK :=
  { e with heap_ := e.heap_.pop e.minCmp }

def maxPush (e : MergingIterator UK) (p : HeapItemPtr) : MergingIterator UK :=
  { e with heap_ := e.heap_.push e.maxCmp p }

def maxReplaceTop (e : MergingIterator UK) (p : HeapItemPtr) : MergingIterator UK :=
  { e with heap_ := e.heap_.replace_top e.maxCmp p }

def maxPop (e : MergingIterator UK) : MergingIterator UK :=
  { e with heap_ := e.heap_.pop e.maxCmp }

def AddToMinHeapOrCheckStatus (e : MergingIterator UK) (child : HeapItemPtr) :
    MergingIterator UK :=
  if (e.deref child).iter.Valid then e.minPush child
  else e.considerStatus (e.deref child).iter.status

def AddToMaxHeapOrCheckStatus (e : MergingIterator UK) (child : HeapItemPtr) :
    MergingIterator UK :=
  if (e.deref child).iter.Valid then e.maxPush child
  else e.considerStatus (e.deref child).iter.status

def InsertRangeTombstoneToMinHeap (e : MergingIterator UK) (level : Nat) (start_key : Bool)
    (replace_top : Bool) : MergingIterator UK :=
  let pinned := e.pinned_heap_item_[level]?.getD default
  let outOfBound : Bool :=
    match e.iterate_upper_bound_ with
    | some ub => start_key && compare (e.rti level).start_key.user_key ub != .lt
    | none => false
  if outOfBound then
    if replace_top then e.minPop else e
  else
    let e1 : MergingIterator UK :=
      if start_key then
        e.store (.pinned level)
          { pinned.SetTombstoneKey (e.rti level).start_key with
            type := HeapItemType.DELETE_RANGE_START }
      else
        { e.store (.pinned level)
            { pinned.SetTombstoneKey (e.rti level).end_key with
              type := HeapItemType.DELETE_RANGE_END } with
          active_ := setInsert level e.active_ }
    if replace_top then e1.minReplaceTop (.pinned level) else e1.minPush (.pinned level)

def InsertRangeTombstoneToMaxHeap (e : MergingIterator UK) (level : Nat) (end_key : Bool)
    (replace_top : Bool) : MergingIterator UK :=
  let pinned := e.pinned_heap_item_[level]?.getD default
  let e1 : MergingIterator UK :=
    if end_key then
      e.store (.pinned level)
        { pinned.SetTombstoneKey (e.rti level).end_key with
          type := HeapItemType.DELETE_RANGE_END }
    else
      { e.store (.pinned level)
          { pinned.SetTombstoneKey (e.rti level).start_key with
            type := HeapItemType.DELETE_RANGE_START } with
        active_ := setInsert level e.active_ }
  if replace_top then e1.maxReplaceTop (.pinned level) else e1.maxPush (.pinned level)

/-- The loop of `PopDeleteRangeStart`, one unit of fuel per iteration; `none` when the fuel runs
out. -/
def PopDeleteRangeStartLoop : Nat → MergingIterator UK → Option (MergingIterator UK)
  | 0, _ => none
  | fuel + 1, e =>
    match e.heap_.top with
    | none => some e
    | some t =>
      if (e.deref t).type == HeapItemType.DELETE_RANGE_START then
        PopDeleteRangeStartLoop fuel (e.InsertRangeTombstoneToMinHeap (e.deref t).level false true)
      else some e

/-- The method `PopDeleteRangeStart()`. Every iteration turns one start endpoint of the heap into
an end endpoint, so one more unit of fuel than the heap has entries is enough. -/
def PopDeleteRangeStart (e : MergingIterator UK) : Option (MergingIterator UK) :=
  PopDeleteRangeStartLoop (e.heap_.size + 1) e

def PopDeleteRangeEndLoop : Nat → MergingIterator UK → Option (MergingIterator UK)
  | 0, _ => none
  | fuel + 1, e =>
    match e.heap_.top with
    | none => some e
    | some t =>
      if (e.deref t).type == HeapItemType.DELETE_RANGE_END then
        PopDeleteRangeEndLoop fuel (e.InsertRangeTombstoneToMaxHeap (e.deref t).level false true)
      else some e

def PopDeleteRangeEnd (e : MergingIterator UK) : Option (MergingIterator UK) :=
  PopDeleteRangeEndLoop (e.heap_.size + 1) e

def CurrentForward (e : MergingIterator UK) : Option HeapItemPtr := e.heap_.top

def CurrentReverse (e : MergingIterator UK) : Option HeapItemPtr := e.heap_.top

/-- Apply a method of `IteratorWrapper` to the `iter` member of the item behind a pointer. -/
def updIter (e : MergingIterator UK) (p : HeapItemPtr)
    (f : IteratorWrapper UK → IteratorWrapper UK) : MergingIterator UK :=
  e.store p { e.deref p with iter := f (e.deref p).iter }

/-- Loop variables of the main loop of `SeekImpl` / `SeekForPrevImpl`. -/
structure SeekLoopState (UK : Type) where
  e : MergingIterator UK
  current_search_key : ParsedInternalKey UK
  prefetched_target : List (Nat × ParsedInternalKey UK) := []

/-- One iteration of the main loop of `SeekImpl` (the body of
`for (auto level = starting_level; level < children_.size(); ++level)`). -/
def SeekImplStep (pik : ParsedInternalKey UK) (st : SeekLoopState UK) (level : Nat) :
    SeekLoopState UK :=
  let e1 := st.e.updIter (.child level) (fun w => w.Seek st.current_search_key)
  let st1 : SeekLoopState UK :=
    if !e1.range_tombstone_iters_.isEmpty then
      let prefetched :=
        if (e1.deref (.child level)).iter.status.IsTryAgain then
          st.prefetched_target ++ [(level, st.current_search_key)]
        else st.prefetched_target
      match e1.range_tombstone_iters_[level]?.getD none with
      | some range_tombstone_iter =>
        let e2 := e1.setRti level (range_tombstone_iter.Seek st.current_search_key.user_key)
        if (e2.rti level).Valid then
          let e3 := e2.InsertRangeTombstoneToMinHeap level
            (InternalKeyComparator.Compare (e2.rti level).start_key pik == .gt) false
          if compare (e3.rti level).start_key.user_key st.current_search_key.user_key != .gt then
            { e := e3,
              current_search_key :=
                { user_key := (e3.rti level).end_key.user_key, sequence := kMaxSequenceNumber,
                  type := kValueTypeForSeek },
              prefetched_target := prefetched }
          else { e := e3, current_search_key := st.current_search_key,
                 prefetched_target := prefetched }
        else { e := e2, current_search_key := st.current_search_key,
               prefetched_target := prefetched }
      | none => { e := e1, current_search_key := st.current_search_key,
                  prefetched_target := prefetched }
    else { st with e := e1 }
  if (st1.e.deref (.child level)).iter.status.IsTryAgain then st1
  else { st1 with e := st1.e.AddToMinHeapOrCheckStatus (.child level) }

/-- The method `SeekImpl(target, starting_level, range_tombstone_reseek)`; the last parameter
only feeds performance counters and is left out. -/
def SeekImpl (e : MergingIterator UK) (target : ParsedInternalKey UK) (starting_level : Nat) :
    MergingIterator UK :=
  let e0 := e.ClearHeaps false
  let pik := target
  let e1 := (List.range starting_level).foldl
    (fun (e : MergingIterator UK) level => e.AddToMinHeapOrCheckStatus (.child level)) e0
  let e2 : MergingIterator UK :=
    if !e1.range_tombstone_iters_.isEmpty then
      let e1a := (List.range starting_level).foldl
        (fun (e : MergingIterator UK) level =>
          if (e.range_tombstone_iters_[level]?.getD none).isSome && (e.rti level).Valid then
            if e.active_.contains level then e.minPush (.pinned level)
            else e.InsertRangeTombstoneToMinHeap level true false
          else e) e1
      { e1a with active_ := e1a.active_.filter (fun l => l < starting_level) }
    else e1
  let e3 := { e2 with status_ := Status.OK }
  let st := (List.range' starting_level (e3.children_.length - starting_level)).foldl
    (SeekImplStep pik) { e := e3, current_search_key := target }
  if st.e.range_tombstone_iters_.isEmpty then
    (List.range st.e.children_.length).foldl
      (fun (e : MergingIterator UK) level =>
        if (e.deref (.child level)).iter.status.IsTryAgain then
          (e.updIter (.child level) (fun w => w.Seek target)).AddToMinHeapOrCheckStatus
            (.child level)
        else e) st.e
  else
    st.prefetched_target.foldl
      (fun (e : MergingIterator UK) prefetch =>
        (e.updIter (.child prefetch.1) (fun w => w.Seek prefetch.2)).AddToMinHeapOrCheckStatus
          (.child prefetch.1)) st.e

/-- One iteration of the main loop of `SeekForPrevImpl`. -/
def SeekForPrevImplStep (pik : ParsedInternalKey UK) (st : SeekLoopState UK) (level : Nat) :
    SeekLoopState UK :=
  let e1 := st.e.updIter (.child level) (fun w => w.SeekForPrev st.current_search_key)
  let st1 : SeekLoopState UK :=
    if !e1.range_tombstone_iters_.isEmpty then
      let prefetched :=
        if (e1.deref (.child level)).iter.status.IsTryAgain then
          st.prefetched_target ++ [(level, st.current_search_key)]
        else st.prefetched_target
      match e1.range_tombstone_iters_[level]?.getD none with
      | some range_tombstone_iter =>
        let e2 :=
          e1.setRti level (range_tombstone_iter.SeekForPrev st.current_search_key.user_key)
        if (e2.rti level).Valid then
          let e3 := e2.InsertRangeTombstoneToMaxHeap level
            (InternalKeyComparator.Compare (e2.rti level).end_key pik != .gt) false
          if compare st.current_search_key.user_key (e3.rti level).end_key.user_key == .lt then
            { e := e3,
              current_search_key :=
                { user_key := (e3.rti level).start_key.user_key, sequence := kMaxSequenceNumber,
                  type := kValueTypeForSeekForPrev },
              prefetched_target := prefetched }
          else { e := e3, current_search_key := st.current_search_key,
                 prefetched_target := prefetched }
        else { e := e2, current_search_key := st.current_search_key,
               prefetched_target := prefetched }
      | none => { e := e1, current_search_key := st.current_search_key,
                  prefetched_target := prefetched }
    else { st with e := e1 }
  if (st1.e.deref (.child level)).iter.status.IsTryAgain then st1
  else { st1 with e := st1.e.AddToMaxHeapOrCheckStatus (.child level) }

/-- The method `SeekForPrevImpl(target, starting_level, range_tombstone_reseek)`. -/
def SeekForPrevImpl (e : MergingIterator UK) (target : ParsedInternalKey UK)
    (starting_level : Nat) : MergingIterator UK :=
  let e0 := (e.ClearHeaps false).InitMaxHeap
  let pik := target
  let e1 := (List.range starting_level).foldl
    (fun (e : MergingIterator UK) level => e.AddToMaxHeapOrCheckStatus (.child level)) e0
  let e2 : MergingIterator UK :=
    if !e1.range_tombstone_iters_.isEmpty then
      let e1a := (List.range starting_level).foldl
        (fun (e : MergingIterator UK) level =>
          if (e.range_tombstone_iters_[level]?.getD none).isSome && (e.rti level).Valid then
            e.maxPush (.pinned level)
          else e) e1
      { e1a with active_ := e1a.active_.filter (fun l => l < starting_level) }
    else e1
  let e3 := { e2 with status_ := Status.OK }
  let st := (List.range' starting_level (e3.children_.length - starting_level)).foldl
    (SeekForPrevImplStep pik) { e := e3, current_search_key := target }
  if st.e.range_tombstone_iters_.isEmpty then
    (List.range st.e.children_.length).foldl
      (fun (e : MergingIterator UK) level =>
        if (e.deref (.child level)).iter.status.IsTryAgain then
          (e.updIter (.child level) (fun w => w.SeekForPrev target)).AddToMaxHeapOrCheckStatus
            (.child level)
        else e) st.e
  else
    st.prefetched_target.foldl
      (fun (e : MergingIterator UK) prefetch =>
        (e.updIter (.child prefetch.1)
          (fun w => w.SeekForPrev prefetch.2)).AddToMaxHeapOrCheckStatus
          (.child prefetch.1)) st.e

/-- The method `SkipNextDeleted()`: the new state and the returned flag. On an empty heap (where
the source requires a non-empty one) nothing is done. -/
def SkipNextDeleted (e : MergingIterator UK) : MergingIterator UK × Bool :=
  match e.heap_.top with
  | none => (e, false)
  | some current =>
    let level := (e.deref current).level
    if (e.deref current).type == HeapItemType.DELETE_RANGE_END then
      let e1 := { e with active_ := e.active_.erase level }
      let e2 := e1.setRti level (e1.rti level).Next
      if (e2.rti level).Valid then (e2.InsertRangeTombstoneToMinHeap level true true, true)
      else (e2.minPop, true)
    else if (e.deref current).iter.IsDeleteRangeSentinelKey then
      let e1 := e.minPop
      let e2 : MergingIterator UK :=
        match e1.heap_.top with
        | some t =>
          if (e1.deref t).level == level && (e1.deref t).type == HeapItemType.DELETE_RANGE_END
          then { e1.minPop with active_ := e1.active_.erase level }
          else e1
        | none => e1
      let e3 := e2.updIter current (fun w => w.Next)
      let e4 := if (e3.deref current).iter.Valid then e3.minPush current else e3
      let e5 :=
        if (e4.range_tombstone_iters_[level]?.getD none).isSome && (e4.rti level).Valid then
          e4.InsertRangeTombstoneToMinHeap level true false
        else e4
      (e5, true)
    else
      let pik := (e.deref current).iter.key
      match e.active_.head? with
      | some i =>
        if i < level then
          (e.SeekImpl (e.rti i).end_key level, true)
        else if i == level then
          if pik.sequence < (e.rti level).seq then
            let e1 := e.updIter current (fun w => w.Next)
            if (e1.deref current).iter.Valid then (e1.minReplaceTop current, true)
            else (e1.minPop, true)
          else (e, false)
        else (e, false)
      | none => (e, false)

/-- The method `SkipPrevDeleted()`. -/
def SkipPrevDeleted (e : MergingIterator UK) : MergingIterator UK × Bool :=
  match e.heap_.top with
  | none => (e, false)
  | some current =>
    let level := (e.deref current).level
    if (e.deref current).type == HeapItemType.DELETE_RANGE_START then
      let e1 := { e with active_ := e.active_.erase level }
      let e2 := e1.setRti level (e1.rti level).Prev
      if (e2.rti level).Valid then (e2.InsertRangeTombstoneToMaxHeap level true true, true)
      else (e2.maxPop, true)
    else if (e.deref current).iter.IsDeleteRangeSentinelKey then
      let e1 := e.maxPop
      let e2 : MergingIterator UK :=
        match e1.heap_.top with
        | some t =>
          if (e1.deref t).level == level && (e1.deref t).type == HeapItemType.DELETE_RANGE_START
          then { e1.maxPop with active_ := e1.active_.erase level }
          else e1
        | none => e1
      let e3 := e2.updIter current (fun w => w.Prev)
      let e4 := if (e3.deref current).iter.Valid then e3.maxPush current else e3
      let e5 :=
        if (e4.range_tombstone_iters_[level]?.getD none).isSome && (e4.rti level).Valid then
          e4.InsertRangeTombstoneToMaxHeap level true false
        else e4
      (e5, true)
    else
      let pik := (e.deref current).iter.key
      match e.active_.head? with
      | some i =>
        if i < level then
          (e.SeekForPrevImpl (e.rti i).start_key (i + 1), true)
        else if i == level then
          if pik.sequence < (e.rti level).seq then
            let e1 := e.updIter current (fun w => w.Prev)
            if (e1.deref current).iter.Valid then (e1.maxReplaceTop current, true)
            else (e1.maxPop, true)
          else (e, false)
        else (e, false)
      | none => (e, false)

/-- The `while` loop of `FindNextVisibleKeySlowPath`, one unit of fuel per evaluation of its
condition; `none` when the fuel runs out. -/
def FindNextVisibleKeyLoop : Nat → MergingIterator UK → Option (MergingIterator UK)
  | 0, _ => none
  | fuel + 1, e =>
    match e.heap_.top with
    | none => some e
    | some t =>
      if !e.active_.isEmpty || (e.deref t).IsDeleteRangeSentinelKey then
        if e.SkipNextDeleted.2 then
          match e.SkipNextDeleted.1.PopDeleteRangeStart with
          | some e1 => FindNextVisibleKeyLoop fuel e1
          | none => none
        else some e.SkipNextDeleted.1
      else some e

def FindNextVisibleKeySlowPath (fuel : Nat) (e : MergingIterator UK) :
    Option (MergingIterator UK) :=
  match e.PopDeleteRangeStart with
  | some e1 => FindNextVisibleKeyLoop fuel e1
  | none => none

def FindNextVisibleKey (fuel : Nat) (e : MergingIterator UK) : Option (MergingIterator UK) :=
  if e.range_tombstone_iters_.isEmpty then some e
  else FindNextVisibleKeySlowPath fuel e

def FindPrevVisibleKeyLoop : Nat → MergingIterator UK → Option (MergingIterator UK)
  | 0, _ => none
  | fuel + 1, e =>
    match e.heap_.top with
    | none => some e
    | some t =>
      if !e.active_.isEmpty || (e.deref t).IsDeleteRangeSentinelKey then
        if e.SkipPrevDeleted.2 then
          match e.SkipPrevDeleted.1.PopDeleteRangeEnd with
          | some e1 => FindPrevVisibleKeyLoop fuel e1
          | none => none
        else some e.SkipPrevDeleted.1
      else some e

def FindPrevVisibleKeySlowPath (fuel : Nat) (e : MergingIterator UK) :
    Option (MergingIterator UK) :=
  match e.PopDeleteRangeEnd with
  | some e1 => FindPrevVisibleKeyLoop fuel e1
  | none => none

def FindPrevVisibleKey (fuel : Nat) (e : MergingIterator UK) : Option (MergingIterator UK) :=
  if e.range_tombstone_iters_.isEmpty then some e
  else FindPrevVisibleKeySlowPath fuel e

/-- The public method `SeekToFirst()`. The argument `fuel` bounds the visibility loop; the result
is `none` when it does not suffice. -/
def SeekToFirst (fuel : Nat) (e : MergingIterator UK) : Option (MergingIterator UK) :=
  let e0 := { e.ClearHeaps true with status_ := Status.OK }
  let e1 := (List.range e0.children_.length).foldl
    (fun (e : MergingIterator UK) level =>
      (e.updIter (.child level) (fun w => w.SeekToFirst)).AddToMinHeapOrCheckStatus
        (.child level)) e0
  let e2 := (List.range e1.range_tombstone_iters_.length).foldl
    (fun (e : MergingIterator UK) i =>
      match e.range_tombstone_iters_[i]?.getD none with
      | some it =>
        let e := e.setRti i it.SeekToFirst
        if (e.rti i).Valid then e.InsertRangeTombstoneToMinHeap i true false else e
      | none => e) e1
  match e2.FindNextVisibleKey fuel with
  | some e3 =>
    let e4 := { e3 with direction_ := Direction.kForward }
    some { e4 with current_ := e4.CurrentForward }
  | none => none

/-- The public method `SeekToLast()`. -/
def SeekToLast (fuel : Nat) (e : MergingIterator UK) : Option (MergingIterator UK) :=
  let e0 := { (e.ClearHeaps true).InitMaxHeap with status_ := Status.OK }
  let e1 := (List.range e0.children_.length).foldl
    (fun (e : MergingIterator UK) level =>
      (e.updIter (.child level) (fun w => w.SeekToLast)).AddToMaxHeapOrCheckStatus
        (.child level)) e0
  let e2 := (List.range e1.range_tombstone_iters_.length).foldl
    (fun (e : MergingIterator UK) i =>
      match e.range_tombstone_iters_[i]?.getD none with
      | some it =>
        let e := e.setRti i it.SeekToLast
        if (e.rti i).Valid then e.InsertRangeTombstoneToMaxHeap i true false else e
      | none => e) e1
  match e2.FindPrevVisibleKey fuel with
  | some e3 =>
    let e4 := { e3 with direction_ := Direction.kReverse }
    some { e4 with current_ := e4.CurrentReverse }
  | none => none

/-- The public method `Seek(target)`. -/
def Seek (fuel : Nat) (e : MergingIterator UK) (target : ParsedInternalKey UK) :
    Option (MergingIterator UK) :=
  match (e.SeekImpl target 0).FindNextVisibleKey fuel with
  | some e1 =>
    let e2 := { e1 with direction_ := Direction.kForward }
    some { e2 with current_ := e2.CurrentForward }
  | none => none

/-- The public method `SeekForPrev(target)`. -/
def SeekForPrev (fuel : Nat) (e : MergingIterator UK) (target : ParsedInternalKey UK) :
    Option (MergingIterator UK) :=
  match (e.SeekForPrevImpl target 0).FindPrevVisibleKey fuel with
  | some e1 =>
    let e2 := { e1 with direction_ := Direction.kReverse }
    some { e2 with current_ := e2.CurrentReverse }
  | none => none

/-- The loop `while (iter->Valid() && Compare(iter->end_key(), pik) <= 0) iter->Next()` of
`SwitchToForward`. -/
def skipEndsAtOrBefore (pik : ParsedInternalKey UK) :
    Nat → TruncatedRangeDelIterator UK → TruncatedRangeDelIterator UK
  | 0, it => it
  | fuel + 1, it =>
    if it.Valid && InternalKeyComparator.Compare it.end_key pik != .gt then
      skipEndsAtOrBefore pik fuel it.Next
    else it

/-- The loop `while (iter->Valid() && Compare(iter->start_key(), pik) > 0) iter->Prev()` of
`SwitchToBackward`. -/
def skipStartsAfter (pik : ParsedInternalKey UK) :
    Nat → TruncatedRangeDelIterator UK → TruncatedRangeDelIterator UK
  | 0, it => it
  | fuel + 1, it =>
    if it.Valid && InternalKeyComparator.Compare it.start_key pik == .gt then
      skipStartsAfter pik fuel it.Prev
    else it

/-- The body of the two child loops of `SwitchToForward` after the seek: step past a record
equal to the target. -/
def stepPastEqualForward (target : ParsedInternalKey UK) (w : IteratorWrapper UK) :
    IteratorWrapper UK :=
  if w.Valid && InternalKeyComparator.Equal target w.key then w.Next else w

def stepPastEqualBackward (target : ParsedInternalKey UK) (w : IteratorWrapper UK) :
    IteratorWrapper UK :=
  if w.Valid && InternalKeyComparator.Equal target w.key then w.Prev else w

/-- The method `SwitchToForward()`. Each tombstone loop moves its iterator at most once per
tombstone, so its fuel is the number of tombstones plus one. -/
def SwitchToForward (e : MergingIterator UK) : MergingIterator UK :=
  let target := e.key
  let e0 := e.ClearHeaps true
  let e1 := (List.range e0.children_.length).foldl
    (fun (e : MergingIterator UK) level =>
      if e.current_ != some (.child level) then
        let e := e.updIter (.child level) (fun w => w.Seek target)
        if (e.deref (.child level)).iter.status == Status.TryAgain then e
        else
          (e.updIter (.child level) (stepPastEqualForward target)).AddToMinHeapOrCheckStatus
            (.child level)
      else e.AddToMinHeapOrCheckStatus (.child level)) e0
  let e2 := (List.range e1.children_.length).foldl
    (fun (e : MergingIterator UK) level =>
      if (e.deref (.child level)).iter.status == Status.TryAgain then
        ((e.updIter (.child level) (fun w => w.Seek target)).updIter (.child level)
          (stepPastEqualForward target)).AddToMinHeapOrCheckStatus (.child level)
      else e) e1
  let e3 :=
    if !e2.range_tombstone_iters_.isEmpty then
      let pik := target
      (List.range e2.range_tombstone_iters_.length).foldl
        (fun (e : MergingIterator UK) i =>
          match e.range_tombstone_iters_[i]?.getD none with
          | some iter =>
            let e := e.setRti i
              (skipEndsAtOrBefore pik (iter.tombstones.length + 1) (iter.Seek pik.user_key))
            if (e.rti i).Valid then
              e.InsertRangeTombstoneToMinHeap i
                (InternalKeyComparator.Compare (e.rti i).start_key pik == .gt) false
            else e
          | none => e) e2
    else e2
  { e3 with direction_ := Direction.kForward }

/-- The method `SwitchToBackward()`. -/
def SwitchToBackward (e : MergingIterator UK) : MergingIterator UK :=
  let target := e.key
  let e0 := (e.ClearHeaps true).InitMaxHeap
  let e1 := (List.range e0.children_.length).foldl
    (fun (e : MergingIterator UK) level =>
      if e.current_ != some (.child level) then
        ((e.updIter (.child level) (fun w => w.SeekForPrev target)).updIter (.child level)
          (stepPastEqualBackward target)).AddToMaxHeapOrCheckStatus (.child level)
      else e.AddToMaxHeapOrCheckStatus (.child level)) e0
  let pik := target
  let e2 := (List.range e1.range_tombstone_iters_.length).foldl
    (fun (e : MergingIterator UK) i =>
      match e.range_tombstone_iters_[i]?.getD none with
      | some iter =>
        let e := e.setRti i
          (skipStartsAfter pik (iter.tombstones.length + 1) (iter.SeekForPrev pik.user_key))
        if (e.rti i).Valid then
          e.InsertRangeTombstoneToMaxHeap i
            (InternalKeyComparator.Compare (e.rti i).end_key pik != .gt) false
        else e
      | none => e) e1
  let e3 := { e2 with direction_ := Direction.kReverse }
  if !e3.prefix_seek_mode_ then { e3 with current_ := e3.CurrentReverse } else e3

/-- The public method `Next()`. It requires `Valid()`; without a current child nothing is
done. -/
def Next (fuel : Nat) (e : MergingIterator UK) : Option (MergingIterator UK) :=
  match e.current_ with
  | none => some e
  | some _ =>
    let e1 := if e.direction_ != Direction.kForward then e.SwitchToForward else e
    match e1.current_ with
    | none => some e1
    | some current =>
      let e2 := e1.updIter current (fun w => w.Next)
      let e3 :=
        if (e2.deref current).iter.Valid then e2.minUpdateTop
        else (e2.considerStatus (e2.deref current).iter.status).minPop
      match e3.FindNextVisibleKey fuel with
      | some e4 => some { e4 with current_ := e4.CurrentForward }
      | none => none

/-- The public method `Prev()`. It requires `Valid()`; without a current child nothing is
done. -/
def Prev (fuel : Nat) (e : MergingIterator UK) : Option (MergingIterator UK) :=
  match e.current_ with
  | none => some e
  | some _ =>
    let e1 := if e.direction_ != Direction.kReverse then e.SwitchToBackward else e
    match e1.current_ with
    | none => some e1
    | some current =>
      let e2 := e1.updIter current (fun w => w.Prev)
      let e3 :=
        if (e2.deref current).iter.Valid then
          match e2.heap_.top with
          | some t => e2.maxReplaceTop t
          | none => e2
        else (e2.considerStatus (e2.deref current).iter.status).maxPop
      match e3.FindPrevVisibleKey fuel with
      | some e4 => some { e4 with current_ := e4.CurrentReverse }
      | none => none

/-- Collect `key()` and call `Next()` while `Valid()`: at most `n` records, `none` when the
engine is still valid after `n` records or a call runs out of fuel. -/
def collectForward (fuel : Nat) : Nat → MergingIterator UK → Option (List (ParsedInternalKey UK))
  | 0, e => if e.Valid then none else some []
  | n + 1, e =>
    if e.Valid then
      match e.Next fuel with
      | some e1 =>
        match collectForward fuel n e1 with
        | some ks => some (e.key :: ks)
        | none => none
      | none => none
    else some []

/-- Collect `key()` and call `Prev()` while `Valid()`. -/
def collectBackward (fuel : Nat) :
    Nat → MergingIterator UK → Option (List (ParsedInternalKey UK))
  | 0, e => if e.Valid then none else some []
  | n + 1, e =>
    if e.Valid then
      match e.Prev fuel with
      | some e1 =>
        match collectBackward fuel n e1 with
        | some ks => some (e.key :: ks)
        | none => none
      | none => none
    else some []

/-- The forward scan: `SeekToFirst()`, then `Next()` until `Valid()` is false. -/
def forwardScan (fuel n : Nat) (e : MergingIterator UK) : Option (List (ParsedInternalKey UK)) :=
  match e.SeekToFirst fuel with
  | some e1 => collectForward fuel n e1
  | none => none

/-- The backward scan: `SeekToLast()`, then `Prev()` until `Valid()` is false. -/
def backwardScan (fuel n : Nat) (e : MergingIterator UK) :
    Option (List (ParsedInternalKey UK)) :=
  match e.SeekToLast fuel with
  | some e1 => collectBackward fuel n e1
  | none => none

/-- The scan from a target: `Seek(target)`, then `Next()` until `Valid()` is false. -/
def seekScan (fuel n : Nat) (e : MergingIterator UK) (target : ParsedInternalKey UK) :
    Option (List (ParsedInternalKey UK)) :=
  match e.Seek fuel target with
  | some e1 => collectForward fuel n e1
  | none => none

/-- An engine over the given runs and per-run tombstone lists (`none`: the run has no tombstone
iterator), built as `MergeIteratorBuilder` does: constructor, `AddRangeTombstoneIterator` per
run, `Finish`. An empty `tombstones` gives an engine that does not handle tombstones. -/
def build (runs : List (List (ParsedInternalKey UK)))
    (tombstones : List (Option (List (RangeTombstone UK)))) : MergingIterator UK :=
  Finish (tombstones.foldl
    (fun (e : MergingIterator UK) ts =>
      e.AddRangeTombstoneIterator (ts.map (fun l => { tombstones := l })))
    (MergingIterTmpl (runs.map (fun r => { run := r })) false none))

end MergingIterator

/-! ## Part III. Specification predicates -/

namespace BinaryHeap

variable {T : Type}

structure StrictWeakOrder (cmp : T → T → Bool) : Prop where
  irrefl : ∀ a, cmp a a = false
  trans : ∀ a b c, cmp a b = true → cmp b c = true → cmp a c = true
  incomp_trans : ∀ a b c, cmp a b = false → cmp b a = false → cmp b c = false →
    cmp c b = false → cmp a c = false ∧ cmp c a = false

def HeapOrdered (cmp : T → T → Bool) (l : List T) : Prop :=
  ∀ i x p, 0 < i → l[i]? = some x → l[get_parent i]? = some p → cmp p x = false

def CacheValid (cmp : T → T → Bool) (cache : Option Nat) (l : List T) : Prop :=
  ∀ c, cache = some c → c < l.length →
    (c = 1 ∨ c = 2) ∧ ∀ x y, l[c]? = some x → l[3 - c]? = some y → cmp x y = false

def HeapBelowRoot (cmp : T → T → Bool) (l : List T) : Prop :=
  ∀ i x p, 0 < i → get_parent i ≠ 0 → l[i]? = some x → l[get_parent i]? = some p →
    cmp p x = false

def HeapInv (cmp : T → T → Bool) (h : BinaryHeap T) : Prop :=
  HeapOrdered cmp h.data_ ∧ CacheValid cmp h.root_cmp_cache_ h.data_

/-- The order of the natural numbers as a comparator, for concrete instances. -/
def natLess (a b : Nat) : Bool := decide (a < b)

inductive Reachable (cmp : T → T → Bool) : BinaryHeap T → Prop where
  | empty : Reachable cmp {}
  | push (h : BinaryHeap T) (v : T) : Reachable cmp h → Reachable cmp (push cmp h v)
  | pop (h : BinaryHeap T) : Reachable cmp h → h.empty = false → Reachable cmp (pop cmp h)
  | replace_top (h : BinaryHeap T) (v : T) : Reachable cmp h → h.empty = false →
      Reachable cmp (replace_top cmp h v)
  | update_top (h : BinaryHeap T) (w : T) : Reachable cmp h → h.empty = false →
      Reachable cmp (update_top cmp { h with data_ := h.data_.set 0 w })
  | clear (h : BinaryHeap T) : Reachable cmp h → Reachable cmp h.clear

def DownInv (cmp : T → T → Bool) (n : Nat) (v : T) (s : SiftState T) : Prop :=
  s.data.length = n ∧ s.index < n ∧
  (∀ i x p, 0 < i → get_parent i ≠ s.index → (s.data.set s.index v)[i]? = some x →
    (s.data.set s.index v)[get_parent i]? = some p → cmp p x = false) ∧
  (0 < s.index → ∀ c x g, 0 < c → get_parent c = s.index → s.data[c]? = some x →
    (s.data.set s.index v)[get_parent s.index]? = some g → cmp g x = false)

def UpInv (cmp : T → T → Bool) (n : Nat) (v : T) (s : SiftState T) : Prop :=
  s.data.length = n ∧ s.index < n ∧
  (∀ i x p, 0 < i → i ≠ s.index → (s.data.set s.index v)[i]? = some x →
    (s.data.set s.index v)[get_parent i]? = some p → cmp p x = false) ∧
  (0 < s.index → ∀ c x g, 0 < c → get_parent c = s.index →
    (s.data.set s.index v)[c]? = some x →
    (s.data.set s.index v)[get_parent s.index]? = some g → cmp g x = false)

end BinaryHeap

namespace InternalKeyComparator

variable {UK : Type} [LinearOrder UK]

/-- The strict order that `Compare` decides. -/
def keyLt (a b : ParsedInternalKey UK) : Prop :=
  a.user_key < b.user_key ∨ (a.user_key = b.user_key ∧
    (b.sequence < a.sequence ∨ (a.sequence = b.sequence ∧ b.type < a.type)))

/-- `a` is at or before `b`. -/
def keyLe (a b : ParsedInternalKey UK) : Prop := Compare a b ≠ .gt

instance keyLeDecidable (a b : ParsedInternalKey UK) : Decidable (keyLe a b) :=
  inferInstanceAs (Decidable (Compare a b ≠ .gt))

end InternalKeyComparator

namespace MergingIterator

open InternalKeyComparator BinaryHeap

variable {UK : Type} [LinearOrder UK] [Inhabited UK]

/-- A run is sorted: records come in non-decreasing comparator order. -/
def SortedRun (r : List (ParsedInternalKey UK)) : Prop := r.Pairwise keyLe

instance sortedRunDecidable (r : List (ParsedInternalKey UK)) : Decidable (SortedRun r) :=
  inferInstanceAs (Decidable (r.Pairwise keyLe))

/-- What never changes in a child item of level `l`: its level and type, and a wrapped
iterator over a sorted run that reports no error. -/
def ChildStatic (l : Nat) (item : HeapItem UK) : Prop :=
  item.level = l ∧ item.type = HeapItemType.ITERATOR ∧
  ∃ it, item.iter.iter_ = some it ∧ SortedRun it.run ∧ it.corrupt_at = none ∧
    it.async_seek = false

/-- The cache of the wrapper agrees with the wrapped iterator, whose status is ok. -/
def ChildCoherent (item : HeapItem UK) : Prop :=
  ∀ it, item.iter.iter_ = some it →
    it.status_ = Status.OK ∧ item.iter.result_.is_valid = it.pos.isSome ∧
    ∀ i, it.pos = some i → it.run[i]? = some item.iter.result_.key

def ChildOK (l : Nat) (item : HeapItem UK) : Prop := ChildStatic l item ∧ ChildCoherent item

/-- The records of a child from its position to the end of its run. -/
def childRemaining (item : HeapItem UK) : List (ParsedInternalKey UK) :=
  match item.iter.iter_ with
  | some it =>
    match it.pos with
    | some i => it.run.drop i
    | none => []
  | none => []

/-- The run that a child item iterates over. -/
def childRun (item : HeapItem UK) : List (ParsedInternalKey UK) :=
  match item.iter.iter_ with
  | some it => it.run
  | none => []

/-- The records that a forward scan has not passed yet. -/
def remainingForward (e : MergingIterator UK) : List (ParsedInternalKey UK) :=
  e.children_.flatMap childRemaining

/-- The state of an engine without tombstone iterators between two public calls of a forward
scan. -/
structure FwdInv (e : MergingIterator UK) : Prop where
  no_tombstones : e.range_tombstone_iters_ = []
  children_ok : ∀ l item, e.children_[l]? = some item → ChildOK l item
  heap_nodup : e.heap_.data_.Nodup
  heap_mem : ∀ p, p ∈ e.heap_.data_ ↔
    ∃ l item, p = HeapItemPtr.child l ∧ e.children_[l]? = some item ∧ item.iter.Valid = true
  heap_inv : HeapInv e.minCmp e.heap_
  status_ok : e.status_ = Status.OK
  forward : e.direction_ = Direction.kForward
  current_top : e.current_ = e.heap_.top

/-- The state inside the loop that positions every child with `g` and adds the valid ones to
the min-heap, after the levels below `j`; `e0` is the state before the loop. -/
structure FwdLoopInv (g : IteratorWrapper UK → IteratorWrapper UK) (e0 : MergingIterator UK)
    (j : Nat) (e : MergingIterator UK) : Prop where
  no_tombstones : e.range_tombstone_iters_ = []
  track : ∀ l, e.children_[l]? =
    if l < j then (e0.children_[l]?).map (fun item => { item with iter := g item.iter })
    else e0.children_[l]?
  heap_nodup : e.heap_.data_.Nodup
  heap_mem : ∀ p, p ∈ e.heap_.data_ ↔
    ∃ l item, p = HeapItemPtr.child l ∧ l < j ∧ e.children_[l]? = some item ∧
      item.iter.Valid = true
  heap_inv : HeapInv e.minCmp e.heap_
  status_ok : e.status_ = Status.OK

end MergingIterator

/-! ## Part IV. Specification and invariants of the engine with range tombstones -/

namespace MergingIterator

open InternalKeyComparator BinaryHeap

variable {UK : Type} [LinearOrder UK] [Inhabited UK]

/-- A tombstone covers a user key: the key lies in its half-open range. -/
def covers (t : RangeTombstone UK) (u : UK) : Prop :=
  t.start_key.user_key ≤ u ∧ u < t.end_key.user_key

instance coversDecidable (t : RangeTombstone UK) (u : UK) : Decidable (covers t u) :=
  inferInstanceAs (Decidable (_ ∧ _))

/-- The tombstones of run `j`; none where the run has no tombstone iterator. -/
def tombsAt (tombs : List (Option (List (RangeTombstone UK)))) (j : Nat) :
    List (RangeTombstone UK) :=
  (tombs[j]?.getD none).getD []

/-- The record `k` of run `l` is deleted: a tombstone of a run with a smaller index covers its
user key, or a tombstone of its own run covers it and has a larger sequence number. -/
def suppressed (tombs : List (Option (List (RangeTombstone UK)))) (l : Nat)
    (k : ParsedInternalKey UK) : Prop :=
  (∃ j, j < l ∧ ∃ t ∈ tombsAt tombs j, covers t k.user_key) ∨
  (∃ t ∈ tombsAt tombs l, covers t k.user_key ∧ k.sequence < t.seq)

instance suppressedDecidable (tombs : List (Option (List (RangeTombstone UK)))) (l : Nat)
    (k : ParsedInternalKey UK) : Decidable (suppressed tombs l k) :=
  inferInstanceAs (Decidable (_ ∨ _))

/-- The records of run `l` that no tombstone deletes. -/
def visibleOf (tombs : List (Option (List (RangeTombstone UK)))) (l : Nat)
    (r : List (ParsedInternalKey UK)) : List (ParsedInternalKey UK) :=
  r.filter (fun k => decide (¬ suppressed tombs l k))

/-- All records that no tombstone deletes, run by run. -/
def visibleRecords (runs : List (List (ParsedInternalKey UK)))
    (tombs : List (Option (List (RangeTombstone UK)))) : List (ParsedInternalKey UK) :=
  (List.range runs.length).flatMap (fun l => visibleOf tombs l (runs[l]?.getD []))

/-- A tombstone as its iterator presents it: a non-empty range whose boundary keys carry the
largest sequence number and the range-deletion type. -/
structure TombstoneWF (t : RangeTombstone UK) : Prop where
  lt : t.start_key.user_key < t.end_key.user_key
  start_seq : t.start_key.sequence = kMaxSequenceNumber
  start_type : t.start_key.type = kTypeRangeDeletion
  end_seq : t.end_key.sequence = kMaxSequenceNumber
  end_type : t.end_key.type = kTypeRangeDeletion

/-- The tombstones of one run as their iterator presents them: in increasing order and not
overlapping. -/
def TombsWF (ts : List (RangeTombstone UK)) : Prop :=
  (∀ t ∈ ts, TombstoneWF t) ∧
  ts.Pairwise (fun t1 t2 => t1.end_key.user_key ≤ t2.start_key.user_key)

/-- The input of an engine with tombstones: one tombstone slot per run, sorted runs whose
records have sequence numbers below the reserved largest one, well-formed tombstone lists. -/
structure InputWF (runs : List (List (ParsedInternalKey UK)))
    (tombs : List (Option (List (RangeTombstone UK)))) : Prop where
  len : tombs.length = runs.length
  sorted : ∀ r ∈ runs, SortedRun r
  seq_lt : ∀ r ∈ runs, ∀ k ∈ r, k.sequence < kMaxSequenceNumber
  tombs_wf : ∀ j, TombsWF (tombsAt tombs j)

/-- The run of level `l`. -/
def runAt (runs : List (List (ParsedInternalKey UK))) (l : Nat) : List (ParsedInternalKey UK) :=
  runs[l]?.getD []

/-- The position of the child of level `l`. -/
def cpos (e : MergingIterator UK) (l : Nat) : Option Nat :=
  ((e.deref (.child l)).iter.iter_.getD default).pos

/-- The number of records that the child of level `l` has passed in a forward scan. -/
def childIdx (runs : List (List (ParsedInternalKey UK))) (e : MergingIterator UK) (l : Nat) :
    Nat :=
  (cpos e l).getD (runAt runs l).length

/-- The number of tombstones that the tombstone iterator of level `j` has passed in a forward
scan. -/
def tombIdx (e : MergingIterator UK) (j : Nat) : Nat :=
  (e.rti j).pos.getD (e.rti j).tombstones.length

/-- A child item of level `l` over the run `r`: a point item whose wrapped iterator is free of
faults and sentinels, with a coherent cache. -/
def ChildAt (l : Nat) (r : List (ParsedInternalKey UK)) (item : HeapItem UK) : Prop :=
  item.level = l ∧ item.type = HeapItemType.ITERATOR ∧
  ∃ p : Option Nat, item.iter.iter_ = some { run := r, pos := p } ∧
    item.iter.result_.is_valid = p.isSome ∧
    ∀ i, p = some i → r[i]? = some item.iter.result_.key

/-- What holds of the items of an engine over `runs` and `tombs` at any time. -/
structure Base (runs : List (List (ParsedInternalKey UK)))
    (tombs : List (Option (List (RangeTombstone UK)))) (e : MergingIterator UK) : Prop where
  wf : InputWF runs tombs
  children_len : e.children_.length = runs.length
  rti_len : e.range_tombstone_iters_.length = runs.length
  pinned_len : e.pinned_heap_item_.length = runs.length
  child_at : ∀ l, l < runs.length → ChildAt l (runAt runs l) (e.deref (.child l))
  rti_slot : ∀ j, j < runs.length →
    (e.range_tombstone_iters_[j]?.getD none).isSome = (tombs[j]?.getD none).isSome
  rti_tombs : ∀ j, j < runs.length → (e.rti j).tombstones = tombsAt tombs j
  rti_pos : ∀ j i, j < runs.length → (e.rti j).pos = some i → i < (tombsAt tombs j).length
  pinned_at : ∀ j, j < runs.length →
    (e.deref (.pinned j)).level = j ∧ (e.deref (.pinned j)).parsed_ikey.type = kTypeMaxValid
  status_ok : e.status_ = Status.OK
  no_upper_bound : e.iterate_upper_bound_ = none

/-- The boundary item of level `j` shows the start key, or the end key, of the current
tombstone of that level. -/
def PinnedCoherent (e : MergingIterator UK) (j : Nat) : Prop :=
  ((e.deref (.pinned j)).type = HeapItemType.DELETE_RANGE_START ∧
    (e.deref (.pinned j)).parsed_ikey.user_key = (e.rti j).start_key.user_key ∧
    (e.deref (.pinned j)).parsed_ikey.sequence = kMaxSequenceNumber) ∨
  ((e.deref (.pinned j)).type = HeapItemType.DELETE_RANGE_END ∧
    (e.deref (.pinned j)).parsed_ikey.user_key = (e.rti j).end_key.user_key ∧
    (e.deref (.pinned j)).parsed_ikey.sequence = kMaxSequenceNumber)

/-- The boundary items and the active set of the levels below `c` in a forward scan; no level
from `c` on is active. -/
structure TombPart (c : Nat) (e : MergingIterator UK) : Prop where
  pinned_key : ∀ j, j < c → (e.rti j).Valid = true → PinnedCoherent e j
  active_iff : ∀ j, j ∈ e.active_ ↔
    j < c ∧ (e.rti j).Valid = true ∧
      (e.deref (.pinned j)).type = HeapItemType.DELETE_RANGE_END
  active_sorted : e.active_.Pairwise (fun x y => x < y)

/-- The min-heap holds the valid children of the levels below `a` and the boundary items of
the valid tombstone iterators of the levels below `b`. -/
structure HeapPart (a b : Nat) (e : MergingIterator UK) : Prop where
  nodup : e.heap_.data_.Nodup
  mem_child : ∀ l, HeapItemPtr.child l ∈ e.heap_.data_ ↔
    l < a ∧ (e.deref (.child l)).iter.Valid = true
  mem_pinned : ∀ j, HeapItemPtr.pinned j ∈ e.heap_.data_ ↔ j < b ∧ (e.rti j).Valid = true
  inv : HeapInv e.minCmp e.heap_

/-- The state of a forward scan over `runs` and `tombs`. -/
structure Struct (runs : List (List (ParsedInternalKey UK)))
    (tombs : List (Option (List (RangeTombstone UK)))) (e : MergingIterator UK) : Prop where
  base : Base runs tombs e
  tomb : TombPart runs.length e
  heap : HeapPart runs.length runs.length e

/-- The key of a heap entry as the comparator reads it now. -/
def hkey (e : MergingIterator UK) (p : HeapItemPtr) : ParsedInternalKey UK :=
  (e.deref p).heapKey

/-- The key of the valid child of level `l`. -/
def ckey (e : MergingIterator UK) (l : Nat) : ParsedInternalKey UK :=
  (e.deref (.child l)).iter.key

def cvalid (e : MergingIterator UK) (l : Nat) : Bool := (e.deref (.child l)).iter.Valid

/-- For a valid child of level `L` and a level `j ≤ L`: every tombstone that the iterator of
level `j` has passed ends at or before the key of the child. -/
def PassedTombs (runs : List (List (ParsedInternalKey UK)))
    (tombs : List (Option (List (RangeTombstone UK)))) (e : MergingIterator UK) : Prop :=
  ∀ j L, j ≤ L → L < runs.length → cvalid e L = true →
    ∀ t ∈ (tombsAt tombs j).take (tombIdx e j), t.end_key.user_key ≤ (ckey e L).user_key

/-- For a valid child of level `L` and an active level `j ≤ L`: the current tombstone of
level `j` starts at or before the key of the child. -/
def ActiveStarted (runs : List (List (ParsedInternalKey UK))) (e : MergingIterator UK) : Prop :=
  ∀ j L, j ≤ L → L < runs.length → cvalid e L = true → j ∈ e.active_ →
    (e.rti j).start_key.user_key ≤ (ckey e L).user_key

/-- Every entry of the heap is at or after `B`. -/
def LowerBound (B : ParsedInternalKey UK) (e : MergingIterator UK) : Prop :=
  ∀ p ∈ e.heap_.data_, keyLe B (hkey e p)

/-- Every record after `B` that a child has passed is deleted. -/
def PassedRecords (runs : List (List (ParsedInternalKey UK)))
    (tombs : List (Option (List (RangeTombstone UK)))) (B : ParsedInternalKey UK)
    (e : MergingIterator UK) : Prop :=
  ∀ l idx r, l < runs.length → idx < childIdx runs e l → (runAt runs l)[idx]? = some r →
    keyLt B r → suppressed tombs l r

/-- The invariant of the visibility loop of a forward scan. -/
structure FwdT (runs : List (List (ParsedInternalKey UK)))
    (tombs : List (Option (List (RangeTombstone UK)))) (e : MergingIterator UK) : Prop where
  struct : Struct runs tombs e
  passed_tombs : PassedTombs runs tombs e
  active_started : ActiveStarted runs e
  bound : ∃ B, LowerBound B e ∧ PassedRecords runs tombs B e

/-- The visible records that a forward scan has not passed yet. -/
def visRem (runs : List (List (ParsedInternalKey UK)))
    (tombs : List (Option (List (RangeTombstone UK)))) (e : MergingIterator UK) :
    List (ParsedInternalKey UK) :=
  (List.range runs.length).flatMap
    (fun l => visibleOf tombs l ((runAt runs l).drop (childIdx runs e l)))

/-- The position of the wrapped iterator of an item. -/
def ipos (item : HeapItem UK) : Option Nat := (item.iter.iter_.getD default).pos

/-- The position that `place` gives: valid below the length. -/
def placePos (n p : Nat) : Option Nat := if p < n then some p else none

/-- The body of `InsertRangeTombstoneToMinHeap` before the heap operation, without an upper
bound. -/
def stampPinned (e : MergingIterator UK) (level : Nat) (start_key : Bool) : MergingIterator UK :=
  if start_key then
    e.store (.pinned level)
      { (e.deref (.pinned level)).SetTombstoneKey (e.rti level).start_key with
        type := HeapItemType.DELETE_RANGE_START }
  else
    { e.store (.pinned level)
        { (e.deref (.pinned level)).SetTombstoneKey (e.rti level).end_key with
          type := HeapItemType.DELETE_RANGE_END } with
      active_ := setInsert level e.active_ }

/-- The entries that the min-heap is to hold: see `HeapPart`. -/
def InHeapSpec (a b : Nat) (e : MergingIterator UK) : HeapItemPtr → Prop
  | .child l => l < a ∧ (e.deref (.child l)).iter.Valid = true
  | .pinned j => j < b ∧ (e.rti j).Valid = true

/-- The progress of the tombstone iterator of level `j` in a forward scan: twice the number
of passed tombstones, plus one once the start of the current tombstone is passed. -/
def tau (e : MergingIterator UK) (j : Nat) : Nat :=
  2 * tombIdx e j +
    (if (e.rti j).Valid = true ∧ (e.deref (.pinned j)).type = HeapItemType.DELETE_RANGE_END
     then 1 else 0)

/-- The state `e'` is ahead of `e` in the order of the levels: up to some level nothing has
changed, and at that level the child is ahead, or it is where it was and the tombstone
iterator is ahead. -/
def LexLt (runs : List (List (ParsedInternalKey UK))) (e e' : MergingIterator UK) : Prop :=
  ∃ l, l < runs.length ∧
    (∀ l', l' < l → childIdx runs e' l' = childIdx runs e l' ∧ tau e' l' = tau e l') ∧
    (childIdx runs e l < childIdx runs e' l ∨
      (childIdx runs e' l = childIdx runs e l ∧ tau e l < tau e' l))

/-- The child on top of the min-heap steps forward and the heap is repaired: `update_top` if
the child is still valid, `pop` if not. -/
def advanceTop (e : MergingIterator UK) (s : Nat) : MergingIterator UK :=
  if ((e.updIter (.child s) (fun w => w.Next)).deref (.child s)).iter.Valid then
    (e.updIter (.child s) (fun w => w.Next)).minUpdateTop
  else (e.updIter (.child s) (fun w => w.Next)).minPop

/-- The state in the loops of `SeekImpl` that put the levels below the starting level back:
only the heap differs from the state `e` at the call. -/
structure RefillInv (runs : List (List (ParsedInternalKey UK)))
    (B : ParsedInternalKey UK) (e : MergingIterator UK) (a b : Nat)
    (e' : MergingIterator UK) : Prop where
  children : e'.children_ = e.children_
  pinned : e'.pinned_heap_item_ = e.pinned_heap_item_
  rtis : e'.range_tombstone_iters_ = e.range_tombstone_iters_
  active : e'.active_ = e.active_
  status : e'.status_ = Status.OK
  upper : e'.iterate_upper_bound_ = none
  heap : HeapPart a b e'
  bound : LowerBound B e'

/-- The invariant of the main loop of `SeekImpl(target, s)` before the level `lv`, for a call
in the state `e`; `B` is a lower bound of all keys that matter. -/
structure SeekInv (runs : List (List (ParsedInternalKey UK)))
    (tombs : List (Option (List (RangeTombstone UK)))) (e : MergingIterator UK)
    (B target : ParsedInternalKey UK) (s lv : Nat) (st : SeekLoopState UK) : Prop where
  base : Base runs tombs st.e
  tomb : TombPart lv st.e
  heap : HeapPart lv lv st.e
  bound : LowerBound B st.e
  no_prefetch : st.prefetched_target = []
  child_low : ∀ l, l < s → st.e.deref (.child l) = e.deref (.child l)
  rti_low : ∀ j, j < s → st.e.rti j = e.rti j
  pinned_low : ∀ j, j < s → st.e.deref (.pinned j) = e.deref (.pinned j)
  target_le : keyLe target st.current_search_key
  csk_init : lv = s → st.current_search_key = target
  pt : ∀ j L, j ≤ L → L < lv → cvalid st.e L = true →
    ∀ t ∈ (tombsAt tombs j).take (tombIdx st.e j),
      t.end_key.user_key ≤ (ckey st.e L).user_key
  pt' : ∀ j, j < lv → ∀ t ∈ (tombsAt tombs j).take (tombIdx st.e j),
    t.end_key.user_key ≤ st.current_search_key.user_key
  as : ∀ j L, j ≤ L → L < lv → cvalid st.e L = true → j ∈ st.e.active_ →
    (st.e.rti j).start_key.user_key ≤ (ckey st.e L).user_key
  as' : ∀ j, j < lv → j ∈ st.e.active_ →
    (st.e.rti j).start_key.user_key ≤ st.current_search_key.user_key
  sp : ∀ l idx r, s ≤ l → l < lv → idx < childIdx runs st.e l →
    (runAt runs l)[idx]? = some r → keyLe B r → suppressed tombs l r
  rt : ∀ l idx r, s ≤ l → l < lv → childIdx runs st.e l ≤ idx →
    (runAt runs l)[idx]? = some r → keyLe target r
  cc : ∀ l r, lv ≤ l → l < runs.length → r ∈ runAt runs l → keyLe B r →
    keyLt r st.current_search_key → suppressed tombs l r
  first : s < lv → childIdx runs st.e s =
    ((runAt runs s).takeWhile (fun k => Compare k target == .lt)).length

/-- The progress of level `l` as one number: the position of the child, then the progress
of the tombstone iterator. -/
def digit (runs : List (List (ParsedInternalKey UK)))
    (tombs : List (Option (List (RangeTombstone UK)))) (e : MergingIterator UK) (l : Nat) :
    Nat :=
  childIdx runs e l * (2 * (tombsAt tombs l).length + 1) + tau e l

/-- The number of values that `digit` has at level `l`. -/
def digitBase (runs : List (List (ParsedInternalKey UK)))
    (tombs : List (Option (List (RangeTombstone UK)))) (l : Nat) : Nat :=
  ((runAt runs l).length + 1) * (2 * (tombsAt tombs l).length + 1)

/-- The progress of the levels below `k` as one number, the smallest level weighing most. -/
def rankUpTo (runs : List (List (ParsedInternalKey UK)))
    (tombs : List (Option (List (RangeTombstone UK)))) (e : MergingIterator UK) : Nat → Nat
  | 0 => 0
  | k + 1 => rankUpTo runs tombs e k * digitBase runs tombs k + digit runs tombs e k

/-- The number of values that `rankUpTo` has: a bound on the number of steps of the
visibility loops. -/
def rankBound (runs : List (List (ParsedInternalKey UK)))
    (tombs : List (Option (List (RangeTombstone UK)))) : Nat → Nat
  | 0 => 1
  | k + 1 => rankBound runs tombs k * digitBase runs tombs k

/-- The progress of a state of a forward scan. -/
def rank (runs : List (List (ParsedInternalKey UK)))
    (tombs : List (Option (List (RangeTombstone UK)))) (e : MergingIterator UK) : Nat :=
  rankUpTo runs tombs e runs.length

/-- The number of start keys of tombstones in the heap. -/
def startCount (e : MergingIterator UK) : Nat :=
  e.heap_.data_.countP (fun p => (e.deref p).type == HeapItemType.DELETE_RANGE_START)

/-- The state in which the visibility loop ends: the heap is empty, or a child with a visible
record is on top. -/
def TopVisible (tombs : List (Option (List (RangeTombstone UK)))) (e : MergingIterator UK) :
    Prop :=
  ∀ t, e.heap_.top = some t → ∃ s, t = .child s ∧ ¬ suppressed tombs s (ckey e s)

/-- The state of a forward scan between two public calls: the visibility loop has ended, and
the current record is the top of the heap. -/
structure ScanInv (runs : List (List (ParsedInternalKey UK)))
    (tombs : List (Option (List (RangeTombstone UK)))) (e : MergingIterator UK) : Prop where
  fwd : FwdT runs tombs e
  vis : TopVisible tombs e
  current : e.current_ = e.heap_.top
  forward : e.direction_ = Direction.kForward

/-- The state in the first loop of `SeekToFirst`, after the levels below `k`. -/
structure FirstA (runs : List (List (ParsedInternalKey UK)))
    (tombs : List (Option (List (RangeTombstone UK)))) (k : Nat) (e : MergingIterator UK) :
    Prop where
  base : Base runs tombs e
  active : e.active_ = []
  heap : HeapPart k 0 e
  idx : ∀ l, l < k → childIdx runs e l = 0

/-- The state in the second loop of `SeekToFirst`, after the levels below `k`. -/
structure FirstB (runs : List (List (ParsedInternalKey UK)))
    (tombs : List (Option (List (RangeTombstone UK)))) (k : Nat) (e : MergingIterator UK) :
    Prop where
  base : Base runs tombs e
  active : e.active_ = []
  tomb : TombPart k e
  heap : HeapPart runs.length k e
  idx : ∀ l, l < runs.length → childIdx runs e l = 0
  tidx : ∀ j, j < k → tombIdx e j = 0

/-- The range tombstone `[a, c)` with sequence number `s` as the tombstone iterator presents
it. -/
def mkTombstone (a c : UK) (s : Nat) : RangeTombstone UK :=
  { start_key := ⟨a, kMaxSequenceNumber, kTypeRangeDeletion⟩,
    end_key := ⟨c, kMaxSequenceNumber, kTypeRangeDeletion⟩,
    seq := s }

/-- The tombstone slots of an engine with `n` runs whose only tombstone is `[a, c)` with
sequence number `s` on run `L`. -/
def singleTombstone (n L : Nat) (a c : UK) (s : Nat) :
    List (Option (List (RangeTombstone UK))) :=
  (List.replicate n none).set L (some [mkTombstone a c s])

/-- The record `k` of run `l` is deleted by the tombstone `[a, c)` with sequence number `s` of
run `L`: its user key is in the range, and it is on run `L` with a smaller sequence number or
on a run with a larger index. -/
def deletedBy (L : Nat) (a c : UK) (s : Nat) (l : Nat) (k : ParsedInternalKey UK) : Prop :=
  a ≤ k.user_key ∧ k.user_key < c ∧ ((l = L ∧ k.sequence < s) ∨ L < l)

instance deletedByDecidable (L : Nat) (a c : UK) (s : Nat) (l : Nat)
    (k : ParsedInternalKey UK) : Decidable (deletedBy L a c s l k) :=
  inferInstanceAs (Decidable (_ ∧ _))

/-- The tombstones of one run as their iterator presents them, as a property that can be
checked: every range is non-empty, the boundary keys carry the largest sequence number and the
range-deletion type, and the ranges come in increasing order without overlap. -/
def TombsOK (ts : List (RangeTombstone UK)) : Prop :=
  (∀ t ∈ ts, t.start_key.user_key < t.end_key.user_key ∧
    t.start_key.sequence = kMaxSequenceNumber ∧ t.start_key.type = kTypeRangeDeletion ∧
    t.end_key.sequence = kMaxSequenceNumber ∧ t.end_key.type = kTypeRangeDeletion) ∧
  ts.Pairwise (fun t1 t2 => t1.end_key.user_key ≤ t2.start_key.user_key)

instance tombsOKDecidable (ts : List (RangeTombstone UK)) : Decidable (TombsOK ts) :=
  inferInstanceAs (Decidable (_ ∧ _))

/-- The input of an engine with tombstones, as a property that can be checked: one tombstone
slot per run, sorted runs whose records have sequence numbers below the reserved largest one,
and tombstone lists as their iterators present them. -/
def WellFormedInput (runs : List (List (ParsedInternalKey UK)))
    (tombs : List (Option (List (RangeTombstone UK)))) : Prop :=
  tombs.length = runs.length ∧ (∀ r ∈ runs, SortedRun r) ∧
  (∀ r ∈ runs, ∀ k ∈ r, k.sequence < kMaxSequenceNumber) ∧
  (∀ ts ∈ tombs, TombsOK (ts.getD []))

instance wellFormedInputDecidable (runs : List (List (ParsedInternalKey UK)))
    (tombs : List (Option (List (RangeTombstone UK)))) : Decidable (WellFormedInput runs tombs) :=
  inferInstanceAs (Decidable (_ ∧ _))

/-- The number of records that the child of level `l` has not passed in a backward scan: the
current record and those before it. -/
def childCnt (e : MergingIterator UK) (l : Nat) : Nat :=
  match cpos e l with
  | some i => i + 1
  | none => 0

/-- The number of tombstones that the tombstone iterator of level `j` has not passed in a
backward scan. -/
def tombCnt (e : MergingIterator UK) (j : Nat) : Nat :=
  match (e.rti j).pos with
  | some i => i + 1
  | none => 0

/-- The boundary items and the active set of the levels below `c` in a backward scan: a level
is active while its boundary item shows the start key. -/
structure TombPartR (c : Nat) (e : MergingIterator UK) : Prop where
  pinned_key : ∀ j, j < c → (e.rti j).Valid = true → PinnedCoherent e j
  active_iff : ∀ j, j ∈ e.active_ ↔
    j < c ∧ (e.rti j).Valid = true ∧
      (e.deref (.pinned j)).type = HeapItemType.DELETE_RANGE_START
  active_sorted : e.active_.Pairwise (fun x y => x < y)

/-- The max-heap holds the valid children of the levels below `a` and the boundary items of
the valid tombstone iterators of the levels below `b`. -/
structure HeapPartR (a b : Nat) (e : MergingIterator UK) : Prop where
  nodup : e.heap_.data_.Nodup
  mem_child : ∀ l, HeapItemPtr.child l ∈ e.heap_.data_ ↔
    l < a ∧ (e.deref (.child l)).iter.Valid = true
  mem_pinned : ∀ j, HeapItemPtr.pinned j ∈ e.heap_.data_ ↔ j < b ∧ (e.rti j).Valid = true
  inv : HeapInv e.maxCmp e.heap_

/-- The state of a backward scan over `runs` and `tombs`. -/
structure StructR (runs : List (List (ParsedInternalKey UK)))
    (tombs : List (Option (List (RangeTombstone UK)))) (e : MergingIterator UK) : Prop where
  base : Base runs tombs e
  tomb : TombPartR runs.length e
  heap : HeapPartR runs.length runs.length e

/-- For a valid child of level `L` and a level `j ≤ L`: every tombstone that the iterator of
level `j` has passed in a backward scan starts after the key of the child. -/
def PassedTombsR (runs : List (List (ParsedInternalKey UK)))
    (tombs : List (Option (List (RangeTombstone UK)))) (e : MergingIterator UK) : Prop :=
  ∀ j L, j ≤ L → L < runs.length → cvalid e L = true →
    ∀ t ∈ (tombsAt tombs j).drop (tombCnt e j), (ckey e L).user_key < t.start_key.user_key

/-- For a valid child of level `L` and an active level `j ≤ L`: the current tombstone of
level `j` ends after the key of the child. -/
def ActiveEnded (runs : List (List (ParsedInternalKey UK))) (e : MergingIterator UK) : Prop :=
  ∀ j L, j ≤ L → L < runs.length → cvalid e L = true → j ∈ e.active_ →
    (ckey e L).user_key < (e.rti j).end_key.user_key

/-- Every entry of the heap is at or before `B`. -/
def UpperBound (B : ParsedInternalKey UK) (e : MergingIterator UK) : Prop :=
  ∀ p ∈ e.heap_.data_, keyLe (hkey e p) B

/-- Every record before `B` that a child has passed in a backward scan is deleted. -/
def PassedRecordsR (runs : List (List (ParsedInternalKey UK)))
    (tombs : List (Option (List (RangeTombstone UK)))) (B : ParsedInternalKey UK)
    (e : MergingIterator UK) : Prop :=
  ∀ l idx r, l < runs.length → childCnt e l ≤ idx → (runAt runs l)[idx]? = some r →
    keyLt r B → suppressed tombs l r

/-- Every record that the child of a level has passed in a backward scan is at or after the
key of every valid child of a later level. -/
def PassedAbove (runs : List (List (ParsedInternalKey UK))) (e : MergingIterator UK) : Prop :=
  ∀ L L' idx r, L < L' → L' < runs.length → cvalid e L' = true → childCnt e L ≤ idx →
    (runAt runs L)[idx]? = some r → keyLe (ckey e L') r

/-- The invariant of the visibility loop of a backward scan. -/
structure BwdT (runs : List (List (ParsedInternalKey UK)))
    (tombs : List (Option (List (RangeTombstone UK)))) (e : MergingIterator UK) : Prop where
  struct : StructR runs tombs e
  passed_tombs : PassedTombsR runs tombs e
  active_ended : ActiveEnded runs e
  passed_above : PassedAbove runs e
  bound : ∃ B, UpperBound B e ∧ PassedRecordsR runs tombs B e

/-- The visible records that a backward scan has not passed yet. -/
def visRemR (runs : List (List (ParsedInternalKey UK)))
    (tombs : List (Option (List (RangeTombstone UK)))) (e : MergingIterator UK) :
    List (ParsedInternalKey UK) :=
  (List.range runs.length).flatMap
    (fun l => visibleOf tombs l ((runAt runs l).take (childCnt e l)))

/-- The position whose count of records at or before it is `n`; none for no record. -/
def cntPos : Nat → Option Nat
  | 0 => none
  | n + 1 => some n

/-- The body of `InsertRangeTombstoneToMaxHeap` before the heap operation. -/
def stampPinnedR (e : MergingIterator UK) (level : Nat) (end_key : Bool) : MergingIterator UK :=
  if end_key then
    e.store (.pinned level)
      { (e.deref (.pinned level)).SetTombstoneKey (e.rti level).end_key with
        type := HeapItemType.DELETE_RANGE_END }
  else
    { e.store (.pinned level)
        { (e.deref (.pinned level)).SetTombstoneKey (e.rti level).start_key with
          type := HeapItemType.DELETE_RANGE_START } with
      active_ := setInsert level e.active_ }

/-- What is left for the tombstone iterator of level `j` in a backward scan: twice the number
of tombstones not passed, less one once the end of the current tombstone is passed. -/
def tauR (e : MergingIterator UK) (j : Nat) : Nat :=
  2 * tombCnt e j -
    (if (e.rti j).Valid = true ∧ (e.deref (.pinned j)).type = HeapItemType.DELETE_RANGE_START
     then 1 else 0)

/-- The state `e'` is ahead of `e` in the order of the levels of a backward scan: up to some
level nothing has changed, and at that level the child is ahead, or it is where it was and the
tombstone iterator is ahead. -/
def LexLtR (runs : List (List (ParsedInternalKey UK))) (e e' : MergingIterator UK) : Prop :=
  ∃ l, l < runs.length ∧
    (∀ l', l' < l → childCnt e' l' = childCnt e l' ∧ tauR e' l' = tauR e l') ∧
    (childCnt e' l < childCnt e l ∨
      (childCnt e' l = childCnt e l ∧ tauR e' l < tauR e l))

/-- The child on top of the max-heap steps back and the heap is repaired: `replace_top` by
itself if the child is still valid, `pop` if not. -/
def retreatTop (e : MergingIterator UK) (s : Nat) : MergingIterator UK :=
  if ((e.updIter (.child s) (fun w => w.Prev)).deref (.child s)).iter.Valid then
    (e.updIter (.child s) (fun w => w.Prev)).maxReplaceTop (.child s)
  else (e.updIter (.child s) (fun w => w.Prev)).maxPop

/-- The state in the loops of `SeekForPrevImpl` that put the levels below the starting level back:
only the heap differs from the state `e` at the call. -/
structure RefillInvR (runs : List (List (ParsedInternalKey UK)))
    (B : ParsedInternalKey UK) (e : MergingIterator UK) (a b : Nat)
    (e' : MergingIterator UK) : Prop where
  children : e'.children_ = e.children_
  pinned : e'.pinned_heap_item_ = e.pinned_heap_item_
  rtis : e'.range_tombstone_iters_ = e.range_tombstone_iters_
  active : e'.active_ = e.active_
  status : e'.status_ = Status.OK
  upper : e'.iterate_upper_bound_ = none
  heap : HeapPartR a b e'
  bound : UpperBound B e'

/-- The invariant of the main loop of `SeekForPrevImpl(target, s)` before the level `lv`, for
a call in the state `e`; `B` is an upper bound of all keys that matter. -/
structure SeekInvR (runs : List (List (ParsedInternalKey UK)))
    (tombs : List (Option (List (RangeTombstone UK)))) (e : MergingIterator UK)
    (B target : ParsedInternalKey UK) (s lv : Nat) (st : SeekLoopState UK) : Prop where
  base : Base runs tombs st.e
  tomb : TombPartR lv st.e
  heap : HeapPartR lv lv st.e
  bound : UpperBound B st.e
  no_prefetch : st.prefetched_target = []
  child_low : ∀ l, l < s → st.e.deref (.child l) = e.deref (.child l)
  rti_low : ∀ j, j < s → st.e.rti j = e.rti j
  pinned_low : ∀ j, j < s → st.e.deref (.pinned j) = e.deref (.pinned j)
  csk_uk : st.current_search_key.user_key ≤ target.user_key
  csk_rec : ∀ r : ParsedInternalKey UK, r.sequence < kMaxSequenceNumber →
    keyLe r st.current_search_key → keyLe r target
  pt : ∀ j L, j ≤ L → L < lv → cvalid st.e L = true →
    ∀ t ∈ (tombsAt tombs j).drop (tombCnt st.e j),
      (ckey st.e L).user_key < t.start_key.user_key
  pt' : ∀ j, j < lv → ∀ t ∈ (tombsAt tombs j).drop (tombCnt st.e j),
    st.current_search_key.user_key < t.start_key.user_key
  as : ∀ j L, j ≤ L → L < lv → cvalid st.e L = true → j ∈ st.e.active_ →
    (ckey st.e L).user_key < (st.e.rti j).end_key.user_key
  as' : ∀ j, j < lv → j ∈ st.e.active_ →
    st.current_search_key.user_key < (st.e.rti j).end_key.user_key
  sp : ∀ l idx r, s ≤ l → l < lv → childCnt st.e l ≤ idx →
    (runAt runs l)[idx]? = some r → keyLe r B → suppressed tombs l r
  rt : ∀ l idx r, s ≤ l → l < lv → idx < childCnt st.e l →
    (runAt runs l)[idx]? = some r → keyLe r target
  rtt : ∀ j, s ≤ j → j < lv → ∀ t ∈ (tombsAt tombs j).take (tombCnt st.e j),
    t.start_key.user_key ≤ target.user_key
  act : ∀ j, s ≤ j → j < lv → (st.e.rti j).Valid = true →
    (j ∈ st.e.active_ ↔ keyLt target (st.e.rti j).end_key)
  cc : ∀ l r, lv ≤ l → l < runs.length → r ∈ runAt runs l → keyLe r B →
    keyLt st.current_search_key r → suppressed tombs l r
  pa : ∀ L idx r, L < lv → childCnt st.e L ≤ idx → (runAt runs L)[idx]? = some r →
    keyLt st.current_search_key r
  pab : ∀ L L' idx r, L < L' → L' < lv → cvalid st.e L' = true → childCnt st.e L ≤ idx →
    (runAt runs L)[idx]? = some r → keyLe (ckey st.e L') r

/-- What is left at level `l` in a backward scan as one number: the records of the child, then
what is left for the tombstone iterator. -/
def digitR (tombs : List (Option (List (RangeTombstone UK)))) (e : MergingIterator UK)
    (l : Nat) : Nat :=
  childCnt e l * (2 * (tombsAt tombs l).length + 1) + tauR e l

/-- What is left at the levels below `k` as one number, the smallest level weighing most. -/
def rankUpToR (runs : List (List (ParsedInternalKey UK)))
    (tombs : List (Option (List (RangeTombstone UK)))) (e : MergingIterator UK) : Nat → Nat
  | 0 => 0
  | k + 1 => rankUpToR runs tombs e k * digitBase runs tombs k + digitR tombs e k

/-- What is left in a state of a backward scan. -/
def rankR (runs : List (List (ParsedInternalKey UK)))
    (tombs : List (Option (List (RangeTombstone UK)))) (e : MergingIterator UK) : Nat :=
  rankUpToR runs tombs e runs.length

/-- The number of end keys of tombstones in the heap. -/
def endCount (e : MergingIterator UK) : Nat :=
  e.heap_.data_.countP (fun p => (e.deref p).type == HeapItemType.DELETE_RANGE_END)

/-- The state of a backward scan between two public calls: the visibility loop has ended, and
the current record is the top of the heap. -/
structure ScanInvR (runs : List (List (ParsedInternalKey UK)))
    (tombs : List (Option (List (RangeTombstone UK)))) (e : MergingIterator UK) : Prop where
  fwd : BwdT runs tombs e
  vis : TopVisible tombs e
  current : e.current_ = e.heap_.top
  reverse : e.direction_ = Direction.kReverse

/-- The state in the first loop of `SeekToLast`, after the levels below `k`. -/
structure LastA (runs : List (List (ParsedInternalKey UK)))
    (tombs : List (Option (List (RangeTombstone UK)))) (k : Nat) (e : MergingIterator UK) :
    Prop where
  base : Base runs tombs e
  active : e.active_ = []
  heap : HeapPartR k 0 e
  idx : ∀ l, l < k → childCnt e l = (runAt runs l).length

/-- The state in the second loop of `SeekToLast`, after the levels below `k`. -/
structure LastB (runs : List (List (ParsedInternalKey UK)))
    (tombs : List (Option (List (RangeTombstone UK)))) (k : Nat) (e : MergingIterator UK) :
    Prop where
  base : Base runs tombs e
  active : e.active_ = []
  tomb : TombPartR k e
  heap : HeapPartR runs.length k e
  idx : ∀ l, l < runs.length → childCnt e l = (runAt runs l).length
  tidx : ∀ j, j < k → tombCnt e j = (tombsAt tombs j).length

end MergingIterator

/-! ## Part V. Assertions of the heap, the driver loops and the builder -/

namespace BinaryHeap

variable {T : Type}

/-- The private method `upheap(index)` with its `assert(index < data_.size())`: `none` where
the assertion fails. -/
def upheap_assert (cmp : T → T → Bool) (h : BinaryHeap T) (index : Nat) :
    Option (BinaryHeap T) :=
  if index < h.data_.length then some (upheap cmp h index).1 else none

/-- The method `push(value)` with the assertion of `upheap`. -/
def push_assert (cmp : T → T → Bool) (h : BinaryHeap T) (value : T) : Option (BinaryHeap T) :=
  let h1 := { h with data_ := h.data_ ++ [value] }
  upheap_assert cmp h1 (h1.data_.length - 1)

/-- The method `top()` with its `assert(!empty())`: `none` where the assertion fails. -/
def top_assert (h : BinaryHeap T) : Option T :=
  if h.empty then none else h.data_.head?

/-- The method `replace_top(value)` with its `assert(!empty())`. The only assertion of
`downheap`, `right_child == get_right(index)`, compares `2 * index + 1 + 1` with
`2 * index + 2` and cannot fail. -/
def replace_top_assert (cmp : T → T → Bool) (h : BinaryHeap T) (value : T) :
    Option (BinaryHeap T) :=
  if h.empty then none else some (replace_top cmp h value)

/-- The method `update_top()` with its `assert(!empty())`. -/
def update_top_assert (cmp : T → T → Bool) (h : BinaryHeap T) : Option (BinaryHeap T) :=
  if h.empty then none else some (update_top cmp h)

/-- The method `pop()` with its `assert(!empty())`. -/
def pop_assert (cmp : T → T → Bool) (h : BinaryHeap T) : Option (BinaryHeap T) :=
  if h.empty then none else some (pop cmp h)

end BinaryHeap

/-- What an `InternalIterator*` that a factory function returns points to: `null` is
`nullptr`, `empty` is the iterator of `NewEmptyInternalIterator`, `run` is an iterator that the
caller has passed in, `engine` is a merging engine. -/
inductive IteratorRef (UK : Type) where
  | null
  | empty
  | run (iter : InternalIterator UK)
  | engine (e : MergingIterator UK)
deriving DecidableEq, Repr

namespace IteratorRef

variable {UK : Type}

def isEngine : IteratorRef UK → Bool
  | .engine _ => true
  | _ => false

end IteratorRef

namespace MergingIterator

variable {UK : Type} [LinearOrder UK] [Inhabited UK]

/-- The functions `NewIter` / `NewIterTpl`: the constructor of the engine, in arena mode when an
arena is given. -/
def NewIter (list : List (InternalIterator UK)) (arena : Bool) (prefix_seek_mode : Bool)
    (upper_bound : Option UK) : MergingIterator UK :=
  { MergingIterTmpl list prefix_seek_mode upper_bound with is_arena_mode_ := arena }

/-- The function `NewMergingIterator(cmp, list, n, arena, prefix_seek_mode)`, with `n` the
length of `list`. -/
def NewMergingIterator (list : List (InternalIterator UK)) (arena : Bool)
    (prefix_seek_mode : Bool) : IteratorRef UK :=
  match list with
  | [] => IteratorRef.empty
  | [iter] => IteratorRef.run iter
  | _ => IteratorRef.engine (NewIter list arena prefix_seek_mode none)

end MergingIterator

/-- The data members of `MergeIteratorBuilder`. `merge_iter` is the engine that the constructor
allocates. An entry of `range_del_iter_ptrs_` pairs an index into `range_tombstone_iters_` with
the caller's pointer variable, which is named by a number. -/
structure MergeIteratorBuilder (UK : Type) where
  merge_iter : MergingIterator UK
  first_iter : Option (InternalIterator UK) := none
  use_merging_iter : Bool := false
  range_del_iter_ptrs_ : List (Nat × Nat) := []
deriving DecidableEq, Repr

namespace MergeIteratorBuilder

variable {UK : Type} [LinearOrder UK] [Inhabited UK]

/-- The constructor `MergeIteratorBuilder(comparator, a, prefix_seek_mode,
iterate_upper_bound)`; the arena is there (`ROCKSDB_VERIFY(nullptr != arena)`). -/
def create (prefix_seek_mode : Bool) (iterate_upper_bound : Option UK) :
    MergeIteratorBuilder UK :=
  { merge_iter := MergingIterator.NewIter [] true prefix_seek_mode iterate_upper_bound,
    first_iter := none, use_merging_iter := false }

/-- The method `AddIterator(iter)`. -/
def AddIterator (b : MergeIteratorBuilder UK) (iter : InternalIterator UK) :
    MergeIteratorBuilder UK :=
  let b1 : MergeIteratorBuilder UK :=
    match b.first_iter with
    | some first =>
      if !b.use_merging_iter then
        { b with merge_iter := b.merge_iter.AddIterator first, use_merging_iter := true,
                 first_iter := none }
      else b
    | none => b
  if b1.use_merging_iter then { b1 with merge_iter := b1.merge_iter.AddIterator iter }
  else { b1 with first_iter := some iter }

/-- The loop `while (range_tombstone_iters_.size() < children_.size() - 1)
AddRangeTombstoneIterator(nullptr)` of `AddPointAndTombstoneIterator`, one unit of fuel per
iteration; the number of children is enough fuel. -/
def fillGap : Nat → MergingIterator UK → MergingIterator UK
  | 0, e => e
  | fuel + 1, e =>
    if e.range_tombstone_iters_.length < e.children_.length - 1 then
      fillGap fuel (e.AddRangeTombstoneIterator none)
    else e

/-- The method `AddPointAndTombstoneIterator(point_iter, tombstone_iter, tombstone_iter_ptr)`;
`none` stands for `nullptr` in the last two arguments. -/
def AddPointAndTombstoneIterator (b : MergeIteratorBuilder UK)
    (point_iter : InternalIterator UK) (tombstone_iter : Option (TruncatedRangeDelIterator UK))
    (tombstone_iter_ptr : Option Nat) : MergeIteratorBuilder UK :=
  let add_range_tombstone : Bool :=
    tombstone_iter.isSome || !b.merge_iter.range_tombstone_iters_.isEmpty ||
      tombstone_iter_ptr.isSome
  let b1 : MergeIteratorBuilder UK :=
    if !b.use_merging_iter && (add_range_tombstone || b.first_iter.isSome) then
      match b.first_iter with
      | some first =>
        { b with use_merging_iter := true, merge_iter := b.merge_iter.AddIterator first,
                 first_iter := none }
      | none => { b with use_merging_iter := true }
    else b
  if b1.use_merging_iter then
    let m1 := b1.merge_iter.AddIterator point_iter
    let m2 :=
      if add_range_tombstone then
        (fillGap m1.children_.length m1).AddRangeTombstoneIterator tombstone_iter
      else m1
    let ptrs :=
      match tombstone_iter_ptr with
      | some p => b1.range_del_iter_ptrs_ ++ [(m2.range_tombstone_iters_.length - 1, p)]
      | none => b1.range_del_iter_ptrs_
    { b1 with merge_iter := m2, range_del_iter_ptrs_ := ptrs }
  else { b1 with first_iter := some point_iter }

/-- The method `Finish(db_iter)`: the returned pointer. The stores through the pointers of
`range_del_iter_ptrs_` and the call on `db_iter` write to objects of the caller and are left
out. -/
def Finish (b : MergeIteratorBuilder UK) : IteratorRef UK :=
  if !b.use_merging_iter then
    match b.first_iter with
    | some iter => IteratorRef.run iter
    | none => IteratorRef.null
  else IteratorRef.engine b.merge_iter.Finish

end MergeIteratorBuilder

/-- One call on a builder: `AddIterator(iter)` or
`AddPointAndTombstoneIterator(point_iter, tombstone_iter, tombstone_iter_ptr)`. -/
inductive BuilderCall (UK : Type) where
  | addIterator (iter : InternalIterator UK)
  | addPointAndTombstone (point_iter : InternalIterator UK)
      (tombstone_iter : Option (TruncatedRangeDelIterator UK)) (tombstone_iter_ptr : Option Nat)
deriving DecidableEq, Repr

namespace BuilderCall

variable {UK : Type} [LinearOrder UK] [Inhabited UK]

/-- The run that a call adds. -/
def point : BuilderCall UK → InternalIterator UK
  | .addIterator iter => iter
  | .addPointAndTombstone point_iter _ _ => point_iter

/-- The tombstone iterator that a call supplies, `none` when it supplies none. -/
def tombstone : BuilderCall UK → Option (TruncatedRangeDelIterator UK)
  | .addIterator _ => none
  | .addPointAndTombstone _ tombstone_iter _ => tombstone_iter

/-- The call supplies a tombstone-iterator slot, a non-null `tombstone_iter_ptr`. -/
def hasSlot : BuilderCall UK → Bool
  | .addIterator _ => false
  | .addPointAndTombstone _ _ tombstone_iter_ptr => tombstone_iter_ptr.isSome

/-- Make the call on a builder. -/
def apply (b : MergeIteratorBuilder UK) : BuilderCall UK → MergeIteratorBuilder UK
  | .addIterator iter => b.AddIterator iter
  | .addPointAndTombstone point_iter tombstone_iter tombstone_iter_ptr =>
    b.AddPointAndTombstoneIterator point_iter tombstone_iter tombstone_iter_ptr

end BuilderCall

namespace MergeIteratorBuilder

variable {UK : Type} [LinearOrder UK] [Inhabited UK]

/-- A builder after a sequence of calls, then `Finish`. -/
def finishAfter (prefix_seek_mode : Bool) (iterate_upper_bound : Option UK)
    (calls : List (BuilderCall UK)) : IteratorRef UK :=
  Finish (calls.foldl BuilderCall.apply (create prefix_seek_mode iterate_upper_bound))

end MergeIteratorBuilder

namespace MergingIterator

variable {UK : Type} [LinearOrder UK] [Inhabited UK]

/-- Call `Next()` while `Valid()`: the state in which the iteration ends, `none` when the engine
is still valid after `n` calls or a call runs out of fuel. -/
def exhaustForward (fuel : Nat) : Nat → MergingIterator UK → Option (MergingIterator UK)
  | 0, e => if e.Valid then none else some e
  | n + 1, e =>
    if e.Valid then
      match e.Next fuel with
      | some e1 => exhaustForward fuel n e1
      | none => none
    else some e

/-- Call `Prev()` while `Valid()`: the state in which the iteration ends. -/
def exhaustBackward (fuel : Nat) : Nat → MergingIterator UK → Option (MergingIterator UK)
  | 0, e => if e.Valid then none else some e
  | n + 1, e =>
    if e.Valid then
      match e.Prev fuel with
      | some e1 => exhaustBackward fuel n e1
      | none => none
    else some e

/-- An engine over two runs whose first run cannot read its only record `(1, 5)` and carries the
tombstone `[3, 5)` with sequence number 9; the second run holds `(3, 3)` and `(6, 3)`. -/
def unreadableFirstRun : MergingIterator Nat :=
  Finish (((MergingIterTmpl
    [{ run := [⟨1, 5, 1⟩], corrupt_at := some 0 }, { run := [⟨3, 3, 1⟩, ⟨6, 3, 1⟩] }]
    false none).AddRangeTombstoneIterator
      (some { tombstones := [{ start_key := ⟨3, kMaxSequenceNumber, kTypeRangeDeletion⟩,
                               end_key := ⟨5, kMaxSequenceNumber, kTypeRangeDeletion⟩,
                               seq := 9 }] })).AddRangeTombstoneIterator none)

end MergingIterator

/-! ## Part V (continued). The loops of the seek methods, in pieces -/

namespace MergingIterator

open InternalKeyComparator BinaryHeap

variable {UK : Type} [LinearOrder UK] [Inhabited UK]

/-- The engine of `SeekImpl` after the loops that put the levels below `starting_level` back
into the cleared heap. -/
def seekImplRefill (e : MergingIterator UK) (starting_level : Nat) : MergingIterator UK :=
  let e0 := e.ClearHeaps false
  let e1 := (List.range starting_level).foldl
    (fun (e : MergingIterator UK) level => e.AddToMinHeapOrCheckStatus (.child level)) e0
  if !e1.range_tombstone_iters_.isEmpty then
    let e1a := (List.range starting_level).foldl
      (fun (e : MergingIterator UK) level =>
        if (e.range_tombstone_iters_[level]?.getD none).isSome && (e.rti level).Valid then
          if e.active_.contains level then e.minPush (.pinned level)
          else e.InsertRangeTombstoneToMinHeap level true false
        else e) e1
    { e1a with active_ := e1a.active_.filter (fun l => l < starting_level) }
  else e1

/-- The engine of `SeekImpl` when its main loop starts: the status is reset. -/
def seekImplInit (e : MergingIterator UK) (starting_level : Nat) : MergingIterator UK :=
  { seekImplRefill e starting_level with status_ := Status.OK }

/-- The loop variables of `SeekImpl` after the first `k` iterations of its main loop. -/
def seekImplMain (e : MergingIterator UK) (target : ParsedInternalKey UK)
    (starting_level k : Nat) : SeekLoopState UK :=
  (List.range' starting_level k).foldl (SeekImplStep target)
    { e := seekImplInit e starting_level, current_search_key := target }

/-- The two retry loops at the end of `SeekImpl`, from the loop variables that the main loop
has left. -/
def seekImplRetry (target : ParsedInternalKey UK) (st : SeekLoopState UK) :
    MergingIterator UK :=
  if st.e.range_tombstone_iters_.isEmpty then
    (List.range st.e.children_.length).foldl
      (fun (e : MergingIterator UK) level =>
        if (e.deref (.child level)).iter.status.IsTryAgain then
          (e.updIter (.child level) (fun w => w.Seek target)).AddToMinHeapOrCheckStatus
            (.child level)
        else e) st.e
  else
    st.prefetched_target.foldl
      (fun (e : MergingIterator UK) prefetch =>
        (e.updIter (.child prefetch.1) (fun w => w.Seek prefetch.2)).AddToMinHeapOrCheckStatus
          (.child prefetch.1)) st.e

/-- The engine `e'` has the same child of level `l` as `e`, as often in the heap, the same
number of children and tombstone handling switched on or off as in `e`. -/
structure SameChild (l : Nat) (e e' : MergingIterator UK) : Prop where
  len : e'.children_.length = e.children_.length
  item : e'.deref (.child l) = e.deref (.child l)
  cnt : e'.heap_.data_.count (.child l) = e.heap_.data_.count (.child l)
  slots : e'.range_tombstone_iters_.isEmpty = e.range_tombstone_iters_.isEmpty

/-- One iteration of the main loop of `SeekImpl` up to the test that ends it: the child is
sought and the tombstone iterator of the level is handled, the child is not yet added. -/
def seekStepMid (pik : ParsedInternalKey UK) (st : SeekLoopState UK) (level : Nat) :
    SeekLoopState UK :=
  let e1 := st.e.updIter (.child level) (fun w => w.Seek st.current_search_key)
  if !e1.range_tombstone_iters_.isEmpty then
    let prefetched :=
      if (e1.deref (.child level)).iter.status.IsTryAgain then
        st.prefetched_target ++ [(level, st.current_search_key)]
      else st.prefetched_target
    match e1.range_tombstone_iters_[level]?.getD none with
    | some range_tombstone_iter =>
      let e2 := e1.setRti level (range_tombstone_iter.Seek st.current_search_key.user_key)
      if (e2.rti level).Valid then
        let e3 := e2.InsertRangeTombstoneToMinHeap level
          (InternalKeyComparator.Compare (e2.rti level).start_key pik == .gt) false
        if compare (e3.rti level).start_key.user_key st.current_search_key.user_key != .gt then
          { e := e3,
            current_search_key :=
              { user_key := (e3.rti level).end_key.user_key, sequence := kMaxSequenceNumber,
                type := kValueTypeForSeek },
            prefetched_target := prefetched }
        else { e := e3, current_search_key := st.current_search_key,
               prefetched_target := prefetched }
      else { e := e2, current_search_key := st.current_search_key,
             prefetched_target := prefetched }
    | none => { e := e1, current_search_key := st.current_search_key,
                prefetched_target := prefetched }
  else { st with e := e1 }

/-- The engine of `SeekForPrevImpl` after the loops that put the levels below `starting_level`
back into the cleared heap. -/
def seekForPrevImplRefill (e : MergingIterator UK) (starting_level : Nat) : MergingIterator UK :=
  let e0 := (e.ClearHeaps false).InitMaxHeap
  let e1 := (List.range starting_level).foldl
    (fun (e : MergingIterator UK) level => e.AddToMaxHeapOrCheckStatus (.child level)) e0
  if !e1.range_tombstone_iters_.isEmpty then
    let e1a := (List.range starting_level).foldl
      (fun (e : MergingIterator UK) level =>
        if (e.range_tombstone_iters_[level]?.getD none).isSome && (e.rti level).Valid then
          e.maxPush (.pinned level)
        else e) e1
    { e1a with active_ := e1a.active_.filter (fun l => l < starting_level) }
  else e1

/-- The engine of `SeekForPrevImpl` when its main loop starts: the status is reset. -/
def seekForPrevImplInit (e : MergingIterator UK) (starting_level : Nat) : MergingIterator UK :=
  { seekForPrevImplRefill e starting_level with status_ := Status.OK }

/-- The loop variables of `SeekForPrevImpl` after the first `k` iterations of its main loop. -/
def seekForPrevImplMain (e : MergingIterator UK) (target : ParsedInternalKey UK)
    (starting_level k : Nat) : SeekLoopState UK :=
  (List.range' starting_level k).foldl (SeekForPrevImplStep target)
    { e := seekForPrevImplInit e starting_level, current_search_key := target }

/-- The two retry loops at the end of `SeekForPrevImpl`, from the loop variables that the main loop
has left. -/
def seekForPrevImplRetry (target : ParsedInternalKey UK) (st : SeekLoopState UK) :
    MergingIterator UK :=
  if st.e.range_tombstone_iters_.isEmpty then
    (List.range st.e.children_.length).foldl
      (fun (e : MergingIterator UK) level =>
        if (e.deref (.child level)).iter.status.IsTryAgain then
          (e.updIter (.child level) (fun w => w.SeekForPrev target)).AddToMaxHeapOrCheckStatus
            (.child level)
        else e) st.e
  else
    st.prefetched_target.foldl
      (fun (e : MergingIterator UK) prefetch =>
        (e.updIter (.child prefetch.1) (fun w => w.SeekForPrev prefetch.2)).AddToMaxHeapOrCheckStatus
          (.child prefetch.1)) st.e

/-- One iteration of the main loop of `SeekForPrevImpl` up to the test that ends it: the child
is sought and the tombstone iterator of the level is handled, the child is not yet added. -/
def seekForPrevStepMid (pik : ParsedInternalKey UK) (st : SeekLoopState UK) (level : Nat) :
    SeekLoopState UK :=
  let e1 := st.e.updIter (.child level) (fun w => w.SeekForPrev st.current_search_key)
  if !e1.range_tombstone_iters_.isEmpty then
    let prefetched :=
      if (e1.deref (.child level)).iter.status.IsTryAgain then
        st.prefetched_target ++ [(level, st.current_search_key)]
      else st.prefetched_target
    match e1.range_tombstone_iters_[level]?.getD none with
    | some range_tombstone_iter =>
      let e2 :=
        e1.setRti level (range_tombstone_iter.SeekForPrev st.current_search_key.user_key)
      if (e2.rti level).Valid then
        let e3 := e2.InsertRangeTombstoneToMaxHeap level
          (InternalKeyComparator.Compare (e2.rti level).end_key pik != .gt) false
        if compare st.current_search_key.user_key (e3.rti level).end_key.user_key == .lt then
          { e := e3,
            current_search_key :=
              { user_key := (e3.rti level).start_key.user_key, sequence := kMaxSequenceNumber,
                type := kValueTypeForSeekForPrev },
            prefetched_target := prefetched }
        else { e := e3, current_search_key := st.current_search_key,
               prefetched_target := prefetched }
      else { e := e2, current_search_key := st.current_search_key,
             prefetched_target := prefetched }
    | none => { e := e1, current_search_key := st.current_search_key,
                prefetched_target := prefetched }
  else { st with e := e1 }

/-- An engine over two runs with the tombstone `[1, 9)` on the first run, whose second run
answers its next seek with try-again. -/
def asyncSecondRun : MergingIterator Nat :=
  Finish (((MergingIterTmpl
    [{ run := [⟨1, 5, 1⟩] }, { run := [⟨3, 3, 1⟩, ⟨9, 3, 1⟩], async_seek := true }]
    false none).AddRangeTombstoneIterator
      (some { tombstones := [{ start_key := ⟨1, kMaxSequenceNumber, kTypeRangeDeletion⟩,
                               end_key := ⟨9, kMaxSequenceNumber, kTypeRangeDeletion⟩,
                               seq := 4 }] })).AddRangeTombstoneIterator none)

end MergingIterator

/-! ## Part VI (continued). The states of the direction switches and the positions of an engine -/

namespace MergingIterator

open InternalKeyComparator BinaryHeap

variable {UK : Type} [LinearOrder UK] [Inhabited UK]

/-- The state in the first loop of `SwitchToBackward`, after the levels below `k`: the current
child, of level `s`, has not moved, and every other child is at its last record at or before
the target `T`. -/
structure BackA (runs : List (List (ParsedInternalKey UK)))
    (tombs : List (Option (List (RangeTombstone UK)))) (ec : HeapItem UK) (s : Nat)
    (T : ParsedInternalKey UK) (k : Nat) (e : MergingIterator UK) : Prop where
  base : Base runs tombs e
  active : e.active_ = []
  heap : HeapPartR k 0 e
  current : e.current_ = some (.child s)
  cur_item : e.deref (.child s) = ec
  idx : ∀ l, l < k → l ≠ s → childCnt e l =
    ((runAt runs l).takeWhile (fun r => Compare r T != .gt)).length

/-- The state in the second loop of `SwitchToBackward`, after the levels below `k`: every
tombstone iterator is at its last tombstone that starts at or before the user key of the
target `T`, and shows its start key exactly when the tombstone ends after the target. -/
structure BackB (runs : List (List (ParsedInternalKey UK)))
    (tombs : List (Option (List (RangeTombstone UK)))) (ec : HeapItem UK) (s : Nat)
    (T : ParsedInternalKey UK) (k : Nat) (e : MergingIterator UK) : Prop where
  base : Base runs tombs e
  tomb : TombPartR k e
  heap : HeapPartR runs.length k e
  current : e.current_ = some (.child s)
  cur_item : e.deref (.child s) = ec
  idx : ∀ l, l < runs.length → l ≠ s → childCnt e l =
    ((runAt runs l).takeWhile (fun r => Compare r T != .gt)).length
  tidx : ∀ j, j < k → tombCnt e j =
    ((tombsAt tombs j).takeWhile
      (fun t => compare t.start_key.user_key T.user_key != .gt)).length
  ends : ∀ j, j < k → (e.rti j).Valid = true →
    ((e.deref (.pinned j)).type = HeapItemType.DELETE_RANGE_START ↔
      keyLt T (e.rti j).end_key)

/-- No record occurs in two runs. -/
def DistinctRuns (runs : List (List (ParsedInternalKey UK))) : Prop :=
  ∀ l l' k, l ≠ l' → k ∈ runAt runs l → k ∉ runAt runs l'

/-- The state in the first loop of `SwitchToForward`, after the levels below `k`: the current
child, of level `s`, has not moved, and every other child is at its first record at or after
the target `T`. -/
structure ForA (runs : List (List (ParsedInternalKey UK)))
    (tombs : List (Option (List (RangeTombstone UK)))) (ec : HeapItem UK) (s : Nat)
    (T : ParsedInternalKey UK) (k : Nat) (e : MergingIterator UK) : Prop where
  base : Base runs tombs e
  active : e.active_ = []
  heap : HeapPart k 0 e
  current : e.current_ = some (.child s)
  cur_item : e.deref (.child s) = ec
  idx : ∀ l, l < k → l ≠ s → childIdx runs e l =
    ((runAt runs l).takeWhile (fun r => Compare r T == .lt)).length

/-- The state in the last loop of `SwitchToForward`, after the levels below `k`: every
tombstone iterator is at its first tombstone that ends after the user key of the target `T`,
and shows its start key exactly when the tombstone starts after the target. -/
structure ForB (runs : List (List (ParsedInternalKey UK)))
    (tombs : List (Option (List (RangeTombstone UK)))) (ec : HeapItem UK) (s : Nat)
    (T : ParsedInternalKey UK) (k : Nat) (e : MergingIterator UK) : Prop where
  base : Base runs tombs e
  tomb : TombPart k e
  heap : HeapPart runs.length k e
  current : e.current_ = some (.child s)
  cur_item : e.deref (.child s) = ec
  idx : ∀ l, l < runs.length → l ≠ s → childIdx runs e l =
    ((runAt runs l).takeWhile (fun r => Compare r T == .lt)).length
  tidx : ∀ j, j < k → tombIdx e j =
    ((tombsAt tombs j).takeWhile
      (fun t => compare t.end_key.user_key T.user_key != .gt)).length
  starts : ∀ j, j < k → (e.rti j).Valid = true →
    ((e.deref (.pinned j)).type = HeapItemType.DELETE_RANGE_START ↔
      keyLt T (e.rti j).start_key)

/-- The state of a forward scan in which the visible records from position `i` of the sorted
list `out` on are still to come. -/
def PosF (runs : List (List (ParsedInternalKey UK)))
    (tombs : List (Option (List (RangeTombstone UK)))) (out : List (ParsedInternalKey UK))
    (i : Nat) (e : MergingIterator UK) : Prop :=
  ScanInv runs tombs e ∧ (visRem runs tombs e).Perm (out.drop i)

/-- The state of a backward scan in which the first `n` visible records of the sorted list
`out` are still to come. -/
def PosR (runs : List (List (ParsedInternalKey UK)))
    (tombs : List (Option (List (RangeTombstone UK)))) (out : List (ParsedInternalKey UK))
    (n : Nat) (e : MergingIterator UK) : Prop :=
  ScanInvR runs tombs e ∧ n ≤ out.length ∧ (visRemR runs tombs e).Perm (out.take n)

/-- The engine is on the record of position `i` of the sorted list `out` of the visible
records, in a forward or in a backward scan. -/
def At (runs : List (List (ParsedInternalKey UK)))
    (tombs : List (Option (List (RangeTombstone UK)))) (out : List (ParsedInternalKey UK))
    (i : Nat) (e : MergingIterator UK) : Prop :=
  e.Valid = true ∧ (PosF runs tombs out i e ∨ PosR runs tombs out (i + 1) e)

/-- The states that the positioning calls reach. -/
def Reach (runs : List (List (ParsedInternalKey UK)))
    (tombs : List (Option (List (RangeTombstone UK)))) (out : List (ParsedInternalKey UK))
    (e : MergingIterator UK) : Prop :=
  (∃ i, PosF runs tombs out i e) ∨ (∃ n, PosR runs tombs out n e)

/-- The public calls that place an engine without regard to where it is: `SeekToFirst()`,
`SeekToLast()` and `Seek(target)`. -/
inductive Placement (UK : Type) where
  | first
  | last
  | seek (target : ParsedInternalKey UK)

/-- The call of a placement. -/
def placeBy (fuel : Nat) : Placement UK → MergingIterator UK → Option (MergingIterator UK)
  | .first, e => e.SeekToFirst fuel
  | .last, e => e.SeekToLast fuel
  | .seek target, e => e.Seek fuel target

/-- The public calls that move an engine by one record: `Next()` and `Prev()`. -/
inductive Move where
  | next
  | prev

/-- The call of a move. -/
def moveBy (fuel : Nat) : Move → MergingIterator UK → Option (MergingIterator UK)
  | .next, e => e.Next fuel
  | .prev, e => e.Prev fuel

/-- The calls of a list of moves, one after the other; `none` when a call runs out of fuel. -/
def walk (fuel : Nat) : List Move → MergingIterator UK → Option (MergingIterator UK)
  | [], e => some e
  | m :: ms, e =>
    match moveBy fuel m e with
    | some e1 => walk fuel ms e1
    | none => none

/-- The engine over `runs` and `tombs` after a placement and a list of moves. -/
def positioned (fuel : Nat) (runs : List (List (ParsedInternalKey UK)))
    (tombs : List (Option (List (RangeTombstone UK)))) (p : Placement UK) (ms : List Move) :
    Option (MergingIterator UK) :=
  match placeBy fuel p (build runs tombs) with
  | some e => walk fuel ms e
  | none => none

/-- The record `k'` is the visible successor of `k`: it is visible and after `k`, and every
visible record after `k` is at or after it. -/
def VisibleSuccessor (runs : List (List (ParsedInternalKey UK)))
    (tombs : List (Option (List (RangeTombstone UK)))) (k k' : ParsedInternalKey UK) : Prop :=
  k' ∈ visibleRecords runs tombs ∧ Compare k k' = .lt ∧
    ∀ x ∈ visibleRecords runs tombs, Compare k x = .lt → keyLe k' x

instance visibleSuccessorDecidable (runs : List (List (ParsedInternalKey UK)))
    (tombs : List (Option (List (RangeTombstone UK)))) (k k' : ParsedInternalKey UK) :
    Decidable (VisibleSuccessor runs tombs k k') :=
  inferInstanceAs (Decidable (_ ∧ _ ∧ _))

end MergingIterator

/-! ## Part X. Further definitions: heap objects, heap sort, the end of a sift -/

namespace BinaryHeap

variable {T : Type}

/-- A heap object as the class lays it out: the comparator base sub-object and the two data
members. -/
structure Object (T : Type) where
  cmp : T → T → Bool
  heap : BinaryHeap T

/-- The method `swap(other)`: `std::swap` of the comparator, of `data_` and of
`root_cmp_cache_`. The first component is `*this` afterwards, the second is `other`. -/
def swap (this other : Object T) : Object T × Object T :=
  ({ cmp := other.cmp,
     heap := { data_ := other.heap.data_, root_cmp_cache_ := other.heap.root_cmp_cache_ } },
   { cmp := this.cmp,
     heap := { data_ := this.heap.data_, root_cmp_cache_ := this.heap.root_cmp_cache_ } })

/-- Push the elements of `xs`, in order, into an empty heap. -/
def pushAll (cmp : T → T → Bool) (xs : List T) : BinaryHeap T :=
  xs.foldl (push cmp) {}

/-- The loop `while (!h.empty()) { out.push_back(h.top()); h.pop(); }`, one unit of fuel per
`pop()`: the elements read, in order, or `none` when the fuel ends on a non-empty heap. -/
def drain (cmp : T → T → Bool) : Nat → BinaryHeap T → Option (List T)
  | 0, h => if h.empty then some [] else none
  | fuel + 1, h =>
    match h.top with
    | none => some []
    | some t =>
      match drain cmp fuel (pop cmp h) with
      | some out => some (t :: out)
      | none => none

/-- The index at which `downheap(index)` stores the element it took from `index`: the value of
the local `index` when the loop of `downheap` is left. -/
def downheapEnd (cmp : T → T → Bool) (h : BinaryHeap T) (index : Nat) : Nat :=
  match h.data_[index]? with
  | none => index
  | some v =>
    (downheapLoop cmp h.data_.length h.root_cmp_cache_ v h.data_.length
      { data := h.data_, index := index }).index

end BinaryHeap

namespace IteratorWrapper

variable {UK : Type} [LinearOrder UK] [Inhabited UK]

/-- The cached state of the wrapper is that of the wrapped iterator: `Valid()` is the
iterator's `Valid()` and, when valid, `key()` is the iterator's `key()` and the value is marked
not prepared. Without a wrapped iterator the wrapper is not valid. -/
def CacheFresh (w : IteratorWrapper UK) : Prop :=
  match w.iter_ with
  | none => w.Valid = false
  | some it => w.Valid = it.Valid ∧ (w.Valid = true → w.key = it.key ∧ w.IsValuePrepared = false)

end IteratorWrapper

namespace MergingIterator

/-- An engine over one run with the records `(3, 10)` and `(4, 2)` and the tombstone `[1, 5)`
with sequence number 9, after `SeekToFirst()`: the record `(3, 10)` is at the heap top and
level 0 is active. -/
def activeAtTop : MergingIterator Nat :=
  ((build [[⟨3, 10, 1⟩, ⟨4, 2, 1⟩]] [some [mkTombstone 1 5 9]]).SeekToFirst 8).getD default

end MergingIterator

namespace MergingIterator

variable {UK : Type} [LinearOrder UK] [Inhabited UK]

/-- The cascading seek targets, in the words of the specification: `T_j = target` up to
`starting_level`, and `T_(j+1)` is the end user key of the tombstone of level `j`, with the
largest sequence number, if level `j` has a tombstone iterator that is valid after
`Seek(user_key(T_j))` and whose start user key is at or before the user key of `T_j`; else
`T_(j+1) = T_j`. -/
def cascadeTarget (e : MergingIterator UK) (target : ParsedInternalKey UK)
    (starting_level : Nat) : Nat → ParsedInternalKey UK
  | 0 => target
  | j + 1 =>
    if j < starting_level then target
    else
      match e.range_tombstone_iters_[j]?.getD none with
      | some it =>
        if (it.Seek (cascadeTarget e target starting_level j).user_key).Valid &&
            (it.Seek (cascadeTarget e target starting_level j).user_key).start_key.user_key ≤
              (cascadeTarget e target starting_level j).user_key then
          { user_key :=
              (it.Seek (cascadeTarget e target starting_level j).user_key).end_key.user_key,
            sequence := kMaxSequenceNumber, type := kValueTypeForSeek }
        else cascadeTarget e target starting_level j
      | none => cascadeTarget e target starting_level j

/-- An engine over the runs `(1, 5), (3, 5)` and `(2, 3), (4, 3)` whose first run carries the
tombstone `[1, 4)` with sequence number 9, not yet positioned. -/
def coveredSecondRun : MergingIterator Nat :=
  build [[⟨1, 5, 1⟩, ⟨3, 5, 1⟩], [⟨2, 3, 1⟩, ⟨4, 3, 1⟩]] [some [mkTombstone 1 4 9], none]

/-- The engine of `SeekImpl` after `ClearHeaps(false)` and the loop that puts the children of
the levels below `starting_level` back into the heap, before the boundary items of these
levels are put back. -/
def seekImplChildren (e : MergingIterator UK) (starting_level : Nat) : MergingIterator UK :=
  (List.range starting_level).foldl
    (fun (e : MergingIterator UK) level => e.AddToMinHeapOrCheckStatus (.child level))
    (e.ClearHeaps false)

/-- An engine over the runs `(6, 5)` and `(2, 3), (4, 3), (7, 3)` whose first run carries the
tombstone `[3, 5)` with sequence number 9, after `SeekToFirst()`: it is on the record
`(2, 3)`. -/
def beforeCoveredRecord : MergingIterator Nat :=
  ((build [[⟨6, 5, 1⟩], [⟨2, 3, 1⟩, ⟨4, 3, 1⟩, ⟨7, 3, 1⟩]]
    [some [mkTombstone 3 5 9], none]).SeekToFirst 8).getD default

/-- The engine `beforeCoveredRecord` inside `Next()`, when `FindNextVisibleKey()` calls
`SkipNextDeleted()` for the first time: the second child has moved to `(4, 3)`, the heap is
restored and `PopDeleteRangeStart()` has run, so the level 0 is active. -/
def atCoveredRecord : MergingIterator Nat :=
  ((beforeCoveredRecord.updIter (.child 1)
    (fun w => w.Next)).minUpdateTop.PopDeleteRangeStart).getD default

end MergingIterator

/-! ## Part X (continued). Encoded keys, the bytewise comparators and the cached key prefix -/

namespace Bytewise

/-- The class `Slice`: the bytes `data_[0 .. size_)`; `size_` is the length of the list. -/
abbrev Slice := List (Fin 256)

/-- Modelled from the spec: `port::kLittleEndian` is defined in `port/`, outside src. The hosts
that the code is built for are little-endian. -/
def kLittleEndian : Bool := true

/-- The number that a list of bytes is, least significant byte first. -/
def leValue : List (Fin 256) → Nat
  | [] => 0
  | b :: bs => b.val + 256 * leValue bs

/-- The number that a list of bytes is, most significant byte first. -/
def beValue : List (Fin 256) → Nat
  | [] => 0
  | b :: bs => b.val * 256 ^ bs.length + beValue bs

/-- The `n` low bytes of a number, least significant byte first. -/
def toBytesLE : Nat → Nat → List (Fin 256)
  | 0, _ => []
  | n + 1, v => ⟨v % 256, Nat.mod_lt _ (by decide)⟩ :: toBytesLE n (v / 256)

/-- The value of an unsigned integer of `width` bytes that is zero and then receives
`memcpy(&data, bytes, bytes.length)`, in the byte order of the host. -/
def loadHost (bytes : List (Fin 256)) (width : Nat) : Nat :=
  if kLittleEndian then leValue bytes
  else beValue (bytes ++ List.replicate (width - bytes.length) 0)

/-- Modelled from the spec: the byte swap `__bswap_64` of the C library. -/
def bswap_64 (x : Nat) : Nat := beValue (toBytesLE 8 x)

/-- The function `bswap_prefix` on `unsigned __int128`:
`UintPrefix(__bswap_64(uint64_t(x))) << 64 | __bswap_64(uint64_t(x >> 64))`. -/
def bswap_prefix (x : Nat) : Nat :=
  ((bswap_64 (x % 2 ^ 64) <<< 64) % 2 ^ 128) ||| bswap_64 ((x >>> 64) % 2 ^ 64)

/-- Subtraction of `size_t` values. -/
def sizeSub (a b : Nat) : Nat := (a + 2 ^ 64 - b) % 2 ^ 64

/-- The function `HostPrefixCacheUK(uk)`. -/
def HostPrefixCacheUK (uk : Slice) : Nat :=
  let data :=
    if uk.length ≥ 16 then loadHost (uk.take 16) 16
    else loadHost (uk.take uk.length) 16
  if kLittleEndian then bswap_prefix data else data

/-- The function `HostPrefixCacheIK(ik)`. -/
def HostPrefixCacheIK (ik : Slice) : Nat :=
  let data :=
    if ik.length ≥ 16 + 8 then loadHost (ik.take 16) 16
    else loadHost (ik.take (sizeSub ik.length 8)) 16
  if kLittleEndian then bswap_prefix data else data

/-- Modelled from the spec: `memcmp` of the C library on the first `n` bytes, as the sign of
its result. -/
def memcmp : List (Fin 256) → List (Fin 256) → Nat → Ordering
  | a :: as, b :: bs, n + 1 =>
    if a < b then Ordering.lt else if b < a then Ordering.gt else memcmp as bs n
  | _, _, _ => Ordering.eq

/-- The function `GetUnalignedU64(ptr)` with `ptr = data + off`. -/
def GetUnalignedU64 (data : Slice) (off : Nat) : Nat :=
  loadHost ((data.drop off).take 8) 8

/-- The expression `(k.sequence << 8 | k.type)` on `uint64_t`. -/
def packSequenceAndType (k : ParsedInternalKey Slice) : Nat :=
  ((k.sequence <<< 8) % 2 ^ 64) ||| k.type

/-- The function `BytewiseCompareInternalKey(Slice x, Slice y)`. -/
def BytewiseCompareInternalKey (x y : Slice) : Bool :=
  let n := sizeSub (min x.length y.length) 8
  let cmp := memcmp x y n
  if cmp != Ordering.eq then cmp == Ordering.lt
  else if x.length != y.length then decide (x.length < y.length)
  else decide (GetUnalignedU64 x n > GetUnalignedU64 y n)

/-- The function `BytewiseCompareInternalKey(Slice x, const ParsedInternalKey& y)`. -/
def BytewiseCompareInternalKeySP (x : Slice) (y : ParsedInternalKey Slice) : Bool :=
  let nx := sizeSub x.length 8
  let n := min nx y.user_key.length
  let cmp := memcmp x y.user_key n
  if cmp != Ordering.eq then cmp == Ordering.lt
  else if nx != y.user_key.length then decide (nx < y.user_key.length)
  else decide (GetUnalignedU64 x nx > packSequenceAndType y)

/-- The function `BytewiseCompareInternalKey(const ParsedInternalKey& x, Slice y)`. -/
def BytewiseCompareInternalKeyPS (x : ParsedInternalKey Slice) (y : Slice) : Bool :=
  let ny := sizeSub y.length 8
  let n := min x.user_key.length ny
  let cmp := memcmp x.user_key y n
  if cmp != Ordering.eq then cmp == Ordering.lt
  else if x.user_key.length != ny then decide (x.user_key.length < ny)
  else decide (packSequenceAndType x > GetUnalignedU64 y ny)

/-- The function
`BytewiseCompareInternalKey(const ParsedInternalKey& x, const ParsedInternalKey& y)`. -/
def BytewiseCompareInternalKeyPP (x y : ParsedInternalKey Slice) : Bool :=
  let n := min x.user_key.length y.user_key.length
  let cmp := memcmp x.user_key y.user_key n
  if cmp != Ordering.eq then cmp == Ordering.lt
  else if x.user_key.length != y.user_key.length then
    decide (x.user_key.length < y.user_key.length)
  else decide (packSequenceAndType x > packSequenceAndType y)

/-- The function `RevBytewiseCompareInternalKey(Slice x, Slice y)`. -/
def RevBytewiseCompareInternalKey (x y : Slice) : Bool :=
  let n := sizeSub (min x.length y.length) 8
  let cmp := memcmp x y n
  if cmp != Ordering.eq then cmp == Ordering.gt
  else if x.length != y.length then decide (x.length > y.length)
  else decide (GetUnalignedU64 x n > GetUnalignedU64 y n)

/-- The function `RevBytewiseCompareInternalKey(Slice x, const ParsedInternalKey& y)`. -/
def RevBytewiseCompareInternalKeySP (x : Slice) (y : ParsedInternalKey Slice) : Bool :=
  let nx := sizeSub x.length 8
  let n := min nx y.user_key.length
  let cmp := memcmp x y.user_key n
  if cmp != Ordering.eq then cmp == Ordering.gt
  else if nx != y.user_key.length then decide (nx > y.user_key.length)
  else decide (GetUnalignedU64 x nx > packSequenceAndType y)

/-- The function `RevBytewiseCompareInternalKey(const ParsedInternalKey& x, Slice y)`. -/
def RevBytewiseCompareInternalKeyPS (x : ParsedInternalKey Slice) (y : Slice) : Bool :=
  let ny := sizeSub y.length 8
  let n := min x.user_key.length ny
  let cmp := memcmp x.user_key y n
  if cmp != Ordering.eq then cmp == Ordering.gt
  else if x.user_key.length != ny then decide (x.user_key.length > ny)
  else decide (packSequenceAndType x > GetUnalignedU64 y ny)

/-- The function
`RevBytewiseCompareInternalKey(const ParsedInternalKey& x, const ParsedInternalKey& y)`. -/
def RevBytewiseCompareInternalKeyPP (x y : ParsedInternalKey Slice) : Bool :=
  let n := min x.user_key.length y.user_key.length
  let cmp := memcmp x.user_key y.user_key n
  if cmp != Ordering.eq then cmp == Ordering.gt
  else if x.user_key.length != y.user_key.length then
    decide (x.user_key.length > y.user_key.length)
  else decide (packSequenceAndType x > packSequenceAndType y)

/-- What the bytewise comparators read of a `HeapItem`: `iter.key()`, the encoded internal key
of a point item, `parsed_ikey` of a boundary item, and `type`. -/
structure HeapItemBytes where
  iter_key : Slice
  parsed_ikey : ParsedInternalKey Slice
  type : HeapItemType
deriving DecidableEq, Repr, Inhabited

/-- The struct `HeapItemAndPrefix`. -/
structure HeapItemAndPrefix where
  key_prefix : Nat := 0
  item_ptr : HeapItemBytes
  iter_type : HeapItemType
deriving DecidableEq, Repr, Inhabited

/-- The friend function `UpdatePrefixCache(x)`. -/
def UpdatePrefixCache (x : HeapItemAndPrefix) : HeapItemAndPrefix :=
  let p := x.item_ptr
  if x.iter_type = HeapItemType.ITERATOR then
    { x with key_prefix := HostPrefixCacheIK p.iter_key }
  else { x with key_prefix := HostPrefixCacheUK p.parsed_ikey.user_key }

/-- The constructor `HeapItemAndPrefix(item)`. -/
def HeapItemAndPrefix.ofItem (item : HeapItemBytes) : HeapItemAndPrefix :=
  UpdatePrefixCache { item_ptr := item, iter_type := item.type }

/-- The class `MinHeapBytewiseComp`. -/
def MinHeapBytewiseComp (a b : HeapItemAndPrefix) : Bool :=
  if a.key_prefix > b.key_prefix then true
  else if a.key_prefix < b.key_prefix then false
  else if a.iter_type = HeapItemType.ITERATOR then
    if b.iter_type = HeapItemType.ITERATOR then
      BytewiseCompareInternalKey b.item_ptr.iter_key a.item_ptr.iter_key
    else BytewiseCompareInternalKeyPS b.item_ptr.parsed_ikey a.item_ptr.iter_key
  else
    if b.iter_type = HeapItemType.ITERATOR then
      BytewiseCompareInternalKeySP b.item_ptr.iter_key a.item_ptr.parsed_ikey
    else BytewiseCompareInternalKeyPP b.item_ptr.parsed_ikey a.item_ptr.parsed_ikey

/-- The class `MaxHeapBytewiseComp`. -/
def MaxHeapBytewiseComp (a b : HeapItemAndPrefix) : Bool :=
  if a.key_prefix < b.key_prefix then true
  else if a.key_prefix > b.key_prefix then false
  else if a.iter_type = HeapItemType.ITERATOR then
    if b.iter_type = HeapItemType.ITERATOR then
      BytewiseCompareInternalKey a.item_ptr.iter_key b.item_ptr.iter_key
    else BytewiseCompareInternalKeySP a.item_ptr.iter_key b.item_ptr.parsed_ikey
  else
    if b.iter_type = HeapItemType.ITERATOR then
      BytewiseCompareInternalKeyPS a.item_ptr.parsed_ikey b.item_ptr.iter_key
    else BytewiseCompareInternalKeyPP a.item_ptr.parsed_ikey b.item_ptr.parsed_ikey

/-- The class `MinHeapRevBytewiseComp`. -/
def MinHeapRevBytewiseComp (a b : HeapItemAndPrefix) : Bool :=
  if a.key_prefix < b.key_prefix then true
  else if a.key_prefix > b.key_prefix then false
  else if a.iter_type = HeapItemType.ITERATOR then
    if b.iter_type = HeapItemType.ITERATOR then
      RevBytewiseCompareInternalKey b.item_ptr.iter_key a.item_ptr.iter_key
    else RevBytewiseCompareInternalKeyPS b.item_ptr.parsed_ikey a.item_ptr.iter_key
  else
    if b.iter_type = HeapItemType.ITERATOR then
      RevBytewiseCompareInternalKeySP b.item_ptr.iter_key a.item_ptr.parsed_ikey
    else RevBytewiseCompareInternalKeyPP b.item_ptr.parsed_ikey a.item_ptr.parsed_ikey

/-- The class `MaxHeapRevBytewiseComp`. -/
def MaxHeapRevBytewiseComp (a b : HeapItemAndPrefix) : Bool :=
  if a.key_prefix > b.key_prefix then true
  else if a.key_prefix < b.key_prefix then false
  else if a.iter_type = HeapItemType.ITERATOR then
    if b.iter_type = HeapItemType.ITERATOR then
      RevBytewiseCompareInternalKey a.item_ptr.iter_key b.item_ptr.iter_key
    else RevBytewiseCompareInternalKeySP a.item_ptr.iter_key b.item_ptr.parsed_ikey
  else
    if b.iter_type = HeapItemType.ITERATOR then
      RevBytewiseCompareInternalKeyPS a.item_ptr.parsed_ikey b.item_ptr.iter_key
    else RevBytewiseCompareInternalKeyPP a.item_ptr.parsed_ikey b.item_ptr.parsed_ikey

/-- The user key of an encoded internal key: all but the last 8 bytes. -/
def userKeyOf (x : Slice) : Slice := x.take (x.length - 8)

/-- The trailer of an encoded internal key: the last 8 bytes as a little-endian number. -/
def trailerOf (x : Slice) : Nat := leValue (x.drop (x.length - 8))

/-- The key of an item as the comparators without prefixes read it: the call
`BytewiseCompareInternalKey(key(a), key(b))`, with the overload that the types of the two
items select. -/
def bytewiseOfItems (a b : HeapItemBytes) : Bool :=
  if a.type = HeapItemType.ITERATOR then
    if b.type = HeapItemType.ITERATOR then
      BytewiseCompareInternalKey a.iter_key b.iter_key
    else BytewiseCompareInternalKeySP a.iter_key b.parsed_ikey
  else
    if b.type = HeapItemType.ITERATOR then
      BytewiseCompareInternalKeyPS a.parsed_ikey b.iter_key
    else BytewiseCompareInternalKeyPP a.parsed_ikey b.parsed_ikey

/-- The call `RevBytewiseCompareInternalKey(key(a), key(b))`, with the overload that the types
of the two items select. -/
def revBytewiseOfItems (a b : HeapItemBytes) : Bool :=
  if a.type = HeapItemType.ITERATOR then
    if b.type = HeapItemType.ITERATOR then
      RevBytewiseCompareInternalKey a.iter_key b.iter_key
    else RevBytewiseCompareInternalKeySP a.iter_key b.parsed_ikey
  else
    if b.type = HeapItemType.ITERATOR then
      RevBytewiseCompareInternalKeyPS a.parsed_ikey b.iter_key
    else RevBytewiseCompareInternalKeyPP a.parsed_ikey b.parsed_ikey

/-- The user key of an item: of `iter.key()` for a point item, of `parsed_ikey` else. -/
def itemUserKey (a : HeapItemBytes) : Slice :=
  if a.type = HeapItemType.ITERATOR then userKeyOf a.iter_key
  else a.parsed_ikey.user_key

/-- The trailer of an item as the comparators read it. -/
def itemTrailer (a : HeapItemBytes) : Nat :=
  if a.type = HeapItemType.ITERATOR then
    GetUnalignedU64 a.iter_key (sizeSub a.iter_key.length 8)
  else packSequenceAndType a.parsed_ikey

/-- The cached prefix and the cached type of `x` agree with the key and the type of the item
now. -/
def PrefixFresh (x : HeapItemAndPrefix) : Prop :=
  x.iter_type = x.item_ptr.type ∧ UpdatePrefixCache x = x

instance prefixFreshDecidable (x : HeapItemAndPrefix) : Decidable (PrefixFresh x) :=
  inferInstanceAs (Decidable (_ ∧ _))

/-- The encoded key of a point item has room for the trailer and a length that fits
`size_t`. -/
def ItemEncoded (a : HeapItemBytes) : Prop :=
  a.type = HeapItemType.ITERATOR →
    8 ≤ a.iter_key.length ∧ a.iter_key.length < 2 ^ 64

instance itemEncodedDecidable (a : HeapItemBytes) : Decidable (ItemEncoded a) :=
  inferInstanceAs (Decidable (_ → _))

/-- The point item with the encoded key `"ab"` followed by the trailer of sequence number 5
and type 1. -/
def pointItemAb : HeapItemBytes :=
  { iter_key := [97, 98, 1, 5, 0, 0, 0, 0, 0, 0],
    parsed_ikey := { user_key := [], sequence := 0, type := 0 },
    type := HeapItemType.ITERATOR }

/-- The boundary item with the start key `"abc"`, the largest sequence number and the type of
a range deletion. -/
def boundaryItemAbc : HeapItemBytes :=
  { iter_key := [],
    parsed_ikey := { user_key := [97, 98, 99], sequence := kMaxSequenceNumber,
                     type := kTypeRangeDeletion },
    type := HeapItemType.DELETE_RANGE_START }

/-- The first `k` bytes of a user key, filled up with zero bytes. -/
def padTake (k : Nat) (u : List (Fin 256)) : List (Fin 256) :=
  u.take k ++ List.replicate (k - (u.take k).length) 0

end Bytewise

/-! ## Part X (end). The encoded form of a parsed key, coherent items, and the states of the
seeks before the visibility loop -/

namespace Bytewise

/-- The encoded internal key of a parsed key, in the words of the specification: the user key
followed by the little-endian 8-byte value `sequence << 8 | type`. -/
def encodeInternalKey (p : ParsedInternalKey Slice) : Slice :=
  p.user_key ++ toBytesLE 8 (packSequenceAndType p)

/-- A parsed key that has an encoded form: the type is one byte and the encoded key has a
length that fits `size_t`. -/
def Encodable (p : ParsedInternalKey Slice) : Prop :=
  p.type < 256 ∧ p.user_key.length + 8 < 2 ^ 64

instance encodableDecidable (p : ParsedInternalKey Slice) : Decidable (Encodable p) :=
  inferInstanceAs (Decidable (_ ∧ _))

/-- The heap items with a coherent cached prefix: the cached prefix and type are those of the
item, and the encoded key of a point item has room for the trailer. -/
abbrev CoherentItem : Type :=
  { x : HeapItemAndPrefix // PrefixFresh x ∧ ItemEncoded x.item_ptr }

end Bytewise

namespace BinaryHeap

variable {T : Type}

/-- The heap inside `pop()` after `data_.front() = std::move(data_.back())` (when there is
more than one element) and `data_.pop_back()`, before `downheap(get_root())`. -/
def popShifted (h : BinaryHeap T) : BinaryHeap T :=
  match h.data_.getLast? with
  | none => h
  | some back =>
    { h with data_ := (if h.data_.length > 1 then h.data_.set 0 back else h.data_).dropLast }

/-- The data of a heap after `data_.front() = value`. -/
def withRoot (h : BinaryHeap T) (value : T) : BinaryHeap T :=
  { h with data_ := h.data_.set 0 value }

/-- A cached picked child is the left or the right child of the root. -/
def CacheChild (h : BinaryHeap T) : Prop :=
  ∀ c, h.root_cmp_cache_ = some c → c = 1 ∨ c = 2

/-- The heap after `push(5); push(3); push(4)` under `natLess`: data `[5, 3, 4]`. -/
def heapFiveThreeFour : BinaryHeap Nat :=
  push natLess (push natLess (push natLess {} 5) 3) 4

end BinaryHeap

namespace MergingIterator

/-- An engine with the upper bound 3 over one run with the record `(6, 5)` and the tombstone
`[3, 5)` with sequence number 9, after `SeekToFirst()`: the start key of the tombstone is at
the bound, so the heap holds the child only. -/
def boundedAtThree : MergingIterator Nat :=
  ((Finish ((MergingIterTmpl [{ run := [⟨6, 5, 1⟩] }] false (some 3)).AddRangeTombstoneIterator
    (some { tombstones := [mkTombstone 3 5 9] }))).SeekToFirst 8).getD default

end MergingIterator

namespace MergingIterator

variable {UK : Type} [LinearOrder UK] [Inhabited UK]

/-- The engine inside `SeekToFirst()` after `ClearHeaps()`, the loop over the children and the
loop over the tombstone iterators, before `FindNextVisibleKey()`. -/
def seekToFirstFill (e : MergingIterator UK) : MergingIterator UK :=
  let e0 := { e.ClearHeaps true with status_ := Status.OK }
  let e1 := (List.range e0.children_.length).foldl
    (fun (e : MergingIterator UK) level =>
      (e.updIter (.child level) (fun w => w.SeekToFirst)).AddToMinHeapOrCheckStatus
        (.child level)) e0
  (List.range e1.range_tombstone_iters_.length).foldl
    (fun (e : MergingIterator UK) i =>
      match e.range_tombstone_iters_[i]?.getD none with
      | some it =>
        let e := e.setRti i it.SeekToFirst
        if (e.rti i).Valid then e.InsertRangeTombstoneToMinHeap i true false else e
      | none => e) e1

/-- The engine inside `SeekToLast()` after `ClearHeaps()`, `InitMaxHeap()`, the loop over the
children and the loop over the tombstone iterators, before `FindPrevVisibleKey()`. -/
def seekToLastFill (e : MergingIterator UK) : MergingIterator UK :=
  let e0 := { (e.ClearHeaps true).InitMaxHeap with status_ := Status.OK }
  let e1 := (List.range e0.children_.length).foldl
    (fun (e : MergingIterator UK) level =>
      (e.updIter (.child level) (fun w => w.SeekToLast)).AddToMaxHeapOrCheckStatus
        (.child level)) e0
  (List.range e1.range_tombstone_iters_.length).foldl
    (fun (e : MergingIterator UK) i =>
      match e.range_tombstone_iters_[i]?.getD none with
      | some it =>
        let e := e.setRti i it.SeekToLast
        if (e.rti i).Valid then e.InsertRangeTombstoneToMaxHeap i true false else e
      | none => e) e1

/-- What `SeekToFirst()` and `SeekToLast()` do after the visibility loop: set the direction
and `current_`. -/
def finishSeek (d : Direction) : Option (MergingIterator UK) → Option (MergingIterator UK)
  | some e3 => some { e3 with direction_ := d, current_ := e3.heap_.top }
  | none => none

/-- The engine over the runs `(6, 5)` and `(2, 3), (4, 3), (7, 3)` whose first run carries the
tombstone `[3, 5)` with sequence number 9, not yet positioned. -/
def tombstoneOnFirstRun : MergingIterator Nat :=
  build [[⟨6, 5, 1⟩], [⟨2, 3, 1⟩, ⟨4, 3, 1⟩, ⟨7, 3, 1⟩]] [some [mkTombstone 3 5 9], none]

end MergingIterator

namespace MergingIterator

/-- The engine over the single run `(4, 3)` with the tombstone `[3, 5)` of sequence number 9,
not yet positioned. -/
def coveredOnlyRecord : MergingIterator Nat :=
  build [[⟨4, 3, 1⟩]] [some [mkTombstone 3 5 9]]

/-- The engine `coveredOnlyRecord` inside `SeekToFirst()`, after the first
`PopDeleteRangeStart()` of the visibility loop: the covered record is on top of the heap and
level 0 is active. -/
def forwardAtCovered : MergingIterator Nat :=
  ((seekToFirstFill coveredOnlyRecord).PopDeleteRangeStart).getD default

/-- The engine `coveredOnlyRecord` inside `SeekToLast()`, after the first
`PopDeleteRangeEnd()` of the visibility loop. -/
def backwardAtCovered : MergingIterator Nat :=
  ((seekToLastFill coveredOnlyRecord).PopDeleteRangeEnd).getD default

end MergingIterator

namespace MergingIterator

open InternalKeyComparator

variable {UK : Type} [LinearOrder UK] [Inhabited UK]

/-- The targets of `SeekForPrev` that the development covers: the target is not before the
range-deletion key with the largest sequence number of its own user key. Every target with a
sequence number below the largest one is of this kind. -/
def BackwardTarget (target : ParsedInternalKey UK) : Prop :=
  keyLe ⟨target.user_key, kMaxSequenceNumber, kTypeRangeDeletion⟩ target

instance backwardTargetDecidable (target : ParsedInternalKey UK) :
    Decidable (BackwardTarget target) :=
  inferInstanceAs (Decidable (keyLe _ _))

/-- The public positioning calls. -/
inductive Call (UK : Type) where
  | seekToFirst
  | seekToLast
  | seek (target : ParsedInternalKey UK)
  | seekForPrev (target : ParsedInternalKey UK)
  | next
  | prev

/-- The call, with fuel for its visibility loop. -/
def callBy (fuel : Nat) : Call UK → MergingIterator UK → Option (MergingIterator UK)
  | .seekToFirst, e => e.SeekToFirst fuel
  | .seekToLast, e => e.SeekToLast fuel
  | .seek target, e => e.Seek fuel target
  | .seekForPrev target, e => e.SeekForPrev fuel target
  | .next, e => e.Next fuel
  | .prev, e => e.Prev fuel

/-- The calls of a list, one after the other; `none` when a call runs out of fuel. -/
def callAll (fuel : Nat) : List (Call UK) → MergingIterator UK → Option (MergingIterator UK)
  | [], e => some e
  | c :: cs, e =>
    match callBy fuel c e with
    | some e1 => callAll fuel cs e1
    | none => none

/-- The target of a `SeekForPrev` call is a backward target. -/
def Call.TargetOK : Call UK → Prop
  | .seekForPrev target => BackwardTarget target
  | _ => True

instance callTargetOKDecidable : (c : Call UK) → Decidable c.TargetOK
  | .seekForPrev target => inferInstanceAs (Decidable (BackwardTarget target))
  | .seekToFirst => isTrue trivial
  | .seekToLast => isTrue trivial
  | .seek _ => isTrue trivial
  | .next => isTrue trivial
  | .prev => isTrue trivial

/-- The targets of the `SeekForPrev` calls of a list are backward targets. -/
def TargetsOK (cs : List (Call UK)) : Prop := ∀ c ∈ cs, c.TargetOK

instance targetsOKDecidable (cs : List (Call UK)) : Decidable (TargetsOK cs) :=
  inferInstanceAs (Decidable (∀ c ∈ cs, c.TargetOK))

/-- The direction that a call leaves: forward after `SeekToFirst`, `Seek` and `Next`, reverse
after `SeekToLast`, `SeekForPrev` and `Prev`. -/
def Call.direction : Call UK → Direction
  | .seekToFirst => Direction.kForward
  | .seek _ => Direction.kForward
  | .next => Direction.kForward
  | .seekToLast => Direction.kReverse
  | .seekForPrev _ => Direction.kReverse
  | .prev => Direction.kReverse

/-- The second assertion of `CurrentForward()` and of `CurrentReverse()`: the heap is empty or
its top is a point item. -/
def TopIsIterator (e : MergingIterator UK) : Prop :=
  e.heap_.empty = true ∨ ∃ t, e.heap_.top = some t ∧ (e.deref t).type = HeapItemType.ITERATOR

/-- What the exit conditions of a visibility loop give in any state of any engine, also one
whose children show file-boundary sentinels: the top of the heap is not an endpoint of the kind
`near` that `PopDeleteRangeStart` (forward) or `PopDeleteRangeEnd` (backward) replaces, it is
not a file-boundary sentinel, and it is an endpoint of the kind `far` only if no level is
active. -/
def ExitTop (near far : HeapItemType) (e : MergingIterator UK) : Prop :=
  ∀ t, e.heap_.top = some t →
    (e.deref t).type ≠ near ∧ (e.deref t).IsDeleteRangeSentinelKey = false ∧
      ((e.deref t).type = far → e.active_ = [])

/-- The heap is empty, or its top is the item of a child: a point item that is not a
file-boundary sentinel. -/
def TopIsRecord (e : MergingIterator UK) : Prop :=
  e.heap_.empty = true ∨
    ∃ s, e.heap_.top = some (.child s) ∧
      (e.deref (.child s)).type = HeapItemType.ITERATOR ∧
      (e.deref (.child s)).IsDeleteRangeSentinelKey = false

end MergingIterator

namespace MergingIterator

/-- The runs `(6, 5)` and `(2, 3), (4, 3), (7, 3)`. -/
def runsWithTombstone : List (List (ParsedInternalKey Nat)) :=
  [[⟨6, 5, 1⟩], [⟨2, 3, 1⟩, ⟨4, 3, 1⟩, ⟨7, 3, 1⟩]]

/-- The tombstone `[3, 5)` with sequence number 9 on the first run, none on the second. -/
def tombsOnFirstRun : List (Option (List (RangeTombstone Nat))) :=
  [some [mkTombstone 3 5 9], none]

/-- A sequence of public calls that changes the direction three times. -/
def callsBackAndForth : List (Call Nat) :=
  [Call.seekToLast, Call.prev, Call.seekForPrev ⟨5, 0, 0⟩, Call.next,
    Call.seek ⟨3, kMaxSequenceNumber, kValueTypeForSeek⟩, Call.prev, Call.seekToFirst]

end MergingIterator

/-! ## Part IV. Theorems about `BinaryHeap` -/

namespace BinaryHeap

variable {T : Type}

theorem swo_asymm {cmp : T → T → Bool} (h : StrictWeakOrder cmp) {a b : T}
    (hab : cmp a b = true) : cmp b a = false := by
  cases hba : cmp b a with
  | false => rfl
  | true =>
    have := h.trans a b a hab hba
    rw [h.irrefl] at this
    exact absurd this (by simp)

/-- Negative transitivity: "not less than" is transitive. -/
theorem swo_ge_trans {cmp : T → T → Bool} (h : StrictWeakOrder cmp) {a b c : T}
    (hab : cmp a b = false) (hbc : cmp b c = false) : cmp a c = false := by
  cases hac : cmp a c with
  | false => rfl
  | true =>
    cases hba : cmp b a with
    | true =>
      have := h.trans b a c hba hac
      rw [hbc] at this; exact absurd this (by simp)
    | false =>
      cases hcb : cmp c b with
      | true =>
        have := h.trans a c b hac hcb
        rw [hab] at this; exact absurd this (by simp)
      | false =>
        have := (h.incomp_trans a b c hab hba hbc hcb).1
        rw [hac] at this; exact absurd this (by simp)

theorem swo_lt_of_lt_of_ge {cmp : T → T → Bool} (h : StrictWeakOrder cmp) {a b c : T}
    (hab : cmp a b = true) (hcb : cmp c b = false) : cmp c a = false := by
  cases hca : cmp c a with
  | false => rfl
  | true =>
    have := h.trans c a b hca hab
    rw [hcb] at this; exact absurd this (by simp)

theorem getD_of_getElem? {l : List T} {i : Nat} {x d : T} (h : l[i]? = some x) :
    l[i]?.getD d = x := by
  simp [h]

theorem pickChild_spec {cmp : T → T → Bool} (hswo : StrictWeakOrder cmp) (n : Nat)
    (cache : Option Nat) (v : T) (data : List T) (index : Nat) (hlen : data.length = n)
    (hleft : get_left index < n) (hcache : index = 0 → CacheValid cmp cache data) :
    let pc := (pickChild cmp n cache v data index).1
    pc < n ∧ 0 < pc ∧ get_parent pc = index ∧
    ∀ c x y, 0 < c → get_parent c = index → data[pc]? = some x → data[c]? = some y →
      cmp x y = false := by
  intro pc
  have hchild : ∀ c, 0 < c → get_parent c = index → c = 2 * index + 1 ∨ c = 2 * index + 2 := by
    intro c hc hp; unfold get_parent at hp; omega
  unfold get_left at hleft
  by_cases hc : (index == 0 && cacheBelow cache n) = true
  · -- cache used
    simp only [Bool.and_eq_true, beq_iff_eq] at hc
    obtain ⟨hi0, hcb⟩ := hc
    cases hcache' : cache with
    | none => simp [cacheBelow, hcache'] at hcb
    | some k =>
      have hk : k < n := by simpa [cacheBelow, hcache'] using hcb
      have hpc : pc = k := by
        simp [pc, pickChild, hi0, hcb, hcache', hk, cacheBelow]
      obtain ⟨hk12, hkv⟩ := hcache hi0 k hcache' (by omega)
      rw [hpc]
      refine ⟨hk, by omega, by unfold get_parent; omega, ?_⟩
      intro c x y hc0 hcp hx hy
      rcases hchild c hc0 hcp with h1 | h1
      · rcases hk12 with h2 | h2
        · have : x = y := by subst h1 h2 hi0; simp_all
          subst this; exact hswo.irrefl x
        · apply hkv x y hx; subst h1 h2 hi0; simpa using hy
      · rcases hk12 with h2 | h2
        · apply hkv x y hx; subst h1 h2 hi0; simpa using hy
        · have : x = y := by subst h1 h2 hi0; simp_all
          subst this; exact hswo.irrefl x
  · have hc' : (index == 0 && cacheBelow cache n) = false := by simpa using hc
    by_cases hr : 2 * index + 1 + 1 < n
    · have hl : (2 * index + 1) < data.length := by omega
      have hr' : (2 * index + 1 + 1) < data.length := by omega
      cases hcmp : cmp (data[2 * index + 1]?.getD v) (data[2 * index + 1 + 1]?.getD v) with
      | true =>
        have hpc : pc = 2 * index + 1 + 1 := by
          simp [pc, pickChild, hc', get_left, hr, hcmp]
        rw [hpc]
        refine ⟨hr, by omega, by unfold get_parent; omega, ?_⟩
        intro c x y hc0 hcp hx hy
        rcases hchild c hc0 hcp with h1 | h1
        · subst h1
          rw [getD_of_getElem? hy, getD_of_getElem? hx] at hcmp
          exact swo_asymm hswo hcmp
        · subst h1
          have : x = y := by simp_all
          subst this; exact hswo.irrefl x
      | false =>
        have hpc : pc = 2 * index + 1 := by
          simp [pc, pickChild, hc', get_left, hr, hcmp]
        rw [hpc]
        refine ⟨by omega, by omega, by unfold get_parent; omega, ?_⟩
        intro c x y hc0 hcp hx hy
        rcases hchild c hc0 hcp with h1 | h1
        · subst h1
          have : x = y := by simp_all
          subst this; exact hswo.irrefl x
        · subst h1
          rw [getD_of_getElem? hy, getD_of_getElem? hx] at hcmp
          exact hcmp
    · have hpc : pc = 2 * index + 1 := by
        simp [pc, pickChild, hc', get_left, hr]
      rw [hpc]
      refine ⟨by omega, by omega, by unfold get_parent; omega, ?_⟩
      intro c x y hc0 hcp hx hy
      rcases hchild c hc0 hcp with h1 | h1
      · subst h1
        have : x = y := by simp_all
        subst this; exact hswo.irrefl x
      · subst h1
        have : (2 * index + 2) < data.length := by
          by_contra hcon
          rw [List.getElem?_eq_none (by omega)] at hy
          simp at hy
        omega

theorem child_cases {c index : Nat} (hc : 0 < c) (hp : get_parent c = index) :
    c = 2 * index + 1 ∨ c = 2 * index + 2 := by
  unfold get_parent at hp; omega

theorem getElem?_set_eq_ite (l : List T) (i j : Nat) (a : T) (hi : i < l.length) :
    (l.set i a)[j]? = if j = i then some a else l[j]? := by
  rw [List.getElem?_set]
  by_cases h : i = j
  · subst h; simp [hi]
  · have : ¬ j = i := fun h2 => h h2.symm
    simp [h, this]

theorem downheapLoop_spec {cmp : T → T → Bool} (hswo : StrictWeakOrder cmp) (n : Nat)
    (cache : Option Nat) (v : T) :
    ∀ (fuel : Nat) (s : SiftState T), DownInv cmp n v s → n ≤ fuel + s.index →
      (s.index = 0 → CacheValid cmp cache s.data) →
      HeapOrdered cmp ((downheapLoop cmp n cache v fuel s).data.set
        (downheapLoop cmp n cache v fuel s).index v) ∧
      (downheapLoop cmp n cache v fuel s).data.length = n ∧
      (downheapLoop cmp n cache v fuel s).index < n := by
  intro fuel
  induction fuel with
  | zero =>
    intro s hinv hfuel _
    have := hinv.2.1
    omega
  | succ fuel ih =>
    intro s hinv hfuel hcache
    obtain ⟨hlen, hidx, hedge, hgrand⟩ := hinv
    have hA : ∀ j, (s.data.set s.index v)[j]? = if j = s.index then some v else s.data[j]? :=
      fun j => getElem?_set_eq_ite _ _ _ _ (by omega)
    unfold downheapLoop
    by_cases hleft : get_left s.index ≥ n
    · simp only [hleft, ↓reduceIte]
      refine ⟨?_, hlen, hidx⟩
      intro i x p hi hx hp
      by_cases hpi : get_parent i = s.index
      · exfalso
        have hi2 := child_cases hi hpi
        unfold get_left at hleft
        have : (s.data.set s.index v)[i]? = none := by
          apply List.getElem?_eq_none; simp; omega
        rw [this] at hx; simp at hx
      · exact hedge i x p hi hpi hx hp
    · simp only [hleft, ↓reduceIte]
      have hleft' : get_left s.index < n := by omega
      obtain ⟨hpcn, hpc0, hpcp, hpick⟩ := pickChild_spec hswo n cache v s.data s.index hlen hleft' hcache
      generalize hpcdef : (pickChild cmp n cache v s.data s.index) = pcc at *
      have hpcgt : s.index < pcc.1 := by
        have := child_cases hpc0 hpcp; omega
      have hdpc : s.data[pcc.1]? = some (s.data[pcc.1]?.getD v) := by
        rw [List.getElem?_eq_getElem (by omega)]; simp
      generalize hdpcdef : s.data[pcc.1]?.getD v = dpc at *
      cases hcmp : cmp v dpc with
      | false =>
        simp only [Bool.not_false, ↓reduceIte]
        refine ⟨?_, hlen, hidx⟩
        intro i x p hi hx hp
        by_cases hpi : get_parent i = s.index
        · rw [hA] at hx hp
          have hine : i ≠ s.index := by
            have := child_cases hi hpi; omega
          simp only [hine, ↓reduceIte] at hx
          simp only [hpi, ↓reduceIte, Option.some.injEq] at hp
          subst hp
          exact swo_ge_trans hswo hcmp (hpick i dpc x hi hpi hdpc hx)
        · exact hedge i x p hi hpi hx hp
      | true =>
        simp only [Bool.not_true, Bool.false_eq_true, ↓reduceIte]
        have hlen2 : (s.data.set s.index dpc).length = n := by simp [hlen]
        have hA2 : ∀ j, ((s.data.set s.index dpc).set pcc.1 v)[j]? =
            if j = pcc.1 then some v else if j = s.index then some dpc else s.data[j]? := by
          intro j
          rw [getElem?_set_eq_ite _ _ _ _ (by omega), getElem?_set_eq_ite _ _ _ _ (by omega)]
        have hD2 : ∀ j, (s.data.set s.index dpc)[j]? =
            if j = s.index then some dpc else s.data[j]? :=
          fun j => getElem?_set_eq_ite _ _ _ _ (by omega)
        apply ih
        · refine ⟨hlen2, hpcn, ?_, ?_⟩
          · intro i x p hi hpi hx hp
            simp only [] at hpi hx hp ⊢
            rw [hA2] at hx hp
            by_cases h1 : i = pcc.1
            · -- edge index -> pc
              subst h1
              simp only [↓reduceIte, Option.some.injEq] at hx
              have : get_parent pcc.1 ≠ pcc.1 := by omega
              have hne2 : s.index ≠ pcc.1 := by omega
              simp only [this, hpcp, hne2, ↓reduceIte, Option.some.injEq] at hp
              subst hx hp
              exact swo_asymm hswo hcmp
            · simp only [h1, ↓reduceIte] at hx
              by_cases h2 : i = s.index
              · subst h2
                simp only [↓reduceIte, Option.some.injEq] at hx
                subst hx
                have hg1 : get_parent s.index ≠ pcc.1 := hpi
                have hg2 : get_parent s.index ≠ s.index := by unfold get_parent; omega
                simp only [hg1, hg2, ↓reduceIte] at hp
                have hidx0 : 0 < s.index := hi
                apply hgrand hidx0 pcc.1 dpc p hpc0 hpcp hdpc
                rw [hA]; simp only [hg2, ↓reduceIte]; exact hp
              · simp only [h2, ↓reduceIte] at hx
                simp only [hpi, ↓reduceIte] at hp
                by_cases h3 : get_parent i = s.index
                · simp only [h3, ↓reduceIte, Option.some.injEq] at hp
                  subst hp
                  exact hpick i dpc x hi h3 hdpc hx
                · simp only [h3, ↓reduceIte] at hp
                  apply hedge i x p hi h3
                  · rw [hA]; simp only [h2, ↓reduceIte]; exact hx
                  · rw [hA]; simp only [h3, ↓reduceIte]; exact hp
          · intro _ c x g hc hcp hx hg
            simp only [] at hcp hx hg ⊢
            have hcne : c ≠ s.index := by
              have := child_cases hc hcp; omega
            rw [hD2] at hx
            simp only [hcne, ↓reduceIte] at hx
            rw [hA2] at hg
            have : get_parent pcc.1 ≠ pcc.1 := by omega
            have hne2 : s.index ≠ pcc.1 := by omega
            simp only [this, hpcp, hne2, ↓reduceIte, Option.some.injEq] at hg
            subst hg
            apply hedge c x dpc hc (by omega)
            · rw [hA]; simp only [hcne, ↓reduceIte]; exact hx
            · rw [hA, hcp]
              have : pcc.1 ≠ s.index := by omega
              simp only [this, ↓reduceIte]; exact hdpc
        · simp only []; omega
        · intro h0; simp only [] at h0; omega

theorem cons_set_perm (xs : List T) (j : Nat) (b x : T) (h : xs[j]? = some b) :
    (b :: xs.set j x).Perm (x :: xs) := by
  induction xs generalizing j with
  | nil => simp at h
  | cons y ys ih =>
    cases j with
    | zero =>
      simp at h; subst h
      simpa using List.Perm.swap x y ys
    | succ j =>
      simp at h
      simp only [List.set_cons_succ]
      exact (List.Perm.swap y b _).trans (((ih j h).cons y).trans (List.Perm.swap x y ys))

theorem swap_perm (m : List T) (i j : Nat) (a b : T) (hi : m[i]? = some a)
    (hj : m[j]? = some b) : ((m.set i b).set j a).Perm m := by
  induction m generalizing i j with
  | nil => simp at hi
  | cons x xs ih =>
    cases i with
    | zero =>
      simp at hi; subst hi
      cases j with
      | zero => simp at hj; subst hj; simp
      | succ j =>
        simp at hj
        simpa using cons_set_perm xs j b x hj
    | succ i =>
      simp at hi
      cases j with
      | zero =>
        simp at hj; subst hj
        simpa using cons_set_perm xs i a x hi
      | succ j =>
        simp at hj
        simpa using ih i j hi hj

theorem pickChild_lt (cmp : T → T → Bool) (n : Nat) (cache : Option Nat) (v : T)
    (data : List T) (index : Nat) (hleft : get_left index < n) :
    (pickChild cmp n cache v data index).1 < n ∧
      index ≤ (pickChild cmp n cache v data index).1 := by
  unfold pickChild
  unfold get_left at *
  by_cases hc : (index == 0 && cacheBelow cache n) = true
  · simp only [hc, ↓reduceIte]
    simp only [Bool.and_eq_true, beq_iff_eq] at hc
    obtain ⟨hi0, hcb⟩ := hc
    cases cache with
    | none => simp [cacheBelow] at hcb
    | some k =>
      have : k < n := by simpa [cacheBelow] using hcb
      simp; omega
  · simp only [hc, Bool.false_eq_true, ↓reduceIte]
    split
    · split <;> simp <;> omega
    · simp; omega

theorem downheapLoop_perm (cmp : T → T → Bool) (n : Nat) (cache : Option Nat) (v : T) :
    ∀ (fuel : Nat) (s : SiftState T), s.data.length = n → s.index < n →
      ((downheapLoop cmp n cache v fuel s).data.set
        (downheapLoop cmp n cache v fuel s).index v).Perm (s.data.set s.index v) := by
  intro fuel
  induction fuel with
  | zero => intro s _ _; exact List.Perm.refl _
  | succ fuel ih =>
    intro s hlen hidx
    unfold downheapLoop
    by_cases hleft : get_left s.index ≥ n
    · simp only [hleft, ↓reduceIte]; exact List.Perm.refl _
    · simp only [hleft, ↓reduceIte]
      obtain ⟨hpcn, hpcge⟩ := pickChild_lt cmp n cache v s.data s.index (by omega)
      generalize (pickChild cmp n cache v s.data s.index) = pcc at *
      have hdpc : s.data[pcc.1]? = some (s.data[pcc.1]?.getD v) := by
        rw [List.getElem?_eq_getElem (by omega)]; simp
      generalize s.data[pcc.1]?.getD v = dpc at *
      cases hcmp : cmp v dpc with
      | false => simp only [Bool.not_false, ↓reduceIte]; exact List.Perm.refl _
      | true =>
        simp only [Bool.not_true, Bool.false_eq_true, ↓reduceIte]
        refine (ih _ (by simp [hlen]) hpcn).trans ?_
        simp only []
        by_cases hne : pcc.1 = s.index
        · rw [hne]; simp
        · have h1 : (s.data.set s.index v)[s.index]? = some v := by
            rw [getElem?_set_eq_ite _ _ _ _ (by omega)]; simp
          have h2 : (s.data.set s.index v)[pcc.1]? = some dpc := by
            rw [getElem?_set_eq_ite _ _ _ _ (by omega)]; simp [hne, hdpc]
          have := swap_perm _ _ _ _ _ h1 h2
          simpa using this

theorem downheapLoop_index_ge (cmp : T → T → Bool) (n : Nat) (cache : Option Nat) (v : T) :
    ∀ (fuel : Nat) (s : SiftState T), s.index ≤ (downheapLoop cmp n cache v fuel s).index := by
  intro fuel
  induction fuel with
  | zero => intro s; exact Nat.le_refl _
  | succ fuel ih =>
    intro s
    unfold downheapLoop
    by_cases hleft : get_left s.index ≥ n
    · simp only [hleft, ↓reduceIte]; exact Nat.le_refl _
    · simp only [hleft, ↓reduceIte]
      obtain ⟨_, hpcge⟩ := pickChild_lt cmp n cache v s.data s.index (by omega)
      split
      · exact Nat.le_refl _
      · exact Nat.le_trans hpcge (ih
          { data := s.data.set s.index
              (s.data[(pickChild cmp n cache v s.data s.index).1]?.getD v),
            index := (pickChild cmp n cache v s.data s.index).1,
            picked_child := some (pickChild cmp n cache v s.data s.index).1,
            cmps := s.cmps + (pickChild cmp n cache v s.data s.index).2 + 1 })

theorem downheapLoop_root {cmp : T → T → Bool} (hswo : StrictWeakOrder cmp) (n : Nat)
    (cache : Option Nat) (v : T) (fuel : Nat) (s : SiftState T) (hlen : s.data.length = n)
    (hidx : s.index = 0) (hpk : s.picked_child = none) (hcache : CacheValid cmp cache s.data)
    (hres : (downheapLoop cmp n cache v fuel s).index = 0) :
    (downheapLoop cmp n cache v fuel s).data = s.data ∧
      CacheValid cmp (downheapLoop cmp n cache v fuel s).picked_child (s.data.set 0 v) := by
  have hnone : CacheValid cmp none (s.data.set 0 v) := by
    intro c hc; simp at hc
  cases fuel with
  | zero => simp only [downheapLoop, hpk]; exact ⟨trivial, hnone⟩
  | succ fuel =>
    unfold downheapLoop at hres ⊢
    by_cases hleft : get_left s.index ≥ n
    · simp only [hleft, ↓reduceIte, hpk]; exact ⟨trivial, hnone⟩
    · simp only [hleft, ↓reduceIte] at hres ⊢
      obtain ⟨hpcn, hpc0, hpcp, hpick⟩ :=
        pickChild_spec hswo n cache v s.data s.index hlen (by omega) (fun _ => hcache)
      generalize (pickChild cmp n cache v s.data s.index) = pcc at *
      generalize s.data[pcc.1]?.getD v = dpc at *
      cases hcmp : cmp v dpc with
      | false =>
        simp only [Bool.not_false, ↓reduceIte]
        refine ⟨trivial, ?_⟩
        intro c hc hcn
        simp only [Option.some.injEq] at hc
        subst hc
        have h12 := child_cases hpc0 hpcp
        rw [hidx] at h12 hpick
        refine ⟨by omega, ?_⟩
        intro x y hx hy
        have hx' : s.data[pcc.1]? = some x := by
          rw [List.getElem?_set_ne (by omega)] at hx; exact hx
        have hy' : s.data[3 - pcc.1]? = some y := by
          rw [List.getElem?_set_ne (by omega)] at hy; exact hy
        exact hpick (3 - pcc.1) x y (by omega) (by unfold get_parent; omega) hx' hy'
      | true =>
        exfalso
        simp only [hcmp, Bool.not_true, Bool.false_eq_true, ↓reduceIte] at hres
        have := downheapLoop_index_ge cmp n cache v fuel
          { data := s.data.set s.index dpc, index := pcc.1, picked_child := some pcc.1,
            cmps := s.cmps + pcc.2 + 1 }
        simp only [] at this
        omega

theorem heapOrdered_top_max {cmp : T → T → Bool} (hswo : StrictWeakOrder cmp) {l : List T}
    (h : HeapOrdered cmp l) {m : T} (hm : l[0]? = some m) :
    ∀ (i : Nat) (x : T), l[i]? = some x → cmp m x = false := by
  intro i
  induction i using Nat.strong_induction_on with
  | _ i ih =>
    intro x hx
    by_cases hi : i = 0
    · subst hi; rw [hm] at hx; simp at hx; subst hx; exact hswo.irrefl _
    · have hlt : i < l.length := by
        by_contra hcon
        rw [List.getElem?_eq_none (by omega)] at hx; simp at hx
      have hpl : get_parent i < l.length := by unfold get_parent; omega
      have hp : l[get_parent i]? = some (l[get_parent i]) := List.getElem?_eq_getElem hpl
      have h1 := ih (get_parent i) (by unfold get_parent; omega) _ hp
      have h2 := h i x _ (by omega) hx hp
      exact swo_ge_trans hswo h1 h2

theorem swo_not_lt_of_lt {cmp : T → T → Bool} (h : StrictWeakOrder cmp) {a b c : T}
    (hab : cmp a b = true) (hac : cmp a c = false) : cmp b c = false := by
  cases hbc : cmp b c with
  | false => rfl
  | true =>
    have := h.trans a b c hab hbc
    rw [hac] at this; exact absurd this (by simp)

theorem upheapLoop_spec {cmp : T → T → Bool} (hswo : StrictWeakOrder cmp) (n : Nat) (v : T) :
    ∀ (fuel : Nat) (s : SiftState T), UpInv cmp n v s → s.index ≤ fuel →
      HeapOrdered cmp ((upheapLoop cmp v fuel s).data.set (upheapLoop cmp v fuel s).index v) ∧
      (upheapLoop cmp v fuel s).data.length = n ∧ (upheapLoop cmp v fuel s).index < n := by
  intro fuel
  induction fuel with
  | zero =>
    intro s hinv hfuel
    obtain ⟨hlen, hidx, hedge, -⟩ := hinv
    simp only [upheapLoop]
    refine ⟨?_, hlen, hidx⟩
    intro i x p hi hx hp
    exact hedge i x p hi (by omega) hx hp
  | succ fuel ih =>
    intro s hinv hfuel
    obtain ⟨hlen, hidx, hedge, hgrand⟩ := hinv
    have hA : ∀ j, (s.data.set s.index v)[j]? = if j = s.index then some v else s.data[j]? :=
      fun j => getElem?_set_eq_ite _ _ _ _ (by omega)
    unfold upheapLoop
    by_cases h0 : s.index > get_root
    · simp only [h0, ↓reduceIte]
      have h0' : 0 < s.index := h0
      have hpl : get_parent s.index < s.index := by unfold get_parent; omega
      have hdp : s.data[get_parent s.index]? = some (s.data[get_parent s.index]?.getD v) := by
        rw [List.getElem?_eq_getElem (by omega)]; simp
      generalize s.data[get_parent s.index]?.getD v = dp at *
      cases hcmp : cmp dp v with
      | false =>
        simp only [Bool.not_false, ↓reduceIte]
        refine ⟨?_, hlen, hidx⟩
        intro i x p hi hx hp
        by_cases hii : i = s.index
        · subst hii
          rw [hA] at hx hp
          have : get_parent s.index ≠ s.index := by omega
          simp only [↓reduceIte, Option.some.injEq, this] at hx hp
          rw [hdp] at hp
          simp only [Option.some.injEq] at hp
          subst hx hp
          exact hcmp
        · exact hedge i x p hi hii hx hp
      | true =>
        simp only [Bool.not_true, Bool.false_eq_true, ↓reduceIte]
        have hA2 : ∀ j, ((s.data.set s.index dp).set (get_parent s.index) v)[j]? =
            if j = get_parent s.index then some v
            else if j = s.index then some dp else s.data[j]? := by
          intro j
          rw [getElem?_set_eq_ite _ _ _ _ (by simp; omega),
            getElem?_set_eq_ite _ _ _ _ (by omega)]
        apply ih
        · refine ⟨by simp [hlen], by simp only []; omega, ?_, ?_⟩
          · intro i x q hi hine hx hq
            simp only [] at hine hx hq
            rw [hA2] at hx hq
            simp only [hine, ↓reduceIte] at hx
            by_cases h1 : i = s.index
            · subst h1
              simp only [↓reduceIte, Option.some.injEq] at hx hq
              subst hx hq
              exact swo_asymm hswo hcmp
            · simp only [h1, ↓reduceIte] at hx
              have hxA : (s.data.set s.index v)[i]? = some x := by
                rw [hA]; simp only [h1, ↓reduceIte]; exact hx
              by_cases h2 : get_parent i = get_parent s.index
              · simp only [h2, ↓reduceIte, Option.some.injEq] at hq
                subst hq
                have hpA : (s.data.set s.index v)[get_parent i]? = some dp := by
                  rw [hA, h2]
                  have : get_parent s.index ≠ s.index := by omega
                  simp only [this, ↓reduceIte]; exact hdp
                exact swo_not_lt_of_lt hswo hcmp (hedge i x dp hi h1 hxA hpA)
              · simp only [h2, ↓reduceIte] at hq
                by_cases h3 : get_parent i = s.index
                · simp only [h3, ↓reduceIte, Option.some.injEq] at hq
                  subst hq
                  apply hgrand h0' i x _ hi h3 hxA
                  rw [hA]
                  have : get_parent s.index ≠ s.index := by omega
                  simp only [this, ↓reduceIte]; exact hdp
                · simp only [h3, ↓reduceIte] at hq
                  apply hedge i x q hi h1 hxA
                  rw [hA]; simp only [h3, ↓reduceIte]; exact hq
          · intro hp0 c x g hc hcp hx hg
            simp only [] at hp0 hcp hx hg
            rw [hA2] at hx hg
            have hcne : c ≠ get_parent s.index := by
              have := child_cases hc hcp; omega
            have hgp1 : get_parent (get_parent s.index) ≠ get_parent s.index := by
              unfold get_parent at hp0 ⊢; omega
            have hgp2 : get_parent (get_parent s.index) ≠ s.index := by
              unfold get_parent at hp0 ⊢; omega
            simp only [hcne, hgp1, hgp2, ↓reduceIte] at hx hg
            have hgA : (s.data.set s.index v)[get_parent (get_parent s.index)]? = some g := by
              rw [hA]; simp only [hgp2, ↓reduceIte]; exact hg
            have hpA : (s.data.set s.index v)[get_parent s.index]? = some dp := by
              rw [hA]
              have : get_parent s.index ≠ s.index := by omega
              simp only [this, ↓reduceIte]; exact hdp
            have hgdp : cmp g dp = false :=
              hedge (get_parent s.index) dp g hp0 (by omega) hpA hgA
            by_cases h1 : c = s.index
            · simp only [h1, ↓reduceIte, Option.some.injEq] at hx
              subst hx
              exact hgdp
            · simp only [h1, ↓reduceIte] at hx
              have hxA : (s.data.set s.index v)[c]? = some x := by
                rw [hA]; simp only [h1, ↓reduceIte]; exact hx
              have := hedge c x dp hc h1 hxA (by rw [hcp]; exact hpA)
              exact swo_ge_trans hswo hgdp this
        · simp only []; omega
    · simp only [h0, ↓reduceIte]
      refine ⟨?_, hlen, hidx⟩
      intro i x p hi hx hp
      have : s.index = 0 := by unfold get_root at h0; omega
      exact hedge i x p hi (by omega) hx hp

theorem upheapLoop_perm (cmp : T → T → Bool) (n : Nat) (v : T) :
    ∀ (fuel : Nat) (s : SiftState T), s.data.length = n → s.index < n →
      ((upheapLoop cmp v fuel s).data.set (upheapLoop cmp v fuel s).index v).Perm
        (s.data.set s.index v) := by
  intro fuel
  induction fuel with
  | zero => intro s _ _; exact List.Perm.refl _
  | succ fuel ih =>
    intro s hlen hidx
    unfold upheapLoop
    by_cases h0 : s.index > get_root
    · simp only [h0, ↓reduceIte]
      have h0' : 0 < s.index := h0
      have hpl : get_parent s.index < s.index := by unfold get_parent; omega
      have hdp : s.data[get_parent s.index]? = some (s.data[get_parent s.index]?.getD v) := by
        rw [List.getElem?_eq_getElem (by omega)]; simp
      generalize s.data[get_parent s.index]?.getD v = dp at *
      cases hcmp : cmp dp v with
      | false => simp only [Bool.not_false, ↓reduceIte]; exact List.Perm.refl _
      | true =>
        simp only [Bool.not_true, Bool.false_eq_true, ↓reduceIte]
        refine (ih _ (by simp [hlen]) (by simp only []; omega)).trans ?_
        simp only []
        have h1 : (s.data.set s.index v)[s.index]? = some v := by
          rw [getElem?_set_eq_ite _ _ _ _ (by omega)]; simp
        have h2 : (s.data.set s.index v)[get_parent s.index]? = some dp := by
          rw [getElem?_set_eq_ite _ _ _ _ (by omega)]
          have : get_parent s.index ≠ s.index := by omega
          simp [this, hdp]
        have := swap_perm _ _ _ _ _ h1 h2
        simpa using this
    · simp only [h0, ↓reduceIte]; exact List.Perm.refl _

theorem heapOrdered_belowRoot {cmp : T → T → Bool} {l : List T} (h : HeapOrdered cmp l) :
    HeapBelowRoot cmp l :=
  fun i x p hi _ hx hp => h i x p hi hx hp

theorem heapBelowRoot_set_root {cmp : T → T → Bool} {l : List T} (h : HeapBelowRoot cmp l)
    (w : T) : HeapBelowRoot cmp (l.set 0 w) := by
  intro i x p hi hpi hx hp
  rw [List.getElem?_set_ne (by omega)] at hx
  rw [List.getElem?_set_ne (by omega)] at hp
  exact h i x p hi hpi hx hp

theorem cacheValid_set_root {cmp : T → T → Bool} {cache : Option Nat} {l : List T}
    (h : CacheValid cmp cache l) (w : T) : CacheValid cmp cache (l.set 0 w) := by
  intro c hc hcl
  obtain ⟨h12, hv⟩ := h c hc (by simpa using hcl)
  refine ⟨h12, ?_⟩
  intro x y hx hy
  rw [List.getElem?_set_ne (by omega)] at hx
  rw [List.getElem?_set_ne (by omega)] at hy
  exact hv x y hx hy

theorem downheap_root {cmp : T → T → Bool} (hswo : StrictWeakOrder cmp) (h : BinaryHeap T)
    (hne : h.data_ ≠ []) (hb : HeapBelowRoot cmp h.data_)
    (hc : CacheValid cmp h.root_cmp_cache_ h.data_) :
    HeapInv cmp (downheap cmp h get_root).1 ∧ (downheap cmp h get_root).1.data_.Perm h.data_ := by
  have hlen : 0 < h.data_.length := List.length_pos.mpr hne
  have h0 : h.data_[0]? = some (h.data_[0]) := List.getElem?_eq_getElem hlen
  generalize h.data_[0] = v at h0
  have hset : h.data_.set 0 v = h.data_ := by
    apply List.ext_getElem? ; intro j
    rw [getElem?_set_eq_ite _ _ _ _ hlen]
    by_cases hj : j = 0
    · subst hj; simp [h0]
    · simp [hj]
  unfold downheap get_root
  simp only [h0]
  have hinv : DownInv cmp h.data_.length v { data := h.data_, index := 0 } := by
    refine ⟨rfl, hlen, ?_, ?_⟩
    · intro i x p hi hpi hx hp
      simp only [hset] at hx hp
      exact hb i x p hi hpi hx hp
    · intro hcon; simp at hcon
  have hspec := downheapLoop_spec hswo h.data_.length h.root_cmp_cache_ v h.data_.length
    { data := h.data_, index := 0 } hinv (by simp) (fun _ => hc)
  have hperm := downheapLoop_perm cmp h.data_.length h.root_cmp_cache_ v h.data_.length
    { data := h.data_, index := 0 } rfl hlen
  simp only [hset] at hperm
  refine ⟨⟨hspec.1, ?_⟩, hperm⟩
  simp only []
  split
  · rename_i hidx
    have hidx' : (downheapLoop cmp h.data_.length h.root_cmp_cache_ v h.data_.length
        { data := h.data_, index := 0 }).index = 0 := by simpa using hidx
    have hroot := downheapLoop_root hswo h.data_.length h.root_cmp_cache_ v h.data_.length
      { data := h.data_, index := 0 } rfl rfl rfl hc hidx'
    rw [hidx', hroot.1]
    exact hroot.2
  · intro c hcc; simp at hcc

theorem upheap_last {cmp : T → T → Bool} (hswo : StrictWeakOrder cmp) (l : List T) (value : T)
    (cache : Option Nat) (ho : HeapOrdered cmp l) :
    HeapInv cmp (upheap cmp { data_ := l ++ [value], root_cmp_cache_ := cache } l.length).1 ∧
      (upheap cmp { data_ := l ++ [value], root_cmp_cache_ := cache } l.length).1.data_.Perm
        (value :: l) := by
  have h0 : (l ++ [value])[l.length]? = some value := by simp
  have hset : (l ++ [value]).set l.length value = l ++ [value] := by
    apply List.ext_getElem? ; intro j
    rw [getElem?_set_eq_ite _ _ _ _ (by simp)]
    by_cases hj : j = l.length
    · subst hj; simp
    · simp [hj]
  unfold upheap
  simp only [h0]
  have hinv : UpInv cmp (l.length + 1) value { data := l ++ [value], index := l.length } := by
    refine ⟨by simp, by simp, ?_, ?_⟩
    · intro i x p hi hine hx hp
      simp only [hset] at hx hp
      simp only [] at hine
      have hil : i < l.length := by
        by_contra hcon
        have : (l ++ [value])[i]? = none := by
          apply List.getElem?_eq_none; simp; omega
        rw [this] at hx; simp at hx
      have hpl : get_parent i < l.length := by unfold get_parent; omega
      rw [List.getElem?_append_left hil] at hx
      rw [List.getElem?_append_left hpl] at hp
      exact ho i x p hi hx hp
    · intro _ c x g hc hcp hx _
      exfalso
      simp only [hset] at hx hcp
      have := child_cases hc hcp
      have : (l ++ [value])[c]? = none := by
        apply List.getElem?_eq_none; simp; omega
      rw [this] at hx; simp at hx
  have hspec := upheapLoop_spec hswo (l.length + 1) value l.length
    { data := l ++ [value], index := l.length } hinv (Nat.le_refl _)
  have hperm := upheapLoop_perm cmp (l.length + 1) value l.length
    { data := l ++ [value], index := l.length } (by simp) (by simp)
  simp only [hset] at hperm
  refine ⟨⟨hspec.1, ?_⟩, hperm.trans (List.perm_append_singleton value l)⟩
  intro c hcc; simp at hcc

theorem pushC_spec {cmp : T → T → Bool} (hswo : StrictWeakOrder cmp) (h : BinaryHeap T)
    (v : T) (ho : HeapOrdered cmp h.data_) :
    HeapInv cmp (pushC cmp h v).1 ∧ (pushC cmp h v).1.data_.Perm (v :: h.data_) := by
  unfold pushC
  simp only [List.length_append, List.length_singleton, Nat.add_sub_cancel]
  exact upheap_last hswo h.data_ v h.root_cmp_cache_ ho

theorem replace_topC_spec {cmp : T → T → Bool} (hswo : StrictWeakOrder cmp) (h : BinaryHeap T)
    (v : T) (hne : h.empty = false) (hb : HeapBelowRoot cmp h.data_)
    (hc : CacheValid cmp h.root_cmp_cache_ h.data_) :
    HeapInv cmp (replace_topC cmp h v).1 ∧
      (replace_topC cmp h v).1.data_.Perm (v :: h.data_.tail) := by
  unfold replace_topC
  simp only [hne, Bool.false_eq_true, ↓reduceIte]
  have hne' : h.data_ ≠ [] := by
    intro hcon; simp [empty, hcon] at hne
  have := downheap_root hswo { h with data_ := h.data_.set 0 v } (by simpa using hne')
    (heapBelowRoot_set_root hb v) (cacheValid_set_root hc v)
  refine ⟨this.1, this.2.trans ?_⟩
  cases hd : h.data_ with
  | nil => exact absurd hd hne'
  | cons x xs => simp

theorem update_topC_spec {cmp : T → T → Bool} (hswo : StrictWeakOrder cmp) (h : BinaryHeap T)
    (hne : h.empty = false) (hb : HeapBelowRoot cmp h.data_)
    (hc : CacheValid cmp h.root_cmp_cache_ h.data_) :
    HeapInv cmp (update_topC cmp h).1 ∧ (update_topC cmp h).1.data_.Perm h.data_ := by
  unfold update_topC
  simp only [hne, Bool.false_eq_true, ↓reduceIte]
  have hne' : h.data_ ≠ [] := by
    intro hcon; simp [empty, hcon] at hne
  exact downheap_root hswo h hne' hb hc

theorem popC_spec {cmp : T → T → Bool} (hswo : StrictWeakOrder cmp) (h : BinaryHeap T)
    (ho : HeapBelowRoot cmp h.data_) (hc : CacheValid cmp h.root_cmp_cache_ h.data_) :
    HeapInv cmp (popC cmp h).1 ∧ (popC cmp h).1.data_.Perm h.data_.tail := by
  unfold popC
  cases hd : h.data_ with
  | nil =>
    simp only [List.getLast?_nil]
    exact ⟨⟨by rw [hd]; intro i x p _ hx; simp at hx,
      by intro c _ hcl; rw [hd] at hcl; simp at hcl⟩, by rw [hd]; simp⟩
  | cons x xs =>
    rw [hd] at ho hc
    cases hxs : xs with
    | nil =>
      simp [empty, reset_root_cmp_cache, HeapInv, HeapOrdered, CacheValid]
    | cons y ys =>
      have hback : (x :: y :: ys).getLast? = some ((y :: ys).getLast (by simp)) := by
        simp [List.getLast?_eq_getLast]
      subst hxs
      simp only [hback]
      have hsplit : (y :: ys).dropLast ++ [(y :: ys).getLast (by simp)] = y :: ys :=
        List.dropLast_append_getLast _
      generalize (y :: ys).getLast (by simp) = back at *
      have hdl : ((x :: y :: ys).set 0 back).dropLast = back :: (y :: ys).dropLast := by
        simp
      simp only [List.length_cons, gt_iff_lt, Nat.lt_add_left_iff_pos, Nat.zero_lt_succ,
        ↓reduceIte, hdl, empty, List.isEmpty_cons, Bool.not_false, List.tail_cons]
      have hget : ∀ j, 0 < j → ∀ z, (back :: (y :: ys).dropLast)[j]? = some z →
          (x :: y :: ys)[j]? = some z := by
        intro j hj z hz
        cases j with
        | zero => omega
        | succ j =>
          simp only [List.getElem?_cons_succ] at hz ⊢
          rw [List.dropLast_eq_take, List.getElem?_take] at hz
          split at hz
          · exact hz
          · simp at hz
      have := downheap_root hswo
        { data_ := back :: (y :: ys).dropLast, root_cmp_cache_ := h.root_cmp_cache_ }
        (by simp) ?_ ?_
      · refine ⟨this.1, this.2.trans ?_⟩
        simp only []
        exact (List.perm_append_singleton back _).symm.trans (by rw [hsplit])
      · intro i z p hi hpi hz hp
        have hp0 : 0 < get_parent i := Nat.pos_of_ne_zero hpi
        exact ho i z p hi hpi (hget i hi z hz) (hget _ hp0 p hp)
      · intro c hcc hcl
        simp only [List.length_cons, List.length_dropLast] at hcl
        obtain ⟨h12, hv⟩ := hc c hcc (by simp; omega)
        refine ⟨h12, ?_⟩
        intro a b ha hb
        exact hv a b (hget c (by omega) a ha) (hget (3 - c) (by omega) b hb)

theorem reachable_inv {cmp : T → T → Bool} (hswo : StrictWeakOrder cmp) {h : BinaryHeap T}
    (hr : Reachable cmp h) : HeapInv cmp h := by
  induction hr with
  | empty =>
    refine ⟨?_, ?_⟩
    · intro i x p _ hx; simp at hx
    · intro c hc; simp at hc
  | push h v _ ih => exact (pushC_spec hswo h v ih.1).1
  | pop h _ _ ih => exact (popC_spec hswo h (heapOrdered_belowRoot ih.1) ih.2).1
  | replace_top h v _ hne ih => exact (replace_topC_spec hswo h v hne (heapOrdered_belowRoot ih.1) ih.2).1
  | update_top h w _ hne ih =>
    refine (update_topC_spec hswo { h with data_ := h.data_.set 0 w } ?_
      (heapBelowRoot_set_root (heapOrdered_belowRoot ih.1) w) (cacheValid_set_root ih.2 w)).1
    simpa [BinaryHeap.empty] using hne
  | clear h _ _ =>
    refine ⟨?_, ?_⟩
    · intro i x p _ hx; simp only [BinaryHeap.clear] at hx; simp at hx
    · intro c hc; simp only [BinaryHeap.clear] at hc; simp at hc

theorem heapOrdered_top_max_mem {cmp : T → T → Bool} (hswo : StrictWeakOrder cmp)
    {h : BinaryHeap T} (ho : HeapOrdered cmp h.data_) {m : T} (hm : h.top = some m) :
    m ∈ h.data_ ∧ ∀ x ∈ h.data_, cmp m x = false := by
  have hm0 : h.data_[0]? = some m := by
    unfold top at hm
    cases hd : h.data_ with
    | nil => rw [hd] at hm; simp at hm
    | cons a l => rw [hd] at hm; simpa using hm
  refine ⟨List.mem_iff_getElem?.mpr ⟨0, hm0⟩, ?_⟩
  intro x hx
  obtain ⟨i, hi⟩ := List.mem_iff_getElem?.mp hx
  exact heapOrdered_top_max hswo ho hm0 i x hi

theorem top_isSome_of_perm_cons {h : BinaryHeap T} {v : T} {l : List T}
    (hp : h.data_.Perm (v :: l)) : ∃ t, h.top = some t := by
  unfold top
  cases hd : h.data_ with
  | nil => rw [hd] at hp; simp at hp
  | cons a l => exact ⟨a, rfl⟩

theorem pickChild_snd {cmp : T → T → Bool} (n : Nat) (cache : Option Nat) (v : T)
    (data : List T) (index : Nat) :
    (pickChild cmp n cache v data index).2 =
      if (index == 0 && cacheBelow cache n) = true then 0
      else if get_left index + 1 < n then 1 else 0 := by
  unfold pickChild
  dsimp only
  split
  · rfl
  · split
    · split <;> rfl
    · rfl

theorem downheapLoop_cmps_ge (cmp : T → T → Bool) (n : Nat) (cache : Option Nat) (v : T) :
    ∀ (fuel : Nat) (s : SiftState T), s.cmps ≤ (downheapLoop cmp n cache v fuel s).cmps := by
  intro fuel
  induction fuel with
  | zero => intro s; exact Nat.le_refl _
  | succ fuel ih =>
    intro s
    unfold downheapLoop
    dsimp only
    split
    · exact Nat.le_refl _
    · split
      · show s.cmps ≤ s.cmps + _ + 1
        omega
      · refine Nat.le_trans ?_ (ih
          { data := s.data.set s.index
              (s.data[(pickChild cmp n cache v s.data s.index).1]?.getD v),
            index := (pickChild cmp n cache v s.data s.index).1,
            picked_child := some (pickChild cmp n cache v s.data s.index).1,
            cmps := s.cmps + (pickChild cmp n cache v s.data s.index).2 + 1 })
        show s.cmps ≤ s.cmps + _ + 1
        omega

theorem downheapLoop_first (cmp : T → T → Bool) (n : Nat) (cache : Option Nat) (v : T)
    (fuel : Nat) (s : SiftState T) (hleft : get_left s.index < n) :
    s.cmps + (pickChild cmp n cache v s.data s.index).2 + 1 ≤
      (downheapLoop cmp n cache v (fuel + 1) s).cmps := by
  unfold downheapLoop
  have : ¬ get_left s.index ≥ n := by omega
  simp only [this, ↓reduceIte]
  split
  · exact Nat.le_refl _
  · exact downheapLoop_cmps_ge cmp n cache v fuel
      { data := s.data.set s.index
          (s.data[(pickChild cmp n cache v s.data s.index).1]?.getD v),
        index := (pickChild cmp n cache v s.data s.index).1,
        picked_child := some (pickChild cmp n cache v s.data s.index).1,
        cmps := s.cmps + (pickChild cmp n cache v s.data s.index).2 + 1 }

theorem downheapLoop_break (cmp : T → T → Bool) (n : Nat) (cache : Option Nat) (v : T)
    (fuel : Nat) (s : SiftState T) (hleft : get_left s.index < n)
    (hcmp : cmp v (s.data[(pickChild cmp n cache v s.data s.index).1]?.getD v) = false) :
    (downheapLoop cmp n cache v (fuel + 1) s).cmps =
      s.cmps + (pickChild cmp n cache v s.data s.index).2 + 1 := by
  unfold downheapLoop
  have : ¬ get_left s.index ≥ n := by omega
  simp only [this, ↓reduceIte, hcmp, Bool.not_false]

theorem upheapLoop_cmps_ge (cmp : T → T → Bool) (v : T) :
    ∀ (fuel : Nat) (s : SiftState T), s.cmps ≤ (upheapLoop cmp v fuel s).cmps := by
  intro fuel
  induction fuel with
  | zero => intro s; exact Nat.le_refl _
  | succ fuel ih =>
    intro s
    unfold upheapLoop
    dsimp only
    split
    · split
      · show s.cmps ≤ s.cmps + 1
        omega
      · refine Nat.le_trans ?_ (ih
          { s with data := s.data.set s.index (s.data[get_parent s.index]?.getD v),
                   index := get_parent s.index, cmps := s.cmps + 1 })
        show s.cmps ≤ s.cmps + 1
        omega
    · exact Nat.le_refl _

theorem upheapLoop_first (cmp : T → T → Bool) (v : T) (fuel : Nat) (s : SiftState T)
    (hidx : 0 < s.index) : s.cmps + 1 ≤ (upheapLoop cmp v (fuel + 1) s).cmps := by
  unfold upheapLoop
  have : s.index > get_root := hidx
  simp only [this, ↓reduceIte]
  split
  · exact Nat.le_refl _
  · exact upheapLoop_cmps_ge cmp v fuel
      { s with data := s.data.set s.index (s.data[get_parent s.index]?.getD v),
               index := get_parent s.index, cmps := s.cmps + 1 }

/-- The number of comparator calls of `replace_top(v)` when `v` is not less than any stored
element. -/
theorem replace_topC_cmps_of_max {cmp : T → T → Bool} (hswo : StrictWeakOrder cmp)
    (h : BinaryHeap T) (v : T) (hmax : ∀ x ∈ h.data_, cmp v x = false) :
    (replace_topC cmp h v).2 =
      if h.data_.length ≤ 1 then 0
      else if cacheBelow h.root_cmp_cache_ h.data_.length = true then 1
      else if 2 < h.data_.length then 2 else 1 := by
  unfold replace_topC
  cases hd : h.data_ with
  | nil => simp [empty, hd]
  | cons x xs =>
    have hemp : h.empty = false := by simp [empty, hd]
    simp only [hemp, Bool.false_eq_true, ↓reduceIte, List.set_cons_zero]
    unfold downheap get_root
    simp only [List.getElem?_cons_zero, List.length_cons]
    cases hxs : xs with
    | nil => simp [downheapLoop, get_left]
    | cons y ys =>
      have hleft : get_left 0 < (ys.length + 1 + 1) := by unfold get_left; omega
      have hmem : ∀ j : Nat, cmp v ((v :: y :: ys)[j]?.getD v) = false := by
        intro j
        cases hj : (v :: y :: ys)[j]? with
        | none => simpa using hswo.irrefl v
        | some z =>
          have hz := List.getElem?_mem hj
          simp only [Option.getD_some]
          rcases List.mem_cons.mp hz with h1 | h1
          · rw [h1]; exact hswo.irrefl v
          · apply hmax; rw [hd, hxs]; exact List.mem_cons_of_mem _ h1
      rw [downheapLoop_break cmp _ _ _ _ _ hleft (hmem _)]
      rw [pickChild_snd]
      simp only [List.length_cons, get_left]
      split
      · rename_i hc
        simp only [beq_self_eq_true, Bool.true_and] at hc
        simp [hc]
      · rename_i hc
        simp only [beq_self_eq_true, Bool.true_and] at hc
        simp only [hc]
        split <;> simp

theorem cacheBelow_mono {cache : Option Nat} {m n : Nat} (hmn : m ≤ n)
    (h : cacheBelow cache m = true) : cacheBelow cache n = true := by
  cases cache with
  | none => simp [cacheBelow] at h
  | some c => simp only [cacheBelow, decide_eq_true_eq] at h ⊢; omega

/-- A lower bound on the number of comparator calls of `pop()`. -/
theorem popC_cmps_ge (cmp : T → T → Bool) (h : BinaryHeap T) (hlen : 3 ≤ h.data_.length) :
    (if cacheBelow h.root_cmp_cache_ (h.data_.length - 1) = true then 1
      else if 2 < h.data_.length - 1 then 2 else 1) ≤ (popC cmp h).2 := by
  unfold popC
  cases hd : h.data_ with
  | nil => rw [hd] at hlen; simp at hlen
  | cons x xs =>
    cases hxs : xs with
    | nil => rw [hd, hxs] at hlen; simp at hlen
    | cons y ys =>
      have hback : (x :: y :: ys).getLast? = some ((y :: ys).getLast (by simp)) := by
        simp [List.getLast?_eq_getLast]
      simp only [hback]
      generalize (y :: ys).getLast (by simp) = back
      have hdl : ((x :: y :: ys).set 0 back).dropLast = back :: (y :: ys).dropLast := by
        simp
      simp only [List.length_cons, gt_iff_lt, Nat.lt_add_left_iff_pos, Nat.zero_lt_succ,
        ↓reduceIte, hdl, empty, List.isEmpty_cons, Bool.not_false]
      unfold downheap get_root
      simp only [List.getElem?_cons_zero, List.length_cons, List.length_dropLast,
        Nat.add_sub_cancel]
      have hys : 1 ≤ ys.length := by rw [hd, hxs] at hlen; simp at hlen; omega
      obtain ⟨k, hk⟩ : ∃ k, ys.length = k + 1 := ⟨ys.length - 1, by omega⟩
      have hleft : get_left 0 < ys.length + 1 := by unfold get_left; omega
      have hfirst := downheapLoop_first cmp (ys.length + 1) h.root_cmp_cache_ back
        ys.length { data := back :: (y :: ys).dropLast, index := 0 } hleft
      refine Nat.le_trans ?_ hfirst
      rw [pickChild_snd]
      simp only [beq_self_eq_true, Bool.true_and, get_left, Nat.zero_add]
      by_cases hcb : cacheBelow h.root_cmp_cache_ (ys.length + 1) = true
      · simp [hcb]
      · simp only [hcb, Bool.false_eq_true, ↓reduceIte]
        by_cases h2 : 2 < ys.length + 1
        · have h3 : 2 * 0 + 1 + 1 < ys.length + 1 := by omega
          simp [h2, h3]
        · have h3 : ¬ 2 * 0 + 1 + 1 < ys.length + 1 := by omega
          simp [h2, h3]

/-- A lower bound on the number of comparator calls of `push(v)` on a non-empty heap. -/
theorem pushC_cmps_ge (cmp : T → T → Bool) (h : BinaryHeap T) (v : T)
    (hlen : 1 ≤ h.data_.length) : 1 ≤ (pushC cmp h v).2 := by
  unfold pushC upheap
  simp only [List.length_append, List.length_singleton, Nat.add_sub_cancel]
  have h0 : (h.data_ ++ [v])[h.data_.length]? = some v := by simp
  simp only [h0]
  obtain ⟨k, hk⟩ : ∃ k, h.data_.length = k + 1 := ⟨h.data_.length - 1, by omega⟩
  rw [hk]
  have := upheapLoop_first cmp v k { data := h.data_ ++ [v], index := k + 1 }
    (by simp)
  simpa using this

theorem natLess_swo : StrictWeakOrder natLess := by
  refine ⟨?_, ?_, ?_⟩
  · intro a; simp [natLess]
  · intro a b c; simp only [natLess, decide_eq_true_eq]; omega
  · intro a b c; simp only [natLess, decide_eq_false_iff_not]; omega

/-- C7. For every strict weak order and every heap reached from the empty heap by `push`,
`pop`, `replace_top` (and `update_top` after an overwrite of the root, and `clear`), with `pop`
and `replace_top` applied to non-empty heaps only: if the heap is not empty then `top()` returns
a stored element `m` with `cmp(m, x)` false for every stored element `x`. -/
theorem top_is_maximum (cmp : T → T → Bool) (hswo : StrictWeakOrder cmp) (h : BinaryHeap T)
    (hr : Reachable cmp h) (hne : h.empty = false) :
    ∃ m, h.top = some m ∧ m ∈ h.data_ ∧ ∀ x ∈ h.data_, cmp m x = false := by
  cases hd : h.data_ with
  | nil => simp [empty, hd] at hne
  | cons a l =>
    have htop : h.top = some a := by simp [top, hd]
    refine ⟨a, htop, ?_⟩
    rw [← hd]
    exact heapOrdered_top_max_mem hswo (reachable_inv hswo hr).1 htop

theorem top_is_maximum_witness :
    StrictWeakOrder natLess ∧
    Reachable natLess (push natLess (push natLess {} 3) 5) ∧
    (push natLess (push natLess {} 3) 5).empty = false ∧
    ∃ m, (push natLess (push natLess {} 3) 5).top = some m ∧
      m ∈ (push natLess (push natLess {} 3) 5).data_ ∧
      ∀ x ∈ (push natLess (push natLess {} 3) 5).data_, natLess m x = false :=
  ⟨natLess_swo, Reachable.push _ _ (Reachable.push _ _ Reachable.empty), by decide,
    top_is_maximum natLess natLess_swo _
      (Reachable.push _ _ (Reachable.push _ _ Reachable.empty)) (by decide)⟩

/-- C8. On a non-empty reachable heap, `replace_top(v)` and `pop()` followed by `push(v)` give
heaps that both hold the old elements without the old top (the head of `data_`) plus `v`, that
both satisfy the heap property, and whose tops are equivalent under `cmp`. -/
theorem replace_top_equiv_pop_push (cmp : T → T → Bool) (hswo : StrictWeakOrder cmp)
    (h : BinaryHeap T) (hr : Reachable cmp h) (hne : h.empty = false) (v : T) :
    (replace_top cmp h v).data_.Perm (v :: h.data_.tail) ∧
    (push cmp (pop cmp h) v).data_.Perm (v :: h.data_.tail) ∧
    HeapOrdered cmp (replace_top cmp h v).data_ ∧
    HeapOrdered cmp (push cmp (pop cmp h) v).data_ ∧
    ∃ ta tb, (replace_top cmp h v).top = some ta ∧ (push cmp (pop cmp h) v).top = some tb ∧
      cmp ta tb = false ∧ cmp tb ta = false := by
  have hinv := reachable_inv hswo hr
  have hrt := replace_topC_spec hswo h v hne (heapOrdered_belowRoot hinv.1) hinv.2
  have hpop := popC_spec hswo h (heapOrdered_belowRoot hinv.1) hinv.2
  have hpush := pushC_spec hswo (pop cmp h) v hpop.1.1
  have hpp : (push cmp (pop cmp h) v).data_.Perm (v :: h.data_.tail) :=
    hpush.2.trans (hpop.2.cons v)
  obtain ⟨ta, hta⟩ := top_isSome_of_perm_cons hrt.2
  obtain ⟨tb, htb⟩ := top_isSome_of_perm_cons hpp
  have hamax := heapOrdered_top_max_mem hswo hrt.1.1 hta
  have hbmax := heapOrdered_top_max_mem hswo hpush.1.1 htb
  refine ⟨hrt.2, hpp, hrt.1.1, hpush.1.1, ta, tb, hta, htb, ?_, ?_⟩
  · exact hamax.2 tb ((hrt.2.trans hpp.symm).mem_iff.mpr hbmax.1)
  · exact hbmax.2 ta ((hpp.trans hrt.2.symm).mem_iff.mpr hamax.1)

theorem replace_top_equiv_pop_push_witness :
    StrictWeakOrder natLess ∧
    Reachable natLess (push natLess (push natLess {} 3) 5) ∧
    (push natLess (push natLess {} 3) 5).empty = false ∧
    ((replace_top natLess (push natLess (push natLess {} 3) 5) 4).data_.Perm
      (4 :: (push natLess (push natLess {} 3) 5).data_.tail) ∧
    (push natLess (pop natLess (push natLess (push natLess {} 3) 5)) 4).data_.Perm
      (4 :: (push natLess (push natLess {} 3) 5).data_.tail) ∧
    HeapOrdered natLess (replace_top natLess (push natLess (push natLess {} 3) 5) 4).data_ ∧
    HeapOrdered natLess
      (push natLess (pop natLess (push natLess (push natLess {} 3) 5)) 4).data_ ∧
    ∃ ta tb, (replace_top natLess (push natLess (push natLess {} 3) 5) 4).top = some ta ∧
      (push natLess (pop natLess (push natLess (push natLess {} 3) 5)) 4).top = some tb ∧
      natLess ta tb = false ∧ natLess tb ta = false) :=
  ⟨natLess_swo, Reachable.push _ _ (Reachable.push _ _ Reachable.empty), by decide,
    replace_top_equiv_pop_push natLess natLess_swo _
      (Reachable.push _ _ (Reachable.push _ _ Reachable.empty)) (by decide) 4⟩

/-- C9. On a non-empty reachable heap whose root is overwritten in place with `w`,
`update_top()` gives a heap with the heap property and the same elements as the overwritten
heap, and it is the heap that `replace_top(w)` gives on the heap before the overwrite; in
particular `replace_top(top())` is `update_top()`. -/
theorem update_top_after_overwrite (cmp : T → T → Bool) (hswo : StrictWeakOrder cmp)
    (h : BinaryHeap T) (hr : Reachable cmp h) (hne : h.empty = false) (w : T) :
    HeapOrdered cmp (update_top cmp { h with data_ := h.data_.set 0 w }).data_ ∧
    (update_top cmp { h with data_ := h.data_.set 0 w }).data_.Perm (h.data_.set 0 w) ∧
    update_top cmp { h with data_ := h.data_.set 0 w } = replace_top cmp h w ∧
    ∀ t, h.top = some t → replace_top cmp h t = update_top cmp h := by
  have hinv := reachable_inv hswo hr
  have hne2 : ({ h with data_ := h.data_.set 0 w } : BinaryHeap T).empty = false := by
    simpa [empty] using hne
  have hut := update_topC_spec hswo { h with data_ := h.data_.set 0 w } hne2
    (heapBelowRoot_set_root (heapOrdered_belowRoot hinv.1) w) (cacheValid_set_root hinv.2 w)
  refine ⟨hut.1.1, hut.2, ?_, ?_⟩
  · simp only [update_top, update_topC, hne2, replace_top, replace_topC, hne,
      Bool.false_eq_true, ↓reduceIte]
  · intro t ht
    have hset : h.data_.set 0 t = h.data_ := by
      unfold top at ht
      cases hd : h.data_ with
      | nil => rw [hd] at ht; simp at ht
      | cons a l => rw [hd] at ht; simp at ht; simp [ht]
    simp only [update_top, update_topC, replace_top, replace_topC, hne, hset,
      Bool.false_eq_true, ↓reduceIte]

theorem update_top_after_overwrite_witness :
    StrictWeakOrder natLess ∧
    Reachable natLess (push natLess (push natLess (push natLess {} 3) 5) 4) ∧
    (push natLess (push natLess (push natLess {} 3) 5) 4).empty = false ∧
    (HeapOrdered natLess (update_top natLess
      { push natLess (push natLess (push natLess {} 3) 5) 4 with
        data_ := (push natLess (push natLess (push natLess {} 3) 5) 4).data_.set 0 1 }).data_ ∧
    (update_top natLess
      { push natLess (push natLess (push natLess {} 3) 5) 4 with
        data_ := (push natLess (push natLess (push natLess {} 3) 5) 4).data_.set 0 1 }).data_.Perm
      ((push natLess (push natLess (push natLess {} 3) 5) 4).data_.set 0 1) ∧
    update_top natLess
      { push natLess (push natLess (push natLess {} 3) 5) 4 with
        data_ := (push natLess (push natLess (push natLess {} 3) 5) 4).data_.set 0 1 } =
      replace_top natLess (push natLess (push natLess (push natLess {} 3) 5) 4) 1 ∧
    ∀ t, (push natLess (push natLess (push natLess {} 3) 5) 4).top = some t →
      replace_top natLess (push natLess (push natLess (push natLess {} 3) 5) 4) t =
        update_top natLess (push natLess (push natLess (push natLess {} 3) 5) 4)) :=
  ⟨natLess_swo,
    Reachable.push _ _ (Reachable.push _ _ (Reachable.push _ _ Reachable.empty)), by decide,
    update_top_after_overwrite natLess natLess_swo _
      (Reachable.push _ _ (Reachable.push _ _ (Reachable.push _ _ Reachable.empty)))
      (by decide) 1⟩

/-- C10. On a non-empty reachable heap, for a value `v` that is not `cmp`-less than any stored
element, `replace_top(v)` calls the comparator no more often than `pop()` followed by `push(v)`
does. -/
theorem replace_top_cmps_le_pop_push (cmp : T → T → Bool) (hswo : StrictWeakOrder cmp)
    (h : BinaryHeap T) (hr : Reachable cmp h) (hne : h.empty = false) (v : T)
    (hmax : ∀ x ∈ h.data_, cmp v x = false) :
    (replace_topC cmp h v).2 ≤ (popC cmp h).2 + (pushC cmp (pop cmp h) v).2 := by
  have hinv := reachable_inv hswo hr
  have hpop := popC_spec hswo h (heapOrdered_belowRoot hinv.1) hinv.2
  have hpl : (pop cmp h).data_.length = h.data_.length - 1 := by
    have := hpop.2.length_eq
    simpa [pop] using this
  rw [replace_topC_cmps_of_max hswo h v hmax]
  by_cases h1 : h.data_.length ≤ 1
  · simp [h1]
  · simp only [h1, ↓reduceIte]
    have hpush := pushC_cmps_ge cmp (pop cmp h) v (by omega)
    by_cases h3 : 3 ≤ h.data_.length
    · have hpp := popC_cmps_ge cmp h h3
      by_cases hcb : cacheBelow h.root_cmp_cache_ h.data_.length = true
      · simp only [hcb, ↓reduceIte]
        have : 1 ≤ (popC cmp h).2 := by
          refine Nat.le_trans ?_ hpp
          split
          · omega
          · split <;> omega
        omega
      · have hcb2 : ¬ cacheBelow h.root_cmp_cache_ (h.data_.length - 1) = true :=
          fun hc => hcb (cacheBelow_mono (by omega) hc)
        simp only [hcb, hcb2, Bool.false_eq_true, ↓reduceIte] at hpp ⊢
        split
        · split at hpp <;> omega
        · omega
    · have h2 : ¬ 2 < h.data_.length := by omega
      simp only [h2, ↓reduceIte]
      split <;> omega

theorem replace_top_cmps_le_pop_push_witness :
    StrictWeakOrder natLess ∧
    Reachable natLess (push natLess (push natLess (push natLess {} 3) 5) 4) ∧
    (push natLess (push natLess (push natLess {} 3) 5) 4).empty = false ∧
    (∀ x ∈ (push natLess (push natLess (push natLess {} 3) 5) 4).data_, natLess 9 x = false) ∧
    (replace_topC natLess (push natLess (push natLess (push natLess {} 3) 5) 4) 9).2 ≤
      (popC natLess (push natLess (push natLess (push natLess {} 3) 5) 4)).2 +
      (pushC natLess (pop natLess (push natLess (push natLess (push natLess {} 3) 5) 4)) 9).2 :=
  ⟨natLess_swo,
    Reachable.push _ _ (Reachable.push _ _ (Reachable.push _ _ Reachable.empty)), by decide,
    by decide,
    replace_top_cmps_le_pop_push natLess natLess_swo _
      (Reachable.push _ _ (Reachable.push _ _ (Reachable.push _ _ Reachable.empty)))
      (by decide) 9 (by decide)⟩

end BinaryHeap

/-! ## Part V. Theorems about the merging engine -/

namespace InternalKeyComparator

variable {UK : Type} [LinearOrder UK]

theorem compare_lt_iff (a b : ParsedInternalKey UK) : Compare a b = .lt ↔ keyLt a b := by
  unfold Compare keyLt
  rcases lt_trichotomy a.user_key b.user_key with h | h | h
  · have : compare a.user_key b.user_key = .lt := compare_lt_iff_lt.mpr h
    simp [this, h]
  · have : compare a.user_key b.user_key = .eq := compare_eq_iff_eq.mpr h
    rw [this]
    simp only [h, lt_self_iff_false, true_and, false_or, gt_iff_lt]
    split_ifs <;> simp <;> omega
  · have : compare a.user_key b.user_key = .gt := compare_gt_iff_gt.mpr h
    simp [this, not_lt_of_gt h, ne_of_gt h]

theorem compare_gt_iff (a b : ParsedInternalKey UK) : Compare a b = .gt ↔ keyLt b a := by
  unfold Compare keyLt
  rcases lt_trichotomy a.user_key b.user_key with h | h | h
  · have : compare a.user_key b.user_key = .lt := compare_lt_iff_lt.mpr h
    simp [this, not_lt_of_gt h, ne_of_gt h]
  · have : compare a.user_key b.user_key = .eq := compare_eq_iff_eq.mpr h
    rw [this]
    simp only [h, lt_self_iff_false, true_and, false_or, gt_iff_lt]
    split_ifs <;> simp <;> omega
  · have : compare a.user_key b.user_key = .gt := compare_gt_iff_gt.mpr h
    simp [this, h]

theorem compare_eq_iff (a b : ParsedInternalKey UK) : Compare a b = .eq ↔ a = b := by
  constructor
  · intro h
    have h1 : ¬ keyLt a b := by rw [← compare_lt_iff, h]; simp
    have h2 : ¬ keyLt b a := by rw [← compare_gt_iff, h]; simp
    unfold keyLt at h1 h2
    push_neg at h1 h2
    have hu : a.user_key = b.user_key := le_antisymm h2.1 h1.1
    have h1' := h1.2 hu
    have h2' := h2.2 hu.symm
    cases a; cases b
    simp only [ParsedInternalKey.mk.injEq] at *
    refine ⟨hu, ?_, ?_⟩ <;> omega
  · rintro rfl
    cases h : Compare a a with
    | eq => rfl
    | lt =>
      have := (compare_lt_iff a a).mp h
      unfold keyLt at this
      simp at this
    | gt =>
      have := (compare_gt_iff a a).mp h
      unfold keyLt at this
      simp at this

theorem keyLt_trans {a b c : ParsedInternalKey UK} (h1 : keyLt a b) (h2 : keyLt b c) :
    keyLt a c := by
  unfold keyLt at *
  rcases h1 with h1 | ⟨e1, h1⟩
  · rcases h2 with h2 | ⟨e2, h2⟩
    · exact Or.inl (lt_trans h1 h2)
    · exact Or.inl (e2 ▸ h1)
  · rcases h2 with h2 | ⟨e2, h2⟩
    · exact Or.inl (e1 ▸ h2)
    · refine Or.inr ⟨e1.trans e2, ?_⟩
      omega

theorem keyLt_irrefl (a : ParsedInternalKey UK) : ¬ keyLt a a := by
  unfold keyLt; simp

theorem keyLt_total (a b : ParsedInternalKey UK) : keyLt a b ∨ a = b ∨ keyLt b a := by
  cases h : Compare a b with
  | lt => exact Or.inl ((compare_lt_iff a b).mp h)
  | eq => exact Or.inr (Or.inl ((compare_eq_iff a b).mp h))
  | gt => exact Or.inr (Or.inr ((compare_gt_iff a b).mp h))

theorem keyLe_iff (a b : ParsedInternalKey UK) : keyLe a b ↔ ¬ keyLt b a := by
  unfold keyLe; rw [Ne, compare_gt_iff]

theorem keyLe_refl (a : ParsedInternalKey UK) : keyLe a a :=
  (keyLe_iff a a).mpr (keyLt_irrefl a)

theorem keyLe_trans {a b c : ParsedInternalKey UK} (h1 : keyLe a b) (h2 : keyLe b c) :
    keyLe a c := by
  rw [keyLe_iff] at *
  intro h
  rcases keyLt_total a b with h3 | h3 | h3
  · exact h2 (keyLt_trans h h3)
  · subst h3; exact h2 h
  · exact h1 h3

theorem keyLe_antisymm {a b : ParsedInternalKey UK} (h1 : keyLe a b) (h2 : keyLe b a) :
    a = b := by
  rw [keyLe_iff] at *
  rcases keyLt_total a b with h3 | h3 | h3
  · exact absurd h3 h2
  · exact h3
  · exact absurd h3 h1

theorem keyLe_total (a b : ParsedInternalKey UK) : keyLe a b ∨ keyLe b a := by
  rw [keyLe_iff, keyLe_iff]
  rcases keyLt_total a b with h3 | h3 | h3
  · exact Or.inl (fun h => keyLt_irrefl _ (keyLt_trans h h3))
  · subst h3; exact Or.inl (keyLt_irrefl _)
  · exact Or.inr (fun h => keyLt_irrefl _ (keyLt_trans h h3))

end InternalKeyComparator

namespace MergingIterator

open InternalKeyComparator BinaryHeap

variable {UK : Type} [LinearOrder UK] [Inhabited UK]

theorem ordering_beq_iff (a b : Ordering) : (a == b) = true ↔ a = b := by
  cases a <;> cases b <;> decide

theorem ordering_bne_iff (a b : Ordering) : (a != b) = true ↔ a ≠ b := by
  cases a <;> cases b <;> decide

theorem cmp_gt_swo {α : Type} (f : α → ParsedInternalKey UK) :
    StrictWeakOrder (fun a b => Compare (f a) (f b) == .gt) := by
  have hiff : ∀ a b, ((Compare (f a) (f b) == Ordering.gt) = true) ↔ keyLt (f b) (f a) := by
    intro a b; rw [ordering_beq_iff]; exact compare_gt_iff _ _
  have hiff2 : ∀ a b, ((Compare (f a) (f b) == Ordering.gt) = false) ↔ keyLe (f a) (f b) := by
    intro a b
    rw [← Bool.not_eq_true, hiff, keyLe_iff]
  refine ⟨?_, ?_, ?_⟩
  · intro a; rw [hiff2]; exact keyLe_refl _
  · intro a b c h1 h2
    rw [hiff] at *
    exact keyLt_trans h2 h1
  · intro a b c h1 h2 h3 h4
    rw [hiff2] at h1 h2 h3 h4
    exact ⟨(hiff2 _ _).mpr (keyLe_trans h1 h3), (hiff2 _ _).mpr (keyLe_trans h4 h2)⟩

theorem cmp_lt_swo {α : Type} (f : α → ParsedInternalKey UK) :
    StrictWeakOrder (fun a b => Compare (f a) (f b) == .lt) := by
  have hiff : ∀ a b, ((Compare (f a) (f b) == Ordering.lt) = true) ↔ keyLt (f a) (f b) := by
    intro a b; rw [ordering_beq_iff]; exact compare_lt_iff _ _
  have hiff2 : ∀ a b, ((Compare (f a) (f b) == Ordering.lt) = false) ↔ keyLe (f b) (f a) := by
    intro a b
    rw [← Bool.not_eq_true, hiff, keyLe_iff]
  refine ⟨?_, ?_, ?_⟩
  · intro a; rw [hiff2]; exact keyLe_refl _
  · intro a b c h1 h2
    rw [hiff] at *
    exact keyLt_trans h1 h2
  · intro a b c h1 h2 h3 h4
    rw [hiff2] at h1 h2 h3 h4
    exact ⟨(hiff2 _ _).mpr (keyLe_trans h3 h1), (hiff2 _ _).mpr (keyLe_trans h2 h4)⟩

theorem minCmp_swo (e : MergingIterator UK) : StrictWeakOrder e.minCmp :=
  cmp_gt_swo (fun p => (e.deref p).heapKey)

theorem maxCmp_swo (e : MergingIterator UK) : StrictWeakOrder e.maxCmp :=
  cmp_lt_swo (fun p => (e.deref p).heapKey)

theorem minCmp_false_iff (e : MergingIterator UK) (a b : HeapItemPtr) :
    e.minCmp a b = false ↔ keyLe (e.deref a).heapKey (e.deref b).heapKey := by
  unfold minCmp MinHeapItemComparator keyLe
  rw [← Bool.not_eq_true, ordering_beq_iff]

theorem flatMap_set_perm {α β : Type} (f : α → List β) (cs : List α) (l : Nat) (x x' : α)
    (k : β) (hx : cs[l]? = some x) (hf : f x = k :: f x') :
    (cs.flatMap f).Perm (k :: (cs.set l x').flatMap f) := by
  induction cs generalizing l with
  | nil => simp at hx
  | cons c cs ih =>
    cases l with
    | zero =>
      simp at hx; subst hx
      simp [hf]
    | succ l =>
      simp at hx
      simp only [List.flatMap_cons, List.set_cons_succ]
      exact ((ih l hx).append_left (f c)).trans List.perm_middle

@[simp] theorem store_child_children (e : MergingIterator UK) (l : Nat) (item : HeapItem UK) :
    (e.store (.child l) item).children_ = e.children_.set l item := rfl

@[simp] theorem store_child_heap (e : MergingIterator UK) (l : Nat) (item : HeapItem UK) :
    (e.store (.child l) item).heap_ = e.heap_ := rfl

@[simp] theorem store_child_rti (e : MergingIterator UK) (l : Nat) (item : HeapItem UK) :
    (e.store (.child l) item).range_tombstone_iters_ = e.range_tombstone_iters_ := rfl

@[simp] theorem store_child_status (e : MergingIterator UK) (l : Nat) (item : HeapItem UK) :
    (e.store (.child l) item).status_ = e.status_ := rfl

@[simp] theorem store_child_direction (e : MergingIterator UK) (l : Nat) (item : HeapItem UK) :
    (e.store (.child l) item).direction_ = e.direction_ := rfl

@[simp] theorem store_child_current (e : MergingIterator UK) (l : Nat) (item : HeapItem UK) :
    (e.store (.child l) item).current_ = e.current_ := rfl

theorem deref_child_of_getElem? (e : MergingIterator UK) (l : Nat) (item : HeapItem UK)
    (h : e.children_[l]? = some item) : e.deref (.child l) = item := by
  simp [deref, h]

theorem deref_store_child_self (e : MergingIterator UK) (l : Nat) (item item' : HeapItem UK)
    (h : e.children_[l]? = some item) : (e.store (.child l) item').deref (.child l) = item' := by
  have hl : l < e.children_.length := by
    by_contra hcon
    rw [List.getElem?_eq_none (by omega)] at h; simp at h
  simp [deref, hl]

theorem deref_store_child_ne (e : MergingIterator UK) (l : Nat) (item' : HeapItem UK)
    (p : HeapItemPtr) (h : p ≠ .child l) : (e.store (.child l) item').deref p = e.deref p := by
  cases p with
  | child j =>
    have : l ≠ j := fun hh => h (by rw [hh])
    simp [deref, List.getElem?_set_ne this]
  | pinned j => simp [deref, store]

/-- Two engines whose items agree on two pointers compare them alike. -/
theorem minCmp_congr (e e' : MergingIterator UK) (a b : HeapItemPtr)
    (ha : e'.deref a = e.deref a) (hb : e'.deref b = e.deref b) :
    e'.minCmp a b = e.minCmp a b := by
  simp [minCmp, ha, hb]

theorem heapBelowRoot_congr {T : Type} {cmp cmp' : T → T → Bool} {l : List T}
    (hc : ∀ a ∈ l.tail, ∀ b ∈ l.tail, cmp' a b = cmp a b) (h : HeapBelowRoot cmp l) :
    HeapBelowRoot cmp' l := by
  intro i x p hi hpi hx hp
  have hmem : ∀ j y, 0 < j → l[j]? = some y → y ∈ l.tail := by
    intro j y hj hy
    cases l with
    | nil => simp at hy
    | cons a t =>
      cases j with
      | zero => omega
      | succ j => simp at hy; exact List.getElem?_mem hy
  rw [hc p (hmem _ p (Nat.pos_of_ne_zero hpi) hp) x (hmem _ x hi hx)]
  exact h i x p hi hpi hx hp

theorem cacheValid_congr {T : Type} {cmp cmp' : T → T → Bool} {cache : Option Nat}
    {l : List T} (hc : ∀ a ∈ l.tail, ∀ b ∈ l.tail, cmp' a b = cmp a b)
    (h : CacheValid cmp cache l) : CacheValid cmp' cache l := by
  intro c hcc hcl
  obtain ⟨h12, hv⟩ := h c hcc hcl
  refine ⟨h12, ?_⟩
  intro x y hx hy
  have hmem : ∀ j y, 0 < j → l[j]? = some y → y ∈ l.tail := by
    intro j y hj hy
    cases l with
    | nil => simp at hy
    | cons a t =>
      cases j with
      | zero => omega
      | succ j => simp at hy; exact List.getElem?_mem hy
  rw [hc x (hmem c x (by omega) hx) y (hmem _ y (by omega) hy)]
  exact hv x y hx hy

theorem heapInv_congr {T : Type} {cmp cmp' : T → T → Bool} {h : BinaryHeap T}
    (hc : ∀ a ∈ h.data_, ∀ b ∈ h.data_, cmp' a b = cmp a b) (hi : HeapInv cmp h) :
    HeapInv cmp' h := by
  refine ⟨?_, cacheValid_congr (fun a ha b hb =>
    hc a (List.mem_of_mem_tail ha) b (List.mem_of_mem_tail hb)) hi.2⟩
  intro i x p hpos hx hp
  rw [hc p (List.getElem?_mem hp) x (List.getElem?_mem hx)]
  exact hi.1 i x p hpos hx hp

theorem childOK_valid_pos {l : Nat} {item : HeapItem UK} (hok : ChildOK l item)
    (hv : item.iter.Valid = true) :
    ∃ it i, item.iter.iter_ = some it ∧ it.pos = some i ∧
      it.run[i]? = some item.iter.result_.key ∧ SortedRun it.run ∧ it.corrupt_at = none ∧
      it.async_seek = false := by
  obtain ⟨⟨_, _, it, hit, hs, hc, ha⟩, hcoh⟩ := hok
  obtain ⟨_, hval, hkey⟩ := hcoh it hit
  unfold IteratorWrapper.Valid at hv
  rw [hval] at hv
  cases hp : it.pos with
  | none => rw [hp] at hv; simp at hv
  | some i => exact ⟨it, i, hit, hp, hkey i hp, hs, hc, ha⟩

theorem child_next_ok (l : Nat) (item : HeapItem UK) (hok : ChildOK l item)
    (hv : item.iter.Valid = true) :
    childRemaining item =
      item.iter.key :: childRemaining { item with iter := item.iter.Next } ∧
    ChildOK l { item with iter := item.iter.Next } ∧
    item.iter.Next.status = Status.OK ∧
    (item.iter.Next.Valid = false → item.iter.Next.key = item.iter.key) ∧
    ∀ x ∈ childRemaining item, keyLe item.iter.key x := by
  obtain ⟨it, i, hit, hp, hkey, hs, hc, ha⟩ := childOK_valid_pos hok hv
  have hil : i < it.run.length := by
    by_contra hcon
    rw [List.getElem?_eq_none (by omega)] at hkey; simp at hkey
  have hkey' : it.run[i] = item.iter.result_.key := by
    rw [List.getElem?_eq_getElem hil] at hkey; simpa using hkey
  have hrem : childRemaining item = item.iter.key :: it.run.drop (i + 1) := by
    simp only [childRemaining, hit, hp, IteratorWrapper.key]
    rw [← hkey']
    exact List.drop_eq_getElem_cons hil
  have hsorted : ∀ x ∈ childRemaining item, keyLe item.iter.key x := by
    intro x hx
    rw [hrem] at hx
    rcases List.mem_cons.mp hx with h1 | h1
    · rw [h1]; exact keyLe_refl _
    · have hpw : (it.run.drop i).Pairwise keyLe := List.Pairwise.sublist (List.drop_sublist _ _) hs
      rw [List.drop_eq_getElem_cons hil] at hpw
      have := (List.pairwise_cons.mp hpw).1 x h1
      rw [hkey'] at this
      exact this
  obtain ⟨⟨hlev, htype, _⟩, _⟩ := hok
  by_cases hnext : i + 1 < it.run.length
  · have hN : item.iter.Next =
        { iter_ := some { it with pos := some (i + 1), status_ := Status.OK },
          result_ := { key := it.run[i + 1]?.getD default,
                       bound_check_result := IterBoundCheck.kUnknown,
                       value_prepared := false, is_valid := true } } := by
      simp [IteratorWrapper.Next, hit, InternalIterator.Next, hp, InternalIterator.place, hnext,
        hc, InternalIterator.Valid, InternalIterator.key,
        InternalIterator.UpperBoundCheckResult]
    refine ⟨?_, ?_, ?_, ?_, hsorted⟩
    · rw [hrem, hN]; simp [childRemaining]
    · rw [hN]
      refine ⟨⟨hlev, htype, _, rfl, hs, hc, ha⟩, ?_⟩
      intro it' hit'
      simp only [Option.some.injEq] at hit'
      subst hit'
      refine ⟨rfl, rfl, ?_⟩
      intro j hj
      simp only [Option.some.injEq] at hj
      subst hj
      rw [List.getElem?_eq_getElem hnext]; simp
    · rw [hN]; rfl
    · rw [hN]; intro h; simp [IteratorWrapper.Valid] at h
  · have hN : item.iter.Next =
        { iter_ := some { it with pos := none, status_ := Status.OK },
          result_ := { item.iter.result_ with is_valid := false } } := by
      simp [IteratorWrapper.Next, hit, InternalIterator.Next, hp, InternalIterator.place, hnext,
        InternalIterator.Valid]
    refine ⟨?_, ?_, ?_, ?_, hsorted⟩
    · rw [hrem, hN]
      simp only [childRemaining]
      rw [List.drop_eq_nil_of_le (by omega)]
    · rw [hN]
      refine ⟨⟨hlev, htype, _, rfl, hs, hc, ha⟩, ?_⟩
      intro it' hit'
      simp only [Option.some.injEq] at hit'
      subst hit'
      refine ⟨rfl, rfl, ?_⟩
      intro j hj
      simp at hj
    · rw [hN]; rfl
    · rw [hN]; intro _; rfl

theorem top_eq_some_iff {T : Type} (h : BinaryHeap T) (p : T) :
    h.top = some p ↔ h.data_ = p :: h.data_.tail := by
  unfold BinaryHeap.top
  cases h.data_ with
  | nil => simp
  | cons a t => simp

theorem fwd_top_child {e : MergingIterator UK} (hinv : FwdInv e) {p : HeapItemPtr}
    (htop : e.heap_.top = some p) :
    ∃ l item, p = HeapItemPtr.child l ∧ e.children_[l]? = some item ∧
      item.iter.Valid = true := by
  have hd := (top_eq_some_iff _ _).mp htop
  have hmem : p ∈ e.heap_.data_ := by rw [hd]; exact List.mem_cons_self _ _
  exact (hinv.heap_mem p).mp hmem

theorem childRemaining_valid {l : Nat} {item : HeapItem UK} (hok : ChildOK l item)
    {x : ParsedInternalKey UK} (hx : x ∈ childRemaining item) : item.iter.Valid = true := by
  obtain ⟨⟨_, _, it, hit, _⟩, hcoh⟩ := hok
  obtain ⟨_, hval, _⟩ := hcoh it hit
  unfold IteratorWrapper.Valid
  rw [hval]
  simp only [childRemaining, hit] at hx
  cases hp : it.pos with
  | none => rw [hp] at hx; simp at hx
  | some i => rfl

theorem heapKey_child {l : Nat} {item : HeapItem UK} (hok : ChildOK l item) :
    item.heapKey = item.iter.key := by
  simp [HeapItem.heapKey, hok.1.2.1]

theorem fwd_min {e : MergingIterator UK} (hinv : FwdInv e) {l : Nat} {item : HeapItem UK}
    (htop : e.heap_.top = some (.child l)) (hitem : e.children_[l]? = some item) :
    ∀ x ∈ remainingForward e, keyLe item.iter.key x := by
  intro x hx
  obtain ⟨itemj, hmemj, hxj⟩ := List.mem_flatMap.mp hx
  obtain ⟨j, hj⟩ := List.mem_iff_getElem?.mp hmemj
  have hokj := hinv.children_ok j itemj hj
  have hvj := childRemaining_valid hokj hxj
  have hinheap : HeapItemPtr.child j ∈ e.heap_.data_ :=
    (hinv.heap_mem _).mpr ⟨j, itemj, rfl, hj, hvj⟩
  have hmax := (heapOrdered_top_max_mem (minCmp_swo e) hinv.heap_inv.1 htop).2 _ hinheap
  rw [minCmp_false_iff, deref_child_of_getElem? e l item hitem,
    deref_child_of_getElem? e j itemj hj, heapKey_child (hinv.children_ok l item hitem),
    heapKey_child hokj] at hmax
  exact keyLe_trans hmax ((child_next_ok j itemj hokj hvj).2.2.2.2 x hxj)

theorem fwd_invalid_remaining {e : MergingIterator UK} (hinv : FwdInv e)
    (hv : e.Valid = false) : remainingForward e = [] := by
  have htop : e.heap_.top = none := by
    unfold Valid at hv
    rw [hinv.status_ok, hinv.current_top] at hv
    cases h : e.heap_.top with
    | none => rfl
    | some p => rw [h] at hv; simp [Status.ok] at hv
  have hnil : e.heap_.data_ = [] := by
    unfold BinaryHeap.top at htop
    cases hd : e.heap_.data_ with
    | nil => rfl
    | cons a t => rw [hd] at htop; simp at htop
  unfold remainingForward
  rw [List.flatMap_eq_nil_iff]
  intro item hitem
  cases hr : childRemaining item with
  | nil => rfl
  | cons x xs =>
    exfalso
    obtain ⟨j, hj⟩ := List.mem_iff_getElem?.mp hitem
    have hvj := childRemaining_valid (hinv.children_ok j item hj)
      (show x ∈ childRemaining item by rw [hr]; exact List.mem_cons_self _ _)
    have := (hinv.heap_mem _).mpr ⟨j, item, rfl, hj, hvj⟩
    rw [hnil] at this
    simp at this

theorem minCmp_eq_of_items (e e' : MergingIterator UK) (h1 : e'.children_ = e.children_)
    (h2 : e'.pinned_heap_item_ = e.pinned_heap_item_) : e'.minCmp = e.minCmp := by
  funext a b
  apply minCmp_congr
  · cases a <;> simp [deref, h1, h2]
  · cases b <;> simp [deref, h1, h2]

theorem valid_iff_top {e : MergingIterator UK} (hinv : FwdInv e) :
    e.Valid = true ↔ ∃ p, e.heap_.top = some p := by
  unfold Valid
  rw [hinv.status_ok, hinv.current_top]
  cases e.heap_.top <;> simp [Status.ok]

theorem key_eq_of_top {e : MergingIterator UK} (hinv : FwdInv e) {l : Nat}
    {item : HeapItem UK} (htop : e.heap_.top = some (.child l))
    (hitem : e.children_[l]? = some item) : e.key = item.iter.key := by
  unfold key
  rw [hinv.current_top, htop]
  simp only []
  rw [deref_child_of_getElem? e l item hitem]

theorem fwd_next {e : MergingIterator UK} (hinv : FwdInv e) (fuel : Nat)
    (hv : e.Valid = true) :
    ∃ e', e.Next fuel = some e' ∧ FwdInv e' ∧
      (remainingForward e).Perm (e.key :: remainingForward e') ∧
      ∀ x ∈ remainingForward e, keyLe e.key x := by
  obtain ⟨p, htop⟩ := (valid_iff_top hinv).mp hv
  obtain ⟨l, item, hp, hitem, hval⟩ := fwd_top_child hinv htop
  subst hp
  have hkey := key_eq_of_top hinv htop hitem
  have hok := hinv.children_ok l item hitem
  obtain ⟨hrem, hok', hstat, hstale, hsorted⟩ := child_next_ok l item hok hval
  have hdata := (top_eq_some_iff _ _).mp htop
  have hl : l < e.children_.length := by
    by_contra hcon
    rw [List.getElem?_eq_none (by omega)] at hitem; simp at hitem
  have hnotin : HeapItemPtr.child l ∉ e.heap_.data_.tail := by
    have := hinv.heap_nodup
    rw [hdata] at this
    exact (List.nodup_cons.mp this).1
  -- the state after stepping the current child
  let item' : HeapItem UK := { item with iter := item.iter.Next }
  let e2 : MergingIterator UK := e.store (.child l) item'
  have he2 : e.updIter (.child l) (fun w => w.Next) = e2 := by
    simp only [updIter, deref_child_of_getElem? e l item hitem]
  have hderef2 : e2.deref (.child l) = item' := deref_store_child_self e l item item' hitem
  have hframe : ∀ a ∈ e.heap_.data_.tail, ∀ b ∈ e.heap_.data_.tail,
      e2.minCmp a b = e.minCmp a b := by
    intro a ha b hb
    apply minCmp_congr
    · exact deref_store_child_ne e l item' a (fun h => hnotin (h ▸ ha))
    · exact deref_store_child_ne e l item' b (fun h => hnotin (h ▸ hb))
  have hbelow : HeapBelowRoot e2.minCmp e.heap_.data_ :=
    heapBelowRoot_congr hframe (heapOrdered_belowRoot hinv.heap_inv.1)
  have hcache : CacheValid e2.minCmp e.heap_.root_cmp_cache_ e.heap_.data_ :=
    cacheValid_congr hframe hinv.heap_inv.2
  have hne : e.heap_.empty = false := by
    unfold BinaryHeap.empty; rw [hdata]; rfl
  have hchildren : ∀ j itemj, e2.children_[j]? = some itemj →
      (j = l ∧ itemj = item') ∨ (j ≠ l ∧ e.children_[j]? = some itemj) := by
    intro j itemj hj
    simp only [e2, store_child_children] at hj
    rw [getElem?_set_eq_ite _ _ _ _ hl] at hj
    by_cases hjl : j = l
    · simp only [hjl, ↓reduceIte, Option.some.injEq] at hj
      exact Or.inl ⟨hjl, hj.symm⟩
    · simp only [hjl, ↓reduceIte] at hj
      exact Or.inr ⟨hjl, hj⟩
  have hchildren_ok : ∀ j itemj, e2.children_[j]? = some itemj → ChildOK j itemj := by
    intro j itemj hj
    rcases hchildren j itemj hj with ⟨h1, h2⟩ | ⟨_, h2⟩
    · rw [h1, h2]; exact hok'
    · exact hinv.children_ok j itemj h2
  have hperm : (remainingForward e).Perm (e.key :: remainingForward e2) := by
    rw [hkey]
    exact flatMap_set_perm childRemaining e.children_ l item item' item.iter.key hitem hrem
  have hmin : ∀ x ∈ remainingForward e, keyLe e.key x := by
    rw [hkey]; exact fwd_min hinv htop hitem
  have hNext : ∀ e3 : MergingIterator UK,
      e3 = (if (e2.deref (.child l)).iter.Valid then e2.minUpdateTop
        else (e2.considerStatus (e2.deref (.child l)).iter.status).minPop) →
      e3.range_tombstone_iters_ = [] →
      e.Next fuel = some { e3 with current_ := e3.heap_.top } := by
    intro e3 he3 hrti
    unfold Next
    simp only [hinv.forward, bne_self_eq_false, Bool.false_eq_true, ↓reduceIte]
    rw [hinv.current_top, htop]
    simp only [he2, ← he3, FindNextVisibleKey, hrti, List.isEmpty_nil, ↓reduceIte,
      CurrentForward]
  by_cases hv' : item'.iter.Valid = true
  · -- the child stays in the heap
    have hspec := update_topC_spec (minCmp_swo e2) e.heap_ hne hbelow hcache
    let e3 : MergingIterator UK := e2.minUpdateTop
    have he3 : e3 = (if (e2.deref (.child l)).iter.Valid then e2.minUpdateTop
        else (e2.considerStatus (e2.deref (.child l)).iter.status).minPop) := by
      rw [hderef2, hv']; rfl
    refine ⟨{ e3 with current_ := e3.heap_.top }, hNext e3 he3 hinv.no_tombstones, ?_,
      hperm, hmin⟩
    have hcmp : ({ e3 with current_ := e3.heap_.top } : MergingIterator UK).minCmp =
        e2.minCmp := minCmp_eq_of_items _ _ rfl rfl
    refine ⟨hinv.no_tombstones, hchildren_ok, ?_, ?_, ?_, hinv.status_ok, hinv.forward, rfl⟩
    · exact hspec.2.symm.nodup_iff.mp hinv.heap_nodup
    · intro q
      show q ∈ (update_topC e2.minCmp e.heap_).1.data_ ↔ _
      rw [hspec.2.mem_iff, hinv.heap_mem]
      constructor
      · rintro ⟨j, itemj, hq, hj, hvj⟩
        by_cases hjl : j = l
        · subst hjl
          exact ⟨j, item', hq, by simp [e3, e2, minUpdateTop, hl], hv'⟩
        · exact ⟨j, itemj, hq, by
            simp only [e3, e2, minUpdateTop, store_child_children]
            rw [List.getElem?_set_ne (fun h => hjl h.symm)]; exact hj, hvj⟩
      · rintro ⟨j, itemj, hq, hj, hvj⟩
        rcases hchildren j itemj hj with ⟨h1, _⟩ | ⟨_, h2⟩
        · subst h1; exact ⟨j, item, hq, hitem, hval⟩
        · exact ⟨j, itemj, hq, h2, hvj⟩
    · rw [hcmp]; exact hspec.1
  · -- the child is exhausted and leaves the heap
    have hv'' : item'.iter.Valid = false := by simpa using hv'
    have hspec := popC_spec (minCmp_swo e2) e.heap_ hbelow hcache
    have hcs : e2.considerStatus item'.iter.status = e2 := by
      show e2.considerStatus item.iter.Next.status = e2
      rw [hstat]; rfl
    let e3 : MergingIterator UK := e2.minPop
    have he3 : e3 = (if (e2.deref (.child l)).iter.Valid then e2.minUpdateTop
        else (e2.considerStatus (e2.deref (.child l)).iter.status).minPop) := by
      rw [hderef2, hv'', hcs]; rfl
    refine ⟨{ e3 with current_ := e3.heap_.top }, hNext e3 he3 hinv.no_tombstones, ?_,
      hperm, hmin⟩
    have hcmp : ({ e3 with current_ := e3.heap_.top } : MergingIterator UK).minCmp =
        e2.minCmp := minCmp_eq_of_items _ _ rfl rfl
    have hnd := hinv.heap_nodup
    rw [hdata] at hnd
    refine ⟨hinv.no_tombstones, hchildren_ok, ?_, ?_, ?_, hinv.status_ok, hinv.forward, rfl⟩
    · exact hspec.2.symm.nodup_iff.mp (List.nodup_cons.mp hnd).2
    · intro q
      show q ∈ (popC e2.minCmp e.heap_).1.data_ ↔ _
      rw [hspec.2.mem_iff]
      constructor
      · intro hq
        have hq' : q ∈ e.heap_.data_ := List.mem_of_mem_tail hq
        obtain ⟨j, itemj, hqj, hj, hvj⟩ := (hinv.heap_mem q).mp hq'
        have hjl : j ≠ l := by
          intro h; subst h; subst hqj; exact hnotin hq
        exact ⟨j, itemj, hqj, by
          simp only [e3, e2, minPop, store_child_children]
          rw [List.getElem?_set_ne (fun h => hjl h.symm)]; exact hj, hvj⟩
      · rintro ⟨j, itemj, hq, hj, hvj⟩
        rcases hchildren j itemj hj with ⟨_, h2⟩ | ⟨h1, h2⟩
        · rw [h2] at hvj; rw [hv''] at hvj; simp at hvj
        · have hmem := (hinv.heap_mem q).mpr ⟨j, itemj, hq, h2, hvj⟩
          rw [hdata] at hmem
          rcases List.mem_cons.mp hmem with h3 | h3
          · exfalso; rw [hq] at h3; injection h3 with h4; exact h1 h4
          · exact h3
    · rw [hcmp]; exact hspec.1

theorem collectForward_spec (fuel : Nat) :
    ∀ (n : Nat) (e : MergingIterator UK), FwdInv e → (remainingForward e).length ≤ n →
      ∃ out, collectForward fuel n e = some out ∧ out.Perm (remainingForward e) ∧
        out.Pairwise keyLe := by
  intro n
  induction n with
  | zero =>
    intro e hinv hlen
    have hnil : remainingForward e = [] := List.length_eq_zero.mp (by omega)
    have hv : e.Valid = false := by
      cases h : e.Valid with
      | false => rfl
      | true =>
        obtain ⟨e', _, _, hperm, _⟩ := fwd_next hinv fuel h
        rw [hnil] at hperm
        simp at hperm
    refine ⟨[], ?_, by rw [hnil], List.Pairwise.nil⟩
    simp [collectForward, hv]
  | succ n ih =>
    intro e hinv hlen
    cases hv : e.Valid with
    | false =>
      refine ⟨[], ?_, by rw [fwd_invalid_remaining hinv hv], List.Pairwise.nil⟩
      simp [collectForward, hv]
    | true =>
      obtain ⟨e', hnext, hinv', hperm, hmin⟩ := fwd_next hinv fuel hv
      have hlen' : (remainingForward e').length ≤ n := by
        have := hperm.length_eq
        simp only [List.length_cons] at this
        omega
      obtain ⟨out', hout', hp', hs'⟩ := ih e' hinv' hlen'
      refine ⟨e.key :: out', ?_, ?_, ?_⟩
      · simp [collectForward, hv, hnext, hout']
      · exact (hp'.cons e.key).trans hperm.symm
      · refine List.pairwise_cons.mpr ⟨?_, hs'⟩
        intro x hx
        apply hmin
        exact hperm.symm.mem_iff.mp (List.mem_cons_of_mem _ (hp'.mem_iff.mp hx))

theorem fwdLoop_step (g : IteratorWrapper UK → IteratorWrapper UK) (e0 e : MergingIterator UK)
    (j : Nat) (hstatic : ∀ l item, e0.children_[l]? = some item → ChildStatic l item)
    (hg : ∀ l item, ChildStatic l item → ChildOK l { item with iter := g item.iter })
    (hinv : FwdLoopInv g e0 j e) (hj : j < e0.children_.length) :
    FwdLoopInv g e0 (j + 1)
      ((e.updIter (.child j) g).AddToMinHeapOrCheckStatus (.child j)) := by
  have hitem0 : e0.children_[j]? = some (e0.children_[j]) := List.getElem?_eq_getElem hj
  generalize e0.children_[j] = item0 at hitem0
  have hitem : e.children_[j]? = some item0 := by
    rw [hinv.track j]; simp [hitem0]
  have hl : j < e.children_.length := by
    by_contra hcon
    rw [List.getElem?_eq_none (by omega)] at hitem; simp at hitem
  have hok := hg j item0 (hstatic j item0 hitem0)
  let item' : HeapItem UK := { item0 with iter := g item0.iter }
  let e1 : MergingIterator UK := e.store (.child j) item'
  have he1 : e.updIter (.child j) g = e1 := by
    simp only [updIter, deref_child_of_getElem? e j item0 hitem]
  have hderef1 : e1.deref (.child j) = item' := deref_store_child_self e j item0 item' hitem
  have htrack : ∀ l, e1.children_[l]? =
      if l < j + 1 then (e0.children_[l]?).map (fun item => { item with iter := g item.iter })
      else e0.children_[l]? := by
    intro l
    simp only [e1, store_child_children]
    rw [getElem?_set_eq_ite _ _ _ _ hl]
    by_cases hlj : l = j
    · subst hlj; simp [hitem0, item']
    · simp only [hlj, ↓reduceIte]
      rw [hinv.track l]
      by_cases h1 : l < j
      · have : l < j + 1 := by omega
        simp [h1, this]
      · have : ¬ l < j + 1 := by omega
        simp [h1, this]
  have hnotin : HeapItemPtr.child j ∉ e.heap_.data_ := by
    intro hmem
    obtain ⟨l, _, hq, hlt, _⟩ := (hinv.heap_mem _).mp hmem
    injection hq with h; omega
  have hframe : ∀ a ∈ e.heap_.data_, ∀ b ∈ e.heap_.data_, e1.minCmp a b = e.minCmp a b := by
    intro a ha b hb
    apply minCmp_congr
    · exact deref_store_child_ne e j item' a (fun h => hnotin (h ▸ ha))
    · exact deref_store_child_ne e j item' b (fun h => hnotin (h ▸ hb))
  have hinv1 : HeapInv e1.minCmp e.heap_ := heapInv_congr hframe hinv.heap_inv
  rw [he1]
  unfold AddToMinHeapOrCheckStatus
  rw [hderef1]
  by_cases hv : item'.iter.Valid = true
  · simp only [hv, ↓reduceIte]
    have hspec := pushC_spec (minCmp_swo e1) e.heap_ (.child j) hinv1.1
    have hcmp : (e1.minPush (.child j)).minCmp = e1.minCmp := minCmp_eq_of_items _ _ rfl rfl
    refine ⟨hinv.no_tombstones, htrack, ?_, ?_, ?_, hinv.status_ok⟩
    · exact hspec.2.symm.nodup_iff.mp (List.nodup_cons.mpr ⟨hnotin, hinv.heap_nodup⟩)
    · intro q
      show q ∈ (pushC e1.minCmp e.heap_ (.child j)).1.data_ ↔ _
      rw [hspec.2.mem_iff, List.mem_cons, hinv.heap_mem]
      constructor
      · rintro (h | ⟨l, iteml, hq, hlt, hlitem, hvl⟩)
        · exact ⟨j, item', h, by omega, by
            show e1.children_[j]? = some item'
            simp [e1, hl], hv⟩
        · refine ⟨l, iteml, hq, by omega, ?_, hvl⟩
          show e1.children_[l]? = some iteml
          simp only [e1, store_child_children]
          rw [List.getElem?_set_ne (by omega)]; exact hlitem
      · rintro ⟨l, iteml, hq, hlt, hlitem, hvl⟩
        by_cases hlj : l = j
        · left; rw [hq, hlj]
        · right
          refine ⟨l, iteml, hq, by omega, ?_, hvl⟩
          have : e1.children_[l]? = some iteml := hlitem
          simp only [e1, store_child_children] at this
          rw [List.getElem?_set_ne (fun h => hlj h.symm)] at this; exact this
    · rw [hcmp]; exact hspec.1
  · have hv' : item'.iter.Valid = false := by simpa using hv
    simp only [hv', Bool.false_eq_true, ↓reduceIte]
    have hst : item'.iter.status = Status.OK := by
      obtain ⟨⟨_, _, it, hit, _⟩, hcoh⟩ := hok
      have := (hcoh it hit).1
      show (g item0.iter).status = Status.OK
      have hit' : (g item0.iter).iter_ = some it := hit
      simp [IteratorWrapper.status, hit', InternalIterator.status, this]
    have hcs : e1.considerStatus item'.iter.status = e1 := by rw [hst]; rfl
    rw [hcs]
    refine ⟨hinv.no_tombstones, htrack, hinv.heap_nodup, ?_, hinv1, hinv.status_ok⟩
    intro q
    show q ∈ e.heap_.data_ ↔ _
    rw [hinv.heap_mem]
    constructor
    · rintro ⟨l, iteml, hq, hlt, hlitem, hvl⟩
      refine ⟨l, iteml, hq, by omega, ?_, hvl⟩
      show e1.children_[l]? = some iteml
      simp only [e1, store_child_children]
      rw [List.getElem?_set_ne (by omega)]; exact hlitem
    · rintro ⟨l, iteml, hq, hlt, hlitem, hvl⟩
      have hlitem' : e1.children_[l]? = some iteml := hlitem
      by_cases hlj : l = j
      · exfalso
        subst hlj
        simp only [e1, store_child_children] at hlitem'
        rw [getElem?_set_eq_ite _ _ _ _ hl] at hlitem'
        simp only [↓reduceIte, Option.some.injEq] at hlitem'
        rw [← hlitem'] at hvl
        rw [hv'] at hvl; simp at hvl
      · refine ⟨l, iteml, hq, by omega, ?_, hvl⟩
        simp only [e1, store_child_children] at hlitem'
        rw [List.getElem?_set_ne (fun h => hlj h.symm)] at hlitem'; exact hlitem'

theorem fwdLoop_fold (g : IteratorWrapper UK → IteratorWrapper UK) (e0 e : MergingIterator UK)
    (hstatic : ∀ l item, e0.children_[l]? = some item → ChildStatic l item)
    (hg : ∀ l item, ChildStatic l item → ChildOK l { item with iter := g item.iter })
    (hinv : FwdLoopInv g e0 0 e) :
    ∀ n, n ≤ e0.children_.length →
      FwdLoopInv g e0 n ((List.range n).foldl
        (fun (e : MergingIterator UK) level =>
          (e.updIter (.child level) g).AddToMinHeapOrCheckStatus (.child level)) e) := by
  intro n
  induction n with
  | zero => intro _; simpa using hinv
  | succ n ih =>
    intro hn
    rw [List.range_succ, List.foldl_append]
    simp only [List.foldl_cons, List.foldl_nil]
    exact fwdLoop_step g e0 _ n hstatic hg (ih (by omega)) (by omega)

theorem child_seekToFirst_ok (l : Nat) (item : HeapItem UK) (hs : ChildStatic l item) :
    ChildOK l { item with iter := item.iter.SeekToFirst } ∧
      childRemaining { item with iter := item.iter.SeekToFirst } = childRun item := by
  obtain ⟨hlev, htype, it, hit, hsorted, hc, ha⟩ := hs
  by_cases hlen : 0 < it.run.length
  · have hN : item.iter.SeekToFirst =
        { iter_ := some { it with pos := some 0, status_ := Status.OK },
          result_ := { key := it.run[0]?.getD default,
                       bound_check_result := IterBoundCheck.kUnknown,
                       value_prepared := false, is_valid := true } } := by
      simp [IteratorWrapper.SeekToFirst, hit, InternalIterator.SeekToFirst,
        InternalIterator.place, hlen, hc, IteratorWrapper.Update, InternalIterator.Valid,
        InternalIterator.key]
    rw [hN]
    refine ⟨⟨⟨hlev, htype, _, rfl, hsorted, hc, ha⟩, ?_⟩, ?_⟩
    · intro it' hit'
      simp only [Option.some.injEq] at hit'
      subst hit'
      refine ⟨rfl, rfl, ?_⟩
      intro j hj
      simp only [Option.some.injEq] at hj
      subst hj
      rw [List.getElem?_eq_getElem hlen]; simp
    · simp [childRemaining, childRun, hit]
  · have hN : item.iter.SeekToFirst =
        { iter_ := some { it with pos := none, status_ := Status.OK },
          result_ := { item.iter.result_ with is_valid := false } } := by
      simp [IteratorWrapper.SeekToFirst, hit, InternalIterator.SeekToFirst,
        InternalIterator.place, hlen, IteratorWrapper.Update, InternalIterator.Valid]
    rw [hN]
    refine ⟨⟨⟨hlev, htype, _, rfl, hsorted, hc, ha⟩, ?_⟩, ?_⟩
    · intro it' hit'
      simp only [Option.some.injEq] at hit'
      subst hit'
      refine ⟨rfl, rfl, ?_⟩
      intro j hj
      simp at hj
    · have : it.run = [] := List.length_eq_zero.mp (by omega)
      simp [childRemaining, childRun, hit, this]

theorem heapInv_clear {T : Type} (cmp : T → T → Bool) (h : BinaryHeap T) :
    HeapInv cmp h.clear := by
  refine ⟨?_, ?_⟩
  · intro i x p _ hx; simp only [BinaryHeap.clear] at hx; simp at hx
  · intro c hc; simp only [BinaryHeap.clear] at hc; simp at hc

theorem fwdLoop_final {g : IteratorWrapper UK → IteratorWrapper UK}
    {e0 e : MergingIterator UK}
    (hstatic : ∀ l item, e0.children_[l]? = some item → ChildStatic l item)
    (hg : ∀ l item, ChildStatic l item → ChildOK l { item with iter := g item.iter })
    (hinv : FwdLoopInv g e0 e0.children_.length e) :
    FwdInv { e with direction_ := Direction.kForward, current_ := e.heap_.top } ∧
      e.children_ = e0.children_.map (fun item => { item with iter := g item.iter }) := by
  have hch : e.children_ = e0.children_.map (fun item => { item with iter := g item.iter }) := by
    apply List.ext_getElem?
    intro l
    rw [hinv.track l, List.getElem?_map]
    by_cases h : l < e0.children_.length
    · simp [h]
    · simp only [h, ↓reduceIte]
      rw [List.getElem?_eq_none (by omega)]; rfl
  refine ⟨⟨hinv.no_tombstones, ?_, hinv.heap_nodup, ?_, ?_, hinv.status_ok, rfl, rfl⟩, hch⟩
  · intro l item hitem
    have hitem' : e.children_[l]? = some item := hitem
    rw [hch, List.getElem?_map] at hitem'
    cases h0 : e0.children_[l]? with
    | none => rw [h0] at hitem'; simp at hitem'
    | some item0 =>
      rw [h0] at hitem'
      simp only [Option.map_some', Option.some.injEq] at hitem'
      rw [← hitem']
      exact hg l item0 (hstatic l item0 h0)
  · intro q
    show q ∈ e.heap_.data_ ↔ ∃ l item, q = HeapItemPtr.child l ∧ e.children_[l]? = some item ∧ _
    rw [hinv.heap_mem]
    constructor
    · rintro ⟨l, item, hq, _, hitem, hv⟩
      exact ⟨l, item, hq, hitem, hv⟩
    · rintro ⟨l, item, hq, hitem, hv⟩
      refine ⟨l, item, hq, ?_, hitem, hv⟩
      by_contra hcon
      rw [hinv.track l] at hitem
      simp only [hcon, ↓reduceIte] at hitem
      rw [List.getElem?_eq_none (by omega)] at hitem
      simp at hitem
  · have : ({ e with direction_ := Direction.kForward, current_ := e.heap_.top } :
        MergingIterator UK).minCmp = e.minCmp := minCmp_eq_of_items _ _ rfl rfl
    rw [this]; exact hinv.heap_inv

theorem fwd_seek_all (g : IteratorWrapper UK → IteratorWrapper UK) (e0 : MergingIterator UK)
    (hrti : e0.range_tombstone_iters_ = [])
    (hstatic : ∀ l item, e0.children_[l]? = some item → ChildStatic l item)
    (hg : ∀ l item, ChildStatic l item → ChildOK l { item with iter := g item.iter })
    (hheap : e0.heap_ = {}) (hst : e0.status_ = Status.OK) (e1 : MergingIterator UK)
    (he1 : e1 = (List.range e0.children_.length).foldl
        (fun (e : MergingIterator UK) level =>
          (e.updIter (.child level) g).AddToMinHeapOrCheckStatus (.child level)) e0) :
    FwdInv { e1 with direction_ := Direction.kForward, current_ := e1.heap_.top } ∧
      e1.children_ = e0.children_.map (fun item => { item with iter := g item.iter }) ∧
      e1.range_tombstone_iters_ = [] := by
  have hinv0 : FwdLoopInv g e0 0 e0 := by
    refine ⟨hrti, ?_, ?_, ?_, ?_, hst⟩
    · intro l; simp
    · simp [hheap]
    · intro p; simp [hheap]
    · rw [hheap]; exact heapInv_clear _ {}
  have hfold := fwdLoop_fold g e0 e0 hstatic hg hinv0 e0.children_.length (Nat.le_refl _)
  rw [← he1] at hfold
  obtain ⟨hfinal, hch⟩ := fwdLoop_final hstatic hg hfold
  exact ⟨hfinal, hch, hfold.no_tombstones⟩

theorem seekToFirst_spec (e : MergingIterator UK) (fuel : Nat)
    (hrti : e.range_tombstone_iters_ = [])
    (hstatic : ∀ l item, e.children_[l]? = some item → ChildStatic l item) :
    ∃ e1, e.SeekToFirst fuel = some e1 ∧ FwdInv e1 ∧
      remainingForward e1 = e.children_.flatMap childRun := by
  have hg : ∀ l (item : HeapItem UK), ChildStatic l item →
      ChildOK l { item with iter := (fun (w : IteratorWrapper UK) => w.SeekToFirst) item.iter } :=
    fun l item hs => (child_seekToFirst_ok l item hs).1
  obtain ⟨e0, he0⟩ : ∃ e0 : MergingIterator UK,
      e0 = { e.ClearHeaps true with status_ := Status.OK } := ⟨_, rfl⟩
  have hch0 : e0.children_ = e.children_ := by rw [he0]; rfl
  have hrti0 : e0.range_tombstone_iters_ = [] := by rw [he0]; exact hrti
  have hheap0 : e0.heap_ = {} := by rw [he0]; rfl
  have hst0 : e0.status_ = Status.OK := by rw [he0]
  obtain ⟨e1, he1⟩ : ∃ e1 : MergingIterator UK,
      e1 = (List.range e0.children_.length).foldl
        (fun (e : MergingIterator UK) level =>
          (e.updIter (.child level) (fun w => w.SeekToFirst)).AddToMinHeapOrCheckStatus
            (.child level)) e0 := ⟨_, rfl⟩
  obtain ⟨hfinal, hch, hrti1⟩ := fwd_seek_all (fun (w : IteratorWrapper UK) => w.SeekToFirst)
    e0 hrti0 (by rw [hch0]; exact hstatic) hg hheap0 hst0 e1 he1
  refine ⟨{ e1 with direction_ := Direction.kForward, current_ := e1.heap_.top }, ?_, hfinal, ?_⟩
  · unfold SeekToFirst
    rw [← he0]
    dsimp only
    rw [← he1]
    simp only [hrti1, List.length_nil, List.range_zero, List.foldl_nil, FindNextVisibleKey,
      List.isEmpty_nil, ↓reduceIte, CurrentForward]
  · show e1.children_.flatMap childRemaining = _
    rw [hch, List.flatMap_map, hch0]
    apply List.flatMap_congr
    intro item hitem
    obtain ⟨l, hl⟩ := List.mem_iff_getElem?.mp hitem
    exact (child_seekToFirst_ok l item (hstatic l item hl)).2

theorem build_no_tombstones (runs : List (List (ParsedInternalKey UK))) :
    build runs [] = MergingIterTmpl (runs.map (fun r => { run := r })) false none := by
  simp [build, Finish, MergingIterTmpl]

theorem build_children (runs : List (List (ParsedInternalKey UK))) (l : Nat) :
    (build runs []).children_[l]? = (runs[l]?).map (fun r =>
      { iter := { iter_ := some { run := r },
                  result_ := { (default : IteratorWrapper UK).result_ with is_valid := false } },
        level := l, parsed_ikey := default, type := HeapItemType.ITERATOR }) := by
  rw [build_no_tombstones]
  simp only [MergingIterTmpl, List.getElem?_map, List.getElem?_enum]
  cases runs[l]? with
  | none => rfl
  | some r =>
    simp [IteratorWrapper.Set, IteratorWrapper.Update, InternalIterator.Valid]

theorem build_static (runs : List (List (ParsedInternalKey UK)))
    (hs : ∀ r ∈ runs, SortedRun r) :
    ∀ l item, (build runs []).children_[l]? = some item → ChildStatic l item := by
  intro l item hitem
  rw [build_children] at hitem
  cases hr : runs[l]? with
  | none => rw [hr] at hitem; simp at hitem
  | some r =>
    rw [hr] at hitem
    simp only [Option.map_some', Option.some.injEq] at hitem
    subst hitem
    exact ⟨rfl, rfl, _, rfl, hs r (List.getElem?_mem hr), rfl, rfl⟩

theorem build_runs (runs : List (List (ParsedInternalKey UK))) :
    (build runs []).children_.flatMap childRun = runs.flatten := by
  have : (build runs []).children_.map childRun = runs := by
    apply List.ext_getElem?
    intro l
    rw [List.getElem?_map, build_children]
    cases runs[l]? with
    | none => rfl
    | some r => rfl
  show ((build runs []).children_.map childRun).flatten = _
  rw [this]

theorem sorted_newest_first {out : List (ParsedInternalKey UK)} (h : out.Pairwise keyLe) :
    out.Pairwise (fun a b => a.user_key = b.user_key → b.sequence ≤ a.sequence) := by
  refine h.imp ?_
  intro a b hab heq
  rw [keyLe_iff] at hab
  by_contra hcon
  apply hab
  unfold keyLt
  right
  exact ⟨heq.symm, Or.inl (by omega)⟩

/-- The forward scan of an engine without tombstone iterators over sorted runs: it ends, and
what it emits is a permutation of the union of the runs, in comparator order. -/
theorem forwardScan_spec (runs : List (List (ParsedInternalKey UK)))
    (hs : ∀ r ∈ runs, SortedRun r) (fuel n : Nat) (hn : runs.flatten.length ≤ n) :
    ∃ out, forwardScan fuel n (build runs []) = some out ∧ out.Perm runs.flatten ∧
      out.Pairwise keyLe := by
  obtain ⟨e1, hseek, hinv, hrem⟩ := seekToFirst_spec (build runs []) fuel
    (by rw [build_no_tombstones]; rfl) (build_static runs hs)
  rw [build_runs] at hrem
  obtain ⟨out, hout, hperm, hsorted⟩ := collectForward_spec fuel n e1 hinv (by rw [hrem]; exact hn)
  refine ⟨out, ?_, by rw [← hrem]; exact hperm, hsorted⟩
  simp [forwardScan, hseek, hout]

theorem sorted_perm_unique {l1 l2 : List (ParsedInternalKey UK)} (hp : l1.Perm l2)
    (h1 : l1.Pairwise keyLe) (h2 : l2.Pairwise keyLe) : l1 = l2 := by
  haveI : IsAntisymm (ParsedInternalKey UK) keyLe := ⟨fun _ _ h h' => keyLe_antisymm h h'⟩
  exact List.eq_of_perm_of_sorted hp h1 h2

/-- C1. For runs that are sorted under the internal-key comparator, merged by an engine
without tombstone iterators (children that report no error): the forward scan,
`SeekToFirst()` and then `Next()` until `Valid()` is false, ends after the records of all runs
have been emitted once each (a permutation of their union), in non-decreasing comparator
order, so that records of one user key come newest sequence number first. -/
theorem forward_scan_merges_runs (runs : List (List (ParsedInternalKey UK)))
    (hs : ∀ r ∈ runs, r.Pairwise (fun a b => Compare a b ≠ .gt)) (fuel n : Nat)
    (hn : runs.flatten.length ≤ n) :
    ∃ out, forwardScan fuel n (build runs []) = some out ∧ out.Perm runs.flatten ∧
      out.Pairwise (fun a b => Compare a b ≠ .gt) ∧
      out.Pairwise (fun a b => a.user_key = b.user_key → b.sequence ≤ a.sequence) := by
  obtain ⟨out, hout, hperm, hsorted⟩ := forwardScan_spec runs hs fuel n hn
  exact ⟨out, hout, hperm, hsorted, sorted_newest_first hsorted⟩

theorem forward_scan_merges_runs_witness :
    (∀ r ∈ [[(⟨1, 5, 1⟩ : ParsedInternalKey Nat)], [⟨1, 3, 1⟩, ⟨2, 3, 1⟩]],
      r.Pairwise (fun a b => Compare a b ≠ .gt)) ∧
    [[(⟨1, 5, 1⟩ : ParsedInternalKey Nat)], [⟨1, 3, 1⟩, ⟨2, 3, 1⟩]].flatten.length ≤ 3 ∧
    ∃ out, forwardScan 0 3
        (build [[(⟨1, 5, 1⟩ : ParsedInternalKey Nat)], [⟨1, 3, 1⟩, ⟨2, 3, 1⟩]] []) = some out ∧
      out.Perm [[(⟨1, 5, 1⟩ : ParsedInternalKey Nat)], [⟨1, 3, 1⟩, ⟨2, 3, 1⟩]].flatten ∧
      out.Pairwise (fun a b => Compare a b ≠ .gt) ∧
      out.Pairwise (fun a b => a.user_key = b.user_key → b.sequence ≤ a.sequence) :=
  ⟨by decide, by decide,
    forward_scan_merges_runs [[⟨1, 5, 1⟩], [⟨1, 3, 1⟩, ⟨2, 3, 1⟩]] (by decide) 0 3 (by decide)⟩

/-- C6, as stated, fails: on the runs R0 = [(k1,seq5,put)], R1 = [(k1,seq3,put),(k2,seq3,put)]
(user keys 1 and 2, type 1 for put) the forward scan is not the two records
(k1,seq5), (k2,seq3). -/
theorem forward_scan_scenario_counterexample :
    forwardScan 0 3
      (build [[(⟨1, 5, 1⟩ : ParsedInternalKey Nat)], [⟨1, 3, 1⟩, ⟨2, 3, 1⟩]] []) ≠
      some [⟨1, 5, 1⟩, ⟨2, 3, 1⟩] := by
  decide

/-- C6, amended. On the runs R0 = [(k1,seq5,put)], R1 = [(k1,seq3,put),(k2,seq3,put)] without
tombstones the forward scan yields exactly the three records (k1,seq5), (k1,seq3), (k2,seq3):
the merging engine emits every version of a user key, newest first. -/
theorem forward_scan_scenario (fuel n : Nat) (hn : 3 ≤ n) :
    forwardScan fuel n
      (build [[(⟨1, 5, 1⟩ : ParsedInternalKey Nat)], [⟨1, 3, 1⟩, ⟨2, 3, 1⟩]] []) =
      some [⟨1, 5, 1⟩, ⟨1, 3, 1⟩, ⟨2, 3, 1⟩] := by
  obtain ⟨out, hout, hperm, hsorted⟩ :=
    forwardScan_spec [[(⟨1, 5, 1⟩ : ParsedInternalKey Nat)], [⟨1, 3, 1⟩, ⟨2, 3, 1⟩]]
      (by decide) fuel n hn
  rw [hout]
  congr 1
  exact sorted_perm_unique hperm hsorted (by decide)

theorem forward_scan_scenario_witness :
    3 ≤ 3 ∧ forwardScan 1 3
      (build [[(⟨1, 5, 1⟩ : ParsedInternalKey Nat)], [⟨1, 3, 1⟩, ⟨2, 3, 1⟩]] []) =
      some [⟨1, 5, 1⟩, ⟨1, 3, 1⟩, ⟨2, 3, 1⟩] :=
  ⟨by decide, forward_scan_scenario 1 3 (by decide)⟩

end MergingIterator

/-! ## Part VI. The scans of the engine with range tombstones -/

namespace MergingIterator

open InternalKeyComparator BinaryHeap

variable {UK : Type} [LinearOrder UK] [Inhabited UK]

theorem keyLe_user_key {a b : ParsedInternalKey UK} (h : keyLe a b) :
    a.user_key ≤ b.user_key := by
  rw [keyLe_iff] at h
  by_contra hcon
  exact h (Or.inl (lt_of_not_le hcon))

theorem keyLt_user_key {a b : ParsedInternalKey UK} (h : keyLt a b) :
    a.user_key ≤ b.user_key := by
  rcases h with h | ⟨h, _⟩
  · exact le_of_lt h
  · exact le_of_eq h

theorem keyLt_of_user_key_lt {a b : ParsedInternalKey UK} (h : a.user_key < b.user_key) :
    keyLt a b := Or.inl h

theorem keyLe_of_keyLt {a b : ParsedInternalKey UK} (h : keyLt a b) : keyLe a b := by
  rw [keyLe_iff]
  intro h2
  exact keyLt_irrefl a (keyLt_trans h h2)

theorem keyLt_of_keyLt_of_keyLe {a b c : ParsedInternalKey UK} (h1 : keyLt a b)
    (h2 : keyLe b c) : keyLt a c := by
  rcases keyLt_total a c with h | h | h
  · exact h
  · subst h; rw [keyLe_iff] at h2; exact absurd h1 h2
  · rw [keyLe_iff] at h2; exact absurd (keyLt_trans h h1) h2

theorem keyLt_of_keyLe_of_keyLt {a b c : ParsedInternalKey UK} (h1 : keyLe a b)
    (h2 : keyLt b c) : keyLt a c := by
  rcases keyLt_total a c with h | h | h
  · exact h
  · subst h; rw [keyLe_iff] at h1; exact absurd h2 h1
  · rw [keyLe_iff] at h1; exact absurd (keyLt_trans h2 h) h1

theorem not_keyLt_iff {a b : ParsedInternalKey UK} : ¬ keyLt a b ↔ keyLe b a := by
  rw [keyLe_iff]

theorem not_keyLe_iff {a b : ParsedInternalKey UK} : ¬ keyLe a b ↔ keyLt b a := by
  rw [keyLe_iff]; exact not_not

/-- A record is before a boundary key exactly when its user key is smaller. -/
theorem keyLe_boundary {k : ParsedInternalKey UK} (hk : k.sequence < kMaxSequenceNumber)
    (a : UK) (ty : Nat) (h : keyLe k ⟨a, kMaxSequenceNumber, ty⟩) : k.user_key < a := by
  rw [keyLe_iff] at h
  rcases lt_trichotomy k.user_key a with h1 | h1 | h1
  · exact h1
  · exact absurd (Or.inr ⟨h1.symm, Or.inl hk⟩) h
  · exact absurd (Or.inl h1) h

theorem keyLt_boundary {k : ParsedInternalKey UK} (hk : k.sequence < kMaxSequenceNumber)
    (a : UK) (ty : Nat) (h : keyLt k ⟨a, kMaxSequenceNumber, ty⟩) : k.user_key < a :=
  keyLe_boundary hk a ty (keyLe_of_keyLt h)

/-- A boundary key is before every record of its user key or a later one. -/
theorem boundary_keyLt {k : ParsedInternalKey UK} (hk : k.sequence < kMaxSequenceNumber)
    (a : UK) (ty : Nat) (h : a ≤ k.user_key) : keyLt ⟨a, kMaxSequenceNumber, ty⟩ k := by
  rcases lt_or_eq_of_le h with h1 | h1
  · exact Or.inl h1
  · exact Or.inr ⟨h1, Or.inl hk⟩

theorem boundary_keyLe_iff {k : ParsedInternalKey UK} (hk : k.sequence < kMaxSequenceNumber)
    (a : UK) (ty : Nat) : keyLe ⟨a, kMaxSequenceNumber, ty⟩ k ↔ a ≤ k.user_key := by
  constructor
  · intro h; exact keyLe_user_key h
  · intro h; exact keyLe_of_keyLt (boundary_keyLt hk a ty h)

theorem cmp_lt_iff_keyLt (a b : ParsedInternalKey UK) :
    (Compare a b == .lt) = true ↔ keyLt a b := by
  rw [ordering_beq_iff, compare_lt_iff]

theorem cmp_gt_iff_keyLt (a b : ParsedInternalKey UK) :
    (Compare a b == .gt) = true ↔ keyLt b a := by
  rw [ordering_beq_iff, compare_gt_iff]

theorem cmp_ne_gt_iff_keyLe (a b : ParsedInternalKey UK) :
    (Compare a b != .gt) = true ↔ keyLe a b := by
  rw [ordering_bne_iff]; rfl

theorem compare_ne_gt_iff_le (a b : UK) : (compare a b != .gt) = true ↔ a ≤ b := by
  rw [ordering_bne_iff]
  rw [Ne, compare_gt_iff_gt]
  exact not_lt

theorem sortedRun_le {r : List (ParsedInternalKey UK)} (hs : SortedRun r) {i j : Nat}
    {x y : ParsedInternalKey UK} (hij : i ≤ j) (hx : r[i]? = some x) (hy : r[j]? = some y) :
    keyLe x y := by
  rcases Nat.lt_or_eq_of_le hij with h | h
  · have hj : j < r.length := by
      by_contra hcon; rw [List.getElem?_eq_none (by omega)] at hy; simp at hy
    have hi : i < r.length := by omega
    rw [List.getElem?_eq_getElem hi] at hx
    rw [List.getElem?_eq_getElem hj] at hy
    simp at hx hy
    subst hx; subst hy
    exact List.pairwise_iff_getElem.mp hs i j hi hj h
  · subst h
    rw [hx] at hy; simp at hy; subst hy
    exact keyLe_refl x

theorem takeWhile_length_le {α : Type} (p : α → Bool) (l : List α) :
    (l.takeWhile p).length ≤ l.length := by
  induction l with
  | nil => simp
  | cons a t ih =>
    simp only [List.takeWhile_cons]
    split
    · simp; exact ih
    · simp

theorem takeWhile_before {α : Type} (p : α → Bool) (l : List α) (i : Nat) (x : α)
    (hi : i < (l.takeWhile p).length) (hx : l[i]? = some x) : p x = true := by
  induction l generalizing i with
  | nil => simp at hx
  | cons a t ih =>
    simp only [List.takeWhile_cons] at hi
    split at hi
    · rename_i hp
      cases i with
      | zero => simp at hx; subst hx; exact hp
      | succ i => simp at hx hi; exact ih i hi hx
    · simp at hi

theorem takeWhile_at {α : Type} (p : α → Bool) (l : List α) (x : α)
    (hx : l[(l.takeWhile p).length]? = some x) : p x = false := by
  induction l with
  | nil => simp at hx
  | cons a t ih =>
    simp only [List.takeWhile_cons] at hx
    split at hx
    · simp at hx; exact ih hx
    · rename_i hp
      simp at hx; subst hx; simpa using hp

/-- In a sorted run every record from the seek position on is at or after the target. -/
theorem seek_pos_after {r : List (ParsedInternalKey UK)} (hs : SortedRun r)
    (target : ParsedInternalKey UK) (i : Nat) (x : ParsedInternalKey UK)
    (hi : (r.takeWhile (fun k => Compare k target == .lt)).length ≤ i) (hx : r[i]? = some x) :
    keyLe target x := by
  have hlen : i < r.length := by
    by_contra hcon; rw [List.getElem?_eq_none (by omega)] at hx; simp at hx
  have hq : (r.takeWhile (fun k => Compare k target == .lt)).length < r.length := by omega
  have h0 := takeWhile_at (fun k => Compare k target == .lt) r _
    (List.getElem?_eq_getElem hq)
  have h1 : keyLe target (r[(r.takeWhile (fun k => Compare k target == .lt)).length]) := by
    rw [← not_keyLt_iff, ← cmp_lt_iff_keyLt]
    simpa using h0
  exact keyLe_trans h1 (sortedRun_le hs hi (List.getElem?_eq_getElem hq) hx)

theorem seek_pos_before {r : List (ParsedInternalKey UK)}
    (target : ParsedInternalKey UK) (i : Nat) (x : ParsedInternalKey UK)
    (hi : i < (r.takeWhile (fun k => Compare k target == .lt)).length) (hx : r[i]? = some x) :
    keyLt x target := by
  have := takeWhile_before (fun k => Compare k target == .lt) r i x hi hx
  exact (cmp_lt_iff_keyLt _ _).mp this

/-- In a sorted run every record before the position of a record at or after the target is
counted by the seek position. -/
theorem seek_pos_le {r : List (ParsedInternalKey UK)} (hs : SortedRun r)
    (target : ParsedInternalKey UK) (i : Nat) (x : ParsedInternalKey UK)
    (hx : r[i]? = some x) (h : keyLt x target) :
    i < (r.takeWhile (fun k => Compare k target == .lt)).length := by
  by_contra hcon
  have := seek_pos_after hs target i x (by omega) hx
  rw [keyLe_iff] at this
  exact this h

theorem deref_eq_of_items (e e' : MergingIterator UK) (h1 : e'.children_ = e.children_)
    (h2 : e'.pinned_heap_item_ = e.pinned_heap_item_) (p : HeapItemPtr) :
    e'.deref p = e.deref p := by
  cases p <;> simp [deref, h1, h2]

theorem rti_eq_of_iters (e e' : MergingIterator UK)
    (h : e'.range_tombstone_iters_ = e.range_tombstone_iters_) (j : Nat) :
    e'.rti j = e.rti j := by
  simp [rti, h]

@[simp] theorem deref_minPush (e : MergingIterator UK) (p q : HeapItemPtr) :
    (e.minPush p).deref q = e.deref q := deref_eq_of_items _ _ rfl rfl q

@[simp] theorem deref_minPop (e : MergingIterator UK) (q : HeapItemPtr) :
    (e.minPop).deref q = e.deref q := deref_eq_of_items _ _ rfl rfl q

@[simp] theorem deref_minReplaceTop (e : MergingIterator UK) (p q : HeapItemPtr) :
    (e.minReplaceTop p).deref q = e.deref q := deref_eq_of_items _ _ rfl rfl q

@[simp] theorem deref_minUpdateTop (e : MergingIterator UK) (q : HeapItemPtr) :
    (e.minUpdateTop).deref q = e.deref q := deref_eq_of_items _ _ rfl rfl q

@[simp] theorem deref_setRti (e : MergingIterator UK) (j : Nat)
    (it : TruncatedRangeDelIterator UK) (q : HeapItemPtr) :
    (e.setRti j it).deref q = e.deref q := deref_eq_of_items _ _ rfl rfl q

@[simp] theorem deref_ClearHeaps (e : MergingIterator UK) (b : Bool) (q : HeapItemPtr) :
    (e.ClearHeaps b).deref q = e.deref q := deref_eq_of_items _ _ rfl rfl q

@[simp] theorem deref_set_active (e : MergingIterator UK) (a : List Nat) (q : HeapItemPtr) :
    ({ e with active_ := a } : MergingIterator UK).deref q = e.deref q :=
  deref_eq_of_items _ _ rfl rfl q

@[simp] theorem deref_set_status (e : MergingIterator UK) (s : Status) (q : HeapItemPtr) :
    ({ e with status_ := s } : MergingIterator UK).deref q = e.deref q :=
  deref_eq_of_items _ _ rfl rfl q

@[simp] theorem rti_minPush (e : MergingIterator UK) (p : HeapItemPtr) (j : Nat) :
    (e.minPush p).rti j = e.rti j := rfl

@[simp] theorem rti_minPop (e : MergingIterator UK) (j : Nat) :
    (e.minPop).rti j = e.rti j := rfl

@[simp] theorem rti_minReplaceTop (e : MergingIterator UK) (p : HeapItemPtr) (j : Nat) :
    (e.minReplaceTop p).rti j = e.rti j := rfl

@[simp] theorem rti_minUpdateTop (e : MergingIterator UK) (j : Nat) :
    (e.minUpdateTop).rti j = e.rti j := rfl

@[simp] theorem rti_store (e : MergingIterator UK) (p : HeapItemPtr) (item : HeapItem UK)
    (j : Nat) : (e.store p item).rti j = e.rti j := by
  cases p <;> rfl

@[simp] theorem rti_updIter (e : MergingIterator UK) (p : HeapItemPtr)
    (f : IteratorWrapper UK → IteratorWrapper UK) (j : Nat) :
    (e.updIter p f).rti j = e.rti j := by
  unfold updIter; simp

@[simp] theorem rti_ClearHeaps (e : MergingIterator UK) (b : Bool) (j : Nat) :
    (e.ClearHeaps b).rti j = e.rti j := rfl

@[simp] theorem rti_set_active (e : MergingIterator UK) (a : List Nat) (j : Nat) :
    ({ e with active_ := a } : MergingIterator UK).rti j = e.rti j := rfl

@[simp] theorem rti_set_status (e : MergingIterator UK) (s : Status) (j : Nat) :
    ({ e with status_ := s } : MergingIterator UK).rti j = e.rti j := rfl

theorem rti_setRti_self (e : MergingIterator UK) (j : Nat) (it : TruncatedRangeDelIterator UK)
    (hj : j < e.range_tombstone_iters_.length) : (e.setRti j it).rti j = it := by
  simp [rti, setRti, hj]

theorem rti_setRti_ne (e : MergingIterator UK) (j i : Nat) (it : TruncatedRangeDelIterator UK)
    (hne : j ≠ i) : (e.setRti j it).rti i = e.rti i := by
  simp [rti, setRti, List.getElem?_set_ne hne]

theorem deref_store_pinned_self (e : MergingIterator UK) (j : Nat) (item : HeapItem UK)
    (hj : j < e.pinned_heap_item_.length) : (e.store (.pinned j) item).deref (.pinned j) = item := by
  simp [deref, store, hj]

theorem deref_store_pinned_ne (e : MergingIterator UK) (j : Nat) (item : HeapItem UK)
    (p : HeapItemPtr) (h : p ≠ .pinned j) : (e.store (.pinned j) item).deref p = e.deref p := by
  cases p with
  | child l => simp [deref, store]
  | pinned i =>
    have : j ≠ i := fun hh => h (by rw [hh])
    simp [deref, store, List.getElem?_set_ne this]

theorem deref_store_child_self_lt (e : MergingIterator UK) (l : Nat) (item : HeapItem UK)
    (hl : l < e.children_.length) : (e.store (.child l) item).deref (.child l) = item := by
  simp [deref, store, hl]

theorem deref_updIter_child_self (e : MergingIterator UK) (l : Nat)
    (f : IteratorWrapper UK → IteratorWrapper UK) (hl : l < e.children_.length) :
    (e.updIter (.child l) f).deref (.child l) =
      { e.deref (.child l) with iter := f (e.deref (.child l)).iter } := by
  unfold updIter
  exact deref_store_child_self_lt e l _ hl

theorem deref_updIter_child_ne (e : MergingIterator UK) (l : Nat)
    (f : IteratorWrapper UK → IteratorWrapper UK) (p : HeapItemPtr) (h : p ≠ .child l) :
    (e.updIter (.child l) f).deref p = e.deref p := by
  unfold updIter
  exact deref_store_child_ne e l _ p h

theorem considerStatus_ok (e : MergingIterator UK) : e.considerStatus Status.OK = e := by
  simp [considerStatus, Status.ok]

theorem minCmp_eq_of_deref (e e' : MergingIterator UK) (a b : HeapItemPtr)
    (ha : e'.deref a = e.deref a) (hb : e'.deref b = e.deref b) :
    e'.minCmp a b = e.minCmp a b := minCmp_congr e e' a b ha hb

/-- The heap stays ordered when the items of its entries are not touched. -/
theorem heapInv_frame (e e' : MergingIterator UK) (hh : e'.heap_ = e.heap_)
    (hd : ∀ p ∈ e.heap_.data_, e'.deref p = e.deref p) (hi : HeapInv e.minCmp e.heap_) :
    HeapInv e'.minCmp e'.heap_ := by
  rw [hh]
  exact heapInv_congr (fun a ha b hb => minCmp_congr e e' a b (hd a ha) (hd b hb)) hi

/-- The heap stays ordered below the root when only the item of the root is touched. -/
theorem heapBelow_frame (e e' : MergingIterator UK) (hh : e'.heap_ = e.heap_)
    (hd : ∀ p ∈ e.heap_.data_.tail, e'.deref p = e.deref p) (hi : HeapInv e.minCmp e.heap_) :
    HeapBelowRoot e'.minCmp e'.heap_.data_ ∧
      CacheValid e'.minCmp e'.heap_.root_cmp_cache_ e'.heap_.data_ := by
  rw [hh]
  have hc : ∀ a ∈ e.heap_.data_.tail, ∀ b ∈ e.heap_.data_.tail, e'.minCmp a b = e.minCmp a b :=
    fun a ha b hb => minCmp_congr e e' a b (hd a ha) (hd b hb)
  exact ⟨heapBelowRoot_congr hc (heapOrdered_belowRoot hi.1), cacheValid_congr hc hi.2⟩

theorem minPush_heap (e : MergingIterator UK) (p : HeapItemPtr)
    (hi : HeapInv e.minCmp e.heap_) :
    HeapInv (e.minPush p).minCmp (e.minPush p).heap_ ∧
      (e.minPush p).heap_.data_.Perm (p :: e.heap_.data_) := by
  have hc : (e.minPush p).minCmp = e.minCmp := minCmp_eq_of_items _ _ rfl rfl
  rw [hc]
  exact pushC_spec (minCmp_swo e) e.heap_ p hi.1

theorem minPop_heap (e : MergingIterator UK)
    (hb : HeapBelowRoot e.minCmp e.heap_.data_)
    (hc : CacheValid e.minCmp e.heap_.root_cmp_cache_ e.heap_.data_) :
    HeapInv (e.minPop).minCmp (e.minPop).heap_ ∧
      (e.minPop).heap_.data_.Perm e.heap_.data_.tail := by
  have hcc : (e.minPop).minCmp = e.minCmp := minCmp_eq_of_items _ _ rfl rfl
  rw [hcc]
  exact popC_spec (minCmp_swo e) e.heap_ hb hc

theorem minReplaceTop_heap (e : MergingIterator UK) (p : HeapItemPtr)
    (hne : e.heap_.data_ ≠ [])
    (hb : HeapBelowRoot e.minCmp e.heap_.data_)
    (hc : CacheValid e.minCmp e.heap_.root_cmp_cache_ e.heap_.data_) :
    HeapInv (e.minReplaceTop p).minCmp (e.minReplaceTop p).heap_ ∧
      (e.minReplaceTop p).heap_.data_.Perm (p :: e.heap_.data_.tail) := by
  have hcc : (e.minReplaceTop p).minCmp = e.minCmp := minCmp_eq_of_items _ _ rfl rfl
  rw [hcc]
  have hne' : e.heap_.empty = false := by
    cases hd : e.heap_.data_ with
    | nil => exact absurd hd hne
    | cons a l => simp [BinaryHeap.empty, hd]
  exact replace_topC_spec (minCmp_swo e) e.heap_ p hne' hb hc

theorem minUpdateTop_heap (e : MergingIterator UK)
    (hne : e.heap_.data_ ≠ [])
    (hb : HeapBelowRoot e.minCmp e.heap_.data_)
    (hc : CacheValid e.minCmp e.heap_.root_cmp_cache_ e.heap_.data_) :
    HeapInv (e.minUpdateTop).minCmp (e.minUpdateTop).heap_ ∧
      (e.minUpdateTop).heap_.data_.Perm e.heap_.data_ := by
  have hcc : (e.minUpdateTop).minCmp = e.minCmp := minCmp_eq_of_items _ _ rfl rfl
  rw [hcc]
  have hne' : e.heap_.empty = false := by
    cases hd : e.heap_.data_ with
    | nil => exact absurd hd hne
    | cons a l => simp [BinaryHeap.empty, hd]
  exact update_topC_spec (minCmp_swo e) e.heap_ hne' hb hc

/-- Replacing the top by itself is `update_top`. -/
theorem minReplaceTop_top (e : MergingIterator UK) (t : HeapItemPtr)
    (ht : e.heap_.top = some t) : e.minReplaceTop t = e.minUpdateTop := by
  have hd := (top_eq_some_iff e.heap_ t).mp ht
  unfold minReplaceTop minUpdateTop BinaryHeap.replace_top BinaryHeap.update_top replace_topC
    update_topC
  have : e.heap_.data_.set 0 t = e.heap_.data_ := by
    rw [hd]; simp
  rw [this]

/-- The top of the min-heap is a smallest entry. -/
theorem top_min (e : MergingIterator UK) (hi : HeapInv e.minCmp e.heap_) (t : HeapItemPtr)
    (ht : e.heap_.top = some t) :
    t ∈ e.heap_.data_ ∧ ∀ p ∈ e.heap_.data_, keyLe (hkey e t) (hkey e p) := by
  obtain ⟨h1, h2⟩ := heapOrdered_top_max_mem (minCmp_swo e) hi.1 ht
  refine ⟨h1, fun p hp => ?_⟩
  exact (minCmp_false_iff e t p).mp (h2 p hp)

theorem top_data (e : MergingIterator UK) (t : HeapItemPtr) (ht : e.heap_.top = some t) :
    e.heap_.data_ = t :: e.heap_.data_.tail := (top_eq_some_iff e.heap_ t).mp ht

theorem top_none_iff (e : MergingIterator UK) : e.heap_.top = none ↔ e.heap_.data_ = [] := by
  unfold BinaryHeap.top
  cases e.heap_.data_ <;> simp

theorem tail_not_mem_top (e : MergingIterator UK) (t : HeapItemPtr)
    (ht : e.heap_.top = some t) (hn : e.heap_.data_.Nodup) :
    ∀ p ∈ e.heap_.data_.tail, p ≠ t := by
  intro p hp hpt
  have hd := top_data e t ht
  rw [hd] at hn
  subst hpt
  exact (List.nodup_cons.mp hn).1 hp

theorem cpos_eq (e : MergingIterator UK) (l : Nat) : cpos e l = ipos (e.deref (.child l)) := rfl

theorem placePos_getD (n p : Nat) (h : p ≤ n) : (placePos n p).getD n = p := by
  unfold placePos
  split
  · rfl
  · simp; omega

theorem placePos_some {n p i : Nat} (h : placePos n p = some i) : i = p ∧ p < n := by
  unfold placePos at h
  split at h
  · simp at h; exact ⟨h.symm, by assumption⟩
  · simp at h

theorem place_clean (r : List (ParsedInternalKey UK)) (p : Option Nat) (q : Nat) :
    ({ run := r, pos := p } : InternalIterator UK).place q =
      { run := r, pos := placePos r.length q } := by
  unfold InternalIterator.place placePos
  split <;> simp

theorem childAt_pos {l : Nat} {r : List (ParsedInternalKey UK)} {item : HeapItem UK}
    (h : ChildAt l r item) :
    item.iter.iter_ = some { run := r, pos := ipos item } ∧
      item.iter.result_.is_valid = (ipos item).isSome ∧
      ∀ i, ipos item = some i → r[i]? = some item.iter.result_.key := by
  obtain ⟨_, _, p, h1, h2, h3⟩ := h
  have : ipos item = p := by simp [ipos, h1]
  rw [this]
  exact ⟨h1, h2, h3⟩

theorem childAt_valid_iff {l : Nat} {r : List (ParsedInternalKey UK)} {item : HeapItem UK}
    (h : ChildAt l r item) : item.iter.Valid = true ↔ ∃ i, ipos item = some i := by
  obtain ⟨_, h2, _⟩ := childAt_pos h
  unfold IteratorWrapper.Valid
  rw [h2, Option.isSome_iff_exists]

theorem childAt_invalid_iff {l : Nat} {r : List (ParsedInternalKey UK)} {item : HeapItem UK}
    (h : ChildAt l r item) : item.iter.Valid = false ↔ ipos item = none := by
  obtain ⟨_, h2, _⟩ := childAt_pos h
  unfold IteratorWrapper.Valid
  rw [h2]
  cases ipos item <;> simp

theorem childAt_key {l : Nat} {r : List (ParsedInternalKey UK)} {item : HeapItem UK}
    (h : ChildAt l r item) {i : Nat} (hi : ipos item = some i) :
    r[i]? = some item.iter.key ∧ i < r.length := by
  obtain ⟨_, _, h3⟩ := childAt_pos h
  have := h3 i hi
  refine ⟨this, ?_⟩
  by_contra hcon
  rw [List.getElem?_eq_none (by omega)] at this
  simp at this

theorem childAt_heapKey {l : Nat} {r : List (ParsedInternalKey UK)} {item : HeapItem UK}
    (h : ChildAt l r item) : item.heapKey = item.iter.key := by
  unfold HeapItem.heapKey
  simp [h.2.1]

theorem childAt_status {l : Nat} {r : List (ParsedInternalKey UK)} {item : HeapItem UK}
    (h : ChildAt l r item) : item.iter.status = Status.OK := by
  obtain ⟨h1, _, _⟩ := childAt_pos h
  simp [IteratorWrapper.status, h1, InternalIterator.status]

theorem childAt_not_sentinel {l : Nat} {r : List (ParsedInternalKey UK)} {item : HeapItem UK}
    (h : ChildAt l r item) : item.iter.IsDeleteRangeSentinelKey = false := by
  obtain ⟨h1, _, _⟩ := childAt_pos h
  simp only [IteratorWrapper.IsDeleteRangeSentinelKey, h1,
    InternalIterator.IsDeleteRangeSentinelKey]
  cases ipos item <;> simp

theorem childAt_of_clean {l : Nat} {r : List (ParsedInternalKey UK)} {item : HeapItem UK}
    (hl : item.level = l) (ht : item.type = HeapItemType.ITERATOR) (p : Option Nat)
    (hi : item.iter.iter_ = some { run := r, pos := p })
    (hv : item.iter.result_.is_valid = p.isSome)
    (hk : ∀ i, p = some i → r[i]? = some item.iter.result_.key) : ChildAt l r item :=
  ⟨hl, ht, p, hi, hv, hk⟩

/-- The wrapper after a positioning call that leaves a clean iterator at `placePos n q`. -/
theorem update_clean (w : IteratorWrapper UK) (r : List (ParsedInternalKey UK)) (q : Nat) :
    (IteratorWrapper.Update { w with iter_ := some { run := r, pos := placePos r.length q } }).iter_
        = some { run := r, pos := placePos r.length q } ∧
    (IteratorWrapper.Update { w with iter_ := some { run := r, pos := placePos r.length q } }
      ).result_.is_valid = (placePos r.length q).isSome ∧
    ∀ i, placePos r.length q = some i → r[i]? = some
      (IteratorWrapper.Update { w with iter_ := some { run := r, pos := placePos r.length q } }
        ).result_.key := by
  unfold IteratorWrapper.Update
  simp only [InternalIterator.Valid]
  unfold placePos
  by_cases hq : q < r.length
  · simp [hq, InternalIterator.key]
  · simp [hq]

theorem childAt_seek {l : Nat} {r : List (ParsedInternalKey UK)} {item : HeapItem UK}
    (h : ChildAt l r item) (target : ParsedInternalKey UK) :
    ChildAt l r { item with iter := item.iter.Seek target } ∧
      ipos { item with iter := item.iter.Seek target } =
        placePos r.length (r.takeWhile (fun k => Compare k target == .lt)).length := by
  obtain ⟨h1, _, _⟩ := childAt_pos h
  obtain ⟨q, hq⟩ : ∃ q, q = (r.takeWhile (fun k => Compare k target == .lt)).length :=
    ⟨_, rfl⟩
  rw [← hq]
  have hseek : item.iter.Seek target = IteratorWrapper.Update
      { item.iter with iter_ := some { run := r, pos := placePos r.length q } } := by
    simp only [IteratorWrapper.Seek, h1, InternalIterator.Seek, Bool.false_eq_true, ↓reduceIte,
      place_clean, hq]
  obtain ⟨u1, u2, u3⟩ := update_clean item.iter r q
  rw [← hseek] at u1 u2 u3
  refine ⟨childAt_of_clean h.1 h.2.1 _ u1 u2 u3, ?_⟩
  simp [ipos, u1]

theorem childAt_seekToFirst {l : Nat} {r : List (ParsedInternalKey UK)} {item : HeapItem UK}
    (h : ChildAt l r item) :
    ChildAt l r { item with iter := item.iter.SeekToFirst } ∧
      ipos { item with iter := item.iter.SeekToFirst } = placePos r.length 0 := by
  obtain ⟨h1, _, _⟩ := childAt_pos h
  have hseek : item.iter.SeekToFirst = IteratorWrapper.Update { item.iter with
      iter_ := some { run := r, pos := placePos r.length 0 } } := by
    simp only [IteratorWrapper.SeekToFirst, h1, InternalIterator.SeekToFirst, place_clean]
  obtain ⟨u1, u2, u3⟩ := update_clean item.iter r 0
  rw [← hseek] at u1 u2 u3
  refine ⟨childAt_of_clean h.1 h.2.1 _ u1 u2 u3, ?_⟩
  simp [ipos, u1]

theorem childAt_next {l : Nat} {r : List (ParsedInternalKey UK)} {item : HeapItem UK}
    (h : ChildAt l r item) {i : Nat} (hi : ipos item = some i) :
    ChildAt l r { item with iter := item.iter.Next } ∧
      ipos { item with iter := item.iter.Next } = placePos r.length (i + 1) := by
  obtain ⟨h1, _, _⟩ := childAt_pos h
  rw [hi] at h1
  have hn : ({ run := r, pos := some i } : InternalIterator UK).Next =
      { run := r, pos := placePos r.length (i + 1) } := by
    simp only [InternalIterator.Next, place_clean]
  have hiter : (item.iter.Next).iter_ = some { run := r, pos := placePos r.length (i + 1) } := by
    simp only [IteratorWrapper.Next, h1, hn]
    split <;> rfl
  have hvalid : (item.iter.Next).result_.is_valid = (placePos r.length (i + 1)).isSome := by
    simp only [IteratorWrapper.Next, h1, hn, InternalIterator.Valid]
    split
    · rename_i hv; simp [hv]
    · rename_i hv; simp at hv; simp [hv]
  have hkey : ∀ i', placePos r.length (i + 1) = some i' →
      r[i']? = some (item.iter.Next).result_.key := by
    intro i' hi'
    simp only [IteratorWrapper.Next, h1, hn, InternalIterator.Valid, hi', Option.isSome_some,
      ↓reduceIte, InternalIterator.key]
    obtain ⟨h5, h6⟩ := placePos_some hi'
    subst h5
    simp [h6]
  refine ⟨childAt_of_clean h.1 h.2.1 _ hiter hvalid hkey, ?_⟩
  simp [ipos, hiter]

theorem tplace_pos (it : TruncatedRangeDelIterator UK) (q : Nat) :
    (it.place q).pos = placePos it.tombstones.length q ∧
      (it.place q).tombstones = it.tombstones := by
  unfold TruncatedRangeDelIterator.place placePos
  split <;> simp

theorem tseek_pos (it : TruncatedRangeDelIterator UK) (u : UK) :
    (it.Seek u).pos = placePos it.tombstones.length
      (it.tombstones.takeWhile (fun t => compare t.end_key.user_key u != .gt)).length ∧
      (it.Seek u).tombstones = it.tombstones := tplace_pos it _

theorem tseekToFirst_pos (it : TruncatedRangeDelIterator UK) :
    (it.SeekToFirst).pos = placePos it.tombstones.length 0 ∧
      (it.SeekToFirst).tombstones = it.tombstones := tplace_pos it _

theorem tnext_pos (it : TruncatedRangeDelIterator UK) (i : Nat) (hi : it.pos = some i) :
    (it.Next).pos = placePos it.tombstones.length (i + 1) ∧
      (it.Next).tombstones = it.tombstones := by
  unfold TruncatedRangeDelIterator.Next
  rw [hi]
  exact tplace_pos it _

theorem tvalid_iff (it : TruncatedRangeDelIterator UK) :
    it.Valid = true ↔ ∃ i, it.pos = some i := by
  unfold TruncatedRangeDelIterator.Valid
  rw [Option.isSome_iff_exists]

theorem tcur_eq (it : TruncatedRangeDelIterator UK) (i : Nat) (t : RangeTombstone UK)
    (hi : it.pos = some i) (ht : it.tombstones[i]? = some t) : it.cur = t := by
  unfold TruncatedRangeDelIterator.cur
  rw [hi]; simp [ht]

theorem tombs_sorted {ts : List (RangeTombstone UK)} (h : TombsWF ts) {i j : Nat}
    {t1 t2 : RangeTombstone UK} (hij : i < j) (h1 : ts[i]? = some t1) (h2 : ts[j]? = some t2) :
    t1.end_key.user_key ≤ t2.start_key.user_key := by
  have hj : j < ts.length := by
    by_contra hcon; rw [List.getElem?_eq_none (by omega)] at h2; simp at h2
  have hi : i < ts.length := by omega
  rw [List.getElem?_eq_getElem hi] at h1
  rw [List.getElem?_eq_getElem hj] at h2
  simp at h1 h2
  subst h1; subst h2
  exact List.pairwise_iff_getElem.mp h.2 i j hi hj hij

theorem tombs_wf_at {ts : List (RangeTombstone UK)} (h : TombsWF ts) {i : Nat}
    {t : RangeTombstone UK} (h1 : ts[i]? = some t) : TombstoneWF t :=
  h.1 t (List.getElem?_mem h1)

/-- No tombstone covers a user key that all tombstones before index `q` end at or before and
the tombstone at index `q`, if any, starts after. -/
theorem not_covered_of_gap {ts : List (RangeTombstone UK)} (h : TombsWF ts) (q : Nat) (u : UK)
    (hbefore : ∀ t ∈ ts.take q, t.end_key.user_key ≤ u)
    (hat : ∀ t, ts[q]? = some t → u < t.start_key.user_key) :
    ∀ t ∈ ts, ¬ covers t u := by
  intro t ht hc
  obtain ⟨i, hi⟩ := List.mem_iff_getElem?.mp ht
  rcases Nat.lt_trichotomy i q with hlt | heq | hgt
  · have : t ∈ ts.take q := by
      apply List.mem_iff_getElem?.mpr
      exact ⟨i, by rw [List.getElem?_take]; simp [hlt, hi]⟩
    exact absurd hc.2 (not_lt.mpr (hbefore t this))
  · subst heq
    exact absurd hc.1 (not_le.mpr (hat t hi))
  · have hq : q < ts.length := by
      have : i < ts.length := by
        by_contra hcon; rw [List.getElem?_eq_none (by omega)] at hi; simp at hi
      omega
    have h1 := hat _ (List.getElem?_eq_getElem hq)
    have h2 := tombs_sorted h hgt (List.getElem?_eq_getElem hq) hi
    have h3 := (tombs_wf_at h (List.getElem?_eq_getElem hq)).lt
    exact absurd hc.1 (not_le.mpr (lt_of_lt_of_le (lt_trans h1 h3) h2))

/-- A tombstone that covers a user key is the only one of its list that does. -/
theorem covers_unique {ts : List (RangeTombstone UK)} (h : TombsWF ts) {q : Nat}
    {t0 : RangeTombstone UK} (hq : ts[q]? = some t0) {u : UK} (hc : covers t0 u) :
    ∀ t ∈ ts, covers t u → t = t0 := by
  intro t ht hct
  obtain ⟨i, hi⟩ := List.mem_iff_getElem?.mp ht
  rcases Nat.lt_trichotomy i q with hlt | heq | hgt
  · have := tombs_sorted h hlt hi hq
    exact absurd (lt_of_lt_of_le hct.2 this) (not_lt.mpr hc.1)
  · subst heq; rw [hi] at hq; simpa using hq
  · have := tombs_sorted h hgt hq hi
    exact absurd (lt_of_lt_of_le hc.2 this) (not_lt.mpr hct.1)

theorem mem_setInsert (j x : Nat) (l : List Nat) : x ∈ setInsert j l ↔ x = j ∨ x ∈ l := by
  induction l with
  | nil => simp [setInsert]
  | cons a t ih =>
    unfold setInsert
    split
    · simp
    · split
      · rename_i h1 h2; subst h2; simp
      · simp [ih]; tauto

theorem setInsert_sorted (j : Nat) (l : List Nat) (h : l.Pairwise (fun x y => x < y)) :
    (setInsert j l).Pairwise (fun x y => x < y) := by
  induction l with
  | nil => simp [setInsert]
  | cons a t ih =>
    unfold setInsert
    rw [List.pairwise_cons] at h
    split
    · rename_i h1
      rw [List.pairwise_cons]
      refine ⟨?_, List.pairwise_cons.mpr h⟩
      intro x hx
      rcases List.mem_cons.mp hx with hx | hx
      · subst hx; exact h1
      · exact lt_trans h1 (h.1 x hx)
    · split
      · exact List.pairwise_cons.mpr h
      · rename_i h1 h2
        rw [List.pairwise_cons]
        refine ⟨?_, ih h.2⟩
        intro x hx
        rcases (mem_setInsert j x t).mp hx with hx | hx
        · subst hx; omega
        · exact h.1 x hx

theorem sorted_nodup {l : List Nat} (h : l.Pairwise (fun x y => x < y)) : l.Nodup :=
  h.imp (fun hxy => Nat.ne_of_lt hxy)

theorem mem_erase_sorted {l : List Nat} (h : l.Pairwise (fun x y => x < y)) (j x : Nat) :
    x ∈ l.erase j ↔ x ≠ j ∧ x ∈ l :=
  (sorted_nodup h).mem_erase_iff

theorem erase_sorted {l : List Nat} (h : l.Pairwise (fun x y => x < y)) (j : Nat) :
    (l.erase j).Pairwise (fun x y => x < y) :=
  h.sublist (List.erase_sublist j l)

theorem head_sorted_min {l : List Nat} (h : l.Pairwise (fun x y => x < y)) {i : Nat}
    (hi : l.head? = some i) : i ∈ l ∧ ∀ x ∈ l, i ≤ x := by
  cases l with
  | nil => simp at hi
  | cons a t =>
    simp at hi; subst hi
    rw [List.pairwise_cons] at h
    refine ⟨List.mem_cons_self _ _, ?_⟩
    intro x hx
    rcases List.mem_cons.mp hx with hx | hx
    · omega
    · exact Nat.le_of_lt (h.1 x hx)

theorem insert_eq (e : MergingIterator UK) (j : Nat) (start rep : Bool)
    (hub : e.iterate_upper_bound_ = none) :
    e.InsertRangeTombstoneToMinHeap j start rep =
      if rep then (stampPinned e j start).minReplaceTop (.pinned j)
      else (stampPinned e j start).minPush (.pinned j) := by
  unfold InsertRangeTombstoneToMinHeap stampPinned
  simp only [hub, Bool.false_eq_true, ↓reduceIte, deref]

@[simp] theorem stamp_children (e : MergingIterator UK) (j : Nat) (start : Bool) :
    (stampPinned e j start).children_ = e.children_ := by
  unfold stampPinned; split <;> rfl

@[simp] theorem stamp_rtis (e : MergingIterator UK) (j : Nat) (start : Bool) :
    (stampPinned e j start).range_tombstone_iters_ = e.range_tombstone_iters_ := by
  unfold stampPinned; split <;> rfl

@[simp] theorem stamp_rti (e : MergingIterator UK) (j : Nat) (start : Bool) (i : Nat) :
    (stampPinned e j start).rti i = e.rti i := rti_eq_of_iters _ _ (stamp_rtis e j start) i

@[simp] theorem stamp_status (e : MergingIterator UK) (j : Nat) (start : Bool) :
    (stampPinned e j start).status_ = e.status_ := by
  unfold stampPinned; split <;> rfl

@[simp] theorem stamp_upper (e : MergingIterator UK) (j : Nat) (start : Bool) :
    (stampPinned e j start).iterate_upper_bound_ = e.iterate_upper_bound_ := by
  unfold stampPinned; split <;> rfl

@[simp] theorem stamp_heap (e : MergingIterator UK) (j : Nat) (start : Bool) :
    (stampPinned e j start).heap_ = e.heap_ := by
  unfold stampPinned; split <;> rfl

@[simp] theorem stamp_pinned_len (e : MergingIterator UK) (j : Nat) (start : Bool) :
    (stampPinned e j start).pinned_heap_item_.length = e.pinned_heap_item_.length := by
  unfold stampPinned; split <;> simp [store]

@[simp] theorem stamp_direction (e : MergingIterator UK) (j : Nat) (start : Bool) :
    (stampPinned e j start).direction_ = e.direction_ := by
  unfold stampPinned; split <;> rfl

theorem stamp_active (e : MergingIterator UK) (j : Nat) (start : Bool) :
    (stampPinned e j start).active_ = if start then e.active_ else setInsert j e.active_ := by
  unfold stampPinned; split <;> rfl

theorem stamp_deref_ne (e : MergingIterator UK) (j : Nat) (start : Bool) (p : HeapItemPtr)
    (hp : p ≠ .pinned j) : (stampPinned e j start).deref p = e.deref p := by
  unfold stampPinned
  split
  · exact deref_store_pinned_ne e j _ p hp
  · rw [deref_set_active]; exact deref_store_pinned_ne e j _ p hp

theorem stamp_deref_self (e : MergingIterator UK) (j : Nat) (start : Bool)
    (hj : j < e.pinned_heap_item_.length) :
    (stampPinned e j start).deref (.pinned j) =
      { (e.deref (.pinned j)).SetTombstoneKey
          (if start then (e.rti j).start_key else (e.rti j).end_key) with
        type := if start then HeapItemType.DELETE_RANGE_START
                else HeapItemType.DELETE_RANGE_END } := by
  unfold stampPinned
  split
  · rw [deref_store_pinned_self e j _ hj]
  · rw [deref_set_active, deref_store_pinned_self e j _ hj]

theorem stamp_deref_child (e : MergingIterator UK) (j : Nat) (start : Bool) (l : Nat) :
    (stampPinned e j start).deref (.child l) = e.deref (.child l) :=
  stamp_deref_ne e j start _ (by simp)

/-- The key that the stamped boundary item shows to the comparator. -/
theorem stamp_hkey_self (e : MergingIterator UK) (j : Nat) (start : Bool)
    (hj : j < e.pinned_heap_item_.length) :
    hkey (stampPinned e j start) (.pinned j) =
      ⟨(if start then (e.rti j).start_key else (e.rti j).end_key).user_key,
       (if start then (e.rti j).start_key else (e.rti j).end_key).sequence,
       (e.deref (.pinned j)).parsed_ikey.type⟩ := by
  unfold hkey
  rw [stamp_deref_self e j start hj]
  unfold HeapItem.heapKey HeapItem.SetTombstoneKey
  cases start <;> simp

theorem base_of_eq {runs : List (List (ParsedInternalKey UK))}
    {tombs : List (Option (List (RangeTombstone UK)))} {e e' : MergingIterator UK}
    (hb : Base runs tombs e) (h1 : e'.children_ = e.children_)
    (h2 : e'.range_tombstone_iters_ = e.range_tombstone_iters_)
    (h3 : e'.pinned_heap_item_ = e.pinned_heap_item_) (h4 : e'.status_ = Status.OK)
    (h5 : e'.iterate_upper_bound_ = none) : Base runs tombs e' := by
  have hd : ∀ p, e'.deref p = e.deref p := deref_eq_of_items e e' h1 h3
  have hr : ∀ j, e'.rti j = e.rti j := rti_eq_of_iters e e' h2
  exact
    { wf := hb.wf
      children_len := by rw [h1]; exact hb.children_len
      rti_len := by rw [h2]; exact hb.rti_len
      pinned_len := by rw [h3]; exact hb.pinned_len
      child_at := fun l hl => by rw [hd]; exact hb.child_at l hl
      rti_slot := fun j hj => by rw [h2]; exact hb.rti_slot j hj
      rti_tombs := fun j hj => by rw [hr]; exact hb.rti_tombs j hj
      rti_pos := fun j i hj hi => by rw [hr] at hi; exact hb.rti_pos j i hj hi
      pinned_at := fun j hj => by rw [hd]; exact hb.pinned_at j hj
      status_ok := h4
      no_upper_bound := h5 }

theorem base_minPush {runs : List (List (ParsedInternalKey UK))}
    {tombs : List (Option (List (RangeTombstone UK)))} {e : MergingIterator UK}
    (hb : Base runs tombs e) (p : HeapItemPtr) : Base runs tombs (e.minPush p) :=
  base_of_eq hb rfl rfl rfl hb.status_ok hb.no_upper_bound

theorem base_minPop {runs : List (List (ParsedInternalKey UK))}
    {tombs : List (Option (List (RangeTombstone UK)))} {e : MergingIterator UK}
    (hb : Base runs tombs e) : Base runs tombs e.minPop :=
  base_of_eq hb rfl rfl rfl hb.status_ok hb.no_upper_bound

theorem base_minReplaceTop {runs : List (List (ParsedInternalKey UK))}
    {tombs : List (Option (List (RangeTombstone UK)))} {e : MergingIterator UK}
    (hb : Base runs tombs e) (p : HeapItemPtr) : Base runs tombs (e.minReplaceTop p) :=
  base_of_eq hb rfl rfl rfl hb.status_ok hb.no_upper_bound

theorem base_minUpdateTop {runs : List (List (ParsedInternalKey UK))}
    {tombs : List (Option (List (RangeTombstone UK)))} {e : MergingIterator UK}
    (hb : Base runs tombs e) : Base runs tombs e.minUpdateTop :=
  base_of_eq hb rfl rfl rfl hb.status_ok hb.no_upper_bound

theorem base_set_active {runs : List (List (ParsedInternalKey UK))}
    {tombs : List (Option (List (RangeTombstone UK)))} {e : MergingIterator UK}
    (hb : Base runs tombs e) (a : List Nat) :
    Base runs tombs ({ e with active_ := a } : MergingIterator UK) :=
  base_of_eq hb rfl rfl rfl hb.status_ok hb.no_upper_bound

theorem base_ClearHeaps {runs : List (List (ParsedInternalKey UK))}
    {tombs : List (Option (List (RangeTombstone UK)))} {e : MergingIterator UK}
    (hb : Base runs tombs e) (b : Bool) : Base runs tombs (e.ClearHeaps b) :=
  base_of_eq hb rfl rfl rfl hb.status_ok hb.no_upper_bound

theorem base_stamp {runs : List (List (ParsedInternalKey UK))}
    {tombs : List (Option (List (RangeTombstone UK)))} {e : MergingIterator UK}
    (hb : Base runs tombs e) (j : Nat) (start : Bool) (hj : j < runs.length) :
    Base runs tombs (stampPinned e j start) := by
  have hjp : j < e.pinned_heap_item_.length := by rw [hb.pinned_len]; exact hj
  exact
    { wf := hb.wf
      children_len := by rw [stamp_children]; exact hb.children_len
      rti_len := by rw [stamp_rtis]; exact hb.rti_len
      pinned_len := by rw [stamp_pinned_len]; exact hb.pinned_len
      child_at := fun l hl => by rw [stamp_deref_child]; exact hb.child_at l hl
      rti_slot := fun i hi => by rw [stamp_rtis]; exact hb.rti_slot i hi
      rti_tombs := fun i hi => by rw [stamp_rti]; exact hb.rti_tombs i hi
      rti_pos := fun i q hi hq => by rw [stamp_rti] at hq; exact hb.rti_pos i q hi hq
      pinned_at := fun i hi => by
        by_cases hij : i = j
        · subst hij
          rw [stamp_deref_self e i start hjp]
          exact ⟨(hb.pinned_at i hi).1, (hb.pinned_at i hi).2⟩
        · rw [stamp_deref_ne e j start _ (by simpa using hij)]
          exact hb.pinned_at i hi
      status_ok := by rw [stamp_status]; exact hb.status_ok
      no_upper_bound := by rw [stamp_upper]; exact hb.no_upper_bound }

theorem base_setRti {runs : List (List (ParsedInternalKey UK))}
    {tombs : List (Option (List (RangeTombstone UK)))} {e : MergingIterator UK}
    (hb : Base runs tombs e) (j : Nat) (it : TruncatedRangeDelIterator UK)
    (hj : j < runs.length) (hslot : (e.range_tombstone_iters_[j]?.getD none).isSome = true)
    (ht : it.tombstones = tombsAt tombs j)
    (hp : ∀ i, it.pos = some i → i < (tombsAt tombs j).length) :
    Base runs tombs (e.setRti j it) := by
  have hjr : j < e.range_tombstone_iters_.length := by rw [hb.rti_len]; exact hj
  exact
    { wf := hb.wf
      children_len := hb.children_len
      rti_len := by simp [setRti, hb.rti_len]
      pinned_len := hb.pinned_len
      child_at := fun l hl => by rw [deref_setRti]; exact hb.child_at l hl
      rti_slot := fun i hi => by
        by_cases hij : j = i
        · subst hij
          rw [← hb.rti_slot j hi, hslot]
          simp [setRti, hjr]
        · simp only [setRti, List.getElem?_set_ne hij]
          exact hb.rti_slot i hi
      rti_tombs := fun i hi => by
        by_cases hij : j = i
        · subst hij; rw [rti_setRti_self e j it hjr]; exact ht
        · rw [rti_setRti_ne e j i it hij]; exact hb.rti_tombs i hi
      rti_pos := fun i q hi hq => by
        by_cases hij : j = i
        · subst hij; rw [rti_setRti_self e j it hjr] at hq; exact hp q hq
        · rw [rti_setRti_ne e j i it hij] at hq; exact hb.rti_pos i q hi hq
      pinned_at := fun i hi => by rw [deref_setRti]; exact hb.pinned_at i hi
      status_ok := hb.status_ok
      no_upper_bound := hb.no_upper_bound }

theorem base_updIter {runs : List (List (ParsedInternalKey UK))}
    {tombs : List (Option (List (RangeTombstone UK)))} {e : MergingIterator UK}
    (hb : Base runs tombs e) (l : Nat) (f : IteratorWrapper UK → IteratorWrapper UK)
    (hl : l < runs.length)
    (hf : ChildAt l (runAt runs l)
      { e.deref (.child l) with iter := f (e.deref (.child l)).iter }) :
    Base runs tombs (e.updIter (.child l) f) := by
  have hlc : l < e.children_.length := by rw [hb.children_len]; exact hl
  exact
    { wf := hb.wf
      children_len := by simp [updIter, hb.children_len]
      rti_len := by simp [updIter, hb.rti_len]
      pinned_len := by simp [updIter, store, hb.pinned_len]
      child_at := fun i hi => by
        by_cases hil : i = l
        · subst hil; rw [deref_updIter_child_self e i f hlc]; exact hf
        · rw [deref_updIter_child_ne e l f _ (by simpa using hil)]; exact hb.child_at i hi
      rti_slot := fun i hi => by simp only [updIter, store_child_rti]; exact hb.rti_slot i hi
      rti_tombs := fun i hi => by rw [rti_updIter]; exact hb.rti_tombs i hi
      rti_pos := fun i q hi hq => by rw [rti_updIter] at hq; exact hb.rti_pos i q hi hq
      pinned_at := fun i hi => by
        rw [deref_updIter_child_ne e l f _ (by simp)]; exact hb.pinned_at i hi
      status_ok := by simp [updIter, hb.status_ok]
      no_upper_bound := by simp [updIter, store, hb.no_upper_bound] }

theorem base_rti_none {runs : List (List (ParsedInternalKey UK))}
    {tombs : List (Option (List (RangeTombstone UK)))} {e : MergingIterator UK}
    (hb : Base runs tombs e) (j : Nat) (hj : j < runs.length)
    (hslot : (e.range_tombstone_iters_[j]?.getD none).isSome = false) :
    (e.rti j).Valid = false := by
  unfold rti
  cases hs : e.range_tombstone_iters_[j]?.getD none with
  | none => rfl
  | some it => rw [hs] at hslot; simp at hslot

theorem base_rti_slot_of_valid {e : MergingIterator UK}
    (j : Nat) (hv : (e.rti j).Valid = true) :
    e.range_tombstone_iters_[j]?.getD none = some (e.rti j) := by
  unfold rti at hv ⊢
  cases hs : e.range_tombstone_iters_[j]?.getD none with
  | none =>
    rw [hs] at hv
    have : (default : TruncatedRangeDelIterator UK).Valid = false := rfl
    simp [this] at hv
  | some it => rfl

/-- The current tombstone of a valid tombstone iterator. -/
theorem base_cur {runs : List (List (ParsedInternalKey UK))}
    {tombs : List (Option (List (RangeTombstone UK)))} {e : MergingIterator UK}
    (hb : Base runs tombs e) (j : Nat) (hj : j < runs.length) (hv : (e.rti j).Valid = true) :
    ∃ q, (e.rti j).pos = some q ∧ tombIdx e j = q ∧ q < (tombsAt tombs j).length ∧
      (tombsAt tombs j)[q]? = some (e.rti j).cur ∧ TombstoneWF (e.rti j).cur := by
  obtain ⟨q, hq⟩ := (tvalid_iff _).mp hv
  have hlt := hb.rti_pos j q hj hq
  have hcur : (tombsAt tombs j)[q]? = some (e.rti j).cur := by
    unfold TruncatedRangeDelIterator.cur
    rw [hq, hb.rti_tombs j hj]
    simp [hlt]
  refine ⟨q, hq, ?_, hlt, hcur, tombs_wf_at (hb.wf.tombs_wf j) hcur⟩
  simp [tombIdx, hq]

theorem base_ckey {runs : List (List (ParsedInternalKey UK))}
    {tombs : List (Option (List (RangeTombstone UK)))} {e : MergingIterator UK}
    (hb : Base runs tombs e) (l : Nat) (hl : l < runs.length) (hv : cvalid e l = true) :
    ∃ i, cpos e l = some i ∧ childIdx runs e l = i ∧ i < (runAt runs l).length ∧
      (runAt runs l)[i]? = some (ckey e l) ∧ (ckey e l).sequence < kMaxSequenceNumber ∧
      hkey e (.child l) = ckey e l := by
  have hc := hb.child_at l hl
  obtain ⟨i, hi⟩ := (childAt_valid_iff hc).mp hv
  obtain ⟨h1, h2⟩ := childAt_key hc hi
  refine ⟨i, hi, ?_, h2, h1, ?_, childAt_heapKey hc⟩
  · simp [childIdx, cpos_eq, hi]
  · have hr : runAt runs l ∈ runs := by
      unfold runAt
      rw [List.getElem?_eq_getElem hl]
      simp
    exact hb.wf.seq_lt _ hr _ (List.getElem?_mem h1)

theorem base_sorted {runs : List (List (ParsedInternalKey UK))}
    {tombs : List (Option (List (RangeTombstone UK)))} {e : MergingIterator UK}
    (hb : Base runs tombs e) (l : Nat) : SortedRun (runAt runs l) := by
  unfold runAt
  by_cases hl : l < runs.length
  · rw [List.getElem?_eq_getElem hl]
    exact hb.wf.sorted _ (by simp)
  · rw [List.getElem?_eq_none (by omega)]
    simp [SortedRun]

theorem base_seq_lt {runs : List (List (ParsedInternalKey UK))}
    {tombs : List (Option (List (RangeTombstone UK)))} {e : MergingIterator UK}
    (hb : Base runs tombs e) (l idx : Nat) (r : ParsedInternalKey UK)
    (hr : (runAt runs l)[idx]? = some r) : r.sequence < kMaxSequenceNumber := by
  unfold runAt at hr
  by_cases hl : l < runs.length
  · rw [List.getElem?_eq_getElem hl] at hr
    exact hb.wf.seq_lt _ (by simp) _ (List.getElem?_mem hr)
  · have hn : runs[l]? = none := List.getElem?_eq_none (by omega)
    rw [hn] at hr
    simp at hr

theorem childIdx_le {runs : List (List (ParsedInternalKey UK))}
    {tombs : List (Option (List (RangeTombstone UK)))} {e : MergingIterator UK}
    (hb : Base runs tombs e) (l : Nat) (hl : l < runs.length) :
    childIdx runs e l ≤ (runAt runs l).length := by
  unfold childIdx
  cases hp : cpos e l with
  | none => simp
  | some i =>
    simp
    have hc := hb.child_at l hl
    rw [cpos_eq] at hp
    exact Nat.le_of_lt (childAt_key hc hp).2

theorem childIdx_invalid {runs : List (List (ParsedInternalKey UK))}
    {tombs : List (Option (List (RangeTombstone UK)))} {e : MergingIterator UK}
    (hb : Base runs tombs e) (l : Nat) (hl : l < runs.length) (hv : cvalid e l = false) :
    childIdx runs e l = (runAt runs l).length := by
  have hc := hb.child_at l hl
  have := (childAt_invalid_iff hc).mp hv
  simp [childIdx, cpos_eq, this]

/-- The key of a valid boundary item. -/
theorem pinned_hkey {runs : List (List (ParsedInternalKey UK))}
    {tombs : List (Option (List (RangeTombstone UK)))} {e : MergingIterator UK}
    (hb : Base runs tombs e) (j : Nat) (hj : j < runs.length) (hc : PinnedCoherent e j) :
    ((e.deref (.pinned j)).type = HeapItemType.DELETE_RANGE_START ∧
      hkey e (.pinned j) = ⟨(e.rti j).start_key.user_key, kMaxSequenceNumber, kTypeMaxValid⟩) ∨
    ((e.deref (.pinned j)).type = HeapItemType.DELETE_RANGE_END ∧
      hkey e (.pinned j) = ⟨(e.rti j).end_key.user_key, kMaxSequenceNumber, kTypeMaxValid⟩) := by
  have hty := (hb.pinned_at j hj).2
  rcases hc with ⟨h1, h2, h3⟩ | ⟨h1, h2, h3⟩
  · left
    refine ⟨h1, ?_⟩
    unfold hkey HeapItem.heapKey
    rw [h1, ← h2, ← h3, ← hty]
    simp
  · right
    refine ⟨h1, ?_⟩
    unfold hkey HeapItem.heapKey
    rw [h1, ← h2, ← h3, ← hty]
    simp

theorem pinnedCoherent_congr {e e' : MergingIterator UK} {j : Nat}
    (hd : e'.deref (.pinned j) = e.deref (.pinned j)) (hr : e'.rti j = e.rti j)
    (h : PinnedCoherent e j) : PinnedCoherent e' j := by
  unfold PinnedCoherent at h ⊢
  rw [hd, hr]
  exact h

theorem tombPart_of_eq {c : Nat} {e e' : MergingIterator UK} (ht : TombPart c e)
    (hd : ∀ j, e'.deref (.pinned j) = e.deref (.pinned j)) (hr : ∀ j, e'.rti j = e.rti j)
    (ha : e'.active_ = e.active_) : TombPart c e' :=
  { pinned_key := fun j hj hv => by
      rw [hr] at hv
      exact pinnedCoherent_congr (hd j) (hr j) (ht.pinned_key j hj hv)
    active_iff := fun j => by rw [ha, hd, hr]; exact ht.active_iff j
    active_sorted := by rw [ha]; exact ht.active_sorted }

theorem tombPart_stamp {runs : List (List (ParsedInternalKey UK))}
    {tombs : List (Option (List (RangeTombstone UK)))} {e : MergingIterator UK} {c : Nat}
    (hb : Base runs tombs e) (ht : TombPart c e) (j : Nat) (start : Bool)
    (hj : j < runs.length) (hv : (e.rti j).Valid = true)
    (hs : start = true → j ∉ e.active_) (c' : Nat) (hc1 : c ≤ c') (hc2 : j < c')
    (hc3 : ∀ i, c ≤ i → i < c' → i = j) : TombPart c' (stampPinned e j start) := by
  have hjp : j < e.pinned_heap_item_.length := by rw [hb.pinned_len]; exact hj
  obtain ⟨q, _, _, _, _, hwf⟩ := base_cur hb j hj hv
  have hself : PinnedCoherent (stampPinned e j start) j := by
    unfold PinnedCoherent
    rw [stamp_deref_self e j start hjp, stamp_rti]
    cases start
    · right
      simp only [Bool.false_eq_true, ↓reduceIte, HeapItem.SetTombstoneKey, true_and]
      exact hwf.end_seq
    · left
      simp only [↓reduceIte, HeapItem.SetTombstoneKey, true_and]
      exact hwf.start_seq
  have hself_ty : ((stampPinned e j start).deref (.pinned j)).type =
      if start then HeapItemType.DELETE_RANGE_START else HeapItemType.DELETE_RANGE_END := by
    rw [stamp_deref_self e j start hjp]
  have hother : ∀ i, i ≠ j → ((i < c' ∧ ((stampPinned e j start).rti i).Valid = true ∧
      ((stampPinned e j start).deref (.pinned i)).type = HeapItemType.DELETE_RANGE_END) ↔
      i ∈ e.active_) := by
    intro i hij
    rw [stamp_rti, stamp_deref_ne e j start _ (by simpa using hij), ht.active_iff i]
    constructor
    · rintro ⟨h1, h2, h3⟩
      refine ⟨?_, h2, h3⟩
      by_contra hcon
      exact hij (hc3 i (by omega) h1)
    · rintro ⟨h1, h2, h3⟩
      exact ⟨by omega, h2, h3⟩
  refine ⟨?_, ?_, ?_⟩
  · intro i hi hvi
    by_cases hij : i = j
    · subst hij; exact hself
    · rw [stamp_rti] at hvi
      have hic : i < c := by
        by_contra hcon
        exact hij (hc3 i (by omega) hi)
      exact pinnedCoherent_congr (stamp_deref_ne e j start _ (by simpa using hij))
        (stamp_rti e j start i) (ht.pinned_key i hic hvi)
  · intro i
    rw [stamp_active]
    by_cases hij : i = j
    · subst hij
      rw [hself_ty, stamp_rti]
      cases start
      · simp [mem_setInsert, hc2, hv]
      · simp [hs rfl]
    · rw [hother i hij]
      cases start
      · simp [mem_setInsert, hij]
      · simp
  · rw [stamp_active]
    cases start
    · exact setInsert_sorted j _ ht.active_sorted
    · exact ht.active_sorted

theorem heapPart_mem {a b : Nat} {e : MergingIterator UK} (hh : HeapPart a b e)
    (p : HeapItemPtr) : p ∈ e.heap_.data_ ↔ InHeapSpec a b e p := by
  cases p with
  | child l => exact hh.mem_child l
  | pinned j => exact hh.mem_pinned j

theorem heapPart_of_mem {a b : Nat} {e : MergingIterator UK} (hn : e.heap_.data_.Nodup)
    (hm : ∀ p, p ∈ e.heap_.data_ ↔ InHeapSpec a b e p) (hi : HeapInv e.minCmp e.heap_) :
    HeapPart a b e :=
  { nodup := hn
    mem_child := fun l => hm (.child l)
    mem_pinned := fun j => hm (.pinned j)
    inv := hi }

/-- An entry that is not in the heap yet is pushed. -/
theorem heapPart_push {a b a' b' : Nat} {e : MergingIterator UK} (hh : HeapPart a b e)
    (p : HeapItemPtr) (hp : ¬ InHeapSpec a b e p)
    (hspec : ∀ q, InHeapSpec a' b' e q ↔ q = p ∨ InHeapSpec a b e q) :
    HeapPart a' b' (e.minPush p) := by
  obtain ⟨hinv, hperm⟩ := minPush_heap e p hh.inv
  have hpn : p ∉ e.heap_.data_ := fun hmem => hp ((heapPart_mem hh p).mp hmem)
  apply heapPart_of_mem
  · exact (hperm.nodup_iff).mpr (List.nodup_cons.mpr ⟨hpn, hh.nodup⟩)
  · intro q
    rw [hperm.mem_iff, List.mem_cons, heapPart_mem hh q]
    have : InHeapSpec a' b' (e.minPush p) q ↔ InHeapSpec a' b' e q := by
      cases q <;> simp [InHeapSpec]
    rw [this, hspec q]
  · exact hinv

/-- The heap is not touched, and the entries it is to hold stay the same. -/
theorem heapPart_frame {a b a' b' : Nat} {e e' : MergingIterator UK} (hh : HeapPart a b e)
    (hheap : e'.heap_ = e.heap_)
    (hd : ∀ p, InHeapSpec a b e p → e'.deref p = e.deref p)
    (hspec : ∀ q, InHeapSpec a' b' e' q ↔ InHeapSpec a b e q) :
    HeapPart a' b' e' := by
  apply heapPart_of_mem
  · rw [hheap]; exact hh.nodup
  · intro q; rw [hheap, heapPart_mem hh q, hspec q]
  · exact heapInv_frame e e' hheap (fun p hp => hd p ((heapPart_mem hh p).mp hp)) hh.inv

/-- The item of the top entry has changed and the entry stays: `update_top`. -/
theorem heapPart_update_top {a b : Nat} {e e' : MergingIterator UK} (hh : HeapPart a b e)
    (t : HeapItemPtr) (ht : e.heap_.top = some t) (hheap : e'.heap_ = e.heap_)
    (hd : ∀ p, p ≠ t → e'.deref p = e.deref p)
    (hspec : ∀ q, InHeapSpec a b e' q ↔ InHeapSpec a b e q) :
    HeapPart a b e'.minUpdateTop ∧ e'.minUpdateTop.heap_.data_.Perm e.heap_.data_ := by
  have hdata := top_data e t ht
  obtain ⟨hb, hc⟩ := heapBelow_frame e e' hheap
    (fun p hp => hd p (tail_not_mem_top e t ht hh.nodup p hp)) hh.inv
  have hne : e'.heap_.data_ ≠ [] := by rw [hheap, hdata]; simp
  obtain ⟨hinv, hperm⟩ := minUpdateTop_heap e' hne hb hc
  rw [hheap] at hperm
  refine ⟨?_, hperm⟩
  apply heapPart_of_mem
  · exact hperm.nodup_iff.mpr hh.nodup
  · intro q
    rw [hperm.mem_iff, heapPart_mem hh q, ← hspec q]
    cases q <;> simp [InHeapSpec]
  · exact hinv

/-- The item of the top entry has changed and the entry leaves: `pop`. -/
theorem heapPart_pop {a b : Nat} {e e' : MergingIterator UK} (hh : HeapPart a b e)
    (t : HeapItemPtr) (ht : e.heap_.top = some t) (hheap : e'.heap_ = e.heap_)
    (hd : ∀ p, p ≠ t → e'.deref p = e.deref p)
    (hspec : ∀ q, InHeapSpec a b e' q ↔ q ≠ t ∧ InHeapSpec a b e q) :
    HeapPart a b e'.minPop ∧ e'.minPop.heap_.data_.Perm e.heap_.data_.tail := by
  have hdata := top_data e t ht
  obtain ⟨hb, hc⟩ := heapBelow_frame e e' hheap
    (fun p hp => hd p (tail_not_mem_top e t ht hh.nodup p hp)) hh.inv
  obtain ⟨hinv, hperm⟩ := minPop_heap e' hb hc
  rw [hheap] at hperm
  have hnd : (t :: e.heap_.data_.tail).Nodup := by rw [← hdata]; exact hh.nodup
  refine ⟨?_, hperm⟩
  apply heapPart_of_mem
  · exact hperm.nodup_iff.mpr (List.nodup_cons.mp hnd).2
  · intro q
    have h1 : InHeapSpec a b e'.minPop q ↔ InHeapSpec a b e' q := by
      cases q <;> simp [InHeapSpec]
    rw [hperm.mem_iff, h1, hspec q, ← heapPart_mem hh q]
    constructor
    · intro hq
      refine ⟨?_, List.mem_of_mem_tail hq⟩
      intro hqt; subst hqt
      exact (List.nodup_cons.mp hnd).1 hq
    · rintro ⟨hqt, hq⟩
      rw [hdata] at hq
      rcases List.mem_cons.mp hq with h | h
      · exact absurd h hqt
      · exact h
  · exact hinv

theorem cvalid_congr {e e' : MergingIterator UK} {l : Nat}
    (h : e'.deref (.child l) = e.deref (.child l)) : cvalid e' l = cvalid e l := by
  unfold cvalid; rw [h]

theorem ckey_congr {e e' : MergingIterator UK} {l : Nat}
    (h : e'.deref (.child l) = e.deref (.child l)) : ckey e' l = ckey e l := by
  unfold ckey; rw [h]

theorem childIdx_congr {runs : List (List (ParsedInternalKey UK))} {e e' : MergingIterator UK}
    {l : Nat} (h : e'.deref (.child l) = e.deref (.child l)) :
    childIdx runs e' l = childIdx runs e l := by
  unfold childIdx cpos; rw [h]

theorem tombIdx_congr {e e' : MergingIterator UK} {j : Nat} (h : e'.rti j = e.rti j) :
    tombIdx e' j = tombIdx e j := by
  unfold tombIdx; rw [h]

theorem tau_congr {e e' : MergingIterator UK} {j : Nat} (h : e'.rti j = e.rti j)
    (hd : e'.deref (.pinned j) = e.deref (.pinned j)) : tau e' j = tau e j := by
  unfold tau tombIdx; rw [h, hd]

theorem hkey_congr {e e' : MergingIterator UK} {p : HeapItemPtr}
    (h : e'.deref p = e.deref p) : hkey e' p = hkey e p := by
  unfold hkey; rw [h]

theorem visRem_congr {runs : List (List (ParsedInternalKey UK))}
    {tombs : List (Option (List (RangeTombstone UK)))} {e e' : MergingIterator UK}
    (h : ∀ l, e'.deref (.child l) = e.deref (.child l)) :
    visRem runs tombs e' = visRem runs tombs e := by
  unfold visRem
  congr 1
  funext l
  rw [childIdx_congr (h l)]

theorem passedTombs_congr {runs : List (List (ParsedInternalKey UK))}
    {tombs : List (Option (List (RangeTombstone UK)))} {e e' : MergingIterator UK}
    (hp : PassedTombs runs tombs e)
    (hc : ∀ l, e'.deref (.child l) = e.deref (.child l)) (hr : ∀ j, e'.rti j = e.rti j) :
    PassedTombs runs tombs e' := by
  intro j L hjL hL hv t ht
  rw [cvalid_congr (hc L)] at hv
  rw [tombIdx_congr (hr j)] at ht
  rw [ckey_congr (hc L)]
  exact hp j L hjL hL hv t ht

theorem passedRecords_congr {runs : List (List (ParsedInternalKey UK))}
    {tombs : List (Option (List (RangeTombstone UK)))} {e e' : MergingIterator UK}
    {B : ParsedInternalKey UK} (hp : PassedRecords runs tombs B e)
    (hc : ∀ l, e'.deref (.child l) = e.deref (.child l)) :
    PassedRecords runs tombs B e' := by
  intro l idx r hl hidx hr hB
  rw [childIdx_congr (hc l)] at hidx
  exact hp l idx r hl hidx hr hB

theorem struct_top {runs : List (List (ParsedInternalKey UK))}
    {tombs : List (Option (List (RangeTombstone UK)))} {e : MergingIterator UK}
    (hs : Struct runs tombs e) {t : HeapItemPtr} (ht : e.heap_.top = some t) :
    InHeapSpec runs.length runs.length e t ∧
      ∀ p, InHeapSpec runs.length runs.length e p → keyLe (hkey e t) (hkey e p) := by
  obtain ⟨h1, h2⟩ := top_min e hs.heap.inv t ht
  exact ⟨(heapPart_mem hs.heap t).mp h1, fun p hp => h2 p ((heapPart_mem hs.heap p).mpr hp)⟩

theorem struct_child_type {runs : List (List (ParsedInternalKey UK))}
    {tombs : List (Option (List (RangeTombstone UK)))} {e : MergingIterator UK}
    (hs : Struct runs tombs e) {l : Nat} (hl : l < runs.length) :
    (e.deref (.child l)).type = HeapItemType.ITERATOR ∧ (e.deref (.child l)).level = l :=
  ⟨(hs.base.child_at l hl).2.1, (hs.base.child_at l hl).1⟩

/-- The first kind of step of the visibility loop: the start of a tombstone is on top of the
heap and is replaced by the end of the tombstone, which becomes active. -/
theorem popStart_step {runs : List (List (ParsedInternalKey UK))}
    {tombs : List (Option (List (RangeTombstone UK)))} {e : MergingIterator UK}
    (hf : FwdT runs tombs e) {t : HeapItemPtr} (ht : e.heap_.top = some t)
    (hty : (e.deref t).type = HeapItemType.DELETE_RANGE_START) :
    ∃ j, t = .pinned j ∧ j < runs.length ∧ (e.rti j).Valid = true ∧
      FwdT runs tombs (e.InsertRangeTombstoneToMinHeap (e.deref t).level false true) ∧
      (∀ p, p ≠ .pinned j →
        (e.InsertRangeTombstoneToMinHeap (e.deref t).level false true).deref p = e.deref p) ∧
      (∀ i, (e.InsertRangeTombstoneToMinHeap (e.deref t).level false true).rti i = e.rti i) ∧
      (e.InsertRangeTombstoneToMinHeap (e.deref t).level false true).heap_.data_.Perm
        e.heap_.data_ ∧
      ((e.InsertRangeTombstoneToMinHeap (e.deref t).level false true).deref (.pinned j)).type =
        HeapItemType.DELETE_RANGE_END := by
  have hs := hf.struct
  obtain ⟨hspec, hmin⟩ := struct_top hs ht
  cases t with
  | child l =>
    have := (struct_child_type hs hspec.1).1
    rw [this] at hty
    exact absurd hty (by decide)
  | pinned j =>
    obtain ⟨hj, hv⟩ := hspec
    have hjp : j < e.pinned_heap_item_.length := by rw [hs.base.pinned_len]; exact hj
    have hlevel : (e.deref (.pinned j)).level = j := (hs.base.pinned_at j hj).1
    rw [hlevel, insert_eq e j false true hs.base.no_upper_bound]
    simp only [↓reduceIte]
    have htop1 : (stampPinned e j false).heap_.top = some (.pinned j) := by
      rw [stamp_heap]; exact ht
    rw [minReplaceTop_top _ _ htop1]
    obtain ⟨e1, he1⟩ : ∃ e1, e1 = stampPinned e j false := ⟨_, rfl⟩
    rw [← he1]
    have hd1 : ∀ p, p ≠ .pinned j → e1.deref p = e.deref p := by
      intro p hp; rw [he1]; exact stamp_deref_ne e j false p hp
    have hr1 : ∀ i, e1.rti i = e.rti i := by intro i; rw [he1]; exact stamp_rti e j false i
    have hspec1 : ∀ q, InHeapSpec runs.length runs.length e1 q ↔
        InHeapSpec runs.length runs.length e q := by
      intro q
      cases q with
      | child l => simp only [InHeapSpec]; rw [hd1 _ (by simp)]
      | pinned i => simp only [InHeapSpec]; rw [hr1]
    obtain ⟨hheap', hperm⟩ := heapPart_update_top hs.heap (.pinned j) ht
      (by rw [he1]; exact stamp_heap e j false) hd1 hspec1
    have hbase1 : Base runs tombs e1 := by rw [he1]; exact base_stamp hs.base j false hj
    have htomb1 : TombPart runs.length e1 := by
      rw [he1]
      exact tombPart_stamp hs.base hs.tomb j false hj hv (by simp) runs.length (le_refl _) hj
        (fun i h1 h2 => by omega)
    have hd' : ∀ p, p ≠ .pinned j → e1.minUpdateTop.deref p = e.deref p := by
      intro p hp; rw [deref_minUpdateTop]; exact hd1 p hp
    have hr' : ∀ i, e1.minUpdateTop.rti i = e.rti i := by
      intro i; rw [rti_minUpdateTop]; exact hr1 i
    have hc' : ∀ l, e1.minUpdateTop.deref (.child l) = e.deref (.child l) :=
      fun l => hd' _ (by simp)
    -- the key of the boundary item before and after
    have hcoh := hs.tomb.pinned_key j hj hv
    obtain ⟨q, _, _, _, _, hwf⟩ := base_cur hs.base j hj hv
    have hkey0 : hkey e (.pinned j) =
        ⟨(e.rti j).start_key.user_key, kMaxSequenceNumber, kTypeMaxValid⟩ := by
      rcases pinned_hkey hs.base j hj hcoh with ⟨_, h⟩ | ⟨h, _⟩
      · exact h
      · rw [h] at hty; exact absurd hty (by decide)
    have hkey1 : hkey e1.minUpdateTop (.pinned j) =
        ⟨(e.rti j).end_key.user_key, kMaxSequenceNumber, kTypeMaxValid⟩ := by
      have : hkey e1.minUpdateTop (.pinned j) = hkey e1 (.pinned j) :=
        hkey_congr (deref_minUpdateTop e1 _)
      rw [this, he1, stamp_hkey_self e j false hjp]
      simp only [Bool.false_eq_true, ↓reduceIte]
      have h5 : (e.rti j).end_key.sequence = kMaxSequenceNumber := hwf.end_seq
      rw [h5, (hs.base.pinned_at j hj).2]
    have hty1 : (e1.minUpdateTop.deref (.pinned j)).type = HeapItemType.DELETE_RANGE_END := by
      rw [deref_minUpdateTop, he1, stamp_deref_self e j false hjp]
      rfl
    have hact1 : e1.minUpdateTop.active_ = setInsert j e.active_ := by
      show e1.active_ = _
      rw [he1, stamp_active]; rfl
    refine ⟨j, rfl, hj, hv, ?_, hd', hr', hperm, hty1⟩
    refine ⟨⟨base_minUpdateTop hbase1, ?_, hheap'⟩, ?_, ?_, ?_⟩
    · exact tombPart_of_eq htomb1 (fun i => deref_minUpdateTop e1 _) (fun i => rfl) rfl
    · exact passedTombs_congr hf.passed_tombs hc' hr'
    · intro i L hiL hL hvL hi
      rw [cvalid_congr (hc' L)] at hvL
      rw [ckey_congr (hc' L), hr']
      rw [hact1, mem_setInsert] at hi
      rcases hi with hi | hi
      · subst hi
        have h1 := hmin (.child L) ⟨hL, hvL⟩
        rw [hkey0] at h1
        obtain ⟨_, _, _, _, _, _, hk⟩ := base_ckey hs.base L hL hvL
        rw [hk] at h1
        have h2 := keyLe_user_key h1
        exact h2
      · exact hf.active_started i L hiL hL hvL hi
    · obtain ⟨B, hB1, hB2⟩ := hf.bound
      refine ⟨B, ?_, passedRecords_congr hB2 hc'⟩
      intro p hp
      have hp0 : p ∈ e.heap_.data_ := hperm.mem_iff.mp hp
      by_cases hpj : p = .pinned j
      · subst hpj
        rw [hkey1]
        have h0 := hB1 _ hp0
        rw [hkey0] at h0
        exact keyLe_trans h0 (keyLe_of_keyLt (keyLt_of_user_key_lt hwf.lt))
      · rw [hkey_congr (hd' p hpj)]
        exact hB1 p hp0

/-- Stamping the boundary item of level `j`, whatever it showed before. -/
theorem tombPart_stamp_raw {runs : List (List (ParsedInternalKey UK))}
    {tombs : List (Option (List (RangeTombstone UK)))} {e : MergingIterator UK}
    (hb : Base runs tombs e) (j : Nat) (start : Bool)
    (hj : j < runs.length) (hv : (e.rti j).Valid = true) (c' : Nat) (hc2 : j < c')
    (hpk : ∀ i, i < c' → i ≠ j → (e.rti i).Valid = true → PinnedCoherent e i)
    (hact : ∀ i, i ≠ j → (i ∈ e.active_ ↔ i < c' ∧ (e.rti i).Valid = true ∧
      (e.deref (.pinned i)).type = HeapItemType.DELETE_RANGE_END))
    (hs : start = true → j ∉ e.active_)
    (hsorted : e.active_.Pairwise (fun x y => x < y)) :
    TombPart c' (stampPinned e j start) := by
  have hjp : j < e.pinned_heap_item_.length := by rw [hb.pinned_len]; exact hj
  obtain ⟨q, _, _, _, _, hwf⟩ := base_cur hb j hj hv
  have hself : PinnedCoherent (stampPinned e j start) j := by
    unfold PinnedCoherent
    rw [stamp_deref_self e j start hjp, stamp_rti]
    cases start
    · right
      simp only [Bool.false_eq_true, ↓reduceIte, HeapItem.SetTombstoneKey, true_and]
      exact hwf.end_seq
    · left
      simp only [↓reduceIte, HeapItem.SetTombstoneKey, true_and]
      exact hwf.start_seq
  have hself_ty : ((stampPinned e j start).deref (.pinned j)).type =
      if start then HeapItemType.DELETE_RANGE_START else HeapItemType.DELETE_RANGE_END := by
    rw [stamp_deref_self e j start hjp]
  refine ⟨?_, ?_, ?_⟩
  · intro i hi hvi
    by_cases hij : i = j
    · subst hij; exact hself
    · rw [stamp_rti] at hvi
      exact pinnedCoherent_congr (stamp_deref_ne e j start _ (by simpa using hij))
        (stamp_rti e j start i) (hpk i hi hij hvi)
  · intro i
    rw [stamp_active]
    by_cases hij : i = j
    · subst hij
      rw [hself_ty, stamp_rti]
      cases start
      · simp [mem_setInsert, hc2, hv]
      · simp [hs rfl]
    · rw [stamp_rti, stamp_deref_ne e j start _ (by simpa using hij), ← hact i hij]
      cases start
      · simp [mem_setInsert, hij]
      · simp
  · rw [stamp_active]
    cases start
    · exact setInsert_sorted j _ hsorted
    · exact hsorted

theorem take_succ_mem {α : Type} (l : List α) (q : Nat) (x : α) (hx : x ∈ l.take (q + 1)) :
    x ∈ l.take q ∨ l[q]? = some x := by
  obtain ⟨i, hi⟩ := List.mem_iff_getElem?.mp hx
  rw [List.getElem?_take] at hi
  split at hi
  · rename_i hlt
    by_cases hiq : i < q
    · left
      exact List.mem_iff_getElem?.mpr ⟨i, by rw [List.getElem?_take]; simp [hiq, hi]⟩
    · right
      have : i = q := by omega
      subst this; exact hi
  · simp at hi

/-- The second kind of step of the visibility loop: the end of a tombstone is on top of the
heap; the tombstone iterator moves on and the start of the next tombstone, if any, replaces
the entry. -/
theorem skip_end_step {runs : List (List (ParsedInternalKey UK))}
    {tombs : List (Option (List (RangeTombstone UK)))} {e : MergingIterator UK}
    (hf : FwdT runs tombs e) {t : HeapItemPtr} (ht : e.heap_.top = some t)
    (hty : (e.deref t).type = HeapItemType.DELETE_RANGE_END) :
    e.SkipNextDeleted.2 = true ∧ FwdT runs tombs e.SkipNextDeleted.1 ∧
      (∀ l, e.SkipNextDeleted.1.deref (.child l) = e.deref (.child l)) ∧
      LexLt runs e e.SkipNextDeleted.1 ∧
      e.SkipNextDeleted.1.direction_ = e.direction_ := by
  have hs := hf.struct
  obtain ⟨hspec, hmin⟩ := struct_top hs ht
  cases t with
  | child l =>
    have := (struct_child_type hs hspec.1).1
    rw [this] at hty
    exact absurd hty (by decide)
  | pinned j =>
    obtain ⟨hj, hv⟩ := hspec
    have hjp : j < e.pinned_heap_item_.length := by rw [hs.base.pinned_len]; exact hj
    have hjr : j < e.range_tombstone_iters_.length := by rw [hs.base.rti_len]; exact hj
    have hlevel : (e.deref (.pinned j)).level = j := (hs.base.pinned_at j hj).1
    obtain ⟨q, hq, hqi, hqlt, hcur, hwf⟩ := base_cur hs.base j hj hv
    have hcoh := hs.tomb.pinned_key j hj hv
    have hkey0 : hkey e (.pinned j) =
        ⟨(e.rti j).end_key.user_key, kMaxSequenceNumber, kTypeMaxValid⟩ := by
      rcases pinned_hkey hs.base j hj hcoh with ⟨h, _⟩ | ⟨_, h⟩
      · rw [h] at hty; exact absurd hty (by decide)
      · exact h
    obtain ⟨hnp, hnt⟩ := tnext_pos (e.rti j) q hq
    rw [hs.base.rti_tombs j hj] at hnp hnt
    -- the state after the tombstone iterator has moved
    obtain ⟨e2, he2⟩ : ∃ e2, e2 = ({ e with active_ := e.active_.erase j } :
        MergingIterator UK).setRti j (e.rti j).Next := ⟨_, rfl⟩
    have hd2 : ∀ p, e2.deref p = e.deref p := by
      intro p; rw [he2, deref_setRti, deref_set_active]
    have hr2j : e2.rti j = (e.rti j).Next := by
      rw [he2]; exact rti_setRti_self _ j _ hjr
    have hr2 : ∀ i, i ≠ j → e2.rti i = e.rti i := by
      intro i hi; rw [he2, rti_setRti_ne _ j i _ (Ne.symm hi)]; rfl
    have hact2 : e2.active_ = e.active_.erase j := by rw [he2]; rfl
    have hheap2 : e2.heap_ = e.heap_ := by rw [he2]; rfl
    have hbase2 : Base runs tombs e2 := by
      rw [he2]
      refine base_setRti (base_set_active hs.base _) j _ hj ?_ hnt ?_
      · show (e.range_tombstone_iters_[j]?.getD none).isSome = true
        rw [base_rti_slot_of_valid j hv]; rfl
      · intro i hi
        rw [hnp] at hi
        obtain ⟨h1, h2⟩ := placePos_some hi
        omega
    have htidx2 : tombIdx e2 j = q + 1 := by
      unfold tombIdx
      rw [hr2j, hnp, hnt]
      exact placePos_getD _ _ (by omega)
    have hpt2 : PassedTombs runs tombs e2 := by
      intro i L hiL hL hvL t' ht'
      rw [cvalid_congr (hd2 _)] at hvL
      rw [ckey_congr (hd2 _)]
      by_cases hij : i = j
      · subst hij
        rw [htidx2] at ht'
        rcases take_succ_mem _ _ _ ht' with h | h
        · rw [← hqi] at h
          exact hf.passed_tombs i L hiL hL hvL t' h
        · rw [hcur] at h
          simp at h
          subst h
          have h1 := hmin (.child L) ⟨hL, hvL⟩
          rw [hkey0] at h1
          obtain ⟨_, _, _, _, _, _, hk⟩ := base_ckey hs.base L hL hvL
          rw [hk] at h1
          have h2 := keyLe_user_key h1
          exact h2
      · rw [tombIdx_congr (hr2 i hij)] at ht'
        exact hf.passed_tombs i L hiL hL hvL t' ht'
    have has2 : ∀ i L, i ≤ L → L < runs.length → cvalid e L = true → i ∈ e.active_.erase j →
        (e2.rti i).start_key.user_key ≤ (ckey e L).user_key := by
      intro i L hiL hL hvL hi
      obtain ⟨hij, hi'⟩ := (mem_erase_sorted hs.tomb.active_sorted j i).mp hi
      rw [hr2 i hij]
      exact hf.active_started i L hiL hL hvL hi'
    have hlex_tau : ∀ e', (∀ l, e'.deref (.child l) = e.deref (.child l)) →
        (∀ i, i ≠ j → e'.rti i = e.rti i) → (∀ i, i ≠ j → e'.deref (.pinned i) =
          e.deref (.pinned i)) → tombIdx e' j = q + 1 → LexLt runs e e' := by
      intro e' h1 h2 h3 h4
      refine ⟨j, hj, fun l' hl' => ⟨childIdx_congr (h1 l'), tau_congr (h2 l' (by omega))
        (h3 l' (by omega))⟩, Or.inr ⟨childIdx_congr (h1 j), ?_⟩⟩
      unfold tau
      rw [h4, hqi]
      split <;> split <;> omega
    unfold SkipNextDeleted
    simp only [ht, hlevel, hty, beq_self_eq_true, ↓reduceIte]
    rw [show ({ e with active_ := e.active_.erase j } : MergingIterator UK).rti j = e.rti j
      from rfl, ← he2]
    by_cases hv2 : (e2.rti j).Valid = true
    · -- the next tombstone exists: its start replaces the top
      simp only [hv2, ↓reduceIte]
      rw [insert_eq e2 j true true hbase2.no_upper_bound]
      simp only [↓reduceIte]
      have htop1 : (stampPinned e2 j true).heap_.top = some (.pinned j) := by
        rw [stamp_heap, hheap2]; exact ht
      rw [minReplaceTop_top _ _ htop1]
      obtain ⟨e3, he3⟩ : ∃ e3, e3 = stampPinned e2 j true := ⟨_, rfl⟩
      rw [← he3]
      have hd3 : ∀ p, p ≠ .pinned j → e3.deref p = e.deref p := by
        intro p hp; rw [he3, stamp_deref_ne e2 j true p hp]; exact hd2 p
      have hr3 : ∀ i, e3.rti i = e2.rti i := by intro i; rw [he3]; exact stamp_rti e2 j true i
      have hspec3 : ∀ p, InHeapSpec runs.length runs.length e3 p ↔
          InHeapSpec runs.length runs.length e p := by
        intro p
        cases p with
        | child l => simp only [InHeapSpec]; rw [hd3 _ (by simp)]
        | pinned i =>
          simp only [InHeapSpec]; rw [hr3]
          by_cases hij : i = j
          · subst hij; simp [hv2, hv]
          · rw [hr2 i hij]
      obtain ⟨hheap', hperm⟩ := heapPart_update_top hs.heap (.pinned j) ht
        (by rw [he3, stamp_heap, hheap2]) hd3 hspec3
      have hbase3 : Base runs tombs e3 := by rw [he3]; exact base_stamp hbase2 j true hj
      have htomb3 : TombPart runs.length e3 := by
        rw [he3]
        refine tombPart_stamp_raw hbase2 j true hj hv2 runs.length hj ?_ ?_ ?_ ?_
        · intro i hi hij hvi
          rw [hr2 i hij] at hvi
          exact pinnedCoherent_congr (hd2 _) (hr2 i hij) (hs.tomb.pinned_key i hi hvi)
        · intro i hij
          rw [hact2, mem_erase_sorted hs.tomb.active_sorted, hs.tomb.active_iff i, hd2,
            hr2 i hij]
          simp [hij]
        · intro _
          rw [hact2, mem_erase_sorted hs.tomb.active_sorted]
          simp
        · rw [hact2]; exact erase_sorted hs.tomb.active_sorted j
      have hc' : ∀ l, e3.minUpdateTop.deref (.child l) = e.deref (.child l) := by
        intro l; rw [deref_minUpdateTop]; exact hd3 _ (by simp)
      obtain ⟨q2, hq2, _, hq2lt, hcur2, hwf2⟩ := base_cur hbase2 j hj hv2
      have hq2eq : q2 = q + 1 := by
        rw [hr2j, hnp] at hq2
        exact (placePos_some hq2).1
      subst hq2eq
      have hkey3 : hkey e3.minUpdateTop (.pinned j) =
          ⟨(e2.rti j).start_key.user_key, kMaxSequenceNumber, kTypeMaxValid⟩ := by
        have : hkey e3.minUpdateTop (.pinned j) = hkey e3 (.pinned j) :=
          hkey_congr (deref_minUpdateTop e3 _)
        have hjp2 : j < e2.pinned_heap_item_.length := by rw [hbase2.pinned_len]; exact hj
        rw [this, he3, stamp_hkey_self e2 j true hjp2]
        simp only [↓reduceIte]
        have h5 : (e2.rti j).start_key.sequence = kMaxSequenceNumber := hwf2.start_seq
        rw [h5, (hbase2.pinned_at j hj).2]
      have hact3 : e3.minUpdateTop.active_ = e.active_.erase j := by
        show e3.active_ = _
        rw [he3, stamp_active]; exact hact2
      refine ⟨trivial, ⟨⟨base_minUpdateTop hbase3, ?_, hheap'⟩, ?_, ?_, ?_⟩, hc', ?_, ?_⟩
      rotate_right
      · show e3.direction_ = e.direction_
        rw [he3, stamp_direction, he2]; rfl
      · exact tombPart_of_eq htomb3 (fun i => deref_minUpdateTop e3 _) (fun i => rfl) rfl
      · refine passedTombs_congr hpt2 (fun l => ?_) (fun i => ?_)
        · rw [hc' l, hd2]
        · rw [rti_minUpdateTop, hr3]
      · intro i L hiL hL hvL hi
        rw [cvalid_congr (hc' L)] at hvL
        rw [ckey_congr (hc' L), rti_minUpdateTop, hr3]
        rw [hact3] at hi
        exact has2 i L hiL hL hvL hi
      · obtain ⟨B, hB1, hB2⟩ := hf.bound
        refine ⟨B, ?_, passedRecords_congr hB2 hc'⟩
        intro p hp
        have hp0 : p ∈ e.heap_.data_ := hperm.mem_iff.mp hp
        by_cases hpj : p = .pinned j
        · subst hpj
          rw [hkey3]
          have h0 := hB1 _ hp0
          rw [hkey0] at h0
          refine keyLe_trans h0 ?_
          rw [keyLe_iff]
          intro hcon
          have h6' := keyLt_user_key hcon
          have h6 : (e2.rti j).start_key.user_key ≤ (e.rti j).end_key.user_key := h6'
          have h7 : (e.rti j).end_key.user_key ≤ (e2.rti j).start_key.user_key :=
            tombs_sorted (hs.base.wf.tombs_wf j) (Nat.lt_succ_self q) hcur hcur2
          have h8 : (e2.rti j).start_key.user_key = (e.rti j).end_key.user_key :=
            le_antisymm h6 h7
          rcases hcon with hcon | ⟨_, hcon | ⟨_, hcon⟩⟩
          · rw [h8] at hcon; exact lt_irrefl _ hcon
          · exact lt_irrefl _ hcon
          · exact lt_irrefl _ hcon
        · rw [hkey_congr (show e3.minUpdateTop.deref p = e.deref p from by
            rw [deref_minUpdateTop]; exact hd3 p hpj)]
          exact hB1 p hp0
      · refine hlex_tau _ hc' (fun i hi => ?_) (fun i hi => ?_) ?_
        · rw [rti_minUpdateTop, hr3, hr2 i hi]
        · rw [deref_minUpdateTop]; exact hd3 _ (by simpa using hi)
        · rw [tombIdx_congr (show e3.minUpdateTop.rti j = e2.rti j from by
            rw [rti_minUpdateTop, hr3])]
          exact htidx2
    · -- the tombstone iterator is exhausted: the entry leaves the heap
      simp only [hv2, Bool.false_eq_true, ↓reduceIte]
      have hv2' : (e2.rti j).Valid = false := by simpa using hv2
      have hspec2 : ∀ p, InHeapSpec runs.length runs.length e2 p ↔
          p ≠ .pinned j ∧ InHeapSpec runs.length runs.length e p := by
        intro p
        cases p with
        | child l => simp only [InHeapSpec]; rw [hd2]; simp
        | pinned i =>
          simp only [InHeapSpec]
          by_cases hij : i = j
          · subst hij; simp [hv2']
          · rw [hr2 i hij]; simp [hij]
      obtain ⟨hheap', hperm⟩ := heapPart_pop hs.heap (.pinned j) ht hheap2
        (fun p _ => hd2 p) hspec2
      have htomb2 : TombPart runs.length e2 := by
        refine ⟨?_, ?_, ?_⟩
        · intro i hi hvi
          by_cases hij : i = j
          · subst hij; rw [hv2'] at hvi; exact absurd hvi (by decide)
          · rw [hr2 i hij] at hvi
            exact pinnedCoherent_congr (hd2 _) (hr2 i hij) (hs.tomb.pinned_key i hi hvi)
        · intro i
          rw [hact2, mem_erase_sorted hs.tomb.active_sorted, hs.tomb.active_iff i, hd2]
          by_cases hij : i = j
          · subst hij; simp [hv2']
          · rw [hr2 i hij]; simp [hij]
        · rw [hact2]; exact erase_sorted hs.tomb.active_sorted j
      have hc' : ∀ l, e2.minPop.deref (.child l) = e.deref (.child l) := by
        intro l; rw [deref_minPop]; exact hd2 _
      refine ⟨trivial, ⟨⟨base_minPop hbase2, ?_, hheap'⟩, ?_, ?_, ?_⟩, hc', ?_, ?_⟩
      rotate_right
      · show e2.direction_ = e.direction_
        rw [he2]; rfl
      · exact tombPart_of_eq htomb2 (fun i => deref_minPop e2 _) (fun i => rfl) rfl
      · exact passedTombs_congr hpt2 (fun l => deref_minPop e2 _) (fun i => rfl)
      · intro i L hiL hL hvL hi
        rw [cvalid_congr (hc' L)] at hvL
        rw [ckey_congr (hc' L), rti_minPop]
        have hi' : i ∈ e.active_.erase j := by rw [← hact2]; exact hi
        exact has2 i L hiL hL hvL hi'
      · obtain ⟨B, hB1, hB2⟩ := hf.bound
        refine ⟨B, ?_, passedRecords_congr hB2 hc'⟩
        intro p hp
        have hp0 : p ∈ e.heap_.data_ := List.mem_of_mem_tail (hperm.mem_iff.mp hp)
        rw [hkey_congr (show e2.minPop.deref p = e.deref p from by
          rw [deref_minPop]; exact hd2 p)]
        exact hB1 p hp0
      · refine hlex_tau _ hc' (fun i hi => ?_) (fun i hi => ?_) ?_
        · rw [rti_minPop, hr2 i hi]
        · rw [deref_minPop]; exact hd2 _
        · rw [tombIdx_congr (show e2.minPop.rti j = e2.rti j from rfl)]
          exact htidx2

/-- The third kind of step: the child on top of the heap steps forward. -/
theorem advance_step {runs : List (List (ParsedInternalKey UK))}
    {tombs : List (Option (List (RangeTombstone UK)))} {e : MergingIterator UK}
    (hf : FwdT runs tombs e) {s : Nat} (ht : e.heap_.top = some (.child s)) :
    Struct runs tombs (advanceTop e s) ∧
      PassedTombs runs tombs (advanceTop e s) ∧ ActiveStarted runs (advanceTop e s) ∧
      LowerBound (ckey e s) (advanceTop e s) ∧
      PassedRecords runs tombs (ckey e s) (advanceTop e s) ∧
      (∀ p, p ≠ .child s → (advanceTop e s).deref p = e.deref p) ∧
      (∀ i, (advanceTop e s).rti i = e.rti i) ∧ (advanceTop e s).active_ = e.active_ ∧
      childIdx runs (advanceTop e s) s = childIdx runs e s + 1 := by
  have hs := hf.struct
  obtain ⟨hspec, hmin⟩ := struct_top hs ht
  obtain ⟨hsn, hsv⟩ := hspec
  obtain ⟨i, hi, hidx, hilt, hrun, hseq, hk⟩ := base_ckey hs.base s hsn hsv
  have hslen : s < e.children_.length := by rw [hs.base.children_len]; exact hsn
  have hca := hs.base.child_at s hsn
  obtain ⟨hca1, hpos1⟩ := childAt_next hca (by rw [← cpos_eq]; exact hi)
  obtain ⟨e1, he1⟩ : ∃ e1, e1 = e.updIter (.child s) (fun w => w.Next) := ⟨_, rfl⟩
  have hd1s : e1.deref (.child s) =
      { e.deref (.child s) with iter := (e.deref (.child s)).iter.Next } := by
    rw [he1]; exact deref_updIter_child_self e s _ hslen
  have hd1 : ∀ p, p ≠ .child s → e1.deref p = e.deref p := by
    intro p hp; rw [he1]; exact deref_updIter_child_ne e s _ p hp
  have hr1 : ∀ j, e1.rti j = e.rti j := by intro j; rw [he1]; exact rti_updIter e _ _ j
  have hheap1 : e1.heap_ = e.heap_ := by rw [he1]; rfl
  have hact1 : e1.active_ = e.active_ := by rw [he1]; cases e; rfl
  have hbase1 : Base runs tombs e1 := by
    rw [he1]; exact base_updIter hs.base s _ hsn hca1
  have hcpos1 : cpos e1 s = placePos (runAt runs s).length (i + 1) := by
    rw [cpos_eq, hd1s]; exact hpos1
  have hidx1 : childIdx runs e1 s = childIdx runs e s + 1 := by
    unfold childIdx
    rw [hcpos1, hi]
    simp only [Option.getD_some]
    exact placePos_getD _ _ (by omega)
  have htomb1 : TombPart runs.length e1 :=
    tombPart_of_eq hs.tomb (fun j => hd1 _ (by simp)) hr1 hact1
  -- keys of the children after the step
  have hkey1 : ∀ L, L < runs.length → cvalid e1 L = true →
      cvalid e L = true ∧ keyLe (ckey e L) (ckey e1 L) := by
    intro L hL hvL
    by_cases hLs : L = s
    · subst hLs
      refine ⟨hsv, ?_⟩
      obtain ⟨i1, hi1, _, _, hrun1, _, _⟩ := base_ckey hbase1 L hL hvL
      rw [hcpos1] at hi1
      obtain ⟨h5, _⟩ := placePos_some hi1
      subst h5
      exact sortedRun_le (base_sorted hs.base L) (Nat.le_succ i) hrun hrun1
    · have hdL := hd1 (.child L) (by simpa using hLs)
      rw [cvalid_congr hdL] at hvL
      rw [ckey_congr hdL]
      exact ⟨hvL, keyLe_refl _⟩
  have hpt1 : PassedTombs runs tombs e1 := by
    intro j L hjL hL hvL t' ht'
    obtain ⟨hv0, hle⟩ := hkey1 L hL hvL
    rw [tombIdx_congr (hr1 j)] at ht'
    exact le_trans (hf.passed_tombs j L hjL hL hv0 t' ht') (keyLe_user_key hle)
  have has1 : ActiveStarted runs e1 := by
    intro j L hjL hL hvL hj
    obtain ⟨hv0, hle⟩ := hkey1 L hL hvL
    rw [hact1] at hj
    rw [hr1]
    exact le_trans (hf.active_started j L hjL hL hv0 hj) (keyLe_user_key hle)
  have hpr1 : PassedRecords runs tombs (ckey e s) e1 := by
    intro l idx r hl hlt hr hB
    obtain ⟨B, hB1, hB2⟩ := hf.bound
    have hBk : keyLe B (ckey e s) := by
      have := hB1 _ (top_min e hs.heap.inv _ ht).1
      rw [hk] at this; exact this
    by_cases hls : l = s
    · subst hls
      rw [hidx1, hidx] at hlt
      by_cases hii : idx = i
      · subst hii
        rw [hrun] at hr
        simp at hr
        subst hr
        exact absurd hB (keyLt_irrefl _)
      · exact hB2 l idx r hl (by rw [hidx]; omega) hr (keyLt_of_keyLe_of_keyLt hBk hB)
    · rw [childIdx_congr (hd1 (.child l) (by simpa using hls))] at hlt
      exact hB2 l idx r hl hlt hr (keyLt_of_keyLe_of_keyLt hBk hB)
  have hlb1 : ∀ p, InHeapSpec runs.length runs.length e p →
      InHeapSpec runs.length runs.length e1 p → keyLe (ckey e s) (hkey e1 p) := by
    intro p hp hp1
    by_cases hps : p = .child s
    · subst hps
      obtain ⟨_, _, _, _, _, _, hk1⟩ := base_ckey hbase1 s hsn hp1.2
      rw [hk1]
      exact (hkey1 s hsn hp1.2).2
    · rw [hkey_congr (hd1 p hps), ← hk]
      exact hmin p hp
  unfold advanceTop
  rw [← he1]
  by_cases hv1 : (e1.deref (.child s)).iter.Valid = true
  · simp only [hv1, ↓reduceIte]
    have hspec1 : ∀ q, InHeapSpec runs.length runs.length e1 q ↔
        InHeapSpec runs.length runs.length e q := by
      intro q
      cases q with
      | child l =>
        simp only [InHeapSpec]
        by_cases hls : l = s
        · subst hls; simp [hv1]
          exact fun _ => hsv
        · rw [hd1 _ (by simpa using hls)]
      | pinned j => simp only [InHeapSpec]; rw [hr1]
    obtain ⟨hheap', hperm⟩ := heapPart_update_top hs.heap (.child s) ht hheap1 hd1 hspec1
    refine ⟨⟨base_minUpdateTop hbase1, ?_, hheap'⟩, ?_, ?_, ?_, ?_, ?_, ?_, ?_, ?_⟩
    · exact tombPart_of_eq htomb1 (fun i => deref_minUpdateTop e1 _) (fun i => rfl) rfl
    · exact passedTombs_congr hpt1 (fun l => deref_minUpdateTop e1 _) (fun i => rfl)
    · intro j L hjL hL hvL hj
      exact has1 j L hjL hL hvL hj
    · intro p hp
      have hp0 : p ∈ e.heap_.data_ := hperm.mem_iff.mp hp
      have hp1 := (heapPart_mem hs.heap p).mp hp0
      rw [hkey_congr (deref_minUpdateTop e1 p)]
      exact hlb1 p hp1 ((hspec1 p).mpr hp1)
    · exact passedRecords_congr hpr1 (fun l => deref_minUpdateTop e1 _)
    · intro p hp; rw [deref_minUpdateTop]; exact hd1 p hp
    · intro j; rw [rti_minUpdateTop]; exact hr1 j
    · exact hact1
    · rw [childIdx_congr (deref_minUpdateTop e1 _)]; exact hidx1
  · simp only [hv1, Bool.false_eq_true, ↓reduceIte]
    have hv1' : (e1.deref (.child s)).iter.Valid = false := by simpa using hv1
    have hspec1 : ∀ q, InHeapSpec runs.length runs.length e1 q ↔
        q ≠ .child s ∧ InHeapSpec runs.length runs.length e q := by
      intro q
      cases q with
      | child l =>
        simp only [InHeapSpec]
        by_cases hls : l = s
        · subst hls; simp [hv1']
        · rw [hd1 _ (by simpa using hls)]; simp [hls]
      | pinned j => simp only [InHeapSpec]; rw [hr1]; simp
    obtain ⟨hheap', hperm⟩ := heapPart_pop hs.heap (.child s) ht hheap1 hd1 hspec1
    refine ⟨⟨base_minPop hbase1, ?_, hheap'⟩, ?_, ?_, ?_, ?_, ?_, ?_, ?_, ?_⟩
    · exact tombPart_of_eq htomb1 (fun i => deref_minPop e1 _) (fun i => rfl) rfl
    · exact passedTombs_congr hpt1 (fun l => deref_minPop e1 _) (fun i => rfl)
    · intro j L hjL hL hvL hj
      exact has1 j L hjL hL hvL hj
    · intro p hp
      have hp1 := (heapPart_mem hheap' p).mp hp
      have hp1' : InHeapSpec runs.length runs.length e1 p := by
        cases p <;> exact hp1
      have hp0 := ((hspec1 p).mp hp1').2
      rw [hkey_congr (deref_minPop e1 p)]
      exact hlb1 p hp0 hp1'
    · exact passedRecords_congr hpr1 (fun l => deref_minPop e1 _)
    · intro p hp; rw [deref_minPop]; exact hd1 p hp
    · intro j; rw [rti_minPop]; exact hr1 j
    · exact hact1
    · rw [childIdx_congr (deref_minPop e1 _)]; exact hidx1

/-- With the child of level `s` on top of the heap: the current tombstone of an active level
`j ≤ s` covers the key of the child. -/
theorem active_covers {runs : List (List (ParsedInternalKey UK))}
    {tombs : List (Option (List (RangeTombstone UK)))} {e : MergingIterator UK}
    (hf : FwdT runs tombs e) {s : Nat} (ht : e.heap_.top = some (.child s)) {j : Nat}
    (hjs : j ≤ s) (hj : j ∈ e.active_) :
    (e.rti j).cur ∈ tombsAt tombs j ∧ covers (e.rti j).cur (ckey e s).user_key := by
  have hs := hf.struct
  obtain ⟨⟨hsn, hsv⟩, hmin⟩ := struct_top hs ht
  obtain ⟨i, _, _, _, _, hseq, hk⟩ := base_ckey hs.base s hsn hsv
  obtain ⟨hjn, hjv, hjt⟩ := (hs.tomb.active_iff j).mp hj
  obtain ⟨q, _, _, _, hcur, _⟩ := base_cur hs.base j hjn hjv
  refine ⟨List.getElem?_mem hcur, hf.active_started j s hjs hsn hsv hj, ?_⟩
  have hkey : hkey e (.pinned j) =
      ⟨(e.rti j).end_key.user_key, kMaxSequenceNumber, kTypeMaxValid⟩ := by
    rcases pinned_hkey hs.base j hjn (hs.tomb.pinned_key j hjn hjv) with ⟨h, _⟩ | ⟨_, h⟩
    · rw [h] at hjt; exact absurd hjt (by decide)
    · exact h
  have h1 := hmin (.pinned j) ⟨hjn, hjv⟩
  rw [hk, hkey] at h1
  exact keyLe_boundary hseq _ _ h1

/-- With the child of level `s` on top of the heap: no tombstone of a level `j ≤ s` that is
not active covers the key of the child. -/
theorem inactive_not_covers {runs : List (List (ParsedInternalKey UK))}
    {tombs : List (Option (List (RangeTombstone UK)))} {e : MergingIterator UK}
    (hf : FwdT runs tombs e) {s : Nat} (ht : e.heap_.top = some (.child s)) {j : Nat}
    (hjs : j ≤ s) (hj : j ∉ e.active_) :
    ∀ t ∈ tombsAt tombs j, ¬ covers t (ckey e s).user_key := by
  have hs := hf.struct
  obtain ⟨⟨hsn, hsv⟩, hmin⟩ := struct_top hs ht
  obtain ⟨i, _, _, _, _, hseq, hk⟩ := base_ckey hs.base s hsn hsv
  have hjn : j < runs.length := by omega
  apply not_covered_of_gap (hs.base.wf.tombs_wf j) (tombIdx e j)
  · exact hf.passed_tombs j s hjs hsn hsv
  · intro t htq
    have hv : (e.rti j).Valid = true := by
      by_contra hcon
      have hpos : (e.rti j).pos = none := by
        cases hp : (e.rti j).pos with
        | none => rfl
        | some q => exact absurd ((tvalid_iff _).mpr ⟨q, hp⟩) hcon
      unfold tombIdx at htq
      rw [hpos, hs.base.rti_tombs j hjn] at htq
      simp at htq
    obtain ⟨q, _, hqi, _, hcur, _⟩ := base_cur hs.base j hjn hv
    rw [hqi, hcur] at htq
    simp at htq
    subst htq
    have hkey : hkey e (.pinned j) =
        ⟨(e.rti j).start_key.user_key, kMaxSequenceNumber, kTypeMaxValid⟩ := by
      rcases pinned_hkey hs.base j hjn (hs.tomb.pinned_key j hjn hv) with ⟨_, h⟩ | ⟨h, _⟩
      · exact h
      · exact absurd ((hs.tomb.active_iff j).mpr ⟨hjn, hv, h⟩) hj
    have h1 := hmin (.pinned j) ⟨hjn, hv⟩
    rw [hk, hkey] at h1
    exact keyLe_boundary hseq _ _ h1

/-- With the child of level `s` on top of the heap, its record is deleted exactly when a level
below `s` is active, or `s` is active with a larger sequence number. -/
theorem top_suppressed_iff {runs : List (List (ParsedInternalKey UK))}
    {tombs : List (Option (List (RangeTombstone UK)))} {e : MergingIterator UK}
    (hf : FwdT runs tombs e) {s : Nat} (ht : e.heap_.top = some (.child s)) :
    suppressed tombs s (ckey e s) ↔
      (∃ j ∈ e.active_, j < s) ∨ (s ∈ e.active_ ∧ (ckey e s).sequence < (e.rti s).seq) := by
  have hs := hf.struct
  obtain ⟨⟨hsn, hsv⟩, hmin⟩ := struct_top hs ht
  constructor
  · rintro (⟨j, hjs, t, ht1, hc⟩ | ⟨t, ht1, hc, hseq⟩)
    · left
      refine ⟨j, ?_, hjs⟩
      by_contra hcon
      exact inactive_not_covers hf ht (Nat.le_of_lt hjs) hcon t ht1 hc
    · right
      have hact : s ∈ e.active_ := by
        by_contra hcon
        exact inactive_not_covers hf ht (le_refl s) hcon t ht1 hc
      refine ⟨hact, ?_⟩
      obtain ⟨hcm, hcc⟩ := active_covers hf ht (le_refl s) hact
      obtain ⟨_, hv, _⟩ := (hs.tomb.active_iff s).mp hact
      obtain ⟨q, _, _, _, hcur, _⟩ := base_cur hs.base s hsn hv
      have := covers_unique (hs.base.wf.tombs_wf s) hcur hcc t ht1 hc
      subst this
      exact hseq
  · rintro (⟨j, hj, hjs⟩ | ⟨hact, hseq⟩)
    · left
      obtain ⟨hcm, hcc⟩ := active_covers hf ht (Nat.le_of_lt hjs) hj
      exact ⟨j, hjs, _, hcm, hcc⟩
    · right
      obtain ⟨hcm, hcc⟩ := active_covers hf ht (le_refl s) hact
      exact ⟨_, hcm, hcc, hseq⟩

theorem heapPart_frame_level {a b : Nat} {e e' : MergingIterator UK} (hh : HeapPart a b e)
    (hheap : e'.heap_ = e.heap_)
    (hc : ∀ l, l < a → e'.deref (.child l) = e.deref (.child l))
    (hp : ∀ j, j < b → e'.deref (.pinned j) = e.deref (.pinned j))
    (hr : ∀ j, j < b → e'.rti j = e.rti j) : HeapPart a b e' := by
  apply heapPart_frame hh hheap
  · intro p hp'
    cases p with
    | child l => exact hc l hp'.1
    | pinned j => exact hp j hp'.1
  · intro q
    cases q with
    | child l =>
      simp only [InHeapSpec]
      constructor
      · rintro ⟨h1, h2⟩; rw [hc l h1] at h2; exact ⟨h1, h2⟩
      · rintro ⟨h1, h2⟩; rw [← hc l h1] at h2; exact ⟨h1, h2⟩
    | pinned j =>
      simp only [InHeapSpec]
      constructor
      · rintro ⟨h1, h2⟩; rw [hr j h1] at h2; exact ⟨h1, h2⟩
      · rintro ⟨h1, h2⟩; rw [← hr j h1] at h2; exact ⟨h1, h2⟩

theorem heapPart_push_child {a b : Nat} {e : MergingIterator UK} (hh : HeapPart a b e)
    (hv : (e.deref (.child a)).iter.Valid = true) : HeapPart (a + 1) b (e.minPush (.child a)) := by
  apply heapPart_push hh (.child a)
  · simp [InHeapSpec]
  · intro q
    cases q with
    | child l =>
      simp only [InHeapSpec, HeapItemPtr.child.injEq]
      constructor
      · rintro ⟨h1, h2⟩
        by_cases hla : l = a
        · exact Or.inl hla
        · exact Or.inr ⟨by omega, h2⟩
      · rintro (h | ⟨h1, h2⟩)
        · subst h; exact ⟨by omega, hv⟩
        · exact ⟨by omega, h2⟩
    | pinned j => simp [InHeapSpec]

theorem heapPart_skip_child {a b : Nat} {e : MergingIterator UK} (hh : HeapPart a b e)
    (hv : (e.deref (.child a)).iter.Valid = false) : HeapPart (a + 1) b e := by
  apply heapPart_frame hh rfl (fun _ _ => rfl)
  intro q
  cases q with
  | child l =>
    simp only [InHeapSpec]
    constructor
    · rintro ⟨h1, h2⟩
      by_cases hla : l = a
      · subst hla; rw [hv] at h2; exact absurd h2 (by decide)
      · exact ⟨by omega, h2⟩
    · rintro ⟨h1, h2⟩; exact ⟨by omega, h2⟩
  | pinned j => simp [InHeapSpec]

theorem heapPart_push_pinned {a b : Nat} {e : MergingIterator UK} (hh : HeapPart a b e)
    (hv : (e.rti b).Valid = true) : HeapPart a (b + 1) (e.minPush (.pinned b)) := by
  apply heapPart_push hh (.pinned b)
  · simp [InHeapSpec]
  · intro q
    cases q with
    | child l => simp [InHeapSpec]
    | pinned j =>
      simp only [InHeapSpec, HeapItemPtr.pinned.injEq]
      constructor
      · rintro ⟨h1, h2⟩
        by_cases hla : j = b
        · exact Or.inl hla
        · exact Or.inr ⟨by omega, h2⟩
      · rintro (h | ⟨h1, h2⟩)
        · subst h; exact ⟨by omega, hv⟩
        · exact ⟨by omega, h2⟩

theorem heapPart_skip_pinned {a b : Nat} {e : MergingIterator UK} (hh : HeapPart a b e)
    (hv : (e.rti b).Valid = false) : HeapPart a (b + 1) e := by
  apply heapPart_frame hh rfl (fun _ _ => rfl)
  intro q
  cases q with
  | child l => simp [InHeapSpec]
  | pinned j =>
    simp only [InHeapSpec]
    constructor
    · rintro ⟨h1, h2⟩
      by_cases hla : j = b
      · subst hla; rw [hv] at h2; exact absurd h2 (by decide)
      · exact ⟨by omega, h2⟩
    · rintro ⟨h1, h2⟩; exact ⟨by omega, h2⟩

theorem lowerBound_push {B : ParsedInternalKey UK} {e : MergingIterator UK}
    (hi : HeapInv e.minCmp e.heap_) (hl : LowerBound B e) (p : HeapItemPtr)
    (hp : keyLe B (hkey e p)) : LowerBound B (e.minPush p) := by
  intro q hq
  rw [(minPush_heap e p hi).2.mem_iff] at hq
  rw [hkey_congr (deref_minPush e p q)]
  rcases List.mem_cons.mp hq with h | h
  · subst h; exact hp
  · exact hl q h

theorem lowerBound_frame {B : ParsedInternalKey UK} {e e' : MergingIterator UK}
    (hl : LowerBound B e) (hheap : e'.heap_ = e.heap_)
    (hd : ∀ p ∈ e.heap_.data_, e'.deref p = e.deref p) : LowerBound B e' := by
  intro q hq
  rw [hheap] at hq
  rw [hkey_congr (hd q hq)]
  exact hl q hq

theorem set_getElem_same {α : Type} (l : List α) (j : Nat) (hj : j < l.length) :
    l.set j l[j] = l := by
  apply List.ext_getElem
  · simp
  · intro n h1 h2
    by_cases h : j = n
    · subst h; simp
    · simp [List.getElem_set_ne h]

/-- Stamping the start key on a boundary item that shows it already changes nothing. -/
theorem stamp_start_id (e : MergingIterator UK) (j : Nat)
    (hj : j < e.pinned_heap_item_.length)
    (hty : (e.deref (.pinned j)).type = HeapItemType.DELETE_RANGE_START)
    (hk : (e.deref (.pinned j)).parsed_ikey.user_key = (e.rti j).start_key.user_key)
    (hq : (e.deref (.pinned j)).parsed_ikey.sequence = (e.rti j).start_key.sequence) :
    stampPinned e j true = e := by
  unfold stampPinned
  simp only [↓reduceIte]
  have hitem : ({ (e.deref (.pinned j)).SetTombstoneKey (e.rti j).start_key with
      type := HeapItemType.DELETE_RANGE_START } : HeapItem UK) = e.deref (.pinned j) := by
    unfold HeapItem.SetTombstoneKey
    rw [← hk, ← hq, ← hty]
  rw [hitem]
  unfold store deref
  simp only
  have : e.pinned_heap_item_.set j (e.pinned_heap_item_[j]?.getD default) =
      e.pinned_heap_item_ := by
    rw [List.getElem?_eq_getElem hj]
    simp only [Option.getD_some]
    exact set_getElem_same _ j hj
  rw [this]

theorem refill_children {runs : List (List (ParsedInternalKey UK))}
    {tombs : List (Option (List (RangeTombstone UK)))} {B : ParsedInternalKey UK}
    {e : MergingIterator UK} (hb : Base runs tombs e) (lim : Nat) (hlim : lim ≤ runs.length)
    (hB : ∀ L, L < lim → cvalid e L = true → keyLe B (ckey e L)) :
    ∀ k, k ≤ lim → RefillInv runs B e k 0
      ((List.range k).foldl
        (fun (e : MergingIterator UK) level => e.AddToMinHeapOrCheckStatus (.child level))
        (e.ClearHeaps false)) := by
  intro k
  induction k with
  | zero =>
    intro _
    simp only [List.range_zero, List.foldl_nil]
    refine ⟨rfl, rfl, rfl, rfl, hb.status_ok, hb.no_upper_bound, ?_, ?_⟩
    · apply heapPart_of_mem
      · simp [ClearHeaps, BinaryHeap.clear]
      · intro p
        cases p <;> simp [InHeapSpec, ClearHeaps, BinaryHeap.clear]
      · exact heapInv_clear _ e.heap_
    · intro p hp
      simp [ClearHeaps, BinaryHeap.clear] at hp
  | succ k ih =>
    intro hk
    have ih' := ih (by omega)
    rw [List.range_succ, List.foldl_append]
    simp only [List.foldl_cons, List.foldl_nil]
    obtain ⟨ek, hek⟩ : ∃ ek, ek = (List.range k).foldl
        (fun (e : MergingIterator UK) level => e.AddToMinHeapOrCheckStatus (.child level))
        (e.ClearHeaps false) := ⟨_, rfl⟩
    rw [← hek] at ih' ⊢
    have hd : ∀ p, ek.deref p = e.deref p := deref_eq_of_items e ek ih'.children ih'.pinned
    have hca := hb.child_at k (by omega)
    unfold AddToMinHeapOrCheckStatus
    by_cases hv : (ek.deref (.child k)).iter.Valid = true
    · simp only [hv, ↓reduceIte]
      refine ⟨ih'.children, ih'.pinned, ih'.rtis, ih'.active, ih'.status, ih'.upper,
        heapPart_push_child ih'.heap hv, ?_⟩
      apply lowerBound_push ih'.heap.inv ih'.bound
      have hv0 : cvalid e k = true := by unfold cvalid; rw [← hd]; exact hv
      obtain ⟨_, _, _, _, _, _, hk0⟩ := base_ckey hb k (by omega) hv0
      rw [hkey_congr (hd _), hk0]
      exact hB k (by omega) hv0
    · simp only [hv, Bool.false_eq_true, ↓reduceIte]
      have hst : (ek.deref (.child k)).iter.status = Status.OK := by
        rw [hd]; exact childAt_status hca
      rw [hst, considerStatus_ok]
      exact ⟨ih'.children, ih'.pinned, ih'.rtis, ih'.active, ih'.status, ih'.upper,
        heapPart_skip_child ih'.heap (by simpa using hv), ih'.bound⟩

theorem refill_pinned {runs : List (List (ParsedInternalKey UK))}
    {tombs : List (Option (List (RangeTombstone UK)))} {B : ParsedInternalKey UK}
    {e e1 : MergingIterator UK} {a : Nat} (hb : Base runs tombs e)
    (ht : TombPart runs.length e) (lim : Nat) (hlim : lim ≤ runs.length)
    (hB : ∀ j, j < lim → (e.rti j).Valid = true → keyLe B (hkey e (.pinned j)))
    (h1 : RefillInv runs B e a 0 e1) :
    ∀ k, k ≤ lim → RefillInv runs B e a k
      ((List.range k).foldl
        (fun (e : MergingIterator UK) level =>
          if (e.range_tombstone_iters_[level]?.getD none).isSome && (e.rti level).Valid then
            if e.active_.contains level then e.minPush (.pinned level)
            else e.InsertRangeTombstoneToMinHeap level true false
          else e) e1) := by
  intro k
  induction k with
  | zero => intro _; simpa using h1
  | succ k ih =>
    intro hk
    have ih' := ih (by omega)
    rw [List.range_succ, List.foldl_append]
    simp only [List.foldl_cons, List.foldl_nil]
    obtain ⟨ek, hek⟩ : ∃ ek, ek = (List.range k).foldl
        (fun (e : MergingIterator UK) level =>
          if (e.range_tombstone_iters_[level]?.getD none).isSome && (e.rti level).Valid then
            if e.active_.contains level then e.minPush (.pinned level)
            else e.InsertRangeTombstoneToMinHeap level true false
          else e) e1 := ⟨_, rfl⟩
    rw [← hek] at ih' ⊢
    have hd : ∀ p, ek.deref p = e.deref p := deref_eq_of_items e ek ih'.children ih'.pinned
    have hr : ∀ j, ek.rti j = e.rti j := rti_eq_of_iters e ek ih'.rtis
    have hkn : k < runs.length := by omega
    by_cases hv : (ek.rti k).Valid = true
    · have hslot : (ek.range_tombstone_iters_[k]?.getD none).isSome = true := by
        rw [base_rti_slot_of_valid k hv]; rfl
      simp only [hslot, hv, Bool.and_self, ↓reduceIte]
      have hv0 : (e.rti k).Valid = true := by rw [← hr]; exact hv
      have hpush : RefillInv runs B e a (k + 1) (ek.minPush (.pinned k)) := by
        refine ⟨ih'.children, ih'.pinned, ih'.rtis, ih'.active, ih'.status, ih'.upper,
          heapPart_push_pinned ih'.heap hv, ?_⟩
        apply lowerBound_push ih'.heap.inv ih'.bound
        rw [hkey_congr (hd _)]
        exact hB k (by omega) hv0
      by_cases hact : ek.active_.contains k = true
      · simp only [hact, ↓reduceIte]
        exact hpush
      · simp only [hact, Bool.false_eq_true, ↓reduceIte]
        rw [insert_eq ek k true false ih'.upper]
        simp only [Bool.false_eq_true, ↓reduceIte]
        have hnot : k ∉ e.active_ := by
          rw [← ih'.active]
          intro hmem
          exact hact (by simpa using hmem)
        have hcoh := ht.pinned_key k hkn hv0
        have hid : stampPinned ek k true = ek := by
          apply stamp_start_id
          · rw [ih'.pinned, hb.pinned_len]; exact hkn
          · rw [hd]
            rcases hcoh with ⟨h, _, _⟩ | ⟨h, _, _⟩
            · exact h
            · exact absurd ((ht.active_iff k).mpr ⟨hkn, hv0, h⟩) hnot
          · rw [hd, hr]
            rcases hcoh with ⟨_, h, _⟩ | ⟨h, _, _⟩
            · exact h
            · exact absurd ((ht.active_iff k).mpr ⟨hkn, hv0, h⟩) hnot
          · rw [hd, hr]
            obtain ⟨_, _, _, _, _, hwf⟩ := base_cur hb k hkn hv0
            rcases hcoh with ⟨_, _, h⟩ | ⟨h, _, _⟩
            · rw [h]; exact hwf.start_seq.symm
            · exact absurd ((ht.active_iff k).mpr ⟨hkn, hv0, h⟩) hnot
        rw [hid]
        exact hpush
    · have hv' : (ek.rti k).Valid = false := by simpa using hv
      simp only [hv', Bool.and_false, Bool.false_eq_true, ↓reduceIte]
      exact ⟨ih'.children, ih'.pinned, ih'.rtis, ih'.active, ih'.status, ih'.upper,
        heapPart_skip_pinned ih'.heap hv', ih'.bound⟩

theorem tombPart_of_eq_lt {c : Nat} {e e' : MergingIterator UK} (ht : TombPart c e)
    (hd : ∀ j, j < c → e'.deref (.pinned j) = e.deref (.pinned j))
    (hr : ∀ j, j < c → e'.rti j = e.rti j)
    (ha : e'.active_ = e.active_) : TombPart c e' :=
  { pinned_key := fun j hj hv => by
      rw [hr j hj] at hv
      exact pinnedCoherent_congr (hd j hj) (hr j hj) (ht.pinned_key j hj hv)
    active_iff := fun j => by
      rw [ha, ht.active_iff j]
      constructor
      · rintro ⟨h1, h2, h3⟩; rw [hd j h1, hr j h1]; exact ⟨h1, h2, h3⟩
      · rintro ⟨h1, h2, h3⟩; rw [hd j h1, hr j h1] at *; exact ⟨h1, h2, h3⟩
    active_sorted := by rw [ha]; exact ht.active_sorted }

theorem tombPart_extend_invalid {c : Nat} {e : MergingIterator UK} (ht : TombPart c e)
    (hv : (e.rti c).Valid = false) : TombPart (c + 1) e :=
  { pinned_key := fun j hj hvj => by
      by_cases hjc : j = c
      · subst hjc; rw [hv] at hvj; exact absurd hvj (by decide)
      · exact ht.pinned_key j (by omega) hvj
    active_iff := fun j => by
      rw [ht.active_iff j]
      constructor
      · rintro ⟨h1, h2, h3⟩; exact ⟨by omega, h2, h3⟩
      · rintro ⟨h1, h2, h3⟩
        by_cases hjc : j = c
        · subst hjc; rw [hv] at h2; exact absurd h2 (by decide)
        · exact ⟨by omega, h2, h3⟩
    active_sorted := ht.active_sorted }

theorem boundary_mono {a b : UK} (h : a ≤ b) (m ty : Nat) :
    keyLe (⟨a, m, ty⟩ : ParsedInternalKey UK) ⟨b, m, ty⟩ := by
  rcases lt_or_eq_of_le h with h1 | h1
  · exact keyLe_of_keyLt (Or.inl h1)
  · subst h1; exact keyLe_refl _

theorem mem_take_getElem {α : Type} {l : List α} {q : Nat} {x : α} (h : x ∈ l.take q) :
    ∃ i, i < q ∧ l[i]? = some x := by
  obtain ⟨i, hi⟩ := List.mem_iff_getElem?.mp h
  rw [List.getElem?_take] at hi
  split at hi
  · exact ⟨i, by assumption, hi⟩
  · simp at hi

/-- The end of one iteration of the main loop of `SeekImpl`: the child of the level, sought
before, joins the heap. -/
theorem seek_step_finish {runs : List (List (ParsedInternalKey UK))}
    {tombs : List (Option (List (RangeTombstone UK)))} {e : MergingIterator UK}
    {B target : ParsedInternalKey UK} {s lv : Nat} {st : SeekLoopState UK}
    (hinv : SeekInv runs tombs e B target s lv st) (hs : s ≤ lv) (hlv : lv < runs.length)
    (hB : keyLe B target)
    (em : MergingIterator UK) (csk' : ParsedInternalKey UK)
    (m1 : Base runs tombs em) (m2 : TombPart (lv + 1) em) (m3 : HeapPart lv (lv + 1) em)
    (m4 : LowerBound B em)
    (m6 : ∀ l, l ≠ lv → em.deref (.child l) = st.e.deref (.child l))
    (m6r : ∀ j, j ≠ lv → em.rti j = st.e.rti j)
    (m6p : ∀ j, j ≠ lv → em.deref (.pinned j) = st.e.deref (.pinned j))
    (m6a : ∀ j, j ≠ lv → (j ∈ em.active_ ↔ j ∈ st.e.active_))
    (m7 : childIdx runs em lv =
      ((runAt runs lv).takeWhile (fun k => Compare k st.current_search_key == .lt)).length)
    (m8 : keyLe st.current_search_key csk')
    (m9 : ∀ t ∈ (tombsAt tombs lv).take (tombIdx em lv),
      t.end_key.user_key ≤ st.current_search_key.user_key)
    (m10 : lv ∈ em.active_ →
      (em.rti lv).start_key.user_key ≤ st.current_search_key.user_key)
    (m12 : ∀ l r, lv + 1 ≤ l → l < runs.length → r ∈ runAt runs l → keyLe B r →
      keyLt r csk' → suppressed tombs l r) :
    SeekInv runs tombs e B target s (lv + 1)
      { e := em.AddToMinHeapOrCheckStatus (.child lv), current_search_key := csk',
        prefetched_target := [] } := by
  -- the key of the child of this level
  have hckey : cvalid em lv = true → keyLe st.current_search_key (ckey em lv) := by
    intro hv
    obtain ⟨i, _, hidx, _, hrun, _, _⟩ := base_ckey m1 lv hlv hv
    exact seek_pos_after (base_sorted m1 lv) _ i _ (by rw [← m7, hidx]) hrun
  -- the state after the child has joined the heap
  obtain ⟨e', he'⟩ : ∃ e', e' = em.AddToMinHeapOrCheckStatus (.child lv) := ⟨_, rfl⟩
  rw [← he']
  have hitems : e'.children_ = em.children_ ∧ e'.pinned_heap_item_ = em.pinned_heap_item_ ∧
      e'.range_tombstone_iters_ = em.range_tombstone_iters_ ∧ e'.active_ = em.active_ ∧
      HeapPart (lv + 1) (lv + 1) e' ∧ LowerBound B e' := by
    rw [he']
    unfold AddToMinHeapOrCheckStatus
    by_cases hv : (em.deref (.child lv)).iter.Valid = true
    · simp only [hv, ↓reduceIte]
      refine ⟨rfl, rfl, rfl, rfl, heapPart_push_child m3 hv, ?_⟩
      apply lowerBound_push m3.inv m4
      obtain ⟨_, _, _, _, _, _, hk0⟩ := base_ckey m1 lv hlv hv
      rw [hk0]
      exact keyLe_trans hB (keyLe_trans hinv.target_le (hckey hv))
    · simp only [hv, Bool.false_eq_true, ↓reduceIte]
      rw [childAt_status (m1.child_at lv hlv), considerStatus_ok]
      exact ⟨rfl, rfl, rfl, rfl, heapPart_skip_child m3 (by simpa using hv), m4⟩
  obtain ⟨h1, h2, h3, h4, h5, h6⟩ := hitems
  have hd : ∀ p, e'.deref p = em.deref p := deref_eq_of_items em e' h1 h2
  have hr : ∀ j, e'.rti j = em.rti j := rti_eq_of_iters em e' h3
  have hcv : ∀ l, cvalid e' l = cvalid em l := fun l => cvalid_congr (hd _)
  have hck : ∀ l, ckey e' l = ckey em l := fun l => ckey_congr (hd _)
  have hci : ∀ l, childIdx runs e' l = childIdx runs em l := fun l => childIdx_congr (hd _)
  have hti : ∀ j, tombIdx e' j = tombIdx em j := fun j => tombIdx_congr (hr j)
  have hcv0 : ∀ l, l ≠ lv → cvalid em l = cvalid st.e l := fun l hl => cvalid_congr (m6 l hl)
  have hck0 : ∀ l, l ≠ lv → ckey em l = ckey st.e l := fun l hl => ckey_congr (m6 l hl)
  have hci0 : ∀ l, l ≠ lv → childIdx runs em l = childIdx runs st.e l :=
    fun l hl => childIdx_congr (m6 l hl)
  have hti0 : ∀ j, j ≠ lv → tombIdx em j = tombIdx st.e j :=
    fun j hj => tombIdx_congr (m6r j hj)
  have hle : st.current_search_key.user_key ≤ csk'.user_key := keyLe_user_key m8
  have hpt_mid : ∀ j, j ≤ lv → ∀ t ∈ (tombsAt tombs j).take (tombIdx em j),
      t.end_key.user_key ≤ st.current_search_key.user_key := by
    intro j hj t ht
    by_cases hjl : j = lv
    · subst hjl; exact m9 t ht
    · rw [hti0 j hjl] at ht
      exact hinv.pt' j (by omega) t ht
  have has_mid : ∀ j, j ≤ lv → j ∈ em.active_ →
      (em.rti j).start_key.user_key ≤ st.current_search_key.user_key := by
    intro j hj hact
    by_cases hjl : j = lv
    · subst hjl; exact m10 hact
    · rw [m6r j hjl]
      exact hinv.as' j (by omega) ((m6a j hjl).mp hact)
  exact
    { base := base_of_eq m1 h1 h3 h2 (by
        rw [he']; unfold AddToMinHeapOrCheckStatus
        split
        · exact m1.status_ok
        · rw [childAt_status (m1.child_at lv hlv), considerStatus_ok]; exact m1.status_ok)
        (by
        rw [he']; unfold AddToMinHeapOrCheckStatus
        split
        · exact m1.no_upper_bound
        · rw [childAt_status (m1.child_at lv hlv), considerStatus_ok]
          exact m1.no_upper_bound)
      tomb := tombPart_of_eq m2 (fun j => hd _) hr h4
      heap := h5
      bound := h6
      no_prefetch := rfl
      child_low := fun l hl => by rw [hd, m6 l (by omega)]; exact hinv.child_low l hl
      rti_low := fun j hj => by rw [hr, m6r j (by omega)]; exact hinv.rti_low j hj
      pinned_low := fun j hj => by rw [hd, m6p j (by omega)]; exact hinv.pinned_low j hj
      target_le := keyLe_trans hinv.target_le m8
      csk_init := fun h => by omega
      pt := fun j L hjL hL hv t ht => by
        rw [hcv] at hv
        rw [hti] at ht
        rw [hck]
        by_cases hLl : L = lv
        · subst hLl
          exact le_trans (hpt_mid j hjL t ht) (keyLe_user_key (hckey hv))
        · rw [hcv0 L hLl] at hv
          rw [hck0 L hLl]
          rw [hti0 j (by omega)] at ht
          exact hinv.pt j L hjL (by omega) hv t ht
      pt' := fun j hj t ht => by
        rw [hti] at ht
        exact le_trans (hpt_mid j (by omega) t ht) hle
      as := fun j L hjL hL hv hact => by
        rw [hcv] at hv
        rw [h4] at hact
        rw [hck, hr]
        by_cases hLl : L = lv
        · subst hLl
          exact le_trans (has_mid j hjL hact) (keyLe_user_key (hckey hv))
        · rw [hcv0 L hLl] at hv
          rw [hck0 L hLl, m6r j (by omega)]
          exact hinv.as j L hjL (by omega) hv ((m6a j (by omega)).mp hact)
      as' := fun j hj hact => by
        rw [h4] at hact
        rw [hr]
        exact le_trans (has_mid j (by omega) hact) hle
      sp := fun l idx r hsl hl hidx hrun hBr => by
        rw [hci] at hidx
        by_cases hll : l = lv
        · subst hll
          rw [m7] at hidx
          have hlt := seek_pos_before _ idx r hidx hrun
          exact hinv.cc l r (le_refl _) hlv (List.getElem?_mem hrun) hBr hlt
        · rw [hci0 l hll] at hidx
          exact hinv.sp l idx r hsl (by omega) hidx hrun hBr
      rt := fun l idx r hsl hl hidx hrun => by
        rw [hci] at hidx
        by_cases hll : l = lv
        · subst hll
          rw [m7] at hidx
          exact keyLe_trans hinv.target_le (seek_pos_after (base_sorted m1 l) _ idx r hidx hrun)
        · rw [hci0 l hll] at hidx
          exact hinv.rt l idx r hsl (by omega) hidx hrun
      cc := m12
      first := fun hsl => by
        rw [hci]
        by_cases hsl' : s = lv
        · subst hsl'
          rw [m7, hinv.csk_init rfl]
        · rw [hci0 s hsl']
          exact hinv.first (by omega) }

theorem rti_default_of_slot_none (e : MergingIterator UK) (j : Nat)
    (h : e.range_tombstone_iters_[j]?.getD none = none) :
    e.rti j = default := by
  unfold rti; rw [h]; rfl

theorem rti_of_slot_some (e : MergingIterator UK) (j : Nat) (it : TruncatedRangeDelIterator UK)
    (h : e.range_tombstone_iters_[j]?.getD none = some it) :
    e.rti j = it := by
  unfold rti; rw [h]; rfl

/-- One iteration of the main loop of `SeekImpl` keeps the invariant. -/
theorem seek_step {runs : List (List (ParsedInternalKey UK))}
    {tombs : List (Option (List (RangeTombstone UK)))} {e : MergingIterator UK}
    {B target : ParsedInternalKey UK} {s lv : Nat} {st : SeekLoopState UK}
    (hinv : SeekInv runs tombs e B target s lv st) (hs : s ≤ lv) (hlv : lv < runs.length)
    (hB : keyLe B target)
    (hB' : ∀ a : UK, keyLt target ⟨a, kMaxSequenceNumber, kTypeRangeDeletion⟩ →
      keyLe B ⟨a, kMaxSequenceNumber, kTypeMaxValid⟩) :
    SeekInv runs tombs e B target s (lv + 1) (SeekImplStep target st lv) := by
  have hlvc : lv < st.e.children_.length := by rw [hinv.base.children_len]; exact hlv
  obtain ⟨hca1, hpos1⟩ := childAt_seek (hinv.base.child_at lv hlv) st.current_search_key
  obtain ⟨e1, he1⟩ : ∃ e1, e1 = st.e.updIter (.child lv)
      (fun w => w.Seek st.current_search_key) := ⟨_, rfl⟩
  have hd1lv : e1.deref (.child lv) = { st.e.deref (.child lv) with
      iter := (st.e.deref (.child lv)).iter.Seek st.current_search_key } := by
    rw [he1]; exact deref_updIter_child_self st.e lv _ hlvc
  have hd1 : ∀ p, p ≠ .child lv → e1.deref p = st.e.deref p := by
    intro p hp; rw [he1]; exact deref_updIter_child_ne st.e lv _ p hp
  have hr1 : ∀ j, e1.rti j = st.e.rti j := by intro j; rw [he1]; exact rti_updIter st.e _ _ j
  have hheap1 : e1.heap_ = st.e.heap_ := by rw [he1]; rfl
  have hact1 : e1.active_ = st.e.active_ := by rw [he1]; cases st.e; rfl
  have hrtis1 : e1.range_tombstone_iters_ = st.e.range_tombstone_iters_ := by rw [he1]; rfl
  have hbase1 : Base runs tombs e1 := by rw [he1]; exact base_updIter hinv.base lv _ hlv hca1
  have hidx1 : childIdx runs e1 lv = ((runAt runs lv).takeWhile
      (fun k => Compare k st.current_search_key == .lt)).length := by
    unfold childIdx
    rw [cpos_eq, hd1lv, hpos1]
    exact placePos_getD _ _ (takeWhile_length_le _ _)
  have hstat1 : (e1.deref (.child lv)).iter.status = Status.OK :=
    childAt_status (hbase1.child_at lv hlv)
  have hne1 : e1.range_tombstone_iters_.isEmpty = false := by
    cases hl : e1.range_tombstone_iters_ with
    | nil =>
      have := hbase1.rti_len
      rw [hl] at this
      simp at this
      omega
    | cons a t => rfl
  have htomb1 : TombPart lv e1 :=
    tombPart_of_eq hinv.tomb (fun j => hd1 _ (by simp)) hr1 hact1
  have hheapP1 : HeapPart lv lv e1 :=
    heapPart_frame_level hinv.heap hheap1 (fun l hl => hd1 _ (by simp; omega))
      (fun j _ => hd1 _ (by simp)) (fun j _ => hr1 j)
  have hlb1 : LowerBound B e1 := by
    apply lowerBound_frame hinv.bound hheap1
    intro p hp
    apply hd1
    intro hpe
    subst hpe
    have := ((heapPart_mem hinv.heap _).mp hp).1
    omega
  have hlvact : lv ∉ st.e.active_ := by
    intro h
    have := ((hinv.tomb.active_iff lv).mp h).1
    omega
  have hcc : ∀ l r, lv + 1 ≤ l → l < runs.length → r ∈ runAt runs l → keyLe B r →
      keyLt r st.current_search_key → suppressed tombs l r :=
    fun l r h1 h2 h3 h4 h5 => hinv.cc l r (by omega) h2 h3 h4 h5
  unfold SeekImplStep
  rw [← he1]
  simp only [hne1, Bool.not_false, ↓reduceIte, hstat1, Status.IsTryAgain, hinv.no_prefetch]
  cases hslot : e1.range_tombstone_iters_[lv]?.getD none with
  | none =>
    have hrd := rti_default_of_slot_none e1 lv hslot
    have hv : (e1.rti lv).Valid = false := by rw [hrd]; rfl
    have htl : tombsAt tombs lv = [] := by
      rw [← hbase1.rti_tombs lv hlv, hrd]; rfl
    simp only [hstat1, Status.IsTryAgain]
    refine seek_step_finish hinv hs hlv hB e1 st.current_search_key hbase1
      (tombPart_extend_invalid htomb1 hv) (heapPart_skip_pinned hheapP1 hv) hlb1
      (fun l hl => hd1 _ (by simpa using hl)) (fun j _ => hr1 j) (fun j _ => hd1 _ (by simp))
      (fun j _ => by rw [hact1]) hidx1 (keyLe_refl _) ?_ ?_ hcc
    · intro t ht; rw [htl] at ht; simp at ht
    · intro h; rw [hact1] at h; exact absurd h hlvact
  | some it =>
    have hit := rti_of_slot_some e1 lv it hslot
    obtain ⟨hsp, hst⟩ := tseek_pos it st.current_search_key.user_key
    have htombs : it.tombstones = tombsAt tombs lv := by rw [← hit]; exact hbase1.rti_tombs lv hlv
    rw [htombs] at hsp hst
    obtain ⟨q, hq⟩ : ∃ q, q = ((tombsAt tombs lv).takeWhile
        (fun t => compare t.end_key.user_key st.current_search_key.user_key != .gt)).length :=
      ⟨_, rfl⟩
    rw [← hq] at hsp
    have hqle : q ≤ (tombsAt tombs lv).length := by rw [hq]; exact takeWhile_length_le _ _
    obtain ⟨e2, he2⟩ : ∃ e2, e2 = e1.setRti lv (it.Seek st.current_search_key.user_key) :=
      ⟨_, rfl⟩
    have hlvr : lv < e1.range_tombstone_iters_.length := by rw [hbase1.rti_len]; exact hlv
    have hr2lv : e2.rti lv = it.Seek st.current_search_key.user_key := by
      rw [he2]; exact rti_setRti_self e1 lv _ hlvr
    have hr2 : ∀ j, j ≠ lv → e2.rti j = st.e.rti j := by
      intro j hj; rw [he2, rti_setRti_ne e1 lv j _ (Ne.symm hj)]; exact hr1 j
    have hd2 : ∀ p, e2.deref p = e1.deref p := by intro p; rw [he2]; exact deref_setRti e1 _ _ p
    have hheap2 : e2.heap_ = e1.heap_ := by rw [he2]; rfl
    have hact2 : e2.active_ = st.e.active_ := by rw [he2]; exact hact1
    have hbase2 : Base runs tombs e2 := by
      rw [he2]
      refine base_setRti hbase1 lv _ hlv (by rw [hslot]; rfl) hst ?_
      intro i hi
      rw [hsp] at hi
      obtain ⟨h1, h2⟩ := placePos_some hi
      omega
    have htidx2 : tombIdx e2 lv = q := by
      unfold tombIdx
      rw [hr2lv, hsp, hst]
      exact placePos_getD _ _ hqle
    have hm9 : ∀ t ∈ (tombsAt tombs lv).take q,
        t.end_key.user_key ≤ st.current_search_key.user_key := by
      intro t ht
      obtain ⟨i, hi, hti⟩ := mem_take_getElem ht
      rw [hq] at hi
      have := takeWhile_before _ _ i t hi hti
      exact (compare_ne_gt_iff_le _ _).mp this
    have htomb2 : TombPart lv e2 :=
      tombPart_of_eq_lt htomb1 (fun j _ => hd2 _)
        (fun j hj => by rw [hr2 j (by omega), hr1]) (by rw [hact2, hact1])
    have hheapP2 : HeapPart lv lv e2 :=
      heapPart_frame_level hheapP1 hheap2 (fun l _ => hd2 _) (fun j _ => hd2 _)
        (fun j hj => by rw [hr2 j (by omega), hr1])
    have hlb2 : LowerBound B e2 := lowerBound_frame hlb1 hheap2 (fun p _ => hd2 p)
    have hidx2 : childIdx runs e2 lv = ((runAt runs lv).takeWhile
        (fun k => Compare k st.current_search_key == .lt)).length := by
      rw [childIdx_congr (hd2 _)]; exact hidx1
    have hstat2 : (e2.deref (.child lv)).iter.status = Status.OK := by rw [hd2]; exact hstat1
    simp only []
    rw [← he2]
    by_cases hv2 : (e2.rti lv).Valid = true
    · simp only [hv2, ↓reduceIte]
      obtain ⟨start, hstart⟩ : ∃ start, start =
          (Compare (e2.rti lv).start_key target == .gt) := ⟨_, rfl⟩
      rw [← hstart, insert_eq e2 lv start false hbase2.no_upper_bound]
      simp only [Bool.false_eq_true, ↓reduceIte]
      obtain ⟨q2, hq2, _, hq2lt, hcur2, hwf2⟩ := base_cur hbase2 lv hlv hv2
      have hq2q : q2 = q := by
        rw [hr2lv, hsp] at hq2
        exact (placePos_some hq2).1
      subst hq2q
      have hend : st.current_search_key.user_key < (e2.rti lv).end_key.user_key := by
        have h1 : (compare (e2.rti lv).cur.end_key.user_key
            st.current_search_key.user_key != .gt) = false :=
          takeWhile_at (fun t => compare t.end_key.user_key
            st.current_search_key.user_key != .gt) (tombsAt tombs lv) _
            (by rw [← hq]; exact hcur2)
        by_contra hcon
        have h2 : (compare (e2.rti lv).cur.end_key.user_key
            st.current_search_key.user_key != .gt) = true :=
          (compare_ne_gt_iff_le _ _).mpr (not_lt.mp hcon)
        rw [h1] at h2
        exact absurd h2 (by decide)
      obtain ⟨es, hes⟩ : ∃ es, es = stampPinned e2 lv start := ⟨_, rfl⟩
      rw [← hes]
      have hlvp : lv < e2.pinned_heap_item_.length := by rw [hbase2.pinned_len]; exact hlv
      have hlvact2 : lv ∉ e2.active_ := by rw [hact2]; exact hlvact
      have hbases : Base runs tombs es := by rw [hes]; exact base_stamp hbase2 lv start hlv
      have htombs : TombPart (lv + 1) es := by
        rw [hes]
        exact tombPart_stamp hbase2 htomb2 lv start hlv hv2 (fun _ => hlvact2) (lv + 1)
          (by omega) (by omega) (fun i h1 h2 => by omega)
      have hrs : ∀ j, es.rti j = e2.rti j := by intro j; rw [hes]; exact stamp_rti e2 lv start j
      have hds : ∀ p, p ≠ .pinned lv → es.deref p = e2.deref p := by
        intro p hp; rw [hes]; exact stamp_deref_ne e2 lv start p hp
      have hheapPs : HeapPart lv lv es :=
        heapPart_frame_level hheapP2 (by rw [hes]; exact stamp_heap e2 lv start)
          (fun l _ => hds _ (by simp)) (fun j hj => hds _ (by simp; omega)) (fun j _ => hrs j)
      have hlbs : LowerBound B es := by
        apply lowerBound_frame hlb2 (by rw [hes]; exact stamp_heap e2 lv start)
        intro p hp
        apply hds
        intro hpe
        subst hpe
        have := ((heapPart_mem hheapP2 _).mp hp).1
        omega
      have hvs : (es.rti lv).Valid = true := by rw [hrs]; exact hv2
      have hkeys : keyLe B (hkey es (.pinned lv)) := by
        rw [hes, stamp_hkey_self e2 lv start hlvp, (hbase2.pinned_at lv hlv).2]
        have htcsk : target.user_key ≤ st.current_search_key.user_key :=
          keyLe_user_key hinv.target_le
        cases start
        · simp only [Bool.false_eq_true, ↓reduceIte]
          have h5 : (e2.rti lv).end_key.sequence = kMaxSequenceNumber := hwf2.end_seq
          rw [h5]
          exact keyLe_of_keyLt (Or.inl (lt_of_le_of_lt (keyLe_user_key hB)
            (lt_of_le_of_lt htcsk hend)))
        · simp only [↓reduceIte]
          have h5 : (e2.rti lv).start_key.sequence = kMaxSequenceNumber := hwf2.start_seq
          rw [h5]
          have h6 : keyLt target (e2.rti lv).start_key :=
            (cmp_gt_iff_keyLt _ _).mp hstart.symm
          have h7 : (e2.rti lv).start_key = ⟨(e2.rti lv).start_key.user_key,
              kMaxSequenceNumber, kTypeRangeDeletion⟩ := by
            have h8 : (e2.rti lv).start_key.type = kTypeRangeDeletion := hwf2.start_type
            rw [← h5, ← h8]
          rw [h7] at h6
          exact hB' _ h6
      obtain ⟨e3, he3⟩ : ∃ e3, e3 = es.minPush (.pinned lv) := ⟨_, rfl⟩
      rw [← he3]
      have hd3 : ∀ p, e3.deref p = es.deref p := by intro p; rw [he3]; exact deref_minPush es _ p
      have hr3 : ∀ j, e3.rti j = es.rti j := by intro j; rw [he3]; rfl
      have hbase3 : Base runs tombs e3 := by rw [he3]; exact base_minPush hbases _
      have htomb3 : TombPart (lv + 1) e3 := by
        rw [he3]; exact tombPart_of_eq htombs (fun j => deref_minPush es _ _) (fun j => rfl) rfl
      have hheapP3 : HeapPart lv (lv + 1) e3 := by rw [he3]; exact heapPart_push_pinned hheapPs hvs
      have hlb3 : LowerBound B e3 := by
        rw [he3]; exact lowerBound_push hheapPs.inv hlbs _ hkeys
      have hact3 : e3.active_ = if start then st.e.active_ else setInsert lv st.e.active_ := by
        rw [he3]
        show es.active_ = _
        rw [hes, stamp_active, hact2]
      have hr3lv : e3.rti lv = e2.rti lv := by rw [hr3, hrs]
      have hm6 : ∀ l, l ≠ lv → e3.deref (.child l) = st.e.deref (.child l) := by
        intro l hl
        rw [hd3, hds _ (by simp), hd2, hd1 _ (by simpa using hl)]
      have hm6r : ∀ j, j ≠ lv → e3.rti j = st.e.rti j := by
        intro j hj; rw [hr3, hrs, hr2 j hj]
      have hm6p : ∀ j, j ≠ lv → e3.deref (.pinned j) = st.e.deref (.pinned j) := by
        intro j hj
        rw [hd3, hds _ (by simpa using hj), hd2, hd1 _ (by simp)]
      have hm6a : ∀ j, j ≠ lv → (j ∈ e3.active_ ↔ j ∈ st.e.active_) := by
        intro j hj
        rw [hact3]
        cases start
        · simp [mem_setInsert, hj]
        · simp
      have hm7 : childIdx runs e3 lv = ((runAt runs lv).takeWhile
          (fun k => Compare k st.current_search_key == .lt)).length := by
        rw [childIdx_congr (show e3.deref (.child lv) = e2.deref (.child lv) from by
          rw [hd3, hds _ (by simp)])]
        exact hidx2
      have hm9' : ∀ t ∈ (tombsAt tombs lv).take (tombIdx e3 lv),
          t.end_key.user_key ≤ st.current_search_key.user_key := by
        rw [tombIdx_congr hr3lv, htidx2]; exact hm9
      have hm10 : lv ∈ e3.active_ →
          (e3.rti lv).start_key.user_key ≤ st.current_search_key.user_key := by
        intro hact
        rw [hact3] at hact
        rw [hr3lv]
        cases start
        · have h6 : ¬ keyLt target (e2.rti lv).start_key := by
            intro hcon
            have := (cmp_gt_iff_keyLt _ _).mpr hcon
            rw [← hstart] at this
            exact absurd this (by decide)
          have h7 := keyLe_user_key (not_keyLt_iff.mp h6)
          exact le_trans h7 (keyLe_user_key hinv.target_le)
        · simp only [↓reduceIte] at hact
          exact absurd hact hlvact
      have hstat3 : (e3.deref (.child lv)).iter.status = Status.OK := by
        rw [hd3, hds _ (by simp)]; exact hstat2
      by_cases hcond : (compare (e3.rti lv).start_key.user_key
          st.current_search_key.user_key != .gt) = true
      · simp only [hcond, ↓reduceIte, hstat3, Status.IsTryAgain]
        have hstartle : (e2.rti lv).start_key.user_key ≤ st.current_search_key.user_key := by
          rw [← hr3lv]; exact (compare_ne_gt_iff_le _ _).mp hcond
        refine seek_step_finish hinv hs hlv hB e3 _ hbase3 htomb3 hheapP3 hlb3 hm6 hm6r hm6p
          hm6a hm7 ?_ hm9' hm10 ?_
        · rw [hr3lv]
          exact keyLe_of_keyLt (Or.inl hend)
        · intro l r h1 h2 h3 h4 h5
          by_cases hlt : keyLt r st.current_search_key
          · exact hcc l r h1 h2 h3 h4 hlt
          · have hge := keyLe_user_key (not_keyLt_iff.mp hlt)
            have hrl : runAt runs l ∈ runs := by
              unfold runAt
              rw [List.getElem?_eq_getElem h2]
              simp
            have hseq := hbase3.wf.seq_lt _ hrl r h3
            rw [hr3lv] at h5
            have hlt2 := keyLt_boundary hseq _ _ h5
            left
            exact ⟨lv, by omega, (e2.rti lv).cur, List.getElem?_mem hcur2,
              le_trans hstartle hge, hlt2⟩
      · simp only [hcond, Bool.false_eq_true, ↓reduceIte, hstat3, Status.IsTryAgain]
        exact seek_step_finish hinv hs hlv hB e3 _ hbase3 htomb3 hheapP3 hlb3 hm6 hm6r hm6p
          hm6a hm7 (keyLe_refl _) hm9' hm10 hcc
    · have hv2' : (e2.rti lv).Valid = false := by simpa using hv2
      simp only [hv2', Bool.false_eq_true, ↓reduceIte, hstat2, Status.IsTryAgain]
      refine seek_step_finish hinv hs hlv hB e2 st.current_search_key hbase2
        (tombPart_extend_invalid htomb2 hv2') (heapPart_skip_pinned hheapP2 hv2') hlb2
        (fun l hl => by rw [hd2]; exact hd1 _ (by simpa using hl)) hr2
        (fun j _ => by rw [hd2]; exact hd1 _ (by simp))
        (fun j _ => by rw [hact2]) hidx2 (keyLe_refl _) ?_ ?_ hcc
      · rw [htidx2]; exact hm9
      · intro h; rw [hact2] at h; exact absurd h hlvact

theorem seek_loop {runs : List (List (ParsedInternalKey UK))}
    {tombs : List (Option (List (RangeTombstone UK)))} {e : MergingIterator UK}
    {B target : ParsedInternalKey UK} {s : Nat}
    (hB : keyLe B target)
    (hB' : ∀ a : UK, keyLt target ⟨a, kMaxSequenceNumber, kTypeRangeDeletion⟩ →
      keyLe B ⟨a, kMaxSequenceNumber, kTypeMaxValid⟩) :
    ∀ (m lv : Nat) (st : SeekLoopState UK), lv + m = runs.length → s ≤ lv →
      SeekInv runs tombs e B target s lv st →
      SeekInv runs tombs e B target s runs.length
        ((List.range' lv m).foldl (SeekImplStep target) st) := by
  intro m
  induction m with
  | zero =>
    intro lv st hlen _ hinv
    simp only [List.range'_zero, List.foldl_nil]
    have : lv = runs.length := by omega
    rw [← this]; exact hinv
  | succ m ih =>
    intro lv st hlen hs hinv
    rw [List.range'_succ, List.foldl_cons]
    exact ih (lv + 1) _ (by omega) (by omega) (seek_step hinv hs (by omega) hB hB')

theorem tombPart_filter {runs : List (List (ParsedInternalKey UK))}
    {e e' : MergingIterator UK} {s : Nat} (hs : s ≤ runs.length)
    (ht : TombPart runs.length e)
    (hd : ∀ p, e'.deref p = e.deref p) (hr : ∀ j, e'.rti j = e.rti j)
    (ha : e'.active_ = e.active_.filter (fun l => l < s)) : TombPart s e' :=
  { pinned_key := fun j hj hv => by
      rw [hr] at hv
      exact pinnedCoherent_congr (hd _) (hr j) (ht.pinned_key j (by omega) hv)
    active_iff := fun j => by
      rw [ha, List.mem_filter, ht.active_iff j, hd, hr]
      simp only [decide_eq_true_eq]
      constructor
      · rintro ⟨⟨_, h2, h3⟩, h4⟩; exact ⟨h4, h2, h3⟩
      · rintro ⟨h1, h2, h3⟩; exact ⟨⟨by omega, h2, h3⟩, h1⟩
    active_sorted := by rw [ha]; exact ht.active_sorted.filter _ }

/-- The effect of `SeekImpl(target, s)` in a state of a forward scan. `B` is a key at or
before `target` such that every entry put back into the heap is at or after `B` and every
record of a level from `s` on that lies between `B` and `target` is deleted. -/
theorem seekImpl_spec {runs : List (List (ParsedInternalKey UK))}
    {tombs : List (Option (List (RangeTombstone UK)))} {e : MergingIterator UK}
    (hs : Struct runs tombs e) {s : Nat} (hsn : s < runs.length)
    (target B : ParsedInternalKey UK)
    (hpt : ∀ j L, j ≤ L → L < s → cvalid e L = true →
      ∀ t ∈ (tombsAt tombs j).take (tombIdx e j), t.end_key.user_key ≤ (ckey e L).user_key)
    (has : ∀ j L, j ≤ L → L < s → cvalid e L = true → j ∈ e.active_ →
      (e.rti j).start_key.user_key ≤ (ckey e L).user_key)
    (hT1 : ∀ j, j < s → ∀ t ∈ (tombsAt tombs j).take (tombIdx e j),
      t.end_key.user_key ≤ target.user_key)
    (hT2 : ∀ j, j < s → j ∈ e.active_ → (e.rti j).start_key.user_key ≤ target.user_key)
    (hB1 : keyLe B target)
    (hB1' : ∀ a : UK, keyLt target ⟨a, kMaxSequenceNumber, kTypeRangeDeletion⟩ →
      keyLe B ⟨a, kMaxSequenceNumber, kTypeMaxValid⟩)
    (hB2 : ∀ L, L < s → cvalid e L = true → keyLe B (ckey e L))
    (hB3 : ∀ j, j < s → (e.rti j).Valid = true → keyLe B (hkey e (.pinned j)))
    (hB5 : ∀ l r, s ≤ l → l < runs.length → r ∈ runAt runs l → keyLe B r → keyLt r target →
      suppressed tombs l r) :
    Struct runs tombs (e.SeekImpl target s) ∧
      PassedTombs runs tombs (e.SeekImpl target s) ∧
      ActiveStarted runs (e.SeekImpl target s) ∧
      LowerBound B (e.SeekImpl target s) ∧
      (∀ l, l < s → (e.SeekImpl target s).deref (.child l) = e.deref (.child l)) ∧
      (∀ j, j < s → (e.SeekImpl target s).rti j = e.rti j) ∧
      (∀ j, j < s → (e.SeekImpl target s).deref (.pinned j) = e.deref (.pinned j)) ∧
      (∀ l idx r, s ≤ l → l < runs.length → idx < childIdx runs (e.SeekImpl target s) l →
        (runAt runs l)[idx]? = some r → keyLe B r → suppressed tombs l r) ∧
      (∀ l idx r, s ≤ l → l < runs.length → childIdx runs (e.SeekImpl target s) l ≤ idx →
        (runAt runs l)[idx]? = some r → keyLe target r) ∧
      childIdx runs (e.SeekImpl target s) s =
        ((runAt runs s).takeWhile (fun k => Compare k target == .lt)).length := by
  have hne : e.range_tombstone_iters_.isEmpty = false := by
    cases hl : e.range_tombstone_iters_ with
    | nil =>
      have := hs.base.rti_len
      rw [hl] at this
      simp at this
      omega
    | cons a t => rfl
  have h1 := refill_children (B := B) hs.base s (by omega) hB2 s (le_refl s)
  obtain ⟨e1, he1⟩ : ∃ e1, e1 = (List.range s).foldl
      (fun (e : MergingIterator UK) level => e.AddToMinHeapOrCheckStatus (.child level))
      (e.ClearHeaps false) := ⟨_, rfl⟩
  rw [← he1] at h1
  have h2 := refill_pinned hs.base hs.tomb s (by omega) hB3 h1 s (le_refl s)
  obtain ⟨e1a, he1a⟩ : ∃ e1a, e1a = (List.range s).foldl
      (fun (e : MergingIterator UK) level =>
        if (e.range_tombstone_iters_[level]?.getD none).isSome && (e.rti level).Valid then
          if e.active_.contains level then e.minPush (.pinned level)
          else e.InsertRangeTombstoneToMinHeap level true false
        else e) e1 := ⟨_, rfl⟩
  rw [← he1a] at h2
  have hne1 : e1.range_tombstone_iters_.isEmpty = false := by rw [h1.rtis]; exact hne
  obtain ⟨af, haf⟩ : ∃ af, af = e1a.active_.filter (fun l => l < s) := ⟨_, rfl⟩
  obtain ⟨e3, he3⟩ : ∃ e3 : MergingIterator UK,
      e3 = { e1a with active_ := af, status_ := Status.OK } := ⟨_, rfl⟩
  have hd3 : ∀ p, e3.deref p = e.deref p := by
    intro p
    rw [he3]
    exact deref_eq_of_items e _ h2.children h2.pinned p
  have hr3 : ∀ j, e3.rti j = e.rti j := by
    intro j
    rw [he3]
    exact rti_eq_of_iters e _ h2.rtis j
  have hact3 : e3.active_ = e.active_.filter (fun l => l < s) := by
    rw [he3]
    show af = _
    rw [haf, h2.active]
  have hheap3 : e3.heap_ = e1a.heap_ := by rw [he3]
  have hbase3 : Base runs tombs e3 := by
    rw [he3]
    exact base_of_eq hs.base h2.children h2.rtis h2.pinned rfl h2.upper
  have hinv0 : SeekInv runs tombs e B target s s { e := e3, current_search_key := target } :=
    { base := hbase3
      tomb := tombPart_filter (by omega) hs.tomb hd3 hr3 hact3
      heap := heapPart_frame_level h2.heap hheap3
        (fun l _ => by rw [hd3]; exact (deref_eq_of_items e _ h2.children h2.pinned _).symm)
        (fun l _ => by rw [hd3]; exact (deref_eq_of_items e _ h2.children h2.pinned _).symm)
        (fun j _ => by rw [hr3]; exact (rti_eq_of_iters e _ h2.rtis j).symm)
      bound := lowerBound_frame h2.bound hheap3
        (fun p _ => by rw [hd3]; exact (deref_eq_of_items e _ h2.children h2.pinned _).symm)
      no_prefetch := rfl
      child_low := fun l _ => hd3 _
      rti_low := fun j _ => hr3 j
      pinned_low := fun j _ => hd3 _
      target_le := keyLe_refl _
      csk_init := fun _ => rfl
      pt := fun j L hjL hL hv t ht => by
        rw [cvalid_congr (hd3 _)] at hv
        rw [tombIdx_congr (hr3 j)] at ht
        rw [ckey_congr (hd3 _)]
        exact hpt j L hjL hL hv t ht
      pt' := fun j hj t ht => by
        rw [tombIdx_congr (hr3 j)] at ht
        exact hT1 j hj t ht
      as := fun j L hjL hL hv hact => by
        rw [cvalid_congr (hd3 _)] at hv
        rw [hact3, List.mem_filter] at hact
        rw [ckey_congr (hd3 _), hr3]
        exact has j L hjL hL hv hact.1
      as' := fun j hj hact => by
        rw [hact3, List.mem_filter] at hact
        rw [hr3]
        exact hT2 j hj hact.1
      sp := fun l idx r h1 h2 => by omega
      rt := fun l idx r h1 h2 => by omega
      cc := fun l r h1 h2 h3 h4 h5 => hB5 l r h1 h2 h3 h4 h5
      first := fun h => by omega }
  have hfin := seek_loop hB1 hB1' (runs.length - s) s _ (by omega) (le_refl s) hinv0
  have hres : e.SeekImpl target s =
      ((List.range' s (runs.length - s)).foldl (SeekImplStep target)
        { e := e3, current_search_key := target }).e := by
    unfold SeekImpl
    simp only []
    rw [← he1]
    simp only [hne1, Bool.not_false, ↓reduceIte]
    rw [← he1a, ← haf, ← he3]
    have hlen : e1a.children_.length = runs.length := by
      rw [h2.children]; exact hs.base.children_len
    rw [hlen]
    have hne3 : (((List.range' s (runs.length - s)).foldl (SeekImplStep target)
        { e := e3, current_search_key := target }).e).range_tombstone_iters_.isEmpty = false := by
      cases hl : (((List.range' s (runs.length - s)).foldl (SeekImplStep target)
        { e := e3, current_search_key := target }).e).range_tombstone_iters_ with
      | nil =>
        have := hfin.base.rti_len
        rw [hl] at this
        simp at this
        omega
      | cons a t => rfl
    simp only [hne3, Bool.false_eq_true, ↓reduceIte, hfin.no_prefetch, List.foldl_nil]
  rw [hres]
  obtain ⟨stf, hstf⟩ : ∃ stf, stf = (List.range' s (runs.length - s)).foldl
      (SeekImplStep target) { e := e3, current_search_key := target } := ⟨_, rfl⟩
  rw [← hstf] at hfin ⊢
  refine ⟨⟨hfin.base, hfin.tomb, hfin.heap⟩, ?_, ?_, hfin.bound, hfin.child_low, hfin.rti_low,
    hfin.pinned_low, hfin.sp, hfin.rt, hfin.first hsn⟩
  · intro j L hjL hL hv t ht
    exact hfin.pt j L hjL hL hv t ht
  · intro j L hjL hL hv hact
    exact hfin.as j L hjL hL hv hact

theorem tau_le {runs : List (List (ParsedInternalKey UK))}
    {tombs : List (Option (List (RangeTombstone UK)))} {e : MergingIterator UK}
    (hb : Base runs tombs e) (j : Nat) (hj : j < runs.length) :
    tau e j ≤ 2 * (tombsAt tombs j).length := by
  unfold tau tombIdx
  by_cases hv : (e.rti j).Valid = true
  · obtain ⟨q, hq, _, hlt, _, _⟩ := base_cur hb j hj hv
    rw [hq]
    simp only [Option.getD_some]
    split <;> omega
  · have hpos : (e.rti j).pos = none := by
      cases hp : (e.rti j).pos with
      | none => rfl
      | some q => exact absurd ((tvalid_iff _).mpr ⟨q, hp⟩) hv
    rw [hpos, hb.rti_tombs j hj]
    simp [hv]

theorem digit_lt {runs : List (List (ParsedInternalKey UK))}
    {tombs : List (Option (List (RangeTombstone UK)))} {e : MergingIterator UK}
    (hb : Base runs tombs e) (l : Nat) (hl : l < runs.length) :
    digit runs tombs e l < digitBase runs tombs l := by
  unfold digit digitBase
  have h1 := childIdx_le hb l hl
  have h2 := tau_le hb l hl
  calc childIdx runs e l * (2 * (tombsAt tombs l).length + 1) + tau e l
      ≤ (runAt runs l).length * (2 * (tombsAt tombs l).length + 1) + tau e l :=
        Nat.add_le_add_right (Nat.mul_le_mul_right _ h1) _
    _ < (runAt runs l).length * (2 * (tombsAt tombs l).length + 1) +
          (2 * (tombsAt tombs l).length + 1) := by omega
    _ = ((runAt runs l).length + 1) * (2 * (tombsAt tombs l).length + 1) := by ring

theorem rankUpTo_lt {runs : List (List (ParsedInternalKey UK))}
    {tombs : List (Option (List (RangeTombstone UK)))} {e : MergingIterator UK}
    (hb : Base runs tombs e) : ∀ k, k ≤ runs.length →
      rankUpTo runs tombs e k < rankBound runs tombs k := by
  intro k
  induction k with
  | zero => intro _; simp [rankUpTo, rankBound]
  | succ k ih =>
    intro hk
    have h1 := ih (by omega)
    have h2 := digit_lt hb k (by omega)
    unfold rankUpTo rankBound
    calc rankUpTo runs tombs e k * digitBase runs tombs k + digit runs tombs e k
        < rankUpTo runs tombs e k * digitBase runs tombs k + digitBase runs tombs k := by omega
      _ = (rankUpTo runs tombs e k + 1) * digitBase runs tombs k := by ring
      _ ≤ rankBound runs tombs k * digitBase runs tombs k := Nat.mul_le_mul_right _ h1

theorem rank_lt_bound {runs : List (List (ParsedInternalKey UK))}
    {tombs : List (Option (List (RangeTombstone UK)))} {e : MergingIterator UK}
    (hb : Base runs tombs e) : rank runs tombs e < rankBound runs tombs runs.length :=
  rankUpTo_lt hb runs.length (le_refl _)

theorem rankUpTo_congr {runs : List (List (ParsedInternalKey UK))}
    {tombs : List (Option (List (RangeTombstone UK)))} {e e' : MergingIterator UK} :
    ∀ k, (∀ l, l < k → childIdx runs e' l = childIdx runs e l ∧ tau e' l = tau e l) →
      rankUpTo runs tombs e' k = rankUpTo runs tombs e k := by
  intro k
  induction k with
  | zero => intro _; rfl
  | succ k ih =>
    intro h
    unfold rankUpTo digit
    rw [ih (fun l hl => h l (by omega)), (h k (by omega)).1, (h k (by omega)).2]

/-- Once ahead at a level, ahead for good. -/
theorem rankUpTo_lt_of_lt {runs : List (List (ParsedInternalKey UK))}
    {tombs : List (Option (List (RangeTombstone UK)))} {e : MergingIterator UK}
    (e' : MergingIterator UK) (hb : Base runs tombs e) :
    ∀ m k, k + m ≤ runs.length → rankUpTo runs tombs e k < rankUpTo runs tombs e' k →
      rankUpTo runs tombs e (k + m) < rankUpTo runs tombs e' (k + m) := by
  intro m
  induction m with
  | zero => intro k _ h; exact h
  | succ m ih =>
    intro k hk h
    have h1 := ih k (by omega) h
    have h2 := digit_lt hb (k + m) (by omega)
    show rankUpTo runs tombs e (k + m + 1) < rankUpTo runs tombs e' (k + m + 1)
    unfold rankUpTo
    calc rankUpTo runs tombs e (k + m) * digitBase runs tombs (k + m) +
          digit runs tombs e (k + m)
        < rankUpTo runs tombs e (k + m) * digitBase runs tombs (k + m) +
          digitBase runs tombs (k + m) := by omega
      _ = (rankUpTo runs tombs e (k + m) + 1) * digitBase runs tombs (k + m) := by ring
      _ ≤ rankUpTo runs tombs e' (k + m) * digitBase runs tombs (k + m) :=
          Nat.mul_le_mul_right _ h1
      _ ≤ rankUpTo runs tombs e' (k + m) * digitBase runs tombs (k + m) +
          digit runs tombs e' (k + m) := Nat.le_add_right _ _

theorem rank_lt_of_lexLt {runs : List (List (ParsedInternalKey UK))}
    {tombs : List (Option (List (RangeTombstone UK)))} {e e' : MergingIterator UK}
    (hb : Base runs tombs e) (hb' : Base runs tombs e') (h : LexLt runs e e') :
    rank runs tombs e < rank runs tombs e' := by
  obtain ⟨l, hl, hlow, hat⟩ := h
  have h1 : rankUpTo runs tombs e' l = rankUpTo runs tombs e l := rankUpTo_congr l hlow
  have h2 : digit runs tombs e l < digit runs tombs e' l := by
    unfold digit
    rcases hat with hlt | ⟨heq, hlt⟩
    · have ht := tau_le hb l hl
      calc childIdx runs e l * (2 * (tombsAt tombs l).length + 1) + tau e l
          < childIdx runs e l * (2 * (tombsAt tombs l).length + 1) +
            (2 * (tombsAt tombs l).length + 1) := by omega
        _ = (childIdx runs e l + 1) * (2 * (tombsAt tombs l).length + 1) := by ring
        _ ≤ childIdx runs e' l * (2 * (tombsAt tombs l).length + 1) :=
            Nat.mul_le_mul_right _ hlt
        _ ≤ childIdx runs e' l * (2 * (tombsAt tombs l).length + 1) + tau e' l :=
            Nat.le_add_right _ _
    · rw [heq]; omega
  have h3 : rankUpTo runs tombs e (l + 1) < rankUpTo runs tombs e' (l + 1) := by
    unfold rankUpTo
    rw [h1]; omega
  have h4 := rankUpTo_lt_of_lt e' hb (runs.length - (l + 1)) (l + 1) (by omega) h3
  have h5 : l + 1 + (runs.length - (l + 1)) = runs.length := by omega
  rw [h5] at h4
  exact h4

theorem visibleOf_drop_eq (tombs : List (Option (List (RangeTombstone UK)))) (l : Nat)
    (r : List (ParsedInternalKey UK)) :
    ∀ (d a : Nat), (∀ idx x, a ≤ idx → idx < a + d → r[idx]? = some x → suppressed tombs l x) →
      visibleOf tombs l (r.drop a) = visibleOf tombs l (r.drop (a + d)) := by
  intro d
  induction d with
  | zero => intro a _; rfl
  | succ d ih =>
    intro a h
    by_cases ha : a < r.length
    · rw [List.drop_eq_getElem_cons ha]
      have hs : suppressed tombs l r[a] :=
        h a _ (le_refl _) (by omega) (List.getElem?_eq_getElem ha)
      have : visibleOf tombs l (r[a] :: r.drop (a + 1)) = visibleOf tombs l (r.drop (a + 1)) := by
        unfold visibleOf
        rw [List.filter_cons]
        simp [hs]
      rw [this]
      have := ih (a + 1) (fun idx x h1 h2 h3 => h idx x (by omega) (by omega) h3)
      rw [this]
      congr 2
      omega
    · rw [List.drop_eq_nil_of_le (by omega), List.drop_eq_nil_of_le (by omega)]

theorem visibleOf_drop_eq_of_between (tombs : List (Option (List (RangeTombstone UK))))
    (l : Nat) (r : List (ParsedInternalKey UK)) (a b : Nat)
    (h : ∀ idx x, min a b ≤ idx → idx < max a b → r[idx]? = some x → suppressed tombs l x) :
    visibleOf tombs l (r.drop a) = visibleOf tombs l (r.drop b) := by
  rcases Nat.le_total a b with hab | hab
  · have := visibleOf_drop_eq tombs l r (b - a) a (fun idx x h1 h2 h3 =>
      h idx x (by rw [Nat.min_eq_left hab]; exact h1) (by rw [Nat.max_eq_right hab]; omega) h3)
    rw [this]; congr 2; omega
  · have := visibleOf_drop_eq tombs l r (a - b) b (fun idx x h1 h2 h3 =>
      h idx x (by rw [Nat.min_eq_right hab]; exact h1) (by rw [Nat.max_eq_left hab]; omega) h3)
    rw [this]; congr 2; omega

theorem visRem_eq_of_levels {runs : List (List (ParsedInternalKey UK))}
    {tombs : List (Option (List (RangeTombstone UK)))} {e e' : MergingIterator UK}
    (h : ∀ l, l < runs.length →
      visibleOf tombs l ((runAt runs l).drop (childIdx runs e' l)) =
        visibleOf tombs l ((runAt runs l).drop (childIdx runs e l))) :
    visRem runs tombs e' = visRem runs tombs e := by
  unfold visRem
  apply List.flatMap_congr
  intro l hl
  exact h l (List.mem_range.mp hl)

theorem dir_considerStatus (e : MergingIterator UK) (s : Status) :
    (e.considerStatus s).direction_ = e.direction_ := by
  unfold considerStatus; split <;> rfl

theorem dir_addToMin (e : MergingIterator UK) (p : HeapItemPtr) :
    (e.AddToMinHeapOrCheckStatus p).direction_ = e.direction_ := by
  unfold AddToMinHeapOrCheckStatus
  split
  · rfl
  · exact dir_considerStatus e _

theorem dir_store (e : MergingIterator UK) (p : HeapItemPtr) (item : HeapItem UK) :
    (e.store p item).direction_ = e.direction_ := by
  cases p <;> rfl

theorem dir_updIter (e : MergingIterator UK) (p : HeapItemPtr)
    (f : IteratorWrapper UK → IteratorWrapper UK) :
    (e.updIter p f).direction_ = e.direction_ := dir_store e p _

theorem dir_insert (e : MergingIterator UK) (j : Nat) (a b : Bool) :
    (e.InsertRangeTombstoneToMinHeap j a b).direction_ = e.direction_ := by
  unfold InsertRangeTombstoneToMinHeap
  simp only []
  split
  · split <;> rfl
  · split <;> split <;> first | rfl | exact dir_store e _ _

theorem dir_seekStep (pik : ParsedInternalKey UK) (st : SeekLoopState UK) (lv : Nat) :
    (SeekImplStep pik st lv).e.direction_ = st.e.direction_ := by
  unfold SeekImplStep
  simp only []
  have h1 : (st.e.updIter (.child lv) (fun w => w.Seek st.current_search_key)).direction_ =
      st.e.direction_ := dir_updIter _ _ _
  repeat' split
  all_goals first
    | exact h1
    | (simp only [dir_addToMin, dir_insert]; exact h1)
    | (simp only [dir_addToMin, dir_insert, setRti]; exact h1)

theorem dir_foldl {α : Type} (f : MergingIterator UK → α → MergingIterator UK)
    (hf : ∀ e a, (f e a).direction_ = e.direction_) (l : List α) (e : MergingIterator UK) :
    (l.foldl f e).direction_ = e.direction_ := by
  induction l generalizing e with
  | nil => rfl
  | cons a t ih => rw [List.foldl_cons, ih, hf]

theorem dir_foldl_step (pik : ParsedInternalKey UK) (l : List Nat) (st : SeekLoopState UK) :
    (l.foldl (SeekImplStep pik) st).e.direction_ = st.e.direction_ := by
  induction l generalizing st with
  | nil => rfl
  | cons a t ih => rw [List.foldl_cons, ih, dir_seekStep]

theorem dir_seekTail (target : ParsedInternalKey UK) (st : SeekLoopState UK) :
    (if st.e.range_tombstone_iters_.isEmpty then
      (List.range st.e.children_.length).foldl
        (fun (e : MergingIterator UK) level =>
          if (e.deref (.child level)).iter.status.IsTryAgain then
            (e.updIter (.child level) (fun w => w.Seek target)).AddToMinHeapOrCheckStatus
              (.child level)
          else e) st.e
    else
      st.prefetched_target.foldl
        (fun (e : MergingIterator UK) prefetch =>
          (e.updIter (.child prefetch.1) (fun w => w.Seek prefetch.2)).AddToMinHeapOrCheckStatus
            (.child prefetch.1)) st.e).direction_ = st.e.direction_ := by
  split
  · exact dir_foldl _ (fun e a => by
      split
      · rw [dir_addToMin, dir_updIter]
      · rfl) _ _
  · exact dir_foldl _ (fun e a => by rw [dir_addToMin, dir_updIter]) _ _

theorem dir_seekImpl (e : MergingIterator UK) (target : ParsedInternalKey UK) (s : Nat) :
    (e.SeekImpl target s).direction_ = e.direction_ := by
  unfold SeekImpl
  simp only []
  rw [dir_seekTail, dir_foldl_step]
  show (if _ then _ else _ : MergingIterator UK).direction_ = _
  split
  · show (((List.range s).foldl _ _ : MergingIterator UK)).direction_ = _
    rw [dir_foldl _ (fun e a => by
      split
      · split
        · rfl
        · exact dir_insert e _ _ _
      · rfl)]
    rw [dir_foldl _ (fun e a => dir_addToMin e _)]
    rfl
  · rw [dir_foldl _ (fun e a => dir_addToMin e _)]
    rfl

theorem dir_advanceTop (e : MergingIterator UK) (s : Nat) :
    (advanceTop e s).direction_ = e.direction_ := by
  unfold advanceTop
  split
  · exact dir_updIter e _ _
  · exact dir_updIter e _ _

theorem keyLt_boundary_seq {k b : ParsedInternalKey UK} (hk : k.sequence < kMaxSequenceNumber)
    (hb : b.sequence = kMaxSequenceNumber) (h : keyLt k b) : k.user_key < b.user_key := by
  have : b = ⟨b.user_key, kMaxSequenceNumber, b.type⟩ := by rw [← hb]
  rw [this] at h
  exact keyLt_boundary hk _ _ h

/-- Every record that a valid child has not passed is at or after the top of the heap. -/
theorem remaining_ge_top {runs : List (List (ParsedInternalKey UK))}
    {tombs : List (Option (List (RangeTombstone UK)))} {e : MergingIterator UK}
    (hs : Struct runs tombs e) {t : HeapItemPtr} (ht : e.heap_.top = some t) (l idx : Nat)
    (r : ParsedInternalKey UK) (hl : l < runs.length) (hidx : childIdx runs e l ≤ idx)
    (hr : (runAt runs l)[idx]? = some r) : keyLe (hkey e t) r := by
  obtain ⟨_, hmin⟩ := struct_top hs ht
  have hv : cvalid e l = true := by
    by_contra hcon
    have := childIdx_invalid hs.base l hl (by simpa using hcon)
    rw [this] at hidx
    rw [List.getElem?_eq_none hidx] at hr
    simp at hr
  obtain ⟨i, _, hi, _, hrun, _, hk⟩ := base_ckey hs.base l hl hv
  have h1 := hmin (.child l) ⟨hl, hv⟩
  rw [hk] at h1
  exact keyLe_trans h1 (sortedRun_le (base_sorted hs.base l) (by omega) hrun hr)

/-- The step of the visibility loop for a record that a tombstone of a smaller level covers:
the cascading seek to the end of that tombstone. -/
theorem skip_cascade_step {runs : List (List (ParsedInternalKey UK))}
    {tombs : List (Option (List (RangeTombstone UK)))} {e : MergingIterator UK}
    (hf : FwdT runs tombs e) {s i : Nat} (ht : e.heap_.top = some (.child s))
    (hi : i ∈ e.active_) (his : i < s) :
    FwdT runs tombs (e.SeekImpl (e.rti i).end_key s) ∧
      LexLt runs e (e.SeekImpl (e.rti i).end_key s) ∧
      visRem runs tombs (e.SeekImpl (e.rti i).end_key s) = visRem runs tombs e := by
  have hs := hf.struct
  obtain ⟨⟨hsn, hsv⟩, hmin⟩ := struct_top hs ht
  obtain ⟨i0, hi0, hidx0, hi0lt, hrun0, hseq0, hk0⟩ := base_ckey hs.base s hsn hsv
  obtain ⟨hin, hiv, _⟩ := (hs.tomb.active_iff i).mp hi
  obtain ⟨q, _, _, _, hcur, hwf⟩ := base_cur hs.base i hin hiv
  obtain ⟨hcm, hcov⟩ := active_covers hf ht (Nat.le_of_lt his) hi
  obtain ⟨target, htarget⟩ : ∃ target, target = (e.rti i).end_key := ⟨_, rfl⟩
  rw [← htarget]
  have htseq : target.sequence = kMaxSequenceNumber := by rw [htarget]; exact hwf.end_seq
  have htuk : (ckey e s).user_key < target.user_key := by rw [htarget]; exact hcov.2
  obtain ⟨B0, hB01, hB02⟩ := hf.bound
  have hB0k : keyLe B0 (ckey e s) := by
    have := hB01 _ (top_min e hs.heap.inv _ ht).1
    rw [hk0] at this; exact this
  have hspec := seekImpl_spec hs hsn target (ckey e s)
    (fun j L hjL hL hv t ht' => hf.passed_tombs j L hjL (by omega) hv t ht')
    (fun j L hjL hL hv hact => hf.active_started j L hjL (by omega) hv hact)
    (fun j hj t ht' => le_trans (hf.passed_tombs j s (by omega) hsn hsv t ht') (le_of_lt htuk))
    (fun j hj hact => le_trans (hf.active_started j s (by omega) hsn hsv hact) (le_of_lt htuk))
    (keyLe_of_keyLt (Or.inl htuk))
    (fun a ha => by
      have h2 := keyLt_user_key ha
      exact keyLe_of_keyLt (Or.inl (lt_of_lt_of_le htuk h2)))
    (fun L hL hv => by
      have h1 := hmin (.child L) ⟨by omega, hv⟩
      obtain ⟨_, _, _, _, _, _, hk⟩ := base_ckey hs.base L (by omega) hv
      rw [hk0, hk] at h1; exact h1)
    (fun j hj hv => by
      have h1 := hmin (.pinned j) ⟨by omega, hv⟩
      rw [hk0] at h1; exact h1)
    (fun l r hsl hl hr hBr hlt => by
      left
      have hrl : runAt runs l ∈ runs := by
        unfold runAt
        rw [List.getElem?_eq_getElem hl]
        simp
      have hseq := hs.base.wf.seq_lt _ hrl r hr
      have h1 := keyLt_boundary_seq hseq htseq hlt
      rw [htarget] at h1
      exact ⟨i, by omega, _, hcm, le_trans hcov.1 (keyLe_user_key hBr), h1⟩)
  obtain ⟨e', he'⟩ : ∃ e', e' = e.SeekImpl target s := ⟨_, rfl⟩
  rw [← he'] at hspec ⊢
  obtain ⟨hst', hpt', has', hlb', hcl, hrl, hpl, hsp, hrt, hfirst⟩ := hspec
  have hidx_low : ∀ l, l < s → childIdx runs e' l = childIdx runs e l :=
    fun l hl => childIdx_congr (hcl l hl)
  refine ⟨⟨hst', hpt', has', ckey e s, hlb', ?_⟩, ?_, ?_⟩
  · intro l idx r hl hidx hr hB
    by_cases hls : l < s
    · rw [hidx_low l hls] at hidx
      exact hB02 l idx r hl hidx hr (keyLt_of_keyLe_of_keyLt hB0k hB)
    · exact hsp l idx r (by omega) hl hidx hr (keyLe_of_keyLt hB)
  · refine ⟨s, hsn, fun l hl => ⟨hidx_low l hl, tau_congr (hrl l hl) (hpl l hl)⟩, Or.inl ?_⟩
    rw [hfirst, hidx0]
    exact seek_pos_le (base_sorted hs.base s) target i0 _ hrun0 (Or.inl htuk)
  · apply visRem_eq_of_levels
    intro l hl
    by_cases hls : l < s
    · rw [hidx_low l hls]
    · apply visibleOf_drop_eq_of_between
      intro idx x h1 h2 hx
      by_cases hnew : idx < childIdx runs e' l
      · -- passed now, not before: at or after the top
        have hold : childIdx runs e l ≤ idx := by
          rcases Nat.le_total (childIdx runs e' l) (childIdx runs e l) with h | h
          · rw [Nat.min_eq_left h] at h1; omega
          · rw [Nat.min_eq_right h] at h1; exact h1
        have hge := remaining_ge_top hs ht l idx x hl hold hx
        rw [hk0] at hge
        exact hsp l idx x (by omega) hl hnew hx hge
      · -- passed before, not now: after the target
        have hold : idx < childIdx runs e l := by
          rcases Nat.le_total (childIdx runs e' l) (childIdx runs e l) with h | h
          · rw [Nat.max_eq_right h] at h2; exact h2
          · rw [Nat.max_eq_left h] at h2; omega
        have hge := hrt l idx x (by omega) hl (by omega) hx
        have hlt : keyLt (ckey e s) x :=
          keyLt_of_keyLt_of_keyLe (Or.inl htuk) hge
        exact hB02 l idx x hl hold hx (keyLt_of_keyLe_of_keyLt hB0k hlt)

/-- The step of the visibility loop for a record that the tombstone of its own level
deletes: the child steps forward. -/
theorem skip_own_step {runs : List (List (ParsedInternalKey UK))}
    {tombs : List (Option (List (RangeTombstone UK)))} {e : MergingIterator UK}
    (hf : FwdT runs tombs e) {s : Nat} (ht : e.heap_.top = some (.child s))
    (hsup : suppressed tombs s (ckey e s)) :
    FwdT runs tombs (advanceTop e s) ∧ LexLt runs e (advanceTop e s) ∧
      visRem runs tombs (advanceTop e s) = visRem runs tombs e := by
  have hs := hf.struct
  obtain ⟨⟨hsn, hsv⟩, hmin⟩ := struct_top hs ht
  obtain ⟨i0, hi0, hidx0, hi0lt, hrun0, hseq0, hk0⟩ := base_ckey hs.base s hsn hsv
  obtain ⟨hst', hpt', has', hlb', hpr', hd', hr', hact', hidx'⟩ := advance_step hf ht
  have hidx_ne : ∀ l, l ≠ s → childIdx runs (advanceTop e s) l = childIdx runs e l :=
    fun l hl => childIdx_congr (hd' _ (by simpa using hl))
  refine ⟨⟨hst', hpt', has', ckey e s, hlb', hpr'⟩, ?_, ?_⟩
  · refine ⟨s, hsn, fun l hl => ⟨hidx_ne l (by omega), tau_congr (hr' l) (hd' _ (by simp))⟩,
      Or.inl ?_⟩
    rw [hidx']; omega
  · apply visRem_eq_of_levels
    intro l hl
    by_cases hls : l = s
    · subst hls
      rw [hidx']
      exact (visibleOf_drop_eq tombs l _ 1 _ (fun idx x h1 h2 hx => by
        have : idx = childIdx runs e l := by omega
        rw [this, hidx0, hrun0] at hx
        simp at hx
        subst hx
        exact hsup)).symm
    · rw [hidx_ne l hls]

theorem advanceTop_eq_replace (e : MergingIterator UK) (s : Nat)
    (ht : e.heap_.top = some (.child s)) :
    (if ((e.updIter (.child s) (fun w => w.Next)).deref (.child s)).iter.Valid then
      (e.updIter (.child s) (fun w => w.Next)).minReplaceTop (.child s)
     else (e.updIter (.child s) (fun w => w.Next)).minPop) = advanceTop e s := by
  unfold advanceTop
  split
  · exact minReplaceTop_top _ _ (by
      show (e.updIter (.child s) (fun w => w.Next)).heap_.top = _
      exact ht)
  · rfl

/-- What `SkipNextDeleted` does in a state of the visibility loop: it makes one step, or it
finds the record on top of the heap visible and leaves the state alone. -/
theorem skip_spec {runs : List (List (ParsedInternalKey UK))}
    {tombs : List (Option (List (RangeTombstone UK)))} {e : MergingIterator UK}
    (hf : FwdT runs tombs e) {t : HeapItemPtr} (ht : e.heap_.top = some t)
    (hns : (e.deref t).type ≠ HeapItemType.DELETE_RANGE_START) :
    (e.SkipNextDeleted.2 = true ∧ FwdT runs tombs e.SkipNextDeleted.1 ∧
      LexLt runs e e.SkipNextDeleted.1 ∧
      visRem runs tombs e.SkipNextDeleted.1 = visRem runs tombs e ∧
      e.SkipNextDeleted.1.direction_ = e.direction_) ∨
    (e.SkipNextDeleted.2 = false ∧ e.SkipNextDeleted.1 = e ∧
      ∃ s, t = .child s ∧ ¬ suppressed tombs s (ckey e s)) := by
  have hs := hf.struct
  obtain ⟨hspec, hmin⟩ := struct_top hs ht
  cases t with
  | pinned j =>
    obtain ⟨hj, hv⟩ := hspec
    have hty : (e.deref (.pinned j)).type = HeapItemType.DELETE_RANGE_END := by
      rcases hs.tomb.pinned_key j hj hv with ⟨h, _, _⟩ | ⟨h, _, _⟩
      · exact absurd h hns
      · exact h
    obtain ⟨h1, h2, h3, h4, h5⟩ := skip_end_step hf ht hty
    exact Or.inl ⟨h1, h2, h4, visRem_congr h3, h5⟩
  | child s =>
    obtain ⟨hsn, hsv⟩ := hspec
    obtain ⟨hty, hlevel⟩ := struct_child_type hs hsn
    have hsent : (e.deref (.child s)).iter.IsDeleteRangeSentinelKey = false :=
      childAt_not_sentinel (hs.base.child_at s hsn)
    have hsupp := top_suppressed_iff hf ht
    unfold SkipNextDeleted
    simp only [ht, hty, hlevel, hsent, Bool.false_eq_true, ↓reduceIte,
      show (HeapItemType.ITERATOR == HeapItemType.DELETE_RANGE_END) = false from rfl]
    cases hhead : e.active_.head? with
    | none =>
      right
      refine ⟨rfl, rfl, s, rfl, ?_⟩
      have hnil : e.active_ = [] := by
        cases ha : e.active_ with
        | nil => rfl
        | cons a l => rw [ha] at hhead; simp at hhead
      rw [hsupp, hnil]
      simp
    | some i =>
      obtain ⟨hi, himin⟩ := head_sorted_min hs.tomb.active_sorted hhead
      simp only []
      by_cases his : i < s
      · left
        simp only [his, ↓reduceIte]
        obtain ⟨h1, h2, h3⟩ := skip_cascade_step hf ht hi his
        exact ⟨trivial, h1, h2, h3, dir_seekImpl e _ _⟩
      · simp only [his, ↓reduceIte]
        by_cases hieq : i = s
        · subst hieq
          simp only [beq_self_eq_true, ↓reduceIte]
          by_cases hseq : (e.deref (.child i)).iter.key.sequence < (e.rti i).seq
          · left
            simp only [hseq, ↓reduceIte]
            have hsup : suppressed tombs i (ckey e i) := hsupp.mpr (Or.inr ⟨hi, hseq⟩)
            obtain ⟨h1, h2, h3⟩ := skip_own_step hf ht hsup
            have heq := advanceTop_eq_replace e i ht
            by_cases hv : ((e.updIter (.child i) (fun w => w.Next)).deref (.child i)).iter.Valid
                = true
            · simp only [hv, ↓reduceIte] at heq ⊢
              rw [heq]
              exact ⟨trivial, h1, h2, h3, dir_advanceTop e i⟩
            · simp only [hv, Bool.false_eq_true, ↓reduceIte] at heq ⊢
              rw [heq]
              exact ⟨trivial, h1, h2, h3, dir_advanceTop e i⟩
          · right
            simp only [hseq, ↓reduceIte]
            refine ⟨trivial, trivial, i, rfl, ?_⟩
            rw [hsupp]
            rintro (⟨j, hj, hji⟩ | ⟨_, h⟩)
            · have := himin j hj; omega
            · exact hseq h
        · right
          have hbeq : (i == s) = false := by simpa using hieq
          simp only [hbeq, Bool.false_eq_true, ↓reduceIte]
          refine ⟨trivial, trivial, s, rfl, ?_⟩
          rw [hsupp]
          rintro (⟨j, hj, hji⟩ | ⟨h, _⟩)
          · have := himin j hj; omega
          · have := himin s h; omega

theorem countP_flip {α : Type} [DecidableEq α] (p p' : α → Bool) (l : List α) (x : α)
    (hn : l.Nodup) (hx : x ∈ l) (hsame : ∀ y, y ≠ x → p' y = p y) (hp : p x = true)
    (hp' : p' x = false) : l.countP p' + 1 = l.countP p := by
  induction l with
  | nil => simp at hx
  | cons a t ih =>
    rw [List.nodup_cons] at hn
    by_cases hax : a = x
    · subst hax
      have : t.countP p' = t.countP p := by
        apply List.countP_congr
        intro y hy
        have hne : y ≠ a := fun h => hn.1 (h ▸ hy)
        rw [hsame y hne]
      rw [List.countP_cons, List.countP_cons, this]
      simp [hp, hp']
    · have hxt : x ∈ t := by
        rcases List.mem_cons.mp hx with h | h
        · exact absurd h.symm hax
        · exact h
      rw [List.countP_cons, List.countP_cons, hsame a hax]
      have := ih hn.2 hxt
      omega

/-- The loop of `PopDeleteRangeStart` ends with enough fuel, in a state whose heap has no
start key on top. -/
theorem popStart_loop {runs : List (List (ParsedInternalKey UK))}
    {tombs : List (Option (List (RangeTombstone UK)))} :
    ∀ (fuel : Nat) (e : MergingIterator UK), FwdT runs tombs e → startCount e < fuel →
      ∃ e', PopDeleteRangeStartLoop fuel e = some e' ∧ FwdT runs tombs e' ∧
        (∀ t, e'.heap_.top = some t → (e'.deref t).type ≠ HeapItemType.DELETE_RANGE_START) ∧
        visRem runs tombs e' = visRem runs tombs e ∧
        rank runs tombs e ≤ rank runs tombs e' ∧ e'.direction_ = e.direction_ := by
  intro fuel
  induction fuel with
  | zero => intro e _ h; omega
  | succ fuel ih =>
    intro e hf hc
    unfold PopDeleteRangeStartLoop
    cases ht : e.heap_.top with
    | none =>
      refine ⟨e, rfl, hf, ?_, rfl, le_refl _, rfl⟩
      intro t ht'; rw [ht] at ht'; simp at ht'
    | some t =>
      simp only []
      by_cases hty : (e.deref t).type = HeapItemType.DELETE_RANGE_START
      · simp only [hty, beq_self_eq_true, ↓reduceIte]
        obtain ⟨j, htj, hj, hv, hf', hd', hr', hperm, hty'⟩ := popStart_step hf ht hty
        obtain ⟨e1, he1⟩ : ∃ e1, e1 = e.InsertRangeTombstoneToMinHeap (e.deref t).level
            false true := ⟨_, rfl⟩
        rw [← he1] at hf' hd' hr' hperm hty' ⊢
        subst htj
        have hcount : startCount e1 + 1 = startCount e := by
          unfold startCount
          rw [hperm.countP_eq]
          apply countP_flip _ _ _ (.pinned j) hf.struct.heap.nodup
            (top_min e hf.struct.heap.inv _ ht).1
          · intro y hy; rw [hd' y hy]
          · simp [hty]
          · simp [hty']
        obtain ⟨e2, h1, h2, h3, h4, h5, h6⟩ := ih e1 hf' (by omega)
        have hlex : LexLt runs e e1 := by
          refine ⟨j, hj, fun l hl => ⟨childIdx_congr (hd' _ (by simp)),
            tau_congr (hr' l) (hd' _ (by simp; omega))⟩,
            Or.inr ⟨childIdx_congr (hd' _ (by simp)), ?_⟩⟩
          unfold tau
          rw [tombIdx_congr (hr' j), hr' j, hty', hty]
          simp [hv]
        have hrank := rank_lt_of_lexLt hf.struct.base hf'.struct.base hlex
        refine ⟨e2, h1, h2, h3, ?_, by omega, ?_⟩
        · rw [h4]; exact visRem_congr (fun l => hd' _ (by simp))
        · rw [h6, he1]; exact dir_insert e _ _ _
      · have hbeq : ((e.deref t).type == HeapItemType.DELETE_RANGE_START) = false := by
          simpa using hty
        simp only [hbeq, Bool.false_eq_true, ↓reduceIte]
        refine ⟨e, rfl, hf, ?_, rfl, le_refl _, rfl⟩
        intro t' ht'
        rw [ht] at ht'
        simp at ht'
        subst ht'
        exact hty

theorem popStart_spec {runs : List (List (ParsedInternalKey UK))}
    {tombs : List (Option (List (RangeTombstone UK)))} {e : MergingIterator UK}
    (hf : FwdT runs tombs e) :
    ∃ e', e.PopDeleteRangeStart = some e' ∧ FwdT runs tombs e' ∧
      (∀ t, e'.heap_.top = some t → (e'.deref t).type ≠ HeapItemType.DELETE_RANGE_START) ∧
      visRem runs tombs e' = visRem runs tombs e ∧
      rank runs tombs e ≤ rank runs tombs e' ∧ e'.direction_ = e.direction_ := by
  unfold PopDeleteRangeStart
  apply popStart_loop _ e hf
  unfold startCount BinaryHeap.size
  have := List.countP_le_length (fun p => (e.deref p).type == HeapItemType.DELETE_RANGE_START)
    (l := e.heap_.data_)
  omega

/-- The visibility loop ends with enough fuel, and in a state with a visible record on top of
the heap or with an empty heap. -/
theorem findNext_loop {runs : List (List (ParsedInternalKey UK))}
    {tombs : List (Option (List (RangeTombstone UK)))} :
    ∀ (fuel : Nat) (e : MergingIterator UK), FwdT runs tombs e →
      (∀ t, e.heap_.top = some t → (e.deref t).type ≠ HeapItemType.DELETE_RANGE_START) →
      rankBound runs tombs runs.length ≤ fuel + rank runs tombs e →
      ∃ e', FindNextVisibleKeyLoop fuel e = some e' ∧ FwdT runs tombs e' ∧
        TopVisible tombs e' ∧ visRem runs tombs e' = visRem runs tombs e ∧
        e'.direction_ = e.direction_ := by
  intro fuel
  induction fuel with
  | zero =>
    intro e hf _ hr
    have := rank_lt_bound hf.struct.base
    omega
  | succ fuel ih =>
    intro e hf hns hr
    unfold FindNextVisibleKeyLoop
    cases ht : e.heap_.top with
    | none =>
      refine ⟨e, rfl, hf, ?_, rfl, rfl⟩
      intro t ht'; rw [ht] at ht'; simp at ht'
    | some t =>
      simp only []
      have hs := hf.struct
      obtain ⟨hspec, hmin⟩ := struct_top hs ht
      have hsent : (e.deref t).IsDeleteRangeSentinelKey = false := by
        unfold HeapItem.IsDeleteRangeSentinelKey
        cases t with
        | child s =>
          rw [childAt_not_sentinel (hs.base.child_at s hspec.1)]
          simp
        | pinned j =>
          rcases hs.tomb.pinned_key j hspec.1 hspec.2 with ⟨h, _, _⟩ | ⟨h, _, _⟩ <;>
            simp [h]
      rcases skip_spec hf ht (hns t ht) with ⟨h1, h2, h3, h4, h5⟩ | ⟨h1, h2, s, hts, hvis⟩
      · -- a step is made
        have hne : e.active_.isEmpty = false := by
          cases ha : e.active_ with
          | nil =>
            -- with no active level nothing can be skipped
            exfalso
            cases t with
            | child s =>
              have hty := (struct_child_type hs hspec.1).1
              have hsent' := childAt_not_sentinel (hs.base.child_at s hspec.1)
              unfold SkipNextDeleted at h1
              simp only [ht, hty, hsent', ha, List.head?_nil, Bool.false_eq_true, ↓reduceIte,
                show (HeapItemType.ITERATOR == HeapItemType.DELETE_RANGE_END) = false from rfl]
                at h1
            | pinned j =>
              rcases hs.tomb.pinned_key j hspec.1 hspec.2 with ⟨h, _, _⟩ | ⟨h, _, _⟩
              · exact hns _ ht h
              · have := (hs.tomb.active_iff j).mpr ⟨hspec.1, hspec.2, h⟩
                rw [ha] at this
                simp at this
          | cons a l => rfl
        simp only [hne, Bool.not_false, Bool.true_or, ↓reduceIte, h1]
        obtain ⟨e2, hp1, hp2, hp3, hp4, hp5, hp6⟩ := popStart_spec h2
        rw [hp1]
        simp only []
        have hrank := rank_lt_of_lexLt hf.struct.base h2.struct.base h3
        obtain ⟨e3, hq1, hq2, hq3, hq4, hq5⟩ := ih e2 hp2 hp3 (by omega)
        refine ⟨e3, hq1, hq2, hq3, ?_, ?_⟩
        · rw [hq4, hp4, h4]
        · rw [hq5, hp6]; exact h5
      · -- the record on top is visible
        have hvis' : TopVisible tombs e := by
          intro t' ht'
          rw [ht] at ht'
          simp at ht'
          subst ht'
          exact ⟨s, hts, hvis⟩
        by_cases hne : e.active_.isEmpty = true
        · simp only [hne, Bool.not_true, hsent, Bool.or_self, Bool.false_eq_true, ↓reduceIte]
          exact ⟨e, rfl, hf, hvis', rfl, rfl⟩
        · simp only [hne, Bool.not_false, Bool.true_or, ↓reduceIte, h1, Bool.false_eq_true]
          rw [h2]
          exact ⟨e, rfl, hf, hvis', rfl, rfl⟩

theorem heap_empty_of_no_levels {runs : List (List (ParsedInternalKey UK))}
    {tombs : List (Option (List (RangeTombstone UK)))} {e : MergingIterator UK}
    (hs : Struct runs tombs e) (hn : runs.length = 0) : e.heap_.top = none := by
  cases ht : e.heap_.top with
  | none => rfl
  | some t =>
    have := (struct_top hs ht).1
    cases t with
    | child l => have := this.1; omega
    | pinned j => have := this.1; omega

theorem findNext_spec {runs : List (List (ParsedInternalKey UK))}
    {tombs : List (Option (List (RangeTombstone UK)))} {e : MergingIterator UK}
    (hf : FwdT runs tombs e) (fuel : Nat) (hfuel : rankBound runs tombs runs.length ≤ fuel) :
    ∃ e', e.FindNextVisibleKey fuel = some e' ∧ FwdT runs tombs e' ∧ TopVisible tombs e' ∧
      visRem runs tombs e' = visRem runs tombs e ∧ e'.direction_ = e.direction_ := by
  unfold FindNextVisibleKey
  by_cases hemp : e.range_tombstone_iters_.isEmpty = true
  · simp only [hemp, ↓reduceIte]
    have hn : runs.length = 0 := by
      rw [← hf.struct.base.rti_len]
      cases hl : e.range_tombstone_iters_ with
      | nil => rfl
      | cons a t => rw [hl] at hemp; simp at hemp
    refine ⟨e, rfl, hf, ?_, rfl, rfl⟩
    intro t ht
    rw [heap_empty_of_no_levels hf.struct hn] at ht
    simp at ht
  · simp only [hemp, Bool.false_eq_true, ↓reduceIte]
    unfold FindNextVisibleKeySlowPath
    obtain ⟨e1, h1, h2, h3, h4, h5, h6⟩ := popStart_spec hf
    rw [h1]
    simp only []
    obtain ⟨e2, g1, g2, g3, g4, g5⟩ := findNext_loop fuel e1 h2 h3 (by omega)
    exact ⟨e2, g1, g2, g3, by rw [g4, h4], by rw [g5, h6]⟩

theorem flatMap_range_cons {α : Type} (f g : Nat → List α) (k : α) :
    ∀ (n s : Nat), s < n → f s = k :: g s → (∀ l, l ≠ s → f l = g l) →
      ((List.range n).flatMap f).Perm (k :: (List.range n).flatMap g) := by
  intro n
  induction n with
  | zero => intro s hs; omega
  | succ n ih =>
    intro s hs hf hne
    rw [List.range_succ, List.flatMap_append, List.flatMap_append]
    simp only [List.flatMap_cons, List.flatMap_nil, List.append_nil]
    by_cases hsn : s = n
    · subst hsn
      have : (List.range s).flatMap f = (List.range s).flatMap g := by
        apply List.flatMap_congr
        intro l hl
        exact hne l (by have := List.mem_range.mp hl; omega)
      rw [this, hf]
      exact List.perm_middle
    · rw [hne n (Ne.symm hsn)]
      exact (ih s (by omega) hf hne).append_right _

theorem mem_visRem {runs : List (List (ParsedInternalKey UK))}
    {tombs : List (Option (List (RangeTombstone UK)))} {e : MergingIterator UK}
    {x : ParsedInternalKey UK} (hx : x ∈ visRem runs tombs e) :
    ∃ l idx, l < runs.length ∧ childIdx runs e l ≤ idx ∧ (runAt runs l)[idx]? = some x ∧
      ¬ suppressed tombs l x := by
  unfold visRem at hx
  rw [List.mem_flatMap] at hx
  obtain ⟨l, hl, hx⟩ := hx
  unfold visibleOf at hx
  rw [List.mem_filter] at hx
  obtain ⟨hmem, hvis⟩ := hx
  obtain ⟨i, hi⟩ := List.mem_iff_getElem?.mp hmem
  rw [List.getElem?_drop] at hi
  exact ⟨l, childIdx runs e l + i, List.mem_range.mp hl, by omega, hi, by simpa using hvis⟩

theorem visRem_nil_of_empty {runs : List (List (ParsedInternalKey UK))}
    {tombs : List (Option (List (RangeTombstone UK)))} {e : MergingIterator UK}
    (hs : Struct runs tombs e) (ht : e.heap_.top = none) : visRem runs tombs e = [] := by
  cases hv : visRem runs tombs e with
  | nil => rfl
  | cons x xs =>
    exfalso
    have hx : x ∈ visRem runs tombs e := by rw [hv]; exact List.mem_cons_self _ _
    obtain ⟨l, idx, hl, hidx, hr, _⟩ := mem_visRem hx
    have hcv : cvalid e l = true := by
      by_contra hcon
      have := childIdx_invalid hs.base l hl (by simpa using hcon)
      rw [this] at hidx
      rw [List.getElem?_eq_none hidx] at hr
      simp at hr
    have hmem := (hs.heap.mem_child l).mpr ⟨hl, hcv⟩
    rw [(top_none_iff e).mp ht] at hmem
    simp at hmem

/-- One call of `Next()` in a forward scan emits the smallest visible record that is left. -/
theorem next_spec {runs : List (List (ParsedInternalKey UK))}
    {tombs : List (Option (List (RangeTombstone UK)))} {e : MergingIterator UK}
    (hi : ScanInv runs tombs e) (hv : e.Valid = true) (fuel : Nat)
    (hfuel : rankBound runs tombs runs.length ≤ fuel) :
    ∃ e', e.Next fuel = some e' ∧ ScanInv runs tombs e' ∧
      (visRem runs tombs e).Perm (e.key :: visRem runs tombs e') ∧
      ∀ x ∈ visRem runs tombs e, keyLe e.key x := by
  have hf := hi.fwd
  have hs := hf.struct
  have hcur : ∃ t, e.current_ = some t := by
    unfold Valid at hv
    cases hc : e.current_ with
    | none => rw [hc] at hv; simp at hv
    | some t => exact ⟨t, rfl⟩
  obtain ⟨t, hct⟩ := hcur
  have ht : e.heap_.top = some t := by rw [← hi.current]; exact hct
  obtain ⟨s, hts, hvis⟩ := hi.vis t ht
  subst hts
  obtain ⟨⟨hsn, hsv⟩, hmin⟩ := struct_top hs ht
  obtain ⟨i0, hi0, hidx0, hi0lt, hrun0, hseq0, hk0⟩ := base_ckey hs.base s hsn hsv
  have hkey : e.key = ckey e s := by
    unfold key ckey
    rw [hct]
  obtain ⟨hst', hpt', has', hlb', hpr', hd', hr', hact', hidx'⟩ := advance_step hf ht
  have hf' : FwdT runs tombs (advanceTop e s) := ⟨hst', hpt', has', ckey e s, hlb', hpr'⟩
  obtain ⟨e4, g1, g2, g3, g4, g5⟩ := findNext_spec hf' fuel hfuel
  have hnext : e.Next fuel = some { e4 with current_ := e4.CurrentForward } := by
    unfold Next
    simp only [hct, hi.forward, bne_self_eq_false, Bool.false_eq_true, ↓reduceIte]
    have hslen : s < e.children_.length := by rw [hs.base.children_len]; exact hsn
    have hca1 := (childAt_next (hs.base.child_at s hsn) (by rw [← cpos_eq]; exact hi0)).1
    have hstat : ((e.updIter (.child s) (fun w => w.Next)).deref (.child s)).iter.status =
        Status.OK := by
      rw [deref_updIter_child_self e s _ hslen]
      exact childAt_status hca1
    have : (if ((e.updIter (.child s) (fun w => w.Next)).deref (.child s)).iter.Valid = true then
        (e.updIter (.child s) (fun w => w.Next)).minUpdateTop
      else ((e.updIter (.child s) (fun w => w.Next)).considerStatus
        ((e.updIter (.child s) (fun w => w.Next)).deref (.child s)).iter.status).minPop) =
        advanceTop e s := by
      unfold advanceTop
      rw [hstat, considerStatus_ok]
    rw [this, g1]
  have hidx_ne : ∀ l, l ≠ s → childIdx runs (advanceTop e s) l = childIdx runs e l :=
    fun l hl => childIdx_congr (hd' _ (by simpa using hl))
  refine ⟨_, hnext, ?_, ?_, ?_⟩
  · have hde : ∀ p, ({ e4 with current_ := e4.CurrentForward } : MergingIterator UK).deref p =
        e4.deref p := fun p => deref_eq_of_items _ _ rfl rfl p
    refine ⟨⟨⟨base_of_eq g2.struct.base rfl rfl rfl g2.struct.base.status_ok
        g2.struct.base.no_upper_bound, tombPart_of_eq g2.struct.tomb (fun j => rfl)
        (fun j => rfl) rfl, heapPart_frame g2.struct.heap rfl (fun p _ => rfl)
        (fun q => by cases q <;> rfl)⟩, ?_, ?_, ?_⟩, ?_, rfl, ?_⟩
    · exact passedTombs_congr g2.passed_tombs (fun l => rfl) (fun j => rfl)
    · intro j L hjL hL hvL hact
      exact g2.active_started j L hjL hL hvL hact
    · obtain ⟨B, hB1, hB2⟩ := g2.bound
      exact ⟨B, fun p hp => hB1 p hp, passedRecords_congr hB2 (fun l => rfl)⟩
    · intro t' ht'
      exact g3 t' ht'
    · show e4.direction_ = _
      rw [g5, dir_advanceTop]; exact hi.forward
  · rw [hkey]
    have h1 : visRem runs tombs ({ e4 with current_ := e4.CurrentForward } :
        MergingIterator UK) = visRem runs tombs (advanceTop e s) := by
      rw [← g4]
      exact visRem_congr (fun l => rfl)
    rw [h1]
    unfold visRem
    apply flatMap_range_cons _ _ _ runs.length s hsn
    · rw [hidx', hidx0, List.drop_eq_getElem_cons hi0lt]
      have hget : (runAt runs s)[i0] = ckey e s := by
        have := hrun0
        rw [List.getElem?_eq_getElem hi0lt] at this
        simpa using this
      rw [hget]
      unfold visibleOf
      rw [List.filter_cons]
      simp [hvis]
    · intro l hl
      rw [hidx_ne l hl]
  · intro x hx
    obtain ⟨l, idx, hl, hidx, hr, _⟩ := mem_visRem hx
    have := remaining_ge_top hs ht l idx x hl hidx hr
    rw [hk0] at this
    rw [hkey]
    exact this

/-- The records that a forward scan collects from a state between two public calls: the
visible records that are left, in order. -/
theorem collect_spec {runs : List (List (ParsedInternalKey UK))}
    {tombs : List (Option (List (RangeTombstone UK)))} (fuel : Nat)
    (hfuel : rankBound runs tombs runs.length ≤ fuel) :
    ∀ (n : Nat) (e : MergingIterator UK), ScanInv runs tombs e →
      (visRem runs tombs e).length ≤ n →
      ∃ out, collectForward fuel n e = some out ∧ out.Perm (visRem runs tombs e) ∧
        out.Pairwise keyLe := by
  have hinvalid : ∀ e : MergingIterator UK, ScanInv runs tombs e → e.Valid = false →
      visRem runs tombs e = [] := by
    intro e hi hv
    apply visRem_nil_of_empty hi.fwd.struct
    unfold Valid at hv
    rw [hi.fwd.struct.base.status_ok, hi.current] at hv
    cases ht : e.heap_.top with
    | none => rfl
    | some t => rw [ht] at hv; simp [Status.ok] at hv
  intro n
  induction n with
  | zero =>
    intro e hi hlen
    unfold collectForward
    by_cases hv : e.Valid = true
    · exfalso
      obtain ⟨e', _, _, hperm, _⟩ := next_spec hi hv fuel hfuel
      have := hperm.length_eq
      simp at this
      omega
    · simp only [hv, Bool.false_eq_true, ↓reduceIte]
      refine ⟨[], rfl, ?_, List.Pairwise.nil⟩
      rw [hinvalid e hi (by simpa using hv)]
  | succ n ih =>
    intro e hi hlen
    unfold collectForward
    by_cases hv : e.Valid = true
    · simp only [hv, ↓reduceIte]
      obtain ⟨e', hnext, hi', hperm, hmin⟩ := next_spec hi hv fuel hfuel
      rw [hnext]
      simp only []
      have hlen' : (visRem runs tombs e').length ≤ n := by
        have := hperm.length_eq
        simp at this
        omega
      obtain ⟨out, hout, hp, hsorted⟩ := ih e' hi' hlen'
      rw [hout]
      refine ⟨e.key :: out, rfl, ?_, ?_⟩
      · exact (List.Perm.cons _ hp).trans hperm.symm
      · rw [List.pairwise_cons]
        refine ⟨?_, hsorted⟩
        intro x hx
        apply hmin
        exact hperm.symm.subset (List.mem_cons_of_mem _ (hp.subset hx))
    · simp only [hv, Bool.false_eq_true, ↓reduceIte]
      refine ⟨[], rfl, ?_, List.Pairwise.nil⟩
      rw [hinvalid e hi (by simpa using hv)]

theorem firstA_loop {runs : List (List (ParsedInternalKey UK))}
    {tombs : List (Option (List (RangeTombstone UK)))} {e0 : MergingIterator UK}
    (h0 : FirstA runs tombs 0 e0) :
    ∀ k, k ≤ runs.length → FirstA runs tombs k
      ((List.range k).foldl
        (fun (e : MergingIterator UK) level =>
          (e.updIter (.child level) (fun w => w.SeekToFirst)).AddToMinHeapOrCheckStatus
            (.child level)) e0) := by
  intro k
  induction k with
  | zero => intro _; simpa using h0
  | succ k ih =>
    intro hk
    have ih' := ih (by omega)
    rw [List.range_succ, List.foldl_append]
    simp only [List.foldl_cons, List.foldl_nil]
    obtain ⟨ek, hek⟩ : ∃ ek, ek = (List.range k).foldl
        (fun (e : MergingIterator UK) level =>
          (e.updIter (.child level) (fun w => w.SeekToFirst)).AddToMinHeapOrCheckStatus
            (.child level)) e0 := ⟨_, rfl⟩
    rw [← hek] at ih' ⊢
    have hkn : k < runs.length := by omega
    have hkc : k < ek.children_.length := by rw [ih'.base.children_len]; exact hkn
    obtain ⟨hca1, hpos1⟩ := childAt_seekToFirst (ih'.base.child_at k hkn)
    obtain ⟨e1, he1⟩ : ∃ e1, e1 = ek.updIter (.child k) (fun w => w.SeekToFirst) := ⟨_, rfl⟩
    rw [← he1]
    have hd1k : e1.deref (.child k) = { ek.deref (.child k) with
        iter := (ek.deref (.child k)).iter.SeekToFirst } := by
      rw [he1]; exact deref_updIter_child_self ek k _ hkc
    have hd1 : ∀ p, p ≠ .child k → e1.deref p = ek.deref p := by
      intro p hp; rw [he1]; exact deref_updIter_child_ne ek k _ p hp
    have hr1 : ∀ j, e1.rti j = ek.rti j := by intro j; rw [he1]; exact rti_updIter ek _ _ j
    have hheap1 : e1.heap_ = ek.heap_ := by rw [he1]; rfl
    have hact1 : e1.active_ = [] := by rw [he1, ← ih'.active]; cases ek; rfl
    have hbase1 : Base runs tombs e1 := by rw [he1]; exact base_updIter ih'.base k _ hkn hca1
    have hidx1 : childIdx runs e1 k = 0 := by
      unfold childIdx
      rw [cpos_eq, hd1k, hpos1]
      exact placePos_getD _ _ (Nat.zero_le _)
    have hidx1' : ∀ l, l < k → childIdx runs e1 l = 0 := by
      intro l hl
      rw [childIdx_congr (hd1 _ (by simp; omega))]
      exact ih'.idx l hl
    have hheapP1 : HeapPart k 0 e1 :=
      heapPart_frame_level ih'.heap hheap1 (fun l hl => hd1 _ (by simp; omega))
        (fun j hj => by omega) (fun j hj => by omega)
    have hall : ∀ l, l < k + 1 → childIdx runs e1 l = 0 := by
      intro l hl
      by_cases hlk : l = k
      · subst hlk; exact hidx1
      · exact hidx1' l (by omega)
    unfold AddToMinHeapOrCheckStatus
    by_cases hv : (e1.deref (.child k)).iter.Valid = true
    · simp only [hv, ↓reduceIte]
      exact ⟨base_minPush hbase1 _, hact1, heapPart_push_child hheapP1 hv,
        fun l hl => by rw [childIdx_congr (deref_minPush e1 _ _)]; exact hall l hl⟩
    · simp only [hv, Bool.false_eq_true, ↓reduceIte]
      rw [childAt_status (hbase1.child_at k hkn), considerStatus_ok]
      exact ⟨hbase1, hact1, heapPart_skip_child hheapP1 (by simpa using hv), hall⟩

theorem firstB_loop {runs : List (List (ParsedInternalKey UK))}
    {tombs : List (Option (List (RangeTombstone UK)))} {e0 : MergingIterator UK}
    (h0 : FirstB runs tombs 0 e0) :
    ∀ k, k ≤ runs.length → FirstB runs tombs k
      ((List.range k).foldl
        (fun (e : MergingIterator UK) i =>
          match e.range_tombstone_iters_[i]?.getD none with
          | some it =>
            let e := e.setRti i it.SeekToFirst
            if (e.rti i).Valid then e.InsertRangeTombstoneToMinHeap i true false else e
          | none => e) e0) := by
  intro k
  induction k with
  | zero => intro _; simpa using h0
  | succ k ih =>
    intro hk
    have ih' := ih (by omega)
    rw [List.range_succ, List.foldl_append]
    simp only [List.foldl_cons, List.foldl_nil]
    obtain ⟨ek, hek⟩ : ∃ ek, ek = (List.range k).foldl
        (fun (e : MergingIterator UK) i =>
          match e.range_tombstone_iters_[i]?.getD none with
          | some it =>
            let e := e.setRti i it.SeekToFirst
            if (e.rti i).Valid then e.InsertRangeTombstoneToMinHeap i true false else e
          | none => e) e0 := ⟨_, rfl⟩
    rw [← hek] at ih' ⊢
    have hkn : k < runs.length := by omega
    have hkact : k ∉ ek.active_ := by rw [ih'.active]; simp
    cases hslot : ek.range_tombstone_iters_[k]?.getD none with
    | none =>
      simp only []
      have hrd := rti_default_of_slot_none ek k hslot
      have hv : (ek.rti k).Valid = false := by rw [hrd]; rfl
      refine ⟨ih'.base, ih'.active, tombPart_extend_invalid ih'.tomb hv,
        heapPart_skip_pinned ih'.heap hv, ih'.idx, ?_⟩
      intro j hj
      by_cases hjk : j = k
      · subst hjk
        unfold tombIdx
        rw [hrd]; rfl
      · exact ih'.tidx j (by omega)
    | some it =>
      simp only []
      have hit := rti_of_slot_some ek k it hslot
      obtain ⟨hsp, hst⟩ := tseekToFirst_pos it
      have htombs : it.tombstones = tombsAt tombs k := by
        rw [← hit]; exact ih'.base.rti_tombs k hkn
      rw [htombs] at hsp hst
      obtain ⟨e2, he2⟩ : ∃ e2, e2 = ek.setRti k it.SeekToFirst := ⟨_, rfl⟩
      rw [← he2]
      have hkr : k < ek.range_tombstone_iters_.length := by rw [ih'.base.rti_len]; exact hkn
      have hr2k : e2.rti k = it.SeekToFirst := by rw [he2]; exact rti_setRti_self ek k _ hkr
      have hr2 : ∀ j, j ≠ k → e2.rti j = ek.rti j := by
        intro j hj; rw [he2, rti_setRti_ne ek k j _ (Ne.symm hj)]
      have hd2 : ∀ p, e2.deref p = ek.deref p := by intro p; rw [he2]; exact deref_setRti ek _ _ p
      have hheap2 : e2.heap_ = ek.heap_ := by rw [he2]; rfl
      have hact2 : e2.active_ = [] := by rw [he2, ← ih'.active]; rfl
      have hbase2 : Base runs tombs e2 := by
        rw [he2]
        refine base_setRti ih'.base k _ hkn (by rw [hslot]; rfl) hst ?_
        intro i hi
        rw [hsp] at hi
        obtain ⟨h1, h2⟩ := placePos_some hi
        omega
      have htidx2 : tombIdx e2 k = 0 := by
        unfold tombIdx
        rw [hr2k, hsp, hst]
        exact placePos_getD _ _ (Nat.zero_le _)
      have htomb2 : TombPart k e2 :=
        tombPart_of_eq_lt ih'.tomb (fun j _ => hd2 _) (fun j hj => hr2 j (by omega))
          (by rw [hact2, ih'.active])
      have hheapP2 : HeapPart runs.length k e2 :=
        heapPart_frame_level ih'.heap hheap2 (fun l _ => hd2 _) (fun j _ => hd2 _)
          (fun j hj => hr2 j (by omega))
      have hidx2 : ∀ l, l < runs.length → childIdx runs e2 l = 0 := by
        intro l hl; rw [childIdx_congr (hd2 _)]; exact ih'.idx l hl
      have htall : ∀ e' : MergingIterator UK, (∀ j, e'.rti j = e2.rti j) →
          ∀ j, j < k + 1 → tombIdx e' j = 0 := by
        intro e' hr j hj
        rw [tombIdx_congr (hr j)]
        by_cases hjk : j = k
        · subst hjk; exact htidx2
        · rw [tombIdx_congr (hr2 j hjk)]; exact ih'.tidx j (by omega)
      by_cases hv2 : (e2.rti k).Valid = true
      · simp only [hv2, ↓reduceIte]
        rw [insert_eq e2 k true false hbase2.no_upper_bound]
        simp only [Bool.false_eq_true, ↓reduceIte]
        obtain ⟨es, hes⟩ : ∃ es, es = stampPinned e2 k true := ⟨_, rfl⟩
        rw [← hes]
        have hbases : Base runs tombs es := by rw [hes]; exact base_stamp hbase2 k true hkn
        have htombs' : TombPart (k + 1) es := by
          rw [hes]
          exact tombPart_stamp hbase2 htomb2 k true hkn hv2
            (fun _ => by rw [hact2]; simp) (k + 1) (by omega) (by omega)
            (fun i h1 h2 => by omega)
        have hrs : ∀ j, es.rti j = e2.rti j := by
          intro j; rw [hes]; exact stamp_rti e2 k true j
        have hds : ∀ p, p ≠ .pinned k → es.deref p = e2.deref p := by
          intro p hp; rw [hes]; exact stamp_deref_ne e2 k true p hp
        have hheapPs : HeapPart runs.length k es :=
          heapPart_frame_level hheapP2 (by rw [hes]; exact stamp_heap e2 k true)
            (fun l _ => hds _ (by simp)) (fun j hj => hds _ (by simp; omega)) (fun j _ => hrs j)
        have hvs : (es.rti k).Valid = true := by rw [hrs]; exact hv2
        have hacts : es.active_ = [] := by rw [hes, stamp_active]; exact hact2
        refine ⟨base_minPush hbases _, hacts,
          tombPart_of_eq htombs' (fun j => deref_minPush es _ _) (fun j => rfl) rfl,
          heapPart_push_pinned hheapPs hvs, ?_, ?_⟩
        · intro l hl
          rw [childIdx_congr (show (es.minPush (.pinned k)).deref (.child l) =
            e2.deref (.child l) from by rw [deref_minPush, hds _ (by simp)])]
          exact hidx2 l hl
        · exact htall _ (fun j => by rw [rti_minPush, hrs])
      · have hv2' : (e2.rti k).Valid = false := by simpa using hv2
        simp only [hv2', Bool.false_eq_true, ↓reduceIte]
        exact ⟨hbase2, hact2, tombPart_extend_invalid htomb2 hv2',
          heapPart_skip_pinned hheapP2 hv2', hidx2, htall e2 (fun j => rfl)⟩

theorem lowerBound_exists (e : MergingIterator UK) (hi : HeapInv e.minCmp e.heap_) :
    ∃ B, LowerBound B e := by
  cases ht : e.heap_.top with
  | none =>
    refine ⟨default, ?_⟩
    intro p hp
    rw [(top_none_iff e).mp ht] at hp
    simp at hp
  | some t => exact ⟨hkey e t, (top_min e hi t ht).2⟩

/-- The method `SeekToFirst()` reaches a state of a forward scan in which every visible
record is still to come. -/
theorem seekToFirst_spec_t {runs : List (List (ParsedInternalKey UK))}
    {tombs : List (Option (List (RangeTombstone UK)))} {e : MergingIterator UK}
    (hb : Base runs tombs e) (fuel : Nat)
    (hfuel : rankBound runs tombs runs.length ≤ fuel) :
    ∃ e1, e.SeekToFirst fuel = some e1 ∧ ScanInv runs tombs e1 ∧
      visRem runs tombs e1 = visibleRecords runs tombs := by
  obtain ⟨e0, he0⟩ : ∃ e0 : MergingIterator UK,
      e0 = { e.ClearHeaps true with status_ := Status.OK } := ⟨_, rfl⟩
  have hbase0 : Base runs tombs e0 := by
    rw [he0]; exact base_of_eq hb rfl rfl rfl rfl hb.no_upper_bound
  have hA0 : FirstA runs tombs 0 e0 := by
    refine ⟨hbase0, by rw [he0]; rfl, ?_, fun l hl => by omega⟩
    apply heapPart_of_mem
    · rw [he0]; simp [ClearHeaps, BinaryHeap.clear]
    · intro p
      rw [he0]
      cases p <;> simp [InHeapSpec, ClearHeaps, BinaryHeap.clear]
    · rw [he0]; exact heapInv_clear _ e.heap_
  obtain ⟨e1, he1⟩ : ∃ e1, e1 = (List.range e0.children_.length).foldl
      (fun (e : MergingIterator UK) level =>
        (e.updIter (.child level) (fun w => w.SeekToFirst)).AddToMinHeapOrCheckStatus
          (.child level)) e0 := ⟨_, rfl⟩
  have hA : FirstA runs tombs runs.length e1 := by
    rw [he1, hbase0.children_len]; exact firstA_loop hA0 runs.length (le_refl _)
  have hB0 : FirstB runs tombs 0 e1 :=
    ⟨hA.base, hA.active, ⟨fun j hj => by omega, fun j => by rw [hA.active]; simp,
      by rw [hA.active]; exact List.Pairwise.nil⟩, hA.heap, hA.idx, fun j hj => by omega⟩
  obtain ⟨e2, he2⟩ : ∃ e2, e2 = (List.range e1.range_tombstone_iters_.length).foldl
      (fun (e : MergingIterator UK) i =>
        match e.range_tombstone_iters_[i]?.getD none with
        | some it =>
          let e := e.setRti i it.SeekToFirst
          if (e.rti i).Valid then e.InsertRangeTombstoneToMinHeap i true false else e
        | none => e) e1 := ⟨_, rfl⟩
  have hB : FirstB runs tombs runs.length e2 := by
    rw [he2, hA.base.rti_len]; exact firstB_loop hB0 runs.length (le_refl _)
  obtain ⟨B, hBl⟩ := lowerBound_exists e2 hB.heap.inv
  have hf2 : FwdT runs tombs e2 := by
    refine ⟨⟨hB.base, hB.tomb, hB.heap⟩, ?_, ?_, B, hBl, ?_⟩
    · intro j L hjL hL hv t ht
      rw [hB.tidx j (by omega)] at ht
      simp at ht
    · intro j L hjL hL hv hact
      rw [hB.active] at hact
      simp at hact
    · intro l idx r hl hidx
      rw [hB.idx l hl] at hidx
      omega
  obtain ⟨e3, g1, g2, g3, g4, g5⟩ := findNext_spec hf2 fuel hfuel
  have hvis2 : visRem runs tombs e2 = visibleRecords runs tombs := by
    unfold visRem visibleRecords
    apply List.flatMap_congr
    intro l hl
    rw [hB.idx l (List.mem_range.mp hl)]
    rfl
  have hseek : e.SeekToFirst fuel = some ({ ({ e3 with direction_ := Direction.kForward } :
      MergingIterator UK) with current_ := e3.heap_.top }) := by
    have h1 : e.SeekToFirst fuel =
        match e2.FindNextVisibleKey fuel with
        | some e3 =>
          some ({ ({ e3 with direction_ := Direction.kForward } : MergingIterator UK) with
            current_ := e3.heap_.top })
        | none => none := by
      rw [he2, he1, he0]; rfl
    rw [h1, g1]
  refine ⟨_, hseek, ?_, ?_⟩
  · refine ⟨⟨⟨base_of_eq g2.struct.base rfl rfl rfl g2.struct.base.status_ok
        g2.struct.base.no_upper_bound, tombPart_of_eq g2.struct.tomb (fun j => rfl)
        (fun j => rfl) rfl, heapPart_frame g2.struct.heap rfl (fun p _ => rfl)
        (fun q => by cases q <;> rfl)⟩, ?_, ?_, ?_⟩, ?_, rfl, rfl⟩
    · exact passedTombs_congr g2.passed_tombs (fun l => rfl) (fun j => rfl)
    · intro j L hjL hL hvL hact
      exact g2.active_started j L hjL hL hvL hact
    · obtain ⟨B', hB1, hB2⟩ := g2.bound
      exact ⟨B', fun p hp => hB1 p hp, passedRecords_congr hB2 (fun l => rfl)⟩
    · intro t' ht'
      exact g3 t' ht'
  · rw [← hvis2, ← g4]
    exact visRem_congr (fun l => rfl)

theorem addRti_foldl (tombs : List (Option (List (RangeTombstone UK))))
    (e : MergingIterator UK) :
    (tombs.foldl (fun (e : MergingIterator UK) ts =>
        e.AddRangeTombstoneIterator (ts.map (fun l => { tombstones := l }))) e) =
      { e with range_tombstone_iters_ := e.range_tombstone_iters_ ++
          tombs.map (fun ts => ts.map (fun l => { tombstones := l })) } := by
  induction tombs generalizing e with
  | nil => simp
  | cons t ts ih =>
    rw [List.foldl_cons, ih]
    simp [AddRangeTombstoneIterator]

theorem build_fields (runs : List (List (ParsedInternalKey UK)))
    (tombs : List (Option (List (RangeTombstone UK)))) :
    (build runs tombs).children_ =
        (MergingIterTmpl (runs.map (fun r => { run := r })) false none).children_ ∧
      (build runs tombs).range_tombstone_iters_ =
        tombs.map (fun ts => ts.map (fun l => { tombstones := l })) ∧
      (build runs tombs).status_ = Status.OK ∧
      (build runs tombs).iterate_upper_bound_ = none ∧
      (build runs tombs).pinned_heap_item_ =
        if tombs.isEmpty then [] else (List.range tombs.length).map (fun i =>
          { iter := default, level := i,
            parsed_ikey := { (default : ParsedInternalKey UK) with type := kTypeMaxValid },
            type := HeapItemType.ITERATOR }) := by
  unfold build
  rw [addRti_foldl]
  unfold Finish
  cases tombs with
  | nil => simp [MergingIterTmpl]
  | cons t ts => simp [MergingIterTmpl]

theorem build_child (runs : List (List (ParsedInternalKey UK)))
    (tombs : List (Option (List (RangeTombstone UK)))) (l : Nat) :
    (build runs tombs).children_[l]? = (runs[l]?).map (fun r =>
      { iter := { iter_ := some { run := r },
                  result_ := { (default : IteratorWrapper UK).result_ with is_valid := false } },
        level := l, parsed_ikey := default, type := HeapItemType.ITERATOR }) := by
  rw [(build_fields runs tombs).1]
  simp only [MergingIterTmpl, List.getElem?_map, List.getElem?_enum]
  cases runs[l]? with
  | none => rfl
  | some r =>
    simp [IteratorWrapper.Set, IteratorWrapper.Update, InternalIterator.Valid]

/-- The engine that `build` makes from well-formed input satisfies the item invariant. -/
theorem build_base (runs : List (List (ParsedInternalKey UK)))
    (tombs : List (Option (List (RangeTombstone UK)))) (hwf : InputWF runs tombs) :
    Base runs tombs (build runs tombs) := by
  obtain ⟨hc, hr, hst, hub, hp⟩ := build_fields runs tombs
  have hrti : ∀ j, j < runs.length → (build runs tombs).rti j =
      { tombstones := tombsAt tombs j } ∨
      ((build runs tombs).rti j = default ∧ tombsAt tombs j = []) := by
    intro j hj
    have hjt : j < tombs.length := by rw [hwf.len]; exact hj
    unfold rti tombsAt
    rw [hr, List.getElem?_map, List.getElem?_eq_getElem hjt]
    cases tombs[j] with
    | none => right; exact ⟨rfl, rfl⟩
    | some ts => left; rfl
  exact
    { wf := hwf
      children_len := by rw [hc]; simp [MergingIterTmpl]
      rti_len := by rw [hr]; simp [hwf.len]
      pinned_len := by
        rw [hp]
        cases ht : tombs with
        | nil => rw [ht] at hwf; simp [← hwf.len]
        | cons t ts => simp [← hwf.len, ht]
      child_at := fun l hl => by
        have := build_child runs tombs l
        rw [List.getElem?_eq_getElem hl] at this
        simp only [Option.map_some'] at this
        have hd := deref_child_of_getElem? _ l _ this
        rw [hd]
        refine ⟨rfl, rfl, none, ?_, rfl, fun i hi => by simp at hi⟩
        unfold runAt
        rw [List.getElem?_eq_getElem hl]
        rfl
      rti_slot := fun j hj => by
        have hjt : j < tombs.length := by rw [hwf.len]; exact hj
        rw [hr, List.getElem?_map, List.getElem?_eq_getElem hjt]
        cases tombs[j] <;> rfl
      rti_tombs := fun j hj => by
        rcases hrti j hj with h | ⟨h1, h2⟩
        · rw [h]
        · rw [h1, h2]; rfl
      rti_pos := fun j i hj hi => by
        rcases hrti j hj with h | ⟨h1, h2⟩
        · rw [h] at hi; simp at hi
        · rw [h1] at hi
          have : (default : TruncatedRangeDelIterator UK).pos = none := rfl
          rw [this] at hi; simp at hi
      pinned_at := fun j hj => by
        have hjt : j < tombs.length := by rw [hwf.len]; exact hj
        have hne : tombs.isEmpty = false := by
          cases ht : tombs with
          | nil => rw [ht] at hjt; simp at hjt
          | cons t ts => rfl
        unfold deref
        rw [hp]
        simp [hne, hjt]
      status_ok := hst
      no_upper_bound := hub }

/-- The forward scan of an engine over well-formed runs and tombstones: with enough fuel it
yields exactly the visible records, in the order of the comparator. -/
theorem forwardScan_tombs (runs : List (List (ParsedInternalKey UK)))
    (tombs : List (Option (List (RangeTombstone UK)))) (hwf : InputWF runs tombs)
    (fuel n : Nat) (hfuel : rankBound runs tombs runs.length ≤ fuel)
    (hn : (visibleRecords runs tombs).length ≤ n) :
    ∃ out, forwardScan fuel n (build runs tombs) = some out ∧
      out.Perm (visibleRecords runs tombs) ∧ out.Pairwise keyLe := by
  obtain ⟨e1, h1, h2, h3⟩ := seekToFirst_spec_t (build_base runs tombs hwf) fuel hfuel
  obtain ⟨out, g1, g2, g3⟩ := collect_spec fuel hfuel n e1 h2 (by rw [h3]; exact hn)
  refine ⟨out, ?_, by rw [← h3]; exact g2, g3⟩
  unfold forwardScan
  rw [h1]
  exact g1

theorem tombsAt_single_self {n L : Nat} (a c : UK) (s : Nat) (hL : L < n) :
    tombsAt (singleTombstone n L a c s) L = [mkTombstone a c s] := by
  unfold tombsAt singleTombstone
  rw [List.getElem?_set_self (by simpa using hL)]
  rfl

theorem tombsAt_single_ne {n L j : Nat} (a c : UK) (s : Nat) (hj : j ≠ L) :
    tombsAt (singleTombstone n L a c s) j = [] := by
  unfold tombsAt singleTombstone
  rw [List.getElem?_set_ne (Ne.symm hj)]
  by_cases h : j < n
  · rw [List.getElem?_eq_getElem (by simpa using h)]
    simp
  · rw [List.getElem?_eq_none (by simpa using h)]
    rfl

theorem suppressed_single {n L : Nat} (a c : UK) (s : Nat) (hL : L < n) (l : Nat)
    (k : ParsedInternalKey UK) :
    suppressed (singleTombstone n L a c s) l k ↔ deletedBy L a c s l k := by
  unfold suppressed deletedBy
  constructor
  · rintro (⟨j, hj, t, ht, hc⟩ | ⟨t, ht, hc, hs⟩)
    · by_cases hjL : j = L
      · subst hjL
        rw [tombsAt_single_self a c s hL] at ht
        simp only [List.mem_singleton] at ht
        subst ht
        exact ⟨hc.1, hc.2, Or.inr hj⟩
      · rw [tombsAt_single_ne a c s hjL] at ht
        simp at ht
    · by_cases hlL : l = L
      · subst hlL
        rw [tombsAt_single_self a c s hL] at ht
        simp only [List.mem_singleton] at ht
        subst ht
        exact ⟨hc.1, hc.2, Or.inl ⟨rfl, hs⟩⟩
      · rw [tombsAt_single_ne a c s hlL] at ht
        simp at ht
  · rintro ⟨h1, h2, (⟨h3, h4⟩ | h3)⟩
    · subst h3
      refine Or.inr ⟨mkTombstone a c s, ?_, ⟨h1, h2⟩, h4⟩
      rw [tombsAt_single_self a c s hL]
      simp
    · refine Or.inl ⟨L, h3, mkTombstone a c s, ?_, ⟨h1, h2⟩⟩
      rw [tombsAt_single_self a c s hL]
      simp

theorem inputWF_single {runs : List (List (ParsedInternalKey UK))} {L : Nat} {a c : UK}
    (s : Nat) (hac : a < c)
    (hsorted : ∀ r ∈ runs, SortedRun r)
    (hseq : ∀ r ∈ runs, ∀ k ∈ r, k.sequence < kMaxSequenceNumber) :
    InputWF runs (singleTombstone runs.length L a c s) := by
  refine ⟨by simp [singleTombstone], hsorted, hseq, ?_⟩
  intro j
  by_cases hj : j = L ∧ L < runs.length
  · obtain ⟨rfl, hL⟩ := hj
    rw [tombsAt_single_self a c s hL]
    refine ⟨?_, by simp⟩
    intro t ht
    simp only [List.mem_singleton] at ht
    subst ht
    exact ⟨hac, rfl, rfl, rfl, rfl⟩
  · have h0 : tombsAt (singleTombstone runs.length L a c s) j = [] := by
      by_cases hjL : j = L
      · subst hjL
        have hL : ¬ j < runs.length := fun h => hj ⟨rfl, h⟩
        unfold tombsAt singleTombstone
        rw [List.getElem?_eq_none (by simpa using hL)]
        rfl
      · exact tombsAt_single_ne a c s hjL
    rw [h0]
    exact ⟨by simp, List.Pairwise.nil⟩

theorem flatMap_sublist {α β : Type} (f g : α → List β) :
    ∀ (xs : List α), (∀ x ∈ xs, (f x).Sublist (g x)) →
      (xs.flatMap f).Sublist (xs.flatMap g)
  | [], _ => by simp
  | x :: xs, h => by
    simp only [List.flatMap_cons]
    exact List.Sublist.append (h x (List.mem_cons_self _ _))
      (flatMap_sublist f g xs (fun y hy => h y (List.mem_cons_of_mem _ hy)))

theorem flatMap_runAt (runs : List (List (ParsedInternalKey UK))) :
    (List.range runs.length).flatMap (fun l => runAt runs l) = runs.flatten := by
  have h : (List.range runs.length).map (fun l => runAt runs l) = runs := by
    apply List.ext_getElem
    · simp
    · intro i h1 h2
      simp only [List.getElem_map, List.getElem_range, runAt]
      rw [List.getElem?_eq_getElem h2]
      rfl
  rw [List.flatMap, h]

theorem visibleRecords_length_le (runs : List (List (ParsedInternalKey UK)))
    (tombs : List (Option (List (RangeTombstone UK)))) :
    (visibleRecords runs tombs).length ≤ runs.flatten.length := by
  rw [← flatMap_runAt runs]
  apply List.Sublist.length_le
  unfold visibleRecords
  apply flatMap_sublist
  intro l _
  exact List.filter_sublist _

/-- C2. With one range tombstone `[a, c)` of sequence number `s` on run `L` (sorted runs whose
records have sequence numbers below the reserved largest one), the forward scan returns the
records that the tombstone does not delete, each as often as the runs hold it, in comparator
order: it has no record with user key in `[a, c)` that is on run `L` with a sequence number
below `s` or on a run with an index above `L`, and it has every record of run `L` in the range
whose sequence number is at least `s`. -/
theorem single_tombstone_forward_scan (runs : List (List (ParsedInternalKey UK)))
    (L : Nat) (a c : UK) (s : Nat) (fuel n : Nat)
    (hL : L < runs.length) (hac : a < c)
    (hsorted : ∀ r ∈ runs, SortedRun r)
    (hseq : ∀ r ∈ runs, ∀ k ∈ r, k.sequence < kMaxSequenceNumber)
    (hfuel : rankBound runs (singleTombstone runs.length L a c s) runs.length ≤ fuel)
    (hn : runs.flatten.length ≤ n) :
    ∃ out, forwardScan fuel n (build runs (singleTombstone runs.length L a c s)) = some out ∧
      out.Perm ((List.range runs.length).flatMap (fun l =>
        (runs[l]?.getD []).filter (fun k => decide (¬ deletedBy L a c s l k)))) ∧
      out.Pairwise keyLe ∧
      (∀ k ∈ out, ∃ l, k ∈ runs[l]?.getD [] ∧ ¬ deletedBy L a c s l k) ∧
      (∀ k ∈ runs[L]?.getD [], a ≤ k.user_key → k.user_key < c → s ≤ k.sequence → k ∈ out) := by
  have hwf := inputWF_single (L := L) s hac hsorted hseq
  obtain ⟨out, h1, h2, h3⟩ := forwardScan_tombs runs _ hwf fuel n hfuel
    (le_trans (visibleRecords_length_le runs _) hn)
  have hvis : visibleRecords runs (singleTombstone runs.length L a c s) =
      (List.range runs.length).flatMap (fun l =>
        (runs[l]?.getD []).filter (fun k => decide (¬ deletedBy L a c s l k))) := by
    unfold visibleRecords visibleOf
    congr 1
    funext l
    congr 1
    funext k
    simp only [suppressed_single a c s hL l k]
  rw [hvis] at h2
  refine ⟨out, h1, h2, h3, ?_, ?_⟩
  · intro k hk
    rw [h2.mem_iff, List.mem_flatMap] at hk
    obtain ⟨l, _, hk⟩ := hk
    rw [List.mem_filter] at hk
    exact ⟨l, hk.1, by simpa using hk.2⟩
  intro k hk ha hc hs
  rw [h2.mem_iff, List.mem_flatMap]
  refine ⟨L, List.mem_range.mpr hL, ?_⟩
  rw [List.mem_filter]
  refine ⟨hk, ?_⟩
  simp only [decide_eq_true_eq]
  rintro ⟨_, _, (⟨_, h4⟩ | h4)⟩ <;> omega

/-- The example of C2: run 0 holds the tombstone `[1, 3)` with sequence number 7 and no
records, run 1 holds the record with user key 2 and sequence number 2; the scan is empty. -/
theorem single_tombstone_forward_scan_witness :
    forwardScan 6 1 (build [[], [(⟨2, 2, 1⟩ : ParsedInternalKey Nat)]]
      (singleTombstone 2 0 1 3 7)) = some [] := by
  obtain ⟨out, h1, h2, -⟩ := single_tombstone_forward_scan
    [[], [(⟨2, 2, 1⟩ : ParsedInternalKey Nat)]] 0 1 3 7 6 1 (by decide) (by decide)
    (by decide) (by decide) (by decide) (by decide)
  have h4 : ((List.range ([[], [(⟨2, 2, 1⟩ : ParsedInternalKey Nat)]] :
        List (List (ParsedInternalKey Nat))).length).flatMap (fun l =>
      (([[], [(⟨2, 2, 1⟩ : ParsedInternalKey Nat)]] :
        List (List (ParsedInternalKey Nat)))[l]?.getD []).filter
        (fun k => decide (¬ deletedBy 0 1 3 7 l k)))) = [] := by decide
  rw [h4] at h2
  have h3 : out = [] := List.Perm.eq_nil h2
  subst h3
  exact h1

/-- The lower bound of the heap entries after `Seek(target)`: the target, or the boundary key
of its user key when the target lies between that key and the range-deletion key. -/
theorem seekBound_exists (target : ParsedInternalKey UK) :
    ∃ B : ParsedInternalKey UK, keyLe B target ∧
      (∀ a : UK, keyLt target ⟨a, kMaxSequenceNumber, kTypeRangeDeletion⟩ →
        keyLe B ⟨a, kMaxSequenceNumber, kTypeMaxValid⟩) ∧
      (∀ r : ParsedInternalKey UK, r.sequence < kMaxSequenceNumber → keyLe B r →
        keyLt r target → False) := by
  by_cases h : keyLt ⟨target.user_key, kMaxSequenceNumber, kTypeMaxValid⟩ target ∧
      keyLt target ⟨target.user_key, kMaxSequenceNumber, kTypeRangeDeletion⟩
  · refine ⟨⟨target.user_key, kMaxSequenceNumber, kTypeMaxValid⟩, keyLe_of_keyLt h.1, ?_, ?_⟩
    · intro a ha
      have hle : target.user_key ≤ a := keyLt_user_key ha
      rcases lt_or_eq_of_le hle with hlt | heq
      · exact keyLe_of_keyLt (Or.inl hlt)
      · subst heq
        exact keyLe_refl _
    · intro r hr h1 h2
      have hu0 := keyLe_user_key h1
      have hu1 : target.user_key ≤ r.user_key := hu0
      have hu2 : r.user_key ≤ target.user_key := keyLt_user_key h2
      have hu : r.user_key = target.user_key := le_antisymm hu2 hu1
      have h3 := h.2
      unfold keyLt at h2 h3
      simp only [hu, lt_irrefl, true_and, false_or] at h2 h3
      rcases h3 with h3 | ⟨h3, _⟩ <;> rcases h2 with h2 | ⟨h2, _⟩ <;> omega
  · refine ⟨target, keyLe_refl _, ?_, ?_⟩
    · intro a ha
      have hle : target.user_key ≤ a := keyLt_user_key ha
      rcases lt_or_eq_of_le hle with hlt | heq
      · exact keyLe_of_keyLt (Or.inl hlt)
      · subst heq
        have h1 : ¬ keyLt ⟨target.user_key, kMaxSequenceNumber, kTypeMaxValid⟩ target :=
          fun hc => h ⟨hc, ha⟩
        exact not_keyLt_iff.mp h1
    · intro r _ h1 h2
      exact not_keyLt_iff.mpr h1 h2

theorem filter_take_drop {α : Type} (p q : α → Bool) (xs : List α) (n : Nat)
    (h1 : ∀ x ∈ xs.take n, (p x && q x) = false)
    (h2 : ∀ x ∈ xs.drop n, q x = true) :
    (xs.filter p).filter q = (xs.drop n).filter p := by
  rw [List.filter_filter]
  conv_lhs => rw [← List.take_append_drop n xs]
  rw [List.filter_append]
  have e1 : (xs.take n).filter (fun a => q a && p a) = [] := by
    rw [List.filter_eq_nil_iff]
    intro x hx
    have := h1 x hx
    rw [Bool.and_comm] at this
    simp [this]
  have e2 : (xs.drop n).filter (fun a => q a && p a) = (xs.drop n).filter p := by
    apply List.filter_congr
    intro x hx
    rw [h2 x hx, Bool.true_and]
  rw [e1, e2, List.nil_append]

theorem filter_flatMap {α β : Type} (q : β → Bool) (f : α → List β) (xs : List α) :
    (xs.flatMap f).filter q = xs.flatMap (fun a => (f a).filter q) := by
  induction xs with
  | nil => rfl
  | cons x xs ih => simp only [List.flatMap_cons, List.filter_append, ih]

theorem seekImpl_no_levels {runs : List (List (ParsedInternalKey UK))}
    {tombs : List (Option (List (RangeTombstone UK)))} {e : MergingIterator UK}
    (hb : Base runs tombs e) (hn : runs.length = 0) (target : ParsedInternalKey UK) :
    e.SeekImpl target 0 = { e.ClearHeaps false with status_ := Status.OK } := by
  have h1 : e.children_ = [] := List.eq_nil_of_length_eq_zero (by rw [hb.children_len, hn])
  have h2 : e.range_tombstone_iters_ = [] :=
    List.eq_nil_of_length_eq_zero (by rw [hb.rti_len, hn])
  unfold SeekImpl
  simp [ClearHeaps, h1, h2]

theorem seekImpl_fwd {runs : List (List (ParsedInternalKey UK))}
    {tombs : List (Option (List (RangeTombstone UK)))} {e : MergingIterator UK}
    (hs : Struct runs tombs e) (target : ParsedInternalKey UK) :
    FwdT runs tombs (e.SeekImpl target 0) ∧
      visRem runs tombs (e.SeekImpl target 0) =
        (visibleRecords runs tombs).filter (fun k => Compare k target != Ordering.lt) := by
  by_cases hn : runs.length = 0
  · rw [seekImpl_no_levels hs.base hn target]
    have hbase : Base runs tombs { e.ClearHeaps false with status_ := Status.OK } :=
      base_of_eq hs.base rfl rfl rfl rfl hs.base.no_upper_bound
    have hact : e.active_ = [] := by
      cases ha : e.active_ with
      | nil => rfl
      | cons a t =>
        have := (hs.tomb.active_iff a).mp (by rw [ha]; exact List.mem_cons_self _ _)
        omega
    refine ⟨⟨⟨hbase, ?_, ?_⟩, ?_, ?_, target, ?_, ?_⟩, ?_⟩
    · refine ⟨fun j hj => by omega, fun j => ?_, ?_⟩
      · show j ∈ e.active_ ↔ _
        rw [hact]
        constructor
        · intro h; simp at h
        · intro h; omega
      · show e.active_.Pairwise _
        rw [hact]; exact List.Pairwise.nil
    · apply heapPart_of_mem
      · simp [ClearHeaps, BinaryHeap.clear]
      · intro p
        cases p <;> simp [InHeapSpec, ClearHeaps, BinaryHeap.clear, hn]
      · exact heapInv_clear _ e.heap_
    · intro j L hjL hL; omega
    · intro j L hjL hL; omega
    · intro p hp
      simp [ClearHeaps, BinaryHeap.clear] at hp
    · intro l idx r hl; omega
    · unfold visRem visibleRecords
      rw [hn]
      rfl
  · have hsn : 0 < runs.length := by omega
    obtain ⟨B, hB1, hB2, hB3⟩ := seekBound_exists target
    obtain ⟨h1, h2, h3, h4, -, -, -, h5, h6, -⟩ := seekImpl_spec hs hsn target B
      (fun j L _ hL => by omega) (fun j L _ hL => by omega) (fun j hj => by omega)
      (fun j hj => by omega) hB1 hB2
      (fun L hL => by omega) (fun j hj => by omega)
      (fun l r _ hl hr g1 g2 => by
        exfalso
        have hrun : runAt runs l ∈ runs := by
          unfold runAt
          rw [List.getElem?_eq_getElem hl]
          exact List.getElem_mem _
        exact hB3 r (hs.base.wf.seq_lt _ hrun r hr) g1 g2)
    refine ⟨⟨h1, h2, h3, B, h4, ?_⟩, ?_⟩
    · intro l idx r hl hidx hr hlt
      exact h5 l idx r (Nat.zero_le _) hl hidx hr (keyLe_of_keyLt hlt)
    · unfold visRem visibleRecords
      rw [filter_flatMap]
      apply List.flatMap_congr
      intro l hl
      have hl' := List.mem_range.mp hl
      unfold visibleOf
      symm
      apply filter_take_drop
      · intro x hx
        obtain ⟨idx, hidx⟩ := List.mem_iff_getElem?.mp hx
        have hlt : idx < childIdx runs (e.SeekImpl target 0) l := by
          by_contra hcon
          rw [List.getElem?_take_eq_none (by omega)] at hidx
          simp at hidx
        rw [List.getElem?_take_of_lt hlt] at hidx
        by_cases hge : keyLe target x
        · have hsup := h5 l idx x (Nat.zero_le _) hl' hlt hidx
            (keyLe_trans hB1 hge)
          simp [hsup]
        · have hlt2 : keyLt x target := not_keyLe_iff.mp hge
          have : Compare x target = .lt := (compare_lt_iff _ _).mpr hlt2
          have hb : (Compare x target != Ordering.lt) = false := by rw [this]; rfl
          rw [hb, Bool.and_false]
      · intro x hx
        obtain ⟨idx, hidx⟩ := List.mem_iff_getElem?.mp hx
        rw [List.getElem?_drop] at hidx
        have hge := h6 l _ x (Nat.zero_le _) hl' (Nat.le_add_right _ idx) hidx
        have hnlt : ¬ keyLt x target := not_keyLt_iff.mpr hge
        have : Compare x target ≠ .lt := fun hc => hnlt ((compare_lt_iff _ _).mp hc)
        exact (ordering_bne_iff _ _).mpr this

theorem seek_spec_t {runs : List (List (ParsedInternalKey UK))}
    {tombs : List (Option (List (RangeTombstone UK)))} {e : MergingIterator UK}
    (hs : Struct runs tombs e) (fuel : Nat)
    (hfuel : rankBound runs tombs runs.length ≤ fuel) (target : ParsedInternalKey UK) :
    ∃ e1, e.Seek fuel target = some e1 ∧ ScanInv runs tombs e1 ∧
      visRem runs tombs e1 =
        (visibleRecords runs tombs).filter (fun k => Compare k target != Ordering.lt) := by
  obtain ⟨hf2, hvis2⟩ := seekImpl_fwd hs target
  obtain ⟨e3, g1, g2, g3, g4, g5⟩ := findNext_spec hf2 fuel hfuel
  have hseek : e.Seek fuel target = some ({ ({ e3 with direction_ := Direction.kForward } :
      MergingIterator UK) with current_ := e3.heap_.top }) := by
    unfold Seek
    rw [g1]
    rfl
  refine ⟨_, hseek, ?_, ?_⟩
  · refine ⟨⟨⟨base_of_eq g2.struct.base rfl rfl rfl g2.struct.base.status_ok
        g2.struct.base.no_upper_bound, tombPart_of_eq g2.struct.tomb (fun j => rfl)
        (fun j => rfl) rfl, heapPart_frame g2.struct.heap rfl (fun p _ => rfl)
        (fun q => by cases q <;> rfl)⟩, ?_, ?_, ?_⟩, ?_, rfl, rfl⟩
    · exact passedTombs_congr g2.passed_tombs (fun l => rfl) (fun j => rfl)
    · intro j L hjL hL hvL hact
      exact g2.active_started j L hjL hL hvL hact
    · obtain ⟨B', hB1, hB2⟩ := g2.bound
      exact ⟨B', fun p hp => hB1 p hp, passedRecords_congr hB2 (fun l => rfl)⟩
    · intro t' ht'
      exact g3 t' ht'
  · rw [← hvis2, ← g4]
    exact visRem_congr (fun l => rfl)

theorem build_struct (runs : List (List (ParsedInternalKey UK)))
    (tombs : List (Option (List (RangeTombstone UK)))) (hwf : InputWF runs tombs) :
    Struct runs tombs (build runs tombs) := by
  have hb := build_base runs tombs hwf
  have hfields : (build runs tombs).heap_ = {} ∧ (build runs tombs).active_ = [] := by
    unfold build
    rw [addRti_foldl]
    unfold Finish
    cases tombs with
    | nil => simp [MergingIterTmpl]
    | cons t ts => simp [MergingIterTmpl]
  have hheap : (build runs tombs).heap_.data_ = [] := by rw [hfields.1]
  have hactive : (build runs tombs).active_ = [] := hfields.2
  have hcv : ∀ l, (((build runs tombs).deref (.child l)).iter.Valid) = false := by
    intro l
    unfold deref
    simp only []
    rw [build_child]
    cases runs[l]? with
    | none => rfl
    | some r => rfl
  have hrv : ∀ j, ((build runs tombs).rti j).Valid = false := by
    intro j
    unfold rti
    rw [(build_fields runs tombs).2.1, List.getElem?_map]
    cases tombs[j]? with
    | none => rfl
    | some ts =>
      cases ts with
      | none => rfl
      | some l => rfl
  refine ⟨hb, ⟨?_, ?_, ?_⟩, ?_⟩
  · intro j _ hv
    rw [hrv j] at hv
    exact absurd hv (by simp)
  · intro j
    rw [hactive, hrv j]
    simp
  · rw [hactive]; exact List.Pairwise.nil
  · apply heapPart_of_mem
    · rw [hheap]; exact List.nodup_nil
    · intro p
      rw [hheap]
      cases p with
      | child l => simp [InHeapSpec, hcv l]
      | pinned j => simp [InHeapSpec, hrv j]
    · have h0 : (build runs tombs).heap_ = (build runs tombs).heap_.clear := by
        rw [hfields.1]; rfl
      rw [h0]
      exact heapInv_clear _ _

theorem inputWF_of_wellFormed {runs : List (List (ParsedInternalKey UK))}
    {tombs : List (Option (List (RangeTombstone UK)))} (h : WellFormedInput runs tombs) :
    InputWF runs tombs := by
  obtain ⟨h1, h2, h3, h4⟩ := h
  refine ⟨h1, h2, h3, ?_⟩
  intro j
  have hok : TombsOK (tombsAt tombs j) := by
    unfold tombsAt
    by_cases hj : j < tombs.length
    · rw [List.getElem?_eq_getElem hj]
      exact h4 _ (List.getElem_mem _)
    · rw [List.getElem?_eq_none (by omega)]
      exact ⟨by simp, List.Pairwise.nil⟩
  exact ⟨fun t ht => by
    obtain ⟨g1, g2, g3, g4, g5⟩ := hok.1 t ht
    exact ⟨g1, g2, g3, g4, g5⟩, hok.2⟩

/-- C3. For sorted runs with per-run tombstone lists and every target internal key: the scan
that starts with `Seek(target)` returns the records of the scan that starts with
`SeekToFirst()`, without those that compare less than the target. -/
theorem seek_scan_eq_filtered_forward_scan (runs : List (List (ParsedInternalKey UK)))
    (tombs : List (Option (List (RangeTombstone UK)))) (target : ParsedInternalKey UK)
    (fuel n : Nat) (hwf : WellFormedInput runs tombs)
    (hfuel : rankBound runs tombs runs.length ≤ fuel) (hn : runs.flatten.length ≤ n) :
    ∃ out, forwardScan fuel n (build runs tombs) = some out ∧
      seekScan fuel n (build runs tombs) target =
        some (out.filter (fun k => Compare k target != Ordering.lt)) := by
  have hwf' := inputWF_of_wellFormed hwf
  have hlen := le_trans (visibleRecords_length_le runs tombs) hn
  obtain ⟨out, h1, h2, h3⟩ := forwardScan_tombs runs tombs hwf' fuel n hfuel hlen
  refine ⟨out, h1, ?_⟩
  obtain ⟨e1, g1, g2, g3⟩ := seek_spec_t (build_struct runs tombs hwf') fuel hfuel target
  obtain ⟨out2, k1, k2, k3⟩ := collect_spec fuel hfuel n e1 g2
    (by rw [g3]; exact le_trans (List.length_filter_le _ _) hlen)
  unfold seekScan
  rw [g1]
  simp only []
  rw [k1]
  congr 1
  apply sorted_perm_unique _ k3 (List.Pairwise.filter _ h3)
  rw [g3] at k2
  exact k2.trans (h2.filter _).symm

/-- An instance of C3: two runs, a tombstone on the first run that deletes a record of the
second, and a target between the records. -/
theorem seek_scan_eq_filtered_forward_scan_witness :
    WellFormedInput [[(⟨1, 5, 1⟩ : ParsedInternalKey Nat), ⟨3, 5, 1⟩], [⟨2, 3, 1⟩, ⟨4, 3, 1⟩]]
        [some [mkTombstone 2 3 9], none] ∧
      ∃ out, forwardScan 27 4 (build [[(⟨1, 5, 1⟩ : ParsedInternalKey Nat), ⟨3, 5, 1⟩],
          [⟨2, 3, 1⟩, ⟨4, 3, 1⟩]] [some [mkTombstone 2 3 9], none]) = some out ∧
        seekScan 27 4 (build [[(⟨1, 5, 1⟩ : ParsedInternalKey Nat), ⟨3, 5, 1⟩],
          [⟨2, 3, 1⟩, ⟨4, 3, 1⟩]] [some [mkTombstone 2 3 9], none]) ⟨2, 100, 1⟩ =
          some (out.filter (fun k => Compare k ⟨2, 100, 1⟩ != Ordering.lt)) :=
  ⟨by decide, seek_scan_eq_filtered_forward_scan _ _ _ 27 4 (by decide) (by decide) (by decide)⟩

@[simp] theorem deref_maxPush (e : MergingIterator UK) (p q : HeapItemPtr) :
    (e.maxPush p).deref q = e.deref q := deref_eq_of_items _ _ rfl rfl q

@[simp] theorem deref_maxPop (e : MergingIterator UK) (q : HeapItemPtr) :
    (e.maxPop).deref q = e.deref q := deref_eq_of_items _ _ rfl rfl q

@[simp] theorem deref_maxReplaceTop (e : MergingIterator UK) (p q : HeapItemPtr) :
    (e.maxReplaceTop p).deref q = e.deref q := deref_eq_of_items _ _ rfl rfl q

@[simp] theorem deref_InitMaxHeap (e : MergingIterator UK) (q : HeapItemPtr) :
    (e.InitMaxHeap).deref q = e.deref q := deref_eq_of_items _ _ rfl rfl q

@[simp] theorem rti_maxPush (e : MergingIterator UK) (p : HeapItemPtr) (j : Nat) :
    (e.maxPush p).rti j = e.rti j := rfl

@[simp] theorem rti_maxPop (e : MergingIterator UK) (j : Nat) :
    (e.maxPop).rti j = e.rti j := rfl

@[simp] theorem rti_maxReplaceTop (e : MergingIterator UK) (p : HeapItemPtr) (j : Nat) :
    (e.maxReplaceTop p).rti j = e.rti j := rfl

@[simp] theorem rti_InitMaxHeap (e : MergingIterator UK) (j : Nat) :
    (e.InitMaxHeap).rti j = e.rti j := rfl

theorem maxCmp_congr (e e' : MergingIterator UK) (a b : HeapItemPtr)
    (ha : e'.deref a = e.deref a) (hb : e'.deref b = e.deref b) :
    e'.maxCmp a b = e.maxCmp a b := by
  simp [maxCmp, ha, hb]

theorem maxCmp_eq_of_items (e e' : MergingIterator UK) (h1 : e'.children_ = e.children_)
    (h2 : e'.pinned_heap_item_ = e.pinned_heap_item_) : e'.maxCmp = e.maxCmp := by
  funext a b
  apply maxCmp_congr
  · cases a <;> simp [deref, h1, h2]
  · cases b <;> simp [deref, h1, h2]

theorem maxCmp_false_iff (e : MergingIterator UK) (a b : HeapItemPtr) :
    e.maxCmp a b = false ↔ keyLe (e.deref b).heapKey (e.deref a).heapKey := by
  unfold maxCmp MaxHeapItemComparator
  rw [← Bool.not_eq_true, ordering_beq_iff, compare_lt_iff]
  exact not_keyLt_iff

/-- The max-heap stays ordered when the items of its entries are not touched. -/
theorem heapInv_frame_max (e e' : MergingIterator UK) (hh : e'.heap_ = e.heap_)
    (hd : ∀ p ∈ e.heap_.data_, e'.deref p = e.deref p) (hi : HeapInv e.maxCmp e.heap_) :
    HeapInv e'.maxCmp e'.heap_ := by
  rw [hh]
  exact heapInv_congr (fun a ha b hb => maxCmp_congr e e' a b (hd a ha) (hd b hb)) hi

/-- The max-heap stays ordered below the root when only the item of the root is touched. -/
theorem heapBelow_frame_max (e e' : MergingIterator UK) (hh : e'.heap_ = e.heap_)
    (hd : ∀ p ∈ e.heap_.data_.tail, e'.deref p = e.deref p) (hi : HeapInv e.maxCmp e.heap_) :
    HeapBelowRoot e'.maxCmp e'.heap_.data_ ∧
      CacheValid e'.maxCmp e'.heap_.root_cmp_cache_ e'.heap_.data_ := by
  rw [hh]
  have hc : ∀ a ∈ e.heap_.data_.tail, ∀ b ∈ e.heap_.data_.tail, e'.maxCmp a b = e.maxCmp a b :=
    fun a ha b hb => maxCmp_congr e e' a b (hd a ha) (hd b hb)
  exact ⟨heapBelowRoot_congr hc (heapOrdered_belowRoot hi.1), cacheValid_congr hc hi.2⟩

theorem maxPush_heap (e : MergingIterator UK) (p : HeapItemPtr)
    (hi : HeapInv e.maxCmp e.heap_) :
    HeapInv (e.maxPush p).maxCmp (e.maxPush p).heap_ ∧
      (e.maxPush p).heap_.data_.Perm (p :: e.heap_.data_) := by
  have hc : (e.maxPush p).maxCmp = e.maxCmp := maxCmp_eq_of_items _ _ rfl rfl
  rw [hc]
  exact pushC_spec (maxCmp_swo e) e.heap_ p hi.1

theorem maxPop_heap (e : MergingIterator UK)
    (hb : HeapBelowRoot e.maxCmp e.heap_.data_)
    (hc : CacheValid e.maxCmp e.heap_.root_cmp_cache_ e.heap_.data_) :
    HeapInv (e.maxPop).maxCmp (e.maxPop).heap_ ∧
      (e.maxPop).heap_.data_.Perm e.heap_.data_.tail := by
  have hcc : (e.maxPop).maxCmp = e.maxCmp := maxCmp_eq_of_items _ _ rfl rfl
  rw [hcc]
  exact popC_spec (maxCmp_swo e) e.heap_ hb hc

theorem maxReplaceTop_heap (e : MergingIterator UK) (p : HeapItemPtr)
    (hne : e.heap_.data_ ≠ [])
    (hb : HeapBelowRoot e.maxCmp e.heap_.data_)
    (hc : CacheValid e.maxCmp e.heap_.root_cmp_cache_ e.heap_.data_) :
    HeapInv (e.maxReplaceTop p).maxCmp (e.maxReplaceTop p).heap_ ∧
      (e.maxReplaceTop p).heap_.data_.Perm (p :: e.heap_.data_.tail) := by
  have hcc : (e.maxReplaceTop p).maxCmp = e.maxCmp := maxCmp_eq_of_items _ _ rfl rfl
  rw [hcc]
  have hne' : e.heap_.empty = false := by
    cases hd : e.heap_.data_ with
    | nil => exact absurd hd hne
    | cons a l => simp [BinaryHeap.empty, hd]
  exact replace_topC_spec (maxCmp_swo e) e.heap_ p hne' hb hc

/-- The top of the max-heap is a largest entry. -/
theorem top_max (e : MergingIterator UK) (hi : HeapInv e.maxCmp e.heap_) (t : HeapItemPtr)
    (ht : e.heap_.top = some t) :
    t ∈ e.heap_.data_ ∧ ∀ p ∈ e.heap_.data_, keyLe (hkey e p) (hkey e t) := by
  obtain ⟨h1, h2⟩ := heapOrdered_top_max_mem (maxCmp_swo e) hi.1 ht
  refine ⟨h1, fun p hp => ?_⟩
  exact (maxCmp_false_iff e t p).mp (h2 p hp)

theorem cntPos_eq_placePos (len n : Nat) (h : n ≤ len) :
    cntPos n = placePos len (if n = 0 then len else n - 1) := by
  unfold placePos
  cases n with
  | zero => simp [cntPos]
  | succ n => simp [cntPos]; omega

theorem cntPos_some {n i : Nat} (h : cntPos n = some i) : n = i + 1 := by
  cases n with
  | zero => simp [cntPos] at h
  | succ n => simp [cntPos] at h; omega

theorem childCnt_of_pos {e : MergingIterator UK} {l : Nat} {n : Nat}
    (h : cpos e l = cntPos n) : childCnt e l = n := by
  unfold childCnt
  rw [h]
  cases n <;> rfl

theorem childCnt_some {e : MergingIterator UK} {l i : Nat} (h : cpos e l = some i) :
    childCnt e l = i + 1 := by
  unfold childCnt; rw [h]

theorem childCnt_none {e : MergingIterator UK} {l : Nat} (h : cpos e l = none) :
    childCnt e l = 0 := by
  unfold childCnt; rw [h]

theorem tombCnt_of_pos {e : MergingIterator UK} {j : Nat} {n : Nat}
    (h : (e.rti j).pos = cntPos n) : tombCnt e j = n := by
  unfold tombCnt
  rw [h]
  cases n <;> rfl

theorem tombCnt_some {e : MergingIterator UK} {j i : Nat} (h : (e.rti j).pos = some i) :
    tombCnt e j = i + 1 := by
  unfold tombCnt; rw [h]

theorem tombCnt_none {e : MergingIterator UK} {j : Nat} (h : (e.rti j).pos = none) :
    tombCnt e j = 0 := by
  unfold tombCnt; rw [h]

theorem invalidate_clean (r : List (ParsedInternalKey UK)) (p : Option Nat) :
    ({ run := r, pos := p } : InternalIterator UK).invalidate =
      { run := r, pos := placePos r.length r.length } := by
  unfold InternalIterator.invalidate placePos
  simp

/-- A child after a positioning call that leaves a clean iterator at the count `n`. -/
theorem childAt_of_cnt {l : Nat} {r : List (ParsedInternalKey UK)} {item : HeapItem UK}
    (h : ChildAt l r item) (w : IteratorWrapper UK) (n : Nat) (hn : n ≤ r.length)
    (hw : w = IteratorWrapper.Update { item.iter with
      iter_ := some { run := r, pos := placePos r.length (if n = 0 then r.length else n - 1) } }) :
    ChildAt l r { item with iter := w } ∧ ipos { item with iter := w } = cntPos n := by
  obtain ⟨u1, u2, u3⟩ := update_clean item.iter r (if n = 0 then r.length else n - 1)
  rw [← hw] at u1 u2 u3
  refine ⟨childAt_of_clean h.1 h.2.1 _ u1 u2 u3, ?_⟩
  rw [cntPos_eq_placePos r.length n hn]
  simp [ipos, u1]

theorem childAt_seekForPrev {l : Nat} {r : List (ParsedInternalKey UK)} {item : HeapItem UK}
    (h : ChildAt l r item) (target : ParsedInternalKey UK) :
    ChildAt l r { item with iter := item.iter.SeekForPrev target } ∧
      ipos { item with iter := item.iter.SeekForPrev target } =
        cntPos (r.takeWhile (fun k => Compare k target != .gt)).length := by
  obtain ⟨h1, _, _⟩ := childAt_pos h
  obtain ⟨n, hn⟩ : ∃ n, n = (r.takeWhile (fun k => Compare k target != .gt)).length :=
    ⟨_, rfl⟩
  rw [← hn]
  have hle : n ≤ r.length := by rw [hn]; exact takeWhile_length_le _ _
  apply childAt_of_cnt h _ n hle
  simp only [IteratorWrapper.SeekForPrev, h1, InternalIterator.SeekForPrev, Bool.false_eq_true,
    ↓reduceIte, ← hn]
  by_cases h0 : n = 0
  · simp only [h0, ↓reduceIte, invalidate_clean]
  · simp only [h0, ↓reduceIte, place_clean]

theorem childAt_seekToLast {l : Nat} {r : List (ParsedInternalKey UK)} {item : HeapItem UK}
    (h : ChildAt l r item) :
    ChildAt l r { item with iter := item.iter.SeekToLast } ∧
      ipos { item with iter := item.iter.SeekToLast } = cntPos r.length := by
  obtain ⟨h1, _, _⟩ := childAt_pos h
  apply childAt_of_cnt h _ r.length (le_refl _)
  simp only [IteratorWrapper.SeekToLast, h1, InternalIterator.SeekToLast]
  by_cases h0 : r.length = 0
  · simp only [h0, ↓reduceIte, invalidate_clean]
  · simp only [h0, ↓reduceIte, place_clean]

theorem childAt_prev {l : Nat} {r : List (ParsedInternalKey UK)} {item : HeapItem UK}
    (h : ChildAt l r item) {i : Nat} (hi : ipos item = some i) :
    ChildAt l r { item with iter := item.iter.Prev } ∧
      ipos { item with iter := item.iter.Prev } = cntPos i := by
  obtain ⟨h1, _, _⟩ := childAt_pos h
  have hlen := (childAt_key h hi).2
  rw [hi] at h1
  apply childAt_of_cnt h _ i (le_of_lt hlen)
  simp only [IteratorWrapper.Prev, h1, InternalIterator.Prev]
  cases i with
  | zero => simp only [↓reduceIte, invalidate_clean]
  | succ i =>
    simp only [place_clean]
    simp

theorem tseekForPrev_pos (it : TruncatedRangeDelIterator UK) (u : UK) :
    (it.SeekForPrev u).pos =
      cntPos (it.tombstones.takeWhile (fun t => compare t.start_key.user_key u != .gt)).length ∧
      (it.SeekForPrev u).tombstones = it.tombstones := by
  unfold TruncatedRangeDelIterator.SeekForPrev
  simp only []
  obtain ⟨n, hn⟩ : ∃ n, n =
      (it.tombstones.takeWhile (fun t => compare t.start_key.user_key u != .gt)).length :=
    ⟨_, rfl⟩
  rw [← hn]
  have hle : n ≤ it.tombstones.length := by rw [hn]; exact takeWhile_length_le _ _
  cases n with
  | zero => simp [cntPos]
  | succ n =>
    simp only [Nat.add_one_ne_zero, ↓reduceIte, Nat.add_sub_cancel]
    obtain ⟨h1, h2⟩ := tplace_pos it n
    refine ⟨?_, h2⟩
    rw [h1]
    unfold placePos cntPos
    simp
    omega

theorem tseekToLast_pos (it : TruncatedRangeDelIterator UK) :
    (it.SeekToLast).pos = cntPos it.tombstones.length ∧
      (it.SeekToLast).tombstones = it.tombstones := by
  unfold TruncatedRangeDelIterator.SeekToLast
  cases hn : it.tombstones.length with
  | zero => simp [cntPos]
  | succ n =>
    simp only [Nat.add_one_ne_zero, ↓reduceIte, Nat.add_sub_cancel]
    obtain ⟨h1, h2⟩ := tplace_pos it n
    refine ⟨?_, h2⟩
    rw [h1, hn]
    unfold placePos cntPos
    simp

theorem tprev_pos (it : TruncatedRangeDelIterator UK) (i : Nat) (hi : it.pos = some i)
    (hlt : i < it.tombstones.length) :
    (it.Prev).pos = cntPos i ∧ (it.Prev).tombstones = it.tombstones := by
  unfold TruncatedRangeDelIterator.Prev
  rw [hi]
  cases i with
  | zero => simp [cntPos]
  | succ i =>
    simp only []
    obtain ⟨h1, h2⟩ := tplace_pos it i
    refine ⟨?_, h2⟩
    rw [h1]
    unfold placePos cntPos
    simp
    omega

theorem seekForPrev_pos_before {r : List (ParsedInternalKey UK)}
    (target : ParsedInternalKey UK) (i : Nat) (x : ParsedInternalKey UK)
    (hi : i < (r.takeWhile (fun k => Compare k target != .gt)).length) (hx : r[i]? = some x) :
    keyLe x target := by
  have := takeWhile_before (fun k => Compare k target != .gt) r i x hi hx
  exact (cmp_ne_gt_iff_keyLe _ _).mp this

/-- In a sorted run every record from the count of a backward seek on is after the target. -/
theorem seekForPrev_pos_after {r : List (ParsedInternalKey UK)} (hs : SortedRun r)
    (target : ParsedInternalKey UK) (i : Nat) (x : ParsedInternalKey UK)
    (hi : (r.takeWhile (fun k => Compare k target != .gt)).length ≤ i) (hx : r[i]? = some x) :
    keyLt target x := by
  have hlen : i < r.length := by
    by_contra hcon; rw [List.getElem?_eq_none (by omega)] at hx; simp at hx
  have hq : (r.takeWhile (fun k => Compare k target != .gt)).length < r.length := by omega
  have h0 := takeWhile_at (fun k => Compare k target != .gt) r _
    (List.getElem?_eq_getElem hq)
  have h1 : keyLt target (r[(r.takeWhile (fun k => Compare k target != .gt)).length]) := by
    rw [← not_keyLe_iff, ← cmp_ne_gt_iff_keyLe]
    simpa using h0
  exact keyLt_of_keyLt_of_keyLe h1 (sortedRun_le hs hi (List.getElem?_eq_getElem hq) hx)

theorem tseekForPrev_before {ts : List (RangeTombstone UK)} (u : UK) (i : Nat)
    (t : RangeTombstone UK)
    (hi : i < (ts.takeWhile (fun t => compare t.start_key.user_key u != .gt)).length)
    (ht : ts[i]? = some t) : t.start_key.user_key ≤ u := by
  have := takeWhile_before (fun t => compare t.start_key.user_key u != .gt) ts i t hi ht
  exact (compare_ne_gt_iff_le _ _).mp this

theorem tombs_start_le {ts : List (RangeTombstone UK)} (h : TombsWF ts) {i j : Nat}
    {t1 t2 : RangeTombstone UK} (hij : i ≤ j) (h1 : ts[i]? = some t1) (h2 : ts[j]? = some t2) :
    t1.start_key.user_key ≤ t2.start_key.user_key := by
  rcases Nat.lt_or_eq_of_le hij with hlt | heq
  · exact le_trans (le_of_lt (tombs_wf_at h h1).lt) (tombs_sorted h hlt h1 h2)
  · subst heq
    rw [h1] at h2
    simp at h2
    rw [h2]

theorem tombs_end_le {ts : List (RangeTombstone UK)} (h : TombsWF ts) {i j : Nat}
    {t1 t2 : RangeTombstone UK} (hij : i ≤ j) (h1 : ts[i]? = some t1) (h2 : ts[j]? = some t2) :
    t1.end_key.user_key ≤ t2.end_key.user_key := by
  rcases Nat.lt_or_eq_of_le hij with hlt | heq
  · exact le_trans (tombs_sorted h hlt h1 h2) (le_of_lt (tombs_wf_at h h2).lt)
  · subst heq
    rw [h1] at h2
    simp at h2
    rw [h2]

theorem tseekForPrev_after {ts : List (RangeTombstone UK)} (h : TombsWF ts) (u : UK) (i : Nat)
    (t : RangeTombstone UK)
    (hi : (ts.takeWhile (fun t => compare t.start_key.user_key u != .gt)).length ≤ i)
    (ht : ts[i]? = some t) : u < t.start_key.user_key := by
  have hlen : i < ts.length := by
    by_contra hcon; rw [List.getElem?_eq_none (by omega)] at ht; simp at ht
  have hq : (ts.takeWhile (fun t => compare t.start_key.user_key u != .gt)).length < ts.length :=
    by omega
  have h0 := takeWhile_at (fun t => compare t.start_key.user_key u != .gt) ts _
    (List.getElem?_eq_getElem hq)
  have h1 : u < (ts[(ts.takeWhile
      (fun t => compare t.start_key.user_key u != .gt)).length]).start_key.user_key := by
    rw [← not_le, ← compare_ne_gt_iff_le]
    simpa using h0
  exact lt_of_lt_of_le h1 (tombs_start_le h hi (List.getElem?_eq_getElem hq) ht)

theorem insertMax_eq (e : MergingIterator UK) (j : Nat) (isEnd rep : Bool) :
    e.InsertRangeTombstoneToMaxHeap j isEnd rep =
      if rep then (stampPinnedR e j isEnd).maxReplaceTop (.pinned j)
      else (stampPinnedR e j isEnd).maxPush (.pinned j) := by
  unfold InsertRangeTombstoneToMaxHeap stampPinnedR
  simp only [deref]

@[simp] theorem stampR_children (e : MergingIterator UK) (j : Nat) (isEnd : Bool) :
    (stampPinnedR e j isEnd).children_ = e.children_ := by
  unfold stampPinnedR; split <;> rfl

@[simp] theorem stampR_rtis (e : MergingIterator UK) (j : Nat) (isEnd : Bool) :
    (stampPinnedR e j isEnd).range_tombstone_iters_ = e.range_tombstone_iters_ := by
  unfold stampPinnedR; split <;> rfl

@[simp] theorem stampR_rti (e : MergingIterator UK) (j : Nat) (isEnd : Bool) (i : Nat) :
    (stampPinnedR e j isEnd).rti i = e.rti i := rti_eq_of_iters _ _ (stampR_rtis e j isEnd) i

@[simp] theorem stampR_status (e : MergingIterator UK) (j : Nat) (isEnd : Bool) :
    (stampPinnedR e j isEnd).status_ = e.status_ := by
  unfold stampPinnedR; split <;> rfl

@[simp] theorem stampR_upper (e : MergingIterator UK) (j : Nat) (isEnd : Bool) :
    (stampPinnedR e j isEnd).iterate_upper_bound_ = e.iterate_upper_bound_ := by
  unfold stampPinnedR; split <;> rfl

@[simp] theorem stampR_heap (e : MergingIterator UK) (j : Nat) (isEnd : Bool) :
    (stampPinnedR e j isEnd).heap_ = e.heap_ := by
  unfold stampPinnedR; split <;> rfl

@[simp] theorem stampR_pinned_len (e : MergingIterator UK) (j : Nat) (isEnd : Bool) :
    (stampPinnedR e j isEnd).pinned_heap_item_.length = e.pinned_heap_item_.length := by
  unfold stampPinnedR; split <;> simp [store]

@[simp] theorem stampR_direction (e : MergingIterator UK) (j : Nat) (isEnd : Bool) :
    (stampPinnedR e j isEnd).direction_ = e.direction_ := by
  unfold stampPinnedR; split <;> rfl

theorem stampR_active (e : MergingIterator UK) (j : Nat) (isEnd : Bool) :
    (stampPinnedR e j isEnd).active_ = if isEnd then e.active_ else setInsert j e.active_ := by
  unfold stampPinnedR; split <;> rfl

theorem stampR_deref_ne (e : MergingIterator UK) (j : Nat) (isEnd : Bool) (p : HeapItemPtr)
    (hp : p ≠ .pinned j) : (stampPinnedR e j isEnd).deref p = e.deref p := by
  unfold stampPinnedR
  split
  · exact deref_store_pinned_ne e j _ p hp
  · rw [deref_set_active]; exact deref_store_pinned_ne e j _ p hp

theorem stampR_deref_self (e : MergingIterator UK) (j : Nat) (isEnd : Bool)
    (hj : j < e.pinned_heap_item_.length) :
    (stampPinnedR e j isEnd).deref (.pinned j) =
      { (e.deref (.pinned j)).SetTombstoneKey
          (if isEnd then (e.rti j).end_key else (e.rti j).start_key) with
        type := if isEnd then HeapItemType.DELETE_RANGE_END
                else HeapItemType.DELETE_RANGE_START } := by
  unfold stampPinnedR
  split
  · rw [deref_store_pinned_self e j _ hj]
  · rw [deref_set_active, deref_store_pinned_self e j _ hj]

theorem stampR_deref_child (e : MergingIterator UK) (j : Nat) (isEnd : Bool) (l : Nat) :
    (stampPinnedR e j isEnd).deref (.child l) = e.deref (.child l) :=
  stampR_deref_ne e j isEnd _ (by simp)

/-- The key that the stamped boundary item shows to the comparator. -/
theorem stampR_hkey_self (e : MergingIterator UK) (j : Nat) (isEnd : Bool)
    (hj : j < e.pinned_heap_item_.length) :
    hkey (stampPinnedR e j isEnd) (.pinned j) =
      ⟨(if isEnd then (e.rti j).end_key else (e.rti j).start_key).user_key,
       (if isEnd then (e.rti j).end_key else (e.rti j).start_key).sequence,
       (e.deref (.pinned j)).parsed_ikey.type⟩ := by
  unfold hkey
  rw [stampR_deref_self e j isEnd hj]
  unfold HeapItem.heapKey HeapItem.SetTombstoneKey
  cases isEnd <;> simp

theorem base_maxPush {runs : List (List (ParsedInternalKey UK))}
    {tombs : List (Option (List (RangeTombstone UK)))} {e : MergingIterator UK}
    (hb : Base runs tombs e) (p : HeapItemPtr) : Base runs tombs (e.maxPush p) :=
  base_of_eq hb rfl rfl rfl hb.status_ok hb.no_upper_bound

theorem base_maxPop {runs : List (List (ParsedInternalKey UK))}
    {tombs : List (Option (List (RangeTombstone UK)))} {e : MergingIterator UK}
    (hb : Base runs tombs e) : Base runs tombs e.maxPop :=
  base_of_eq hb rfl rfl rfl hb.status_ok hb.no_upper_bound

theorem base_maxReplaceTop {runs : List (List (ParsedInternalKey UK))}
    {tombs : List (Option (List (RangeTombstone UK)))} {e : MergingIterator UK}
    (hb : Base runs tombs e) (p : HeapItemPtr) : Base runs tombs (e.maxReplaceTop p) :=
  base_of_eq hb rfl rfl rfl hb.status_ok hb.no_upper_bound

theorem base_InitMaxHeap {runs : List (List (ParsedInternalKey UK))}
    {tombs : List (Option (List (RangeTombstone UK)))} {e : MergingIterator UK}
    (hb : Base runs tombs e) : Base runs tombs e.InitMaxHeap :=
  base_of_eq hb rfl rfl rfl hb.status_ok hb.no_upper_bound

theorem base_stampR {runs : List (List (ParsedInternalKey UK))}
    {tombs : List (Option (List (RangeTombstone UK)))} {e : MergingIterator UK}
    (hb : Base runs tombs e) (j : Nat) (isEnd : Bool) (hj : j < runs.length) :
    Base runs tombs (stampPinnedR e j isEnd) := by
  have hjp : j < e.pinned_heap_item_.length := by rw [hb.pinned_len]; exact hj
  exact
    { wf := hb.wf
      children_len := by rw [stampR_children]; exact hb.children_len
      rti_len := by rw [stampR_rtis]; exact hb.rti_len
      pinned_len := by rw [stampR_pinned_len]; exact hb.pinned_len
      child_at := fun l hl => by rw [stampR_deref_child]; exact hb.child_at l hl
      rti_slot := fun i hi => by rw [stampR_rtis]; exact hb.rti_slot i hi
      rti_tombs := fun i hi => by rw [stampR_rti]; exact hb.rti_tombs i hi
      rti_pos := fun i q hi hq => by rw [stampR_rti] at hq; exact hb.rti_pos i q hi hq
      pinned_at := fun i hi => by
        by_cases hij : i = j
        · subst hij
          rw [stampR_deref_self e i isEnd hjp]
          exact ⟨(hb.pinned_at i hi).1, (hb.pinned_at i hi).2⟩
        · rw [stampR_deref_ne e j isEnd _ (by simpa using hij)]
          exact hb.pinned_at i hi
      status_ok := by rw [stampR_status]; exact hb.status_ok
      no_upper_bound := by rw [stampR_upper]; exact hb.no_upper_bound }

theorem childCnt_le {runs : List (List (ParsedInternalKey UK))}
    {tombs : List (Option (List (RangeTombstone UK)))} {e : MergingIterator UK}
    (hb : Base runs tombs e) (l : Nat) (hl : l < runs.length) :
    childCnt e l ≤ (runAt runs l).length := by
  unfold childCnt
  cases hp : cpos e l with
  | none => simp
  | some i =>
    simp
    have hc := hb.child_at l hl
    rw [cpos_eq] at hp
    exact (childAt_key hc hp).2

theorem childCnt_invalid {runs : List (List (ParsedInternalKey UK))}
    {tombs : List (Option (List (RangeTombstone UK)))} {e : MergingIterator UK}
    (hb : Base runs tombs e) (l : Nat) (hl : l < runs.length) (hv : cvalid e l = false) :
    childCnt e l = 0 := by
  have hc := hb.child_at l hl
  have := (childAt_invalid_iff hc).mp hv
  simp [childCnt, cpos_eq, this]

theorem tombCnt_le {runs : List (List (ParsedInternalKey UK))}
    {tombs : List (Option (List (RangeTombstone UK)))} {e : MergingIterator UK}
    (hb : Base runs tombs e) (j : Nat) (hj : j < runs.length) :
    tombCnt e j ≤ (tombsAt tombs j).length := by
  unfold tombCnt
  cases hp : (e.rti j).pos with
  | none => simp
  | some i =>
    simp
    exact hb.rti_pos j i hj hp

theorem tombPartR_of_eq {c : Nat} {e e' : MergingIterator UK} (ht : TombPartR c e)
    (hd : ∀ j, e'.deref (.pinned j) = e.deref (.pinned j)) (hr : ∀ j, e'.rti j = e.rti j)
    (ha : e'.active_ = e.active_) : TombPartR c e' :=
  { pinned_key := fun j hj hv => by
      rw [hr] at hv
      exact pinnedCoherent_congr (hd j) (hr j) (ht.pinned_key j hj hv)
    active_iff := fun j => by rw [ha, hd, hr]; exact ht.active_iff j
    active_sorted := by rw [ha]; exact ht.active_sorted }

theorem tombPartR_stamp {runs : List (List (ParsedInternalKey UK))}
    {tombs : List (Option (List (RangeTombstone UK)))} {e : MergingIterator UK} {c : Nat}
    (hb : Base runs tombs e) (ht : TombPartR c e) (j : Nat) (isEnd : Bool)
    (hj : j < runs.length) (hv : (e.rti j).Valid = true)
    (hs : isEnd = true → j ∉ e.active_) (c' : Nat) (hc1 : c ≤ c') (hc2 : j < c')
    (hc3 : ∀ i, c ≤ i → i < c' → i = j) : TombPartR c' (stampPinnedR e j isEnd) := by
  have hjp : j < e.pinned_heap_item_.length := by rw [hb.pinned_len]; exact hj
  obtain ⟨q, _, _, _, _, hwf⟩ := base_cur hb j hj hv
  have hself : PinnedCoherent (stampPinnedR e j isEnd) j := by
    unfold PinnedCoherent
    rw [stampR_deref_self e j isEnd hjp, stampR_rti]
    cases isEnd
    · left
      simp only [Bool.false_eq_true, ↓reduceIte, HeapItem.SetTombstoneKey, true_and]
      exact hwf.start_seq
    · right
      simp only [↓reduceIte, HeapItem.SetTombstoneKey, true_and]
      exact hwf.end_seq
  have hself_ty : ((stampPinnedR e j isEnd).deref (.pinned j)).type =
      if isEnd then HeapItemType.DELETE_RANGE_END else HeapItemType.DELETE_RANGE_START := by
    rw [stampR_deref_self e j isEnd hjp]
  have hother : ∀ i, i ≠ j → ((i < c' ∧ ((stampPinnedR e j isEnd).rti i).Valid = true ∧
      ((stampPinnedR e j isEnd).deref (.pinned i)).type = HeapItemType.DELETE_RANGE_START) ↔
      i ∈ e.active_) := by
    intro i hij
    rw [stampR_rti, stampR_deref_ne e j isEnd _ (by simpa using hij), ht.active_iff i]
    constructor
    · rintro ⟨h1, h2, h3⟩
      refine ⟨?_, h2, h3⟩
      by_contra hcon
      exact hij (hc3 i (by omega) h1)
    · rintro ⟨h1, h2, h3⟩
      exact ⟨by omega, h2, h3⟩
  refine ⟨?_, ?_, ?_⟩
  · intro i hi hvi
    by_cases hij : i = j
    · subst hij; exact hself
    · rw [stampR_rti] at hvi
      have hic : i < c := by
        by_contra hcon
        exact hij (hc3 i (by omega) hi)
      exact pinnedCoherent_congr (stampR_deref_ne e j isEnd _ (by simpa using hij))
        (stampR_rti e j isEnd i) (ht.pinned_key i hic hvi)
  · intro i
    rw [stampR_active]
    by_cases hij : i = j
    · subst hij
      rw [hself_ty, stampR_rti]
      cases isEnd
      · simp [mem_setInsert, hc2, hv]
      · simp [hs rfl]
    · rw [hother i hij]
      cases isEnd
      · simp [mem_setInsert, hij]
      · simp
  · rw [stampR_active]
    cases isEnd
    · exact setInsert_sorted j _ ht.active_sorted
    · exact ht.active_sorted

theorem heapPartR_mem {a b : Nat} {e : MergingIterator UK} (hh : HeapPartR a b e)
    (p : HeapItemPtr) : p ∈ e.heap_.data_ ↔ InHeapSpec a b e p := by
  cases p with
  | child l => exact hh.mem_child l
  | pinned j => exact hh.mem_pinned j

theorem heapPartR_of_mem {a b : Nat} {e : MergingIterator UK} (hn : e.heap_.data_.Nodup)
    (hm : ∀ p, p ∈ e.heap_.data_ ↔ InHeapSpec a b e p) (hi : HeapInv e.maxCmp e.heap_) :
    HeapPartR a b e :=
  { nodup := hn
    mem_child := fun l => hm (.child l)
    mem_pinned := fun j => hm (.pinned j)
    inv := hi }

/-- An entry that is not in the heap yet is pushed. -/
theorem heapPartR_push {a b a' b' : Nat} {e : MergingIterator UK} (hh : HeapPartR a b e)
    (p : HeapItemPtr) (hp : ¬ InHeapSpec a b e p)
    (hspec : ∀ q, InHeapSpec a' b' e q ↔ q = p ∨ InHeapSpec a b e q) :
    HeapPartR a' b' (e.maxPush p) := by
  obtain ⟨hinv, hperm⟩ := maxPush_heap e p hh.inv
  have hpn : p ∉ e.heap_.data_ := fun hmem => hp ((heapPartR_mem hh p).mp hmem)
  apply heapPartR_of_mem
  · exact (hperm.nodup_iff).mpr (List.nodup_cons.mpr ⟨hpn, hh.nodup⟩)
  · intro q
    rw [hperm.mem_iff, List.mem_cons, heapPartR_mem hh q]
    have : InHeapSpec a' b' (e.maxPush p) q ↔ InHeapSpec a' b' e q := by
      cases q <;> simp [InHeapSpec]
    rw [this, hspec q]
  · exact hinv

/-- The heap is not touched, and the entries it is to hold stay the same. -/
theorem heapPartR_frame {a b a' b' : Nat} {e e' : MergingIterator UK} (hh : HeapPartR a b e)
    (hheap : e'.heap_ = e.heap_)
    (hd : ∀ p, InHeapSpec a b e p → e'.deref p = e.deref p)
    (hspec : ∀ q, InHeapSpec a' b' e' q ↔ InHeapSpec a b e q) :
    HeapPartR a' b' e' := by
  apply heapPartR_of_mem
  · rw [hheap]; exact hh.nodup
  · intro q; rw [hheap, heapPartR_mem hh q, hspec q]
  · exact heapInv_frame_max e e' hheap (fun p hp => hd p ((heapPartR_mem hh p).mp hp)) hh.inv

/-- The item of the top entry has changed and the entry stays: `replace_top` by itself. -/
theorem heapPartR_update_top {a b : Nat} {e e' : MergingIterator UK} (hh : HeapPartR a b e)
    (t : HeapItemPtr) (ht : e.heap_.top = some t) (hheap : e'.heap_ = e.heap_)
    (hd : ∀ p, p ≠ t → e'.deref p = e.deref p)
    (hspec : ∀ q, InHeapSpec a b e' q ↔ InHeapSpec a b e q) :
    HeapPartR a b (e'.maxReplaceTop t) ∧
      (e'.maxReplaceTop t).heap_.data_.Perm e.heap_.data_ := by
  have hdata := top_data e t ht
  obtain ⟨hb, hc⟩ := heapBelow_frame_max e e' hheap
    (fun p hp => hd p (tail_not_mem_top e t ht hh.nodup p hp)) hh.inv
  have hne : e'.heap_.data_ ≠ [] := by rw [hheap, hdata]; simp
  obtain ⟨hinv, hperm⟩ := maxReplaceTop_heap e' t hne hb hc
  rw [hheap, ← hdata] at hperm
  refine ⟨?_, hperm⟩
  apply heapPartR_of_mem
  · exact hperm.nodup_iff.mpr hh.nodup
  · intro q
    rw [hperm.mem_iff, heapPartR_mem hh q, ← hspec q]
    cases q <;> simp [InHeapSpec]
  · exact hinv

/-- The item of the top entry has changed and the entry leaves: `pop`. -/
theorem heapPartR_pop {a b : Nat} {e e' : MergingIterator UK} (hh : HeapPartR a b e)
    (t : HeapItemPtr) (ht : e.heap_.top = some t) (hheap : e'.heap_ = e.heap_)
    (hd : ∀ p, p ≠ t → e'.deref p = e.deref p)
    (hspec : ∀ q, InHeapSpec a b e' q ↔ q ≠ t ∧ InHeapSpec a b e q) :
    HeapPartR a b e'.maxPop ∧ e'.maxPop.heap_.data_.Perm e.heap_.data_.tail := by
  have hdata := top_data e t ht
  obtain ⟨hb, hc⟩ := heapBelow_frame_max e e' hheap
    (fun p hp => hd p (tail_not_mem_top e t ht hh.nodup p hp)) hh.inv
  obtain ⟨hinv, hperm⟩ := maxPop_heap e' hb hc
  rw [hheap] at hperm
  have hnd : (t :: e.heap_.data_.tail).Nodup := by rw [← hdata]; exact hh.nodup
  refine ⟨?_, hperm⟩
  apply heapPartR_of_mem
  · exact hperm.nodup_iff.mpr (List.nodup_cons.mp hnd).2
  · intro q
    have h1 : InHeapSpec a b e'.maxPop q ↔ InHeapSpec a b e' q := by
      cases q <;> simp [InHeapSpec]
    rw [hperm.mem_iff, h1, hspec q, ← heapPartR_mem hh q]
    constructor
    · intro hq
      refine ⟨?_, List.mem_of_mem_tail hq⟩
      intro hqt; subst hqt
      exact (List.nodup_cons.mp hnd).1 hq
    · rintro ⟨hqt, hq⟩
      rw [hdata] at hq
      rcases List.mem_cons.mp hq with h | h
      · exact absurd h hqt
      · exact h
  · exact hinv

theorem childCnt_congr {e e' : MergingIterator UK}
    {l : Nat} (h : e'.deref (.child l) = e.deref (.child l)) :
    childCnt e' l = childCnt e l := by
  unfold childCnt cpos; rw [h]

theorem tombCnt_congr {e e' : MergingIterator UK} {j : Nat} (h : e'.rti j = e.rti j) :
    tombCnt e' j = tombCnt e j := by
  unfold tombCnt; rw [h]

theorem tauR_congr {e e' : MergingIterator UK} {j : Nat} (h : e'.rti j = e.rti j)
    (hd : e'.deref (.pinned j) = e.deref (.pinned j)) : tauR e' j = tauR e j := by
  unfold tauR tombCnt; rw [h, hd]

theorem visRemR_congr {runs : List (List (ParsedInternalKey UK))}
    {tombs : List (Option (List (RangeTombstone UK)))} {e e' : MergingIterator UK}
    (h : ∀ l, e'.deref (.child l) = e.deref (.child l)) :
    visRemR runs tombs e' = visRemR runs tombs e := by
  unfold visRemR
  congr 1
  funext l
  rw [childCnt_congr (h l)]

theorem passedTombsR_congr {runs : List (List (ParsedInternalKey UK))}
    {tombs : List (Option (List (RangeTombstone UK)))} {e e' : MergingIterator UK}
    (hp : PassedTombsR runs tombs e)
    (hc : ∀ l, e'.deref (.child l) = e.deref (.child l)) (hr : ∀ j, e'.rti j = e.rti j) :
    PassedTombsR runs tombs e' := by
  intro j L hjL hL hv t ht
  rw [cvalid_congr (hc L)] at hv
  rw [tombCnt_congr (hr j)] at ht
  rw [ckey_congr (hc L)]
  exact hp j L hjL hL hv t ht

theorem passedRecordsR_congr {runs : List (List (ParsedInternalKey UK))}
    {tombs : List (Option (List (RangeTombstone UK)))} {e e' : MergingIterator UK}
    {B : ParsedInternalKey UK} (hp : PassedRecordsR runs tombs B e)
    (hc : ∀ l, e'.deref (.child l) = e.deref (.child l)) :
    PassedRecordsR runs tombs B e' := by
  intro l idx r hl hidx hr hB
  rw [childCnt_congr (hc l)] at hidx
  exact hp l idx r hl hidx hr hB

theorem passedAbove_congr {runs : List (List (ParsedInternalKey UK))}
    {e e' : MergingIterator UK} (hp : PassedAbove runs e)
    (hc : ∀ l, e'.deref (.child l) = e.deref (.child l)) : PassedAbove runs e' := by
  intro L L' idx r hLL hL' hv hidx hr
  rw [cvalid_congr (hc L')] at hv
  rw [childCnt_congr (hc L)] at hidx
  rw [ckey_congr (hc L')]
  exact hp L L' idx r hLL hL' hv hidx hr

theorem structR_top {runs : List (List (ParsedInternalKey UK))}
    {tombs : List (Option (List (RangeTombstone UK)))} {e : MergingIterator UK}
    (hs : StructR runs tombs e) {t : HeapItemPtr} (ht : e.heap_.top = some t) :
    InHeapSpec runs.length runs.length e t ∧
      ∀ p, InHeapSpec runs.length runs.length e p → keyLe (hkey e p) (hkey e t) := by
  obtain ⟨h1, h2⟩ := top_max e hs.heap.inv t ht
  exact ⟨(heapPartR_mem hs.heap t).mp h1, fun p hp => h2 p ((heapPartR_mem hs.heap p).mpr hp)⟩

theorem structR_child_type {runs : List (List (ParsedInternalKey UK))}
    {tombs : List (Option (List (RangeTombstone UK)))} {e : MergingIterator UK}
    (hs : StructR runs tombs e) {l : Nat} (hl : l < runs.length) :
    (e.deref (.child l)).type = HeapItemType.ITERATOR ∧ (e.deref (.child l)).level = l :=
  ⟨(hs.base.child_at l hl).2.1, (hs.base.child_at l hl).1⟩

/-- The first kind of step of the visibility loop: the isEnd of a tombstone is on top of the
heap and is replaced by the end of the tombstone, which becomes active. -/
theorem popEnd_step {runs : List (List (ParsedInternalKey UK))}
    {tombs : List (Option (List (RangeTombstone UK)))} {e : MergingIterator UK}
    (hf : BwdT runs tombs e) {t : HeapItemPtr} (ht : e.heap_.top = some t)
    (hty : (e.deref t).type = HeapItemType.DELETE_RANGE_END) :
    ∃ j, t = .pinned j ∧ j < runs.length ∧ (e.rti j).Valid = true ∧
      BwdT runs tombs (e.InsertRangeTombstoneToMaxHeap (e.deref t).level false true) ∧
      (∀ p, p ≠ .pinned j →
        (e.InsertRangeTombstoneToMaxHeap (e.deref t).level false true).deref p = e.deref p) ∧
      (∀ i, (e.InsertRangeTombstoneToMaxHeap (e.deref t).level false true).rti i = e.rti i) ∧
      (e.InsertRangeTombstoneToMaxHeap (e.deref t).level false true).heap_.data_.Perm
        e.heap_.data_ ∧
      ((e.InsertRangeTombstoneToMaxHeap (e.deref t).level false true).deref (.pinned j)).type =
        HeapItemType.DELETE_RANGE_START := by
  have hs := hf.struct
  obtain ⟨hspec, hmin⟩ := structR_top hs ht
  cases t with
  | child l =>
    have := (structR_child_type hs hspec.1).1
    rw [this] at hty
    exact absurd hty (by decide)
  | pinned j =>
    obtain ⟨hj, hv⟩ := hspec
    have hjp : j < e.pinned_heap_item_.length := by rw [hs.base.pinned_len]; exact hj
    have hlevel : (e.deref (.pinned j)).level = j := (hs.base.pinned_at j hj).1
    rw [hlevel, insertMax_eq e j false true]
    simp only [↓reduceIte]
    obtain ⟨e1, he1⟩ : ∃ e1, e1 = stampPinnedR e j false := ⟨_, rfl⟩
    rw [← he1]
    have hd1 : ∀ p, p ≠ .pinned j → e1.deref p = e.deref p := by
      intro p hp; rw [he1]; exact stampR_deref_ne e j false p hp
    have hr1 : ∀ i, e1.rti i = e.rti i := by intro i; rw [he1]; exact stampR_rti e j false i
    have hspec1 : ∀ q, InHeapSpec runs.length runs.length e1 q ↔
        InHeapSpec runs.length runs.length e q := by
      intro q
      cases q with
      | child l => simp only [InHeapSpec]; rw [hd1 _ (by simp)]
      | pinned i => simp only [InHeapSpec]; rw [hr1]
    obtain ⟨hheap', hperm⟩ := heapPartR_update_top hs.heap (.pinned j) ht
      (by rw [he1]; exact stampR_heap e j false) hd1 hspec1
    have hbase1 : Base runs tombs e1 := by rw [he1]; exact base_stampR hs.base j false hj
    have htomb1 : TombPartR runs.length e1 := by
      rw [he1]
      exact tombPartR_stamp hs.base hs.tomb j false hj hv (by simp) runs.length (le_refl _) hj
        (fun i h1 h2 => by omega)
    have hd' : ∀ p, p ≠ .pinned j → (e1.maxReplaceTop (.pinned j)).deref p = e.deref p := by
      intro p hp; rw [deref_maxReplaceTop]; exact hd1 p hp
    have hr' : ∀ i, (e1.maxReplaceTop (.pinned j)).rti i = e.rti i := by
      intro i; rw [rti_maxReplaceTop]; exact hr1 i
    have hc' : ∀ l, (e1.maxReplaceTop (.pinned j)).deref (.child l) = e.deref (.child l) :=
      fun l => hd' _ (by simp)
    -- the key of the boundary item before and after
    have hcoh := hs.tomb.pinned_key j hj hv
    obtain ⟨q, _, _, _, _, hwf⟩ := base_cur hs.base j hj hv
    have hkey0 : hkey e (.pinned j) =
        ⟨(e.rti j).end_key.user_key, kMaxSequenceNumber, kTypeMaxValid⟩ := by
      rcases pinned_hkey hs.base j hj hcoh with ⟨h, _⟩ | ⟨_, h⟩
      · rw [h] at hty; exact absurd hty (by decide)
      · exact h
    have hkey1 : hkey (e1.maxReplaceTop (.pinned j)) (.pinned j) =
        ⟨(e.rti j).start_key.user_key, kMaxSequenceNumber, kTypeMaxValid⟩ := by
      have : hkey (e1.maxReplaceTop (.pinned j)) (.pinned j) = hkey e1 (.pinned j) :=
        hkey_congr (deref_maxReplaceTop e1 _ _)
      rw [this, he1, stampR_hkey_self e j false hjp]
      simp only [Bool.false_eq_true, ↓reduceIte]
      have h5 : (e.rti j).start_key.sequence = kMaxSequenceNumber := hwf.start_seq
      rw [h5, (hs.base.pinned_at j hj).2]
    have hty1 : ((e1.maxReplaceTop (.pinned j)).deref (.pinned j)).type = HeapItemType.DELETE_RANGE_START := by
      rw [deref_maxReplaceTop, he1, stampR_deref_self e j false hjp]
      rfl
    have hact1 : (e1.maxReplaceTop (.pinned j)).active_ = setInsert j e.active_ := by
      show e1.active_ = _
      rw [he1, stampR_active]; rfl
    refine ⟨j, rfl, hj, hv, ?_, hd', hr', hperm, hty1⟩
    refine ⟨⟨base_maxReplaceTop hbase1 _, ?_, hheap'⟩, ?_, ?_, passedAbove_congr hf.passed_above hc', ?_⟩
    · exact tombPartR_of_eq htomb1 (fun i => deref_maxReplaceTop e1 _ _) (fun i => rfl) rfl
    · exact passedTombsR_congr hf.passed_tombs hc' hr'
    · intro i L hiL hL hvL hi
      rw [cvalid_congr (hc' L)] at hvL
      rw [ckey_congr (hc' L), hr']
      rw [hact1, mem_setInsert] at hi
      rcases hi with hi | hi
      · subst hi
        have h1 := hmin (.child L) ⟨hL, hvL⟩
        rw [hkey0] at h1
        obtain ⟨_, _, _, _, _, hseq, hk⟩ := base_ckey hs.base L hL hvL
        rw [hk] at h1
        exact keyLe_boundary hseq _ _ h1
      · exact hf.active_ended i L hiL hL hvL hi
    · obtain ⟨B, hB1, hB2⟩ := hf.bound
      refine ⟨B, ?_, passedRecordsR_congr hB2 hc'⟩
      intro p hp
      have hp0 : p ∈ e.heap_.data_ := hperm.mem_iff.mp hp
      by_cases hpj : p = .pinned j
      · subst hpj
        rw [hkey1]
        have h0 := hB1 _ hp0
        rw [hkey0] at h0
        have hlt : keyLt (⟨(e.rti j).start_key.user_key, kMaxSequenceNumber, kTypeMaxValid⟩ :
            ParsedInternalKey UK) ⟨(e.rti j).end_key.user_key, kMaxSequenceNumber, kTypeMaxValid⟩ :=
          Or.inl hwf.lt
        exact keyLe_trans (keyLe_of_keyLt hlt) h0
      · rw [hkey_congr (hd' p hpj)]
        exact hB1 p hp0

theorem base_curR {runs : List (List (ParsedInternalKey UK))}
    {tombs : List (Option (List (RangeTombstone UK)))} {e : MergingIterator UK}
    (hb : Base runs tombs e) (j : Nat) (hj : j < runs.length) (hv : (e.rti j).Valid = true) :
    ∃ q, (e.rti j).pos = some q ∧ tombCnt e j = q + 1 ∧ q < (tombsAt tombs j).length ∧
      (tombsAt tombs j)[q]? = some (e.rti j).cur ∧ TombstoneWF (e.rti j).cur := by
  obtain ⟨q, hq, _, h3, h4, h5⟩ := base_cur hb j hj hv
  exact ⟨q, hq, tombCnt_some hq, h3, h4, h5⟩

theorem base_ckeyR {runs : List (List (ParsedInternalKey UK))}
    {tombs : List (Option (List (RangeTombstone UK)))} {e : MergingIterator UK}
    (hb : Base runs tombs e) (l : Nat) (hl : l < runs.length) (hv : cvalid e l = true) :
    ∃ i, cpos e l = some i ∧ childCnt e l = i + 1 ∧ i < (runAt runs l).length ∧
      (runAt runs l)[i]? = some (ckey e l) ∧ (ckey e l).sequence < kMaxSequenceNumber ∧
      hkey e (.child l) = ckey e l := by
  obtain ⟨i, hi, _, h3, h4, h5, h6⟩ := base_ckey hb l hl hv
  exact ⟨i, hi, childCnt_some hi, h3, h4, h5, h6⟩

/-- Stamping the boundary item of level `j`, whatever it showed before. -/
theorem tombPartR_stamp_raw {runs : List (List (ParsedInternalKey UK))}
    {tombs : List (Option (List (RangeTombstone UK)))} {e : MergingIterator UK}
    (hb : Base runs tombs e) (j : Nat) (isEnd : Bool)
    (hj : j < runs.length) (hv : (e.rti j).Valid = true) (c' : Nat) (hc2 : j < c')
    (hpk : ∀ i, i < c' → i ≠ j → (e.rti i).Valid = true → PinnedCoherent e i)
    (hact : ∀ i, i ≠ j → (i ∈ e.active_ ↔ i < c' ∧ (e.rti i).Valid = true ∧
      (e.deref (.pinned i)).type = HeapItemType.DELETE_RANGE_START))
    (hs : isEnd = true → j ∉ e.active_)
    (hsorted : e.active_.Pairwise (fun x y => x < y)) :
    TombPartR c' (stampPinnedR e j isEnd) := by
  have hjp : j < e.pinned_heap_item_.length := by rw [hb.pinned_len]; exact hj
  obtain ⟨q, _, _, _, _, hwf⟩ := base_curR hb j hj hv
  have hself : PinnedCoherent (stampPinnedR e j isEnd) j := by
    unfold PinnedCoherent
    rw [stampR_deref_self e j isEnd hjp, stampR_rti]
    cases isEnd
    · left
      simp only [Bool.false_eq_true, ↓reduceIte, HeapItem.SetTombstoneKey, true_and]
      exact hwf.start_seq
    · right
      simp only [↓reduceIte, HeapItem.SetTombstoneKey, true_and]
      exact hwf.end_seq
  have hself_ty : ((stampPinnedR e j isEnd).deref (.pinned j)).type =
      if isEnd then HeapItemType.DELETE_RANGE_END else HeapItemType.DELETE_RANGE_START := by
    rw [stampR_deref_self e j isEnd hjp]
  refine ⟨?_, ?_, ?_⟩
  · intro i hi hvi
    by_cases hij : i = j
    · subst hij; exact hself
    · rw [stampR_rti] at hvi
      exact pinnedCoherent_congr (stampR_deref_ne e j isEnd _ (by simpa using hij))
        (stampR_rti e j isEnd i) (hpk i hi hij hvi)
  · intro i
    rw [stampR_active]
    by_cases hij : i = j
    · subst hij
      rw [hself_ty, stampR_rti]
      cases isEnd
      · simp [mem_setInsert, hc2, hv]
      · simp [hs rfl]
    · rw [stampR_rti, stampR_deref_ne e j isEnd _ (by simpa using hij), ← hact i hij]
      cases isEnd
      · simp [mem_setInsert, hij]
      · simp
  · rw [stampR_active]
    cases isEnd
    · exact setInsert_sorted j _ hsorted
    · exact hsorted

theorem drop_mem_cases {α : Type} (l : List α) (q : Nat) (x : α) (hx : x ∈ l.drop q) :
    l[q]? = some x ∨ x ∈ l.drop (q + 1) := by
  obtain ⟨i, hi⟩ := List.mem_iff_getElem?.mp hx
  rw [List.getElem?_drop] at hi
  cases i with
  | zero => left; simpa using hi
  | succ i =>
    right
    apply List.mem_iff_getElem?.mpr
    refine ⟨i, ?_⟩
    rw [List.getElem?_drop]
    rw [← hi]
    congr 1
    omega

/-- The second kind of step of the visibility loop of a backward scan: the start of a
tombstone is on top of the heap; the tombstone iterator moves back and the end of the previous
tombstone, if any, replaces the entry. -/
theorem skip_start_step {runs : List (List (ParsedInternalKey UK))}
    {tombs : List (Option (List (RangeTombstone UK)))} {e : MergingIterator UK}
    (hf : BwdT runs tombs e) {t : HeapItemPtr} (ht : e.heap_.top = some t)
    (hty : (e.deref t).type = HeapItemType.DELETE_RANGE_START) :
    e.SkipPrevDeleted.2 = true ∧ BwdT runs tombs e.SkipPrevDeleted.1 ∧
      (∀ l, e.SkipPrevDeleted.1.deref (.child l) = e.deref (.child l)) ∧
      LexLtR runs e e.SkipPrevDeleted.1 ∧
      e.SkipPrevDeleted.1.direction_ = e.direction_ := by
  have hs := hf.struct
  obtain ⟨hspec, hmin⟩ := structR_top hs ht
  cases t with
  | child l =>
    have := (structR_child_type hs hspec.1).1
    rw [this] at hty
    exact absurd hty (by decide)
  | pinned j =>
    obtain ⟨hj, hv⟩ := hspec
    have hjp : j < e.pinned_heap_item_.length := by rw [hs.base.pinned_len]; exact hj
    have hjr : j < e.range_tombstone_iters_.length := by rw [hs.base.rti_len]; exact hj
    have hlevel : (e.deref (.pinned j)).level = j := (hs.base.pinned_at j hj).1
    obtain ⟨q, hq, hqi, hqlt, hcur, hwf⟩ := base_curR hs.base j hj hv
    have hcoh := hs.tomb.pinned_key j hj hv
    have hkey0 : hkey e (.pinned j) =
        ⟨(e.rti j).start_key.user_key, kMaxSequenceNumber, kTypeMaxValid⟩ := by
      rcases pinned_hkey hs.base j hj hcoh with ⟨_, h⟩ | ⟨h, _⟩
      · exact h
      · rw [h] at hty; exact absurd hty (by decide)
    obtain ⟨hnp, hnt⟩ := tprev_pos (e.rti j) q hq (by rw [hs.base.rti_tombs j hj]; exact hqlt)
    rw [hs.base.rti_tombs j hj] at hnt
    -- the state after the tombstone iterator has moved
    obtain ⟨e2, he2⟩ : ∃ e2, e2 = ({ e with active_ := e.active_.erase j } :
        MergingIterator UK).setRti j (e.rti j).Prev := ⟨_, rfl⟩
    have hd2 : ∀ p, e2.deref p = e.deref p := by
      intro p; rw [he2, deref_setRti, deref_set_active]
    have hr2j : e2.rti j = (e.rti j).Prev := by
      rw [he2]; exact rti_setRti_self _ j _ hjr
    have hr2 : ∀ i, i ≠ j → e2.rti i = e.rti i := by
      intro i hi; rw [he2, rti_setRti_ne _ j i _ (Ne.symm hi)]; rfl
    have hact2 : e2.active_ = e.active_.erase j := by rw [he2]; rfl
    have hheap2 : e2.heap_ = e.heap_ := by rw [he2]; rfl
    have hbase2 : Base runs tombs e2 := by
      rw [he2]
      refine base_setRti (base_set_active hs.base _) j _ hj ?_ hnt ?_
      · show (e.range_tombstone_iters_[j]?.getD none).isSome = true
        rw [base_rti_slot_of_valid j hv]; rfl
      · intro i hi
        rw [hnp] at hi
        have := cntPos_some hi
        omega
    have htidx2 : tombCnt e2 j = q := by
      apply tombCnt_of_pos
      rw [hr2j, hnp]
    have hpt2 : PassedTombsR runs tombs e2 := by
      intro i L hiL hL hvL t' ht'
      rw [cvalid_congr (hd2 _)] at hvL
      rw [ckey_congr (hd2 _)]
      by_cases hij : i = j
      · subst hij
        rw [htidx2] at ht'
        rcases drop_mem_cases _ _ _ ht' with h | h
        · rw [hcur] at h
          simp at h
          subst h
          have h1 := hmin (.child L) ⟨hL, hvL⟩
          rw [hkey0] at h1
          obtain ⟨_, _, _, _, _, hseq, hk⟩ := base_ckeyR hs.base L hL hvL
          rw [hk] at h1
          exact keyLe_boundary hseq _ _ h1
        · rw [← hqi] at h
          exact hf.passed_tombs i L hiL hL hvL t' h
      · rw [tombCnt_congr (hr2 i hij)] at ht'
        exact hf.passed_tombs i L hiL hL hvL t' ht'
    have has2 : ∀ i L, i ≤ L → L < runs.length → cvalid e L = true → i ∈ e.active_.erase j →
        (ckey e L).user_key < (e2.rti i).end_key.user_key := by
      intro i L hiL hL hvL hi
      obtain ⟨hij, hi'⟩ := (mem_erase_sorted hs.tomb.active_sorted j i).mp hi
      rw [hr2 i hij]
      exact hf.active_ended i L hiL hL hvL hi'
    have htau0 : tauR e j = 2 * q + 1 := by
      unfold tauR
      rw [hqi]
      have : (e.rti j).Valid = true ∧
          (e.deref (.pinned j)).type = HeapItemType.DELETE_RANGE_START := ⟨hv, hty⟩
      simp only [this, and_self, ↓reduceIte]
      omega
    have hlex_tau : ∀ e', (∀ l, e'.deref (.child l) = e.deref (.child l)) →
        (∀ i, i ≠ j → e'.rti i = e.rti i) → (∀ i, i ≠ j → e'.deref (.pinned i) =
          e.deref (.pinned i)) → tombCnt e' j = q → LexLtR runs e e' := by
      intro e' h1 h2 h3 h4
      refine ⟨j, hj, fun l' hl' => ⟨childCnt_congr (h1 l'), tauR_congr (h2 l' (by omega))
        (h3 l' (by omega))⟩, Or.inr ⟨childCnt_congr (h1 j), ?_⟩⟩
      rw [htau0]
      unfold tauR
      rw [h4]
      split <;> omega
    unfold SkipPrevDeleted
    simp only [ht, hlevel, hty, beq_self_eq_true, ↓reduceIte]
    rw [show ({ e with active_ := e.active_.erase j } : MergingIterator UK).rti j = e.rti j
      from rfl, ← he2]
    by_cases hv2 : (e2.rti j).Valid = true
    · -- the previous tombstone exists: its end replaces the top
      simp only [hv2, ↓reduceIte]
      rw [insertMax_eq e2 j true true]
      simp only [↓reduceIte]
      obtain ⟨e3, he3⟩ : ∃ e3, e3 = stampPinnedR e2 j true := ⟨_, rfl⟩
      rw [← he3]
      have hd3 : ∀ p, p ≠ .pinned j → e3.deref p = e.deref p := by
        intro p hp; rw [he3, stampR_deref_ne e2 j true p hp]; exact hd2 p
      have hr3 : ∀ i, e3.rti i = e2.rti i := by intro i; rw [he3]; exact stampR_rti e2 j true i
      have hspec3 : ∀ p, InHeapSpec runs.length runs.length e3 p ↔
          InHeapSpec runs.length runs.length e p := by
        intro p
        cases p with
        | child l => simp only [InHeapSpec]; rw [hd3 _ (by simp)]
        | pinned i =>
          simp only [InHeapSpec]; rw [hr3]
          by_cases hij : i = j
          · subst hij; simp [hv2, hv]
          · rw [hr2 i hij]
      obtain ⟨hheap', hperm⟩ := heapPartR_update_top hs.heap (.pinned j) ht
        (by rw [he3, stampR_heap, hheap2]) hd3 hspec3
      have hbase3 : Base runs tombs e3 := by rw [he3]; exact base_stampR hbase2 j true hj
      have htomb3 : TombPartR runs.length e3 := by
        rw [he3]
        refine tombPartR_stamp_raw hbase2 j true hj hv2 runs.length hj ?_ ?_ ?_ ?_
        · intro i hi hij hvi
          rw [hr2 i hij] at hvi
          exact pinnedCoherent_congr (hd2 _) (hr2 i hij) (hs.tomb.pinned_key i hi hvi)
        · intro i hij
          rw [hact2, mem_erase_sorted hs.tomb.active_sorted, hs.tomb.active_iff i, hd2,
            hr2 i hij]
          simp [hij]
        · intro _
          rw [hact2, mem_erase_sorted hs.tomb.active_sorted]
          simp
        · rw [hact2]; exact erase_sorted hs.tomb.active_sorted j
      have hc' : ∀ l, (e3.maxReplaceTop (.pinned j)).deref (.child l) = e.deref (.child l) := by
        intro l; rw [deref_maxReplaceTop]; exact hd3 _ (by simp)
      obtain ⟨q2, hq2, _, hq2lt, hcur2, hwf2⟩ := base_curR hbase2 j hj hv2
      have hq2eq : q = q2 + 1 := by
        rw [hr2j, hnp] at hq2
        exact cntPos_some hq2
      subst hq2eq
      have hkey3 : hkey (e3.maxReplaceTop (.pinned j)) (.pinned j) =
          ⟨(e2.rti j).end_key.user_key, kMaxSequenceNumber, kTypeMaxValid⟩ := by
        have : hkey (e3.maxReplaceTop (.pinned j)) (.pinned j) = hkey e3 (.pinned j) :=
          hkey_congr (deref_maxReplaceTop e3 _ _)
        have hjp2 : j < e2.pinned_heap_item_.length := by rw [hbase2.pinned_len]; exact hj
        rw [this, he3, stampR_hkey_self e2 j true hjp2]
        simp only [↓reduceIte]
        have h5 : (e2.rti j).end_key.sequence = kMaxSequenceNumber := hwf2.end_seq
        rw [h5, (hbase2.pinned_at j hj).2]
      have hact3 : (e3.maxReplaceTop (.pinned j)).active_ = e.active_.erase j := by
        show e3.active_ = _
        rw [he3, stampR_active]; exact hact2
      refine ⟨trivial, ⟨⟨base_maxReplaceTop hbase3 _, ?_, hheap'⟩, ?_, ?_,
        passedAbove_congr hf.passed_above hc', ?_⟩, hc', ?_, ?_⟩
      rotate_right
      · show e3.direction_ = e.direction_
        rw [he3, stampR_direction, he2]; rfl
      · exact tombPartR_of_eq htomb3 (fun i => deref_maxReplaceTop e3 _ _) (fun i => rfl) rfl
      · refine passedTombsR_congr hpt2 (fun l => ?_) (fun i => ?_)
        · rw [hc' l, hd2]
        · rw [rti_maxReplaceTop, hr3]
      · intro i L hiL hL hvL hi
        rw [cvalid_congr (hc' L)] at hvL
        rw [ckey_congr (hc' L), rti_maxReplaceTop, hr3]
        rw [hact3] at hi
        exact has2 i L hiL hL hvL hi
      · obtain ⟨B, hB1, hB2⟩ := hf.bound
        refine ⟨B, ?_, passedRecordsR_congr hB2 hc'⟩
        intro p hp
        have hp0 : p ∈ e.heap_.data_ := hperm.mem_iff.mp hp
        by_cases hpj : p = .pinned j
        · subst hpj
          rw [hkey3]
          have h0 := hB1 _ hp0
          rw [hkey0] at h0
          refine keyLe_trans ?_ h0
          have h7 : (e2.rti j).end_key.user_key ≤ (e.rti j).start_key.user_key :=
            tombs_sorted (hs.base.wf.tombs_wf j) (Nat.lt_succ_self q2) hcur2 hcur
          rcases lt_or_eq_of_le h7 with h8 | h8
          · exact keyLe_of_keyLt (Or.inl h8)
          · rw [h8]; exact keyLe_refl _
        · rw [hkey_congr (show (e3.maxReplaceTop (.pinned j)).deref p = e.deref p from by
            rw [deref_maxReplaceTop]; exact hd3 p hpj)]
          exact hB1 p hp0
      · refine hlex_tau _ hc' (fun i hi => ?_) (fun i hi => ?_) ?_
        · rw [rti_maxReplaceTop, hr3, hr2 i hi]
        · rw [deref_maxReplaceTop]; exact hd3 _ (by simpa using hi)
        · rw [tombCnt_congr (show (e3.maxReplaceTop (.pinned j)).rti j = e2.rti j from by
            rw [rti_maxReplaceTop, hr3])]
          exact htidx2
    · -- the tombstone iterator is exhausted: the entry leaves the heap
      simp only [hv2, Bool.false_eq_true, ↓reduceIte]
      have hv2' : (e2.rti j).Valid = false := by simpa using hv2
      have hspec2 : ∀ p, InHeapSpec runs.length runs.length e2 p ↔
          p ≠ .pinned j ∧ InHeapSpec runs.length runs.length e p := by
        intro p
        cases p with
        | child l => simp only [InHeapSpec]; rw [hd2]; simp
        | pinned i =>
          simp only [InHeapSpec]
          by_cases hij : i = j
          · subst hij; simp [hv2']
          · rw [hr2 i hij]; simp [hij]
      obtain ⟨hheap', hperm⟩ := heapPartR_pop hs.heap (.pinned j) ht hheap2
        (fun p _ => hd2 p) hspec2
      have htomb2 : TombPartR runs.length e2 := by
        refine ⟨?_, ?_, ?_⟩
        · intro i hi hvi
          by_cases hij : i = j
          · subst hij; rw [hv2'] at hvi; exact absurd hvi (by decide)
          · rw [hr2 i hij] at hvi
            exact pinnedCoherent_congr (hd2 _) (hr2 i hij) (hs.tomb.pinned_key i hi hvi)
        · intro i
          rw [hact2, mem_erase_sorted hs.tomb.active_sorted, hs.tomb.active_iff i, hd2]
          by_cases hij : i = j
          · subst hij; simp [hv2']
          · rw [hr2 i hij]; simp [hij]
        · rw [hact2]; exact erase_sorted hs.tomb.active_sorted j
      have hc' : ∀ l, e2.maxPop.deref (.child l) = e.deref (.child l) := by
        intro l; rw [deref_maxPop]; exact hd2 _
      refine ⟨trivial, ⟨⟨base_maxPop hbase2, ?_, hheap'⟩, ?_, ?_,
        passedAbove_congr hf.passed_above hc', ?_⟩, hc', ?_, ?_⟩
      rotate_right
      · show e2.direction_ = e.direction_
        rw [he2]; rfl
      · exact tombPartR_of_eq htomb2 (fun i => deref_maxPop e2 _) (fun i => rfl) rfl
      · exact passedTombsR_congr hpt2 (fun l => deref_maxPop e2 _) (fun i => rfl)
      · intro i L hiL hL hvL hi
        rw [cvalid_congr (hc' L)] at hvL
        rw [ckey_congr (hc' L), rti_maxPop]
        have hi' : i ∈ e.active_.erase j := by rw [← hact2]; exact hi
        exact has2 i L hiL hL hvL hi'
      · obtain ⟨B, hB1, hB2⟩ := hf.bound
        refine ⟨B, ?_, passedRecordsR_congr hB2 hc'⟩
        intro p hp
        have hp0 : p ∈ e.heap_.data_ := List.mem_of_mem_tail (hperm.mem_iff.mp hp)
        rw [hkey_congr (show e2.maxPop.deref p = e.deref p from by
          rw [deref_maxPop]; exact hd2 p)]
        exact hB1 p hp0
      · refine hlex_tau _ hc' (fun i hi => ?_) (fun i hi => ?_) ?_
        · rw [rti_maxPop, hr2 i hi]
        · rw [deref_maxPop]; exact hd2 _
        · rw [tombCnt_congr (show e2.maxPop.rti j = e2.rti j from rfl)]
          exact htidx2

/-- The third kind of step of a backward scan: the child on top of the heap steps back. -/
theorem retreat_step {runs : List (List (ParsedInternalKey UK))}
    {tombs : List (Option (List (RangeTombstone UK)))} {e : MergingIterator UK}
    (hf : BwdT runs tombs e) {s : Nat} (ht : e.heap_.top = some (.child s)) :
    StructR runs tombs (retreatTop e s) ∧
      PassedTombsR runs tombs (retreatTop e s) ∧ ActiveEnded runs (retreatTop e s) ∧
      PassedAbove runs (retreatTop e s) ∧
      UpperBound (ckey e s) (retreatTop e s) ∧
      PassedRecordsR runs tombs (ckey e s) (retreatTop e s) ∧
      (∀ p, p ≠ .child s → (retreatTop e s).deref p = e.deref p) ∧
      (∀ i, (retreatTop e s).rti i = e.rti i) ∧ (retreatTop e s).active_ = e.active_ ∧
      childCnt (retreatTop e s) s + 1 = childCnt e s := by
  have hs := hf.struct
  obtain ⟨hspec, hmin⟩ := structR_top hs ht
  obtain ⟨hsn, hsv⟩ := hspec
  obtain ⟨i, hi, hidx, hilt, hrun, hseq, hk⟩ := base_ckeyR hs.base s hsn hsv
  have hslen : s < e.children_.length := by rw [hs.base.children_len]; exact hsn
  have hca := hs.base.child_at s hsn
  obtain ⟨hca1, hpos1⟩ := childAt_prev hca (by rw [← cpos_eq]; exact hi)
  obtain ⟨e1, he1⟩ : ∃ e1, e1 = e.updIter (.child s) (fun w => w.Prev) := ⟨_, rfl⟩
  have hd1s : e1.deref (.child s) =
      { e.deref (.child s) with iter := (e.deref (.child s)).iter.Prev } := by
    rw [he1]; exact deref_updIter_child_self e s _ hslen
  have hd1 : ∀ p, p ≠ .child s → e1.deref p = e.deref p := by
    intro p hp; rw [he1]; exact deref_updIter_child_ne e s _ p hp
  have hr1 : ∀ j, e1.rti j = e.rti j := by intro j; rw [he1]; exact rti_updIter e _ _ j
  have hheap1 : e1.heap_ = e.heap_ := by rw [he1]; rfl
  have hact1 : e1.active_ = e.active_ := by rw [he1]; cases e; rfl
  have hbase1 : Base runs tombs e1 := by
    rw [he1]; exact base_updIter hs.base s _ hsn hca1
  have hcpos1 : cpos e1 s = cntPos i := by
    rw [cpos_eq, hd1s]; exact hpos1
  have hidx1' : childCnt e1 s = i := childCnt_of_pos hcpos1
  have hidx1 : childCnt e1 s + 1 = childCnt e s := by
    rw [hidx1', hidx]
  have htomb1 : TombPartR runs.length e1 :=
    tombPartR_of_eq hs.tomb (fun j => hd1 _ (by simp)) hr1 hact1
  -- keys of the children after the step
  have hkey1 : ∀ L, L < runs.length → cvalid e1 L = true →
      cvalid e L = true ∧ keyLe (ckey e1 L) (ckey e L) := by
    intro L hL hvL
    by_cases hLs : L = s
    · subst hLs
      refine ⟨hsv, ?_⟩
      obtain ⟨i1, hi1, _, _, hrun1, _, _⟩ := base_ckeyR hbase1 L hL hvL
      rw [hcpos1] at hi1
      have h5 := cntPos_some hi1
      subst h5
      exact sortedRun_le (base_sorted hs.base L) (Nat.le_succ i1) hrun1 hrun
    · have hdL := hd1 (.child L) (by simpa using hLs)
      rw [cvalid_congr hdL] at hvL
      rw [ckey_congr hdL]
      exact ⟨hvL, keyLe_refl _⟩
  have hpt1 : PassedTombsR runs tombs e1 := by
    intro j L hjL hL hvL t' ht'
    obtain ⟨hv0, hle⟩ := hkey1 L hL hvL
    rw [tombCnt_congr (hr1 j)] at ht'
    exact lt_of_le_of_lt (keyLe_user_key hle) (hf.passed_tombs j L hjL hL hv0 t' ht')
  have has1 : ActiveEnded runs e1 := by
    intro j L hjL hL hvL hj
    obtain ⟨hv0, hle⟩ := hkey1 L hL hvL
    rw [hact1] at hj
    rw [hr1]
    exact lt_of_le_of_lt (keyLe_user_key hle) (hf.active_ended j L hjL hL hv0 hj)
  have hpa1 : PassedAbove runs e1 := by
    intro L L' idx r hLL hL' hvL' hge hr
    by_cases hLs : L = s
    · subst hLs
      have hdL' := hd1 (.child L') (by simp; omega)
      rw [cvalid_congr hdL'] at hvL'
      rw [ckey_congr hdL']
      rw [hidx1'] at hge
      by_cases hii : idx = i
      · subst hii
        rw [hrun] at hr
        simp at hr
        subst hr
        have h1 := hmin (.child L') ⟨hL', hvL'⟩
        rw [hk] at h1
        obtain ⟨_, _, _, _, _, _, hk'⟩ := base_ckeyR hs.base L' hL' hvL'
        rw [hk'] at h1
        exact h1
      · exact hf.passed_above L L' idx r hLL hL' hvL' (by rw [hidx]; omega) hr
    · rw [childCnt_congr (hd1 (.child L) (by simpa using hLs))] at hge
      obtain ⟨hv0, hle⟩ := hkey1 L' hL' hvL'
      exact keyLe_trans hle (hf.passed_above L L' idx r hLL hL' hv0 hge hr)
  have hpr1 : PassedRecordsR runs tombs (ckey e s) e1 := by
    intro l idx r hl hlt hr hB
    obtain ⟨B, hB1, hB2⟩ := hf.bound
    have hBk : keyLe (ckey e s) B := by
      have := hB1 _ (top_max e hs.heap.inv _ ht).1
      rw [hk] at this; exact this
    by_cases hls : l = s
    · subst hls
      rw [hidx1'] at hlt
      by_cases hii : idx = i
      · subst hii
        rw [hrun] at hr
        simp at hr
        subst hr
        exact absurd hB (keyLt_irrefl _)
      · exact hB2 l idx r hl (by rw [hidx]; omega) hr (keyLt_of_keyLt_of_keyLe hB hBk)
    · rw [childCnt_congr (hd1 (.child l) (by simpa using hls))] at hlt
      exact hB2 l idx r hl hlt hr (keyLt_of_keyLt_of_keyLe hB hBk)
  have hlb1 : ∀ p, InHeapSpec runs.length runs.length e p →
      InHeapSpec runs.length runs.length e1 p → keyLe (hkey e1 p) (ckey e s) := by
    intro p hp hp1
    by_cases hps : p = .child s
    · subst hps
      obtain ⟨_, _, _, _, _, _, hk1⟩ := base_ckeyR hbase1 s hsn hp1.2
      rw [hk1]
      exact (hkey1 s hsn hp1.2).2
    · rw [hkey_congr (hd1 p hps), ← hk]
      exact hmin p hp
  unfold retreatTop
  rw [← he1]
  by_cases hv1 : (e1.deref (.child s)).iter.Valid = true
  · simp only [hv1, ↓reduceIte]
    have hspec1 : ∀ q, InHeapSpec runs.length runs.length e1 q ↔
        InHeapSpec runs.length runs.length e q := by
      intro q
      cases q with
      | child l =>
        simp only [InHeapSpec]
        by_cases hls : l = s
        · subst hls; simp [hv1]
          exact fun _ => hsv
        · rw [hd1 _ (by simpa using hls)]
      | pinned j => simp only [InHeapSpec]; rw [hr1]
    obtain ⟨hheap', hperm⟩ := heapPartR_update_top hs.heap (.child s) ht hheap1 hd1 hspec1
    refine ⟨⟨base_maxReplaceTop hbase1 _, ?_, hheap'⟩, ?_, ?_, ?_, ?_, ?_, ?_, ?_, ?_, ?_⟩
    · exact tombPartR_of_eq htomb1 (fun i => deref_maxReplaceTop e1 _ _) (fun i => rfl) rfl
    · exact passedTombsR_congr hpt1 (fun l => deref_maxReplaceTop e1 _ _) (fun i => rfl)
    · intro j L hjL hL hvL hj
      exact has1 j L hjL hL hvL hj
    · exact passedAbove_congr hpa1 (fun l => deref_maxReplaceTop e1 _ _)
    · intro p hp
      have hp0 : p ∈ e.heap_.data_ := hperm.mem_iff.mp hp
      have hp1 := (heapPartR_mem hs.heap p).mp hp0
      rw [hkey_congr (deref_maxReplaceTop e1 _ p)]
      exact hlb1 p hp1 ((hspec1 p).mpr hp1)
    · exact passedRecordsR_congr hpr1 (fun l => deref_maxReplaceTop e1 _ _)
    · intro p hp; rw [deref_maxReplaceTop]; exact hd1 p hp
    · intro j; rw [rti_maxReplaceTop]; exact hr1 j
    · exact hact1
    · rw [childCnt_congr (deref_maxReplaceTop e1 _ _)]; exact hidx1
  · simp only [hv1, Bool.false_eq_true, ↓reduceIte]
    have hv1' : (e1.deref (.child s)).iter.Valid = false := by simpa using hv1
    have hspec1 : ∀ q, InHeapSpec runs.length runs.length e1 q ↔
        q ≠ .child s ∧ InHeapSpec runs.length runs.length e q := by
      intro q
      cases q with
      | child l =>
        simp only [InHeapSpec]
        by_cases hls : l = s
        · subst hls; simp [hv1']
        · rw [hd1 _ (by simpa using hls)]; simp [hls]
      | pinned j => simp only [InHeapSpec]; rw [hr1]; simp
    obtain ⟨hheap', hperm⟩ := heapPartR_pop hs.heap (.child s) ht hheap1 hd1 hspec1
    refine ⟨⟨base_maxPop hbase1, ?_, hheap'⟩, ?_, ?_, ?_, ?_, ?_, ?_, ?_, ?_, ?_⟩
    · exact tombPartR_of_eq htomb1 (fun i => deref_maxPop e1 _) (fun i => rfl) rfl
    · exact passedTombsR_congr hpt1 (fun l => deref_maxPop e1 _) (fun i => rfl)
    · intro j L hjL hL hvL hj
      exact has1 j L hjL hL hvL hj
    · exact passedAbove_congr hpa1 (fun l => deref_maxPop e1 _)
    · intro p hp
      have hp1 := (heapPartR_mem hheap' p).mp hp
      have hp1' : InHeapSpec runs.length runs.length e1 p := by
        cases p <;> exact hp1
      have hp0 := ((hspec1 p).mp hp1').2
      rw [hkey_congr (deref_maxPop e1 p)]
      exact hlb1 p hp0 hp1'
    · exact passedRecordsR_congr hpr1 (fun l => deref_maxPop e1 _)
    · intro p hp; rw [deref_maxPop]; exact hd1 p hp
    · intro j; rw [rti_maxPop]; exact hr1 j
    · exact hact1
    · rw [childCnt_congr (deref_maxPop e1 _)]; exact hidx1

/-- In a backward scan with the child of level `s` on top of the heap: the current tombstone
of an active level `j ≤ s` covers the key of the child. -/
theorem active_coversR {runs : List (List (ParsedInternalKey UK))}
    {tombs : List (Option (List (RangeTombstone UK)))} {e : MergingIterator UK}
    (hf : BwdT runs tombs e) {s : Nat} (ht : e.heap_.top = some (.child s)) {j : Nat}
    (hjs : j ≤ s) (hj : j ∈ e.active_) :
    (e.rti j).cur ∈ tombsAt tombs j ∧ covers (e.rti j).cur (ckey e s).user_key := by
  have hs := hf.struct
  obtain ⟨⟨hsn, hsv⟩, hmin⟩ := structR_top hs ht
  obtain ⟨i, _, _, _, _, hseq, hk⟩ := base_ckeyR hs.base s hsn hsv
  obtain ⟨hjn, hjv, hjt⟩ := (hs.tomb.active_iff j).mp hj
  obtain ⟨q, _, _, _, hcur, _⟩ := base_curR hs.base j hjn hjv
  refine ⟨List.getElem?_mem hcur, ?_, hf.active_ended j s hjs hsn hsv hj⟩
  have hkey : hkey e (.pinned j) =
      ⟨(e.rti j).start_key.user_key, kMaxSequenceNumber, kTypeMaxValid⟩ := by
    rcases pinned_hkey hs.base j hjn (hs.tomb.pinned_key j hjn hjv) with ⟨_, h⟩ | ⟨h, _⟩
    · exact h
    · rw [h] at hjt; exact absurd hjt (by decide)
  have h1 := hmin (.pinned j) ⟨hjn, hjv⟩
  rw [hk, hkey] at h1
  have h2 := keyLe_user_key h1
  exact h2

/-- In a backward scan with the child of level `s` on top of the heap: no tombstone of a level
`j ≤ s` that is not active covers the key of the child. -/
theorem inactive_not_coversR {runs : List (List (ParsedInternalKey UK))}
    {tombs : List (Option (List (RangeTombstone UK)))} {e : MergingIterator UK}
    (hf : BwdT runs tombs e) {s : Nat} (ht : e.heap_.top = some (.child s)) {j : Nat}
    (hjs : j ≤ s) (hj : j ∉ e.active_) :
    ∀ t ∈ tombsAt tombs j, ¬ covers t (ckey e s).user_key := by
  have hs := hf.struct
  obtain ⟨⟨hsn, hsv⟩, hmin⟩ := structR_top hs ht
  obtain ⟨i, _, _, _, _, hseq, hk⟩ := base_ckeyR hs.base s hsn hsv
  have hjn : j < runs.length := by omega
  apply not_covered_of_gap (hs.base.wf.tombs_wf j) (tombCnt e j)
  · intro t htq
    by_cases hv : (e.rti j).Valid = true
    · obtain ⟨q, _, hqi, _, hcur, _⟩ := base_curR hs.base j hjn hv
      have hkey : hkey e (.pinned j) =
          ⟨(e.rti j).end_key.user_key, kMaxSequenceNumber, kTypeMaxValid⟩ := by
        rcases pinned_hkey hs.base j hjn (hs.tomb.pinned_key j hjn hv) with ⟨h, _⟩ | ⟨_, h⟩
        · exact absurd ((hs.tomb.active_iff j).mpr ⟨hjn, hv, h⟩) hj
        · exact h
      have h1 := hmin (.pinned j) ⟨hjn, hv⟩
      rw [hk, hkey] at h1
      have h2 := keyLe_user_key h1
      have h3 : (e.rti j).cur.end_key.user_key ≤ (ckey e s).user_key := h2
      rw [hqi] at htq
      obtain ⟨i', hi'⟩ := List.mem_iff_getElem?.mp htq
      rw [List.getElem?_take] at hi'
      split at hi'
      · rename_i hlt
        exact le_trans (tombs_end_le (hs.base.wf.tombs_wf j) (by omega) hi' hcur) h3
      · simp at hi'
    · have hpos : (e.rti j).pos = none := by
        cases hp : (e.rti j).pos with
        | none => rfl
        | some q => exact absurd ((tvalid_iff _).mpr ⟨q, hp⟩) hv
      rw [tombCnt_none hpos] at htq
      simp at htq
  · intro t htq
    apply hf.passed_tombs j s hjs hsn hsv t
    apply List.mem_iff_getElem?.mpr
    exact ⟨0, by rw [List.getElem?_drop]; simpa using htq⟩

/-- In a backward scan with the child of level `s` on top of the heap, its record is deleted
exactly when a level below `s` is active, or `s` is active with a larger sequence number. -/
theorem top_suppressed_iffR {runs : List (List (ParsedInternalKey UK))}
    {tombs : List (Option (List (RangeTombstone UK)))} {e : MergingIterator UK}
    (hf : BwdT runs tombs e) {s : Nat} (ht : e.heap_.top = some (.child s)) :
    suppressed tombs s (ckey e s) ↔
      (∃ j ∈ e.active_, j < s) ∨ (s ∈ e.active_ ∧ (ckey e s).sequence < (e.rti s).seq) := by
  have hs := hf.struct
  obtain ⟨⟨hsn, hsv⟩, hmin⟩ := structR_top hs ht
  constructor
  · rintro (⟨j, hjs, t, ht1, hc⟩ | ⟨t, ht1, hc, hseq⟩)
    · left
      refine ⟨j, ?_, hjs⟩
      by_contra hcon
      exact inactive_not_coversR hf ht (Nat.le_of_lt hjs) hcon t ht1 hc
    · right
      have hact : s ∈ e.active_ := by
        by_contra hcon
        exact inactive_not_coversR hf ht (le_refl s) hcon t ht1 hc
      refine ⟨hact, ?_⟩
      obtain ⟨hcm, hcc⟩ := active_coversR hf ht (le_refl s) hact
      obtain ⟨_, hv, _⟩ := (hs.tomb.active_iff s).mp hact
      obtain ⟨q, _, _, _, hcur, _⟩ := base_curR hs.base s hsn hv
      have := covers_unique (hs.base.wf.tombs_wf s) hcur hcc t ht1 hc
      subst this
      exact hseq
  · rintro (⟨j, hj, hjs⟩ | ⟨hact, hseq⟩)
    · left
      obtain ⟨hcm, hcc⟩ := active_coversR hf ht (Nat.le_of_lt hjs) hj
      exact ⟨j, hjs, _, hcm, hcc⟩
    · right
      obtain ⟨hcm, hcc⟩ := active_coversR hf ht (le_refl s) hact
      exact ⟨_, hcm, hcc, hseq⟩

theorem heapPartR_frame_level {a b : Nat} {e e' : MergingIterator UK} (hh : HeapPartR a b e)
    (hheap : e'.heap_ = e.heap_)
    (hc : ∀ l, l < a → e'.deref (.child l) = e.deref (.child l))
    (hp : ∀ j, j < b → e'.deref (.pinned j) = e.deref (.pinned j))
    (hr : ∀ j, j < b → e'.rti j = e.rti j) : HeapPartR a b e' := by
  apply heapPartR_frame hh hheap
  · intro p hp'
    cases p with
    | child l => exact hc l hp'.1
    | pinned j => exact hp j hp'.1
  · intro q
    cases q with
    | child l =>
      simp only [InHeapSpec]
      constructor
      · rintro ⟨h1, h2⟩; rw [hc l h1] at h2; exact ⟨h1, h2⟩
      · rintro ⟨h1, h2⟩; rw [← hc l h1] at h2; exact ⟨h1, h2⟩
    | pinned j =>
      simp only [InHeapSpec]
      constructor
      · rintro ⟨h1, h2⟩; rw [hr j h1] at h2; exact ⟨h1, h2⟩
      · rintro ⟨h1, h2⟩; rw [← hr j h1] at h2; exact ⟨h1, h2⟩

theorem heapPartR_push_child {a b : Nat} {e : MergingIterator UK} (hh : HeapPartR a b e)
    (hv : (e.deref (.child a)).iter.Valid = true) : HeapPartR (a + 1) b (e.maxPush (.child a)) := by
  apply heapPartR_push hh (.child a)
  · simp [InHeapSpec]
  · intro q
    cases q with
    | child l =>
      simp only [InHeapSpec, HeapItemPtr.child.injEq]
      constructor
      · rintro ⟨h1, h2⟩
        by_cases hla : l = a
        · exact Or.inl hla
        · exact Or.inr ⟨by omega, h2⟩
      · rintro (h | ⟨h1, h2⟩)
        · subst h; exact ⟨by omega, hv⟩
        · exact ⟨by omega, h2⟩
    | pinned j => simp [InHeapSpec]

theorem heapPartR_skip_child {a b : Nat} {e : MergingIterator UK} (hh : HeapPartR a b e)
    (hv : (e.deref (.child a)).iter.Valid = false) : HeapPartR (a + 1) b e := by
  apply heapPartR_frame hh rfl (fun _ _ => rfl)
  intro q
  cases q with
  | child l =>
    simp only [InHeapSpec]
    constructor
    · rintro ⟨h1, h2⟩
      by_cases hla : l = a
      · subst hla; rw [hv] at h2; exact absurd h2 (by decide)
      · exact ⟨by omega, h2⟩
    · rintro ⟨h1, h2⟩; exact ⟨by omega, h2⟩
  | pinned j => simp [InHeapSpec]

theorem heapPartR_push_pinned {a b : Nat} {e : MergingIterator UK} (hh : HeapPartR a b e)
    (hv : (e.rti b).Valid = true) : HeapPartR a (b + 1) (e.maxPush (.pinned b)) := by
  apply heapPartR_push hh (.pinned b)
  · simp [InHeapSpec]
  · intro q
    cases q with
    | child l => simp [InHeapSpec]
    | pinned j =>
      simp only [InHeapSpec, HeapItemPtr.pinned.injEq]
      constructor
      · rintro ⟨h1, h2⟩
        by_cases hla : j = b
        · exact Or.inl hla
        · exact Or.inr ⟨by omega, h2⟩
      · rintro (h | ⟨h1, h2⟩)
        · subst h; exact ⟨by omega, hv⟩
        · exact ⟨by omega, h2⟩

theorem heapPartR_skip_pinned {a b : Nat} {e : MergingIterator UK} (hh : HeapPartR a b e)
    (hv : (e.rti b).Valid = false) : HeapPartR a (b + 1) e := by
  apply heapPartR_frame hh rfl (fun _ _ => rfl)
  intro q
  cases q with
  | child l => simp [InHeapSpec]
  | pinned j =>
    simp only [InHeapSpec]
    constructor
    · rintro ⟨h1, h2⟩
      by_cases hla : j = b
      · subst hla; rw [hv] at h2; exact absurd h2 (by decide)
      · exact ⟨by omega, h2⟩
    · rintro ⟨h1, h2⟩; exact ⟨by omega, h2⟩

theorem upperBound_push {B : ParsedInternalKey UK} {e : MergingIterator UK}
    (hi : HeapInv e.maxCmp e.heap_) (hl : UpperBound B e) (p : HeapItemPtr)
    (hp : keyLe (hkey e p) B) : UpperBound B (e.maxPush p) := by
  intro q hq
  rw [(maxPush_heap e p hi).2.mem_iff] at hq
  rw [hkey_congr (deref_maxPush e p q)]
  rcases List.mem_cons.mp hq with h | h
  · subst h; exact hp
  · exact hl q h

theorem upperBound_frame {B : ParsedInternalKey UK} {e e' : MergingIterator UK}
    (hl : UpperBound B e) (hheap : e'.heap_ = e.heap_)
    (hd : ∀ p ∈ e.heap_.data_, e'.deref p = e.deref p) : UpperBound B e' := by
  intro q hq
  rw [hheap] at hq
  rw [hkey_congr (hd q hq)]
  exact hl q hq

theorem refill_childrenR {runs : List (List (ParsedInternalKey UK))}
    {tombs : List (Option (List (RangeTombstone UK)))} {B : ParsedInternalKey UK}
    {e : MergingIterator UK} (hb : Base runs tombs e) (lim : Nat) (hlim : lim ≤ runs.length)
    (hB : ∀ L, L < lim → cvalid e L = true → keyLe (ckey e L) B) :
    ∀ k, k ≤ lim → RefillInvR runs B e k 0
      ((List.range k).foldl
        (fun (e : MergingIterator UK) level => e.AddToMaxHeapOrCheckStatus (.child level))
        (e.ClearHeaps false).InitMaxHeap) := by
  intro k
  induction k with
  | zero =>
    intro _
    simp only [List.range_zero, List.foldl_nil]
    refine ⟨rfl, rfl, rfl, rfl, hb.status_ok, hb.no_upper_bound, ?_, ?_⟩
    · apply heapPartR_of_mem
      · simp [ClearHeaps, InitMaxHeap, BinaryHeap.clear]
      · intro p
        cases p <;> simp [InHeapSpec, ClearHeaps, InitMaxHeap, BinaryHeap.clear]
      · exact heapInv_clear _ (e.ClearHeaps false).heap_
    · intro p hp
      simp [ClearHeaps, InitMaxHeap, BinaryHeap.clear] at hp
  | succ k ih =>
    intro hk
    have ih' := ih (by omega)
    rw [List.range_succ, List.foldl_append]
    simp only [List.foldl_cons, List.foldl_nil]
    obtain ⟨ek, hek⟩ : ∃ ek, ek = (List.range k).foldl
        (fun (e : MergingIterator UK) level => e.AddToMaxHeapOrCheckStatus (.child level))
        (e.ClearHeaps false).InitMaxHeap := ⟨_, rfl⟩
    rw [← hek] at ih' ⊢
    have hd : ∀ p, ek.deref p = e.deref p := deref_eq_of_items e ek ih'.children ih'.pinned
    have hca := hb.child_at k (by omega)
    unfold AddToMaxHeapOrCheckStatus
    by_cases hv : (ek.deref (.child k)).iter.Valid = true
    · simp only [hv, ↓reduceIte]
      refine ⟨ih'.children, ih'.pinned, ih'.rtis, ih'.active, ih'.status, ih'.upper,
        heapPartR_push_child ih'.heap hv, ?_⟩
      apply upperBound_push ih'.heap.inv ih'.bound
      have hv0 : cvalid e k = true := by unfold cvalid; rw [← hd]; exact hv
      obtain ⟨_, _, _, _, _, _, hk0⟩ := base_ckeyR hb k (by omega) hv0
      rw [hkey_congr (hd _), hk0]
      exact hB k (by omega) hv0
    · simp only [hv, Bool.false_eq_true, ↓reduceIte]
      have hst : (ek.deref (.child k)).iter.status = Status.OK := by
        rw [hd]; exact childAt_status hca
      rw [hst, considerStatus_ok]
      exact ⟨ih'.children, ih'.pinned, ih'.rtis, ih'.active, ih'.status, ih'.upper,
        heapPartR_skip_child ih'.heap (by simpa using hv), ih'.bound⟩

theorem refill_pinnedR {runs : List (List (ParsedInternalKey UK))}
    {tombs : List (Option (List (RangeTombstone UK)))} {B : ParsedInternalKey UK}
    {e e1 : MergingIterator UK} {a : Nat} (hb : Base runs tombs e)
    (ht : TombPartR runs.length e) (lim : Nat) (hlim : lim ≤ runs.length)
    (hB : ∀ j, j < lim → (e.rti j).Valid = true → keyLe (hkey e (.pinned j)) B)
    (h1 : RefillInvR runs B e a 0 e1) :
    ∀ k, k ≤ lim → RefillInvR runs B e a k
      ((List.range k).foldl
        (fun (e : MergingIterator UK) level =>
          if (e.range_tombstone_iters_[level]?.getD none).isSome && (e.rti level).Valid then
            e.maxPush (.pinned level)
          else e) e1) := by
  intro k
  induction k with
  | zero => intro _; simpa using h1
  | succ k ih =>
    intro hk
    have ih' := ih (by omega)
    rw [List.range_succ, List.foldl_append]
    simp only [List.foldl_cons, List.foldl_nil]
    obtain ⟨ek, hek⟩ : ∃ ek, ek = (List.range k).foldl
        (fun (e : MergingIterator UK) level =>
          if (e.range_tombstone_iters_[level]?.getD none).isSome && (e.rti level).Valid then
            e.maxPush (.pinned level)
          else e) e1 := ⟨_, rfl⟩
    rw [← hek] at ih' ⊢
    have hd : ∀ p, ek.deref p = e.deref p := deref_eq_of_items e ek ih'.children ih'.pinned
    have hr : ∀ j, ek.rti j = e.rti j := rti_eq_of_iters e ek ih'.rtis
    have hkn : k < runs.length := by omega
    by_cases hv : (ek.rti k).Valid = true
    · have hslot : (ek.range_tombstone_iters_[k]?.getD none).isSome = true := by
        rw [base_rti_slot_of_valid k hv]; rfl
      simp only [hslot, hv, Bool.and_self, ↓reduceIte]
      have hv0 : (e.rti k).Valid = true := by rw [← hr]; exact hv
      have hpush : RefillInvR runs B e a (k + 1) (ek.maxPush (.pinned k)) := by
        refine ⟨ih'.children, ih'.pinned, ih'.rtis, ih'.active, ih'.status, ih'.upper,
          heapPartR_push_pinned ih'.heap hv, ?_⟩
        apply upperBound_push ih'.heap.inv ih'.bound
        rw [hkey_congr (hd _)]
        exact hB k (by omega) hv0
      exact hpush
    · have hv' : (ek.rti k).Valid = false := by simpa using hv
      simp only [hv', Bool.and_false, Bool.false_eq_true, ↓reduceIte]
      exact ⟨ih'.children, ih'.pinned, ih'.rtis, ih'.active, ih'.status, ih'.upper,
        heapPartR_skip_pinned ih'.heap hv', ih'.bound⟩

theorem tombPartR_of_eq_lt {c : Nat} {e e' : MergingIterator UK} (ht : TombPartR c e)
    (hd : ∀ j, j < c → e'.deref (.pinned j) = e.deref (.pinned j))
    (hr : ∀ j, j < c → e'.rti j = e.rti j)
    (ha : e'.active_ = e.active_) : TombPartR c e' :=
  { pinned_key := fun j hj hv => by
      rw [hr j hj] at hv
      exact pinnedCoherent_congr (hd j hj) (hr j hj) (ht.pinned_key j hj hv)
    active_iff := fun j => by
      rw [ha, ht.active_iff j]
      constructor
      · rintro ⟨h1, h2, h3⟩; rw [hd j h1, hr j h1]; exact ⟨h1, h2, h3⟩
      · rintro ⟨h1, h2, h3⟩; rw [hd j h1, hr j h1] at *; exact ⟨h1, h2, h3⟩
    active_sorted := by rw [ha]; exact ht.active_sorted }

theorem tombPartR_extend_invalid {c : Nat} {e : MergingIterator UK} (ht : TombPartR c e)
    (hv : (e.rti c).Valid = false) : TombPartR (c + 1) e :=
  { pinned_key := fun j hj hvj => by
      by_cases hjc : j = c
      · subst hjc; rw [hv] at hvj; exact absurd hvj (by decide)
      · exact ht.pinned_key j (by omega) hvj
    active_iff := fun j => by
      rw [ht.active_iff j]
      constructor
      · rintro ⟨h1, h2, h3⟩; exact ⟨by omega, h2, h3⟩
      · rintro ⟨h1, h2, h3⟩
        by_cases hjc : j = c
        · subst hjc; rw [hv] at h2; exact absurd h2 (by decide)
        · exact ⟨by omega, h2, h3⟩
    active_sorted := ht.active_sorted }

theorem mem_drop_getElem {α : Type} {l : List α} {q : Nat} {x : α} (h : x ∈ l.drop q) :
    ∃ i, q ≤ i ∧ l[i]? = some x := by
  obtain ⟨i, hi⟩ := List.mem_iff_getElem?.mp h
  rw [List.getElem?_drop] at hi
  exact ⟨q + i, by omega, hi⟩

/-- The end of one iteration of the main loop of `SeekForPrevImpl`: the child of the level,
sought before, joins the heap. -/
theorem seek_step_finishR {runs : List (List (ParsedInternalKey UK))}
    {tombs : List (Option (List (RangeTombstone UK)))} {e : MergingIterator UK}
    {B target : ParsedInternalKey UK} {s lv : Nat} {st : SeekLoopState UK}
    (hinv : SeekInvR runs tombs e B target s lv st) (hs : s ≤ lv) (hlv : lv < runs.length)
    (hB : keyLe target B)
    (em : MergingIterator UK) (csk' : ParsedInternalKey UK)
    (m1 : Base runs tombs em) (m2 : TombPartR (lv + 1) em) (m3 : HeapPartR lv (lv + 1) em)
    (m4 : UpperBound B em)
    (m6 : ∀ l, l ≠ lv → em.deref (.child l) = st.e.deref (.child l))
    (m6r : ∀ j, j ≠ lv → em.rti j = st.e.rti j)
    (m6p : ∀ j, j ≠ lv → em.deref (.pinned j) = st.e.deref (.pinned j))
    (m6a : ∀ j, j ≠ lv → (j ∈ em.active_ ↔ j ∈ st.e.active_))
    (m7 : childCnt em lv =
      ((runAt runs lv).takeWhile (fun k => Compare k st.current_search_key != .gt)).length)
    (m8u : csk'.user_key ≤ st.current_search_key.user_key)
    (m8 : ∀ r : ParsedInternalKey UK, r.sequence < kMaxSequenceNumber → keyLe r csk' →
      keyLe r st.current_search_key)
    (m9 : ∀ t ∈ (tombsAt tombs lv).drop (tombCnt em lv),
      st.current_search_key.user_key < t.start_key.user_key)
    (m10 : lv ∈ em.active_ →
      st.current_search_key.user_key < (em.rti lv).end_key.user_key)
    (m11 : ∀ t ∈ (tombsAt tombs lv).take (tombCnt em lv),
      t.start_key.user_key ≤ st.current_search_key.user_key)
    (m11a : (em.rti lv).Valid = true → (lv ∈ em.active_ ↔ keyLt target (em.rti lv).end_key))
    (m12 : ∀ l r, lv + 1 ≤ l → l < runs.length → r ∈ runAt runs l → keyLe r B →
      keyLt csk' r → suppressed tombs l r) :
    SeekInvR runs tombs e B target s (lv + 1)
      { e := em.AddToMaxHeapOrCheckStatus (.child lv), current_search_key := csk',
        prefetched_target := [] } := by
  -- the key of the child of this level
  have hckey : cvalid em lv = true → keyLe (ckey em lv) st.current_search_key := by
    intro hv
    obtain ⟨i, _, hidx, _, hrun, _, _⟩ := base_ckeyR m1 lv hlv hv
    exact seekForPrev_pos_before _ i _ (by rw [← m7, hidx]; omega) hrun
  have hcseq : cvalid em lv = true → (ckey em lv).sequence < kMaxSequenceNumber := by
    intro hv
    obtain ⟨i, _, _, _, _, hseq, _⟩ := base_ckeyR m1 lv hlv hv
    exact hseq
  -- the state after the child has joined the heap
  obtain ⟨e', he'⟩ : ∃ e', e' = em.AddToMaxHeapOrCheckStatus (.child lv) := ⟨_, rfl⟩
  rw [← he']
  have hitems : e'.children_ = em.children_ ∧ e'.pinned_heap_item_ = em.pinned_heap_item_ ∧
      e'.range_tombstone_iters_ = em.range_tombstone_iters_ ∧ e'.active_ = em.active_ ∧
      HeapPartR (lv + 1) (lv + 1) e' ∧ UpperBound B e' := by
    rw [he']
    unfold AddToMaxHeapOrCheckStatus
    by_cases hv : (em.deref (.child lv)).iter.Valid = true
    · simp only [hv, ↓reduceIte]
      refine ⟨rfl, rfl, rfl, rfl, heapPartR_push_child m3 hv, ?_⟩
      apply upperBound_push m3.inv m4
      obtain ⟨_, _, _, _, _, _, hk0⟩ := base_ckeyR m1 lv hlv hv
      rw [hk0]
      exact keyLe_trans (hinv.csk_rec _ (hcseq hv) (hckey hv)) hB
    · simp only [hv, Bool.false_eq_true, ↓reduceIte]
      rw [childAt_status (m1.child_at lv hlv), considerStatus_ok]
      exact ⟨rfl, rfl, rfl, rfl, heapPartR_skip_child m3 (by simpa using hv), m4⟩
  obtain ⟨h1, h2, h3, h4, h5, h6⟩ := hitems
  have hd : ∀ p, e'.deref p = em.deref p := deref_eq_of_items em e' h1 h2
  have hr : ∀ j, e'.rti j = em.rti j := rti_eq_of_iters em e' h3
  have hcv : ∀ l, cvalid e' l = cvalid em l := fun l => cvalid_congr (hd _)
  have hck : ∀ l, ckey e' l = ckey em l := fun l => ckey_congr (hd _)
  have hci : ∀ l, childCnt e' l = childCnt em l := fun l => childCnt_congr (hd _)
  have hti : ∀ j, tombCnt e' j = tombCnt em j := fun j => tombCnt_congr (hr j)
  have hcv0 : ∀ l, l ≠ lv → cvalid em l = cvalid st.e l := fun l hl => cvalid_congr (m6 l hl)
  have hck0 : ∀ l, l ≠ lv → ckey em l = ckey st.e l := fun l hl => ckey_congr (m6 l hl)
  have hci0 : ∀ l, l ≠ lv → childCnt em l = childCnt st.e l :=
    fun l hl => childCnt_congr (m6 l hl)
  have hti0 : ∀ j, j ≠ lv → tombCnt em j = tombCnt st.e j :=
    fun j hj => tombCnt_congr (m6r j hj)
  have hpt_mid : ∀ j, j ≤ lv → ∀ t ∈ (tombsAt tombs j).drop (tombCnt em j),
      st.current_search_key.user_key < t.start_key.user_key := by
    intro j hj t ht
    by_cases hjl : j = lv
    · subst hjl; exact m9 t ht
    · rw [hti0 j hjl] at ht
      exact hinv.pt' j (by omega) t ht
  have has_mid : ∀ j, j ≤ lv → j ∈ em.active_ →
      st.current_search_key.user_key < (em.rti j).end_key.user_key := by
    intro j hj hact
    by_cases hjl : j = lv
    · subst hjl; exact m10 hact
    · rw [m6r j hjl]
      exact hinv.as' j (by omega) ((m6a j hjl).mp hact)
  have hpa_mid : ∀ L idx r, L ≤ lv → childCnt em L ≤ idx → (runAt runs L)[idx]? = some r →
      keyLt st.current_search_key r := by
    intro L idx r hL hidx hrun
    by_cases hLl : L = lv
    · subst hLl
      rw [m7] at hidx
      exact seekForPrev_pos_after (base_sorted m1 L) _ idx r hidx hrun
    · rw [hci0 L hLl] at hidx
      exact hinv.pa L idx r (by omega) hidx hrun
  exact
    { base := base_of_eq m1 h1 h3 h2 (by
        rw [he']; unfold AddToMaxHeapOrCheckStatus
        split
        · exact m1.status_ok
        · rw [childAt_status (m1.child_at lv hlv), considerStatus_ok]; exact m1.status_ok)
        (by
        rw [he']; unfold AddToMaxHeapOrCheckStatus
        split
        · exact m1.no_upper_bound
        · rw [childAt_status (m1.child_at lv hlv), considerStatus_ok]
          exact m1.no_upper_bound)
      tomb := tombPartR_of_eq m2 (fun j => hd _) hr h4
      heap := h5
      bound := h6
      no_prefetch := rfl
      child_low := fun l hl => by rw [hd, m6 l (by omega)]; exact hinv.child_low l hl
      rti_low := fun j hj => by rw [hr, m6r j (by omega)]; exact hinv.rti_low j hj
      pinned_low := fun j hj => by rw [hd, m6p j (by omega)]; exact hinv.pinned_low j hj
      csk_uk := le_trans m8u hinv.csk_uk
      csk_rec := fun r hr1 hr2 => hinv.csk_rec r hr1 (m8 r hr1 hr2)
      pt := fun j L hjL hL hv t ht => by
        rw [hcv] at hv
        rw [hti] at ht
        rw [hck]
        by_cases hLl : L = lv
        · subst hLl
          exact lt_of_le_of_lt (keyLe_user_key (hckey hv)) (hpt_mid j hjL t ht)
        · rw [hcv0 L hLl] at hv
          rw [hck0 L hLl]
          rw [hti0 j (by omega)] at ht
          exact hinv.pt j L hjL (by omega) hv t ht
      pt' := fun j hj t ht => by
        rw [hti] at ht
        exact lt_of_le_of_lt m8u (hpt_mid j (by omega) t ht)
      as := fun j L hjL hL hv hact => by
        rw [hcv] at hv
        rw [h4] at hact
        rw [hck, hr]
        by_cases hLl : L = lv
        · subst hLl
          exact lt_of_le_of_lt (keyLe_user_key (hckey hv)) (has_mid j hjL hact)
        · rw [hcv0 L hLl] at hv
          rw [hck0 L hLl, m6r j (by omega)]
          exact hinv.as j L hjL (by omega) hv ((m6a j (by omega)).mp hact)
      as' := fun j hj hact => by
        rw [h4] at hact
        rw [hr]
        exact lt_of_le_of_lt m8u (has_mid j (by omega) hact)
      sp := fun l idx r hsl hl hidx hrun hBr => by
        rw [hci] at hidx
        by_cases hll : l = lv
        · subst hll
          have hlt := hpa_mid l idx r (le_refl _) hidx hrun
          exact hinv.cc l r (le_refl _) hlv (List.getElem?_mem hrun) hBr hlt
        · rw [hci0 l hll] at hidx
          exact hinv.sp l idx r hsl (by omega) hidx hrun hBr
      rt := fun l idx r hsl hl hidx hrun => by
        rw [hci] at hidx
        by_cases hll : l = lv
        · subst hll
          rw [m7] at hidx
          exact hinv.csk_rec r (base_seq_lt m1 l idx r hrun)
            (seekForPrev_pos_before _ idx r hidx hrun)
        · rw [hci0 l hll] at hidx
          exact hinv.rt l idx r hsl (by omega) hidx hrun
      rtt := fun j hsj hj t ht => by
        rw [hti] at ht
        by_cases hjl : j = lv
        · subst hjl
          exact le_trans (m11 t ht) hinv.csk_uk
        · rw [hti0 j hjl] at ht
          exact hinv.rtt j hsj (by omega) t ht
      act := fun j hsj hj hv => by
        rw [hr] at hv ⊢
        rw [h4]
        by_cases hjl : j = lv
        · subst hjl
          exact m11a hv
        · rw [m6r j hjl] at hv ⊢
          rw [m6a j hjl]
          exact hinv.act j hsj (by omega) hv
      cc := m12
      pa := fun L idx r hL hidx hrun => by
        rw [hci] at hidx
        have h0 := hpa_mid L idx r (by omega) hidx hrun
        rw [← not_keyLe_iff] at h0 ⊢
        exact fun hcon => h0 (m8 r (base_seq_lt m1 L idx r hrun) hcon)
      pab := fun L L' idx r hLL hL' hv hidx hrun => by
        rw [hcv] at hv
        rw [hci] at hidx
        rw [hck]
        by_cases hLl : L' = lv
        · subst hLl
          have h0 := hpa_mid L idx r (by omega) hidx hrun
          exact keyLe_of_keyLt (keyLt_of_keyLe_of_keyLt (hckey hv) h0)
        · rw [hcv0 L' hLl] at hv
          rw [hck0 L' hLl]
          rw [hci0 L (by omega)] at hidx
          exact hinv.pab L L' idx r hLL (by omega) hv hidx hrun }

/-- One iteration of the main loop of `SeekForPrevImpl` keeps the invariant. -/
theorem seek_stepR {runs : List (List (ParsedInternalKey UK))}
    {tombs : List (Option (List (RangeTombstone UK)))} {e : MergingIterator UK}
    {B target : ParsedInternalKey UK} {s lv : Nat} {st : SeekLoopState UK}
    (hinv : SeekInvR runs tombs e B target s lv st) (hs : s ≤ lv) (hlv : lv < runs.length)
    (hB : keyLe target B)
    (hBs : ∀ a : UK, a ≤ target.user_key → keyLe ⟨a, kMaxSequenceNumber, kTypeMaxValid⟩ B)
    (hT : ∀ a : UK, keyLt target ⟨a, kMaxSequenceNumber, kTypeRangeDeletion⟩ →
      target.user_key < a) :
    SeekInvR runs tombs e B target s (lv + 1) (SeekForPrevImplStep target st lv) := by
  have hlvc : lv < st.e.children_.length := by rw [hinv.base.children_len]; exact hlv
  obtain ⟨hca1, hpos1⟩ := childAt_seekForPrev (hinv.base.child_at lv hlv) st.current_search_key
  obtain ⟨e1, he1⟩ : ∃ e1, e1 = st.e.updIter (.child lv)
      (fun w => w.SeekForPrev st.current_search_key) := ⟨_, rfl⟩
  have hd1lv : e1.deref (.child lv) = { st.e.deref (.child lv) with
      iter := (st.e.deref (.child lv)).iter.SeekForPrev st.current_search_key } := by
    rw [he1]; exact deref_updIter_child_self st.e lv _ hlvc
  have hd1 : ∀ p, p ≠ .child lv → e1.deref p = st.e.deref p := by
    intro p hp; rw [he1]; exact deref_updIter_child_ne st.e lv _ p hp
  have hr1 : ∀ j, e1.rti j = st.e.rti j := by intro j; rw [he1]; exact rti_updIter st.e _ _ j
  have hheap1 : e1.heap_ = st.e.heap_ := by rw [he1]; rfl
  have hact1 : e1.active_ = st.e.active_ := by rw [he1]; cases st.e; rfl
  have hrtis1 : e1.range_tombstone_iters_ = st.e.range_tombstone_iters_ := by rw [he1]; rfl
  have hbase1 : Base runs tombs e1 := by rw [he1]; exact base_updIter hinv.base lv _ hlv hca1
  have hidx1 : childCnt e1 lv = ((runAt runs lv).takeWhile
      (fun k => Compare k st.current_search_key != .gt)).length := by
    apply childCnt_of_pos
    rw [cpos_eq, hd1lv]
    exact hpos1
  have hstat1 : (e1.deref (.child lv)).iter.status = Status.OK :=
    childAt_status (hbase1.child_at lv hlv)
  have hne1 : e1.range_tombstone_iters_.isEmpty = false := by
    cases hl : e1.range_tombstone_iters_ with
    | nil =>
      have := hbase1.rti_len
      rw [hl] at this
      simp at this
      omega
    | cons a t => rfl
  have htomb1 : TombPartR lv e1 :=
    tombPartR_of_eq hinv.tomb (fun j => hd1 _ (by simp)) hr1 hact1
  have hheapP1 : HeapPartR lv lv e1 :=
    heapPartR_frame_level hinv.heap hheap1 (fun l hl => hd1 _ (by simp; omega))
      (fun j _ => hd1 _ (by simp)) (fun j _ => hr1 j)
  have hlb1 : UpperBound B e1 := by
    apply upperBound_frame hinv.bound hheap1
    intro p hp
    apply hd1
    intro hpe
    subst hpe
    have := ((heapPartR_mem hinv.heap _).mp hp).1
    omega
  have hlvact : lv ∉ st.e.active_ := by
    intro h
    have := ((hinv.tomb.active_iff lv).mp h).1
    omega
  have hcc : ∀ l r, lv + 1 ≤ l → l < runs.length → r ∈ runAt runs l → keyLe r B →
      keyLt st.current_search_key r → suppressed tombs l r :=
    fun l r h1 h2 h3 h4 h5 => hinv.cc l r (by omega) h2 h3 h4 h5
  unfold SeekForPrevImplStep
  rw [← he1]
  simp only [hne1, Bool.not_false, ↓reduceIte, hstat1, Status.IsTryAgain, hinv.no_prefetch]
  cases hslot : e1.range_tombstone_iters_[lv]?.getD none with
  | none =>
    have hrd := rti_default_of_slot_none e1 lv hslot
    have hv : (e1.rti lv).Valid = false := by rw [hrd]; rfl
    have htl : tombsAt tombs lv = [] := by
      rw [← hbase1.rti_tombs lv hlv, hrd]; rfl
    simp only [hstat1, Status.IsTryAgain]
    refine seek_step_finishR hinv hs hlv hB e1 st.current_search_key hbase1
      (tombPartR_extend_invalid htomb1 hv) (heapPartR_skip_pinned hheapP1 hv) hlb1
      (fun l hl => hd1 _ (by simpa using hl)) (fun j _ => hr1 j) (fun j _ => hd1 _ (by simp))
      (fun j _ => by rw [hact1]) hidx1 (le_refl _) (fun r _ h => h) ?_ ?_ ?_ ?_ hcc
    · intro t ht; rw [htl] at ht; simp at ht
    · intro h; rw [hact1] at h; exact absurd h hlvact
    · intro t ht; rw [htl] at ht; simp at ht
    · intro h; rw [hv] at h; exact absurd h (by decide)
  | some it =>
    have hit := rti_of_slot_some e1 lv it hslot
    obtain ⟨hsp, hst⟩ := tseekForPrev_pos it st.current_search_key.user_key
    have htombs : it.tombstones = tombsAt tombs lv := by rw [← hit]; exact hbase1.rti_tombs lv hlv
    rw [htombs] at hsp hst
    obtain ⟨q, hq⟩ : ∃ q, q = ((tombsAt tombs lv).takeWhile
        (fun t => compare t.start_key.user_key st.current_search_key.user_key != .gt)).length :=
      ⟨_, rfl⟩
    rw [← hq] at hsp
    have hqle : q ≤ (tombsAt tombs lv).length := by rw [hq]; exact takeWhile_length_le _ _
    obtain ⟨e2, he2⟩ : ∃ e2, e2 = e1.setRti lv (it.SeekForPrev st.current_search_key.user_key) :=
      ⟨_, rfl⟩
    have hlvr : lv < e1.range_tombstone_iters_.length := by rw [hbase1.rti_len]; exact hlv
    have hr2lv : e2.rti lv = it.SeekForPrev st.current_search_key.user_key := by
      rw [he2]; exact rti_setRti_self e1 lv _ hlvr
    have hr2 : ∀ j, j ≠ lv → e2.rti j = st.e.rti j := by
      intro j hj; rw [he2, rti_setRti_ne e1 lv j _ (Ne.symm hj)]; exact hr1 j
    have hd2 : ∀ p, e2.deref p = e1.deref p := by intro p; rw [he2]; exact deref_setRti e1 _ _ p
    have hheap2 : e2.heap_ = e1.heap_ := by rw [he2]; rfl
    have hact2 : e2.active_ = st.e.active_ := by rw [he2]; exact hact1
    have hbase2 : Base runs tombs e2 := by
      rw [he2]
      refine base_setRti hbase1 lv _ hlv (by rw [hslot]; rfl) hst ?_
      intro i hi
      rw [hsp] at hi
      have := cntPos_some hi
      omega
    have htidx2 : tombCnt e2 lv = q := by
      apply tombCnt_of_pos
      rw [hr2lv, hsp]
    have hm9 : ∀ t ∈ (tombsAt tombs lv).drop q,
        st.current_search_key.user_key < t.start_key.user_key := by
      intro t ht
      obtain ⟨i, hi, hti⟩ := mem_drop_getElem ht
      rw [hq] at hi
      exact tseekForPrev_after (hbase1.wf.tombs_wf lv) _ i t hi hti
    have hm11 : ∀ t ∈ (tombsAt tombs lv).take q,
        t.start_key.user_key ≤ st.current_search_key.user_key := by
      intro t ht
      obtain ⟨i, hi, hti⟩ := mem_take_getElem ht
      rw [hq] at hi
      exact tseekForPrev_before _ i t hi hti
    have htomb2 : TombPartR lv e2 :=
      tombPartR_of_eq_lt htomb1 (fun j _ => hd2 _)
        (fun j hj => by rw [hr2 j (by omega), hr1]) (by rw [hact2, hact1])
    have hheapP2 : HeapPartR lv lv e2 :=
      heapPartR_frame_level hheapP1 hheap2 (fun l _ => hd2 _) (fun j _ => hd2 _)
        (fun j hj => by rw [hr2 j (by omega), hr1])
    have hlb2 : UpperBound B e2 := upperBound_frame hlb1 hheap2 (fun p _ => hd2 p)
    have hidx2 : childCnt e2 lv = ((runAt runs lv).takeWhile
        (fun k => Compare k st.current_search_key != .gt)).length := by
      rw [childCnt_congr (hd2 _)]; exact hidx1
    have hstat2 : (e2.deref (.child lv)).iter.status = Status.OK := by rw [hd2]; exact hstat1
    simp only []
    rw [← he2]
    by_cases hv2 : (e2.rti lv).Valid = true
    · simp only [hv2, ↓reduceIte]
      obtain ⟨isEnd, hisEnd⟩ : ∃ isEnd, isEnd =
          (Compare (e2.rti lv).end_key target != .gt) := ⟨_, rfl⟩
      rw [← hisEnd, insertMax_eq e2 lv isEnd false]
      simp only [Bool.false_eq_true, ↓reduceIte]
      obtain ⟨q2, hq2, _, hq2lt, hcur2, hwf2⟩ := base_curR hbase2 lv hlv hv2
      have hq2q : q = q2 + 1 := by
        rw [hr2lv, hsp] at hq2
        exact cntPos_some hq2
      have hstartle : (e2.rti lv).start_key.user_key ≤ st.current_search_key.user_key :=
        tseekForPrev_before _ q2 _ (by rw [← hq]; omega) hcur2
      have hendkey : (e2.rti lv).end_key = ⟨(e2.rti lv).end_key.user_key,
          kMaxSequenceNumber, kTypeRangeDeletion⟩ := by
        have h5 : (e2.rti lv).end_key.sequence = kMaxSequenceNumber := hwf2.end_seq
        have h8 : (e2.rti lv).end_key.type = kTypeRangeDeletion := hwf2.end_type
        rw [← h5, ← h8]
      obtain ⟨es, hes⟩ : ∃ es, es = stampPinnedR e2 lv isEnd := ⟨_, rfl⟩
      rw [← hes]
      have hlvp : lv < e2.pinned_heap_item_.length := by rw [hbase2.pinned_len]; exact hlv
      have hlvact2 : lv ∉ e2.active_ := by rw [hact2]; exact hlvact
      have hbases : Base runs tombs es := by rw [hes]; exact base_stampR hbase2 lv isEnd hlv
      have htombs : TombPartR (lv + 1) es := by
        rw [hes]
        exact tombPartR_stamp hbase2 htomb2 lv isEnd hlv hv2 (fun _ => hlvact2) (lv + 1)
          (by omega) (by omega) (fun i h1 h2 => by omega)
      have hrs : ∀ j, es.rti j = e2.rti j := by
        intro j; rw [hes]; exact stampR_rti e2 lv isEnd j
      have hds : ∀ p, p ≠ .pinned lv → es.deref p = e2.deref p := by
        intro p hp; rw [hes]; exact stampR_deref_ne e2 lv isEnd p hp
      have hheapPs : HeapPartR lv lv es :=
        heapPartR_frame_level hheapP2 (by rw [hes]; exact stampR_heap e2 lv isEnd)
          (fun l _ => hds _ (by simp)) (fun j hj => hds _ (by simp; omega)) (fun j _ => hrs j)
      have hlbs : UpperBound B es := by
        apply upperBound_frame hlb2 (by rw [hes]; exact stampR_heap e2 lv isEnd)
        intro p hp
        apply hds
        intro hpe
        subst hpe
        have := ((heapPartR_mem hheapP2 _).mp hp).1
        omega
      have hvs : (es.rti lv).Valid = true := by rw [hrs]; exact hv2
      have hkeys : keyLe (hkey es (.pinned lv)) B := by
        rw [hes, stampR_hkey_self e2 lv isEnd hlvp, (hbase2.pinned_at lv hlv).2]
        cases isEnd
        · simp only [Bool.false_eq_true, ↓reduceIte]
          have h5 : (e2.rti lv).start_key.sequence = kMaxSequenceNumber := hwf2.start_seq
          rw [h5]
          exact hBs _ (le_trans hstartle hinv.csk_uk)
        · simp only [↓reduceIte]
          have h5 : (e2.rti lv).end_key.sequence = kMaxSequenceNumber := hwf2.end_seq
          rw [h5]
          have h6 : keyLe (e2.rti lv).end_key target :=
            (cmp_ne_gt_iff_keyLe _ _).mp hisEnd.symm
          rw [hendkey] at h6
          have h7 : keyLt (⟨(e2.rti lv).end_key.user_key, kMaxSequenceNumber, kTypeMaxValid⟩ :
              ParsedInternalKey UK)
              ⟨(e2.rti lv).end_key.user_key, kMaxSequenceNumber, kTypeRangeDeletion⟩ :=
            Or.inr ⟨rfl, Or.inr ⟨rfl, (by decide : kTypeRangeDeletion < kTypeMaxValid)⟩⟩
          exact keyLe_trans (keyLe_of_keyLt h7) (keyLe_trans h6 hB)
      obtain ⟨e3, he3⟩ : ∃ e3, e3 = es.maxPush (.pinned lv) := ⟨_, rfl⟩
      rw [← he3]
      have hd3 : ∀ p, e3.deref p = es.deref p := by intro p; rw [he3]; exact deref_maxPush es _ p
      have hr3 : ∀ j, e3.rti j = es.rti j := by intro j; rw [he3]; rfl
      have hbase3 : Base runs tombs e3 := by rw [he3]; exact base_maxPush hbases _
      have htomb3 : TombPartR (lv + 1) e3 := by
        rw [he3]; exact tombPartR_of_eq htombs (fun j => deref_maxPush es _ _) (fun j => rfl) rfl
      have hheapP3 : HeapPartR lv (lv + 1) e3 := by
        rw [he3]; exact heapPartR_push_pinned hheapPs hvs
      have hlb3 : UpperBound B e3 := by
        rw [he3]; exact upperBound_push hheapPs.inv hlbs _ hkeys
      have hact3 : e3.active_ = if isEnd then st.e.active_ else setInsert lv st.e.active_ := by
        rw [he3]
        show es.active_ = _
        rw [hes, stampR_active, hact2]
      have hr3lv : e3.rti lv = e2.rti lv := by rw [hr3, hrs]
      have hm6 : ∀ l, l ≠ lv → e3.deref (.child l) = st.e.deref (.child l) := by
        intro l hl
        rw [hd3, hds _ (by simp), hd2, hd1 _ (by simpa using hl)]
      have hm6r : ∀ j, j ≠ lv → e3.rti j = st.e.rti j := by
        intro j hj; rw [hr3, hrs, hr2 j hj]
      have hm6p : ∀ j, j ≠ lv → e3.deref (.pinned j) = st.e.deref (.pinned j) := by
        intro j hj
        rw [hd3, hds _ (by simpa using hj), hd2, hd1 _ (by simp)]
      have hm6a : ∀ j, j ≠ lv → (j ∈ e3.active_ ↔ j ∈ st.e.active_) := by
        intro j hj
        rw [hact3]
        cases isEnd
        · simp [mem_setInsert, hj]
        · simp
      have hm7 : childCnt e3 lv = ((runAt runs lv).takeWhile
          (fun k => Compare k st.current_search_key != .gt)).length := by
        rw [childCnt_congr (show e3.deref (.child lv) = e2.deref (.child lv) from by
          rw [hd3, hds _ (by simp)])]
        exact hidx2
      have hm9' : ∀ t ∈ (tombsAt tombs lv).drop (tombCnt e3 lv),
          st.current_search_key.user_key < t.start_key.user_key := by
        rw [tombCnt_congr hr3lv, htidx2]; exact hm9
      have hm11' : ∀ t ∈ (tombsAt tombs lv).take (tombCnt e3 lv),
          t.start_key.user_key ≤ st.current_search_key.user_key := by
        rw [tombCnt_congr hr3lv, htidx2]; exact hm11
      have hactiff : lv ∈ e3.active_ ↔ keyLt target (e2.rti lv).end_key := by
        rw [hact3]
        cases isEnd
        · simp only [Bool.false_eq_true, ↓reduceIte, mem_setInsert, true_or, true_iff]
          rw [← not_keyLe_iff]
          intro hcon
          have := (cmp_ne_gt_iff_keyLe _ _).mpr hcon
          rw [← hisEnd] at this
          exact absurd this (by decide)
        · simp only [↓reduceIte]
          constructor
          · intro h; exact absurd h hlvact
          · intro h
            have h6 : keyLe (e2.rti lv).end_key target :=
              (cmp_ne_gt_iff_keyLe _ _).mp hisEnd.symm
            exact absurd h (not_keyLt_iff.mpr h6)
      have hm10 : lv ∈ e3.active_ →
          st.current_search_key.user_key < (e3.rti lv).end_key.user_key := by
        intro hact
        rw [hr3lv]
        have h6 := hactiff.mp hact
        rw [hendkey] at h6
        exact lt_of_le_of_lt hinv.csk_uk (hT _ h6)
      have hm11a : (e3.rti lv).Valid = true →
          (lv ∈ e3.active_ ↔ keyLt target (e3.rti lv).end_key) := by
        intro _
        rw [hr3lv]
        exact hactiff
      have hstat3 : (e3.deref (.child lv)).iter.status = Status.OK := by
        rw [hd3, hds _ (by simp)]; exact hstat2
      by_cases hcond : (compare st.current_search_key.user_key
          (e3.rti lv).end_key.user_key == .lt) = true
      · simp only [hcond, ↓reduceIte, hstat3, Status.IsTryAgain]
        have hendlt : st.current_search_key.user_key < (e2.rti lv).end_key.user_key := by
          rw [← hr3lv]
          exact compare_lt_iff_lt.mp ((ordering_beq_iff _ _).mp hcond)
        refine seek_step_finishR hinv hs hlv hB e3 _ hbase3 htomb3 hheapP3 hlb3 hm6 hm6r hm6p
          hm6a hm7 ?_ ?_ hm9' hm10 hm11' hm11a ?_
        · rw [hr3lv]
          exact hstartle
        · intro r hr1 hr2
          rw [hr3lv] at hr2
          have h1 := keyLe_boundary hr1 _ _ hr2
          exact keyLe_of_keyLt (Or.inl (lt_of_lt_of_le h1 hstartle))
        · intro l r h1 h2 h3 h4 h5
          by_cases hlt : keyLt st.current_search_key r
          · exact hcc l r h1 h2 h3 h4 hlt
          · have hle := keyLe_user_key (not_keyLt_iff.mp hlt)
            rw [hr3lv] at h5
            have hge0 := keyLt_user_key h5
            have hge : (e2.rti lv).start_key.user_key ≤ r.user_key := hge0
            left
            exact ⟨lv, by omega, (e2.rti lv).cur, List.getElem?_mem hcur2,
              hge, lt_of_le_of_lt hle hendlt⟩
      · simp only [hcond, Bool.false_eq_true, ↓reduceIte, hstat3, Status.IsTryAgain]
        exact seek_step_finishR hinv hs hlv hB e3 _ hbase3 htomb3 hheapP3 hlb3 hm6 hm6r hm6p
          hm6a hm7 (le_refl _) (fun r _ h => h) hm9' hm10 hm11' hm11a hcc
    · have hv2' : (e2.rti lv).Valid = false := by simpa using hv2
      simp only [hv2', Bool.false_eq_true, ↓reduceIte, hstat2, Status.IsTryAgain]
      refine seek_step_finishR hinv hs hlv hB e2 st.current_search_key hbase2
        (tombPartR_extend_invalid htomb2 hv2') (heapPartR_skip_pinned hheapP2 hv2') hlb2
        (fun l hl => by rw [hd2]; exact hd1 _ (by simpa using hl)) hr2
        (fun j _ => by rw [hd2]; exact hd1 _ (by simp))
        (fun j _ => by rw [hact2]) hidx2 (le_refl _) (fun r _ h => h) ?_ ?_ ?_ ?_ hcc
      · rw [htidx2]; exact hm9
      · intro h; rw [hact2] at h; exact absurd h hlvact
      · rw [htidx2]; exact hm11
      · intro h; rw [hv2'] at h; exact absurd h (by decide)

theorem seek_loopR {runs : List (List (ParsedInternalKey UK))}
    {tombs : List (Option (List (RangeTombstone UK)))} {e : MergingIterator UK}
    {B target : ParsedInternalKey UK} {s : Nat}
    (hB : keyLe target B)
    (hBs : ∀ a : UK, a ≤ target.user_key → keyLe ⟨a, kMaxSequenceNumber, kTypeMaxValid⟩ B)
    (hT : ∀ a : UK, keyLt target ⟨a, kMaxSequenceNumber, kTypeRangeDeletion⟩ →
      target.user_key < a) :
    ∀ (m lv : Nat) (st : SeekLoopState UK), lv + m = runs.length → s ≤ lv →
      SeekInvR runs tombs e B target s lv st →
      SeekInvR runs tombs e B target s runs.length
        ((List.range' lv m).foldl (SeekForPrevImplStep target) st) := by
  intro m
  induction m with
  | zero =>
    intro lv st hlen _ hinv
    simp only [List.range'_zero, List.foldl_nil]
    have : lv = runs.length := by omega
    rw [← this]; exact hinv
  | succ m ih =>
    intro lv st hlen hs hinv
    rw [List.range'_succ, List.foldl_cons]
    exact ih (lv + 1) _ (by omega) (by omega) (seek_stepR hinv hs (by omega) hB hBs hT)

theorem tombPartR_filter {runs : List (List (ParsedInternalKey UK))}
    {e e' : MergingIterator UK} {s : Nat} (hs : s ≤ runs.length)
    (ht : TombPartR runs.length e)
    (hd : ∀ p, e'.deref p = e.deref p) (hr : ∀ j, e'.rti j = e.rti j)
    (ha : e'.active_ = e.active_.filter (fun l => l < s)) : TombPartR s e' :=
  { pinned_key := fun j hj hv => by
      rw [hr] at hv
      exact pinnedCoherent_congr (hd _) (hr j) (ht.pinned_key j (by omega) hv)
    active_iff := fun j => by
      rw [ha, List.mem_filter, ht.active_iff j, hd, hr]
      simp only [decide_eq_true_eq]
      constructor
      · rintro ⟨⟨_, h2, h3⟩, h4⟩; exact ⟨h4, h2, h3⟩
      · rintro ⟨h1, h2, h3⟩; exact ⟨⟨by omega, h2, h3⟩, h1⟩
    active_sorted := by rw [ha]; exact ht.active_sorted.filter _ }

/-- The effect of `SeekForPrevImpl(target, s)` in a state of a backward scan. `B` is a key at
or after `target` such that every entry put back into the heap is at or before `B` and every
record of a level from `s` on that lies between `target` and `B` is deleted. -/
theorem seekForPrevImpl_spec {runs : List (List (ParsedInternalKey UK))}
    {tombs : List (Option (List (RangeTombstone UK)))} {e : MergingIterator UK}
    (hs : StructR runs tombs e) {s : Nat} (hsn : s < runs.length)
    (target B : ParsedInternalKey UK)
    (hpt : ∀ j L, j ≤ L → L < s → cvalid e L = true →
      ∀ t ∈ (tombsAt tombs j).drop (tombCnt e j), (ckey e L).user_key < t.start_key.user_key)
    (has : ∀ j L, j ≤ L → L < s → cvalid e L = true → j ∈ e.active_ →
      (ckey e L).user_key < (e.rti j).end_key.user_key)
    (hT1 : ∀ j, j < s → ∀ t ∈ (tombsAt tombs j).drop (tombCnt e j),
      target.user_key < t.start_key.user_key)
    (hT2 : ∀ j, j < s → j ∈ e.active_ → target.user_key < (e.rti j).end_key.user_key)
    (hB1 : keyLe target B)
    (hBs : ∀ a : UK, a ≤ target.user_key → keyLe ⟨a, kMaxSequenceNumber, kTypeMaxValid⟩ B)
    (hT : ∀ a : UK, keyLt target ⟨a, kMaxSequenceNumber, kTypeRangeDeletion⟩ →
      target.user_key < a)
    (hB2 : ∀ L, L < s → cvalid e L = true → keyLe (ckey e L) B)
    (hB3 : ∀ j, j < s → (e.rti j).Valid = true → keyLe (hkey e (.pinned j)) B)
    (hB5 : ∀ l r, s ≤ l → l < runs.length → r ∈ runAt runs l → keyLe r B → keyLt target r →
      suppressed tombs l r)
    (hPA : ∀ L idx r, L < s → childCnt e L ≤ idx → (runAt runs L)[idx]? = some r →
      keyLt target r)
    (hPAB : ∀ L L' idx r, L < L' → L' < s → cvalid e L' = true → childCnt e L ≤ idx →
      (runAt runs L)[idx]? = some r → keyLe (ckey e L') r) :
    StructR runs tombs (e.SeekForPrevImpl target s) ∧
      PassedTombsR runs tombs (e.SeekForPrevImpl target s) ∧
      ActiveEnded runs (e.SeekForPrevImpl target s) ∧
      PassedAbove runs (e.SeekForPrevImpl target s) ∧
      UpperBound B (e.SeekForPrevImpl target s) ∧
      (∀ l, l < s → (e.SeekForPrevImpl target s).deref (.child l) = e.deref (.child l)) ∧
      (∀ j, j < s → (e.SeekForPrevImpl target s).rti j = e.rti j) ∧
      (∀ j, j < s → (e.SeekForPrevImpl target s).deref (.pinned j) = e.deref (.pinned j)) ∧
      (∀ l idx r, s ≤ l → l < runs.length → childCnt (e.SeekForPrevImpl target s) l ≤ idx →
        (runAt runs l)[idx]? = some r → keyLe r B → suppressed tombs l r) ∧
      (∀ l idx r, s ≤ l → l < runs.length → idx < childCnt (e.SeekForPrevImpl target s) l →
        (runAt runs l)[idx]? = some r → keyLe r target) ∧
      (∀ j, s ≤ j → j < runs.length →
        ∀ t ∈ (tombsAt tombs j).take (tombCnt (e.SeekForPrevImpl target s) j),
          t.start_key.user_key ≤ target.user_key) ∧
      (∀ j, s ≤ j → j < runs.length → ((e.SeekForPrevImpl target s).rti j).Valid = true →
        (j ∈ (e.SeekForPrevImpl target s).active_ ↔
          keyLt target ((e.SeekForPrevImpl target s).rti j).end_key)) := by
  have hne : e.range_tombstone_iters_.isEmpty = false := by
    cases hl : e.range_tombstone_iters_ with
    | nil =>
      have := hs.base.rti_len
      rw [hl] at this
      simp at this
      omega
    | cons a t => rfl
  have h1 := refill_childrenR (B := B) hs.base s (by omega) hB2 s (le_refl s)
  obtain ⟨e1, he1⟩ : ∃ e1, e1 = (List.range s).foldl
      (fun (e : MergingIterator UK) level => e.AddToMaxHeapOrCheckStatus (.child level))
      (e.ClearHeaps false).InitMaxHeap := ⟨_, rfl⟩
  rw [← he1] at h1
  have h2 := refill_pinnedR hs.base hs.tomb s (by omega) hB3 h1 s (le_refl s)
  obtain ⟨e1a, he1a⟩ : ∃ e1a, e1a = (List.range s).foldl
      (fun (e : MergingIterator UK) level =>
        if (e.range_tombstone_iters_[level]?.getD none).isSome && (e.rti level).Valid then
          e.maxPush (.pinned level)
        else e) e1 := ⟨_, rfl⟩
  rw [← he1a] at h2
  have hne1 : e1.range_tombstone_iters_.isEmpty = false := by rw [h1.rtis]; exact hne
  obtain ⟨af, haf⟩ : ∃ af, af = e1a.active_.filter (fun l => l < s) := ⟨_, rfl⟩
  obtain ⟨e3, he3⟩ : ∃ e3 : MergingIterator UK,
      e3 = { e1a with active_ := af, status_ := Status.OK } := ⟨_, rfl⟩
  have hd3 : ∀ p, e3.deref p = e.deref p := by
    intro p
    rw [he3]
    exact deref_eq_of_items e _ h2.children h2.pinned p
  have hr3 : ∀ j, e3.rti j = e.rti j := by
    intro j
    rw [he3]
    exact rti_eq_of_iters e _ h2.rtis j
  have hact3 : e3.active_ = e.active_.filter (fun l => l < s) := by
    rw [he3]
    show af = _
    rw [haf, h2.active]
  have hheap3 : e3.heap_ = e1a.heap_ := by rw [he3]
  have hbase3 : Base runs tombs e3 := by
    rw [he3]
    exact base_of_eq hs.base h2.children h2.rtis h2.pinned rfl h2.upper
  have hinv0 : SeekInvR runs tombs e B target s s { e := e3, current_search_key := target } :=
    { base := hbase3
      tomb := tombPartR_filter (by omega) hs.tomb hd3 hr3 hact3
      heap := heapPartR_frame_level h2.heap hheap3
        (fun l _ => by rw [hd3]; exact (deref_eq_of_items e _ h2.children h2.pinned _).symm)
        (fun l _ => by rw [hd3]; exact (deref_eq_of_items e _ h2.children h2.pinned _).symm)
        (fun j _ => by rw [hr3]; exact (rti_eq_of_iters e _ h2.rtis j).symm)
      bound := upperBound_frame h2.bound hheap3
        (fun p _ => by rw [hd3]; exact (deref_eq_of_items e _ h2.children h2.pinned _).symm)
      no_prefetch := rfl
      child_low := fun l _ => hd3 _
      rti_low := fun j _ => hr3 j
      pinned_low := fun j _ => hd3 _
      csk_uk := le_refl _
      csk_rec := fun r _ h => h
      pt := fun j L hjL hL hv t ht => by
        rw [cvalid_congr (hd3 _)] at hv
        rw [tombCnt_congr (hr3 j)] at ht
        rw [ckey_congr (hd3 _)]
        exact hpt j L hjL hL hv t ht
      pt' := fun j hj t ht => by
        rw [tombCnt_congr (hr3 j)] at ht
        exact hT1 j hj t ht
      as := fun j L hjL hL hv hact => by
        rw [cvalid_congr (hd3 _)] at hv
        rw [hact3, List.mem_filter] at hact
        rw [ckey_congr (hd3 _), hr3]
        exact has j L hjL hL hv hact.1
      as' := fun j hj hact => by
        rw [hact3, List.mem_filter] at hact
        rw [hr3]
        exact hT2 j hj hact.1
      sp := fun l idx r h1 h2 => by omega
      rt := fun l idx r h1 h2 => by omega
      rtt := fun j h1 h2 => by omega
      act := fun j h1 h2 => by omega
      cc := fun l r h1 h2 h3 h4 h5 => hB5 l r h1 h2 h3 h4 h5
      pa := fun L idx r hL hidx hr => by
        rw [childCnt_congr (hd3 _)] at hidx
        exact hPA L idx r hL hidx hr
      pab := fun L L' idx r hLL hL' hv hidx hr => by
        rw [cvalid_congr (hd3 _)] at hv
        rw [childCnt_congr (hd3 _)] at hidx
        rw [ckey_congr (hd3 _)]
        exact hPAB L L' idx r hLL hL' hv hidx hr }
  have hfin := seek_loopR hB1 hBs hT (runs.length - s) s _ (by omega) (le_refl s) hinv0
  have hres : e.SeekForPrevImpl target s =
      ((List.range' s (runs.length - s)).foldl (SeekForPrevImplStep target)
        { e := e3, current_search_key := target }).e := by
    unfold SeekForPrevImpl
    simp only []
    rw [← he1]
    simp only [hne1, Bool.not_false, ↓reduceIte]
    rw [← he1a, ← haf, ← he3]
    have hlen : e1a.children_.length = runs.length := by
      rw [h2.children]; exact hs.base.children_len
    rw [hlen]
    have hne3 : (((List.range' s (runs.length - s)).foldl (SeekForPrevImplStep target)
        { e := e3, current_search_key := target }).e).range_tombstone_iters_.isEmpty = false := by
      cases hl : (((List.range' s (runs.length - s)).foldl (SeekForPrevImplStep target)
        { e := e3, current_search_key := target }).e).range_tombstone_iters_ with
      | nil =>
        have := hfin.base.rti_len
        rw [hl] at this
        simp at this
        omega
      | cons a t => rfl
    simp only [hne3, Bool.false_eq_true, ↓reduceIte, hfin.no_prefetch, List.foldl_nil]
  rw [hres]
  obtain ⟨stf, hstf⟩ : ∃ stf, stf = (List.range' s (runs.length - s)).foldl
      (SeekForPrevImplStep target) { e := e3, current_search_key := target } := ⟨_, rfl⟩
  rw [← hstf] at hfin ⊢
  refine ⟨⟨hfin.base, hfin.tomb, hfin.heap⟩, ?_, ?_, ?_, hfin.bound, hfin.child_low,
    hfin.rti_low, hfin.pinned_low, hfin.sp, hfin.rt, hfin.rtt, hfin.act⟩
  · intro j L hjL hL hv t ht
    exact hfin.pt j L hjL hL hv t ht
  · intro j L hjL hL hv hact
    exact hfin.as j L hjL hL hv hact
  · intro L L' idx r hLL hL' hv hidx hr
    exact hfin.pab L L' idx r hLL hL' hv hidx hr

theorem tauR_le {runs : List (List (ParsedInternalKey UK))}
    {tombs : List (Option (List (RangeTombstone UK)))} {e : MergingIterator UK}
    (hb : Base runs tombs e) (j : Nat) (hj : j < runs.length) :
    tauR e j ≤ 2 * (tombsAt tombs j).length := by
  unfold tauR
  have := tombCnt_le hb j hj
  omega

theorem digitR_lt {runs : List (List (ParsedInternalKey UK))}
    {tombs : List (Option (List (RangeTombstone UK)))} {e : MergingIterator UK}
    (hb : Base runs tombs e) (l : Nat) (hl : l < runs.length) :
    digitR tombs e l < digitBase runs tombs l := by
  unfold digitR digitBase
  have h1 := childCnt_le hb l hl
  have h2 := tauR_le hb l hl
  calc childCnt e l * (2 * (tombsAt tombs l).length + 1) + tauR e l
      ≤ (runAt runs l).length * (2 * (tombsAt tombs l).length + 1) + tauR e l :=
        Nat.add_le_add_right (Nat.mul_le_mul_right _ h1) _
    _ < (runAt runs l).length * (2 * (tombsAt tombs l).length + 1) +
          (2 * (tombsAt tombs l).length + 1) := by omega
    _ = ((runAt runs l).length + 1) * (2 * (tombsAt tombs l).length + 1) := by ring

theorem rankUpToR_lt {runs : List (List (ParsedInternalKey UK))}
    {tombs : List (Option (List (RangeTombstone UK)))} {e : MergingIterator UK}
    (hb : Base runs tombs e) : ∀ k, k ≤ runs.length →
      rankUpToR runs tombs e k < rankBound runs tombs k := by
  intro k
  induction k with
  | zero => intro _; simp [rankUpToR, rankBound]
  | succ k ih =>
    intro hk
    have h1 := ih (by omega)
    have h2 := digitR_lt hb k (by omega)
    unfold rankUpToR rankBound
    calc rankUpToR runs tombs e k * digitBase runs tombs k + digitR tombs e k
        < rankUpToR runs tombs e k * digitBase runs tombs k + digitBase runs tombs k := by omega
      _ = (rankUpToR runs tombs e k + 1) * digitBase runs tombs k := by ring
      _ ≤ rankBound runs tombs k * digitBase runs tombs k := Nat.mul_le_mul_right _ h1

theorem rankR_lt_bound {runs : List (List (ParsedInternalKey UK))}
    {tombs : List (Option (List (RangeTombstone UK)))} {e : MergingIterator UK}
    (hb : Base runs tombs e) : rankR runs tombs e < rankBound runs tombs runs.length :=
  rankUpToR_lt hb runs.length (le_refl _)

theorem rankUpToR_congr {runs : List (List (ParsedInternalKey UK))}
    {tombs : List (Option (List (RangeTombstone UK)))} {e e' : MergingIterator UK} :
    ∀ k, (∀ l, l < k → childCnt e' l = childCnt e l ∧ tauR e' l = tauR e l) →
      rankUpToR runs tombs e' k = rankUpToR runs tombs e k := by
  intro k
  induction k with
  | zero => intro _; rfl
  | succ k ih =>
    intro h
    unfold rankUpToR digitR
    rw [ih (fun l hl => h l (by omega)), (h k (by omega)).1, (h k (by omega)).2]

/-- Once ahead at a level of a backward scan, ahead for good. -/
theorem rankUpToR_lt_of_lt {runs : List (List (ParsedInternalKey UK))}
    {tombs : List (Option (List (RangeTombstone UK)))} {e : MergingIterator UK}
    (e' : MergingIterator UK) (hb : Base runs tombs e) :
    ∀ m k, k + m ≤ runs.length → rankUpToR runs tombs e k < rankUpToR runs tombs e' k →
      rankUpToR runs tombs e (k + m) < rankUpToR runs tombs e' (k + m) := by
  intro m
  induction m with
  | zero => intro k _ h; exact h
  | succ m ih =>
    intro k hk h
    have h1 := ih k (by omega) h
    have h2 := digitR_lt hb (k + m) (by omega)
    show rankUpToR runs tombs e (k + m + 1) < rankUpToR runs tombs e' (k + m + 1)
    unfold rankUpToR
    calc rankUpToR runs tombs e (k + m) * digitBase runs tombs (k + m) +
          digitR tombs e (k + m)
        < rankUpToR runs tombs e (k + m) * digitBase runs tombs (k + m) +
          digitBase runs tombs (k + m) := by omega
      _ = (rankUpToR runs tombs e (k + m) + 1) * digitBase runs tombs (k + m) := by ring
      _ ≤ rankUpToR runs tombs e' (k + m) * digitBase runs tombs (k + m) :=
          Nat.mul_le_mul_right _ h1
      _ ≤ rankUpToR runs tombs e' (k + m) * digitBase runs tombs (k + m) +
          digitR tombs e' (k + m) := Nat.le_add_right _ _

theorem rankR_lt_of_lexLtR {runs : List (List (ParsedInternalKey UK))}
    {tombs : List (Option (List (RangeTombstone UK)))} {e e' : MergingIterator UK}
    (hb' : Base runs tombs e') (h : LexLtR runs e e') :
    rankR runs tombs e' < rankR runs tombs e := by
  obtain ⟨l, hl, hlow, hat⟩ := h
  have h1 : rankUpToR runs tombs e' l = rankUpToR runs tombs e l := rankUpToR_congr l hlow
  have h2 : digitR tombs e' l < digitR tombs e l := by
    unfold digitR
    rcases hat with hlt | ⟨heq, hlt⟩
    · have ht := tauR_le hb' l hl
      calc childCnt e' l * (2 * (tombsAt tombs l).length + 1) + tauR e' l
          < childCnt e' l * (2 * (tombsAt tombs l).length + 1) +
            (2 * (tombsAt tombs l).length + 1) := by omega
        _ = (childCnt e' l + 1) * (2 * (tombsAt tombs l).length + 1) := by ring
        _ ≤ childCnt e l * (2 * (tombsAt tombs l).length + 1) :=
            Nat.mul_le_mul_right _ hlt
        _ ≤ childCnt e l * (2 * (tombsAt tombs l).length + 1) + tauR e l :=
            Nat.le_add_right _ _
    · rw [heq]; omega
  have h3 : rankUpToR runs tombs e' (l + 1) < rankUpToR runs tombs e (l + 1) := by
    unfold rankUpToR
    rw [h1]; omega
  have h4 := rankUpToR_lt_of_lt e hb' (runs.length - (l + 1)) (l + 1) (by omega) h3
  have h5 : l + 1 + (runs.length - (l + 1)) = runs.length := by omega
  rw [h5] at h4
  exact h4

theorem visibleOf_take_eq (tombs : List (Option (List (RangeTombstone UK)))) (l : Nat)
    (r : List (ParsedInternalKey UK)) :
    ∀ (d a : Nat), (∀ idx x, a ≤ idx → idx < a + d → r[idx]? = some x → suppressed tombs l x) →
      visibleOf tombs l (r.take (a + d)) = visibleOf tombs l (r.take a) := by
  intro d
  induction d with
  | zero => intro a _; rfl
  | succ d ih =>
    intro a h
    have h1 := ih a (fun idx x g1 g2 g3 => h idx x g1 (by omega) g3)
    rw [← h1]
    by_cases ha : a + d < r.length
    · have hs : suppressed tombs l r[a + d] :=
        h (a + d) _ (by omega) (by omega) (List.getElem?_eq_getElem ha)
      have h2 : r.take (a + (d + 1)) = r.take (a + d) ++ [r[a + d]] := by
        rw [show a + (d + 1) = a + d + 1 from rfl, List.take_succ,
          List.getElem?_eq_getElem ha]
        rfl
      rw [h2]
      unfold visibleOf
      rw [List.filter_append]
      simp [hs]
    · rw [List.take_of_length_le (by omega), List.take_of_length_le (by omega)]

theorem visibleOf_take_eq_of_between (tombs : List (Option (List (RangeTombstone UK))))
    (l : Nat) (r : List (ParsedInternalKey UK)) (a b : Nat)
    (h : ∀ idx x, min a b ≤ idx → idx < max a b → r[idx]? = some x → suppressed tombs l x) :
    visibleOf tombs l (r.take a) = visibleOf tombs l (r.take b) := by
  rcases Nat.le_total a b with hab | hab
  · have := visibleOf_take_eq tombs l r (b - a) a (fun idx x h1 h2 h3 =>
      h idx x (by rw [Nat.min_eq_left hab]; exact h1) (by rw [Nat.max_eq_right hab]; omega) h3)
    rw [← this]; congr 2; omega
  · have := visibleOf_take_eq tombs l r (a - b) b (fun idx x h1 h2 h3 =>
      h idx x (by rw [Nat.min_eq_right hab]; exact h1) (by rw [Nat.max_eq_left hab]; omega) h3)
    rw [← this]; congr 2; omega

theorem visRemR_eq_of_levels {runs : List (List (ParsedInternalKey UK))}
    {tombs : List (Option (List (RangeTombstone UK)))} {e e' : MergingIterator UK}
    (h : ∀ l, l < runs.length →
      visibleOf tombs l ((runAt runs l).take (childCnt e' l)) =
        visibleOf tombs l ((runAt runs l).take (childCnt e l))) :
    visRemR runs tombs e' = visRemR runs tombs e := by
  unfold visRemR
  apply List.flatMap_congr
  intro l hl
  exact h l (List.mem_range.mp hl)

theorem dir_addToMax (e : MergingIterator UK) (p : HeapItemPtr) :
    (e.AddToMaxHeapOrCheckStatus p).direction_ = e.direction_ := by
  unfold AddToMaxHeapOrCheckStatus
  split
  · rfl
  · exact dir_considerStatus e _

theorem dir_insertMax (e : MergingIterator UK) (j : Nat) (a b : Bool) :
    (e.InsertRangeTombstoneToMaxHeap j a b).direction_ = e.direction_ := by
  unfold InsertRangeTombstoneToMaxHeap
  simp only []
  split <;> split <;> first | rfl | exact dir_store e _ _

theorem dir_seekStepR (pik : ParsedInternalKey UK) (st : SeekLoopState UK) (lv : Nat) :
    (SeekForPrevImplStep pik st lv).e.direction_ = st.e.direction_ := by
  unfold SeekForPrevImplStep
  simp only []
  have h1 : (st.e.updIter (.child lv) (fun w => w.SeekForPrev st.current_search_key)).direction_ =
      st.e.direction_ := dir_updIter _ _ _
  repeat' split
  all_goals first
    | exact h1
    | (simp only [dir_addToMax, dir_insertMax]; exact h1)
    | (simp only [dir_addToMax, dir_insertMax, setRti]; exact h1)

theorem dir_foldl_stepR (pik : ParsedInternalKey UK) (l : List Nat) (st : SeekLoopState UK) :
    (l.foldl (SeekForPrevImplStep pik) st).e.direction_ = st.e.direction_ := by
  induction l generalizing st with
  | nil => rfl
  | cons a t ih => rw [List.foldl_cons, ih, dir_seekStepR]

theorem dir_seekTailR (target : ParsedInternalKey UK) (st : SeekLoopState UK) :
    (if st.e.range_tombstone_iters_.isEmpty then
      (List.range st.e.children_.length).foldl
        (fun (e : MergingIterator UK) level =>
          if (e.deref (.child level)).iter.status.IsTryAgain then
            (e.updIter (.child level) (fun w => w.SeekForPrev target)).AddToMaxHeapOrCheckStatus
              (.child level)
          else e) st.e
    else
      st.prefetched_target.foldl
        (fun (e : MergingIterator UK) prefetch =>
          (e.updIter (.child prefetch.1) (fun w => w.SeekForPrev prefetch.2)).AddToMaxHeapOrCheckStatus
            (.child prefetch.1)) st.e).direction_ = st.e.direction_ := by
  split
  · exact dir_foldl _ (fun e a => by
      split
      · rw [dir_addToMax, dir_updIter]
      · rfl) _ _
  · exact dir_foldl _ (fun e a => by rw [dir_addToMax, dir_updIter]) _ _

theorem dir_seekForPrevImpl (e : MergingIterator UK) (target : ParsedInternalKey UK) (s : Nat) :
    (e.SeekForPrevImpl target s).direction_ = e.direction_ := by
  unfold SeekForPrevImpl
  simp only []
  rw [dir_seekTailR, dir_foldl_stepR]
  show (if _ then _ else _ : MergingIterator UK).direction_ = _
  split
  · show (((List.range s).foldl _ _ : MergingIterator UK)).direction_ = _
    rw [dir_foldl _ (fun e a => by
      split
      · rfl
      · rfl)]
    rw [dir_foldl _ (fun e a => dir_addToMax e _)]
    rfl
  · rw [dir_foldl _ (fun e a => dir_addToMax e _)]
    rfl

theorem dir_retreatTop (e : MergingIterator UK) (s : Nat) :
    (retreatTop e s).direction_ = e.direction_ := by
  unfold retreatTop
  split
  · exact dir_updIter e _ _
  · exact dir_updIter e _ _

/-- Every record that a child has not passed in a backward scan is at or before the top of
the heap. -/
theorem remaining_le_top {runs : List (List (ParsedInternalKey UK))}
    {tombs : List (Option (List (RangeTombstone UK)))} {e : MergingIterator UK}
    (hs : StructR runs tombs e) {t : HeapItemPtr} (ht : e.heap_.top = some t) (l idx : Nat)
    (r : ParsedInternalKey UK) (hl : l < runs.length) (hidx : idx < childCnt e l)
    (hr : (runAt runs l)[idx]? = some r) : keyLe r (hkey e t) := by
  obtain ⟨_, hmin⟩ := structR_top hs ht
  have hv : cvalid e l = true := by
    by_contra hcon
    have := childCnt_invalid hs.base l hl (by simpa using hcon)
    omega
  obtain ⟨i, _, hi, _, hrun, _, hk⟩ := base_ckeyR hs.base l hl hv
  have h1 := hmin (.child l) ⟨hl, hv⟩
  rw [hk] at h1
  exact keyLe_trans (sortedRun_le (base_sorted hs.base l) (by omega) hr hrun) h1

/-- A state is ahead of another in a backward scan when nothing has changed below the level
`a`, nothing has fallen behind from `a` to `b`, and the child of level `b` is ahead. -/
theorem lexLtR_of_levels {runs : List (List (ParsedInternalKey UK))}
    {e e' : MergingIterator UK} (b : Nat) (hb : b < runs.length)
    (hmid : ∀ l, l ≤ b → childCnt e' l ≤ childCnt e l ∧
      (childCnt e' l = childCnt e l → tauR e' l ≤ tauR e l))
    (hstrict : childCnt e' b < childCnt e b) :
    ∀ d a, a + d = b →
      (∀ l, l < a → childCnt e' l = childCnt e l ∧ tauR e' l = tauR e l) →
      LexLtR runs e e' := by
  intro d
  induction d with
  | zero =>
    intro a hab hlow
    have : a = b := by omega
    subst this
    exact ⟨a, hb, hlow, Or.inl hstrict⟩
  | succ d ih =>
    intro a hab hlow
    obtain ⟨h1, h2⟩ := hmid a (by omega)
    by_cases hc : childCnt e' a = childCnt e a
    · by_cases ht : tauR e' a = tauR e a
      · apply ih (a + 1) (by omega)
        intro l hl
        by_cases hla : l = a
        · subst hla; exact ⟨hc, ht⟩
        · exact hlow l (by omega)
      · exact ⟨a, by omega, hlow, Or.inr ⟨hc, lt_of_le_of_ne (h2 hc) ht⟩⟩
    · exact ⟨a, by omega, hlow, Or.inl (lt_of_le_of_ne h1 hc)⟩

/-- The step of the visibility loop of a backward scan for a record that a tombstone of a
smaller level covers: the cascading seek to the start of that tombstone. -/
theorem skip_cascade_stepR {runs : List (List (ParsedInternalKey UK))}
    {tombs : List (Option (List (RangeTombstone UK)))} {e : MergingIterator UK}
    (hf : BwdT runs tombs e) {s i : Nat} (ht : e.heap_.top = some (.child s))
    (hi : i ∈ e.active_) (his : i < s) :
    BwdT runs tombs (e.SeekForPrevImpl (e.rti i).start_key (i + 1)) ∧
      LexLtR runs e (e.SeekForPrevImpl (e.rti i).start_key (i + 1)) ∧
      visRemR runs tombs (e.SeekForPrevImpl (e.rti i).start_key (i + 1)) =
        visRemR runs tombs e := by
  have hs := hf.struct
  obtain ⟨⟨hsn, hsv⟩, hmin⟩ := structR_top hs ht
  obtain ⟨i0, hi0, hidx0, hi0lt, hrun0, hseq0, hk0⟩ := base_ckeyR hs.base s hsn hsv
  obtain ⟨hin, hiv, _⟩ := (hs.tomb.active_iff i).mp hi
  obtain ⟨q, _, _, _, hcur, hwf⟩ := base_curR hs.base i hin hiv
  obtain ⟨hcm, hcov⟩ := active_coversR hf ht (Nat.le_of_lt his) hi
  obtain ⟨target, htarget⟩ : ∃ target, target = (e.rti i).start_key := ⟨_, rfl⟩
  rw [← htarget]
  have htseq : target.sequence = kMaxSequenceNumber := by rw [htarget]; exact hwf.start_seq
  have httype : target.type = kTypeRangeDeletion := by rw [htarget]; exact hwf.start_type
  have htuk : target.user_key ≤ (ckey e s).user_key := by rw [htarget]; exact hcov.1
  have hteq : target = ⟨target.user_key, kMaxSequenceNumber, kTypeRangeDeletion⟩ := by
    rw [← htseq, ← httype]
  have htlt : keyLt target (ckey e s) := by
    rw [hteq]
    exact boundary_keyLt hseq0 _ _ htuk
  obtain ⟨B0, hB01, hB02⟩ := hf.bound
  have hB0k : keyLe (ckey e s) B0 := by
    have := hB01 _ (top_max e hs.heap.inv _ ht).1
    rw [hk0] at this; exact this
  have hspec := seekForPrevImpl_spec hs (show i + 1 < runs.length by omega) target (ckey e s)
    (fun j L hjL hL hv t ht' => hf.passed_tombs j L hjL (by omega) hv t ht')
    (fun j L hjL hL hv hact => hf.active_ended j L hjL (by omega) hv hact)
    (fun j hj t ht' => lt_of_le_of_lt htuk (hf.passed_tombs j s (by omega) hsn hsv t ht'))
    (fun j hj hact => lt_of_le_of_lt htuk (hf.active_ended j s (by omega) hsn hsv hact))
    (keyLe_of_keyLt htlt)
    (fun a ha => keyLe_of_keyLt (boundary_keyLt hseq0 a _ (le_trans ha htuk)))
    (fun a ha => by
      rw [hteq] at ha
      rcases ha with ha | ⟨_, ha | ⟨_, ha⟩⟩
      · exact ha
      · exact absurd ha (lt_irrefl _)
      · exact absurd ha (lt_irrefl _))
    (fun L hL hv => by
      have h1 := hmin (.child L) ⟨by omega, hv⟩
      obtain ⟨_, _, _, _, _, _, hk⟩ := base_ckeyR hs.base L (by omega) hv
      rw [hk0, hk] at h1; exact h1)
    (fun j hj hv => by
      have h1 := hmin (.pinned j) ⟨by omega, hv⟩
      rw [hk0] at h1; exact h1)
    (fun l r hsl hl hr hBr hlt => by
      left
      have h1 := keyLt_user_key hlt
      rw [htarget] at h1
      exact ⟨i, by omega, _, hcm, h1, lt_of_le_of_lt (keyLe_user_key hBr) hcov.2⟩)
    (fun L idx r hL hidx hr =>
      keyLt_of_keyLt_of_keyLe htlt (hf.passed_above L s idx r (by omega) hsn hsv hidx hr))
    (fun L L' idx r hLL hL' hv hidx hr =>
      hf.passed_above L L' idx r hLL (by omega) hv hidx hr)
  obtain ⟨e', he'⟩ : ∃ e', e' = e.SeekForPrevImpl target (i + 1) := ⟨_, rfl⟩
  rw [← he'] at hspec ⊢
  obtain ⟨hst', hpt', has', hpa', hub', hcl, hrl, hpl, hsp, hrt, hrtt, hact⟩ := hspec
  have hidx_low : ∀ l, l < i + 1 → childCnt e' l = childCnt e l :=
    fun l hl => childCnt_congr (hcl l hl)
  -- the children of the levels up to `s` have not fallen behind
  have hchild : ∀ l, i + 1 ≤ l → l < s → childCnt e' l ≤ childCnt e l := by
    intro l hl1 hl2
    by_contra hcon
    have hlt : childCnt e l < childCnt e' l := by omega
    have hlen := childCnt_le hst'.base l (by omega)
    have hx := List.getElem?_eq_getElem (show childCnt e l < (runAt runs l).length by omega)
    have h1 := hrt l _ _ hl1 (by omega) hlt hx
    have h2 := hf.passed_above l s _ _ hl2 hsn hsv (le_refl _) hx
    exact (not_keyLe_iff.mpr htlt) (keyLe_trans h2 h1)
  have hchild_s : childCnt e' s < childCnt e s := by
    by_contra hcon
    have hlt : i0 < childCnt e' s := by omega
    have h1 := hrt s _ _ (by omega) hsn hlt hrun0
    exact (not_keyLe_iff.mpr htlt) h1
  -- the tombstone iterators of the levels up to `s` have not fallen behind
  have htomb : ∀ l, i + 1 ≤ l → l ≤ s → tombCnt e' l ≤ tombCnt e l := by
    intro l hl1 hl2
    by_contra hcon
    have hlt : tombCnt e l < tombCnt e' l := by omega
    have hlen := tombCnt_le hst'.base l (by omega)
    have hx := List.getElem?_eq_getElem (show tombCnt e l < (tombsAt tombs l).length by omega)
    have h1 := hrtt l hl1 (by omega) ((tombsAt tombs l)[tombCnt e l]) (List.mem_iff_getElem?.mpr
      ⟨tombCnt e l, by rw [List.getElem?_take]; simp [hlt, hx]⟩)
    have h2 := hf.passed_tombs l s hl2 hsn hsv ((tombsAt tombs l)[tombCnt e l])
      (List.mem_iff_getElem?.mpr ⟨0, by rw [List.getElem?_drop]; simpa using hx⟩)
    exact absurd (lt_of_le_of_lt (le_trans h1 htuk) h2) (lt_irrefl _)
  have htau : ∀ l, i + 1 ≤ l → l ≤ s → tauR e' l ≤ tauR e l := by
    intro l hl1 hl2
    have hln : l < runs.length := by omega
    have h1 := htomb l hl1 hl2
    by_cases hv' : (e'.rti l).Valid = true
    · obtain ⟨q', hq', hc', hq'lt, hcur', hwf'⟩ := base_curR hst'.base l hln hv'
      have hv0 : (e.rti l).Valid = true := by
        by_contra hcon
        have hpos : (e.rti l).pos = none := by
          cases hp : (e.rti l).pos with
          | none => rfl
          | some q => exact absurd ((tvalid_iff _).mpr ⟨q, hp⟩) hcon
        rw [tombCnt_none hpos] at h1
        omega
      obtain ⟨q0, hq0, hc0, hq0lt, hcur0, hwf0⟩ := base_curR hs.base l hln hv0
      by_cases hlt : tombCnt e' l < tombCnt e l
      · unfold tauR
        split <;> split <;> omega
      · have hqq : q' = q0 := by omega
        subst hqq
        have hcureq : (e'.rti l).cur = (e.rti l).cur := by
          rw [hcur'] at hcur0
          simpa using hcur0
        by_cases hty0 : (e.deref (.pinned l)).type = HeapItemType.DELETE_RANGE_START
        · have hact0 : l ∈ e.active_ := (hs.tomb.active_iff l).mpr ⟨hln, hv0, hty0⟩
          have hend := hf.active_ended l s hl2 hsn hsv hact0
          have hact' : l ∈ e'.active_ := by
            rw [hact l hl1 hln hv']
            have : (e'.rti l).end_key = (e.rti l).end_key := by
              unfold TruncatedRangeDelIterator.end_key
              rw [hcureq]
            rw [this]
            exact Or.inl (lt_of_le_of_lt htuk hend)
          have hty' := ((hst'.tomb.active_iff l).mp hact').2.2
          unfold tauR
          simp only [hv', hty', hv0, hty0, and_self, ↓reduceIte]
          omega
        · unfold tauR
          simp only [hv0, hty0, and_false, ↓reduceIte]
          omega
    · unfold tauR
      simp only [hv', false_and, ↓reduceIte]
      have hpos : (e'.rti l).pos = none := by
        cases hp : (e'.rti l).pos with
        | none => rfl
        | some q => exact absurd ((tvalid_iff _).mpr ⟨q, hp⟩) hv'
      rw [tombCnt_none hpos]
      omega
  refine ⟨⟨hst', hpt', has', hpa', ckey e s, hub', ?_⟩, ?_, ?_⟩
  · intro l idx r hl hidx hr hB
    by_cases hls : l < i + 1
    · rw [hidx_low l hls] at hidx
      exact hB02 l idx r hl hidx hr (keyLt_of_keyLt_of_keyLe hB hB0k)
    · exact hsp l idx r (by omega) hl hidx hr (keyLe_of_keyLt hB)
  · apply lexLtR_of_levels s hsn ?_ hchild_s (s - (i + 1)) (i + 1) (by omega)
    · intro l hl
      exact ⟨hidx_low l hl, tauR_congr (hrl l hl) (hpl l hl)⟩
    · intro l hl
      by_cases hli : l < i + 1
      · exact ⟨le_of_eq (hidx_low l hli),
          fun _ => le_of_eq (tauR_congr (hrl l hli) (hpl l hli))⟩
      · refine ⟨?_, fun _ => htau l (by omega) hl⟩
        by_cases hls : l = s
        · subst hls; exact le_of_lt hchild_s
        · exact hchild l (by omega) (by omega)
  · apply visRemR_eq_of_levels
    intro l hl
    by_cases hls : l < i + 1
    · rw [hidx_low l hls]
    · apply visibleOf_take_eq_of_between
      intro idx x h1 h2 hx
      by_cases hnew : childCnt e' l ≤ idx
      · -- passed now, not before: at or before the top
        have hold : idx < childCnt e l := by
          rcases Nat.le_total (childCnt e' l) (childCnt e l) with h | h
          · rw [Nat.max_eq_right h] at h2; exact h2
          · rw [Nat.max_eq_left h] at h2; omega
        have hle := remaining_le_top hs ht l idx x hl hold hx
        rw [hk0] at hle
        exact hsp l idx x (by omega) hl hnew hx hle
      · -- passed before, not now: before the target
        have hold : childCnt e l ≤ idx := by
          rcases Nat.le_total (childCnt e' l) (childCnt e l) with h | h
          · rw [Nat.min_eq_left h] at h1; omega
          · rw [Nat.min_eq_right h] at h1; exact h1
        have hle := hrt l idx x (by omega) hl (by omega) hx
        have hlt : keyLt x (ckey e s) := keyLt_of_keyLe_of_keyLt hle htlt
        exact hB02 l idx x hl hold hx (keyLt_of_keyLt_of_keyLe hlt hB0k)

/-- The step of the visibility loop of a backward scan for a record that the tombstone of its
own level deletes: the child steps back. -/
theorem skip_own_stepR {runs : List (List (ParsedInternalKey UK))}
    {tombs : List (Option (List (RangeTombstone UK)))} {e : MergingIterator UK}
    (hf : BwdT runs tombs e) {s : Nat} (ht : e.heap_.top = some (.child s))
    (hsup : suppressed tombs s (ckey e s)) :
    BwdT runs tombs (retreatTop e s) ∧ LexLtR runs e (retreatTop e s) ∧
      visRemR runs tombs (retreatTop e s) = visRemR runs tombs e := by
  have hs := hf.struct
  obtain ⟨⟨hsn, hsv⟩, hmin⟩ := structR_top hs ht
  obtain ⟨i0, hi0, hidx0, hi0lt, hrun0, hseq0, hk0⟩ := base_ckeyR hs.base s hsn hsv
  obtain ⟨hst', hpt', has', hpa', hlb', hpr', hd', hr', hact', hidx'⟩ := retreat_step hf ht
  have hidx_ne : ∀ l, l ≠ s → childCnt (retreatTop e s) l = childCnt e l :=
    fun l hl => childCnt_congr (hd' _ (by simpa using hl))
  refine ⟨⟨hst', hpt', has', hpa', ckey e s, hlb', hpr'⟩, ?_, ?_⟩
  · refine ⟨s, hsn, fun l hl => ⟨hidx_ne l (by omega), tauR_congr (hr' l) (hd' _ (by simp))⟩,
      Or.inl ?_⟩
    omega
  · apply visRemR_eq_of_levels
    intro l hl
    by_cases hls : l = s
    · subst hls
      rw [← hidx']
      exact (visibleOf_take_eq tombs l _ 1 _ (fun idx x h1 h2 hx => by
        have : idx = i0 := by omega
        rw [this, hrun0] at hx
        simp at hx
        subst hx
        exact hsup)).symm
    · rw [hidx_ne l hls]

/-- What `SkipPrevDeleted` does in a state of the visibility loop of a backward scan: it makes
one step, or it finds the record on top of the heap visible and leaves the state alone. -/
theorem skip_specR {runs : List (List (ParsedInternalKey UK))}
    {tombs : List (Option (List (RangeTombstone UK)))} {e : MergingIterator UK}
    (hf : BwdT runs tombs e) {t : HeapItemPtr} (ht : e.heap_.top = some t)
    (hns : (e.deref t).type ≠ HeapItemType.DELETE_RANGE_END) :
    (e.SkipPrevDeleted.2 = true ∧ BwdT runs tombs e.SkipPrevDeleted.1 ∧
      LexLtR runs e e.SkipPrevDeleted.1 ∧
      visRemR runs tombs e.SkipPrevDeleted.1 = visRemR runs tombs e ∧
      e.SkipPrevDeleted.1.direction_ = e.direction_) ∨
    (e.SkipPrevDeleted.2 = false ∧ e.SkipPrevDeleted.1 = e ∧
      ∃ s, t = .child s ∧ ¬ suppressed tombs s (ckey e s)) := by
  have hs := hf.struct
  obtain ⟨hspec, hmin⟩ := structR_top hs ht
  cases t with
  | pinned j =>
    obtain ⟨hj, hv⟩ := hspec
    have hty : (e.deref (.pinned j)).type = HeapItemType.DELETE_RANGE_START := by
      rcases hs.tomb.pinned_key j hj hv with ⟨h, _, _⟩ | ⟨h, _, _⟩
      · exact h
      · exact absurd h hns
    obtain ⟨h1, h2, h3, h4, h5⟩ := skip_start_step hf ht hty
    exact Or.inl ⟨h1, h2, h4, visRemR_congr h3, h5⟩
  | child s =>
    obtain ⟨hsn, hsv⟩ := hspec
    obtain ⟨hty, hlevel⟩ := structR_child_type hs hsn
    have hsent : (e.deref (.child s)).iter.IsDeleteRangeSentinelKey = false :=
      childAt_not_sentinel (hs.base.child_at s hsn)
    have hsupp := top_suppressed_iffR hf ht
    unfold SkipPrevDeleted
    simp only [ht, hty, hlevel, hsent, Bool.false_eq_true, ↓reduceIte,
      show (HeapItemType.ITERATOR == HeapItemType.DELETE_RANGE_START) = false from rfl]
    cases hhead : e.active_.head? with
    | none =>
      right
      refine ⟨rfl, rfl, s, rfl, ?_⟩
      have hnil : e.active_ = [] := by
        cases ha : e.active_ with
        | nil => rfl
        | cons a l => rw [ha] at hhead; simp at hhead
      rw [hsupp, hnil]
      simp
    | some i =>
      obtain ⟨hi, himin⟩ := head_sorted_min hs.tomb.active_sorted hhead
      simp only []
      by_cases his : i < s
      · left
        simp only [his, ↓reduceIte]
        obtain ⟨h1, h2, h3⟩ := skip_cascade_stepR hf ht hi his
        exact ⟨trivial, h1, h2, h3, dir_seekForPrevImpl e _ _⟩
      · simp only [his, ↓reduceIte]
        by_cases hieq : i = s
        · subst hieq
          simp only [beq_self_eq_true, ↓reduceIte]
          by_cases hseq : (e.deref (.child i)).iter.key.sequence < (e.rti i).seq
          · left
            simp only [hseq, ↓reduceIte]
            have hsup : suppressed tombs i (ckey e i) := hsupp.mpr (Or.inr ⟨hi, hseq⟩)
            obtain ⟨h1, h2, h3⟩ := skip_own_stepR hf ht hsup
            have heq : (if ((e.updIter (.child i) (fun w => w.Prev)).deref
                (.child i)).iter.Valid then
                  (e.updIter (.child i) (fun w => w.Prev)).maxReplaceTop (.child i)
                else (e.updIter (.child i) (fun w => w.Prev)).maxPop) = retreatTop e i := rfl
            by_cases hv : ((e.updIter (.child i) (fun w => w.Prev)).deref (.child i)).iter.Valid
                = true
            · simp only [hv, ↓reduceIte] at heq ⊢
              rw [heq]
              exact ⟨trivial, h1, h2, h3, dir_retreatTop e i⟩
            · simp only [hv, Bool.false_eq_true, ↓reduceIte] at heq ⊢
              rw [heq]
              exact ⟨trivial, h1, h2, h3, dir_retreatTop e i⟩
          · right
            simp only [hseq, ↓reduceIte]
            refine ⟨trivial, trivial, i, rfl, ?_⟩
            rw [hsupp]
            rintro (⟨j, hj, hji⟩ | ⟨_, h⟩)
            · have := himin j hj; omega
            · exact hseq h
        · right
          have hbeq : (i == s) = false := by simpa using hieq
          simp only [hbeq, Bool.false_eq_true, ↓reduceIte]
          refine ⟨trivial, trivial, s, rfl, ?_⟩
          rw [hsupp]
          rintro (⟨j, hj, hji⟩ | ⟨h, _⟩)
          · have := himin j hj; omega
          · have := himin s h; omega

/-- The loop of `PopDeleteRangeEnd` ends with enough fuel, in a state whose heap has no
end key on top. -/
theorem popEnd_loop {runs : List (List (ParsedInternalKey UK))}
    {tombs : List (Option (List (RangeTombstone UK)))} :
    ∀ (fuel : Nat) (e : MergingIterator UK), BwdT runs tombs e → endCount e < fuel →
      ∃ e', PopDeleteRangeEndLoop fuel e = some e' ∧ BwdT runs tombs e' ∧
        (∀ t, e'.heap_.top = some t → (e'.deref t).type ≠ HeapItemType.DELETE_RANGE_END) ∧
        visRemR runs tombs e' = visRemR runs tombs e ∧
        rankR runs tombs e' ≤ rankR runs tombs e ∧ e'.direction_ = e.direction_ := by
  intro fuel
  induction fuel with
  | zero => intro e _ h; omega
  | succ fuel ih =>
    intro e hf hc
    unfold PopDeleteRangeEndLoop
    cases ht : e.heap_.top with
    | none =>
      refine ⟨e, rfl, hf, ?_, rfl, le_refl _, rfl⟩
      intro t ht'; rw [ht] at ht'; simp at ht'
    | some t =>
      simp only []
      by_cases hty : (e.deref t).type = HeapItemType.DELETE_RANGE_END
      · simp only [hty, beq_self_eq_true, ↓reduceIte]
        obtain ⟨j, htj, hj, hv, hf', hd', hr', hperm, hty'⟩ := popEnd_step hf ht hty
        obtain ⟨e1, he1⟩ : ∃ e1, e1 = e.InsertRangeTombstoneToMaxHeap (e.deref t).level
            false true := ⟨_, rfl⟩
        rw [← he1] at hf' hd' hr' hperm hty' ⊢
        subst htj
        have hcount : endCount e1 + 1 = endCount e := by
          unfold endCount
          rw [hperm.countP_eq]
          apply countP_flip _ _ _ (.pinned j) hf.struct.heap.nodup
            (top_max e hf.struct.heap.inv _ ht).1
          · intro y hy; rw [hd' y hy]
          · simp [hty]
          · simp [hty']
        obtain ⟨e2, h1, h2, h3, h4, h5, h6⟩ := ih e1 hf' (by omega)
        have hlex : LexLtR runs e e1 := by
          refine ⟨j, hj, fun l hl => ⟨childCnt_congr (hd' _ (by simp)),
            tauR_congr (hr' l) (hd' _ (by simp; omega))⟩,
            Or.inr ⟨childCnt_congr (hd' _ (by simp)), ?_⟩⟩
          obtain ⟨q, _, hq, _⟩ := base_curR hf.struct.base j hj hv
          unfold tauR
          rw [tombCnt_congr (hr' j), hr' j, hty', hty]
          simp [hv]
          omega
        have hrank := rankR_lt_of_lexLtR hf'.struct.base hlex
        refine ⟨e2, h1, h2, h3, ?_, by omega, ?_⟩
        · rw [h4]; exact visRemR_congr (fun l => hd' _ (by simp))
        · rw [h6, he1]; exact dir_insertMax e _ _ _
      · have hbeq : ((e.deref t).type == HeapItemType.DELETE_RANGE_END) = false := by
          simpa using hty
        simp only [hbeq, Bool.false_eq_true, ↓reduceIte]
        refine ⟨e, rfl, hf, ?_, rfl, le_refl _, rfl⟩
        intro t' ht'
        rw [ht] at ht'
        simp at ht'
        subst ht'
        exact hty

theorem popEnd_spec {runs : List (List (ParsedInternalKey UK))}
    {tombs : List (Option (List (RangeTombstone UK)))} {e : MergingIterator UK}
    (hf : BwdT runs tombs e) :
    ∃ e', e.PopDeleteRangeEnd = some e' ∧ BwdT runs tombs e' ∧
      (∀ t, e'.heap_.top = some t → (e'.deref t).type ≠ HeapItemType.DELETE_RANGE_END) ∧
      visRemR runs tombs e' = visRemR runs tombs e ∧
      rankR runs tombs e' ≤ rankR runs tombs e ∧ e'.direction_ = e.direction_ := by
  unfold PopDeleteRangeEnd
  apply popEnd_loop _ e hf
  unfold endCount BinaryHeap.size
  have := List.countP_le_length (fun p => (e.deref p).type == HeapItemType.DELETE_RANGE_END)
    (l := e.heap_.data_)
  omega

/-- The visibility loop ends with enough fuel, and in a state with a visible record on top of
the heap or with an empty heap. -/
theorem findPrev_loop {runs : List (List (ParsedInternalKey UK))}
    {tombs : List (Option (List (RangeTombstone UK)))} :
    ∀ (fuel : Nat) (e : MergingIterator UK), BwdT runs tombs e →
      (∀ t, e.heap_.top = some t → (e.deref t).type ≠ HeapItemType.DELETE_RANGE_END) →
      rankR runs tombs e < fuel →
      ∃ e', FindPrevVisibleKeyLoop fuel e = some e' ∧ BwdT runs tombs e' ∧
        TopVisible tombs e' ∧ visRemR runs tombs e' = visRemR runs tombs e ∧
        e'.direction_ = e.direction_ := by
  intro fuel
  induction fuel with
  | zero =>
    intro e hf _ hr
    have := rankR_lt_bound hf.struct.base
    omega
  | succ fuel ih =>
    intro e hf hns hr
    unfold FindPrevVisibleKeyLoop
    cases ht : e.heap_.top with
    | none =>
      refine ⟨e, rfl, hf, ?_, rfl, rfl⟩
      intro t ht'; rw [ht] at ht'; simp at ht'
    | some t =>
      simp only []
      have hs := hf.struct
      obtain ⟨hspec, hmin⟩ := structR_top hs ht
      have hsent : (e.deref t).IsDeleteRangeSentinelKey = false := by
        unfold HeapItem.IsDeleteRangeSentinelKey
        cases t with
        | child s =>
          rw [childAt_not_sentinel (hs.base.child_at s hspec.1)]
          simp
        | pinned j =>
          rcases hs.tomb.pinned_key j hspec.1 hspec.2 with ⟨h, _, _⟩ | ⟨h, _, _⟩ <;>
            simp [h]
      rcases skip_specR hf ht (hns t ht) with ⟨h1, h2, h3, h4, h5⟩ | ⟨h1, h2, s, hts, hvis⟩
      · -- a step is made
        have hne : e.active_.isEmpty = false := by
          cases ha : e.active_ with
          | nil =>
            -- with no active level nothing can be skipped
            exfalso
            cases t with
            | child s =>
              have hty := (structR_child_type hs hspec.1).1
              have hsent' := childAt_not_sentinel (hs.base.child_at s hspec.1)
              unfold SkipPrevDeleted at h1
              simp only [ht, hty, hsent', ha, List.head?_nil, Bool.false_eq_true, ↓reduceIte,
                show (HeapItemType.ITERATOR == HeapItemType.DELETE_RANGE_START) = false from rfl]
                at h1
            | pinned j =>
              rcases hs.tomb.pinned_key j hspec.1 hspec.2 with ⟨h, _, _⟩ | ⟨h, _, _⟩
              · have := (hs.tomb.active_iff j).mpr ⟨hspec.1, hspec.2, h⟩
                rw [ha] at this
                simp at this
              · exact hns _ ht h
          | cons a l => rfl
        simp only [hne, Bool.not_false, Bool.true_or, ↓reduceIte, h1]
        obtain ⟨e2, hp1, hp2, hp3, hp4, hp5, hp6⟩ := popEnd_spec h2
        rw [hp1]
        simp only []
        have hrank := rankR_lt_of_lexLtR h2.struct.base h3
        obtain ⟨e3, hq1, hq2, hq3, hq4, hq5⟩ := ih e2 hp2 hp3 (by omega)
        refine ⟨e3, hq1, hq2, hq3, ?_, ?_⟩
        · rw [hq4, hp4, h4]
        · rw [hq5, hp6]; exact h5
      · -- the record on top is visible
        have hvis' : TopVisible tombs e := by
          intro t' ht'
          rw [ht] at ht'
          simp at ht'
          subst ht'
          exact ⟨s, hts, hvis⟩
        by_cases hne : e.active_.isEmpty = true
        · simp only [hne, Bool.not_true, hsent, Bool.or_self, Bool.false_eq_true, ↓reduceIte]
          exact ⟨e, rfl, hf, hvis', rfl, rfl⟩
        · simp only [hne, Bool.not_false, Bool.true_or, ↓reduceIte, h1, Bool.false_eq_true]
          rw [h2]
          exact ⟨e, rfl, hf, hvis', rfl, rfl⟩

theorem heap_empty_of_no_levelsR {runs : List (List (ParsedInternalKey UK))}
    {tombs : List (Option (List (RangeTombstone UK)))} {e : MergingIterator UK}
    (hs : StructR runs tombs e) (hn : runs.length = 0) : e.heap_.top = none := by
  cases ht : e.heap_.top with
  | none => rfl
  | some t =>
    have := (structR_top hs ht).1
    cases t with
    | child l => have := this.1; omega
    | pinned j => have := this.1; omega

theorem findPrev_spec {runs : List (List (ParsedInternalKey UK))}
    {tombs : List (Option (List (RangeTombstone UK)))} {e : MergingIterator UK}
    (hf : BwdT runs tombs e) (fuel : Nat) (hfuel : rankBound runs tombs runs.length ≤ fuel) :
    ∃ e', e.FindPrevVisibleKey fuel = some e' ∧ BwdT runs tombs e' ∧ TopVisible tombs e' ∧
      visRemR runs tombs e' = visRemR runs tombs e ∧ e'.direction_ = e.direction_ := by
  unfold FindPrevVisibleKey
  by_cases hemp : e.range_tombstone_iters_.isEmpty = true
  · simp only [hemp, ↓reduceIte]
    have hn : runs.length = 0 := by
      rw [← hf.struct.base.rti_len]
      cases hl : e.range_tombstone_iters_ with
      | nil => rfl
      | cons a t => rw [hl] at hemp; simp at hemp
    refine ⟨e, rfl, hf, ?_, rfl, rfl⟩
    intro t ht
    rw [heap_empty_of_no_levelsR hf.struct hn] at ht
    simp at ht
  · simp only [hemp, Bool.false_eq_true, ↓reduceIte]
    unfold FindPrevVisibleKeySlowPath
    obtain ⟨e1, h1, h2, h3, h4, h5, h6⟩ := popEnd_spec hf
    rw [h1]
    simp only []
    have hrk := rankR_lt_bound hf.struct.base
    obtain ⟨e2, g1, g2, g3, g4, g5⟩ := findPrev_loop fuel e1 h2 h3 (by omega)
    exact ⟨e2, g1, g2, g3, by rw [g4, h4], by rw [g5, h6]⟩

theorem flatMap_range_perm_cons {α : Type} (f g : Nat → List α) (k : α) :
    ∀ (n s : Nat), s < n → (f s).Perm (k :: g s) → (∀ l, l ≠ s → f l = g l) →
      ((List.range n).flatMap f).Perm (k :: (List.range n).flatMap g) := by
  intro n
  induction n with
  | zero => intro s hs; omega
  | succ n ih =>
    intro s hs hf hne
    rw [List.range_succ, List.flatMap_append, List.flatMap_append]
    simp only [List.flatMap_cons, List.flatMap_nil, List.append_nil]
    by_cases hsn : s = n
    · subst hsn
      have : (List.range s).flatMap f = (List.range s).flatMap g := by
        apply List.flatMap_congr
        intro l hl
        exact hne l (by have := List.mem_range.mp hl; omega)
      rw [this]
      exact (List.Perm.append_left _ hf).trans List.perm_middle
    · rw [hne n (Ne.symm hsn)]
      exact (ih s (by omega) hf hne).append_right _

theorem mem_visRemR {runs : List (List (ParsedInternalKey UK))}
    {tombs : List (Option (List (RangeTombstone UK)))} {e : MergingIterator UK}
    {x : ParsedInternalKey UK} (hx : x ∈ visRemR runs tombs e) :
    ∃ l idx, l < runs.length ∧ idx < childCnt e l ∧ (runAt runs l)[idx]? = some x ∧
      ¬ suppressed tombs l x := by
  unfold visRemR at hx
  rw [List.mem_flatMap] at hx
  obtain ⟨l, hl, hx⟩ := hx
  unfold visibleOf at hx
  rw [List.mem_filter] at hx
  obtain ⟨hmem, hvis⟩ := hx
  obtain ⟨i, hi⟩ := List.mem_iff_getElem?.mp hmem
  rw [List.getElem?_take] at hi
  by_cases hlt : i < childCnt e l
  · simp only [hlt, ↓reduceIte] at hi
    exact ⟨l, i, List.mem_range.mp hl, hlt, hi, by simpa using hvis⟩
  · simp [hlt] at hi

theorem visRemR_nil_of_empty {runs : List (List (ParsedInternalKey UK))}
    {tombs : List (Option (List (RangeTombstone UK)))} {e : MergingIterator UK}
    (hs : StructR runs tombs e) (ht : e.heap_.top = none) : visRemR runs tombs e = [] := by
  cases hv : visRemR runs tombs e with
  | nil => rfl
  | cons x xs =>
    exfalso
    have hx : x ∈ visRemR runs tombs e := by rw [hv]; exact List.mem_cons_self _ _
    obtain ⟨l, idx, hl, hidx, hr, _⟩ := mem_visRemR hx
    have hcv : cvalid e l = true := by
      by_contra hcon
      have := childCnt_invalid hs.base l hl (by simpa using hcon)
      omega
    have hmem := (hs.heap.mem_child l).mpr ⟨hl, hcv⟩
    rw [(top_none_iff e).mp ht] at hmem
    simp at hmem

/-- One call of `Prev()` in a backward scan emits the largest visible record that is left. -/
theorem prev_spec {runs : List (List (ParsedInternalKey UK))}
    {tombs : List (Option (List (RangeTombstone UK)))} {e : MergingIterator UK}
    (hi : ScanInvR runs tombs e) (hv : e.Valid = true) (fuel : Nat)
    (hfuel : rankBound runs tombs runs.length ≤ fuel) :
    ∃ e', e.Prev fuel = some e' ∧ ScanInvR runs tombs e' ∧
      (visRemR runs tombs e).Perm (e.key :: visRemR runs tombs e') ∧
      ∀ x ∈ visRemR runs tombs e, keyLe x e.key := by
  have hf := hi.fwd
  have hs := hf.struct
  have hcur : ∃ t, e.current_ = some t := by
    unfold Valid at hv
    cases hc : e.current_ with
    | none => rw [hc] at hv; simp at hv
    | some t => exact ⟨t, rfl⟩
  obtain ⟨t, hct⟩ := hcur
  have ht : e.heap_.top = some t := by rw [← hi.current]; exact hct
  obtain ⟨s, hts, hvis⟩ := hi.vis t ht
  subst hts
  obtain ⟨⟨hsn, hsv⟩, hmin⟩ := structR_top hs ht
  obtain ⟨i0, hi0, hidx0, hi0lt, hrun0, hseq0, hk0⟩ := base_ckeyR hs.base s hsn hsv
  have hkey : e.key = ckey e s := by
    unfold key ckey
    rw [hct]
  obtain ⟨hst', hpt', has', hpa', hlb', hpr', hd', hr', hact', hidx'⟩ := retreat_step hf ht
  have hf' : BwdT runs tombs (retreatTop e s) := ⟨hst', hpt', has', hpa', ckey e s, hlb', hpr'⟩
  obtain ⟨e4, g1, g2, g3, g4, g5⟩ := findPrev_spec hf' fuel hfuel
  have hnext : e.Prev fuel = some { e4 with current_ := e4.CurrentReverse } := by
    unfold Prev
    simp only [hct, hi.reverse, bne_self_eq_false, Bool.false_eq_true, ↓reduceIte]
    have hslen : s < e.children_.length := by rw [hs.base.children_len]; exact hsn
    have hca1 := (childAt_prev (hs.base.child_at s hsn) (by rw [← cpos_eq]; exact hi0)).1
    have hstat : ((e.updIter (.child s) (fun w => w.Prev)).deref (.child s)).iter.status =
        Status.OK := by
      rw [deref_updIter_child_self e s _ hslen]
      exact childAt_status hca1
    have htop : (e.updIter (.child s) (fun w => w.Prev)).heap_.top = some (.child s) := ht
    rw [htop]
    simp only []
    have : (if ((e.updIter (.child s) (fun w => w.Prev)).deref (.child s)).iter.Valid = true then
        (e.updIter (.child s) (fun w => w.Prev)).maxReplaceTop (.child s)
      else ((e.updIter (.child s) (fun w => w.Prev)).considerStatus
        ((e.updIter (.child s) (fun w => w.Prev)).deref (.child s)).iter.status).maxPop) =
        retreatTop e s := by
      unfold retreatTop
      rw [hstat, considerStatus_ok]
    rw [this, g1]
  have hidx_ne : ∀ l, l ≠ s → childCnt (retreatTop e s) l = childCnt e l :=
    fun l hl => childCnt_congr (hd' _ (by simpa using hl))
  refine ⟨_, hnext, ?_, ?_, ?_⟩
  · have hde : ∀ p, ({ e4 with current_ := e4.CurrentReverse } : MergingIterator UK).deref p =
        e4.deref p := fun p => deref_eq_of_items _ _ rfl rfl p
    refine ⟨⟨⟨base_of_eq g2.struct.base rfl rfl rfl g2.struct.base.status_ok
        g2.struct.base.no_upper_bound, tombPartR_of_eq g2.struct.tomb (fun j => rfl)
        (fun j => rfl) rfl, heapPartR_frame g2.struct.heap rfl (fun p _ => rfl)
        (fun q => by cases q <;> rfl)⟩, ?_, ?_, ?_, ?_⟩, ?_, rfl, ?_⟩
    · exact passedTombsR_congr g2.passed_tombs (fun l => rfl) (fun j => rfl)
    · intro j L hjL hL hvL hact
      exact g2.active_ended j L hjL hL hvL hact
    · exact passedAbove_congr g2.passed_above (fun l => rfl)
    · obtain ⟨B, hB1, hB2⟩ := g2.bound
      exact ⟨B, fun p hp => hB1 p hp, passedRecordsR_congr hB2 (fun l => rfl)⟩
    · intro t' ht'
      exact g3 t' ht'
    · show e4.direction_ = _
      rw [g5, dir_retreatTop]; exact hi.reverse
  · rw [hkey]
    have h1 : visRemR runs tombs ({ e4 with current_ := e4.CurrentReverse } :
        MergingIterator UK) = visRemR runs tombs (retreatTop e s) := by
      rw [← g4]
      exact visRemR_congr (fun l => rfl)
    rw [h1]
    unfold visRemR
    apply flatMap_range_perm_cons _ _ _ runs.length s hsn
    · have hcnt : childCnt (retreatTop e s) s = i0 := by omega
      rw [hcnt, hidx0, List.take_succ, hrun0]
      unfold visibleOf
      rw [List.filter_append]
      simp only [Option.toList_some, List.filter_cons, List.filter_nil, hvis, not_false_eq_true,
        decide_True, ↓reduceIte]
      exact List.perm_append_singleton _ _
    · intro l hl
      rw [hidx_ne l hl]
  · intro x hx
    obtain ⟨l, idx, hl, hidx, hr, _⟩ := mem_visRemR hx
    have := remaining_le_top hs ht l idx x hl hidx hr
    rw [hk0] at this
    rw [hkey]
    exact this

/-- The records that a backward scan collects from a state between two public calls: the
visible records that are left, in order. -/
theorem collectR_spec {runs : List (List (ParsedInternalKey UK))}
    {tombs : List (Option (List (RangeTombstone UK)))} (fuel : Nat)
    (hfuel : rankBound runs tombs runs.length ≤ fuel) :
    ∀ (n : Nat) (e : MergingIterator UK), ScanInvR runs tombs e →
      (visRemR runs tombs e).length ≤ n →
      ∃ out, collectBackward fuel n e = some out ∧ out.Perm (visRemR runs tombs e) ∧
        out.Pairwise (fun x y => keyLe y x) := by
  have hinvalid : ∀ e : MergingIterator UK, ScanInvR runs tombs e → e.Valid = false →
      visRemR runs tombs e = [] := by
    intro e hi hv
    apply visRemR_nil_of_empty hi.fwd.struct
    unfold Valid at hv
    rw [hi.fwd.struct.base.status_ok, hi.current] at hv
    cases ht : e.heap_.top with
    | none => rfl
    | some t => rw [ht] at hv; simp [Status.ok] at hv
  intro n
  induction n with
  | zero =>
    intro e hi hlen
    unfold collectBackward
    by_cases hv : e.Valid = true
    · exfalso
      obtain ⟨e', _, _, hperm, _⟩ := prev_spec hi hv fuel hfuel
      have := hperm.length_eq
      simp at this
      omega
    · simp only [hv, Bool.false_eq_true, ↓reduceIte]
      refine ⟨[], rfl, ?_, List.Pairwise.nil⟩
      rw [hinvalid e hi (by simpa using hv)]
  | succ n ih =>
    intro e hi hlen
    unfold collectBackward
    by_cases hv : e.Valid = true
    · simp only [hv, ↓reduceIte]
      obtain ⟨e', hnext, hi', hperm, hmin⟩ := prev_spec hi hv fuel hfuel
      rw [hnext]
      simp only []
      have hlen' : (visRemR runs tombs e').length ≤ n := by
        have := hperm.length_eq
        simp at this
        omega
      obtain ⟨out, hout, hp, hsorted⟩ := ih e' hi' hlen'
      rw [hout]
      refine ⟨e.key :: out, rfl, ?_, ?_⟩
      · exact (List.Perm.cons _ hp).trans hperm.symm
      · rw [List.pairwise_cons]
        refine ⟨?_, hsorted⟩
        intro x hx
        apply hmin
        exact hperm.symm.subset (List.mem_cons_of_mem _ (hp.subset hx))
    · simp only [hv, Bool.false_eq_true, ↓reduceIte]
      refine ⟨[], rfl, ?_, List.Pairwise.nil⟩
      rw [hinvalid e hi (by simpa using hv)]

theorem lastA_loop {runs : List (List (ParsedInternalKey UK))}
    {tombs : List (Option (List (RangeTombstone UK)))} {e0 : MergingIterator UK}
    (h0 : LastA runs tombs 0 e0) :
    ∀ k, k ≤ runs.length → LastA runs tombs k
      ((List.range k).foldl
        (fun (e : MergingIterator UK) level =>
          (e.updIter (.child level) (fun w => w.SeekToLast)).AddToMaxHeapOrCheckStatus
            (.child level)) e0) := by
  intro k
  induction k with
  | zero => intro _; simpa using h0
  | succ k ih =>
    intro hk
    have ih' := ih (by omega)
    rw [List.range_succ, List.foldl_append]
    simp only [List.foldl_cons, List.foldl_nil]
    obtain ⟨ek, hek⟩ : ∃ ek, ek = (List.range k).foldl
        (fun (e : MergingIterator UK) level =>
          (e.updIter (.child level) (fun w => w.SeekToLast)).AddToMaxHeapOrCheckStatus
            (.child level)) e0 := ⟨_, rfl⟩
    rw [← hek] at ih' ⊢
    have hkn : k < runs.length := by omega
    have hkc : k < ek.children_.length := by rw [ih'.base.children_len]; exact hkn
    obtain ⟨hca1, hpos1⟩ := childAt_seekToLast (ih'.base.child_at k hkn)
    obtain ⟨e1, he1⟩ : ∃ e1, e1 = ek.updIter (.child k) (fun w => w.SeekToLast) := ⟨_, rfl⟩
    rw [← he1]
    have hd1k : e1.deref (.child k) = { ek.deref (.child k) with
        iter := (ek.deref (.child k)).iter.SeekToLast } := by
      rw [he1]; exact deref_updIter_child_self ek k _ hkc
    have hd1 : ∀ p, p ≠ .child k → e1.deref p = ek.deref p := by
      intro p hp; rw [he1]; exact deref_updIter_child_ne ek k _ p hp
    have hr1 : ∀ j, e1.rti j = ek.rti j := by intro j; rw [he1]; exact rti_updIter ek _ _ j
    have hheap1 : e1.heap_ = ek.heap_ := by rw [he1]; rfl
    have hact1 : e1.active_ = [] := by rw [he1, ← ih'.active]; cases ek; rfl
    have hbase1 : Base runs tombs e1 := by rw [he1]; exact base_updIter ih'.base k _ hkn hca1
    have hidx1 : childCnt e1 k = (runAt runs k).length := by
      apply childCnt_of_pos
      rw [cpos_eq, hd1k, hpos1]
    have hidx1' : ∀ l, l < k → childCnt e1 l = (runAt runs l).length := by
      intro l hl
      rw [childCnt_congr (hd1 _ (by simp; omega))]
      exact ih'.idx l hl
    have hheapP1 : HeapPartR k 0 e1 :=
      heapPartR_frame_level ih'.heap hheap1 (fun l hl => hd1 _ (by simp; omega))
        (fun j hj => by omega) (fun j hj => by omega)
    have hall : ∀ l, l < k + 1 → childCnt e1 l = (runAt runs l).length := by
      intro l hl
      by_cases hlk : l = k
      · subst hlk; exact hidx1
      · exact hidx1' l (by omega)
    unfold AddToMaxHeapOrCheckStatus
    by_cases hv : (e1.deref (.child k)).iter.Valid = true
    · simp only [hv, ↓reduceIte]
      exact ⟨base_maxPush hbase1 _, hact1, heapPartR_push_child hheapP1 hv,
        fun l hl => by rw [childCnt_congr (deref_maxPush e1 _ _)]; exact hall l hl⟩
    · simp only [hv, Bool.false_eq_true, ↓reduceIte]
      rw [childAt_status (hbase1.child_at k hkn), considerStatus_ok]
      exact ⟨hbase1, hact1, heapPartR_skip_child hheapP1 (by simpa using hv), hall⟩

theorem lastB_loop {runs : List (List (ParsedInternalKey UK))}
    {tombs : List (Option (List (RangeTombstone UK)))} {e0 : MergingIterator UK}
    (h0 : LastB runs tombs 0 e0) :
    ∀ k, k ≤ runs.length → LastB runs tombs k
      ((List.range k).foldl
        (fun (e : MergingIterator UK) i =>
          match e.range_tombstone_iters_[i]?.getD none with
          | some it =>
            let e := e.setRti i it.SeekToLast
            if (e.rti i).Valid then e.InsertRangeTombstoneToMaxHeap i true false else e
          | none => e) e0) := by
  intro k
  induction k with
  | zero => intro _; simpa using h0
  | succ k ih =>
    intro hk
    have ih' := ih (by omega)
    rw [List.range_succ, List.foldl_append]
    simp only [List.foldl_cons, List.foldl_nil]
    obtain ⟨ek, hek⟩ : ∃ ek, ek = (List.range k).foldl
        (fun (e : MergingIterator UK) i =>
          match e.range_tombstone_iters_[i]?.getD none with
          | some it =>
            let e := e.setRti i it.SeekToLast
            if (e.rti i).Valid then e.InsertRangeTombstoneToMaxHeap i true false else e
          | none => e) e0 := ⟨_, rfl⟩
    rw [← hek] at ih' ⊢
    have hkn : k < runs.length := by omega
    have hkact : k ∉ ek.active_ := by rw [ih'.active]; simp
    cases hslot : ek.range_tombstone_iters_[k]?.getD none with
    | none =>
      simp only []
      have hrd := rti_default_of_slot_none ek k hslot
      have hv : (ek.rti k).Valid = false := by rw [hrd]; rfl
      refine ⟨ih'.base, ih'.active, tombPartR_extend_invalid ih'.tomb hv,
        heapPartR_skip_pinned ih'.heap hv, ih'.idx, ?_⟩
      intro j hj
      by_cases hjk : j = k
      · subst hjk
        have ht0 : tombsAt tombs j = [] := by
          rw [← ih'.base.rti_tombs j hkn, hrd]; rfl
        unfold tombCnt
        rw [hrd, ht0]; rfl
      · exact ih'.tidx j (by omega)
    | some it =>
      simp only []
      have hit := rti_of_slot_some ek k it hslot
      obtain ⟨hsp, hst⟩ := tseekToLast_pos it
      have htombs : it.tombstones = tombsAt tombs k := by
        rw [← hit]; exact ih'.base.rti_tombs k hkn
      rw [htombs] at hsp hst
      obtain ⟨e2, he2⟩ : ∃ e2, e2 = ek.setRti k it.SeekToLast := ⟨_, rfl⟩
      rw [← he2]
      have hkr : k < ek.range_tombstone_iters_.length := by rw [ih'.base.rti_len]; exact hkn
      have hr2k : e2.rti k = it.SeekToLast := by rw [he2]; exact rti_setRti_self ek k _ hkr
      have hr2 : ∀ j, j ≠ k → e2.rti j = ek.rti j := by
        intro j hj; rw [he2, rti_setRti_ne ek k j _ (Ne.symm hj)]
      have hd2 : ∀ p, e2.deref p = ek.deref p := by intro p; rw [he2]; exact deref_setRti ek _ _ p
      have hheap2 : e2.heap_ = ek.heap_ := by rw [he2]; rfl
      have hact2 : e2.active_ = [] := by rw [he2, ← ih'.active]; rfl
      have hbase2 : Base runs tombs e2 := by
        rw [he2]
        refine base_setRti ih'.base k _ hkn (by rw [hslot]; rfl) hst ?_
        intro i hi
        rw [hsp] at hi
        have := cntPos_some hi
        omega
      have htidx2 : tombCnt e2 k = (tombsAt tombs k).length := by
        apply tombCnt_of_pos
        rw [hr2k, hsp]
      have htomb2 : TombPartR k e2 :=
        tombPartR_of_eq_lt ih'.tomb (fun j _ => hd2 _) (fun j hj => hr2 j (by omega))
          (by rw [hact2, ih'.active])
      have hheapP2 : HeapPartR runs.length k e2 :=
        heapPartR_frame_level ih'.heap hheap2 (fun l _ => hd2 _) (fun j _ => hd2 _)
          (fun j hj => hr2 j (by omega))
      have hidx2 : ∀ l, l < runs.length → childCnt e2 l = (runAt runs l).length := by
        intro l hl; rw [childCnt_congr (hd2 _)]; exact ih'.idx l hl
      have htall : ∀ e' : MergingIterator UK, (∀ j, e'.rti j = e2.rti j) →
          ∀ j, j < k + 1 → tombCnt e' j = (tombsAt tombs j).length := by
        intro e' hr j hj
        rw [tombCnt_congr (hr j)]
        by_cases hjk : j = k
        · subst hjk; exact htidx2
        · rw [tombCnt_congr (hr2 j hjk)]; exact ih'.tidx j (by omega)
      by_cases hv2 : (e2.rti k).Valid = true
      · simp only [hv2, ↓reduceIte]
        rw [insertMax_eq e2 k true false]
        simp only [Bool.false_eq_true, ↓reduceIte]
        obtain ⟨es, hes⟩ : ∃ es, es = stampPinnedR e2 k true := ⟨_, rfl⟩
        rw [← hes]
        have hbases : Base runs tombs es := by rw [hes]; exact base_stampR hbase2 k true hkn
        have htombs' : TombPartR (k + 1) es := by
          rw [hes]
          exact tombPartR_stamp hbase2 htomb2 k true hkn hv2
            (fun _ => by rw [hact2]; simp) (k + 1) (by omega) (by omega)
            (fun i h1 h2 => by omega)
        have hrs : ∀ j, es.rti j = e2.rti j := by
          intro j; rw [hes]; exact stampR_rti e2 k true j
        have hds : ∀ p, p ≠ .pinned k → es.deref p = e2.deref p := by
          intro p hp; rw [hes]; exact stampR_deref_ne e2 k true p hp
        have hheapPs : HeapPartR runs.length k es :=
          heapPartR_frame_level hheapP2 (by rw [hes]; exact stampR_heap e2 k true)
            (fun l _ => hds _ (by simp)) (fun j hj => hds _ (by simp; omega)) (fun j _ => hrs j)
        have hvs : (es.rti k).Valid = true := by rw [hrs]; exact hv2
        have hacts : es.active_ = [] := by rw [hes, stampR_active]; exact hact2
        refine ⟨base_maxPush hbases _, hacts,
          tombPartR_of_eq htombs' (fun j => deref_maxPush es _ _) (fun j => rfl) rfl,
          heapPartR_push_pinned hheapPs hvs, ?_, ?_⟩
        · intro l hl
          rw [childCnt_congr (show (es.maxPush (.pinned k)).deref (.child l) =
            e2.deref (.child l) from by rw [deref_maxPush, hds _ (by simp)])]
          exact hidx2 l hl
        · exact htall _ (fun j => by rw [rti_maxPush, hrs])
      · have hv2' : (e2.rti k).Valid = false := by simpa using hv2
        simp only [hv2', Bool.false_eq_true, ↓reduceIte]
        exact ⟨hbase2, hact2, tombPartR_extend_invalid htomb2 hv2',
          heapPartR_skip_pinned hheapP2 hv2', hidx2, htall e2 (fun j => rfl)⟩

theorem upperBound_exists (e : MergingIterator UK) (hi : HeapInv e.maxCmp e.heap_) :
    ∃ B, UpperBound B e := by
  cases ht : e.heap_.top with
  | none =>
    refine ⟨default, ?_⟩
    intro p hp
    rw [(top_none_iff e).mp ht] at hp
    simp at hp
  | some t => exact ⟨hkey e t, (top_max e hi t ht).2⟩

/-- The method `SeekToLast()` reaches a state of a backward scan in which every visible
record is still to come. -/
theorem seekToLast_spec_t {runs : List (List (ParsedInternalKey UK))}
    {tombs : List (Option (List (RangeTombstone UK)))} {e : MergingIterator UK}
    (hb : Base runs tombs e) (fuel : Nat)
    (hfuel : rankBound runs tombs runs.length ≤ fuel) :
    ∃ e1, e.SeekToLast fuel = some e1 ∧ ScanInvR runs tombs e1 ∧
      visRemR runs tombs e1 = visibleRecords runs tombs := by
  obtain ⟨e0, he0⟩ : ∃ e0 : MergingIterator UK,
      e0 = { (e.ClearHeaps true).InitMaxHeap with status_ := Status.OK } := ⟨_, rfl⟩
  have hbase0 : Base runs tombs e0 := by
    rw [he0]; exact base_of_eq hb rfl rfl rfl rfl hb.no_upper_bound
  have hA0 : LastA runs tombs 0 e0 := by
    refine ⟨hbase0, by rw [he0]; rfl, ?_, fun l hl => by omega⟩
    apply heapPartR_of_mem
    · rw [he0]; simp [ClearHeaps, InitMaxHeap, BinaryHeap.clear]
    · intro p
      rw [he0]
      cases p <;> simp [InHeapSpec, ClearHeaps, InitMaxHeap, BinaryHeap.clear]
    · rw [he0]; exact heapInv_clear _ (e.ClearHeaps true).heap_
  obtain ⟨e1, he1⟩ : ∃ e1, e1 = (List.range e0.children_.length).foldl
      (fun (e : MergingIterator UK) level =>
        (e.updIter (.child level) (fun w => w.SeekToLast)).AddToMaxHeapOrCheckStatus
          (.child level)) e0 := ⟨_, rfl⟩
  have hA : LastA runs tombs runs.length e1 := by
    rw [he1, hbase0.children_len]; exact lastA_loop hA0 runs.length (le_refl _)
  have hB0 : LastB runs tombs 0 e1 :=
    ⟨hA.base, hA.active, ⟨fun j hj => by omega, fun j => by rw [hA.active]; simp,
      by rw [hA.active]; exact List.Pairwise.nil⟩, hA.heap, hA.idx, fun j hj => by omega⟩
  obtain ⟨e2, he2⟩ : ∃ e2, e2 = (List.range e1.range_tombstone_iters_.length).foldl
      (fun (e : MergingIterator UK) i =>
        match e.range_tombstone_iters_[i]?.getD none with
        | some it =>
          let e := e.setRti i it.SeekToLast
          if (e.rti i).Valid then e.InsertRangeTombstoneToMaxHeap i true false else e
        | none => e) e1 := ⟨_, rfl⟩
  have hB : LastB runs tombs runs.length e2 := by
    rw [he2, hA.base.rti_len]; exact lastB_loop hB0 runs.length (le_refl _)
  obtain ⟨B, hBl⟩ := upperBound_exists e2 hB.heap.inv
  have hf2 : BwdT runs tombs e2 := by
    refine ⟨⟨hB.base, hB.tomb, hB.heap⟩, ?_, ?_, ?_, B, hBl, ?_⟩
    · intro j L hjL hL hv t ht
      rw [hB.tidx j (by omega)] at ht
      simp at ht
    · intro j L hjL hL hv hact
      rw [hB.active] at hact
      simp at hact
    · intro L L' idx r hLL hL' hv hidx hr
      rw [hB.idx L (by omega)] at hidx
      rw [List.getElem?_eq_none hidx] at hr
      simp at hr
    · intro l idx r hl hidx hr
      rw [hB.idx l hl] at hidx
      rw [List.getElem?_eq_none hidx] at hr
      simp at hr
  obtain ⟨e3, g1, g2, g3, g4, g5⟩ := findPrev_spec hf2 fuel hfuel
  have hvis2 : visRemR runs tombs e2 = visibleRecords runs tombs := by
    unfold visRemR visibleRecords
    apply List.flatMap_congr
    intro l hl
    rw [hB.idx l (List.mem_range.mp hl), List.take_length]
    rfl
  have hseek : e.SeekToLast fuel = some ({ ({ e3 with direction_ := Direction.kReverse } :
      MergingIterator UK) with current_ := e3.heap_.top }) := by
    have h1 : e.SeekToLast fuel =
        match e2.FindPrevVisibleKey fuel with
        | some e3 =>
          some ({ ({ e3 with direction_ := Direction.kReverse } : MergingIterator UK) with
            current_ := e3.heap_.top })
        | none => none := by
      rw [he2, he1, he0]; rfl
    rw [h1, g1]
  refine ⟨_, hseek, ?_, ?_⟩
  · refine ⟨⟨⟨base_of_eq g2.struct.base rfl rfl rfl g2.struct.base.status_ok
        g2.struct.base.no_upper_bound, tombPartR_of_eq g2.struct.tomb (fun j => rfl)
        (fun j => rfl) rfl, heapPartR_frame g2.struct.heap rfl (fun p _ => rfl)
        (fun q => by cases q <;> rfl)⟩, ?_, ?_, ?_, ?_⟩, ?_, rfl, rfl⟩
    · exact passedTombsR_congr g2.passed_tombs (fun l => rfl) (fun j => rfl)
    · intro j L hjL hL hvL hact
      exact g2.active_ended j L hjL hL hvL hact
    · exact passedAbove_congr g2.passed_above (fun l => rfl)
    · obtain ⟨B', hB1, hB2⟩ := g2.bound
      exact ⟨B', fun p hp => hB1 p hp, passedRecordsR_congr hB2 (fun l => rfl)⟩
    · intro t' ht'
      exact g3 t' ht'
  · rw [← hvis2, ← g4]
    exact visRemR_congr (fun l => rfl)

/-- The backward scan of an engine over well-formed runs and tombstones: with enough fuel it
yields exactly the visible records, in the reverse of the order of the comparator. -/
theorem backwardScan_tombs (runs : List (List (ParsedInternalKey UK)))
    (tombs : List (Option (List (RangeTombstone UK)))) (hwf : InputWF runs tombs)
    (fuel n : Nat) (hfuel : rankBound runs tombs runs.length ≤ fuel)
    (hn : (visibleRecords runs tombs).length ≤ n) :
    ∃ out, backwardScan fuel n (build runs tombs) = some out ∧
      out.Perm (visibleRecords runs tombs) ∧ out.Pairwise (fun x y => keyLe y x) := by
  obtain ⟨e1, h1, h2, h3⟩ := seekToLast_spec_t (build_base runs tombs hwf) fuel hfuel
  obtain ⟨out, g1, g2, g3⟩ := collectR_spec fuel hfuel n e1 h2 (by rw [h3]; exact hn)
  refine ⟨out, ?_, by rw [← h3]; exact g2, g3⟩
  unfold backwardScan
  rw [h1]
  exact g1

/-- C5. For sorted runs and well-formed range tombstones (one tombstone slot per run, sequence
numbers of records below the reserved largest one), with fuel for the visibility loops and a
bound `n` on the number of records: the forward scan, `SeekToFirst()` and then `Next()` until
`Valid()` is false, ends with a list of records, and the backward scan, `SeekToLast()` and
then `Prev()` until `Valid()` is false, ends with exactly the reverse of that list. -/
theorem backward_scan_eq_reverse_forward_scan (runs : List (List (ParsedInternalKey UK)))
    (tombs : List (Option (List (RangeTombstone UK)))) (fuel n : Nat)
    (hwf : WellFormedInput runs tombs)
    (hfuel : rankBound runs tombs runs.length ≤ fuel)
    (hn : runs.flatten.length ≤ n) :
    ∃ out, forwardScan fuel n (build runs tombs) = some out ∧
      backwardScan fuel n (build runs tombs) = some out.reverse := by
  have hwf' := inputWF_of_wellFormed hwf
  have hlen := le_trans (visibleRecords_length_le runs tombs) hn
  obtain ⟨out, h1, h2, h3⟩ := forwardScan_tombs runs tombs hwf' fuel n hfuel hlen
  obtain ⟨out', g1, g2, g3⟩ := backwardScan_tombs runs tombs hwf' fuel n hfuel hlen
  refine ⟨out, h1, ?_⟩
  have hrev : out'.reverse = out :=
    sorted_perm_unique ((List.reverse_perm out').trans (g2.trans h2.symm))
      (List.pairwise_reverse.mpr g3) h3
  rw [g1, ← hrev, List.reverse_reverse]

/-- An instance of C5: the run with the record `(1, 5)` and the run with the records `(1, 3)`
and `(2, 3)`, without tombstones. -/
theorem backward_scan_eq_reverse_forward_scan_witness :
    WellFormedInput [[(⟨1, 5, 1⟩ : ParsedInternalKey Nat)], [⟨1, 3, 1⟩, ⟨2, 3, 1⟩]]
        [none, none] ∧
      ∃ out, forwardScan 6 3 (build [[(⟨1, 5, 1⟩ : ParsedInternalKey Nat)],
          [⟨1, 3, 1⟩, ⟨2, 3, 1⟩]] [none, none]) = some out ∧
        backwardScan 6 3 (build [[(⟨1, 5, 1⟩ : ParsedInternalKey Nat)],
          [⟨1, 3, 1⟩, ⟨2, 3, 1⟩]] [none, none]) = some out.reverse :=
  ⟨by decide, backward_scan_eq_reverse_forward_scan _ _ 6 3 (by decide) (by decide)
    (by decide)⟩

end MergingIterator

/-! ## Part VII. Comparator calls of repeated `replace_top`, and the assertions of the heap -/

namespace BinaryHeap

variable {T : Type}

/-- A round of the `downheap` loop that stops: the state it leaves. -/
theorem downheapLoop_stop (cmp : T → T → Bool) (n : Nat) (cache : Option Nat) (v : T)
    (fuel : Nat) (s : SiftState T) (hleft : get_left s.index < n)
    (hcmp : cmp v (s.data[(pickChild cmp n cache v s.data s.index).1]?.getD v) = false) :
    downheapLoop cmp n cache v (fuel + 1) s =
      { s with picked_child := some (pickChild cmp n cache v s.data s.index).1,
               cmps := s.cmps + (pickChild cmp n cache v s.data s.index).2 + 1 } := by
  unfold downheapLoop
  have : ¬ get_left s.index ≥ n := by omega
  simp only [this, ↓reduceIte, hcmp, Bool.not_false]

/-- The child that `downheap` picks at the root of a heap with at least two elements is the
left or the right child, and it is stored. -/
theorem pickChild_root_lt (cmp : T → T → Bool) (n : Nat) (cache : Option Nat) (v : T)
    (data : List T) (hn : 2 ≤ n) : (pickChild cmp n cache v data 0).1 < n := by
  unfold pickChild
  dsimp only
  split
  · rename_i hc
    simp only [beq_self_eq_true, Bool.true_and] at hc
    cases cache with
    | none => simp [cacheBelow] at hc
    | some c => simpa [cacheBelow] using hc
  · split
    · rename_i hr
      simp only [get_left] at hr
      split
      · show get_left 0 + 1 < n
        simp only [get_left]; omega
      · show get_left 0 < n
        simp only [get_left]; omega
    · show get_left 0 < n
      simp only [get_left]; omega

/-- A value that is not less than any element below the root stays at the root in
`replace_top`: the data is the old data with the root overwritten, the cache holds the picked
child, and the comparator is called once when the cache was valid, else once or twice. -/
theorem replace_topC_of_winner {cmp : T → T → Bool} (hswo : StrictWeakOrder cmp)
    (h : BinaryHeap T) (v : T) (hlen : 2 ≤ h.data_.length)
    (hmax : ∀ x ∈ h.data_.tail, cmp v x = false) :
    (replace_topC cmp h v).1.data_ = h.data_.set 0 v ∧
      cacheBelow (replace_topC cmp h v).1.root_cmp_cache_ h.data_.length = true ∧
      (replace_topC cmp h v).2 =
        if cacheBelow h.root_cmp_cache_ h.data_.length = true then 1
        else if 2 < h.data_.length then 2 else 1 := by
  unfold replace_topC
  cases hd : h.data_ with
  | nil => rw [hd] at hlen; simp at hlen
  | cons x xs =>
    have hemp : h.empty = false := by simp [empty, hd]
    simp only [hemp, Bool.false_eq_true, ↓reduceIte, List.set_cons_zero]
    unfold downheap get_root
    simp only [List.getElem?_cons_zero, List.length_cons]
    cases hxs : xs with
    | nil => rw [hd, hxs] at hlen; simp at hlen
    | cons y ys =>
      have hleft : get_left 0 < (ys.length + 1 + 1) := by unfold get_left; omega
      have hmem : ∀ j : Nat, cmp v ((v :: y :: ys)[j]?.getD v) = false := by
        intro j
        cases hj : (v :: y :: ys)[j]? with
        | none => simpa using hswo.irrefl v
        | some z =>
          have hz := List.getElem?_mem hj
          simp only [Option.getD_some]
          rcases List.mem_cons.mp hz with h1 | h1
          · rw [h1]; exact hswo.irrefl v
          · apply hmax; rw [hd, hxs]; exact h1
      have hstop := downheapLoop_stop cmp (ys.length + 1 + 1) h.root_cmp_cache_ v
        (ys.length + 1) { data := v :: y :: ys, index := 0 } hleft (hmem _)
      simp only [List.length_cons] at hstop ⊢
      rw [hstop]
      have hpick := pickChild_root_lt cmp (ys.length + 1 + 1) h.root_cmp_cache_ v
        (v :: y :: ys) (by omega)
      refine ⟨by simp, ?_, ?_⟩
      · simpa [cacheBelow] using hpick
      · rw [pickChild_snd]
        simp only [get_left, beq_self_eq_true, Bool.true_and, Nat.zero_add]
        split
        · rfl
        · split <;> simp

/-- On a heap with one element `replace_top` does not call the comparator. -/
theorem replace_topC_cmps_single (cmp : T → T → Bool) (h : BinaryHeap T) (v : T)
    (hlen : h.data_.length = 1) : (replace_topC cmp h v).2 = 0 := by
  unfold replace_topC
  cases hd : h.data_ with
  | nil => rw [hd] at hlen; simp at hlen
  | cons x xs =>
    cases hxs : xs with
    | nil =>
      have hemp : h.empty = false := by simp [empty, hd]
      simp only [hemp, Bool.false_eq_true, ↓reduceIte, List.set_cons_zero]
      unfold downheap get_root
      simp [downheapLoop, get_left]
    | cons y ys => rw [hd, hxs] at hlen; simp at hlen

/-- C11, as stated, fails on heaps with one or two elements. On the reachable heaps with data
`[3]` and `[3, 2]` (comparator: less-than on numbers) the values 5 and then 7 each stay at the
root, and the second `replace_top` makes as many comparator calls as `pop()` followed by
`push(7)` does on the same heap (none on the first heap, one on the second), not fewer. -/
theorem repeated_replace_top_counterexample :
    (Reachable natLess (push natLess {} 3) ∧
      (replace_top natLess (push natLess {} 3) 5).data_ = [5] ∧
      (replace_top natLess (replace_top natLess (push natLess {} 3) 5) 7).data_ = [7] ∧
      ¬ (replace_topC natLess (replace_top natLess (push natLess {} 3) 5) 7).2 <
        (popC natLess (replace_top natLess (push natLess {} 3) 5)).2 +
        (pushC natLess (pop natLess (replace_top natLess (push natLess {} 3) 5)) 7).2) ∧
    (Reachable natLess (push natLess (push natLess {} 3) 2) ∧
      (replace_top natLess (push natLess (push natLess {} 3) 2) 5).data_ = [5, 2] ∧
      (replace_top natLess (replace_top natLess (push natLess (push natLess {} 3) 2) 5) 7).data_ =
        [7, 2] ∧
      ¬ (replace_topC natLess (replace_top natLess (push natLess (push natLess {} 3) 2) 5) 7).2 <
        (popC natLess (replace_top natLess (push natLess (push natLess {} 3) 2) 5)).2 +
        (pushC natLess
          (pop natLess (replace_top natLess (push natLess (push natLess {} 3) 2) 5)) 7).2) :=
  ⟨⟨Reachable.push _ _ Reachable.empty, by decide, by decide, by decide⟩,
    ⟨Reachable.push _ _ (Reachable.push _ _ Reachable.empty), by decide, by decide, by decide⟩⟩

/-- C11, amended. On a non-empty reachable heap, when `replace_top` is called twice in a row
with values that each stay at the root (each is not less than any element below the root), the
second call makes no more comparator calls than `pop()` followed by `push` of the same value
would on the same heap, and strictly fewer when the heap has at least three elements: then it
makes exactly one call. -/
theorem repeated_replace_top_cmps (cmp : T → T → Bool) (hswo : StrictWeakOrder cmp)
    (h : BinaryHeap T) (hr : Reachable cmp h) (hne : h.empty = false) (v1 v2 : T)
    (hv1 : ∀ x ∈ h.data_.tail, cmp v1 x = false)
    (hv2 : ∀ x ∈ (replace_top cmp h v1).data_.tail, cmp v2 x = false) :
    (replace_top cmp h v1).data_ = h.data_.set 0 v1 ∧
      (replace_top cmp (replace_top cmp h v1) v2).data_ = h.data_.set 0 v2 ∧
      (replace_topC cmp (replace_top cmp h v1) v2).2 ≤
        (popC cmp (replace_top cmp h v1)).2 +
          (pushC cmp (pop cmp (replace_top cmp h v1)) v2).2 ∧
      (3 ≤ h.data_.length →
        (replace_topC cmp (replace_top cmp h v1) v2).2 = 1 ∧
        (replace_topC cmp (replace_top cmp h v1) v2).2 <
          (popC cmp (replace_top cmp h v1)).2 +
            (pushC cmp (pop cmp (replace_top cmp h v1)) v2).2) := by
  have hpos : 1 ≤ h.data_.length := by
    cases hd : h.data_ with
    | nil => simp [empty, hd] at hne
    | cons x xs => simp
  obtain ⟨h1, hh1⟩ : ∃ h1, h1 = replace_top cmp h v1 := ⟨_, rfl⟩
  rw [← hh1] at hv2 ⊢
  have hr1 : Reachable cmp h1 := by rw [hh1]; exact Reachable.replace_top h v1 hr hne
  have hinv1 := reachable_inv hswo hr1
  by_cases h2 : 2 ≤ h.data_.length
  · obtain ⟨hd1, hc1, _⟩ := replace_topC_of_winner hswo h v1 h2 hv1
    have hd1' : h1.data_ = h.data_.set 0 v1 := by rw [hh1]; exact hd1
    have hl1 : h1.data_.length = h.data_.length := by rw [hd1']; simp
    have hc1' : cacheBelow h1.root_cmp_cache_ h1.data_.length = true := by
      rw [hl1, hh1]; exact hc1
    obtain ⟨hd2, _, hn2⟩ := replace_topC_of_winner hswo h1 v2 (by omega) hv2
    have hcount : (replace_topC cmp h1 v2).2 = 1 := by rw [hn2, hc1']; rfl
    have hpop := popC_spec hswo h1 (heapOrdered_belowRoot hinv1.1) hinv1.2
    have hpl : (pop cmp h1).data_.length = h1.data_.length - 1 := by
      have := hpop.2.length_eq
      simpa [pop] using this
    have hpush := pushC_cmps_ge cmp (pop cmp h1) v2 (by omega)
    refine ⟨hd1', ?_, by omega, ?_⟩
    · show (replace_topC cmp h1 v2).1.data_ = _
      rw [hd2, hd1']
      simp
    · intro h3
      refine ⟨hcount, ?_⟩
      have hpp := popC_cmps_ge cmp h1 (by omega)
      have : 1 ≤ (popC cmp h1).2 := by
        refine Nat.le_trans ?_ hpp
        split
        · omega
        · split <;> omega
      omega
  · have hl : h.data_.length = 1 := by omega
    obtain ⟨x, hx⟩ : ∃ x, h.data_ = [x] := by
      cases hd : h.data_ with
      | nil => rw [hd] at hl; simp at hl
      | cons x xs =>
        cases xs with
        | nil => exact ⟨x, rfl⟩
        | cons y ys => rw [hd] at hl; simp at hl
    have hd1 : h1.data_ = [v1] := by
      rw [hh1]
      simp [replace_top, replace_topC, empty, hx, downheap, get_root, downheapLoop, get_left]
    have hd2 : (replace_top cmp h1 v2).data_ = [v2] := by
      simp [replace_top, replace_topC, empty, hd1, downheap, get_root, downheapLoop, get_left]
    refine ⟨by rw [hd1, hx]; rfl, by rw [hd2, hx]; rfl, ?_, fun h3 => by omega⟩
    rw [replace_topC_cmps_single cmp h1 v2 (by rw [hd1]; rfl)]
    omega

theorem repeated_replace_top_cmps_witness :
    StrictWeakOrder natLess ∧
    Reachable natLess (push natLess (push natLess (push natLess {} 3) 5) 4) ∧
    (push natLess (push natLess (push natLess {} 3) 5) 4).empty = false ∧
    (replace_topC natLess
        (replace_top natLess (push natLess (push natLess (push natLess {} 3) 5) 4) 8) 9).2 <
      (popC natLess
        (replace_top natLess (push natLess (push natLess (push natLess {} 3) 5) 4) 8)).2 +
      (pushC natLess (pop natLess
        (replace_top natLess (push natLess (push natLess (push natLess {} 3) 5) 4) 8)) 9).2 :=
  ⟨natLess_swo,
    Reachable.push _ _ (Reachable.push _ _ (Reachable.push _ _ Reachable.empty)), by decide,
    ((repeated_replace_top_cmps natLess natLess_swo _
      (Reachable.push _ _ (Reachable.push _ _ (Reachable.push _ _ Reachable.empty)))
      (by decide) 8 9 (by decide) (by decide)).2.2.2 (by decide)).2⟩

/-- C12. With the assertions of the source as error results: `top()`, `pop()`,
`replace_top(v)` and `update_top()` fail exactly on the empty heap and give their result on
every other heap, and `push(v)` never fails (the index that it passes to `upheap` is stored).
`clear()`, `empty()` and `size()` contain no assertion. -/
theorem assertions_fail_exactly_when_empty (cmp : T → T → Bool) (h : BinaryHeap T) (v : T) :
    (top_assert h = none ↔ h.empty = true) ∧
    (pop_assert cmp h = none ↔ h.empty = true) ∧
    (replace_top_assert cmp h v = none ↔ h.empty = true) ∧
    (update_top_assert cmp h = none ↔ h.empty = true) ∧
    (h.empty = false →
      top_assert h = h.top ∧ (∃ t, h.top = some t) ∧
      pop_assert cmp h = some (pop cmp h) ∧
      replace_top_assert cmp h v = some (replace_top cmp h v) ∧
      update_top_assert cmp h = some (update_top cmp h)) ∧
    push_assert cmp h v = some (push cmp h v) ∧
    (h.clear.empty = true ∧ h.clear.size = 0) ∧
    (h.empty = true ↔ h.size = 0) := by
  refine ⟨?_, ?_, ?_, ?_, ?_, ?_, ⟨rfl, rfl⟩, ?_⟩
  · unfold top_assert
    cases hd : h.data_ with
    | nil => simp [empty, hd]
    | cons x xs => simp [empty, hd]
  · unfold pop_assert; split <;> simp_all
  · unfold replace_top_assert; split <;> simp_all
  · unfold update_top_assert; split <;> simp_all
  · intro hne
    refine ⟨?_, ?_, ?_, ?_, ?_⟩
    · simp [top_assert, hne, top]
    · cases hd : h.data_ with
      | nil => simp [empty, hd] at hne
      | cons x xs => exact ⟨x, by simp [top, hd]⟩
    · simp [pop_assert, hne]
    · simp [replace_top_assert, hne]
    · simp [update_top_assert, hne]
  · unfold push_assert upheap_assert push pushC
    simp
  · unfold empty size
    cases h.data_ <;> simp

end BinaryHeap

/-! ## Part VIII. The builder -/

namespace MergeIteratorBuilder

open MergingIterator

variable {UK : Type} [LinearOrder UK] [Inhabited UK]

theorem wrapper_set_iter (iter : InternalIterator UK) :
    ((default : IteratorWrapper UK).Set (some iter)).iter_ = some iter := by
  simp only [IteratorWrapper.Set, IteratorWrapper.Update]
  split <;> rfl

theorem engine_addIterator_iters (e : MergingIterator UK) (iter : InternalIterator UK) :
    (e.AddIterator iter).children_.map (fun c => c.iter.iter_) =
      e.children_.map (fun c => c.iter.iter_) ++ [some iter] := by
  simp [MergingIterator.AddIterator, wrapper_set_iter]

theorem engine_addIterator_levels (e : MergingIterator UK) (iter : InternalIterator UK)
    (h : e.children_.map (fun c => c.level) = List.range e.children_.length) :
    (e.AddIterator iter).children_.map (fun c => c.level) =
      List.range (e.AddIterator iter).children_.length := by
  simp [MergingIterator.AddIterator, h, List.range_succ]

theorem fillGap_children (fuel : Nat) (e : MergingIterator UK) :
    (fillGap fuel e).children_ = e.children_ ∧ (fillGap fuel e).current_ = e.current_ := by
  induction fuel generalizing e with
  | zero => exact ⟨rfl, rfl⟩
  | succ fuel ih =>
    unfold fillGap
    split
    · obtain ⟨h1, h2⟩ := ih (e.AddRangeTombstoneIterator none)
      exact ⟨h1, h2⟩
    · exact ⟨rfl, rfl⟩

theorem addIterator_of_use (b : MergeIteratorBuilder UK) (iter : InternalIterator UK)
    (huse : b.use_merging_iter = true) :
    b.AddIterator iter = { b with merge_iter := b.merge_iter.AddIterator iter } := by
  obtain ⟨m, f, u, r⟩ := b
  simp only at huse
  subst huse
  cases f <;> rfl

/-- What holds of a builder after the calls `cs`. -/
structure AfterCalls (cs : List (BuilderCall UK)) (b : MergeIteratorBuilder UK) : Prop where
  iters : b.merge_iter.children_.map (fun c => c.iter.iter_) =
    if b.use_merging_iter then (cs.map BuilderCall.point).map some else []
  levels : b.merge_iter.children_.map (fun c => c.level) =
    List.range b.merge_iter.children_.length
  current : b.merge_iter.current_ = none
  use_iff : b.use_merging_iter = true ↔
    (2 ≤ cs.length ∨ ∃ c ∈ cs, c.tombstone.isSome = true ∨ c.hasSlot = true)
  first : b.use_merging_iter = false → b.first_iter = cs.head?.map BuilderCall.point
  no_slots : b.use_merging_iter = false → b.merge_iter.range_tombstone_iters_ = []

theorem afterCalls_create (prefix_seek_mode : Bool) (iterate_upper_bound : Option UK) :
    AfterCalls [] (create prefix_seek_mode iterate_upper_bound) := by
  refine ⟨rfl, rfl, rfl, ?_, fun _ => rfl, fun _ => rfl⟩
  simp [create]

theorem afterCalls_step {cs : List (BuilderCall UK)} {b : MergeIteratorBuilder UK}
    (h : AfterCalls cs b) (c : BuilderCall UK) : AfterCalls (cs ++ [c]) (c.apply b) := by
  have hex : (∃ c' ∈ cs ++ [c], c'.tombstone.isSome = true ∨ c'.hasSlot = true) ↔
      ((∃ c' ∈ cs, c'.tombstone.isSome = true ∨ c'.hasSlot = true) ∨
        (c.tombstone.isSome = true ∨ c.hasSlot = true)) := by
    constructor
    · rintro ⟨c', hc', hp⟩
      rcases List.mem_append.mp hc' with h1 | h1
      · exact Or.inl ⟨c', h1, hp⟩
      · simp only [List.mem_singleton] at h1
        subst h1; exact Or.inr hp
    · rintro (⟨c', hc', hp⟩ | hp)
      · exact ⟨c', List.mem_append_left _ hc', hp⟩
      · exact ⟨c, by simp, hp⟩
  by_cases huse : b.use_merging_iter = true
  · -- the engine is in use already
    have h2 := h.use_iff.mp huse
    have hiters := h.iters
    simp only [huse, ↓reduceIte] at hiters
    have huse' : 2 ≤ (cs ++ [c]).length ∨
        ∃ c' ∈ cs ++ [c], c'.tombstone.isSome = true ∨ c'.hasSlot = true := by
      rcases h2 with h2 | h2
      · left; simp; omega
      · right; exact hex.mpr (Or.inl h2)
    cases c with
    | addIterator iter =>
      have hb : (BuilderCall.addIterator iter).apply b =
          { b with merge_iter := b.merge_iter.AddIterator iter } :=
        addIterator_of_use b iter huse
      rw [hb]
      refine ⟨?_, engine_addIterator_levels _ _ h.levels, rfl, ?_, ?_, ?_⟩
      · simp only [huse, ↓reduceIte]
        rw [engine_addIterator_iters, hiters]
        simp [BuilderCall.point]
      · exact ⟨fun _ => huse', fun _ => huse⟩
      · intro hc; exact absurd huse (by simpa using hc)
      · intro hc; exact absurd huse (by simpa using hc)
    | addPointAndTombstone point_iter tombstone_iter tombstone_iter_ptr =>
      simp only [BuilderCall.apply, AddPointAndTombstoneIterator, huse, Bool.not_true,
        Bool.false_and, Bool.false_eq_true, ↓reduceIte]
      refine ⟨?_, ?_, ?_, ?_, ?_, ?_⟩
      · simp only [huse, ↓reduceIte]
        have : ∀ m2 : MergingIterator UK,
            m2.children_ = (b.merge_iter.AddIterator point_iter).children_ →
            m2.children_.map (fun c => c.iter.iter_) =
              ((cs ++ [BuilderCall.addPointAndTombstone point_iter tombstone_iter
                tombstone_iter_ptr]).map BuilderCall.point).map some := by
          intro m2 hm
          rw [hm, engine_addIterator_iters, hiters]
          simp [BuilderCall.point]
        apply this
        split
        · show (fillGap _ _).children_ = _
          exact (fillGap_children _ _).1
        · rfl
      · have hl := engine_addIterator_levels b.merge_iter point_iter h.levels
        split
        · show (fillGap _ _).children_.map _ = List.range (fillGap _ _).children_.length
          rw [(fillGap_children _ _).1]; exact hl
        · exact hl
      · split
        · show (fillGap _ _).current_ = none
          rw [(fillGap_children _ _).2]; rfl
        · rfl
      · exact ⟨fun _ => huse', fun _ => rfl⟩
      · intro hc; simp at hc
      · intro hc; simp at hc
  · -- the engine is not in use yet
    have huse0 : b.use_merging_iter = false := by simpa using huse
    have hno : ¬ (2 ≤ cs.length ∨ ∃ c ∈ cs, c.tombstone.isSome = true ∨ c.hasSlot = true) :=
      fun hc => huse (h.use_iff.mpr hc)
    have hlen : cs.length ≤ 1 := by
      by_contra hcon; exact hno (Or.inl (by omega))
    have hnone : ¬ ∃ c ∈ cs, c.tombstone.isSome = true ∨ c.hasSlot = true :=
      fun hc => hno (Or.inr hc)
    have hfirst := h.first huse0
    have hslots := h.no_slots huse0
    have hiters := h.iters
    simp only [huse0, Bool.false_eq_true, ↓reduceIte, List.map_eq_nil_iff] at hiters
    have hchildren : b.merge_iter.children_ = [] := hiters
    cases hcs : cs with
    | nil =>
      -- the first call
      rw [hcs] at hfirst
      simp only [List.head?_nil, Option.map_none'] at hfirst
      cases c with
      | addIterator iter =>
        have hb : (BuilderCall.addIterator iter).apply b =
            { b with first_iter := some iter } := by
          simp only [BuilderCall.apply, AddIterator, hfirst, huse0]
          simp
        rw [hb]
        refine ⟨?_, h.levels, h.current, ?_, ?_, ?_⟩
        · simp only [huse0, Bool.false_eq_true, ↓reduceIte]
          rw [hchildren]; rfl
        · simp [huse0, BuilderCall.tombstone, BuilderCall.hasSlot]
        · intro _; rfl
        · intro _; exact hslots
      | addPointAndTombstone point_iter tombstone_iter tombstone_iter_ptr =>
        by_cases hadd : (tombstone_iter.isSome || tombstone_iter_ptr.isSome) = true
        · have hadd' : (tombstone_iter.isSome ||
              !b.merge_iter.range_tombstone_iters_.isEmpty ||
              tombstone_iter_ptr.isSome) = true := by
            rw [hslots]
            simpa using hadd
          simp only [BuilderCall.apply, AddPointAndTombstoneIterator, huse0, hfirst, hadd',
            Bool.not_false, Bool.true_and, Bool.true_or, ↓reduceIte]
          refine ⟨?_, ?_, ?_, ?_, ?_, ?_⟩
          · show (MergingIterator.AddRangeTombstoneIterator _ _).children_.map _ = _
            simp only [↓reduceIte]
            show (fillGap _ _).children_.map _ = _
            rw [(fillGap_children _ _).1, engine_addIterator_iters, hchildren]
            simp [BuilderCall.point]
          · show (fillGap _ _).children_.map _ = List.range (fillGap _ _).children_.length
            rw [(fillGap_children _ _).1]
            exact engine_addIterator_levels b.merge_iter point_iter h.levels
          · show (fillGap _ _).current_ = none
            rw [(fillGap_children _ _).2]; rfl
          · refine ⟨fun _ => Or.inr ⟨BuilderCall.addPointAndTombstone point_iter
              tombstone_iter tombstone_iter_ptr, by simp, ?_⟩, fun _ => rfl⟩
            simp only [BuilderCall.tombstone, BuilderCall.hasSlot]
            simpa using hadd
          · intro hc; simp at hc
          · intro hc; simp at hc
        · have hadd' : (tombstone_iter.isSome ||
              !b.merge_iter.range_tombstone_iters_.isEmpty ||
              tombstone_iter_ptr.isSome) = false := by
            rw [hslots]
            simpa using hadd
          simp only [BuilderCall.apply, AddPointAndTombstoneIterator, huse0, hfirst, hadd',
            Bool.not_false, Bool.true_and, Option.isSome_none, Bool.or_self,
            Bool.false_eq_true, ↓reduceIte]
          refine ⟨?_, h.levels, h.current, ?_, ?_, ?_⟩
          · simp only [huse0, Bool.false_eq_true, ↓reduceIte]
            rw [hchildren]; rfl
          · simp only [huse0, Bool.false_eq_true, List.nil_append, List.length_singleton,
              List.mem_singleton, exists_eq_left, BuilderCall.tombstone, BuilderCall.hasSlot,
              false_iff, not_or]
            refine ⟨by omega, ?_⟩
            simpa using hadd
          · intro _; rfl
          · intro _; exact hslots
    | cons c0 rest =>
      -- the second call
      have hrest : rest = [] := by
        rw [hcs] at hlen
        cases rest with
        | nil => rfl
        | cons a t => simp at hlen
      subst hrest
      rw [hcs] at hfirst
      simp only [List.head?_cons, Option.map_some'] at hfirst
      have huse' : 2 ≤ ([c0] ++ [c]).length ∨
          ∃ c' ∈ [c0] ++ [c], c'.tombstone.isSome = true ∨ c'.hasSlot = true := by
        left; simp
      have hm1 : (b.merge_iter.AddIterator c0.point).children_.map (fun c => c.iter.iter_) =
          [some c0.point] := by
        rw [engine_addIterator_iters, hchildren]; rfl
      have hl1 := engine_addIterator_levels b.merge_iter c0.point h.levels
      cases c with
      | addIterator iter =>
        have hb : (BuilderCall.addIterator iter).apply b =
            { b with merge_iter := (b.merge_iter.AddIterator c0.point).AddIterator iter,
                     use_merging_iter := true, first_iter := none } := by
          simp only [BuilderCall.apply, AddIterator, hfirst, huse0]
          simp
        rw [hb]
        refine ⟨?_, engine_addIterator_levels _ _ hl1, rfl, ?_, ?_, ?_⟩
        · simp only [↓reduceIte]
          rw [engine_addIterator_iters, hm1]
          simp [BuilderCall.point]
        · exact ⟨fun _ => huse', fun _ => rfl⟩
        · intro hc; simp at hc
        · intro hc; simp at hc
      | addPointAndTombstone point_iter tombstone_iter tombstone_iter_ptr =>
        simp only [BuilderCall.apply, AddPointAndTombstoneIterator, huse0, hfirst,
          Bool.not_false, Bool.true_and, Option.isSome_some, Bool.or_true, ↓reduceIte]
        refine ⟨?_, ?_, ?_, ?_, ?_, ?_⟩
        · simp only [↓reduceIte]
          have : ∀ m2 : MergingIterator UK,
              m2.children_ =
                ((b.merge_iter.AddIterator c0.point).AddIterator point_iter).children_ →
              m2.children_.map (fun c => c.iter.iter_) =
                (([c0] ++ [BuilderCall.addPointAndTombstone point_iter tombstone_iter
                  tombstone_iter_ptr]).map BuilderCall.point).map some := by
            intro m2 hm
            rw [hm, engine_addIterator_iters, hm1]
            simp [BuilderCall.point]
          apply this
          split
          · show (fillGap _ _).children_ = _
            exact (fillGap_children _ _).1
          · rfl
        · have hl2 := engine_addIterator_levels _ point_iter hl1
          split
          · show (fillGap _ _).children_.map _ = List.range (fillGap _ _).children_.length
            rw [(fillGap_children _ _).1]; exact hl2
          · exact hl2
        · split
          · show (fillGap _ _).current_ = none
            rw [(fillGap_children _ _).2]; rfl
          · rfl
        · exact ⟨fun _ => huse', fun _ => rfl⟩
        · intro hc; simp at hc
        · intro hc; simp at hc

theorem afterCalls_foldl (prefix_seek_mode : Bool) (iterate_upper_bound : Option UK)
    (cs : List (BuilderCall UK)) :
    AfterCalls cs (cs.foldl BuilderCall.apply (create prefix_seek_mode iterate_upper_bound)) := by
  induction cs using List.reverseRecOn with
  | nil => exact afterCalls_create _ _
  | append_singleton cs c ih =>
    rw [List.foldl_append]
    exact afterCalls_step ih c

theorem finishAfter_engine {prefix_seek_mode : Bool} {iterate_upper_bound : Option UK}
    {calls : List (BuilderCall UK)} {e : MergingIterator UK}
    (h : finishAfter prefix_seek_mode iterate_upper_bound calls = IteratorRef.engine e) :
    (calls.foldl BuilderCall.apply
        (create prefix_seek_mode iterate_upper_bound)).use_merging_iter = true ∧
      e = (calls.foldl BuilderCall.apply
        (create prefix_seek_mode iterate_upper_bound)).merge_iter.Finish := by
  unfold finishAfter Finish at h
  split at h
  · split at h <;> simp at h
  · rename_i hu
    simp only [IteratorRef.engine.injEq] at h
    exact ⟨by simpa using hu, h.symm⟩

theorem engine_finish_children (e : MergingIterator UK) :
    e.Finish.children_ = e.children_ ∧ e.Finish.current_ = e.current_ ∧
      e.Finish.range_tombstone_iters_ = e.range_tombstone_iters_ := by
  unfold MergingIterator.Finish
  split <;> exact ⟨rfl, rfl, rfl⟩

/-- C16. A builder that has received exactly one run, through `AddIterator` or through
`AddPointAndTombstoneIterator` without a tombstone iterator and without a tombstone-iterator
slot, returns that run from `Finish`, not a merging engine; and `NewMergingIterator` over a
list of one run returns that run. -/
theorem finish_single_run_is_pass_through (prefix_seek_mode : Bool)
    (iterate_upper_bound : Option UK) (arena : Bool) (iter : InternalIterator UK) :
    finishAfter prefix_seek_mode iterate_upper_bound [BuilderCall.addIterator iter] =
        IteratorRef.run iter ∧
      finishAfter prefix_seek_mode iterate_upper_bound
        [BuilderCall.addPointAndTombstone iter none none] = IteratorRef.run iter ∧
      NewMergingIterator [iter] arena prefix_seek_mode = IteratorRef.run iter :=
  ⟨rfl, rfl, rfl⟩

/-- C17, evaluated: `Finish` of a builder that has received no run returns `nullptr`, not an
iterator object; the always-empty iterator is what `NewMergingIterator` returns for an empty
list. -/
theorem finish_without_runs_is_null (prefix_seek_mode : Bool)
    (iterate_upper_bound : Option UK) (arena : Bool) :
    finishAfter prefix_seek_mode iterate_upper_bound ([] : List (BuilderCall UK)) =
        IteratorRef.null ∧
      NewMergingIterator ([] : List (InternalIterator UK)) arena prefix_seek_mode =
        IteratorRef.empty :=
  ⟨rfl, rfl⟩

/-- C18, as stated, fails: a builder that has received one run, with no tombstone iterator but
with a tombstone-iterator slot (a non-null `tombstone_iter_ptr`), returns the merging engine
from `Finish`, although neither two runs nor a tombstone iterator were added. -/
theorem finish_returns_engine_counterexample :
    (finishAfter false none
        [BuilderCall.addPointAndTombstone ({ run := [] } : InternalIterator Nat) none
          (some 0)]).isEngine = true ∧
      ¬ (2 ≤ [BuilderCall.addPointAndTombstone ({ run := [] } : InternalIterator Nat) none
          (some 0)].length ∨
        ∃ c ∈ [BuilderCall.addPointAndTombstone ({ run := [] } : InternalIterator Nat) none
          (some 0)], c.tombstone.isSome = true) := by
  refine ⟨rfl, ?_⟩
  simp [BuilderCall.tombstone]

/-- C18, amended. For every sequence of `AddIterator` / `AddPointAndTombstoneIterator` calls
that adds at least one run: `Finish` returns the merging engine if and only if two or more runs
were added or at least one run was added together with a tombstone iterator or with a
tombstone-iterator slot; in every other case exactly one run was added and `Finish` returns
that run. -/
theorem finish_returns_engine_iff (prefix_seek_mode : Bool) (iterate_upper_bound : Option UK)
    (calls : List (BuilderCall UK)) (hne : calls ≠ []) :
    ((finishAfter prefix_seek_mode iterate_upper_bound calls).isEngine = true ↔
      (2 ≤ calls.length ∨ ∃ c ∈ calls, c.tombstone.isSome = true ∨ c.hasSlot = true)) ∧
    ((finishAfter prefix_seek_mode iterate_upper_bound calls).isEngine = false →
      ∃ c, calls = [c] ∧
        finishAfter prefix_seek_mode iterate_upper_bound calls = IteratorRef.run c.point) := by
  have h := afterCalls_foldl prefix_seek_mode iterate_upper_bound calls
  obtain ⟨b, hb⟩ : ∃ b, b = calls.foldl BuilderCall.apply
      (create prefix_seek_mode iterate_upper_bound) := ⟨_, rfl⟩
  have hfin : finishAfter prefix_seek_mode iterate_upper_bound calls = Finish b := by
    rw [hb]; rfl
  rw [← hb] at h
  rw [hfin]
  by_cases huse : b.use_merging_iter = true
  · have he : Finish b = IteratorRef.engine b.merge_iter.Finish := by
      simp [Finish, huse]
    rw [he]
    exact ⟨⟨fun _ => h.use_iff.mp huse, fun _ => rfl⟩, fun hc => by simp [IteratorRef.isEngine] at hc⟩
  · have huse0 : b.use_merging_iter = false := by simpa using huse
    have hno : ¬ (2 ≤ calls.length ∨ ∃ c ∈ calls, c.tombstone.isSome = true ∨ c.hasSlot = true) :=
      fun hc => huse (h.use_iff.mpr hc)
    have hfirst := h.first huse0
    obtain ⟨c, hc⟩ : ∃ c, calls = [c] := by
      cases hcs : calls with
      | nil => exact absurd hcs hne
      | cons c rest =>
        cases rest with
        | nil => exact ⟨c, rfl⟩
        | cons a t => rw [hcs] at hno; exact absurd (Or.inl (by simp)) hno
    have hf : Finish b = IteratorRef.run c.point := by
      rw [hc] at hfirst
      simp [Finish, huse0, hfirst]
    rw [hf]
    refine ⟨⟨fun hc' => by simp [IteratorRef.isEngine] at hc', fun hc' => absurd hc' hno⟩,
      fun _ => ⟨c, hc, rfl⟩⟩

theorem finish_returns_engine_iff_witness :
    [BuilderCall.addIterator ({ run := [⟨1, 5, 1⟩] } : InternalIterator Nat),
      BuilderCall.addIterator { run := [⟨2, 3, 1⟩] }] ≠ [] ∧
    (finishAfter false none
      [BuilderCall.addIterator ({ run := [⟨1, 5, 1⟩] } : InternalIterator Nat),
        BuilderCall.addIterator { run := [⟨2, 3, 1⟩] }]).isEngine = true :=
  ⟨by decide, (finish_returns_engine_iff false none
    [BuilderCall.addIterator ({ run := [⟨1, 5, 1⟩] } : InternalIterator Nat),
      BuilderCall.addIterator { run := [⟨2, 3, 1⟩] }] (by decide)).1.mpr (Or.inl (by decide))⟩

/-- C19, evaluated: after `AddPointAndTombstoneIterator` with a tombstone iterator and then
`AddIterator`, the engine that `Finish` returns has one tombstone slot for two children, so
`range_tombstone_iters_.size() == children_.size()` does not hold. -/
theorem finish_after_trailing_addIterator (prefix_seek_mode : Bool)
    (iterate_upper_bound : Option UK) (p0 p1 : InternalIterator UK)
    (t0 : TruncatedRangeDelIterator UK) :
    ∃ e, finishAfter prefix_seek_mode iterate_upper_bound
        [BuilderCall.addPointAndTombstone p0 (some t0) none, BuilderCall.addIterator p1] =
          IteratorRef.engine e ∧
      e.range_tombstone_iters_ = [some t0] ∧ e.children_.length = 2 ∧
      e.range_tombstone_iters_.length ≠ e.children_.length :=
  ⟨_, rfl, rfl, rfl, fun hc => absurd (show (1 : Nat) = 2 from hc) (by decide)⟩

/-- C20. The constructor of the engine stores the runs in the order of the list, the child at
index `i` with level `i`; `AddIterator` on an engine appends the run with the next level and
leaves the engine not valid; and the engine that a builder returns from `Finish` holds the runs
in the order in which the calls have added them, the child at index `i` with level `i`, and is
not valid. -/
theorem children_in_order_added (children : List (InternalIterator UK))
    (prefix_seek_mode : Bool) (iterate_upper_bound : Option UK) (e0 : MergingIterator UK)
    (iter : InternalIterator UK) (calls : List (BuilderCall UK)) (e : MergingIterator UK)
    (h : finishAfter prefix_seek_mode iterate_upper_bound calls = IteratorRef.engine e) :
    ((MergingIterTmpl children prefix_seek_mode iterate_upper_bound).children_.map
          (fun c => c.iter.iter_) = children.map some ∧
      (MergingIterTmpl children prefix_seek_mode iterate_upper_bound).children_.map
          (fun c => c.level) = List.range children.length ∧
      (MergingIterTmpl children prefix_seek_mode iterate_upper_bound).Valid = false) ∧
    ((e0.AddIterator iter).children_.map (fun c => c.iter.iter_) =
        e0.children_.map (fun c => c.iter.iter_) ++ [some iter] ∧
      (e0.AddIterator iter).children_.map (fun c => c.level) =
        e0.children_.map (fun c => c.level) ++ [e0.children_.length] ∧
      (e0.AddIterator iter).Valid = false) ∧
    (e.children_.map (fun c => c.iter.iter_) = (calls.map BuilderCall.point).map some ∧
      e.children_.map (fun c => c.level) = List.range calls.length ∧
      e.Valid = false) := by
  refine ⟨⟨?_, ?_, rfl⟩, ⟨engine_addIterator_iters e0 iter, ?_, rfl⟩, ?_⟩
  · simp only [MergingIterTmpl, List.map_map]
    have : ((fun c : HeapItem UK => c.iter.iter_) ∘ fun p : Nat × InternalIterator UK =>
        ({ iter := (default : IteratorWrapper UK).Set (some p.2), level := p.1,
           parsed_ikey := default, type := HeapItemType.ITERATOR } : HeapItem UK)) =
        (some ∘ Prod.snd) := by
      funext p
      exact wrapper_set_iter p.2
    rw [this, ← List.map_map, List.enum_map_snd]
  · simp only [MergingIterTmpl, List.map_map]
    have : ((fun c : HeapItem UK => c.level) ∘ fun p : Nat × InternalIterator UK =>
        ({ iter := (default : IteratorWrapper UK).Set (some p.2), level := p.1,
           parsed_ikey := default, type := HeapItemType.ITERATOR } : HeapItem UK)) =
        Prod.fst := by
      funext p; rfl
    rw [this, List.enum_map_fst]
  · simp [MergingIterator.AddIterator]
  · obtain ⟨huse, he⟩ := finishAfter_engine h
    have hinv := afterCalls_foldl prefix_seek_mode iterate_upper_bound calls
    obtain ⟨hc1, hc2, _⟩ := engine_finish_children (calls.foldl BuilderCall.apply
      (create prefix_seek_mode iterate_upper_bound)).merge_iter
    have hiters := hinv.iters
    simp only [huse, ↓reduceIte] at hiters
    have hlen : (calls.foldl BuilderCall.apply
        (create prefix_seek_mode iterate_upper_bound)).merge_iter.children_.length =
        calls.length := by
      have := congrArg List.length hiters
      simpa using this
    refine ⟨?_, ?_, ?_⟩
    · rw [he, hc1]; exact hiters
    · rw [he, hc1, hinv.levels, hlen]
    · unfold MergingIterator.Valid
      rw [he, hc2, hinv.current]
      rfl

theorem children_in_order_added_witness :
    finishAfter false none
        [BuilderCall.addIterator ({ run := [⟨1, 5, 1⟩] } : InternalIterator Nat),
          BuilderCall.addPointAndTombstone { run := [⟨2, 3, 1⟩] } none none] =
        IteratorRef.engine (NewIter [{ run := [⟨1, 5, 1⟩] }, { run := [⟨2, 3, 1⟩] }] true false
          none) ∧
      (NewIter [({ run := [⟨1, 5, 1⟩] } : InternalIterator Nat), { run := [⟨2, 3, 1⟩] }] true
          false none).children_.map (fun c => c.level) = List.range 2 :=
  ⟨by decide, (children_in_order_added [] false none default default
    [BuilderCall.addIterator ({ run := [⟨1, 5, 1⟩] } : InternalIterator Nat),
      BuilderCall.addPointAndTombstone { run := [⟨2, 3, 1⟩] } none none]
    (NewIter [{ run := [⟨1, 5, 1⟩] }, { run := [⟨2, 3, 1⟩] }] true false none)
    (by decide)).2.2.2.1⟩

end MergeIteratorBuilder

/-! ## Part IX. Status and validity -/

namespace MergingIterator

open InternalKeyComparator BinaryHeap

variable {UK : Type} [LinearOrder UK] [Inhabited UK]

/-- C13, evaluated: `Seek((0, 100))` on an engine whose first run fails to read its record.
The main pass of `SeekImpl` finds the first run invalid with status `Corruption` and captures
it; the record `(3, 3)` of the second run is covered by the tombstone of the first run, so the
visibility loop re-seeks with `SeekImpl(end_key, 1)`, which sets the status of the engine to ok
again. On return the status is ok and the engine is valid, at `(6, 3)`. -/
theorem seek_loses_captured_status :
    (unreadableFirstRun.SeekImpl ⟨0, 100, 1⟩ 0).status = Status.Corruption ∧
      ((unreadableFirstRun.SeekImpl ⟨0, 100, 1⟩ 0).deref (.child 0)).iter.Valid = false ∧
      ((unreadableFirstRun.Seek 10 ⟨0, 100, 1⟩).map
          (fun e => (e.status, e.Valid, e.key, (e.deref (.child 0)).iter.status))) =
        some (Status.OK, true, ⟨6, 3, 1⟩, Status.Corruption) := by
  decide

/-- The iteration with `Next()` from a state between two public calls ends, in a state that is
not valid. -/
theorem exhaustForward_spec {runs : List (List (ParsedInternalKey UK))}
    {tombs : List (Option (List (RangeTombstone UK)))} (fuel : Nat)
    (hfuel : rankBound runs tombs runs.length ≤ fuel) :
    ∀ (n : Nat) (e : MergingIterator UK), ScanInv runs tombs e →
      (visRem runs tombs e).length ≤ n →
      ∃ e2, exhaustForward fuel n e = some e2 ∧ ScanInv runs tombs e2 ∧ e2.Valid = false := by
  intro n
  induction n with
  | zero =>
    intro e hi hlen
    unfold exhaustForward
    by_cases hv : e.Valid = true
    · exfalso
      obtain ⟨e', _, _, hperm, _⟩ := next_spec hi hv fuel hfuel
      have := hperm.length_eq
      simp at this
      omega
    · simp only [hv, Bool.false_eq_true, ↓reduceIte]
      exact ⟨e, rfl, hi, by simpa using hv⟩
  | succ n ih =>
    intro e hi hlen
    unfold exhaustForward
    by_cases hv : e.Valid = true
    · simp only [hv, ↓reduceIte]
      obtain ⟨e', hnext, hi', hperm, _⟩ := next_spec hi hv fuel hfuel
      rw [hnext]
      simp only []
      apply ih e' hi'
      have := hperm.length_eq
      simp at this
      omega
    · simp only [hv, Bool.false_eq_true, ↓reduceIte]
      exact ⟨e, rfl, hi, by simpa using hv⟩

/-- The iteration with `Prev()` from a state between two public calls ends, in a state that is
not valid. -/
theorem exhaustBackward_spec {runs : List (List (ParsedInternalKey UK))}
    {tombs : List (Option (List (RangeTombstone UK)))} (fuel : Nat)
    (hfuel : rankBound runs tombs runs.length ≤ fuel) :
    ∀ (n : Nat) (e : MergingIterator UK), ScanInvR runs tombs e →
      (visRemR runs tombs e).length ≤ n →
      ∃ e2, exhaustBackward fuel n e = some e2 ∧ ScanInvR runs tombs e2 ∧ e2.Valid = false := by
  intro n
  induction n with
  | zero =>
    intro e hi hlen
    unfold exhaustBackward
    by_cases hv : e.Valid = true
    · exfalso
      obtain ⟨e', _, _, hperm, _⟩ := prev_spec hi hv fuel hfuel
      have := hperm.length_eq
      simp at this
      omega
    · simp only [hv, Bool.false_eq_true, ↓reduceIte]
      exact ⟨e, rfl, hi, by simpa using hv⟩
  | succ n ih =>
    intro e hi hlen
    unfold exhaustBackward
    by_cases hv : e.Valid = true
    · simp only [hv, ↓reduceIte]
      obtain ⟨e', hnext, hi', hperm, _⟩ := prev_spec hi hv fuel hfuel
      rw [hnext]
      simp only []
      apply ih e' hi'
      have := hperm.length_eq
      simp at this
      omega
    · simp only [hv, Bool.false_eq_true, ↓reduceIte]
      exact ⟨e, rfl, hi, by simpa using hv⟩

/-- C14. `Valid()` is true exactly when there is a current child and the status of the engine
is ok, so it is false whenever the status is not ok. For an engine over well-formed runs and
tombstones, whose runs report no error, with fuel for the visibility loops and a bound `n` on
the number of records: the iteration `SeekToFirst()`, `Next()` while `Valid()` ends in a state
with `Valid()` false and `status().ok()` true, and so does the iteration `SeekToLast()`,
`Prev()` while `Valid()`. -/
theorem valid_iff_current_and_status_ok (e0 : MergingIterator UK)
    (runs : List (List (ParsedInternalKey UK)))
    (tombs : List (Option (List (RangeTombstone UK)))) (fuel n : Nat)
    (hwf : WellFormedInput runs tombs)
    (hfuel : rankBound runs tombs runs.length ≤ fuel)
    (hn : runs.flatten.length ≤ n) :
    (e0.Valid = true ↔ (e0.current_.isSome = true ∧ e0.status.ok = true)) ∧
    (e0.status.ok = false → e0.Valid = false) ∧
    (∃ e1 e2, (build runs tombs).SeekToFirst fuel = some e1 ∧
      exhaustForward fuel n e1 = some e2 ∧ e2.Valid = false ∧ e2.status.ok = true) ∧
    (∃ e1 e2, (build runs tombs).SeekToLast fuel = some e1 ∧
      exhaustBackward fuel n e1 = some e2 ∧ e2.Valid = false ∧ e2.status.ok = true) := by
  have hwf' := inputWF_of_wellFormed hwf
  have hlen := le_trans (visibleRecords_length_le runs tombs) hn
  refine ⟨?_, ?_, ?_, ?_⟩
  · simp [Valid, status]
  · intro h
    simp only [Valid, status] at h ⊢
    rw [h]
    simp
  · obtain ⟨e1, h1, h2, h3⟩ := seekToFirst_spec_t (build_base runs tombs hwf') fuel hfuel
    obtain ⟨e2, g1, g2, g3⟩ := exhaustForward_spec fuel hfuel n e1 h2 (by rw [h3]; exact hlen)
    refine ⟨e1, e2, h1, g1, g3, ?_⟩
    simp only [status]
    rw [g2.fwd.struct.base.status_ok]
    rfl
  · obtain ⟨e1, h1, h2, h3⟩ := seekToLast_spec_t (build_base runs tombs hwf') fuel hfuel
    obtain ⟨e2, g1, g2, g3⟩ := exhaustBackward_spec fuel hfuel n e1 h2 (by rw [h3]; exact hlen)
    refine ⟨e1, e2, h1, g1, g3, ?_⟩
    simp only [status]
    rw [g2.fwd.struct.base.status_ok]
    rfl

theorem valid_iff_current_and_status_ok_witness :
    WellFormedInput [[(⟨1, 5, 1⟩ : ParsedInternalKey Nat)], [⟨1, 3, 1⟩, ⟨2, 3, 1⟩]]
        [none, none] ∧
      ∃ e1 e2, (build [[(⟨1, 5, 1⟩ : ParsedInternalKey Nat)], [⟨1, 3, 1⟩, ⟨2, 3, 1⟩]]
          [none, none]).SeekToFirst 6 = some e1 ∧
        exhaustForward 6 3 e1 = some e2 ∧ e2.Valid = false ∧ e2.status.ok = true :=
  ⟨by decide, (valid_iff_current_and_status_ok default _ _ 6 3 (by decide) (by decide)
    (by decide)).2.2.1⟩

end MergingIterator

/-! ## Part X. The retry of children that report try-again -/

namespace MergingIterator

open InternalKeyComparator BinaryHeap

variable {UK : Type} [LinearOrder UK] [Inhabited UK]

theorem push_perm {T : Type} (cmp : T → T → Bool) (h : BinaryHeap T) (v : T) :
    (h.push cmp v).data_.Perm (v :: h.data_) := by
  unfold BinaryHeap.push pushC upheap
  simp only [List.length_append, List.length_singleton, Nat.add_sub_cancel]
  have h0 : (h.data_ ++ [v])[h.data_.length]? = some v := by simp
  simp only [h0]
  have hset : (h.data_ ++ [v]).set h.data_.length v = h.data_ ++ [v] := by
    apply List.ext_getElem?
    intro j
    rw [getElem?_set_eq_ite _ _ _ _ (by simp)]
    by_cases hj : j = h.data_.length
    · subst hj; simp
    · simp [hj]
  have hperm := upheapLoop_perm cmp (h.data_.length + 1) v h.data_.length
    { data := h.data_ ++ [v], index := h.data_.length } (by simp) (by simp)
  simp only [hset] at hperm
  exact hperm.trans (List.perm_append_singleton v h.data_)

theorem count_minPush (e : MergingIterator UK) (p q : HeapItemPtr) :
    (e.minPush q).heap_.data_.count p =
      e.heap_.data_.count p + if q = p then 1 else 0 := by
  have h := (push_perm e.minCmp e.heap_ q).count_eq p
  show (e.heap_.push e.minCmp q).data_.count p = _
  rw [h, List.count_cons]
  simp

theorem sameChild_refl (l : Nat) (e : MergingIterator UK) : SameChild l e e :=
  ⟨rfl, rfl, rfl, rfl⟩

theorem sameChild_trans {l : Nat} {e1 e2 e3 : MergingIterator UK} (h1 : SameChild l e1 e2)
    (h2 : SameChild l e2 e3) : SameChild l e1 e3 :=
  ⟨h2.len.trans h1.len, h2.item.trans h1.item, h2.cnt.trans h1.cnt, h2.slots.trans h1.slots⟩

theorem sameChild_minPush (l : Nat) (e : MergingIterator UK) (q : HeapItemPtr)
    (hq : q ≠ .child l) : SameChild l e (e.minPush q) := by
  refine ⟨rfl, deref_minPush e q _, ?_, rfl⟩
  rw [count_minPush]
  simp [hq]

theorem sameChild_considerStatus (l : Nat) (e : MergingIterator UK) (s : Status) :
    SameChild l e (e.considerStatus s) := by
  unfold considerStatus
  split
  · exact ⟨rfl, rfl, rfl, rfl⟩
  · exact sameChild_refl l e

theorem sameChild_addToMin (l : Nat) (e : MergingIterator UK) (q : HeapItemPtr)
    (hq : q ≠ .child l) : SameChild l e (e.AddToMinHeapOrCheckStatus q) := by
  unfold AddToMinHeapOrCheckStatus
  split
  · exact sameChild_minPush l e q hq
  · exact sameChild_considerStatus l e _

theorem sameChild_store_pinned (l j : Nat) (e : MergingIterator UK) (item : HeapItem UK) :
    SameChild l e (e.store (.pinned j) item) :=
  ⟨rfl, deref_store_pinned_ne e j item _ (by simp), rfl, rfl⟩

theorem sameChild_set_active (l : Nat) (e : MergingIterator UK) (a : List Nat) :
    SameChild l e { e with active_ := a } :=
  ⟨rfl, rfl, rfl, rfl⟩

theorem sameChild_set_status (l : Nat) (e : MergingIterator UK) (s : Status) :
    SameChild l e { e with status_ := s } :=
  ⟨rfl, rfl, rfl, rfl⟩

theorem sameChild_insert (l : Nat) (e : MergingIterator UK) (j : Nat) (a : Bool) :
    SameChild l e (e.InsertRangeTombstoneToMinHeap j a false) := by
  unfold InsertRangeTombstoneToMinHeap
  simp only [Bool.false_eq_true, ↓reduceIte]
  split
  · exact sameChild_refl l e
  · split
    · exact sameChild_trans (sameChild_store_pinned l j e _) (sameChild_minPush l _ _ (by simp))
    · exact sameChild_trans (sameChild_trans (sameChild_store_pinned l j e _)
        (sameChild_set_active l _ _)) (sameChild_minPush l _ _ (by simp))

theorem sameChild_setRti (l : Nat) (e : MergingIterator UK) (j : Nat)
    (it : TruncatedRangeDelIterator UK) : SameChild l e (e.setRti j it) := by
  refine ⟨rfl, deref_setRti e j it _, rfl, ?_⟩
  unfold setRti
  cases h : e.range_tombstone_iters_ with
  | nil => simp
  | cons a t => cases j <;> simp

theorem sameChild_updIter (l lv : Nat) (e : MergingIterator UK)
    (f : IteratorWrapper UK → IteratorWrapper UK) (h : lv ≠ l) :
    SameChild l e (e.updIter (.child lv) f) := by
  refine ⟨?_, deref_updIter_child_ne e lv f _ (by simpa using Ne.symm h), rfl, rfl⟩
  simp [updIter, store]

theorem sameChild_foldl {α : Type} (l : Nat) (f : MergingIterator UK → α → MergingIterator UK)
    (xs : List α) (hf : ∀ e a, a ∈ xs → SameChild l e (f e a)) (e : MergingIterator UK) :
    SameChild l e (xs.foldl f e) := by
  induction xs generalizing e with
  | nil => exact sameChild_refl l e
  | cons a t ih =>
    rw [List.foldl_cons]
    exact sameChild_trans (hf e a (List.mem_cons_self _ _))
      (ih (fun e b hb => hf e b (List.mem_cons_of_mem _ hb)) _)

theorem seekImplStep_eq (pik : ParsedInternalKey UK) (st : SeekLoopState UK) (level : Nat) :
    SeekImplStep pik st level =
      if ((seekStepMid pik st level).e.deref (.child level)).iter.status.IsTryAgain then
        seekStepMid pik st level
      else { seekStepMid pik st level with
        e := (seekStepMid pik st level).e.AddToMinHeapOrCheckStatus (.child level) } := rfl

theorem seekStepMid_sameChild (pik : ParsedInternalKey UK) (st : SeekLoopState UK)
    (level l : Nat) :
    SameChild l (st.e.updIter (.child level) (fun w => w.Seek st.current_search_key))
      (seekStepMid pik st level).e := by
  unfold seekStepMid
  simp only []
  repeat' split
  all_goals first
    | exact sameChild_refl _ _
    | exact sameChild_setRti _ _ _ _
    | exact sameChild_trans (sameChild_setRti _ _ _ _) (sameChild_insert _ _ _ _)

theorem seekStepMid_prefetched (pik : ParsedInternalKey UK) (st : SeekLoopState UK)
    (level : Nat) :
    (seekStepMid pik st level).prefetched_target =
      st.prefetched_target ++
        if (!st.e.range_tombstone_iters_.isEmpty &&
            ((st.e.updIter (.child level)
              (fun w => w.Seek st.current_search_key)).deref (.child level)).iter.status.IsTryAgain)
            = true
        then [(level, st.current_search_key)] else [] := by
  have hs : (st.e.updIter (.child level)
      (fun w => w.Seek st.current_search_key)).range_tombstone_iters_ =
      st.e.range_tombstone_iters_ := by
    simp [updIter, store]
  unfold seekStepMid
  simp only [hs]
  by_cases hemp : st.e.range_tombstone_iters_.isEmpty = true
  · simp [hemp]
  · simp only [hemp, Bool.not_false, Bool.true_and, ↓reduceIte]
    by_cases htry : ((st.e.updIter (.child level)
        (fun w => w.Seek st.current_search_key)).deref (.child level)).iter.status.IsTryAgain
        = true
    · simp only [htry, ↓reduceIte]
      repeat' split
      all_goals rfl
    · simp only [htry, Bool.false_eq_true, ↓reduceIte, List.append_nil]
      repeat' split
      all_goals rfl

theorem seekStepMid_csk (pik : ParsedInternalKey UK) (st : SeekLoopState UK) (level : Nat)
    (hemp : st.e.range_tombstone_iters_.isEmpty = true) :
    (seekStepMid pik st level).current_search_key = st.current_search_key := by
  have hs : (st.e.updIter (.child level)
      (fun w => w.Seek st.current_search_key)).range_tombstone_iters_ =
      st.e.range_tombstone_iters_ := by
    simp [updIter, store]
  unfold seekStepMid
  simp [hs, hemp]

/-- An iteration of the main loop of `SeekImpl` for another level leaves the child of level `l`
alone. -/
theorem seekStep_sameChild (pik : ParsedInternalKey UK) (st : SeekLoopState UK) {l lv : Nat}
    (h : lv ≠ l) : SameChild l st.e (SeekImplStep pik st lv).e := by
  have h1 := sameChild_trans (sameChild_updIter l lv st.e
    (fun w => w.Seek st.current_search_key) h) (seekStepMid_sameChild pik st lv l)
  rw [seekImplStep_eq]
  split
  · exact h1
  · exact sameChild_trans h1 (sameChild_addToMin l _ _ (by simpa using h))

theorem seekStep_prefetched_ne (pik : ParsedInternalKey UK) (st : SeekLoopState UK)
    {l lv : Nat} (h : lv ≠ l) :
    (SeekImplStep pik st lv).prefetched_target.filter (fun p => p.1 == l) =
      st.prefetched_target.filter (fun p => p.1 == l) := by
  have h1 : (SeekImplStep pik st lv).prefetched_target =
      (seekStepMid pik st lv).prefetched_target := by
    rw [seekImplStep_eq]; split <;> rfl
  rw [h1, seekStepMid_prefetched, List.filter_append]
  split
  · simp [h]
  · simp

theorem seekStep_csk (pik : ParsedInternalKey UK) (st : SeekLoopState UK) (lv : Nat)
    (hemp : st.e.range_tombstone_iters_.isEmpty = true) :
    (SeekImplStep pik st lv).current_search_key = st.current_search_key := by
  have h1 : (SeekImplStep pik st lv).current_search_key =
      (seekStepMid pik st lv).current_search_key := by
    rw [seekImplStep_eq]; split <;> rfl
  rw [h1, seekStepMid_csk pik st lv hemp]

theorem seekStep_len (pik : ParsedInternalKey UK) (st : SeekLoopState UK) (lv : Nat) :
    (SeekImplStep pik st lv).e.children_.length = st.e.children_.length ∧
      (SeekImplStep pik st lv).e.range_tombstone_iters_.isEmpty =
        st.e.range_tombstone_iters_.isEmpty := by
  have h0 : (st.e.updIter (.child lv) (fun w => w.Seek st.current_search_key)).children_.length =
        st.e.children_.length ∧
      (st.e.updIter (.child lv)
        (fun w => w.Seek st.current_search_key)).range_tombstone_iters_.isEmpty =
        st.e.range_tombstone_iters_.isEmpty := by
    simp [updIter, store]
  have h1 := seekStepMid_sameChild pik st lv 0
  have h2 : (SeekImplStep pik st lv).e.children_.length =
        (seekStepMid pik st lv).e.children_.length ∧
      (SeekImplStep pik st lv).e.range_tombstone_iters_.isEmpty =
        (seekStepMid pik st lv).e.range_tombstone_iters_.isEmpty := by
    rw [seekImplStep_eq]
    split
    · exact ⟨rfl, rfl⟩
    · unfold AddToMinHeapOrCheckStatus considerStatus
      repeat' split
      all_goals exact ⟨rfl, rfl⟩
  exact ⟨h2.1.trans (h1.len.trans h0.1), h2.2.trans (h1.slots.trans h0.2)⟩

/-- The iteration of the main loop of `SeekImpl` for the level `l`: the child is sought with the
current search key; it is added to the heap unless the seek reports try-again or leaves it not
valid; with tombstone handling a try-again child is noted for the retry with that key. -/
theorem seekStep_self (pik : ParsedInternalKey UK) (st : SeekLoopState UK) (l : Nat)
    (hl : l < st.e.children_.length) :
    ((SeekImplStep pik st l).e.deref (.child l)).iter =
        (st.e.deref (.child l)).iter.Seek st.current_search_key ∧
      (SeekImplStep pik st l).e.heap_.data_.count (.child l) =
        st.e.heap_.data_.count (.child l) +
          (if ((st.e.deref (.child l)).iter.Seek st.current_search_key).status.IsTryAgain = true
            then 0
            else if ((st.e.deref (.child l)).iter.Seek st.current_search_key).Valid = true then 1
            else 0) ∧
      (SeekImplStep pik st l).prefetched_target.filter (fun p => p.1 == l) =
        st.prefetched_target.filter (fun p => p.1 == l) ++
          (if (!st.e.range_tombstone_iters_.isEmpty &&
              ((st.e.deref (.child l)).iter.Seek st.current_search_key).status.IsTryAgain) = true
            then [(l, st.current_search_key)] else []) := by
  have hd1 := deref_updIter_child_self st.e l (fun w => w.Seek st.current_search_key) hl
  have hmid := seekStepMid_sameChild pik st l l
  have hitem : ((seekStepMid pik st l).e.deref (.child l)).iter =
      (st.e.deref (.child l)).iter.Seek st.current_search_key := by
    rw [hmid.item, hd1]
  have hcnt : (seekStepMid pik st l).e.heap_.data_.count (.child l) =
      st.e.heap_.data_.count (.child l) := by
    rw [hmid.cnt]; rfl
  have hpre := seekStepMid_prefetched pik st l
  rw [hd1] at hpre
  simp only [] at hpre
  rw [seekImplStep_eq]
  by_cases htry : ((st.e.deref (.child l)).iter.Seek st.current_search_key).status.IsTryAgain
      = true
  · rw [hitem]
    simp only [htry, ↓reduceIte, Nat.add_zero]
    refine ⟨hitem, hcnt, ?_⟩
    rw [hpre, List.filter_append]
    simp only [htry, Bool.and_true]
    split <;> simp
  · rw [hitem]
    simp only [htry, Bool.false_eq_true, ↓reduceIte, Bool.and_false]
    refine ⟨?_, ?_, ?_⟩
    · unfold AddToMinHeapOrCheckStatus
      split
      · rw [deref_minPush]; exact hitem
      · rw [(sameChild_considerStatus l _ _).item]; exact hitem
    · unfold AddToMinHeapOrCheckStatus
      rw [hitem]
      split
      · rw [count_minPush, hcnt]; simp
      · rw [(sameChild_considerStatus l _ _).cnt, hcnt]; rfl
    · rw [hpre, List.filter_append]
      simp [htry]

theorem seekImplInit_spec (e : MergingIterator UK) {s l : Nat} (hs : s ≤ l) :
    (seekImplInit e s).children_.length = e.children_.length ∧
      (seekImplInit e s).deref (.child l) = e.deref (.child l) ∧
      (seekImplInit e s).heap_.data_.count (.child l) = 0 ∧
      (seekImplInit e s).range_tombstone_iters_.isEmpty = e.range_tombstone_iters_.isEmpty := by
  have h1 : SameChild l (e.ClearHeaps false) ((List.range s).foldl
      (fun (e : MergingIterator UK) level => e.AddToMinHeapOrCheckStatus (.child level))
      (e.ClearHeaps false)) :=
    sameChild_foldl l _ _ (fun e a ha => sameChild_addToMin l e _ (by
      have := List.mem_range.mp ha
      simp only [ne_eq, HeapItemPtr.child.injEq]
      omega)) _
  have hfold : ∀ e1 : MergingIterator UK, SameChild l e1 ((List.range s).foldl
      (fun (e : MergingIterator UK) level =>
        if (e.range_tombstone_iters_[level]?.getD none).isSome && (e.rti level).Valid then
          if e.active_.contains level then e.minPush (.pinned level)
          else e.InsertRangeTombstoneToMinHeap level true false
        else e) e1) := by
    intro e1
    apply sameChild_foldl
    intro e' a _
    split
    · split
      · exact sameChild_minPush l e' _ (by simp)
      · exact sameChild_insert l e' _ _
    · exact sameChild_refl l e'
  have h2 : SameChild l (e.ClearHeaps false) (seekImplInit e s) := by
    refine sameChild_trans ?_ (sameChild_set_status l (seekImplRefill e s) Status.OK)
    unfold seekImplRefill
    simp only []
    split
    · exact sameChild_trans (sameChild_trans h1 (hfold _)) (sameChild_set_active l _ _)
    · exact h1
  refine ⟨h2.len, ?_, ?_, h2.slots⟩
  · rw [h2.item]; exact deref_ClearHeaps e _ _
  · rw [h2.cnt]; rfl

theorem seekImplMain_succ (e : MergingIterator UK) (target : ParsedInternalKey UK) (s k : Nat) :
    seekImplMain e target s (k + 1) = SeekImplStep target (seekImplMain e target s k) (s + k) := by
  unfold seekImplMain
  rw [List.range'_concat, List.foldl_append]
  simp

theorem seekImplMain_len (e : MergingIterator UK) (target : ParsedInternalKey UK) (s k : Nat) :
    (seekImplMain e target s k).e.children_.length = e.children_.length ∧
      (seekImplMain e target s k).e.range_tombstone_iters_.isEmpty =
        e.range_tombstone_iters_.isEmpty := by
  induction k with
  | zero =>
    obtain ⟨h1, _, _, h4⟩ := seekImplInit_spec e (Nat.le_refl s)
    exact ⟨h1, h4⟩
  | succ k ih =>
    rw [seekImplMain_succ]
    obtain ⟨h1, h2⟩ := seekStep_len target (seekImplMain e target s k) (s + k)
    exact ⟨h1.trans ih.1, h2.trans ih.2⟩

theorem seekImplMain_csk (e : MergingIterator UK) (target : ParsedInternalKey UK) (s k : Nat)
    (hemp : e.range_tombstone_iters_.isEmpty = true) :
    (seekImplMain e target s k).current_search_key = target := by
  induction k with
  | zero => rfl
  | succ k ih =>
    rw [seekImplMain_succ, seekStep_csk _ _ _ (by
      rw [(seekImplMain_len e target s k).2]; exact hemp), ih]

/-- The main loop of `SeekImpl` before it reaches the level `l`. -/
theorem seekImplMain_before (e : MergingIterator UK) (target : ParsedInternalKey UK)
    {s l : Nat} (hs : s ≤ l) :
    ∀ k, s + k ≤ l →
      (seekImplMain e target s k).e.deref (.child l) = e.deref (.child l) ∧
      (seekImplMain e target s k).e.heap_.data_.count (.child l) = 0 ∧
      (seekImplMain e target s k).prefetched_target.filter (fun p => p.1 == l) = [] := by
  intro k
  induction k with
  | zero =>
    intro _
    obtain ⟨_, h2, h3, _⟩ := seekImplInit_spec e hs
    exact ⟨h2, h3, rfl⟩
  | succ k ih =>
    intro hk
    obtain ⟨g1, g2, g3⟩ := ih (by omega)
    rw [seekImplMain_succ]
    have hne : s + k ≠ l := by omega
    have hsame := seekStep_sameChild target (seekImplMain e target s k) hne
    exact ⟨hsame.item.trans g1, hsame.cnt.trans g2,
      (seekStep_prefetched_ne target _ hne).trans g3⟩

/-- The main loop of `SeekImpl` after the level `l`. -/
theorem seekImplMain_after (e : MergingIterator UK) (target : ParsedInternalKey UK)
    (s l : Nat) (k0 : Nat) (hk0 : l < s + k0) :
    ∀ j, SameChild l (seekImplMain e target s k0).e (seekImplMain e target s (k0 + j)).e ∧
      (seekImplMain e target s (k0 + j)).prefetched_target.filter (fun p => p.1 == l) =
        (seekImplMain e target s k0).prefetched_target.filter (fun p => p.1 == l) := by
  intro j
  induction j with
  | zero => exact ⟨sameChild_refl _ _, rfl⟩
  | succ j ih =>
    have hne : s + (k0 + j) ≠ l := by omega
    have hsucc : seekImplMain e target s (k0 + (j + 1)) =
        SeekImplStep target (seekImplMain e target s (k0 + j)) (s + (k0 + j)) :=
      seekImplMain_succ e target s (k0 + j)
    rw [hsucc]
    exact ⟨sameChild_trans ih.1 (seekStep_sameChild target _ hne),
      (seekStep_prefetched_ne target _ hne).trans ih.2⟩

/-- The main loop of `SeekImpl` and a child whose seek reports try-again: when the loop has
ended the child has been sought once, with the search key of its level, it is not in the heap,
and with tombstone handling it is noted once for the retry, with that key. -/
theorem seekImplMain_try_again (e : MergingIterator UK) (target : ParsedInternalKey UK)
    {s l : Nat} (hs : s ≤ l) (hl : l < e.children_.length)
    (htry : ((e.deref (.child l)).iter.Seek
      (seekImplMain e target s (l - s)).current_search_key).status.IsTryAgain = true) :
    ((seekImplMain e target s (e.children_.length - s)).e.deref (.child l)).iter =
        (e.deref (.child l)).iter.Seek (seekImplMain e target s (l - s)).current_search_key ∧
      (seekImplMain e target s (e.children_.length - s)).e.heap_.data_.count (.child l) = 0 ∧
      (seekImplMain e target s (e.children_.length - s)).prefetched_target.filter
          (fun p => p.1 == l) =
        if e.range_tombstone_iters_.isEmpty = true then []
        else [(l, (seekImplMain e target s (l - s)).current_search_key)] := by
  obtain ⟨b1, b2, b3⟩ := seekImplMain_before e target hs (l - s) (by omega)
  obtain ⟨hlen, hslots⟩ := seekImplMain_len e target s (l - s)
  have hstep := seekStep_self target (seekImplMain e target s (l - s)) l (by rw [hlen]; exact hl)
  rw [b1, b2, b3] at hstep
  have hsucc := seekImplMain_succ e target s (l - s)
  rw [show s + (l - s) = l from by omega] at hsucc
  rw [← hsucc] at hstep
  simp only [htry, ↓reduceIte, Nat.add_zero, Bool.and_true, List.nil_append, hslots] at hstep
  obtain ⟨c1, c2, c3⟩ := hstep
  obtain ⟨a1, a2⟩ := seekImplMain_after e target s l (l - s + 1) (by omega)
    (e.children_.length - s - (l - s + 1))
  rw [show l - s + 1 + (e.children_.length - s - (l - s + 1)) = e.children_.length - s from by
    omega] at a1 a2
  refine ⟨?_, a1.cnt.trans c2, ?_⟩
  · rw [a1.item]; exact c1
  · rw [a2, c3]
    by_cases hemp : e.range_tombstone_iters_.isEmpty = true
    · simp [hemp]
    · simp [hemp]

theorem retry_step_other (e : MergingIterator UK) {l lv : Nat} (k : ParsedInternalKey UK)
    (h : lv ≠ l) :
    SameChild l e
      ((e.updIter (.child lv) (fun w => w.Seek k)).AddToMinHeapOrCheckStatus (.child lv)) :=
  sameChild_trans (sameChild_updIter l lv e _ h)
    (sameChild_addToMin l _ _ (by simpa using h))

theorem retry_step_self (e : MergingIterator UK) (l : Nat) (k : ParsedInternalKey UK)
    (hl : l < e.children_.length) :
    (((e.updIter (.child l) (fun w => w.Seek k)).AddToMinHeapOrCheckStatus
        (.child l)).deref (.child l)).iter = (e.deref (.child l)).iter.Seek k ∧
      ((e.updIter (.child l) (fun w => w.Seek k)).AddToMinHeapOrCheckStatus
        (.child l)).heap_.data_.count (.child l) =
        e.heap_.data_.count (.child l) +
          (if ((e.deref (.child l)).iter.Seek k).Valid = true then 1 else 0) ∧
      ((e.updIter (.child l) (fun w => w.Seek k)).AddToMinHeapOrCheckStatus
        (.child l)).children_.length = e.children_.length := by
  have hd1 := deref_updIter_child_self e l (fun w => w.Seek k) hl
  have hlen : (e.updIter (.child l) (fun w => w.Seek k)).children_.length =
      e.children_.length := by simp [updIter, store]
  unfold AddToMinHeapOrCheckStatus
  rw [hd1]
  simp only []
  split
  · refine ⟨?_, ?_, hlen⟩
    · rw [deref_minPush, hd1]
    · rw [count_minPush]; simp; rfl
  · refine ⟨?_, ?_, ?_⟩
    · rw [(sameChild_considerStatus l _ _).item, hd1]
    · rw [(sameChild_considerStatus l _ _).cnt]; rfl
    · rw [(sameChild_considerStatus l _ _).len]; exact hlen

theorem filter_singleton_split {α : Type} (q : α → Bool) (x : α) :
    ∀ (ps : List α), ps.filter q = [x] →
      ∃ ps1 ps2, ps = ps1 ++ x :: ps2 ∧ (∀ p ∈ ps1, q p = false) ∧ (∀ p ∈ ps2, q p = false)
  | [], h => by simp at h
  | p :: ps, h => by
    by_cases hp : q p = true
    · rw [List.filter_cons_of_pos hp] at h
      simp only [List.cons.injEq] at h
      refine ⟨[], ps, by simp [h.1], by simp, ?_⟩
      intro p' hp'
      by_contra hcon
      have : p' ∈ ps.filter q := List.mem_filter.mpr ⟨hp', by simpa using hcon⟩
      rw [h.2] at this
      simp at this
    · rw [List.filter_cons_of_neg hp] at h
      obtain ⟨ps1, ps2, h1, h2, h3⟩ := filter_singleton_split q x ps h
      refine ⟨p :: ps1, ps2, by simp [h1], ?_, h3⟩
      intro p' hp'
      rcases List.mem_cons.mp hp' with h' | h'
      · rw [h']; simpa using hp
      · exact h2 p' h'

theorem range_split (n l : Nat) (hl : l < n) :
    List.range n = List.range l ++ l :: List.range' (l + 1) (n - l - 1) := by
  rw [List.range_eq_range', List.range_eq_range']
  have h1 := List.range'_append_1 0 l (n - l)
  rw [show n - l + l = n from by omega, Nat.zero_add] at h1
  rw [← h1]
  congr 1
  have h2 : n - l = (n - l - 1) + 1 := by omega
  rw [h2, List.range'_succ]
  simp

/-- The retry loops of `SeekImpl` and a child whose first seek has reported try-again: the
child is sought once more, with the key of its first seek, and then added to the heap if it is
valid. -/
theorem seekImplRetry_spec (target k : ParsedInternalKey UK) (st : SeekLoopState UK) (l : Nat)
    (hl : l < st.e.children_.length)
    (htry : (st.e.deref (.child l)).iter.status.IsTryAgain = true)
    (hpre : st.prefetched_target.filter (fun p => p.1 == l) =
      if st.e.range_tombstone_iters_.isEmpty = true then [] else [(l, k)])
    (hk : st.e.range_tombstone_iters_.isEmpty = true → k = target) :
    ((seekImplRetry target st).deref (.child l)).iter = (st.e.deref (.child l)).iter.Seek k ∧
      (seekImplRetry target st).heap_.data_.count (.child l) =
        st.e.heap_.data_.count (.child l) +
          (if ((st.e.deref (.child l)).iter.Seek k).Valid = true then 1 else 0) := by
  unfold seekImplRetry
  by_cases hemp : st.e.range_tombstone_iters_.isEmpty = true
  · simp only [hemp, ↓reduceIte]
    have hkt := hk hemp
    subst hkt
    rw [range_split _ l hl, List.foldl_append, List.foldl_cons]
    have hf : ∀ (xs : List Nat), (∀ a ∈ xs, a ≠ l) → ∀ e0 : MergingIterator UK,
        SameChild l e0 (xs.foldl (fun (e : MergingIterator UK) level =>
          if (e.deref (.child level)).iter.status.IsTryAgain then
            (e.updIter (.child level) (fun w => w.Seek k)).AddToMinHeapOrCheckStatus
              (.child level)
          else e) e0) := by
      intro xs hxs e0
      apply sameChild_foldl
      intro e' a ha
      split
      · exact retry_step_other e' k (hxs a ha)
      · exact sameChild_refl l e'
    have h1 := hf (List.range l) (fun a ha => by
      have := List.mem_range.mp ha; omega) st.e
    obtain ⟨e1, he1⟩ : ∃ e1, e1 = (List.range l).foldl (fun (e : MergingIterator UK) level =>
        if (e.deref (.child level)).iter.status.IsTryAgain then
          (e.updIter (.child level) (fun w => w.Seek k)).AddToMinHeapOrCheckStatus
            (.child level)
        else e) st.e := ⟨_, rfl⟩
    rw [← he1] at h1 ⊢
    have htry1 : (e1.deref (.child l)).iter.status.IsTryAgain = true := by
      rw [h1.item]; exact htry
    simp only [htry1, ↓reduceIte]
    obtain ⟨s1, s2, s3⟩ := retry_step_self e1 l k (by rw [h1.len]; exact hl)
    have h2 := hf (List.range' (l + 1) (st.e.children_.length - l - 1)) (fun a ha => by
      have := List.mem_range'_1.mp ha; omega)
      ((e1.updIter (.child l) (fun w => w.Seek k)).AddToMinHeapOrCheckStatus (.child l))
    refine ⟨?_, ?_⟩
    · rw [h2.item, s1, h1.item]
    · rw [h2.cnt, s2, h1.item, h1.cnt]
  · simp only [hemp, Bool.false_eq_true, ↓reduceIte] at hpre ⊢
    obtain ⟨ps1, ps2, hps, hp1, hp2⟩ := filter_singleton_split _ _ _ hpre
    rw [hps, List.foldl_append, List.foldl_cons]
    have hf : ∀ (xs : List (Nat × ParsedInternalKey UK)), (∀ p ∈ xs, (p.1 == l) = false) →
        ∀ e0 : MergingIterator UK,
        SameChild l e0 (xs.foldl (fun (e : MergingIterator UK) prefetch =>
          (e.updIter (.child prefetch.1)
            (fun w => w.Seek prefetch.2)).AddToMinHeapOrCheckStatus (.child prefetch.1)) e0) := by
      intro xs hxs e0
      apply sameChild_foldl
      intro e' a ha
      exact retry_step_other e' a.2 (by simpa using hxs a ha)
    have h1 := hf ps1 hp1 st.e
    obtain ⟨e1, he1⟩ : ∃ e1, e1 = ps1.foldl (fun (e : MergingIterator UK) prefetch =>
        (e.updIter (.child prefetch.1)
          (fun w => w.Seek prefetch.2)).AddToMinHeapOrCheckStatus (.child prefetch.1)) st.e :=
      ⟨_, rfl⟩
    rw [← he1] at h1 ⊢
    obtain ⟨s1, s2, s3⟩ := retry_step_self e1 l k (by rw [h1.len]; exact hl)
    have h2 := hf ps2 hp2
      ((e1.updIter (.child l) (fun w => w.Seek k)).AddToMinHeapOrCheckStatus (.child l))
    refine ⟨?_, ?_⟩
    · rw [h2.item, s1, h1.item]
    · rw [h2.cnt, s2, h1.item, h1.cnt]

theorem seekImpl_eq_retry (e : MergingIterator UK) (target : ParsedInternalKey UK) (s : Nat) :
    e.SeekImpl target s =
      seekImplRetry target (seekImplMain e target s (e.children_.length - s)) := by
  have h : e.SeekImpl target s = seekImplRetry target
      (seekImplMain e target s ((seekImplInit e s).children_.length - s)) := rfl
  rw [h, (seekImplInit_spec e (Nat.le_refl s)).1]

/-- What `SeekImpl` does with a child of a level from `starting_level` on whose seek in the
main loop reports try-again. -/
theorem seekImpl_try_again (e : MergingIterator UK) (target : ParsedInternalKey UK)
    {s l : Nat} (hs : s ≤ l) (hl : l < e.children_.length)
    (htry : ((e.deref (.child l)).iter.Seek
      (seekImplMain e target s (l - s)).current_search_key).status.IsTryAgain = true) :
    ((e.SeekImpl target s).deref (.child l)).iter =
        ((e.deref (.child l)).iter.Seek
          (seekImplMain e target s (l - s)).current_search_key).Seek
          (seekImplMain e target s (l - s)).current_search_key ∧
      (e.SeekImpl target s).heap_.data_.count (.child l) =
        if (((e.deref (.child l)).iter.Seek
          (seekImplMain e target s (l - s)).current_search_key).Seek
          (seekImplMain e target s (l - s)).current_search_key).Valid = true then 1 else 0 := by
  obtain ⟨m1, m2, m3⟩ := seekImplMain_try_again e target hs hl htry
  obtain ⟨hlen, hslots⟩ := seekImplMain_len e target s (e.children_.length - s)
  have hr := seekImplRetry_spec target (seekImplMain e target s (l - s)).current_search_key
    (seekImplMain e target s (e.children_.length - s)) l (by rw [hlen]; exact hl)
    (by rw [m1]; exact htry) (by rw [hslots]; exact m3)
    (fun h => seekImplMain_csk e target s (l - s) (by rw [← hslots]; exact h))
  rw [seekImpl_eq_retry, hr.1, hr.2, m1, m2]
  simp

theorem count_maxPush (e : MergingIterator UK) (p q : HeapItemPtr) :
    (e.maxPush q).heap_.data_.count p =
      e.heap_.data_.count p + if q = p then 1 else 0 := by
  have h := (push_perm e.maxCmp e.heap_ q).count_eq p
  show (e.heap_.push e.maxCmp q).data_.count p = _
  rw [h, List.count_cons]
  simp

theorem sameChild_maxPush (l : Nat) (e : MergingIterator UK) (q : HeapItemPtr)
    (hq : q ≠ .child l) : SameChild l e (e.maxPush q) := by
  refine ⟨rfl, deref_maxPush e q _, ?_, rfl⟩
  rw [count_maxPush]
  simp [hq]

theorem sameChild_addToMax (l : Nat) (e : MergingIterator UK) (q : HeapItemPtr)
    (hq : q ≠ .child l) : SameChild l e (e.AddToMaxHeapOrCheckStatus q) := by
  unfold AddToMaxHeapOrCheckStatus
  split
  · exact sameChild_maxPush l e q hq
  · exact sameChild_considerStatus l e _

theorem sameChild_insertMax (l : Nat) (e : MergingIterator UK) (j : Nat) (a : Bool) :
    SameChild l e (e.InsertRangeTombstoneToMaxHeap j a false) := by
  unfold InsertRangeTombstoneToMaxHeap
  simp only [Bool.false_eq_true, ↓reduceIte]
  split
  · exact sameChild_trans (sameChild_store_pinned l j e _) (sameChild_maxPush l _ _ (by simp))
  · exact sameChild_trans (sameChild_trans (sameChild_store_pinned l j e _)
      (sameChild_set_active l _ _)) (sameChild_maxPush l _ _ (by simp))

theorem seekForPrevImplStep_eq (pik : ParsedInternalKey UK) (st : SeekLoopState UK) (level : Nat) :
    SeekForPrevImplStep pik st level =
      if ((seekForPrevStepMid pik st level).e.deref (.child level)).iter.status.IsTryAgain then
        seekForPrevStepMid pik st level
      else { seekForPrevStepMid pik st level with
        e := (seekForPrevStepMid pik st level).e.AddToMaxHeapOrCheckStatus (.child level) } := rfl

theorem seekForPrevStepMid_sameChild (pik : ParsedInternalKey UK) (st : SeekLoopState UK)
    (level l : Nat) :
    SameChild l (st.e.updIter (.child level) (fun w => w.SeekForPrev st.current_search_key))
      (seekForPrevStepMid pik st level).e := by
  unfold seekForPrevStepMid
  simp only []
  repeat' split
  all_goals first
    | exact sameChild_refl _ _
    | exact sameChild_setRti _ _ _ _
    | exact sameChild_trans (sameChild_setRti _ _ _ _) (sameChild_insertMax _ _ _ _)

theorem seekForPrevStepMid_prefetched (pik : ParsedInternalKey UK) (st : SeekLoopState UK)
    (level : Nat) :
    (seekForPrevStepMid pik st level).prefetched_target =
      st.prefetched_target ++
        if (!st.e.range_tombstone_iters_.isEmpty &&
            ((st.e.updIter (.child level)
              (fun w => w.SeekForPrev st.current_search_key)).deref (.child level)).iter.status.IsTryAgain)
            = true
        then [(level, st.current_search_key)] else [] := by
  have hs : (st.e.updIter (.child level)
      (fun w => w.SeekForPrev st.current_search_key)).range_tombstone_iters_ =
      st.e.range_tombstone_iters_ := by
    simp [updIter, store]
  unfold seekForPrevStepMid
  simp only [hs]
  by_cases hemp : st.e.range_tombstone_iters_.isEmpty = true
  · simp [hemp]
  · simp only [hemp, Bool.not_false, Bool.true_and, ↓reduceIte]
    by_cases htry : ((st.e.updIter (.child level)
        (fun w => w.SeekForPrev st.current_search_key)).deref (.child level)).iter.status.IsTryAgain
        = true
    · simp only [htry, ↓reduceIte]
      repeat' split
      all_goals rfl
    · simp only [htry, Bool.false_eq_true, ↓reduceIte, List.append_nil]
      repeat' split
      all_goals rfl

theorem seekForPrevStepMid_csk (pik : ParsedInternalKey UK) (st : SeekLoopState UK) (level : Nat)
    (hemp : st.e.range_tombstone_iters_.isEmpty = true) :
    (seekForPrevStepMid pik st level).current_search_key = st.current_search_key := by
  have hs : (st.e.updIter (.child level)
      (fun w => w.SeekForPrev st.current_search_key)).range_tombstone_iters_ =
      st.e.range_tombstone_iters_ := by
    simp [updIter, store]
  unfold seekForPrevStepMid
  simp [hs, hemp]

/-- An iteration of the main loop of `SeekForPrevImpl` for another level leaves the child of level `l`
alone. -/
theorem seekForPrevStep_sameChild (pik : ParsedInternalKey UK) (st : SeekLoopState UK) {l lv : Nat}
    (h : lv ≠ l) : SameChild l st.e (SeekForPrevImplStep pik st lv).e := by
  have h1 := sameChild_trans (sameChild_updIter l lv st.e
    (fun w => w.SeekForPrev st.current_search_key) h) (seekForPrevStepMid_sameChild pik st lv l)
  rw [seekForPrevImplStep_eq]
  split
  · exact h1
  · exact sameChild_trans h1 (sameChild_addToMax l _ _ (by simpa using h))

theorem seekForPrevStep_prefetched_ne (pik : ParsedInternalKey UK) (st : SeekLoopState UK)
    {l lv : Nat} (h : lv ≠ l) :
    (SeekForPrevImplStep pik st lv).prefetched_target.filter (fun p => p.1 == l) =
      st.prefetched_target.filter (fun p => p.1 == l) := by
  have h1 : (SeekForPrevImplStep pik st lv).prefetched_target =
      (seekForPrevStepMid pik st lv).prefetched_target := by
    rw [seekForPrevImplStep_eq]; split <;> rfl
  rw [h1, seekForPrevStepMid_prefetched, List.filter_append]
  split
  · simp [h]
  · simp

theorem seekForPrevStep_csk (pik : ParsedInternalKey UK) (st : SeekLoopState UK) (lv : Nat)
    (hemp : st.e.range_tombstone_iters_.isEmpty = true) :
    (SeekForPrevImplStep pik st lv).current_search_key = st.current_search_key := by
  have h1 : (SeekForPrevImplStep pik st lv).current_search_key =
      (seekForPrevStepMid pik st lv).current_search_key := by
    rw [seekForPrevImplStep_eq]; split <;> rfl
  rw [h1, seekForPrevStepMid_csk pik st lv hemp]

theorem seekForPrevStep_len (pik : ParsedInternalKey UK) (st : SeekLoopState UK) (lv : Nat) :
    (SeekForPrevImplStep pik st lv).e.children_.length = st.e.children_.length ∧
      (SeekForPrevImplStep pik st lv).e.range_tombstone_iters_.isEmpty =
        st.e.range_tombstone_iters_.isEmpty := by
  have h0 : (st.e.updIter (.child lv) (fun w => w.SeekForPrev st.current_search_key)).children_.length =
        st.e.children_.length ∧
      (st.e.updIter (.child lv)
        (fun w => w.SeekForPrev st.current_search_key)).range_tombstone_iters_.isEmpty =
        st.e.range_tombstone_iters_.isEmpty := by
    simp [updIter, store]
  have h1 := seekForPrevStepMid_sameChild pik st lv 0
  have h2 : (SeekForPrevImplStep pik st lv).e.children_.length =
        (seekForPrevStepMid pik st lv).e.children_.length ∧
      (SeekForPrevImplStep pik st lv).e.range_tombstone_iters_.isEmpty =
        (seekForPrevStepMid pik st lv).e.range_tombstone_iters_.isEmpty := by
    rw [seekForPrevImplStep_eq]
    split
    · exact ⟨rfl, rfl⟩
    · unfold AddToMaxHeapOrCheckStatus considerStatus
      repeat' split
      all_goals exact ⟨rfl, rfl⟩
  exact ⟨h2.1.trans (h1.len.trans h0.1), h2.2.trans (h1.slots.trans h0.2)⟩

/-- The iteration of the main loop of `SeekForPrevImpl` for the level `l`: the child is sought with the
current search key; it is added to the heap unless the seek reports try-again or leaves it not
valid; with tombstone handling a try-again child is noted for the retry with that key. -/
theorem seekForPrevStep_self (pik : ParsedInternalKey UK) (st : SeekLoopState UK) (l : Nat)
    (hl : l < st.e.children_.length) :
    ((SeekForPrevImplStep pik st l).e.deref (.child l)).iter =
        (st.e.deref (.child l)).iter.SeekForPrev st.current_search_key ∧
      (SeekForPrevImplStep pik st l).e.heap_.data_.count (.child l) =
        st.e.heap_.data_.count (.child l) +
          (if ((st.e.deref (.child l)).iter.SeekForPrev st.current_search_key).status.IsTryAgain = true
            then 0
            else if ((st.e.deref (.child l)).iter.SeekForPrev st.current_search_key).Valid = true then 1
            else 0) ∧
      (SeekForPrevImplStep pik st l).prefetched_target.filter (fun p => p.1 == l) =
        st.prefetched_target.filter (fun p => p.1 == l) ++
          (if (!st.e.range_tombstone_iters_.isEmpty &&
              ((st.e.deref (.child l)).iter.SeekForPrev st.current_search_key).status.IsTryAgain) = true
            then [(l, st.current_search_key)] else []) := by
  have hd1 := deref_updIter_child_self st.e l (fun w => w.SeekForPrev st.current_search_key) hl
  have hmid := seekForPrevStepMid_sameChild pik st l l
  have hitem : ((seekForPrevStepMid pik st l).e.deref (.child l)).iter =
      (st.e.deref (.child l)).iter.SeekForPrev st.current_search_key := by
    rw [hmid.item, hd1]
  have hcnt : (seekForPrevStepMid pik st l).e.heap_.data_.count (.child l) =
      st.e.heap_.data_.count (.child l) := by
    rw [hmid.cnt]; rfl
  have hpre := seekForPrevStepMid_prefetched pik st l
  rw [hd1] at hpre
  simp only [] at hpre
  rw [seekForPrevImplStep_eq]
  by_cases htry : ((st.e.deref (.child l)).iter.SeekForPrev st.current_search_key).status.IsTryAgain
      = true
  · rw [hitem]
    simp only [htry, ↓reduceIte, Nat.add_zero]
    refine ⟨hitem, hcnt, ?_⟩
    rw [hpre, List.filter_append]
    simp only [htry, Bool.and_true]
    split <;> simp
  · rw [hitem]
    simp only [htry, Bool.false_eq_true, ↓reduceIte, Bool.and_false]
    refine ⟨?_, ?_, ?_⟩
    · unfold AddToMaxHeapOrCheckStatus
      split
      · rw [deref_maxPush]; exact hitem
      · rw [(sameChild_considerStatus l _ _).item]; exact hitem
    · unfold AddToMaxHeapOrCheckStatus
      rw [hitem]
      split
      · rw [count_maxPush, hcnt]; simp
      · rw [(sameChild_considerStatus l _ _).cnt, hcnt]; rfl
    · rw [hpre, List.filter_append]
      simp [htry]

theorem seekForPrevImplInit_spec (e : MergingIterator UK) {s l : Nat} (hs : s ≤ l) :
    (seekForPrevImplInit e s).children_.length = e.children_.length ∧
      (seekForPrevImplInit e s).deref (.child l) = e.deref (.child l) ∧
      (seekForPrevImplInit e s).heap_.data_.count (.child l) = 0 ∧
      (seekForPrevImplInit e s).range_tombstone_iters_.isEmpty =
        e.range_tombstone_iters_.isEmpty := by
  have h1 : SameChild l (e.ClearHeaps false).InitMaxHeap ((List.range s).foldl
      (fun (e : MergingIterator UK) level => e.AddToMaxHeapOrCheckStatus (.child level))
      (e.ClearHeaps false).InitMaxHeap) :=
    sameChild_foldl l _ _ (fun e a ha => sameChild_addToMax l e _ (by
      have := List.mem_range.mp ha
      simp only [ne_eq, HeapItemPtr.child.injEq]
      omega)) _
  have hfold : ∀ e1 : MergingIterator UK, SameChild l e1 ((List.range s).foldl
      (fun (e : MergingIterator UK) level =>
        if (e.range_tombstone_iters_[level]?.getD none).isSome && (e.rti level).Valid then
          e.maxPush (.pinned level)
        else e) e1) := by
    intro e1
    apply sameChild_foldl
    intro e' a _
    split
    · exact sameChild_maxPush l e' _ (by simp)
    · exact sameChild_refl l e'
  have h2 : SameChild l (e.ClearHeaps false).InitMaxHeap (seekForPrevImplInit e s) := by
    refine sameChild_trans ?_ (sameChild_set_status l (seekForPrevImplRefill e s) Status.OK)
    unfold seekForPrevImplRefill
    simp only []
    split
    · exact sameChild_trans (sameChild_trans h1 (hfold _)) (sameChild_set_active l _ _)
    · exact h1
  refine ⟨h2.len, ?_, ?_, h2.slots⟩
  · rw [h2.item]
    exact (deref_InitMaxHeap _ _).trans (deref_ClearHeaps e _ _)
  · rw [h2.cnt]; rfl

theorem seekForPrevImplMain_succ (e : MergingIterator UK) (target : ParsedInternalKey UK) (s k : Nat) :
    seekForPrevImplMain e target s (k + 1) = SeekForPrevImplStep target (seekForPrevImplMain e target s k) (s + k) := by
  unfold seekForPrevImplMain
  rw [List.range'_concat, List.foldl_append]
  simp

theorem seekForPrevImplMain_len (e : MergingIterator UK) (target : ParsedInternalKey UK) (s k : Nat) :
    (seekForPrevImplMain e target s k).e.children_.length = e.children_.length ∧
      (seekForPrevImplMain e target s k).e.range_tombstone_iters_.isEmpty =
        e.range_tombstone_iters_.isEmpty := by
  induction k with
  | zero =>
    obtain ⟨h1, _, _, h4⟩ := seekForPrevImplInit_spec e (Nat.le_refl s)
    exact ⟨h1, h4⟩
  | succ k ih =>
    rw [seekForPrevImplMain_succ]
    obtain ⟨h1, h2⟩ := seekForPrevStep_len target (seekForPrevImplMain e target s k) (s + k)
    exact ⟨h1.trans ih.1, h2.trans ih.2⟩

theorem seekForPrevImplMain_csk (e : MergingIterator UK) (target : ParsedInternalKey UK) (s k : Nat)
    (hemp : e.range_tombstone_iters_.isEmpty = true) :
    (seekForPrevImplMain e target s k).current_search_key = target := by
  induction k with
  | zero => rfl
  | succ k ih =>
    rw [seekForPrevImplMain_succ, seekForPrevStep_csk _ _ _ (by
      rw [(seekForPrevImplMain_len e target s k).2]; exact hemp), ih]

/-- The main loop of `SeekForPrevImpl` before it reaches the level `l`. -/
theorem seekForPrevImplMain_before (e : MergingIterator UK) (target : ParsedInternalKey UK)
    {s l : Nat} (hs : s ≤ l) :
    ∀ k, s + k ≤ l →
      (seekForPrevImplMain e target s k).e.deref (.child l) = e.deref (.child l) ∧
      (seekForPrevImplMain e target s k).e.heap_.data_.count (.child l) = 0 ∧
      (seekForPrevImplMain e target s k).prefetched_target.filter (fun p => p.1 == l) = [] := by
  intro k
  induction k with
  | zero =>
    intro _
    obtain ⟨_, h2, h3, _⟩ := seekForPrevImplInit_spec e hs
    exact ⟨h2, h3, rfl⟩
  | succ k ih =>
    intro hk
    obtain ⟨g1, g2, g3⟩ := ih (by omega)
    rw [seekForPrevImplMain_succ]
    have hne : s + k ≠ l := by omega
    have hsame := seekForPrevStep_sameChild target (seekForPrevImplMain e target s k) hne
    exact ⟨hsame.item.trans g1, hsame.cnt.trans g2,
      (seekForPrevStep_prefetched_ne target _ hne).trans g3⟩

/-- The main loop of `SeekForPrevImpl` after the level `l`. -/
theorem seekForPrevImplMain_after (e : MergingIterator UK) (target : ParsedInternalKey UK)
    (s l : Nat) (k0 : Nat) (hk0 : l < s + k0) :
    ∀ j, SameChild l (seekForPrevImplMain e target s k0).e (seekForPrevImplMain e target s (k0 + j)).e ∧
      (seekForPrevImplMain e target s (k0 + j)).prefetched_target.filter (fun p => p.1 == l) =
        (seekForPrevImplMain e target s k0).prefetched_target.filter (fun p => p.1 == l) := by
  intro j
  induction j with
  | zero => exact ⟨sameChild_refl _ _, rfl⟩
  | succ j ih =>
    have hne : s + (k0 + j) ≠ l := by omega
    have hsucc : seekForPrevImplMain e target s (k0 + (j + 1)) =
        SeekForPrevImplStep target (seekForPrevImplMain e target s (k0 + j)) (s + (k0 + j)) :=
      seekForPrevImplMain_succ e target s (k0 + j)
    rw [hsucc]
    exact ⟨sameChild_trans ih.1 (seekForPrevStep_sameChild target _ hne),
      (seekForPrevStep_prefetched_ne target _ hne).trans ih.2⟩

/-- The main loop of `SeekForPrevImpl` and a child whose seek reports try-again: when the loop has
ended the child has been sought once, with the search key of its level, it is not in the heap,
and with tombstone handling it is noted once for the retry, with that key. -/
theorem seekForPrevImplMain_try_again (e : MergingIterator UK) (target : ParsedInternalKey UK)
    {s l : Nat} (hs : s ≤ l) (hl : l < e.children_.length)
    (htry : ((e.deref (.child l)).iter.SeekForPrev
      (seekForPrevImplMain e target s (l - s)).current_search_key).status.IsTryAgain = true) :
    ((seekForPrevImplMain e target s (e.children_.length - s)).e.deref (.child l)).iter =
        (e.deref (.child l)).iter.SeekForPrev (seekForPrevImplMain e target s (l - s)).current_search_key ∧
      (seekForPrevImplMain e target s (e.children_.length - s)).e.heap_.data_.count (.child l) = 0 ∧
      (seekForPrevImplMain e target s (e.children_.length - s)).prefetched_target.filter
          (fun p => p.1 == l) =
        if e.range_tombstone_iters_.isEmpty = true then []
        else [(l, (seekForPrevImplMain e target s (l - s)).current_search_key)] := by
  obtain ⟨b1, b2, b3⟩ := seekForPrevImplMain_before e target hs (l - s) (by omega)
  obtain ⟨hlen, hslots⟩ := seekForPrevImplMain_len e target s (l - s)
  have hstep := seekForPrevStep_self target (seekForPrevImplMain e target s (l - s)) l (by rw [hlen]; exact hl)
  rw [b1, b2, b3] at hstep
  have hsucc := seekForPrevImplMain_succ e target s (l - s)
  rw [show s + (l - s) = l from by omega] at hsucc
  rw [← hsucc] at hstep
  simp only [htry, ↓reduceIte, Nat.add_zero, Bool.and_true, List.nil_append, hslots] at hstep
  obtain ⟨c1, c2, c3⟩ := hstep
  obtain ⟨a1, a2⟩ := seekForPrevImplMain_after e target s l (l - s + 1) (by omega)
    (e.children_.length - s - (l - s + 1))
  rw [show l - s + 1 + (e.children_.length - s - (l - s + 1)) = e.children_.length - s from by
    omega] at a1 a2
  refine ⟨?_, a1.cnt.trans c2, ?_⟩
  · rw [a1.item]; exact c1
  · rw [a2, c3]
    by_cases hemp : e.range_tombstone_iters_.isEmpty = true
    · simp [hemp]
    · simp [hemp]

theorem retryR_step_other (e : MergingIterator UK) {l lv : Nat} (k : ParsedInternalKey UK)
    (h : lv ≠ l) :
    SameChild l e
      ((e.updIter (.child lv) (fun w => w.SeekForPrev k)).AddToMaxHeapOrCheckStatus (.child lv)) :=
  sameChild_trans (sameChild_updIter l lv e _ h)
    (sameChild_addToMax l _ _ (by simpa using h))

theorem retryR_step_self (e : MergingIterator UK) (l : Nat) (k : ParsedInternalKey UK)
    (hl : l < e.children_.length) :
    (((e.updIter (.child l) (fun w => w.SeekForPrev k)).AddToMaxHeapOrCheckStatus
        (.child l)).deref (.child l)).iter = (e.deref (.child l)).iter.SeekForPrev k ∧
      ((e.updIter (.child l) (fun w => w.SeekForPrev k)).AddToMaxHeapOrCheckStatus
        (.child l)).heap_.data_.count (.child l) =
        e.heap_.data_.count (.child l) +
          (if ((e.deref (.child l)).iter.SeekForPrev k).Valid = true then 1 else 0) ∧
      ((e.updIter (.child l) (fun w => w.SeekForPrev k)).AddToMaxHeapOrCheckStatus
        (.child l)).children_.length = e.children_.length := by
  have hd1 := deref_updIter_child_self e l (fun w => w.SeekForPrev k) hl
  have hlen : (e.updIter (.child l) (fun w => w.SeekForPrev k)).children_.length =
      e.children_.length := by simp [updIter, store]
  unfold AddToMaxHeapOrCheckStatus
  rw [hd1]
  simp only []
  split
  · refine ⟨?_, ?_, hlen⟩
    · rw [deref_maxPush, hd1]
    · rw [count_maxPush]; simp; rfl
  · refine ⟨?_, ?_, ?_⟩
    · rw [(sameChild_considerStatus l _ _).item, hd1]
    · rw [(sameChild_considerStatus l _ _).cnt]; rfl
    · rw [(sameChild_considerStatus l _ _).len]; exact hlen

/-- The retry loops of `SeekForPrevImpl` and a child whose first seek has reported try-again: the
child is sought once more, with the key of its first seek, and then added to the heap if it is
valid. -/
theorem seekForPrevImplRetry_spec (target k : ParsedInternalKey UK) (st : SeekLoopState UK) (l : Nat)
    (hl : l < st.e.children_.length)
    (htry : (st.e.deref (.child l)).iter.status.IsTryAgain = true)
    (hpre : st.prefetched_target.filter (fun p => p.1 == l) =
      if st.e.range_tombstone_iters_.isEmpty = true then [] else [(l, k)])
    (hk : st.e.range_tombstone_iters_.isEmpty = true → k = target) :
    ((seekForPrevImplRetry target st).deref (.child l)).iter = (st.e.deref (.child l)).iter.SeekForPrev k ∧
      (seekForPrevImplRetry target st).heap_.data_.count (.child l) =
        st.e.heap_.data_.count (.child l) +
          (if ((st.e.deref (.child l)).iter.SeekForPrev k).Valid = true then 1 else 0) := by
  unfold seekForPrevImplRetry
  by_cases hemp : st.e.range_tombstone_iters_.isEmpty = true
  · simp only [hemp, ↓reduceIte]
    have hkt := hk hemp
    subst hkt
    rw [range_split _ l hl, List.foldl_append, List.foldl_cons]
    have hf : ∀ (xs : List Nat), (∀ a ∈ xs, a ≠ l) → ∀ e0 : MergingIterator UK,
        SameChild l e0 (xs.foldl (fun (e : MergingIterator UK) level =>
          if (e.deref (.child level)).iter.status.IsTryAgain then
            (e.updIter (.child level) (fun w => w.SeekForPrev k)).AddToMaxHeapOrCheckStatus
              (.child level)
          else e) e0) := by
      intro xs hxs e0
      apply sameChild_foldl
      intro e' a ha
      split
      · exact retryR_step_other e' k (hxs a ha)
      · exact sameChild_refl l e'
    have h1 := hf (List.range l) (fun a ha => by
      have := List.mem_range.mp ha; omega) st.e
    obtain ⟨e1, he1⟩ : ∃ e1, e1 = (List.range l).foldl (fun (e : MergingIterator UK) level =>
        if (e.deref (.child level)).iter.status.IsTryAgain then
          (e.updIter (.child level) (fun w => w.SeekForPrev k)).AddToMaxHeapOrCheckStatus
            (.child level)
        else e) st.e := ⟨_, rfl⟩
    rw [← he1] at h1 ⊢
    have htry1 : (e1.deref (.child l)).iter.status.IsTryAgain = true := by
      rw [h1.item]; exact htry
    simp only [htry1, ↓reduceIte]
    obtain ⟨s1, s2, s3⟩ := retryR_step_self e1 l k (by rw [h1.len]; exact hl)
    have h2 := hf (List.range' (l + 1) (st.e.children_.length - l - 1)) (fun a ha => by
      have := List.mem_range'_1.mp ha; omega)
      ((e1.updIter (.child l) (fun w => w.SeekForPrev k)).AddToMaxHeapOrCheckStatus (.child l))
    refine ⟨?_, ?_⟩
    · rw [h2.item, s1, h1.item]
    · rw [h2.cnt, s2, h1.item, h1.cnt]
  · simp only [hemp, Bool.false_eq_true, ↓reduceIte] at hpre ⊢
    obtain ⟨ps1, ps2, hps, hp1, hp2⟩ := filter_singleton_split _ _ _ hpre
    rw [hps, List.foldl_append, List.foldl_cons]
    have hf : ∀ (xs : List (Nat × ParsedInternalKey UK)), (∀ p ∈ xs, (p.1 == l) = false) →
        ∀ e0 : MergingIterator UK,
        SameChild l e0 (xs.foldl (fun (e : MergingIterator UK) prefetch =>
          (e.updIter (.child prefetch.1)
            (fun w => w.SeekForPrev prefetch.2)).AddToMaxHeapOrCheckStatus (.child prefetch.1)) e0) := by
      intro xs hxs e0
      apply sameChild_foldl
      intro e' a ha
      exact retryR_step_other e' a.2 (by simpa using hxs a ha)
    have h1 := hf ps1 hp1 st.e
    obtain ⟨e1, he1⟩ : ∃ e1, e1 = ps1.foldl (fun (e : MergingIterator UK) prefetch =>
        (e.updIter (.child prefetch.1)
          (fun w => w.SeekForPrev prefetch.2)).AddToMaxHeapOrCheckStatus (.child prefetch.1)) st.e :=
      ⟨_, rfl⟩
    rw [← he1] at h1 ⊢
    obtain ⟨s1, s2, s3⟩ := retryR_step_self e1 l k (by rw [h1.len]; exact hl)
    have h2 := hf ps2 hp2
      ((e1.updIter (.child l) (fun w => w.SeekForPrev k)).AddToMaxHeapOrCheckStatus (.child l))
    refine ⟨?_, ?_⟩
    · rw [h2.item, s1, h1.item]
    · rw [h2.cnt, s2, h1.item, h1.cnt]

theorem seekForPrevImpl_eq_retry (e : MergingIterator UK) (target : ParsedInternalKey UK) (s : Nat) :
    e.SeekForPrevImpl target s =
      seekForPrevImplRetry target (seekForPrevImplMain e target s (e.children_.length - s)) := by
  have h : e.SeekForPrevImpl target s = seekForPrevImplRetry target
      (seekForPrevImplMain e target s ((seekForPrevImplInit e s).children_.length - s)) := rfl
  rw [h, (seekForPrevImplInit_spec e (Nat.le_refl s)).1]

/-- What `SeekForPrevImpl` does with a child of a level from `starting_level` on whose seek in the
main loop reports try-again. -/
theorem seekForPrevImpl_try_again (e : MergingIterator UK) (target : ParsedInternalKey UK)
    {s l : Nat} (hs : s ≤ l) (hl : l < e.children_.length)
    (htry : ((e.deref (.child l)).iter.SeekForPrev
      (seekForPrevImplMain e target s (l - s)).current_search_key).status.IsTryAgain = true) :
    ((e.SeekForPrevImpl target s).deref (.child l)).iter =
        ((e.deref (.child l)).iter.SeekForPrev
          (seekForPrevImplMain e target s (l - s)).current_search_key).SeekForPrev
          (seekForPrevImplMain e target s (l - s)).current_search_key ∧
      (e.SeekForPrevImpl target s).heap_.data_.count (.child l) =
        if (((e.deref (.child l)).iter.SeekForPrev
          (seekForPrevImplMain e target s (l - s)).current_search_key).SeekForPrev
          (seekForPrevImplMain e target s (l - s)).current_search_key).Valid = true then 1 else 0 := by
  obtain ⟨m1, m2, m3⟩ := seekForPrevImplMain_try_again e target hs hl htry
  obtain ⟨hlen, hslots⟩ := seekForPrevImplMain_len e target s (e.children_.length - s)
  have hr := seekForPrevImplRetry_spec target (seekForPrevImplMain e target s (l - s)).current_search_key
    (seekForPrevImplMain e target s (e.children_.length - s)) l (by rw [hlen]; exact hl)
    (by rw [m1]; exact htry) (by rw [hslots]; exact m3)
    (fun h => seekForPrevImplMain_csk e target s (l - s) (by rw [← hslots]; exact h))
  rw [seekForPrevImpl_eq_retry, hr.1, hr.2, m1, m2]
  simp

/-- C15. In `SeekImpl(target, starting_level)` and `SeekForPrevImpl(target, starting_level)`,
for a child of a level `l` from `starting_level` on whose seek in the main loop reports
try-again, where `k` is the search key that the main loop holds when it reaches level `l` (the
cascaded target of that level): when the main loop has ended the child has been sought with `k`
and is not in the heap, and with tombstone handling the list of retries holds exactly one entry
for `l`, with the key `k` (without tombstone handling `k` is the target, and the retry loop
visits every child once); when the call returns the child is what one more seek with `k` makes
of it, and it is in the heap, once, exactly if it is valid then. -/
theorem try_again_children_are_retried (e : MergingIterator UK)
    (target : ParsedInternalKey UK) (s l : Nat) (hs : s ≤ l) (hl : l < e.children_.length)
    (htry : ((e.deref (.child l)).iter.Seek
      (seekImplMain e target s (l - s)).current_search_key).status.IsTryAgain = true)
    (htryR : ((e.deref (.child l)).iter.SeekForPrev
      (seekForPrevImplMain e target s (l - s)).current_search_key).status.IsTryAgain = true) :
    (((seekImplMain e target s (e.children_.length - s)).e.deref (.child l)).iter =
        (e.deref (.child l)).iter.Seek (seekImplMain e target s (l - s)).current_search_key ∧
      (seekImplMain e target s (e.children_.length - s)).e.heap_.data_.count (.child l) = 0 ∧
      (seekImplMain e target s (e.children_.length - s)).prefetched_target.filter
          (fun p => p.1 == l) =
        (if e.range_tombstone_iters_.isEmpty = true then []
          else [(l, (seekImplMain e target s (l - s)).current_search_key)]) ∧
      (e.range_tombstone_iters_.isEmpty = true →
        (seekImplMain e target s (l - s)).current_search_key = target) ∧
      ((e.SeekImpl target s).deref (.child l)).iter =
        ((e.deref (.child l)).iter.Seek
          (seekImplMain e target s (l - s)).current_search_key).Seek
          (seekImplMain e target s (l - s)).current_search_key ∧
      (e.SeekImpl target s).heap_.data_.count (.child l) =
        if (((e.deref (.child l)).iter.Seek
          (seekImplMain e target s (l - s)).current_search_key).Seek
          (seekImplMain e target s (l - s)).current_search_key).Valid = true then 1 else 0) ∧
    (((seekForPrevImplMain e target s (e.children_.length - s)).e.deref (.child l)).iter =
        (e.deref (.child l)).iter.SeekForPrev
          (seekForPrevImplMain e target s (l - s)).current_search_key ∧
      (seekForPrevImplMain e target s (e.children_.length - s)).e.heap_.data_.count
        (.child l) = 0 ∧
      (seekForPrevImplMain e target s (e.children_.length - s)).prefetched_target.filter
          (fun p => p.1 == l) =
        (if e.range_tombstone_iters_.isEmpty = true then []
          else [(l, (seekForPrevImplMain e target s (l - s)).current_search_key)]) ∧
      (e.range_tombstone_iters_.isEmpty = true →
        (seekForPrevImplMain e target s (l - s)).current_search_key = target) ∧
      ((e.SeekForPrevImpl target s).deref (.child l)).iter =
        ((e.deref (.child l)).iter.SeekForPrev
          (seekForPrevImplMain e target s (l - s)).current_search_key).SeekForPrev
          (seekForPrevImplMain e target s (l - s)).current_search_key ∧
      (e.SeekForPrevImpl target s).heap_.data_.count (.child l) =
        if (((e.deref (.child l)).iter.SeekForPrev
          (seekForPrevImplMain e target s (l - s)).current_search_key).SeekForPrev
          (seekForPrevImplMain e target s (l - s)).current_search_key).Valid = true
        then 1 else 0) := by
  obtain ⟨m1, m2, m3⟩ := seekImplMain_try_again e target hs hl htry
  obtain ⟨f1, f2⟩ := seekImpl_try_again e target hs hl htry
  obtain ⟨n1, n2, n3⟩ := seekForPrevImplMain_try_again e target hs hl htryR
  obtain ⟨g1, g2⟩ := seekForPrevImpl_try_again e target hs hl htryR
  exact ⟨⟨m1, m2, m3, fun h => seekImplMain_csk e target s (l - s) h, f1, f2⟩,
    ⟨n1, n2, n3, fun h => seekForPrevImplMain_csk e target s (l - s) h, g1, g2⟩⟩

/-- An instance of C15: the second run answers its first seek with try-again; its retry uses
the cascaded key `(9, max)` in `SeekImpl`, so it ends at `(9, 3)` and is in the heap once. -/
theorem try_again_children_are_retried_witness :
    (0 ≤ 1 ∧ 1 < asyncSecondRun.children_.length ∧
      ((asyncSecondRun.deref (.child 1)).iter.Seek
        (seekImplMain asyncSecondRun ⟨2, 100, 1⟩ 0 (1 - 0)).current_search_key).status.IsTryAgain
        = true ∧
      ((asyncSecondRun.deref (.child 1)).iter.SeekForPrev
        (seekForPrevImplMain asyncSecondRun ⟨2, 100, 1⟩ 0
          (1 - 0)).current_search_key).status.IsTryAgain = true) ∧
    ((asyncSecondRun.SeekImpl ⟨2, 100, 1⟩ 0).deref (.child 1)).iter =
      ((asyncSecondRun.deref (.child 1)).iter.Seek
        (seekImplMain asyncSecondRun ⟨2, 100, 1⟩ 0 (1 - 0)).current_search_key).Seek
        (seekImplMain asyncSecondRun ⟨2, 100, 1⟩ 0 (1 - 0)).current_search_key ∧
    (asyncSecondRun.SeekImpl ⟨2, 100, 1⟩ 0).heap_.data_.count (.child 1) = 1 ∧
    ((asyncSecondRun.SeekImpl ⟨2, 100, 1⟩ 0).deref (.child 1)).iter.key = ⟨9, 3, 1⟩ :=
  ⟨⟨by decide, by decide, by decide, by decide⟩,
    (try_again_children_are_retried asyncSecondRun ⟨2, 100, 1⟩ 0 1 (by decide) (by decide)
      (by decide) (by decide)).1.2.2.2.2.1, by decide, by decide⟩

end MergingIterator

/-! ## Part XI. The switches of direction and the round trip of Next and Prev -/

namespace MergingIterator

open InternalKeyComparator BinaryHeap

variable {UK : Type} [LinearOrder UK] [Inhabited UK]

theorem updIter_id (e : MergingIterator UK) (k : Nat)
    (f : IteratorWrapper UK → IteratorWrapper UK) (hk : k < e.children_.length)
    (hf : f (e.deref (.child k)).iter = (e.deref (.child k)).iter) :
    e.updIter (.child k) f = e := by
  unfold updIter
  rw [hf]
  unfold store deref
  simp only []
  have : e.children_.set k (e.children_[k]?.getD default) = e.children_ := by
    rw [List.getElem?_eq_getElem hk]
    simp only [Option.getD_some]
    apply List.ext_getElem?
    intro i
    rw [List.getElem?_set]
    split
    · rename_i h; subst h; simp [hk]
    · rfl
  cases e
  simp only [] at this ⊢
  rw [this]

theorem stepPastEqualBackward_id {l : Nat} {r : List (ParsedInternalKey UK)}
    {item : HeapItem UK} (h : ChildAt l r item) (T : ParsedInternalKey UK) (hT : T ∉ r) :
    stepPastEqualBackward T item.iter = item.iter := by
  unfold stepPastEqualBackward
  have hc : (item.iter.Valid && Equal T item.iter.key) = false := by
    cases hv : item.iter.Valid with
    | false => rfl
    | true =>
      simp only [Bool.true_and]
      obtain ⟨i, hi⟩ : ∃ i, ipos item = some i := by
        have := (childAt_valid_iff h).mp hv
        exact this
      obtain ⟨hk, _⟩ := childAt_key h hi
      unfold Equal
      cases hcmp : Compare T item.iter.key with
      | eq =>
        exfalso
        have := (compare_eq_iff _ _).mp hcmp
        rw [this] at hT
        exact hT (List.getElem?_mem hk)
      | lt => rfl
      | gt => rfl
  rw [hc]
  rfl

theorem stepPastEqualForward_id {l : Nat} {r : List (ParsedInternalKey UK)}
    {item : HeapItem UK} (h : ChildAt l r item) (T : ParsedInternalKey UK) (hT : T ∉ r) :
    stepPastEqualForward T item.iter = item.iter := by
  unfold stepPastEqualForward
  have hc : (item.iter.Valid && Equal T item.iter.key) = false := by
    cases hv : item.iter.Valid with
    | false => rfl
    | true =>
      simp only [Bool.true_and]
      obtain ⟨i, hi⟩ : ∃ i, ipos item = some i := by
        have := (childAt_valid_iff h).mp hv
        exact this
      obtain ⟨hk, _⟩ := childAt_key h hi
      unfold Equal
      cases hcmp : Compare T item.iter.key with
      | eq =>
        exfalso
        have := (compare_eq_iff _ _).mp hcmp
        rw [this] at hT
        exact hT (List.getElem?_mem hk)
      | lt => rfl
      | gt => rfl
  rw [hc]
  rfl

theorem backA_loop {runs : List (List (ParsedInternalKey UK))}
    {tombs : List (Option (List (RangeTombstone UK)))} {ec : HeapItem UK} {s : Nat}
    {T : ParsedInternalKey UK} {e0 : MergingIterator UK}
    (hT : ∀ l, l < runs.length → l ≠ s → T ∉ runAt runs l)
    (h0 : BackA runs tombs ec s T 0 e0) :
    ∀ k, k ≤ runs.length → BackA runs tombs ec s T k
      ((List.range k).foldl
        (fun (e : MergingIterator UK) level =>
          if e.current_ != some (.child level) then
            ((e.updIter (.child level) (fun w => w.SeekForPrev T)).updIter (.child level)
              (stepPastEqualBackward T)).AddToMaxHeapOrCheckStatus (.child level)
          else e.AddToMaxHeapOrCheckStatus (.child level)) e0) := by
  intro k
  induction k with
  | zero => intro _; simpa using h0
  | succ k ih =>
    intro hk
    have ih' := ih (by omega)
    rw [List.range_succ, List.foldl_append]
    simp only [List.foldl_cons, List.foldl_nil]
    obtain ⟨ek, hek⟩ : ∃ ek, ek = (List.range k).foldl
        (fun (e : MergingIterator UK) level =>
          if e.current_ != some (.child level) then
            ((e.updIter (.child level) (fun w => w.SeekForPrev T)).updIter (.child level)
              (stepPastEqualBackward T)).AddToMaxHeapOrCheckStatus (.child level)
          else e.AddToMaxHeapOrCheckStatus (.child level)) e0 := ⟨_, rfl⟩
    rw [← hek] at ih' ⊢
    have hkn : k < runs.length := by omega
    have hkc : k < ek.children_.length := by rw [ih'.base.children_len]; exact hkn
    -- the two cases end with the same call
    have hadd : ∀ e1 : MergingIterator UK, Base runs tombs e1 → e1.active_ = [] →
        HeapPartR k 0 e1 → e1.current_ = some (.child s) → e1.deref (.child s) = ec →
        (∀ l, l < k + 1 → l ≠ s → childCnt e1 l =
          ((runAt runs l).takeWhile (fun r => Compare r T != .gt)).length) →
        BackA runs tombs ec s T (k + 1) (e1.AddToMaxHeapOrCheckStatus (.child k)) := by
      intro e1 hbase1 hact1 hheapP1 hcur1 hitem1 hall
      unfold AddToMaxHeapOrCheckStatus
      by_cases hv : (e1.deref (.child k)).iter.Valid = true
      · simp only [hv, ↓reduceIte]
        exact ⟨base_maxPush hbase1 _, hact1, heapPartR_push_child hheapP1 hv, hcur1,
          by rw [deref_maxPush]; exact hitem1,
          fun l hl hls => by rw [childCnt_congr (deref_maxPush e1 _ _)]; exact hall l hl hls⟩
      · simp only [hv, Bool.false_eq_true, ↓reduceIte]
        rw [childAt_status (hbase1.child_at k hkn), considerStatus_ok]
        exact ⟨hbase1, hact1, heapPartR_skip_child hheapP1 (by simpa using hv), hcur1, hitem1,
          hall⟩
    by_cases hks : k = s
    · have hc : (ek.current_ != some (.child k)) = false := by
        rw [ih'.current, hks]; simp
      simp only [hc, Bool.false_eq_true, ↓reduceIte]
      exact hadd ek ih'.base ih'.active ih'.heap ih'.current ih'.cur_item
        (fun l hl hls => ih'.idx l (by omega) hls)
    · have hc : (ek.current_ != some (.child k)) = true := by
        rw [ih'.current]
        simp
        exact fun h => hks h.symm
      simp only [hc, ↓reduceIte]
      obtain ⟨hca1, hpos1⟩ := childAt_seekForPrev (ih'.base.child_at k hkn) T
      obtain ⟨e1, he1⟩ : ∃ e1, e1 = ek.updIter (.child k) (fun w => w.SeekForPrev T) :=
        ⟨_, rfl⟩
      rw [← he1]
      have hd1k : e1.deref (.child k) = { ek.deref (.child k) with
          iter := (ek.deref (.child k)).iter.SeekForPrev T } := by
        rw [he1]; exact deref_updIter_child_self ek k _ hkc
      have hd1 : ∀ p, p ≠ .child k → e1.deref p = ek.deref p := by
        intro p hp; rw [he1]; exact deref_updIter_child_ne ek k _ p hp
      have hheap1 : e1.heap_ = ek.heap_ := by rw [he1]; rfl
      have hact1 : e1.active_ = [] := by rw [he1, ← ih'.active]; cases ek; rfl
      have hcur1 : e1.current_ = some (.child s) := by rw [he1, ← ih'.current]; cases ek; rfl
      have hbase1 : Base runs tombs e1 := by rw [he1]; exact base_updIter ih'.base k _ hkn hca1
      have hkc1 : k < e1.children_.length := by rw [hbase1.children_len]; exact hkn
      have hstep : e1.updIter (.child k) (stepPastEqualBackward T) = e1 := by
        apply updIter_id e1 k _ hkc1
        exact stepPastEqualBackward_id (hbase1.child_at k hkn) T (hT k hkn hks)
      rw [hstep]
      have hidx1 : childCnt e1 k =
          ((runAt runs k).takeWhile (fun r => Compare r T != .gt)).length := by
        apply childCnt_of_pos
        rw [cpos_eq, hd1k, hpos1]
      have hheapP1 : HeapPartR k 0 e1 :=
        heapPartR_frame_level ih'.heap hheap1 (fun l hl => hd1 _ (by simp; omega))
          (fun j hj => by omega) (fun j hj => by omega)
      refine hadd e1 hbase1 hact1 hheapP1 hcur1 ?_ ?_
      · rw [hd1 _ (by simp; exact fun h => hks h.symm)]; exact ih'.cur_item
      · intro l hl hls
        by_cases hlk : l = k
        · subst hlk; exact hidx1
        · rw [childCnt_congr (hd1 _ (by simp; exact hlk))]
          exact ih'.idx l (by omega) hls

theorem skipStartsAfter_id (pik : ParsedInternalKey UK) (fuel : Nat)
    (it : TruncatedRangeDelIterator UK)
    (h : it.Valid = true → ¬ keyLt pik it.start_key) : skipStartsAfter pik fuel it = it := by
  cases fuel with
  | zero => rfl
  | succ n =>
    unfold skipStartsAfter
    have hc : (it.Valid && Compare it.start_key pik == .gt) = false := by
      cases hv : it.Valid with
      | false => rfl
      | true =>
        simp only [Bool.true_and]
        have := h hv
        rw [← cmp_gt_iff_keyLt] at this
        simpa using this
    rw [hc]
    rfl

theorem skipEndsAtOrBefore_id (pik : ParsedInternalKey UK) (fuel : Nat)
    (it : TruncatedRangeDelIterator UK)
    (h : it.Valid = true → keyLt pik it.end_key) : skipEndsAtOrBefore pik fuel it = it := by
  cases fuel with
  | zero => rfl
  | succ n =>
    unfold skipEndsAtOrBefore
    have hc : (it.Valid && Compare it.end_key pik != .gt) = false := by
      cases hv : it.Valid with
      | false => rfl
      | true =>
        simp only [Bool.true_and]
        have := h hv
        rw [← not_keyLe_iff, ← cmp_ne_gt_iff_keyLe] at this
        simpa using this
    rw [hc]
    rfl

theorem backB_loop {runs : List (List (ParsedInternalKey UK))}
    {tombs : List (Option (List (RangeTombstone UK)))} {ec : HeapItem UK} {s : Nat}
    {T : ParsedInternalKey UK} {e0 : MergingIterator UK}
    (hTseq : T.sequence < kMaxSequenceNumber)
    (h0 : BackB runs tombs ec s T 0 e0) :
    ∀ k, k ≤ runs.length → BackB runs tombs ec s T k
      ((List.range k).foldl
        (fun (e : MergingIterator UK) i =>
          match e.range_tombstone_iters_[i]?.getD none with
          | some iter =>
            let e := e.setRti i
              (skipStartsAfter T (iter.tombstones.length + 1) (iter.SeekForPrev T.user_key))
            if (e.rti i).Valid then
              e.InsertRangeTombstoneToMaxHeap i
                (InternalKeyComparator.Compare (e.rti i).end_key T != .gt) false
            else e
          | none => e) e0) := by
  intro k
  induction k with
  | zero => intro _; simpa using h0
  | succ k ih =>
    intro hk
    have ih' := ih (by omega)
    rw [List.range_succ, List.foldl_append]
    simp only [List.foldl_cons, List.foldl_nil]
    obtain ⟨ek, hek⟩ : ∃ ek, ek = (List.range k).foldl
        (fun (e : MergingIterator UK) i =>
          match e.range_tombstone_iters_[i]?.getD none with
          | some iter =>
            let e := e.setRti i
              (skipStartsAfter T (iter.tombstones.length + 1) (iter.SeekForPrev T.user_key))
            if (e.rti i).Valid then
              e.InsertRangeTombstoneToMaxHeap i
                (InternalKeyComparator.Compare (e.rti i).end_key T != .gt) false
            else e
          | none => e) e0 := ⟨_, rfl⟩
    rw [← hek] at ih' ⊢
    have hkn : k < runs.length := by omega
    have hkact : k ∉ ek.active_ := by
      intro hmem
      have := ((ih'.tomb.active_iff k).mp hmem).1
      omega
    cases hslot : ek.range_tombstone_iters_[k]?.getD none with
    | none =>
      simp only []
      have hrd := rti_default_of_slot_none ek k hslot
      have hv : (ek.rti k).Valid = false := by rw [hrd]; rfl
      refine ⟨ih'.base, tombPartR_extend_invalid ih'.tomb hv,
        heapPartR_skip_pinned ih'.heap hv, ih'.current, ih'.cur_item, ih'.idx, ?_, ?_⟩
      · intro j hj
        by_cases hjk : j = k
        · subst hjk
          have ht0 : tombsAt tombs j = [] := by
            rw [← ih'.base.rti_tombs j hkn, hrd]; rfl
          unfold tombCnt
          rw [hrd, ht0]; rfl
        · exact ih'.tidx j (by omega)
      · intro j hj hvj
        by_cases hjk : j = k
        · subst hjk; rw [hv] at hvj; simp at hvj
        · exact ih'.ends j (by omega) hvj
    | some it =>
      simp only []
      have hit := rti_of_slot_some ek k it hslot
      obtain ⟨hsp, hst⟩ := tseekForPrev_pos it T.user_key
      have htombs : it.tombstones = tombsAt tombs k := by
        rw [← hit]; exact ih'.base.rti_tombs k hkn
      rw [htombs] at hsp hst
      obtain ⟨n, hn⟩ : ∃ n, n = ((tombsAt tombs k).takeWhile
          (fun t => compare t.start_key.user_key T.user_key != .gt)).length := ⟨_, rfl⟩
      rw [← hn] at hsp
      have hnle : n ≤ (tombsAt tombs k).length := by rw [hn]; exact takeWhile_length_le _ _
      obtain ⟨e2, he2⟩ : ∃ e2, e2 = ek.setRti k (it.SeekForPrev T.user_key) := ⟨_, rfl⟩
      have hkr : k < ek.range_tombstone_iters_.length := by rw [ih'.base.rti_len]; exact hkn
      have hr2k : e2.rti k = it.SeekForPrev T.user_key := by
        rw [he2]; exact rti_setRti_self ek k _ hkr
      have hr2 : ∀ j, j ≠ k → e2.rti j = ek.rti j := by
        intro j hj; rw [he2, rti_setRti_ne ek k j _ (Ne.symm hj)]
      have hd2 : ∀ p, e2.deref p = ek.deref p := by intro p; rw [he2]; exact deref_setRti ek _ _ p
      have hheap2 : e2.heap_ = ek.heap_ := by rw [he2]; rfl
      have hact2 : e2.active_ = ek.active_ := by rw [he2]; rfl
      have hcur2 : e2.current_ = some (.child s) := by rw [he2, ← ih'.current]; rfl
      have hbase2 : Base runs tombs e2 := by
        rw [he2]
        refine base_setRti ih'.base k _ hkn (by rw [hslot]; rfl) hst ?_
        intro i hi
        rw [hsp] at hi
        have := cntPos_some hi
        omega
      have hstart : (e2.rti k).Valid = true → (e2.rti k).start_key.user_key ≤ T.user_key ∧
          (e2.rti k).start_key.sequence = kMaxSequenceNumber := by
        intro hv
        obtain ⟨q, hq1, hq2, hq3, hq4, hq5⟩ := base_curR hbase2 k hkn hv
        rw [hr2k, hsp] at hq1
        have hnq := cntPos_some hq1
        exact ⟨tseekForPrev_before T.user_key q _ (by rw [← hn]; omega) hq4, hq5.start_seq⟩
      have hskip : skipStartsAfter T (it.tombstones.length + 1) (it.SeekForPrev T.user_key) =
          it.SeekForPrev T.user_key := by
        apply skipStartsAfter_id
        intro hv
        rw [← hr2k] at hv ⊢
        obtain ⟨h1, h2⟩ := hstart hv
        intro hlt
        have := keyLt_boundary_seq hTseq h2 hlt
        exact absurd h1 (not_le.mpr this)
      rw [hskip, ← he2]
      have htidx2 : tombCnt e2 k = n := by
        apply tombCnt_of_pos
        rw [hr2k, hsp]
      have htomb2 : TombPartR k e2 :=
        tombPartR_of_eq_lt ih'.tomb (fun j _ => hd2 _) (fun j hj => hr2 j (by omega)) hact2
      have hheapP2 : HeapPartR runs.length k e2 :=
        heapPartR_frame_level ih'.heap hheap2 (fun l _ => hd2 _) (fun j _ => hd2 _)
          (fun j hj => hr2 j (by omega))
      have hidx2 : ∀ l, l < runs.length → l ≠ s → childCnt e2 l =
          ((runAt runs l).takeWhile (fun r => Compare r T != .gt)).length := by
        intro l hl hls; rw [childCnt_congr (hd2 _)]; exact ih'.idx l hl hls
      have htall : ∀ e' : MergingIterator UK, (∀ j, e'.rti j = e2.rti j) →
          ∀ j, j < k + 1 → tombCnt e' j = ((tombsAt tombs j).takeWhile
            (fun t => compare t.start_key.user_key T.user_key != .gt)).length := by
        intro e' hr j hj
        rw [tombCnt_congr (hr j)]
        by_cases hjk : j = k
        · subst hjk; rw [htidx2, hn]
        · rw [tombCnt_congr (hr2 j hjk)]; exact ih'.tidx j (by omega)
      have hends2 : ∀ j, j < k → (e2.rti j).Valid = true →
          ((e2.deref (.pinned j)).type = HeapItemType.DELETE_RANGE_START ↔
            keyLt T (e2.rti j).end_key) := by
        intro j hj hvj
        rw [hd2, hr2 j (by omega)]
        rw [hr2 j (by omega)] at hvj
        exact ih'.ends j hj hvj
      by_cases hv2 : (e2.rti k).Valid = true
      · simp only [hv2, ↓reduceIte]
        rw [insertMax_eq e2 k _ false]
        simp only [Bool.false_eq_true, ↓reduceIte]
        obtain ⟨isEnd, hisEnd⟩ : ∃ b, b = (Compare (e2.rti k).end_key T != .gt) := ⟨_, rfl⟩
        rw [← hisEnd]
        obtain ⟨es, hes⟩ : ∃ es, es = stampPinnedR e2 k isEnd := ⟨_, rfl⟩
        rw [← hes]
        have hbases : Base runs tombs es := by rw [hes]; exact base_stampR hbase2 k isEnd hkn
        have htombs' : TombPartR (k + 1) es := by
          rw [hes]
          exact tombPartR_stamp hbase2 htomb2 k isEnd hkn hv2
            (fun _ => by rw [hact2]; exact hkact) (k + 1) (by omega) (by omega)
            (fun i h1 h2 => by omega)
        have hrs : ∀ j, es.rti j = e2.rti j := by
          intro j; rw [hes]; exact stampR_rti e2 k isEnd j
        have hds : ∀ p, p ≠ .pinned k → es.deref p = e2.deref p := by
          intro p hp; rw [hes]; exact stampR_deref_ne e2 k isEnd p hp
        have hheapPs : HeapPartR runs.length k es :=
          heapPartR_frame_level hheapP2 (by rw [hes]; exact stampR_heap e2 k isEnd)
            (fun l _ => hds _ (by simp)) (fun j hj => hds _ (by simp; omega)) (fun j _ => hrs j)
        have hvs : (es.rti k).Valid = true := by rw [hrs]; exact hv2
        have hcurs : es.current_ = some (.child s) := by
          rw [hes, ← hcur2]
          unfold stampPinnedR
          split <;> rfl
        have hkp : k < e2.pinned_heap_item_.length := by rw [hbase2.pinned_len]; exact hkn
        refine ⟨base_maxPush hbases _,
          tombPartR_of_eq htombs' (fun j => deref_maxPush es _ _) (fun j => rfl) rfl,
          heapPartR_push_pinned hheapPs hvs, hcurs, ?_, ?_, ?_, ?_⟩
        · rw [deref_maxPush, hds _ (by simp), hd2]; exact ih'.cur_item
        · intro l hl hls
          rw [childCnt_congr (show (es.maxPush (.pinned k)).deref (.child l) =
            e2.deref (.child l) from by rw [deref_maxPush, hds _ (by simp)])]
          exact hidx2 l hl hls
        · exact htall _ (fun j => by rw [rti_maxPush, hrs])
        · intro j hj hvj
          rw [deref_maxPush, rti_maxPush, hrs]
          rw [rti_maxPush, hrs] at hvj
          by_cases hjk : j = k
          · subst hjk
            rw [hes, stampR_deref_self e2 j isEnd hkp]
            simp only []
            cases hb : isEnd with
            | true =>
              simp only [↓reduceIte]
              rw [hb] at hisEnd
              have h1 : keyLe (e2.rti j).end_key T := (cmp_ne_gt_iff_keyLe _ _).mp hisEnd.symm
              constructor
              · intro h; cases h
              · intro h; exact absurd h1 (not_keyLe_iff.mpr h)
            | false =>
              simp only [Bool.false_eq_true, ↓reduceIte]
              rw [hb] at hisEnd
              have h1 : ¬ keyLe (e2.rti j).end_key T := by
                rw [← cmp_ne_gt_iff_keyLe, ← hisEnd]; simp
              constructor
              · intro _; exact not_keyLe_iff.mp h1
              · intro _; trivial
          · rw [hds _ (by simp; exact hjk)]
            exact hends2 j (by omega) hvj
      · have hv2' : (e2.rti k).Valid = false := by simpa using hv2
        simp only [hv2', Bool.false_eq_true, ↓reduceIte]
        refine ⟨hbase2, tombPartR_extend_invalid htomb2 hv2',
          heapPartR_skip_pinned hheapP2 hv2', hcur2, by rw [hd2]; exact ih'.cur_item, hidx2,
          htall e2 (fun j => rfl), ?_⟩
        intro j hj hvj
        by_cases hjk : j = k
        · subst hjk; rw [hv2'] at hvj; simp at hvj
        · exact hends2 j (by omega) hvj

theorem filter_take_append_drop {α : Type} (p : α → Bool) (xs : List α) (c a : Nat)
    (hca : c ≤ a) (h : ∀ i x, c ≤ i → i < a → xs[i]? = some x → p x = false) :
    (xs.take c).filter p ++ (xs.drop a).filter p = xs.filter p := by
  have h1 : xs = xs.take c ++ ((xs.drop c).take (a - c) ++ xs.drop a) := by
    have h2 : xs.drop a = (xs.drop c).drop (a - c) := by
      rw [List.drop_drop]; congr 1; omega
    rw [h2, List.take_append_drop, List.take_append_drop]
  have h3 : ((xs.drop c).take (a - c)).filter p = [] := by
    rw [List.filter_eq_nil_iff]
    intro x hx
    obtain ⟨i, hi⟩ := List.mem_iff_getElem?.mp hx
    rw [List.getElem?_take] at hi
    by_cases hlt : i < a - c
    · simp only [hlt, ↓reduceIte] at hi
      rw [List.getElem?_drop] at hi
      have := h (c + i) x (by omega) (by omega) hi
      simp [this]
    · simp only [hlt, ↓reduceIte] at hi
      cases hi
  conv_rhs => rw [h1]
  rw [List.filter_append, List.filter_append, h3, List.nil_append]

theorem filter_take_succ_append_drop {α : Type} (p : α → Bool) (xs : List α) (a : Nat) (x : α)
    (hx : xs[a]? = some x) (hp : p x = true) :
    ((xs.take (a + 1)).filter p ++ (xs.drop a).filter p).Perm (x :: xs.filter p) := by
  have hlt : a < xs.length := by
    by_contra hcon; rw [List.getElem?_eq_none (by omega)] at hx; cases hx
  have hxa : xs[a] = x := by
    rw [List.getElem?_eq_getElem hlt] at hx
    exact Option.some.inj hx
  have h1 : xs.take (a + 1) = xs.take a ++ [x] := by
    rw [List.take_succ, hx]; rfl
  have h2 : xs.drop a = x :: xs.drop (a + 1) := by
    rw [← hxa]; exact List.drop_eq_getElem_cons hlt
  have h3 : xs.filter p = (xs.take a).filter p ++ x :: (xs.drop (a + 1)).filter p := by
    conv_lhs => rw [← List.take_append_drop a xs, h2]
    rw [List.filter_append, List.filter_cons_of_pos hp]
  rw [h1, h2, h3, List.filter_append, List.filter_cons_of_pos hp,
    List.filter_cons_of_pos hp, List.filter_nil, List.append_assoc]
  simp only [List.singleton_append]
  exact List.perm_middle

theorem flatMap_append_perm {α β : Type} (f g : α → List β) (L : List α) :
    (L.flatMap f ++ L.flatMap g).Perm (L.flatMap (fun a => f a ++ g a)) := by
  induction L with
  | nil => simp
  | cons a L ih =>
    simp only [List.flatMap_cons, List.append_assoc]
    apply List.Perm.append_left
    exact (List.perm_append_comm_assoc _ _ _).trans (List.Perm.append_left _ ih)

theorem prev_switch (fuel : Nat) (e : MergingIterator UK) (t t' : HeapItemPtr)
    (hc : e.current_ = some t) (hd : e.direction_ = Direction.kForward)
    (hc' : e.SwitchToBackward.current_ = some t')
    (hd' : e.SwitchToBackward.direction_ = Direction.kReverse) :
    e.Prev fuel = e.SwitchToBackward.Prev fuel := by
  have h1 : e.Prev fuel =
      match e.SwitchToBackward.current_ with
      | none => some e.SwitchToBackward
      | some current =>
        let e2 := e.SwitchToBackward.updIter current (fun w => w.Prev)
        let e3 :=
          if (e2.deref current).iter.Valid then
            match e2.heap_.top with
            | some t => e2.maxReplaceTop t
            | none => e2
          else (e2.considerStatus (e2.deref current).iter.status).maxPop
        match e3.FindPrevVisibleKey fuel with
        | some e4 => some { e4 with current_ := e4.CurrentReverse }
        | none => none := by
    unfold Prev
    simp only [hc, hd]
    rfl
  rw [h1]
  unfold Prev
  simp only [hd', bne_self_eq_false, Bool.false_eq_true, ↓reduceIte, hc'] <;> rfl

theorem next_switch (fuel : Nat) (e : MergingIterator UK) (t t' : HeapItemPtr)
    (hc : e.current_ = some t) (hd : e.direction_ = Direction.kReverse)
    (hc' : e.SwitchToForward.current_ = some t')
    (hd' : e.SwitchToForward.direction_ = Direction.kForward) :
    e.Next fuel = e.SwitchToForward.Next fuel := by
  have h1 : e.Next fuel =
      match e.SwitchToForward.current_ with
      | none => some e.SwitchToForward
      | some current =>
        let e2 := e.SwitchToForward.updIter current (fun w => w.Next)
        let e3 :=
          if (e2.deref current).iter.Valid then e2.minUpdateTop
          else (e2.considerStatus (e2.deref current).iter.status).minPop
        match e3.FindNextVisibleKey fuel with
        | some e4 => some { e4 with current_ := e4.CurrentForward }
        | none => none := by
    unfold Next
    simp only [hc, hd]
    rfl
  rw [h1]
  unfold Next
  simp only [hd', bne_self_eq_false, Bool.false_eq_true, ↓reduceIte, hc'] <;> rfl

/-- The method `SwitchToBackward()`, called on a record of a forward scan over runs that share
no record, reaches the state of a backward scan on the same record: the visible records still
to come in the two directions are all visible records, the current one counted twice. -/
theorem switchToBackward_spec {runs : List (List (ParsedInternalKey UK))}
    {tombs : List (Option (List (RangeTombstone UK)))} {e : MergingIterator UK}
    (hi : ScanInv runs tombs e) (hv : e.Valid = true) (hd : DistinctRuns runs) :
    ScanInvR runs tombs e.SwitchToBackward ∧ e.SwitchToBackward.Valid = true ∧
      e.SwitchToBackward.key = e.key ∧
      (visRemR runs tombs e.SwitchToBackward ++ visRem runs tombs e).Perm
        (e.key :: visibleRecords runs tombs) := by
  have hf := hi.fwd
  have hs := hf.struct
  obtain ⟨t, hct⟩ : ∃ t, e.current_ = some t := by
    unfold Valid at hv
    cases hc : e.current_ with
    | none => rw [hc] at hv; simp at hv
    | some t => exact ⟨t, rfl⟩
  have ht : e.heap_.top = some t := by rw [← hi.current]; exact hct
  obtain ⟨s, hts, hvis⟩ := hi.vis t ht
  subst hts
  obtain ⟨⟨hsn, hsv⟩, hmin⟩ := struct_top hs ht
  obtain ⟨i0, hi0, hidx0, hi0lt, hrun0, hseq0, hk0⟩ := base_ckey hs.base s hsn hsv
  have hekey : e.key = ckey e s := by
    unfold key ckey
    rw [hct]
  obtain ⟨T, hT⟩ : ∃ T, T = e.key := ⟨_, rfl⟩
  have hTc : ckey e s = T := by rw [hT, hekey]
  rw [hTc] at hrun0 hseq0 hk0 hvis
  rw [← hT]
  have hTmem : T ∈ runAt runs s := List.getElem?_mem hrun0
  have hTne : ∀ l, l < runs.length → l ≠ s → T ∉ runAt runs l :=
    fun l _ hls => hd s l T (Ne.symm hls) hTmem
  -- the loops
  obtain ⟨e0, he0⟩ : ∃ e0 : MergingIterator UK, e0 = (e.ClearHeaps true).InitMaxHeap :=
    ⟨_, rfl⟩
  have hbase0 : Base runs tombs e0 := by
    rw [he0]; exact base_of_eq hs.base rfl rfl rfl hs.base.status_ok hs.base.no_upper_bound
  have hA0 : BackA runs tombs (e.deref (.child s)) s T 0 e0 := by
    refine ⟨hbase0, by rw [he0]; rfl, ?_, by rw [he0]; exact hct, by rw [he0]; rfl,
      fun l hl => by omega⟩
    apply heapPartR_of_mem
    · rw [he0]; simp [ClearHeaps, InitMaxHeap, BinaryHeap.clear]
    · intro p
      rw [he0]
      cases p <;> simp [InHeapSpec, ClearHeaps, InitMaxHeap, BinaryHeap.clear]
    · rw [he0]; exact heapInv_clear _ (e.ClearHeaps true).heap_
  obtain ⟨e1, he1⟩ : ∃ e1, e1 = (List.range e0.children_.length).foldl
      (fun (e : MergingIterator UK) level =>
        if e.current_ != some (.child level) then
          ((e.updIter (.child level) (fun w => w.SeekForPrev T)).updIter (.child level)
            (stepPastEqualBackward T)).AddToMaxHeapOrCheckStatus (.child level)
        else e.AddToMaxHeapOrCheckStatus (.child level)) e0 := ⟨_, rfl⟩
  have hA : BackA runs tombs (e.deref (.child s)) s T runs.length e1 := by
    rw [he1, hbase0.children_len]; exact backA_loop hTne hA0 runs.length (le_refl _)
  have hB0 : BackB runs tombs (e.deref (.child s)) s T 0 e1 :=
    ⟨hA.base, ⟨fun j hj => by omega, fun j => by rw [hA.active]; simp,
      by rw [hA.active]; exact List.Pairwise.nil⟩, hA.heap, hA.current, hA.cur_item,
      fun l hl hls => hA.idx l hl hls, fun j hj => by omega, fun j hj => by omega⟩
  obtain ⟨e2, he2⟩ : ∃ e2, e2 = (List.range e1.range_tombstone_iters_.length).foldl
      (fun (e : MergingIterator UK) i =>
        match e.range_tombstone_iters_[i]?.getD none with
        | some iter =>
          let e := e.setRti i
            (skipStartsAfter T (iter.tombstones.length + 1) (iter.SeekForPrev T.user_key))
          if (e.rti i).Valid then
            e.InsertRangeTombstoneToMaxHeap i
              (InternalKeyComparator.Compare (e.rti i).end_key T != .gt) false
          else e
        | none => e) e1 := ⟨_, rfl⟩
  have hB : BackB runs tombs (e.deref (.child s)) s T runs.length e2 := by
    rw [he2, hA.base.rti_len]; exact backB_loop hseq0 hB0 runs.length (le_refl _)
  -- the current child
  have hkey_s : hkey e2 (.child s) = T := by
    unfold hkey; rw [hB.cur_item]; exact hk0
  have hckey_s : ckey e2 s = T := by
    unfold ckey; rw [hB.cur_item]; exact hTc
  have hcv_s : cvalid e2 s = true := by
    unfold cvalid; rw [hB.cur_item]; exact hsv
  have hcnt_s : childCnt e2 s = i0 + 1 := by
    rw [childCnt_congr (show e2.deref (.child s) = e.deref (.child s) from hB.cur_item)]
    exact childCnt_some hi0
  have hle : ∀ l, l < runs.length → cvalid e2 l = true → keyLe (ckey e2 l) T := by
    intro l hl hvl
    by_cases hls : l = s
    · subst hls; rw [hckey_s]; exact keyLe_refl _
    · obtain ⟨i, _, hcnt, _, hrun, _, _⟩ := base_ckeyR hB.base l hl hvl
      exact seekForPrev_pos_before T i _ (by rw [← hB.idx l hl hls]; omega) hrun
  have hpassed : ∀ l idx r, l < runs.length → childCnt e2 l ≤ idx →
      (runAt runs l)[idx]? = some r → keyLe T r := by
    intro l idx r hl hidx hr
    by_cases hls : l = s
    · subst hls
      exact sortedRun_le (base_sorted hB.base l) (by omega) hrun0 hr
    · rw [hB.idx l hl hls] at hidx
      exact keyLe_of_keyLt (seekForPrev_pos_after (base_sorted hB.base l) T idx r hidx hr)
  have hstart : ∀ j, j < runs.length → (e2.rti j).Valid = true →
      (e2.rti j).start_key.user_key ≤ T.user_key := by
    intro j hj hvj
    obtain ⟨q, _, hq2, _, hq4, _⟩ := base_curR hB.base j hj hvj
    exact tseekForPrev_before T.user_key q _ (by rw [← hB.tidx j hj]; omega) hq4
  have hUB : UpperBound T e2 := by
    intro p hp
    cases p with
    | child l =>
      obtain ⟨hl, hvl⟩ := (hB.heap.mem_child l).mp hp
      obtain ⟨_, _, _, _, _, _, hk⟩ := base_ckeyR hB.base l hl hvl
      rw [hk]
      exact hle l hl hvl
    | pinned j =>
      obtain ⟨hj, hvj⟩ := (hB.heap.mem_pinned j).mp hp
      rcases pinned_hkey hB.base j hj (hB.tomb.pinned_key j hj hvj) with ⟨_, h2⟩ | ⟨h1, h2⟩
      · rw [h2]
        exact (boundary_keyLe_iff hseq0 _ _).mpr (hstart j hj hvj)
      · rw [h2]
        apply (boundary_keyLe_iff hseq0 _ _).mpr
        have hne : ¬ keyLt T (e2.rti j).end_key := by
          intro hlt
          have := (hB.ends j hj hvj).mpr hlt
          rw [h1] at this
          cases this
        exact keyLe_user_key (not_keyLt_iff.mp hne)
  have hmem_s : HeapItemPtr.child s ∈ e2.heap_.data_ := (hB.heap.mem_child s).mpr ⟨hsn, hcv_s⟩
  have htop2 : e2.heap_.top = some (.child s) := by
    cases ht2 : e2.heap_.top with
    | none =>
      rw [(top_none_iff e2).mp ht2] at hmem_s
      simp at hmem_s
    | some t' =>
      obtain ⟨hmem, hmax⟩ := top_max e2 hB.heap.inv t' ht2
      have h1 := hmax _ hmem_s
      rw [hkey_s] at h1
      have heq : hkey e2 t' = T := keyLe_antisymm (hUB t' hmem) h1
      cases t' with
      | child l =>
        by_cases hls : l = s
        · rw [hls]
        · exfalso
          obtain ⟨hl, hvl⟩ := (hB.heap.mem_child l).mp hmem
          obtain ⟨_, _, _, _, hrun, _, hk⟩ := base_ckeyR hB.base l hl hvl
          rw [← hk, heq] at hrun
          exact hTne l hl hls (List.getElem?_mem hrun)
      | pinned j =>
        exfalso
        obtain ⟨hj, hvj⟩ := (hB.heap.mem_pinned j).mp hmem
        rcases pinned_hkey hB.base j hj (hB.tomb.pinned_key j hj hvj) with ⟨_, h2⟩ | ⟨_, h2⟩
        · rw [heq] at h2; rw [h2] at hseq0; exact lt_irrefl _ hseq0
        · rw [heq] at h2; rw [h2] at hseq0; exact lt_irrefl _ hseq0
  -- the state of the backward scan
  have hf2 : BwdT runs tombs e2 := by
    refine ⟨⟨hB.base, hB.tomb, hB.heap⟩, ?_, ?_, ?_, T, hUB, ?_⟩
    · intro j L hjL hL hvL t' ht'
      obtain ⟨i, hi'⟩ := List.mem_iff_getElem?.mp ht'
      rw [List.getElem?_drop] at hi'
      have h1 := tseekForPrev_after (hB.base.wf.tombs_wf j) T.user_key (tombCnt e2 j + i) t'
        (by rw [hB.tidx j (by omega)]; omega) hi'
      exact lt_of_le_of_lt (keyLe_user_key (hle L hL hvL)) h1
    · intro j L hjL hL hvL hact
      obtain ⟨hj, hvj, hty⟩ := (hB.tomb.active_iff j).mp hact
      have h1 := (hB.ends j hj hvj).mp hty
      obtain ⟨_, _, _, _, _, hwf⟩ := base_curR hB.base j hj hvj
      have h2 := keyLt_boundary_seq hseq0 hwf.end_seq h1
      exact lt_of_le_of_lt (keyLe_user_key (hle L hL hvL)) h2
    · intro L L' idx r hLL hL' hvL' hidx hr
      exact keyLe_trans (hle L' hL' hvL') (hpassed L idx r (by omega) hidx hr)
    · intro l idx r hl hidx hr hlt
      exact absurd (hpassed l idx r hl hidx hr) (not_keyLe_iff.mpr hlt)
  obtain ⟨ef, hef⟩ : ∃ ef : MergingIterator UK, ef =
      { ({ e2 with direction_ := Direction.kReverse } : MergingIterator UK) with
        current_ := some (.child s) } := ⟨_, rfl⟩
  have hsw : e.SwitchToBackward = ef := by
    have h1 : e.SwitchToBackward =
        if !e2.prefix_seek_mode_ then
          { ({ e2 with direction_ := Direction.kReverse } : MergingIterator UK) with
            current_ := e2.heap_.top }
        else { e2 with direction_ := Direction.kReverse } := by
      rw [he2, he1, he0, hT]; rfl
    rw [h1, hef, htop2]
    cases hp : e2.prefix_seek_mode_ with
    | false => rfl
    | true =>
      simp only [Bool.not_true, Bool.false_eq_true, ↓reduceIte]
      rw [← hB.current]
  rw [hsw]
  have hinv : ScanInvR runs tombs ef := by
    rw [hef]
    refine ⟨⟨⟨base_of_eq hB.base rfl rfl rfl hB.base.status_ok hB.base.no_upper_bound,
        tombPartR_of_eq hB.tomb (fun j => rfl) (fun j => rfl) rfl,
        heapPartR_frame hB.heap rfl (fun p _ => rfl) (fun q => by cases q <;> rfl)⟩,
        ?_, ?_, ?_, ?_⟩, ?_, ?_, rfl⟩
    · exact passedTombsR_congr hf2.passed_tombs (fun l => rfl) (fun j => rfl)
    · intro j L hjL hL hvL hact
      exact hf2.active_ended j L hjL hL hvL hact
    · exact passedAbove_congr hf2.passed_above (fun l => rfl)
    · obtain ⟨B', hB1, hB2⟩ := hf2.bound
      exact ⟨B', fun p hp => hB1 p hp, passedRecordsR_congr hB2 (fun l => rfl)⟩
    · intro t' ht'
      have ht'' : e2.heap_.top = some t' := ht'
      rw [htop2] at ht''
      refine ⟨s, (Option.some.inj ht'').symm, ?_⟩
      have : ckey ({ ({ e2 with direction_ := Direction.kReverse } : MergingIterator UK) with
        current_ := some (.child s) }) s = ckey e2 s := rfl
      rw [this, hckey_s]
      exact hvis
    · exact htop2.symm
  refine ⟨hinv, ?_, ?_, ?_⟩
  · rw [hef]
    unfold Valid
    simp only [Option.isSome_some, Bool.true_and]
    rw [hB.base.status_ok]
    rfl
  · rw [hef]
    unfold key
    simp only []
    exact hckey_s
  · have hvr : visRemR runs tombs ef = visRemR runs tombs e2 := by
      rw [hef]; exact visRemR_congr (fun l => rfl)
    rw [hvr]
    refine (flatMap_append_perm _ _ _).trans ?_
    unfold visibleRecords
    apply flatMap_range_perm_cons _ _ T runs.length s hsn
    · rw [hcnt_s, hidx0]
      exact filter_take_succ_append_drop _ _ i0 T hrun0 (by simpa using hvis)
    · intro l hls
      by_cases hl : l < runs.length
      · obtain ⟨B, hLB, hPR⟩ := hf.bound
        have hBT : keyLe B T := by
          have := hLB (.child s) ((top_min e hs.heap.inv _ ht).1)
          rw [hk0] at this
          exact this
        have hafter : ∀ idx r, childIdx runs e l ≤ idx → (runAt runs l)[idx]? = some r →
            keyLt T r := by
          intro idx r hidx hr
          have h1 := remaining_ge_top hs ht l idx r hl hidx hr
          rw [hk0] at h1
          rcases keyLt_total T r with h2 | h2 | h2
          · exact h2
          · exfalso
            rw [← h2] at hr
            exact hTne l hl hls (List.getElem?_mem hr)
          · exact absurd h1 (not_keyLe_iff.mpr h2)
        have hca : childCnt e2 l ≤ childIdx runs e l := by
          by_contra hcon
          have hlt : childIdx runs e l < (runAt runs l).length := by
            have := childCnt_le hB.base l hl
            omega
          have h1 := hafter _ _ (le_refl _) (List.getElem?_eq_getElem hlt)
          have h2 := seekForPrev_pos_before T (childIdx runs e l) _
            (by rw [← hB.idx l hl hls]; omega) (List.getElem?_eq_getElem hlt)
          exact absurd h2 (not_keyLe_iff.mpr h1)
        unfold visibleOf
        apply filter_take_append_drop _ _ _ _ hca
        intro i x hci hia hx
        have h1 : keyLt T x :=
          seekForPrev_pos_after (base_sorted hB.base l) T i x
            (by rw [← hB.idx l hl hls]; exact hci) hx
        have h2 := hPR l i x hl hia hx (keyLt_of_keyLe_of_keyLt hBT h1)
        simpa using h2
      · have hnil : runAt runs l = [] := by
          unfold runAt
          rw [List.getElem?_eq_none (by omega)]
          rfl
        have hnil' : runs[l]?.getD [] = [] := hnil
        rw [hnil, hnil']
        simp [visibleOf]

theorem forA_loop {runs : List (List (ParsedInternalKey UK))}
    {tombs : List (Option (List (RangeTombstone UK)))} {ec : HeapItem UK} {s : Nat}
    {T : ParsedInternalKey UK} {e0 : MergingIterator UK}
    (hT : ∀ l, l < runs.length → l ≠ s → T ∉ runAt runs l)
    (h0 : ForA runs tombs ec s T 0 e0) :
    ∀ k, k ≤ runs.length → ForA runs tombs ec s T k
      ((List.range k).foldl
        (fun (e : MergingIterator UK) level =>
          if e.current_ != some (.child level) then
            let e := e.updIter (.child level) (fun w => w.Seek T)
            if (e.deref (.child level)).iter.status == Status.TryAgain then e
            else
              (e.updIter (.child level) (stepPastEqualForward T)).AddToMinHeapOrCheckStatus
                (.child level)
          else e.AddToMinHeapOrCheckStatus (.child level)) e0) := by
  intro k
  induction k with
  | zero => intro _; simpa using h0
  | succ k ih =>
    intro hk
    have ih' := ih (by omega)
    rw [List.range_succ, List.foldl_append]
    simp only [List.foldl_cons, List.foldl_nil]
    obtain ⟨ek, hek⟩ : ∃ ek, ek = (List.range k).foldl
        (fun (e : MergingIterator UK) level =>
          if e.current_ != some (.child level) then
            let e := e.updIter (.child level) (fun w => w.Seek T)
            if (e.deref (.child level)).iter.status == Status.TryAgain then e
            else
              (e.updIter (.child level) (stepPastEqualForward T)).AddToMinHeapOrCheckStatus
                (.child level)
          else e.AddToMinHeapOrCheckStatus (.child level)) e0 := ⟨_, rfl⟩
    rw [← hek] at ih' ⊢
    have hkn : k < runs.length := by omega
    have hkc : k < ek.children_.length := by rw [ih'.base.children_len]; exact hkn
    have hadd : ∀ e1 : MergingIterator UK, Base runs tombs e1 → e1.active_ = [] →
        HeapPart k 0 e1 → e1.current_ = some (.child s) → e1.deref (.child s) = ec →
        (∀ l, l < k + 1 → l ≠ s → childIdx runs e1 l =
          ((runAt runs l).takeWhile (fun r => Compare r T == .lt)).length) →
        ForA runs tombs ec s T (k + 1) (e1.AddToMinHeapOrCheckStatus (.child k)) := by
      intro e1 hbase1 hact1 hheapP1 hcur1 hitem1 hall
      unfold AddToMinHeapOrCheckStatus
      by_cases hv : (e1.deref (.child k)).iter.Valid = true
      · simp only [hv, ↓reduceIte]
        exact ⟨base_minPush hbase1 _, hact1, heapPart_push_child hheapP1 hv, hcur1,
          by rw [deref_minPush]; exact hitem1,
          fun l hl hls => by rw [childIdx_congr (deref_minPush e1 _ _)]; exact hall l hl hls⟩
      · simp only [hv, Bool.false_eq_true, ↓reduceIte]
        rw [childAt_status (hbase1.child_at k hkn), considerStatus_ok]
        exact ⟨hbase1, hact1, heapPart_skip_child hheapP1 (by simpa using hv), hcur1, hitem1,
          hall⟩
    by_cases hks : k = s
    · have hc : (ek.current_ != some (.child k)) = false := by
        rw [ih'.current, hks]; simp
      simp only [hc, Bool.false_eq_true, ↓reduceIte]
      exact hadd ek ih'.base ih'.active ih'.heap ih'.current ih'.cur_item
        (fun l hl hls => ih'.idx l (by omega) hls)
    · have hc : (ek.current_ != some (.child k)) = true := by
        rw [ih'.current]
        simp
        exact fun h => hks h.symm
      simp only [hc, ↓reduceIte]
      obtain ⟨hca1, hpos1⟩ := childAt_seek (ih'.base.child_at k hkn) T
      obtain ⟨e1, he1⟩ : ∃ e1, e1 = ek.updIter (.child k) (fun w => w.Seek T) :=
        ⟨_, rfl⟩
      rw [← he1]
      have hd1k : e1.deref (.child k) = { ek.deref (.child k) with
          iter := (ek.deref (.child k)).iter.Seek T } := by
        rw [he1]; exact deref_updIter_child_self ek k _ hkc
      have hd1 : ∀ p, p ≠ .child k → e1.deref p = ek.deref p := by
        intro p hp; rw [he1]; exact deref_updIter_child_ne ek k _ p hp
      have hheap1 : e1.heap_ = ek.heap_ := by rw [he1]; rfl
      have hact1 : e1.active_ = [] := by rw [he1, ← ih'.active]; cases ek; rfl
      have hcur1 : e1.current_ = some (.child s) := by rw [he1, ← ih'.current]; cases ek; rfl
      have hbase1 : Base runs tombs e1 := by rw [he1]; exact base_updIter ih'.base k _ hkn hca1
      have hkc1 : k < e1.children_.length := by rw [hbase1.children_len]; exact hkn
      have hstat1 : ((e1.deref (.child k)).iter.status == Status.TryAgain) = false := by
        rw [childAt_status (hbase1.child_at k hkn)]; rfl
      simp only [hstat1, Bool.false_eq_true, ↓reduceIte]
      have hstep : e1.updIter (.child k) (stepPastEqualForward T) = e1 := by
        apply updIter_id e1 k _ hkc1
        exact stepPastEqualForward_id (hbase1.child_at k hkn) T (hT k hkn hks)
      rw [hstep]
      have hidx1 : childIdx runs e1 k =
          ((runAt runs k).takeWhile (fun r => Compare r T == .lt)).length := by
        unfold childIdx
        rw [cpos_eq, hd1k, hpos1]
        exact placePos_getD _ _ (takeWhile_length_le _ _)
      have hheapP1 : HeapPart k 0 e1 :=
        heapPart_frame_level ih'.heap hheap1 (fun l hl => hd1 _ (by simp; omega))
          (fun j hj => by omega) (fun j hj => by omega)
      refine hadd e1 hbase1 hact1 hheapP1 hcur1 ?_ ?_
      · rw [hd1 _ (by simp; exact fun h => hks h.symm)]; exact ih'.cur_item
      · intro l hl hls
        by_cases hlk : l = k
        · subst hlk; exact hidx1
        · rw [childIdx_congr (hd1 _ (by simp; exact hlk))]
          exact ih'.idx l (by omega) hls

/-- The second loop of `SwitchToForward` does nothing when no child reports try-again. -/
theorem forRetry_id {runs : List (List (ParsedInternalKey UK))}
    {tombs : List (Option (List (RangeTombstone UK)))} (T : ParsedInternalKey UK)
    {e : MergingIterator UK} (hb : Base runs tombs e) :
    ∀ L : List Nat, (∀ l ∈ L, l < runs.length) →
      L.foldl
        (fun (e : MergingIterator UK) level =>
          if (e.deref (.child level)).iter.status == Status.TryAgain then
            ((e.updIter (.child level) (fun w => w.Seek T)).updIter (.child level)
              (stepPastEqualForward T)).AddToMinHeapOrCheckStatus (.child level)
          else e) e = e := by
  intro L
  induction L with
  | nil => intro _; rfl
  | cons a L ih =>
    intro hL
    simp only [List.foldl_cons]
    have hstat : ((e.deref (.child a)).iter.status == Status.TryAgain) = false := by
      rw [childAt_status (hb.child_at a (hL a (List.mem_cons_self _ _)))]; rfl
    simp only [hstat, Bool.false_eq_true, ↓reduceIte]
    exact ih (fun l hl => hL l (List.mem_cons_of_mem _ hl))

theorem forB_loop {runs : List (List (ParsedInternalKey UK))}
    {tombs : List (Option (List (RangeTombstone UK)))} {ec : HeapItem UK} {s : Nat}
    {T : ParsedInternalKey UK} {e0 : MergingIterator UK}
    (h0 : ForB runs tombs ec s T 0 e0) :
    ∀ k, k ≤ runs.length → ForB runs tombs ec s T k
      ((List.range k).foldl
        (fun (e : MergingIterator UK) i =>
          match e.range_tombstone_iters_[i]?.getD none with
          | some iter =>
            let e := e.setRti i
              (skipEndsAtOrBefore T (iter.tombstones.length + 1) (iter.Seek T.user_key))
            if (e.rti i).Valid then
              e.InsertRangeTombstoneToMinHeap i
                (InternalKeyComparator.Compare (e.rti i).start_key T == .gt) false
            else e
          | none => e) e0) := by
  intro k
  induction k with
  | zero => intro _; simpa using h0
  | succ k ih =>
    intro hk
    have ih' := ih (by omega)
    rw [List.range_succ, List.foldl_append]
    simp only [List.foldl_cons, List.foldl_nil]
    obtain ⟨ek, hek⟩ : ∃ ek, ek = (List.range k).foldl
        (fun (e : MergingIterator UK) i =>
          match e.range_tombstone_iters_[i]?.getD none with
          | some iter =>
            let e := e.setRti i
              (skipEndsAtOrBefore T (iter.tombstones.length + 1) (iter.Seek T.user_key))
            if (e.rti i).Valid then
              e.InsertRangeTombstoneToMinHeap i
                (InternalKeyComparator.Compare (e.rti i).start_key T == .gt) false
            else e
          | none => e) e0 := ⟨_, rfl⟩
    rw [← hek] at ih' ⊢
    have hkn : k < runs.length := by omega
    have hkact : k ∉ ek.active_ := by
      intro hmem
      have := ((ih'.tomb.active_iff k).mp hmem).1
      omega
    cases hslot : ek.range_tombstone_iters_[k]?.getD none with
    | none =>
      simp only []
      have hrd := rti_default_of_slot_none ek k hslot
      have hv : (ek.rti k).Valid = false := by rw [hrd]; rfl
      refine ⟨ih'.base, tombPart_extend_invalid ih'.tomb hv,
        heapPart_skip_pinned ih'.heap hv, ih'.current, ih'.cur_item, ih'.idx, ?_, ?_⟩
      · intro j hj
        by_cases hjk : j = k
        · subst hjk
          have ht0 : tombsAt tombs j = [] := by
            rw [← ih'.base.rti_tombs j hkn, hrd]; rfl
          unfold tombIdx
          rw [hrd, ht0]; rfl
        · exact ih'.tidx j (by omega)
      · intro j hj hvj
        by_cases hjk : j = k
        · subst hjk; rw [hv] at hvj; simp at hvj
        · exact ih'.starts j (by omega) hvj
    | some it =>
      simp only []
      have hit := rti_of_slot_some ek k it hslot
      obtain ⟨hsp, hst⟩ := tseek_pos it T.user_key
      have htombs : it.tombstones = tombsAt tombs k := by
        rw [← hit]; exact ih'.base.rti_tombs k hkn
      rw [htombs] at hsp hst
      obtain ⟨q, hq⟩ : ∃ q, q = ((tombsAt tombs k).takeWhile
          (fun t => compare t.end_key.user_key T.user_key != .gt)).length := ⟨_, rfl⟩
      rw [← hq] at hsp
      have hqle : q ≤ (tombsAt tombs k).length := by rw [hq]; exact takeWhile_length_le _ _
      obtain ⟨e2, he2⟩ : ∃ e2, e2 = ek.setRti k (it.Seek T.user_key) := ⟨_, rfl⟩
      have hkr : k < ek.range_tombstone_iters_.length := by rw [ih'.base.rti_len]; exact hkn
      have hr2k : e2.rti k = it.Seek T.user_key := by
        rw [he2]; exact rti_setRti_self ek k _ hkr
      have hr2 : ∀ j, j ≠ k → e2.rti j = ek.rti j := by
        intro j hj; rw [he2, rti_setRti_ne ek k j _ (Ne.symm hj)]
      have hd2 : ∀ p, e2.deref p = ek.deref p := by intro p; rw [he2]; exact deref_setRti ek _ _ p
      have hheap2 : e2.heap_ = ek.heap_ := by rw [he2]; rfl
      have hact2 : e2.active_ = ek.active_ := by rw [he2]; rfl
      have hcur2 : e2.current_ = some (.child s) := by rw [he2, ← ih'.current]; rfl
      have hbase2 : Base runs tombs e2 := by
        rw [he2]
        refine base_setRti ih'.base k _ hkn (by rw [hslot]; rfl) hst ?_
        intro i hi
        rw [hsp] at hi
        obtain ⟨h1, h2⟩ := placePos_some hi
        omega
      have hend : (e2.rti k).Valid = true → T.user_key < (e2.rti k).end_key.user_key := by
        intro hv
        obtain ⟨q2, hq2, _, hq2lt, hcur2', hwf2⟩ := base_cur hbase2 k hkn hv
        have hq2q : q2 = q := by
          rw [hr2k, hsp] at hq2
          exact (placePos_some hq2).1
        subst hq2q
        have h1 : (compare (e2.rti k).cur.end_key.user_key T.user_key != .gt) = false :=
          takeWhile_at (fun t => compare t.end_key.user_key T.user_key != .gt)
            (tombsAt tombs k) _ (by rw [← hq]; exact hcur2')
        by_contra hcon
        have h2 : (compare (e2.rti k).cur.end_key.user_key T.user_key != .gt) = true :=
          (compare_ne_gt_iff_le _ _).mpr (not_lt.mp hcon)
        rw [h1] at h2
        exact absurd h2 (by decide)
      have hskip : skipEndsAtOrBefore T (it.tombstones.length + 1) (it.Seek T.user_key) =
          it.Seek T.user_key := by
        apply skipEndsAtOrBefore_id
        intro hv
        rw [← hr2k] at hv ⊢
        exact keyLt_of_user_key_lt (hend hv)
      rw [hskip, ← he2]
      have htidx2 : tombIdx e2 k = q := by
        unfold tombIdx
        rw [hr2k, hsp, hst]
        exact placePos_getD _ _ hqle
      have htomb2 : TombPart k e2 :=
        tombPart_of_eq_lt ih'.tomb (fun j _ => hd2 _) (fun j hj => hr2 j (by omega)) hact2
      have hheapP2 : HeapPart runs.length k e2 :=
        heapPart_frame_level ih'.heap hheap2 (fun l _ => hd2 _) (fun j _ => hd2 _)
          (fun j hj => hr2 j (by omega))
      have hidx2 : ∀ l, l < runs.length → l ≠ s → childIdx runs e2 l =
          ((runAt runs l).takeWhile (fun r => Compare r T == .lt)).length := by
        intro l hl hls; rw [childIdx_congr (hd2 _)]; exact ih'.idx l hl hls
      have htall : ∀ e' : MergingIterator UK, (∀ j, e'.rti j = e2.rti j) →
          ∀ j, j < k + 1 → tombIdx e' j = ((tombsAt tombs j).takeWhile
            (fun t => compare t.end_key.user_key T.user_key != .gt)).length := by
        intro e' hr j hj
        rw [tombIdx_congr (hr j)]
        by_cases hjk : j = k
        · subst hjk; rw [htidx2, hq]
        · rw [tombIdx_congr (hr2 j hjk)]; exact ih'.tidx j (by omega)
      have hstarts2 : ∀ j, j < k → (e2.rti j).Valid = true →
          ((e2.deref (.pinned j)).type = HeapItemType.DELETE_RANGE_START ↔
            keyLt T (e2.rti j).start_key) := by
        intro j hj hvj
        rw [hd2, hr2 j (by omega)]
        rw [hr2 j (by omega)] at hvj
        exact ih'.starts j hj hvj
      by_cases hv2 : (e2.rti k).Valid = true
      · simp only [hv2, ↓reduceIte]
        obtain ⟨start, hstart⟩ : ∃ b, b = (Compare (e2.rti k).start_key T == .gt) := ⟨_, rfl⟩
        rw [← hstart, insert_eq e2 k start false hbase2.no_upper_bound]
        simp only [Bool.false_eq_true, ↓reduceIte]
        obtain ⟨es, hes⟩ : ∃ es, es = stampPinned e2 k start := ⟨_, rfl⟩
        rw [← hes]
        have hbases : Base runs tombs es := by rw [hes]; exact base_stamp hbase2 k start hkn
        have htombs' : TombPart (k + 1) es := by
          rw [hes]
          exact tombPart_stamp hbase2 htomb2 k start hkn hv2
            (fun _ => by rw [hact2]; exact hkact) (k + 1) (by omega) (by omega)
            (fun i h1 h2 => by omega)
        have hrs : ∀ j, es.rti j = e2.rti j := by
          intro j; rw [hes]; exact stamp_rti e2 k start j
        have hds : ∀ p, p ≠ .pinned k → es.deref p = e2.deref p := by
          intro p hp; rw [hes]; exact stamp_deref_ne e2 k start p hp
        have hheapPs : HeapPart runs.length k es :=
          heapPart_frame_level hheapP2 (by rw [hes]; exact stamp_heap e2 k start)
            (fun l _ => hds _ (by simp)) (fun j hj => hds _ (by simp; omega)) (fun j _ => hrs j)
        have hvs : (es.rti k).Valid = true := by rw [hrs]; exact hv2
        have hcurs : es.current_ = some (.child s) := by
          rw [hes, ← hcur2]
          unfold stampPinned
          split <;> rfl
        have hkp : k < e2.pinned_heap_item_.length := by rw [hbase2.pinned_len]; exact hkn
        refine ⟨base_minPush hbases _,
          tombPart_of_eq htombs' (fun j => deref_minPush es _ _) (fun j => rfl) rfl,
          heapPart_push_pinned hheapPs hvs, hcurs, ?_, ?_, ?_, ?_⟩
        · rw [deref_minPush, hds _ (by simp), hd2]; exact ih'.cur_item
        · intro l hl hls
          rw [childIdx_congr (show (es.minPush (.pinned k)).deref (.child l) =
            e2.deref (.child l) from by rw [deref_minPush, hds _ (by simp)])]
          exact hidx2 l hl hls
        · exact htall _ (fun j => by rw [rti_minPush, hrs])
        · intro j hj hvj
          rw [deref_minPush, rti_minPush, hrs]
          rw [rti_minPush, hrs] at hvj
          by_cases hjk : j = k
          · subst hjk
            rw [hes, stamp_deref_self e2 j start hkp]
            simp only []
            cases hb : start with
            | true =>
              simp only [↓reduceIte]
              rw [hb] at hstart
              have h1 : keyLt T (e2.rti j).start_key := (cmp_gt_iff_keyLt _ _).mp hstart.symm
              constructor
              · intro _; exact h1
              · intro _; trivial
            | false =>
              simp only [Bool.false_eq_true, ↓reduceIte]
              rw [hb] at hstart
              have h1 : ¬ keyLt T (e2.rti j).start_key := by
                rw [← cmp_gt_iff_keyLt, ← hstart]; simp
              constructor
              · intro h; cases h
              · intro h; exact absurd h h1
          · rw [hds _ (by simp; exact hjk)]
            exact hstarts2 j (by omega) hvj
      · have hv2' : (e2.rti k).Valid = false := by simpa using hv2
        simp only [hv2', Bool.false_eq_true, ↓reduceIte]
        refine ⟨hbase2, tombPart_extend_invalid htomb2 hv2',
          heapPart_skip_pinned hheapP2 hv2', hcur2, by rw [hd2]; exact ih'.cur_item, hidx2,
          htall e2 (fun j => rfl), ?_⟩
        intro j hj hvj
        by_cases hjk : j = k
        · subst hjk; rw [hv2'] at hvj; simp at hvj
        · exact hstarts2 j (by omega) hvj

/-- The method `SwitchToForward()`, called on a record of a backward scan over runs that share
no record, reaches the state of a forward scan on the same record: the visible records still
to come in the two directions are all visible records, the current one counted twice. -/
theorem switchToForward_spec {runs : List (List (ParsedInternalKey UK))}
    {tombs : List (Option (List (RangeTombstone UK)))} {e : MergingIterator UK}
    (hi : ScanInvR runs tombs e) (hv : e.Valid = true) (hd : DistinctRuns runs) :
    ScanInv runs tombs e.SwitchToForward ∧ e.SwitchToForward.Valid = true ∧
      e.SwitchToForward.key = e.key ∧
      (visRemR runs tombs e ++ visRem runs tombs e.SwitchToForward).Perm
        (e.key :: visibleRecords runs tombs) := by
  have hf := hi.fwd
  have hs := hf.struct
  obtain ⟨t, hct⟩ : ∃ t, e.current_ = some t := by
    unfold Valid at hv
    cases hc : e.current_ with
    | none => rw [hc] at hv; simp at hv
    | some t => exact ⟨t, rfl⟩
  have ht : e.heap_.top = some t := by rw [← hi.current]; exact hct
  obtain ⟨s, hts, hvis⟩ := hi.vis t ht
  subst hts
  obtain ⟨⟨hsn, hsv⟩, hmax⟩ := structR_top hs ht
  obtain ⟨i0, hi0, hcnt0, hi0lt, hrun0, hseq0, hk0⟩ := base_ckeyR hs.base s hsn hsv
  have hekey : e.key = ckey e s := by
    unfold key ckey
    rw [hct]
  obtain ⟨T, hT⟩ : ∃ T, T = e.key := ⟨_, rfl⟩
  have hTc : ckey e s = T := by rw [hT, hekey]
  rw [hTc] at hrun0 hseq0 hk0 hvis
  rw [← hT]
  have hTmem : T ∈ runAt runs s := List.getElem?_mem hrun0
  have hTne : ∀ l, l < runs.length → l ≠ s → T ∉ runAt runs l :=
    fun l _ hls => hd s l T (Ne.symm hls) hTmem
  -- the loops
  obtain ⟨e0, he0⟩ : ∃ e0 : MergingIterator UK, e0 = e.ClearHeaps true := ⟨_, rfl⟩
  have hbase0 : Base runs tombs e0 := by
    rw [he0]; exact base_of_eq hs.base rfl rfl rfl hs.base.status_ok hs.base.no_upper_bound
  have hA0 : ForA runs tombs (e.deref (.child s)) s T 0 e0 := by
    refine ⟨hbase0, by rw [he0]; rfl, ?_, by rw [he0]; exact hct, by rw [he0]; rfl,
      fun l hl => by omega⟩
    apply heapPart_of_mem
    · rw [he0]; simp [ClearHeaps, BinaryHeap.clear]
    · intro p
      rw [he0]
      cases p <;> simp [InHeapSpec, ClearHeaps, BinaryHeap.clear]
    · rw [he0]; exact heapInv_clear _ e.heap_
  obtain ⟨e1, he1⟩ : ∃ e1, e1 = (List.range e0.children_.length).foldl
      (fun (e : MergingIterator UK) level =>
        if e.current_ != some (.child level) then
          let e := e.updIter (.child level) (fun w => w.Seek T)
          if (e.deref (.child level)).iter.status == Status.TryAgain then e
          else
            (e.updIter (.child level) (stepPastEqualForward T)).AddToMinHeapOrCheckStatus
              (.child level)
        else e.AddToMinHeapOrCheckStatus (.child level)) e0 := ⟨_, rfl⟩
  have hA : ForA runs tombs (e.deref (.child s)) s T runs.length e1 := by
    rw [he1, hbase0.children_len]; exact forA_loop hTne hA0 runs.length (le_refl _)
  have hretry : (List.range e1.children_.length).foldl
      (fun (e : MergingIterator UK) level =>
        if (e.deref (.child level)).iter.status == Status.TryAgain then
          ((e.updIter (.child level) (fun w => w.Seek T)).updIter (.child level)
            (stepPastEqualForward T)).AddToMinHeapOrCheckStatus (.child level)
        else e) e1 = e1 := by
    apply forRetry_id T hA.base
    intro l hl
    rw [hA.base.children_len] at hl
    exact List.mem_range.mp hl
  have hB0 : ForB runs tombs (e.deref (.child s)) s T 0 e1 :=
    ⟨hA.base, ⟨fun j hj => by omega, fun j => by rw [hA.active]; simp,
      by rw [hA.active]; exact List.Pairwise.nil⟩, hA.heap, hA.current, hA.cur_item,
      fun l hl hls => hA.idx l hl hls, fun j hj => by omega, fun j hj => by omega⟩
  obtain ⟨e2, he2⟩ : ∃ e2, e2 = (List.range e1.range_tombstone_iters_.length).foldl
      (fun (e : MergingIterator UK) i =>
        match e.range_tombstone_iters_[i]?.getD none with
        | some iter =>
          let e := e.setRti i
            (skipEndsAtOrBefore T (iter.tombstones.length + 1) (iter.Seek T.user_key))
          if (e.rti i).Valid then
            e.InsertRangeTombstoneToMinHeap i
              (InternalKeyComparator.Compare (e.rti i).start_key T == .gt) false
          else e
        | none => e) e1 := ⟨_, rfl⟩
  have hB : ForB runs tombs (e.deref (.child s)) s T runs.length e2 := by
    rw [he2, hA.base.rti_len]; exact forB_loop hB0 runs.length (le_refl _)
  have hne1 : e1.range_tombstone_iters_.isEmpty = false := by
    have := hA.base.rti_len
    cases hr : e1.range_tombstone_iters_ with
    | nil => rw [hr] at this; simp at this; omega
    | cons a b => rfl
  -- the current child
  have hkey_s : hkey e2 (.child s) = T := by
    unfold hkey; rw [hB.cur_item]; exact hk0
  have hckey_s : ckey e2 s = T := by
    unfold ckey; rw [hB.cur_item]; exact hTc
  have hcv_s : cvalid e2 s = true := by
    unfold cvalid; rw [hB.cur_item]; exact hsv
  have hidx_s : childIdx runs e2 s = i0 := by
    rw [childIdx_congr (show e2.deref (.child s) = e.deref (.child s) from hB.cur_item)]
    unfold childIdx
    rw [hi0]
    rfl
  have hge : ∀ l, l < runs.length → cvalid e2 l = true → keyLe T (ckey e2 l) := by
    intro l hl hvl
    by_cases hls : l = s
    · subst hls; rw [hckey_s]; exact keyLe_refl _
    · obtain ⟨i, _, hidx, _, hrun, _, _⟩ := base_ckey hB.base l hl hvl
      exact seek_pos_after (base_sorted hB.base l) T i _
        (by rw [← hB.idx l hl hls]; omega) hrun
  have hpassed : ∀ l idx r, l < runs.length → idx < childIdx runs e2 l →
      (runAt runs l)[idx]? = some r → keyLe r T := by
    intro l idx r hl hidx hr
    by_cases hls : l = s
    · subst hls
      exact sortedRun_le (base_sorted hB.base l) (by omega) hr hrun0
    · rw [hB.idx l hl hls] at hidx
      exact keyLe_of_keyLt (seek_pos_before T idx r hidx hr)
  have hend : ∀ j, j < runs.length → (e2.rti j).Valid = true →
      T.user_key < (e2.rti j).end_key.user_key := by
    intro j hj hvj
    obtain ⟨q, _, hq2, _, hq4, _⟩ := base_cur hB.base j hj hvj
    have h1 : (compare (e2.rti j).cur.end_key.user_key T.user_key != .gt) = false :=
      takeWhile_at (fun t => compare t.end_key.user_key T.user_key != .gt)
        (tombsAt tombs j) _ (by rw [← hB.tidx j hj, hq2]; exact hq4)
    by_contra hcon
    have h2 : (compare (e2.rti j).cur.end_key.user_key T.user_key != .gt) = true :=
      (compare_ne_gt_iff_le _ _).mpr (not_lt.mp hcon)
    rw [h1] at h2
    exact absurd h2 (by decide)
  have hLB : LowerBound T e2 := by
    intro p hp
    cases p with
    | child l =>
      obtain ⟨hl, hvl⟩ := (hB.heap.mem_child l).mp hp
      obtain ⟨_, _, _, _, _, _, hk⟩ := base_ckey hB.base l hl hvl
      rw [hk]
      exact hge l hl hvl
    | pinned j =>
      obtain ⟨hj, hvj⟩ := (hB.heap.mem_pinned j).mp hp
      obtain ⟨_, _, _, _, _, hwf⟩ := base_cur hB.base j hj hvj
      rcases pinned_hkey hB.base j hj (hB.tomb.pinned_key j hj hvj) with ⟨h1, h2⟩ | ⟨_, h2⟩
      · rw [h2]
        have h3 := (hB.starts j hj hvj).mp h1
        have h4 : T.user_key < (e2.rti j).start_key.user_key :=
          keyLt_boundary_seq hseq0 hwf.start_seq h3
        exact keyLe_of_keyLt (keyLt_of_user_key_lt h4)
      · rw [h2]
        exact keyLe_of_keyLt (keyLt_of_user_key_lt (hend j hj hvj))
  have hmem_s : HeapItemPtr.child s ∈ e2.heap_.data_ := (hB.heap.mem_child s).mpr ⟨hsn, hcv_s⟩
  have htop2 : e2.heap_.top = some (.child s) := by
    cases ht2 : e2.heap_.top with
    | none =>
      rw [(top_none_iff e2).mp ht2] at hmem_s
      simp at hmem_s
    | some t' =>
      obtain ⟨hmem, hmin⟩ := top_min e2 hB.heap.inv t' ht2
      have h1 := hmin _ hmem_s
      rw [hkey_s] at h1
      have heq : hkey e2 t' = T := keyLe_antisymm h1 (hLB t' hmem)
      cases t' with
      | child l =>
        by_cases hls : l = s
        · rw [hls]
        · exfalso
          obtain ⟨hl, hvl⟩ := (hB.heap.mem_child l).mp hmem
          obtain ⟨_, _, _, _, hrun, _, hk⟩ := base_ckey hB.base l hl hvl
          rw [← hk, heq] at hrun
          exact hTne l hl hls (List.getElem?_mem hrun)
      | pinned j =>
        exfalso
        obtain ⟨hj, hvj⟩ := (hB.heap.mem_pinned j).mp hmem
        rcases pinned_hkey hB.base j hj (hB.tomb.pinned_key j hj hvj) with ⟨_, h2⟩ | ⟨_, h2⟩
        · rw [heq] at h2; rw [h2] at hseq0; exact lt_irrefl _ hseq0
        · rw [heq] at h2; rw [h2] at hseq0; exact lt_irrefl _ hseq0
  -- the state of the forward scan
  have hf2 : FwdT runs tombs e2 := by
    refine ⟨⟨hB.base, hB.tomb, hB.heap⟩, ?_, ?_, T, hLB, ?_⟩
    · intro j L hjL hL hvL t' ht'
      obtain ⟨i, hi', hti⟩ := mem_take_getElem ht'
      rw [hB.tidx j (by omega)] at hi'
      have h1 := takeWhile_before _ _ i t' hi' hti
      exact le_trans ((compare_ne_gt_iff_le _ _).mp h1) (keyLe_user_key (hge L hL hvL))
    · intro j L hjL hL hvL hact
      obtain ⟨hj, hvj, hty⟩ := (hB.tomb.active_iff j).mp hact
      have h1 : ¬ keyLt T (e2.rti j).start_key := by
        intro hlt
        have := (hB.starts j hj hvj).mpr hlt
        rw [hty] at this
        cases this
      exact le_trans (keyLe_user_key (not_keyLt_iff.mp h1)) (keyLe_user_key (hge L hL hvL))
    · intro l idx r hl hidx hr hlt
      exact absurd (hpassed l idx r hl hidx hr) (not_keyLe_iff.mpr hlt)
  obtain ⟨ef, hef⟩ : ∃ ef : MergingIterator UK, ef =
      { e2 with direction_ := Direction.kForward } := ⟨_, rfl⟩
  have hsw : e.SwitchToForward = ef := by
    have h1 : e.SwitchToForward =
        { (if !((List.range e1.children_.length).foldl
            (fun (e : MergingIterator UK) level =>
              if (e.deref (.child level)).iter.status == Status.TryAgain then
                ((e.updIter (.child level) (fun w => w.Seek T)).updIter (.child level)
                  (stepPastEqualForward T)).AddToMinHeapOrCheckStatus (.child level)
              else e) e1).range_tombstone_iters_.isEmpty then
            (List.range ((List.range e1.children_.length).foldl
              (fun (e : MergingIterator UK) level =>
                if (e.deref (.child level)).iter.status == Status.TryAgain then
                  ((e.updIter (.child level) (fun w => w.Seek T)).updIter (.child level)
                    (stepPastEqualForward T)).AddToMinHeapOrCheckStatus (.child level)
                else e) e1).range_tombstone_iters_.length).foldl
              (fun (e : MergingIterator UK) i =>
                match e.range_tombstone_iters_[i]?.getD none with
                | some iter =>
                  let e := e.setRti i
                    (skipEndsAtOrBefore T (iter.tombstones.length + 1) (iter.Seek T.user_key))
                  if (e.rti i).Valid then
                    e.InsertRangeTombstoneToMinHeap i
                      (InternalKeyComparator.Compare (e.rti i).start_key T == .gt) false
                  else e
                | none => e)
              ((List.range e1.children_.length).foldl
                (fun (e : MergingIterator UK) level =>
                  if (e.deref (.child level)).iter.status == Status.TryAgain then
                    ((e.updIter (.child level) (fun w => w.Seek T)).updIter (.child level)
                      (stepPastEqualForward T)).AddToMinHeapOrCheckStatus (.child level)
                  else e) e1)
          else (List.range e1.children_.length).foldl
            (fun (e : MergingIterator UK) level =>
              if (e.deref (.child level)).iter.status == Status.TryAgain then
                ((e.updIter (.child level) (fun w => w.Seek T)).updIter (.child level)
                  (stepPastEqualForward T)).AddToMinHeapOrCheckStatus (.child level)
              else e) e1) with direction_ := Direction.kForward } := by
      rw [he1, he0, hT]; rfl
    rw [h1, hretry, hne1, hef, he2]
    rfl
  rw [hsw]
  have hcur2 : e2.current_ = e2.heap_.top := by rw [hB.current, htop2]
  have hinv : ScanInv runs tombs ef := by
    rw [hef]
    refine ⟨⟨⟨base_of_eq hB.base rfl rfl rfl hB.base.status_ok hB.base.no_upper_bound,
        tombPart_of_eq hB.tomb (fun j => rfl) (fun j => rfl) rfl,
        heapPart_frame hB.heap rfl (fun p _ => rfl) (fun q => by cases q <;> rfl)⟩,
        ?_, ?_, ?_⟩, ?_, hcur2, rfl⟩
    · exact passedTombs_congr hf2.passed_tombs (fun l => rfl) (fun j => rfl)
    · intro j L hjL hL hvL hact
      exact hf2.active_started j L hjL hL hvL hact
    · obtain ⟨B', hB1, hB2⟩ := hf2.bound
      exact ⟨B', fun p hp => hB1 p hp, passedRecords_congr hB2 (fun l => rfl)⟩
    · intro t' ht'
      have ht'' : e2.heap_.top = some t' := ht'
      rw [htop2] at ht''
      refine ⟨s, (Option.some.inj ht'').symm, ?_⟩
      have : ckey ({ e2 with direction_ := Direction.kForward } : MergingIterator UK) s =
        ckey e2 s := rfl
      rw [this, hckey_s]
      exact hvis
  refine ⟨hinv, ?_, ?_, ?_⟩
  · rw [hef]
    unfold Valid
    simp only []
    rw [hB.current, hB.base.status_ok]
    rfl
  · rw [hef]
    unfold key
    simp only []
    rw [hB.current]
    exact hckey_s
  · have hvr : visRem runs tombs ef = visRem runs tombs e2 := by
      rw [hef]; exact visRem_congr (fun l => rfl)
    rw [hvr]
    refine (flatMap_append_perm _ _ _).trans ?_
    unfold visibleRecords
    apply flatMap_range_perm_cons _ _ T runs.length s hsn
    · rw [hcnt0, hidx_s]
      exact filter_take_succ_append_drop _ _ i0 T hrun0 (by simpa using hvis)
    · intro l hls
      by_cases hl : l < runs.length
      · obtain ⟨B, hUB, hPR⟩ := hf.bound
        have hTB : keyLe T B := by
          have := hUB (.child s) ((top_max e hs.heap.inv _ ht).1)
          rw [hk0] at this
          exact this
        have hbefore : ∀ idx r, idx < childCnt e l → (runAt runs l)[idx]? = some r →
            keyLt r T := by
          intro idx r hidx hr
          have h1 := remaining_le_top hs ht l idx r hl hidx hr
          rw [hk0] at h1
          rcases keyLt_total r T with h2 | h2 | h2
          · exact h2
          · exfalso
            rw [h2] at hr
            exact hTne l hl hls (List.getElem?_mem hr)
          · exact absurd h1 (not_keyLe_iff.mpr h2)
        have hca : childCnt e l ≤ childIdx runs e2 l := by
          by_contra hcon
          have hlt : childIdx runs e2 l < (runAt runs l).length := by
            have := childCnt_le hs.base l hl
            omega
          have h1 := hbefore _ _ (by omega) (List.getElem?_eq_getElem hlt)
          have h2 := seek_pos_after (base_sorted hB.base l) T (childIdx runs e2 l) _
            (by rw [← hB.idx l hl hls]) (List.getElem?_eq_getElem hlt)
          exact absurd h2 (not_keyLe_iff.mpr h1)
        unfold visibleOf
        apply filter_take_append_drop _ _ _ _ hca
        intro i x hci hia hx
        have h1 : keyLt x T :=
          seek_pos_before T i x (by rw [← hB.idx l hl hls]; exact hia) hx
        have h2 := hPR l i x hl hci hx (keyLt_of_keyLt_of_keyLe h1 hTB)
        simpa using h2
      · have hnil : runAt runs l = [] := by
          unfold runAt
          rw [List.getElem?_eq_none (by omega)]
          rfl
        have hnil' : runs[l]?.getD [] = [] := hnil
        rw [hnil, hnil']
        simp [visibleOf]

theorem sorted_drop_head {out : List (ParsedInternalKey UK)} (hs : out.Pairwise keyLe)
    {i : Nat} {k : ParsedInternalKey UK} (hk : k ∈ out.drop i)
    (hmin : ∀ x ∈ out.drop i, keyLe k x) : out[i]? = some k := by
  have hlt : i < out.length := by
    by_contra hcon
    rw [List.drop_eq_nil_of_le (by omega)] at hk
    cases hk
  have hd : out.drop i = out[i] :: out.drop (i + 1) := List.drop_eq_getElem_cons hlt
  have hp : (out.drop i).Pairwise keyLe := hs.sublist (List.drop_sublist i out)
  rw [hd] at hk hmin hp
  have h1 : keyLe k out[i] := hmin _ (List.mem_cons_self _ _)
  have h2 : keyLe out[i] k := by
    rcases List.mem_cons.mp hk with h | h
    · rw [h]; exact keyLe_refl _
    · exact List.rel_of_pairwise_cons hp h
  rw [List.getElem?_eq_getElem hlt, keyLe_antisymm h1 h2]

theorem sorted_take_last {out : List (ParsedInternalKey UK)} (hs : out.Pairwise keyLe)
    {i : Nat} (hi : i < out.length) {k : ParsedInternalKey UK} (hk : k ∈ out.take (i + 1))
    (hmax : ∀ x ∈ out.take (i + 1), keyLe x k) : out[i]? = some k := by
  have ht : out.take (i + 1) = out.take i ++ [out[i]] := by
    rw [List.take_succ, List.getElem?_eq_getElem hi]; rfl
  have hp : (out.take (i + 1)).Pairwise keyLe := hs.sublist (List.take_sublist _ out)
  rw [ht] at hk hmax hp
  have h1 : keyLe out[i] k := hmax _ (List.mem_append_right _ (List.mem_singleton_self _))
  have h2 : keyLe k out[i] := by
    rcases List.mem_append.mp hk with h | h
    · exact (List.pairwise_append.mp hp).2.2 k h out[i] (List.mem_singleton_self _)
    · rw [List.mem_singleton.mp h]; exact keyLe_refl _
  rw [List.getElem?_eq_getElem hi, keyLe_antisymm h2 h1]

theorem valid_current {runs : List (List (ParsedInternalKey UK))}
    {tombs : List (Option (List (RangeTombstone UK)))} {e : MergingIterator UK}
    (hb : Base runs tombs e) : e.Valid = e.current_.isSome := by
  unfold Valid
  rw [hb.status_ok]
  simp [Status.ok]

theorem posF_valid_of_lt {runs : List (List (ParsedInternalKey UK))}
    {tombs : List (Option (List (RangeTombstone UK)))} {out : List (ParsedInternalKey UK)}
    {i : Nat} {e : MergingIterator UK} (h : PosF runs tombs out i e) (hi : i < out.length) :
    e.Valid = true := by
  by_contra hcon
  have hv : e.Valid = false := by simpa using hcon
  rw [valid_current h.1.fwd.struct.base, h.1.current] at hv
  have ht : e.heap_.top = none := by
    cases h' : e.heap_.top with
    | none => rfl
    | some t => rw [h'] at hv; simp at hv
  have hnil := visRem_nil_of_empty h.1.fwd.struct ht
  have hp := h.2
  rw [hnil] at hp
  have := hp.length_eq
  simp at this
  omega

theorem posR_valid_of_pos {runs : List (List (ParsedInternalKey UK))}
    {tombs : List (Option (List (RangeTombstone UK)))} {out : List (ParsedInternalKey UK)}
    {n : Nat} {e : MergingIterator UK} (h : PosR runs tombs out n e) (hn : 0 < n) :
    e.Valid = true := by
  by_contra hcon
  have hv : e.Valid = false := by simpa using hcon
  rw [valid_current h.1.fwd.struct.base, h.1.current] at hv
  have ht : e.heap_.top = none := by
    cases h' : e.heap_.top with
    | none => rfl
    | some t => rw [h'] at hv; simp at hv
  have hnil := visRemR_nil_of_empty h.1.fwd.struct ht
  have hp := h.2.2
  rw [hnil] at hp
  have := hp.length_eq
  have hle := h.2.1
  simp at this
  omega

theorem posF_key {runs : List (List (ParsedInternalKey UK))}
    {tombs : List (Option (List (RangeTombstone UK)))} {out : List (ParsedInternalKey UK)}
    (hs : out.Pairwise keyLe) {fuel : Nat}
    (hfuel : rankBound runs tombs runs.length ≤ fuel) {i : Nat} {e : MergingIterator UK}
    (h : PosF runs tombs out i e) (hv : e.Valid = true) :
    out[i]? = some e.key ∧
      ∃ e', e.Next fuel = some e' ∧ PosF runs tombs out (i + 1) e' := by
  obtain ⟨e', h1, h2, h3, h4⟩ := next_spec h.1 hv fuel hfuel
  have hmem : e.key ∈ out.drop i := (h.2.mem_iff).mp (h3.symm.subset (List.mem_cons_self _ _))
  have hk : out[i]? = some e.key :=
    sorted_drop_head hs hmem (fun x hx => h4 x ((h.2.mem_iff).mpr hx))
  refine ⟨hk, e', h1, h2, ?_⟩
  have hlt : i < out.length := by
    by_contra hcon
    rw [List.getElem?_eq_none (by omega)] at hk
    cases hk
  have hd : out.drop i = e.key :: out.drop (i + 1) := by
    rw [List.drop_eq_getElem_cons hlt]
    rw [List.getElem?_eq_getElem hlt] at hk
    rw [Option.some.inj hk]
  have := h3.symm.trans h.2
  rw [hd] at this
  exact this.cons_inv

theorem posR_key {runs : List (List (ParsedInternalKey UK))}
    {tombs : List (Option (List (RangeTombstone UK)))} {out : List (ParsedInternalKey UK)}
    (hs : out.Pairwise keyLe) {fuel : Nat}
    (hfuel : rankBound runs tombs runs.length ≤ fuel) {i : Nat} {e : MergingIterator UK}
    (h : PosR runs tombs out (i + 1) e) (hv : e.Valid = true) :
    out[i]? = some e.key ∧
      ∃ e', e.Prev fuel = some e' ∧ PosR runs tombs out i e' := by
  obtain ⟨e', h1, h2, h3, h4⟩ := prev_spec h.1 hv fuel hfuel
  have hlt : i < out.length := h.2.1
  have hmem : e.key ∈ out.take (i + 1) :=
    (h.2.2.mem_iff).mp (h3.symm.subset (List.mem_cons_self _ _))
  have hk : out[i]? = some e.key :=
    sorted_take_last hs hlt hmem (fun x hx => h4 x ((h.2.2.mem_iff).mpr hx))
  refine ⟨hk, e', h1, h2, by omega, ?_⟩
  have ht : out.take (i + 1) = out.take i ++ [e.key] := by
    rw [List.take_succ, hk]; rfl
  have := h3.symm.trans h.2.2
  rw [ht] at this
  exact (this.trans (List.perm_append_singleton _ _)).cons_inv

theorem at_key {runs : List (List (ParsedInternalKey UK))}
    {tombs : List (Option (List (RangeTombstone UK)))} {out : List (ParsedInternalKey UK)}
    (hs : out.Pairwise keyLe) {fuel : Nat}
    (hfuel : rankBound runs tombs runs.length ≤ fuel) {i : Nat} {e : MergingIterator UK}
    (h : At runs tombs out i e) : out[i]? = some e.key := by
  rcases h.2 with h1 | h1
  · exact (posF_key hs hfuel h1 h.1).1
  · exact (posR_key hs hfuel h1 h.1).1

theorem switch_back {runs : List (List (ParsedInternalKey UK))}
    {tombs : List (Option (List (RangeTombstone UK)))} {out : List (ParsedInternalKey UK)}
    (hp : out.Perm (visibleRecords runs tombs)) (hs : out.Pairwise keyLe)
    (hd : DistinctRuns runs) {fuel : Nat} (hfuel : rankBound runs tombs runs.length ≤ fuel)
    {i : Nat} {e : MergingIterator UK} (h : PosF runs tombs out i e) (hv : e.Valid = true) :
    PosR runs tombs out (i + 1) e.SwitchToBackward ∧ e.SwitchToBackward.Valid = true := by
  obtain ⟨g1, g2, g3, g4⟩ := switchToBackward_spec h.1 hv hd
  have hk := (posF_key hs hfuel h hv).1
  have hlt : i < out.length := by
    by_contra hcon
    rw [List.getElem?_eq_none (by omega)] at hk
    cases hk
  refine ⟨⟨g1, by omega, ?_⟩, g2⟩
  have ht : out.take (i + 1) = out.take i ++ [e.key] := by
    rw [List.take_succ, hk]; rfl
  have h1 : (visRemR runs tombs e.SwitchToBackward ++ out.drop i).Perm
      (out.take (i + 1) ++ out.drop i) := by
    refine ((List.Perm.append_left _ h.2.symm).trans g4).trans ?_
    rw [ht, List.append_assoc]
    refine (List.Perm.cons _ hp.symm).trans ?_
    conv_lhs => rw [← List.take_append_drop i out]
    exact List.perm_middle.symm
  exact (List.perm_append_right_iff _).mp h1

theorem switch_fwd {runs : List (List (ParsedInternalKey UK))}
    {tombs : List (Option (List (RangeTombstone UK)))} {out : List (ParsedInternalKey UK)}
    (hp : out.Perm (visibleRecords runs tombs)) (hs : out.Pairwise keyLe)
    (hd : DistinctRuns runs) {fuel : Nat} (hfuel : rankBound runs tombs runs.length ≤ fuel)
    {i : Nat} {e : MergingIterator UK} (h : PosR runs tombs out (i + 1) e)
    (hv : e.Valid = true) :
    PosF runs tombs out i e.SwitchToForward ∧ e.SwitchToForward.Valid = true := by
  obtain ⟨g1, g2, g3, g4⟩ := switchToForward_spec h.1 hv hd
  have hk := (posR_key hs hfuel h hv).1
  refine ⟨⟨g1, ?_⟩, g2⟩
  have ht : out.take (i + 1) = out.take i ++ [e.key] := by
    rw [List.take_succ, hk]; rfl
  have h1 : (out.take (i + 1) ++ visRem runs tombs e.SwitchToForward).Perm
      (out.take (i + 1) ++ out.drop i) := by
    refine ((List.Perm.append_right _ h.2.2.symm).trans g4).trans ?_
    rw [ht, List.append_assoc]
    refine (List.Perm.cons _ hp.symm).trans ?_
    conv_lhs => rw [← List.take_append_drop i out]
    exact List.perm_middle.symm
  exact (List.perm_append_left_iff _).mp h1

theorem current_of_valid {e : MergingIterator UK} (hv : e.Valid = true) :
    ∃ t, e.current_ = some t := by
  unfold Valid at hv
  cases hc : e.current_ with
  | none => rw [hc] at hv; simp at hv
  | some t => exact ⟨t, rfl⟩

/-- A call of `Next()` on the record of position `i` moves a forward scan to position
`i + 1`, whatever the direction was. -/
theorem next_at {runs : List (List (ParsedInternalKey UK))}
    {tombs : List (Option (List (RangeTombstone UK)))} {out : List (ParsedInternalKey UK)}
    (hp : out.Perm (visibleRecords runs tombs)) (hs : out.Pairwise keyLe)
    (hd : DistinctRuns runs) {fuel : Nat} (hfuel : rankBound runs tombs runs.length ≤ fuel)
    {i : Nat} {e : MergingIterator UK} (h : At runs tombs out i e) :
    ∃ e', e.Next fuel = some e' ∧ PosF runs tombs out (i + 1) e' := by
  rcases h.2 with h1 | h1
  · exact (posF_key hs hfuel h1 h.1).2
  · obtain ⟨g1, g2⟩ := switch_fwd hp hs hd hfuel h1 h.1
    obtain ⟨t, ht⟩ := current_of_valid h.1
    obtain ⟨t', ht'⟩ := current_of_valid g2
    rw [next_switch fuel e t t' ht h1.1.reverse ht' g1.1.forward]
    exact (posF_key hs hfuel g1 g2).2

/-- A call of `Prev()` on the record of position `i` moves a backward scan to the records
before position `i`, whatever the direction was. -/
theorem prev_at {runs : List (List (ParsedInternalKey UK))}
    {tombs : List (Option (List (RangeTombstone UK)))} {out : List (ParsedInternalKey UK)}
    (hp : out.Perm (visibleRecords runs tombs)) (hs : out.Pairwise keyLe)
    (hd : DistinctRuns runs) {fuel : Nat} (hfuel : rankBound runs tombs runs.length ≤ fuel)
    {i : Nat} {e : MergingIterator UK} (h : At runs tombs out i e) :
    ∃ e', e.Prev fuel = some e' ∧ PosR runs tombs out i e' := by
  rcases h.2 with h1 | h1
  · obtain ⟨g1, g2⟩ := switch_back hp hs hd hfuel h1 h.1
    obtain ⟨t, ht⟩ := current_of_valid h.1
    obtain ⟨t', ht'⟩ := current_of_valid g2
    rw [prev_switch fuel e t t' ht h1.1.forward ht' g1.1.reverse]
    exact (posR_key hs hfuel g1 g2).2
  · exact (posR_key hs hfuel h1 h.1).2

theorem distinctRuns_of_nodup {runs : List (List (ParsedInternalKey UK))}
    (h : runs.flatten.Nodup) : DistinctRuns runs := by
  obtain ⟨_, hp⟩ := List.nodup_flatten.mp h
  rw [List.pairwise_iff_getElem] at hp
  intro l l' k hne hk hk'
  have hl : l < runs.length := by
    by_contra hcon
    unfold runAt at hk
    rw [List.getElem?_eq_none (by omega)] at hk
    simp at hk
  have hl' : l' < runs.length := by
    by_contra hcon
    unfold runAt at hk'
    rw [List.getElem?_eq_none (by omega)] at hk'
    simp at hk'
  unfold runAt at hk hk'
  rw [List.getElem?_eq_getElem hl] at hk
  rw [List.getElem?_eq_getElem hl'] at hk'
  simp only [Option.getD_some] at hk hk'
  rcases Nat.lt_or_gt_of_ne hne with h1 | h1
  · exact hp l l' hl hl' h1 hk hk'
  · exact hp l' l hl' hl h1 hk' hk

theorem run_nodup_of_nodup {runs : List (List (ParsedInternalKey UK))}
    (h : runs.flatten.Nodup) (l : Nat) : (runAt runs l).Nodup := by
  obtain ⟨h1, _⟩ := List.nodup_flatten.mp h
  unfold runAt
  by_cases hl : l < runs.length
  · rw [List.getElem?_eq_getElem hl]
    exact h1 _ (List.getElem_mem _)
  · rw [List.getElem?_eq_none (by omega)]
    exact List.nodup_nil

theorem visibleRecords_nodup {runs : List (List (ParsedInternalKey UK))}
    (tombs : List (Option (List (RangeTombstone UK)))) (h : runs.flatten.Nodup) :
    (visibleRecords runs tombs).Nodup := by
  unfold visibleRecords
  rw [List.nodup_flatMap]
  constructor
  · intro l _
    unfold visibleOf
    exact (run_nodup_of_nodup h l).filter _
  · apply (List.nodup_range _).pairwise_of_forall_ne
    intro a _ b _ hab
    show List.Disjoint (visibleOf tombs a (runs[a]?.getD [])) (visibleOf tombs b (runs[b]?.getD []))
    intro x hx hx'
    unfold visibleOf at hx hx'
    exact distinctRuns_of_nodup h a b x hab (List.mem_filter.mp hx).1 (List.mem_filter.mp hx').1

/-- In a sorted list without repetition, the successor of the record of position `i` is the
record of position `i + 1`. -/
theorem successor_index {out : List (ParsedInternalKey UK)} (hs : out.Pairwise keyLe)
    (hn : out.Nodup) {i : Nat} {k k' : ParsedInternalKey UK} (hk : out[i]? = some k)
    (hmem : k' ∈ out) (hlt : keyLt k k') (hleast : ∀ x ∈ out, keyLt k x → keyLe k' x) :
    out[i + 1]? = some k' := by
  obtain ⟨j, hj⟩ := List.mem_iff_getElem?.mp hmem
  have hij : i < j := by
    by_contra hcon
    have := sortedRun_le hs (show j ≤ i by omega) hj hk
    exact absurd this (not_keyLe_iff.mpr hlt)
  have hjl : j < out.length := by
    by_contra hcon
    rw [List.getElem?_eq_none (by omega)] at hj
    cases hj
  have hi1 : i + 1 < out.length := by omega
  have hil : i < out.length := by omega
  have h1 : keyLe k out[i + 1] :=
    sortedRun_le hs (show i ≤ i + 1 by omega) hk (List.getElem?_eq_getElem hi1)
  have hne : k ≠ out[i + 1] := by
    intro heq
    rw [List.getElem?_eq_getElem hil] at hk
    have h2 : out[i] = out[i + 1] := by rw [← heq]; exact Option.some.inj hk
    have := (hn.getElem_inj_iff).mp h2
    omega
  have h2 : keyLt k out[i + 1] := by
    rcases keyLt_total k out[i + 1] with h | h | h
    · exact h
    · exact absurd h hne
    · exact absurd h1 (not_keyLe_iff.mpr h)
  have h3 := hleast _ (List.getElem_mem _) h2
  have h4 : keyLe out[i + 1] k' :=
    sortedRun_le hs (show i + 1 ≤ j by omega) (List.getElem?_eq_getElem hi1) hj
  rw [List.getElem?_eq_getElem hi1, keyLe_antisymm h4 h3]

/-- In a sorted list without repetition, the records at or after the record of position `j`
are those from position `j` on. -/
theorem filter_ge_eq_drop {out : List (ParsedInternalKey UK)} (hs : out.Pairwise keyLe)
    (hn : out.Nodup) {j : Nat} {k : ParsedInternalKey UK} (hk : out[j]? = some k) :
    out.filter (fun x => Compare x k != Ordering.lt) = out.drop j := by
  have hjl : j < out.length := by
    by_contra hcon
    rw [List.getElem?_eq_none (by omega)] at hk
    cases hk
  conv_lhs => rw [← List.take_append_drop j out]
  rw [List.filter_append]
  have e1 : (out.take j).filter (fun x => Compare x k != Ordering.lt) = [] := by
    rw [List.filter_eq_nil_iff]
    intro x hx
    obtain ⟨a, ha, hxa⟩ := mem_take_getElem hx
    have h1 : keyLe x k := sortedRun_le hs (show a ≤ j by omega) hxa hk
    have hne : x ≠ k := by
      intro heq
      have hal : a < out.length := by omega
      rw [List.getElem?_eq_getElem hal] at hxa
      rw [List.getElem?_eq_getElem hjl] at hk
      have h2 : out[a] = out[j] := by
        rw [Option.some.inj hxa, Option.some.inj hk, heq]
      have := (hn.getElem_inj_iff).mp h2
      omega
    have h2 : keyLt x k := by
      rcases keyLt_total x k with h | h | h
      · exact h
      · exact absurd h hne
      · exact absurd h1 (not_keyLe_iff.mpr h)
    have h3 := (compare_lt_iff x k).mpr h2
    rw [h3]
    decide
  have e2 : (out.drop j).filter (fun x => Compare x k != Ordering.lt) = out.drop j := by
    rw [List.filter_eq_self]
    intro x hx
    obtain ⟨a, ha⟩ := List.mem_iff_getElem?.mp hx
    rw [List.getElem?_drop] at ha
    have h1 : keyLe k x := sortedRun_le hs (show j ≤ j + a by omega) hk ha
    have h2 : ¬ keyLt x k := not_keyLt_iff.mpr h1
    rw [← compare_lt_iff] at h2
    exact (ordering_bne_iff _ _).mpr h2
  rw [e1, e2, List.nil_append]

/-- In a sorted list, the records at or after a target are those from some position on. -/
theorem filter_ge_drop (target : ParsedInternalKey UK) :
    ∀ out : List (ParsedInternalKey UK), out.Pairwise keyLe →
      ∃ i, out.filter (fun x => Compare x target != Ordering.lt) = out.drop i := by
  intro out
  induction out with
  | nil => intro _; exact ⟨0, rfl⟩
  | cons a l ih =>
    intro hs
    obtain ⟨h1, h2⟩ := List.pairwise_cons.mp hs
    by_cases ha : keyLt a target
    · obtain ⟨i, hi⟩ := ih h2
      refine ⟨i + 1, ?_⟩
      have h3 := (compare_lt_iff a target).mpr ha
      rw [List.filter_cons_of_neg (by rw [h3]; decide), List.drop_succ_cons]
      exact hi
    · refine ⟨0, ?_⟩
      rw [List.drop_zero, List.filter_eq_self]
      intro x hx
      have hax : keyLe a x := by
        rcases List.mem_cons.mp hx with h | h
        · rw [h]; exact keyLe_refl _
        · exact h1 x h
      have h3 : ¬ keyLt x target := by
        intro h
        exact ha (keyLt_of_keyLe_of_keyLt hax h)
      rw [← compare_lt_iff] at h3
      exact (ordering_bne_iff _ _).mpr h3

theorem reach_at {runs : List (List (ParsedInternalKey UK))}
    {tombs : List (Option (List (RangeTombstone UK)))} {out : List (ParsedInternalKey UK)}
    {fuel : Nat} (hfuel : rankBound runs tombs runs.length ≤ fuel)
    {e : MergingIterator UK} (h : Reach runs tombs out e) (hv : e.Valid = true) :
    ∃ i, At runs tombs out i e := by
  rcases h with ⟨i, h1⟩ | ⟨n, h1⟩
  · exact ⟨i, hv, Or.inl h1⟩
  · cases n with
    | zero =>
      exfalso
      obtain ⟨e', _, _, h3, _⟩ := prev_spec h1.1 hv fuel hfuel
      have := (h3.symm.trans h1.2.2).length_eq
      simp at this
    | succ i => exact ⟨i, hv, Or.inr h1⟩

theorem reach_base {runs : List (List (ParsedInternalKey UK))}
    {tombs : List (Option (List (RangeTombstone UK)))} {out : List (ParsedInternalKey UK)}
    {e : MergingIterator UK} (h : Reach runs tombs out e) :
    Base runs tombs e := by
  rcases h with ⟨_, h1⟩ | ⟨_, h1⟩
  · exact h1.1.fwd.struct.base
  · exact h1.1.fwd.struct.base

theorem reach_move {runs : List (List (ParsedInternalKey UK))}
    {tombs : List (Option (List (RangeTombstone UK)))} {out : List (ParsedInternalKey UK)}
    (hp : out.Perm (visibleRecords runs tombs)) (hs : out.Pairwise keyLe)
    (hd : DistinctRuns runs) {fuel : Nat} (hfuel : rankBound runs tombs runs.length ≤ fuel)
    {e : MergingIterator UK} (h : Reach runs tombs out e) (m : Move) :
    ∃ e', moveBy fuel m e = some e' ∧ Reach runs tombs out e' := by
  by_cases hv : e.Valid = true
  · obtain ⟨i, hat⟩ := reach_at hfuel h hv
    cases m with
    | next =>
      obtain ⟨e', h1, h2⟩ := next_at hp hs hd hfuel hat
      exact ⟨e', h1, Or.inl ⟨i + 1, h2⟩⟩
    | prev =>
      obtain ⟨e', h1, h2⟩ := prev_at hp hs hd hfuel hat
      exact ⟨e', h1, Or.inr ⟨i, h2⟩⟩
  · have hc : e.current_ = none := by
      rw [valid_current (reach_base h)] at hv
      cases hc : e.current_ with
      | none => rfl
      | some t => rw [hc] at hv; simp at hv
    refine ⟨e, ?_, h⟩
    cases m with
    | next =>
      show e.Next fuel = some e
      unfold Next
      rw [hc]
    | prev =>
      show e.Prev fuel = some e
      unfold Prev
      rw [hc]

theorem reach_walk {runs : List (List (ParsedInternalKey UK))}
    {tombs : List (Option (List (RangeTombstone UK)))} {out : List (ParsedInternalKey UK)}
    (hp : out.Perm (visibleRecords runs tombs)) (hs : out.Pairwise keyLe)
    (hd : DistinctRuns runs) {fuel : Nat} (hfuel : rankBound runs tombs runs.length ≤ fuel) :
    ∀ (ms : List Move) (e : MergingIterator UK), Reach runs tombs out e →
      ∃ e', walk fuel ms e = some e' ∧ Reach runs tombs out e' := by
  intro ms
  induction ms with
  | nil => intro e h; exact ⟨e, rfl, h⟩
  | cons m ms ih =>
    intro e h
    obtain ⟨e1, h1, h2⟩ := reach_move hp hs hd hfuel h m
    obtain ⟨e2, h3, h4⟩ := ih e1 h2
    refine ⟨e2, ?_, h4⟩
    unfold walk
    rw [h1]
    exact h3

theorem reach_place {runs : List (List (ParsedInternalKey UK))}
    {tombs : List (Option (List (RangeTombstone UK)))} {out : List (ParsedInternalKey UK)}
    (hwf : InputWF runs tombs) (hp : out.Perm (visibleRecords runs tombs))
    (hs : out.Pairwise keyLe) {fuel : Nat} (hfuel : rankBound runs tombs runs.length ≤ fuel)
    (p : Placement UK) :
    ∃ e, placeBy fuel p (build runs tombs) = some e ∧ Reach runs tombs out e := by
  cases p with
  | first =>
    obtain ⟨e1, h1, h2, h3⟩ := seekToFirst_spec_t (build_base runs tombs hwf) fuel hfuel
    refine ⟨e1, h1, Or.inl ⟨0, h2, ?_⟩⟩
    rw [h3, List.drop_zero]
    exact hp.symm
  | last =>
    obtain ⟨e1, h1, h2, h3⟩ := seekToLast_spec_t (build_base runs tombs hwf) fuel hfuel
    refine ⟨e1, h1, Or.inr ⟨out.length, h2, le_refl _, ?_⟩⟩
    rw [h3, List.take_length]
    exact hp.symm
  | seek target =>
    obtain ⟨e1, h1, h2, h3⟩ := seek_spec_t (build_struct runs tombs hwf) fuel hfuel target
    obtain ⟨i, hi⟩ := filter_ge_drop target out hs
    refine ⟨e1, h1, Or.inl ⟨i, h2, ?_⟩⟩
    rw [h3, ← hi]
    exact (hp.filter _).symm

/-- C4, amended. For sorted runs in which no record occurs twice, and well-formed range
tombstones, with fuel for the visibility loops: an engine that is placed by `SeekToFirst()`,
`SeekToLast()` or `Seek(target)` and then moved by any calls of `Next()` and `Prev()` is defined,
and when it is on a record `k` (a visible one) that has a visible successor `k'`, then `Next()`
moves it to `k'`, a following `Prev()` moves it back to `k`, and a following `Next()` moves it
to `k'` again; the scan that goes on from there returns what the scan that goes on after the
first `Next()` returns: the visible records from `k'` on, in order, each once. -/
theorem next_prev_next_round_trip (runs : List (List (ParsedInternalKey UK)))
    (tombs : List (Option (List (RangeTombstone UK)))) (fuel n : Nat)
    (hwf : WellFormedInput runs tombs) (hnd : runs.flatten.Nodup)
    (hfuel : rankBound runs tombs runs.length ≤ fuel) (hn : runs.flatten.length ≤ n)
    (p : Placement UK) (ms : List Move) :
    ∃ e, positioned fuel runs tombs p ms = some e ∧
      (e.Valid = true → e.key ∈ visibleRecords runs tombs ∧
        ∀ k', VisibleSuccessor runs tombs e.key k' →
          ∃ e1 e2 e3, e.Next fuel = some e1 ∧ e1.Valid = true ∧ e1.key = k' ∧
            e1.Prev fuel = some e2 ∧ e2.Valid = true ∧ e2.key = e.key ∧
            e2.Next fuel = some e3 ∧ e3.Valid = true ∧ e3.key = k' ∧
            ∃ rest, collectForward fuel n e3 = some rest ∧
              collectForward fuel n e1 = some rest ∧ rest.Pairwise keyLe ∧
              rest.Perm ((visibleRecords runs tombs).filter
                (fun x => Compare x k' != Ordering.lt))) := by
  have hwf' := inputWF_of_wellFormed hwf
  have hlen := le_trans (visibleRecords_length_le runs tombs) hn
  obtain ⟨out, _, hp, hs⟩ := forwardScan_tombs runs tombs hwf' fuel n hfuel hlen
  have hd := distinctRuns_of_nodup hnd
  have hon : out.Nodup := (hp.nodup_iff).mpr (visibleRecords_nodup tombs hnd)
  obtain ⟨e0, hplace, hr0⟩ := reach_place hwf' hp hs hfuel p
  obtain ⟨e, hwalk, hr⟩ := reach_walk hp hs hd hfuel ms e0 hr0
  refine ⟨e, ?_, ?_⟩
  · unfold positioned
    rw [hplace]
    exact hwalk
  intro hv
  obtain ⟨i, hat⟩ := reach_at hfuel hr hv
  have hk := at_key hs hfuel hat
  refine ⟨hp.subset (List.getElem?_mem hk), ?_⟩
  intro k' hsucc
  obtain ⟨hm, hlt, hleast⟩ := hsucc
  have hi1 : out[i + 1]? = some k' :=
    successor_index hs hon hk ((hp.mem_iff).mpr hm) ((compare_lt_iff _ _).mp hlt)
      (fun x hx hxl => hleast x (hp.subset hx) ((compare_lt_iff _ _).mpr hxl))
  have hlt1 : i + 1 < out.length := by
    by_contra hcon
    rw [List.getElem?_eq_none (by omega)] at hi1
    cases hi1
  obtain ⟨e1, hn1, hp1⟩ := next_at hp hs hd hfuel hat
  have hv1 := posF_valid_of_lt hp1 hlt1
  have hat1 : At runs tombs out (i + 1) e1 := ⟨hv1, Or.inl hp1⟩
  have hk1 := at_key hs hfuel hat1
  obtain ⟨e2, hn2, hp2⟩ := prev_at hp hs hd hfuel hat1
  have hv2 := posR_valid_of_pos hp2 (by omega)
  have hat2 : At runs tombs out i e2 := ⟨hv2, Or.inr hp2⟩
  have hk2 := at_key hs hfuel hat2
  obtain ⟨e3, hn3, hp3⟩ := next_at hp hs hd hfuel hat2
  have hv3 := posF_valid_of_lt hp3 hlt1
  have hat3 : At runs tombs out (i + 1) e3 := ⟨hv3, Or.inl hp3⟩
  have hk3 := at_key hs hfuel hat3
  have hl : ∀ e' : MergingIterator UK, PosF runs tombs out (i + 1) e' →
      (visRem runs tombs e').length ≤ n := by
    intro e' h
    rw [h.2.length_eq, List.length_drop, hp.length_eq]
    omega
  obtain ⟨rest3, c1, c2, c3⟩ := collect_spec fuel hfuel n e3 hp3.1 (hl e3 hp3)
  obtain ⟨rest1, d1, d2, d3⟩ := collect_spec fuel hfuel n e1 hp1.1 (hl e1 hp1)
  have heq : rest1 = rest3 :=
    sorted_perm_unique ((d2.trans hp1.2).trans (c2.trans hp3.2).symm) d3 c3
  refine ⟨e1, e2, e3, hn1, hv1, ?_, hn2, hv2, ?_, hn3, hv3, ?_, rest3, c1, ?_, c3, ?_⟩
  · rw [hi1] at hk1; exact (Option.some.inj hk1).symm
  · rw [hk] at hk2; exact (Option.some.inj hk2).symm
  · rw [hi1] at hk3; exact (Option.some.inj hk3).symm
  · rw [← heq]; exact d1
  · refine (c2.trans hp3.2).trans ?_
    rw [← filter_ge_eq_drop hs hon hi1]
    exact hp.filter _

/-- C4, as stated, fails: two runs hold the same record `(1, 5)`, and the second run holds
`(2, 3)` as well; there are no tombstones. After `SeekToFirst()` the engine is on `(1, 5)`, whose
visible successor is `(2, 3)`. `Next()` does not move to `(2, 3)` but to the copy of `(1, 5)` in
the other run, and the following `Prev()` does not move back to `(1, 5)`: `SwitchToBackward()`
steps every other child past the records equal to the current one, and the engine is left at
the end of the scan. -/
theorem round_trip_fails_on_repeated_record :
    WellFormedInput [[(⟨1, 5, 1⟩ : ParsedInternalKey Nat)], [⟨1, 5, 1⟩, ⟨2, 3, 1⟩]]
        [none, none] ∧
      ∃ e e1 e2, positioned 8 [[(⟨1, 5, 1⟩ : ParsedInternalKey Nat)], [⟨1, 5, 1⟩, ⟨2, 3, 1⟩]]
          [none, none] Placement.first [] = some e ∧
        e.Valid = true ∧ e.key = ⟨1, 5, 1⟩ ∧
        VisibleSuccessor [[(⟨1, 5, 1⟩ : ParsedInternalKey Nat)], [⟨1, 5, 1⟩, ⟨2, 3, 1⟩]]
          [none, none] e.key ⟨2, 3, 1⟩ ∧
        e.Next 8 = some e1 ∧ e1.Valid = true ∧ e1.key = ⟨1, 5, 1⟩ ∧ e1.key ≠ ⟨2, 3, 1⟩ ∧
        e1.Prev 8 = some e2 ∧ e2.Valid = false :=
  ⟨by decide, _, _, _, rfl, by decide, by decide, by decide, rfl, by decide, by decide,
    by decide, rfl, by decide⟩

/-- An instance of C4 as amended: two runs, a tombstone on the first run that deletes the
record `(2, 3)` of the second. After `SeekToFirst()` and one `Next()` the engine is on `(3, 5)`,
whose visible successor is `(4, 3)`. -/
theorem next_prev_next_round_trip_witness :
    WellFormedInput [[(⟨1, 5, 1⟩ : ParsedInternalKey Nat), ⟨3, 5, 1⟩], [⟨2, 3, 1⟩, ⟨4, 3, 1⟩]]
        [some [mkTombstone 2 3 9], none] ∧
      ([[(⟨1, 5, 1⟩ : ParsedInternalKey Nat), ⟨3, 5, 1⟩], [⟨2, 3, 1⟩, ⟨4, 3, 1⟩]]).flatten.Nodup ∧
      (∃ e, positioned 27 [[(⟨1, 5, 1⟩ : ParsedInternalKey Nat), ⟨3, 5, 1⟩],
          [⟨2, 3, 1⟩, ⟨4, 3, 1⟩]] [some [mkTombstone 2 3 9], none] Placement.first
          [Move.next] = some e ∧ e.Valid = true ∧ e.key = ⟨3, 5, 1⟩ ∧
        VisibleSuccessor [[(⟨1, 5, 1⟩ : ParsedInternalKey Nat), ⟨3, 5, 1⟩],
          [⟨2, 3, 1⟩, ⟨4, 3, 1⟩]] [some [mkTombstone 2 3 9], none] e.key ⟨4, 3, 1⟩) ∧
      ∃ e, positioned 27 [[(⟨1, 5, 1⟩ : ParsedInternalKey Nat), ⟨3, 5, 1⟩],
          [⟨2, 3, 1⟩, ⟨4, 3, 1⟩]] [some [mkTombstone 2 3 9], none] Placement.first
          [Move.next] = some e ∧
        (e.Valid = true →
          e.key ∈ visibleRecords [[(⟨1, 5, 1⟩ : ParsedInternalKey Nat), ⟨3, 5, 1⟩],
            [⟨2, 3, 1⟩, ⟨4, 3, 1⟩]] [some [mkTombstone 2 3 9], none] ∧
          ∀ k', VisibleSuccessor [[(⟨1, 5, 1⟩ : ParsedInternalKey Nat), ⟨3, 5, 1⟩],
              [⟨2, 3, 1⟩, ⟨4, 3, 1⟩]] [some [mkTombstone 2 3 9], none] e.key k' →
            ∃ e1 e2 e3, e.Next 27 = some e1 ∧ e1.Valid = true ∧ e1.key = k' ∧
              e1.Prev 27 = some e2 ∧ e2.Valid = true ∧ e2.key = e.key ∧
              e2.Next 27 = some e3 ∧ e3.Valid = true ∧ e3.key = k' ∧
              ∃ rest, collectForward 27 4 e3 = some rest ∧
                collectForward 27 4 e1 = some rest ∧ rest.Pairwise keyLe ∧
                rest.Perm ((visibleRecords [[(⟨1, 5, 1⟩ : ParsedInternalKey Nat), ⟨3, 5, 1⟩],
                  [⟨2, 3, 1⟩, ⟨4, 3, 1⟩]] [some [mkTombstone 2 3 9], none]).filter
                  (fun x => Compare x k' != Ordering.lt))) :=
  ⟨by decide, by decide, ⟨_, rfl, by decide, by decide, by decide⟩,
    next_prev_next_round_trip _ _ 27 4 (by decide) (by decide) (by decide) (by decide)
      Placement.first [Move.next]⟩

end MergingIterator

/-! ## Part XI. The heap invariant under every method, heap sort, and the root cache -/

namespace BinaryHeap

variable {T : Type}

theorem downheapLoop_lt (cmp : T → T → Bool) (n : Nat) (cache : Option Nat) (v : T) :
    ∀ (fuel : Nat) (s : SiftState T), s.data.length = n → s.index < n →
      (downheapLoop cmp n cache v fuel s).index < n ∧
      (downheapLoop cmp n cache v fuel s).data.length = n := by
  intro fuel
  induction fuel with
  | zero => intro s hl hi; exact ⟨hi, hl⟩
  | succ k ih =>
    intro s hl hi
    unfold downheapLoop
    by_cases hleft : get_left s.index ≥ n
    · simp only [hleft, ↓reduceIte]; exact ⟨hi, hl⟩
    · simp only [hleft, ↓reduceIte]
      split
      · exact ⟨hi, hl⟩
      · apply ih
        · simp [hl]
        · exact (pickChild_lt cmp n cache v s.data s.index (by omega)).1

theorem heapInv_push {cmp : T → T → Bool} (hswo : StrictWeakOrder cmp) (h : BinaryHeap T)
    (v : T) (hi : HeapInv cmp h) : HeapInv cmp (push cmp h v) :=
  (pushC_spec hswo h v hi.1).1

theorem heapInv_pop {cmp : T → T → Bool} (hswo : StrictWeakOrder cmp) (h : BinaryHeap T)
    (hi : HeapInv cmp h) : HeapInv cmp (pop cmp h) :=
  (popC_spec hswo h (heapOrdered_belowRoot hi.1) hi.2).1

theorem heapInv_replace_top {cmp : T → T → Bool} (hswo : StrictWeakOrder cmp)
    (h : BinaryHeap T) (v : T) (hi : HeapInv cmp h) : HeapInv cmp (replace_top cmp h v) := by
  cases hne : h.empty with
  | true => simpa [replace_top, replace_topC, hne] using hi
  | false => exact (replace_topC_spec hswo h v hne (heapOrdered_belowRoot hi.1) hi.2).1

theorem heapInv_update_top_set {cmp : T → T → Bool} (hswo : StrictWeakOrder cmp)
    (h : BinaryHeap T) (w : T) (hi : HeapInv cmp h) :
    HeapInv cmp (update_top cmp { h with data_ := h.data_.set 0 w }) := by
  have hb := heapBelowRoot_set_root (heapOrdered_belowRoot hi.1) w
  have hc := cacheValid_set_root hi.2 w
  cases hne : ({ h with data_ := h.data_.set 0 w } : BinaryHeap T).empty with
  | true =>
    have hnil : h.data_ = [] := by
      simp only [empty, List.isEmpty_iff] at hne
      cases hd : h.data_ with
      | nil => rfl
      | cons a l => rw [hd] at hne; simp at hne
    simp only [update_top, update_topC, hne, ↓reduceIte]
    refine ⟨?_, hc⟩
    rw [hnil]
    intro i x p _ hx; simp at hx
  | false => exact (update_topC_spec hswo _ hne hb hc).1

end BinaryHeap

namespace BinaryHeap

variable {T : Type}

theorem pushAll_fold {cmp : T → T → Bool} (hswo : StrictWeakOrder cmp) :
    ∀ (xs : List T) (h : BinaryHeap T), HeapInv cmp h →
      HeapInv cmp (xs.foldl (push cmp) h) ∧
      (xs.foldl (push cmp) h).data_.Perm (xs ++ h.data_) := by
  intro xs
  induction xs with
  | nil => intro h hi; exact ⟨hi, List.Perm.refl _⟩
  | cons a l ih =>
    intro h hi
    have hp := pushC_spec hswo h a hi.1
    have h2 := ih (push cmp h a) hp.1
    refine ⟨h2.1, h2.2.trans ?_⟩
    have h3 : (l ++ (push cmp h a).data_).Perm (l ++ a :: h.data_) :=
      List.Perm.append_left l hp.2
    exact h3.trans List.perm_middle

theorem pushAll_spec {cmp : T → T → Bool} (hswo : StrictWeakOrder cmp) (xs : List T) :
    HeapInv cmp (pushAll cmp xs) ∧ (pushAll cmp xs).data_.Perm xs := by
  have h := pushAll_fold hswo xs ({} : BinaryHeap T)
    ⟨by intro i x p _ hx; simp at hx, by intro c hc; simp at hc⟩
  simpa [pushAll] using h

theorem drain_spec {cmp : T → T → Bool} (hswo : StrictWeakOrder cmp) :
    ∀ (fuel : Nat) (h : BinaryHeap T), HeapInv cmp h → h.data_.length ≤ fuel →
      ∃ out, drain cmp fuel h = some out ∧ out.Perm h.data_ ∧
        out.Pairwise (fun a b => cmp a b = false) := by
  intro fuel
  induction fuel with
  | zero =>
    intro h _ hl
    have hnil : h.data_ = [] := List.length_eq_zero.mp (by omega)
    refine ⟨[], ?_, by rw [hnil], List.Pairwise.nil⟩
    simp [drain, empty, hnil]
  | succ k ih =>
    intro h hi hl
    cases hd : h.data_ with
    | nil =>
      refine ⟨[], ?_, List.Perm.refl _, List.Pairwise.nil⟩
      simp [drain, top, hd]
    | cons a l =>
      have htop : h.top = some a := by simp [top, hd]
      have hmax := heapOrdered_top_max_mem hswo hi.1 htop
      have hp := popC_spec hswo h (heapOrdered_belowRoot hi.1) hi.2
      have hperm : (pop cmp h).data_.Perm l := by
        have := hp.2; rw [hd] at this; simpa using this
      have hlen : (pop cmp h).data_.length ≤ k := by
        rw [hperm.length_eq]; rw [hd] at hl; simp at hl; omega
      obtain ⟨out, ho, hop, hos⟩ := ih (pop cmp h) hp.1 hlen
      refine ⟨a :: out, ?_, ?_, ?_⟩
      · simp [drain, htop, ho]
      · exact List.Perm.cons a (hop.trans hperm)
      · refine List.Pairwise.cons ?_ hos
        intro b hb
        apply hmax.2
        rw [hd]
        exact List.mem_cons_of_mem a ((hop.trans hperm).subset hb)

theorem drain_none {cmp : T → T → Bool} (hswo : StrictWeakOrder cmp) :
    ∀ (fuel : Nat) (h : BinaryHeap T), HeapInv cmp h → fuel < h.data_.length →
      drain cmp fuel h = none := by
  intro fuel
  induction fuel with
  | zero =>
    intro h _ hl
    cases hd : h.data_ with
    | nil => rw [hd] at hl; simp at hl
    | cons a l => simp [drain, empty, hd]
  | succ k ih =>
    intro h hi hl
    cases hd : h.data_ with
    | nil => rw [hd] at hl; simp at hl
    | cons a l =>
      have htop : h.top = some a := by simp [top, hd]
      have hp := popC_spec hswo h (heapOrdered_belowRoot hi.1) hi.2
      have hperm : (pop cmp h).data_.Perm l := by
        have := hp.2; rw [hd] at this; simpa using this
      have hlen : k < (pop cmp h).data_.length := by
        rw [hperm.length_eq]; rw [hd] at hl; simp at hl; omega
      have := ih (pop cmp h) hp.1 hlen
      simp [drain, htop, this]

/-- C28. For a strict weak order `cmp`, the invariant `HeapInv` (no element is `cmp`-greater
than its parent, and a root cache below the size is 1 or 2 and names a child that is not
`cmp`-less than the other child of the root) holds for the empty heap and is kept by `push`,
`pop`, `replace_top`, `update_top` after an overwrite of the root, `clear` and `swap`. -/
theorem heap_invariant_preserved (cmp : T → T → Bool) (hswo : StrictWeakOrder cmp) :
    HeapInv cmp ({} : BinaryHeap T) ∧
    (∀ (h : BinaryHeap T) (v : T), HeapInv cmp h → HeapInv cmp (push cmp h v)) ∧
    (∀ h : BinaryHeap T, HeapInv cmp h → HeapInv cmp (pop cmp h)) ∧
    (∀ (h : BinaryHeap T) (v : T), HeapInv cmp h → HeapInv cmp (replace_top cmp h v)) ∧
    (∀ (h : BinaryHeap T) (w : T), HeapInv cmp h →
      HeapInv cmp (update_top cmp { h with data_ := h.data_.set 0 w })) ∧
    (∀ h : BinaryHeap T, HeapInv cmp h → HeapInv cmp h.clear) ∧
    (∀ (other : Object T) (h : BinaryHeap T), HeapInv cmp h →
      HeapInv other.cmp other.heap →
      HeapInv (swap ⟨cmp, h⟩ other).1.cmp (swap ⟨cmp, h⟩ other).1.heap ∧
      HeapInv (swap ⟨cmp, h⟩ other).2.cmp (swap ⟨cmp, h⟩ other).2.heap) ∧
    (∀ h : BinaryHeap T, HeapInv cmp h →
      (∀ i x p, 0 < i → h.data_[i]? = some x → h.data_[(i - 1) / 2]? = some p →
        cmp p x = false) ∧
      (∀ c, h.root_cmp_cache_ = some c → c < h.size → (c = 1 ∨ c = 2) ∧
        ∀ x y, h.data_[c]? = some x → h.data_[3 - c]? = some y → cmp x y = false)) :=
  ⟨⟨by intro i x p _ hx; simp at hx, by intro c hc; simp at hc⟩,
    fun h v hi => heapInv_push hswo h v hi,
    fun h hi => heapInv_pop hswo h hi,
    fun h v hi => heapInv_replace_top hswo h v hi,
    fun h w hi => heapInv_update_top_set hswo h w hi,
    fun h _ => ⟨by intro i x p _ hx; simp only [BinaryHeap.clear] at hx; simp at hx,
      by intro c hc; simp only [BinaryHeap.clear] at hc; simp at hc⟩,
    fun _ _ hi ho => ⟨ho, hi⟩,
    fun _ hi => ⟨hi.1, hi.2⟩⟩

theorem heap_invariant_preserved_witness :
    StrictWeakOrder natLess ∧ HeapInv natLess (pop natLess (pushAll natLess [3, 5, 4])) :=
  ⟨natLess_swo,
    (heap_invariant_preserved natLess natLess_swo).2.2.1 _ (pushAll_spec natLess_swo _).1⟩

/-- C29. For a strict weak order `cmp` and a list `xs`: pushing the elements of `xs` into an
empty heap and then reading `top()` and calling `pop()` until `empty()` ends after exactly
`xs.length` pops (with less fuel the loop has not ended) and gives a permutation of `xs` in
which no element is `cmp`-less than a later one. -/
theorem heap_sort (cmp : T → T → Bool) (hswo : StrictWeakOrder cmp) (xs : List T) :
    ∃ out, drain cmp xs.length (pushAll cmp xs) = some out ∧ out.length = xs.length ∧
      out.Perm xs ∧ out.Pairwise (fun a b => cmp a b = false) ∧
      ∀ fuel, fuel < xs.length → drain cmp fuel (pushAll cmp xs) = none := by
  have hp := pushAll_spec hswo xs
  obtain ⟨out, ho, hop, hos⟩ := drain_spec hswo xs.length (pushAll cmp xs) hp.1
    (by rw [hp.2.length_eq])
  refine ⟨out, ho, (hop.trans hp.2).length_eq, hop.trans hp.2, hos, ?_⟩
  intro fuel hf
  exact drain_none hswo fuel _ hp.1 (by rw [hp.2.length_eq]; exact hf)

theorem heap_sort_witness :
    StrictWeakOrder natLess ∧
    drain natLess 5 (pushAll natLess [3, 1, 4, 1, 5]) = some [5, 4, 3, 1, 1] ∧
    ∃ out, drain natLess [3, 1, 4, 1, 5].length (pushAll natLess [3, 1, 4, 1, 5]) = some out ∧
      out.length = [3, 1, 4, 1, 5].length ∧
      out.Perm [3, 1, 4, 1, 5] ∧ out.Pairwise (fun a b => natLess a b = false) ∧
      ∀ fuel, fuel < [3, 1, 4, 1, 5].length →
        drain natLess fuel (pushAll natLess [3, 1, 4, 1, 5]) = none :=
  ⟨natLess_swo, by decide, heap_sort natLess natLess_swo [3, 1, 4, 1, 5]⟩

/-- C30. After `push(v)` on any heap the root comparison cache is invalid, and `downheap`
leaves the element it took at the index `downheapEnd`; when that index is not 0 the cache is
invalid afterwards. -/
theorem cache_invalid_after_push_and_sift (cmp : T → T → Bool) (h : BinaryHeap T) (v : T)
    (index : Nat) :
    (push cmp h v).root_cmp_cache_ = none ∧
    ∀ x, h.data_[index]? = some x →
      (downheap cmp h index).1.data_[downheapEnd cmp h index]? = some x ∧
      (downheapEnd cmp h index ≠ 0 → (downheap cmp h index).1.root_cmp_cache_ = none) := by
  refine ⟨by simp [push, pushC, upheap], ?_⟩
  intro x hx
  have hlt : index < h.data_.length := by
    rcases Nat.lt_or_ge index h.data_.length with hl | hl
    · exact hl
    · rw [List.getElem?_eq_none hl] at hx; cases hx
  have hl := downheapLoop_lt cmp h.data_.length h.root_cmp_cache_ x h.data_.length
    { data := h.data_, index := index } rfl hlt
  simp only [downheap, downheapEnd, hx]
  refine ⟨?_, ?_⟩
  · rw [List.getElem?_set_self (by rw [hl.2]; exact hl.1)]
  · intro hne
    simp [hne]

theorem cache_invalid_after_push_and_sift_witness :
    (pushAll natLess [9, 7, 8, 1]).root_cmp_cache_ = none ∧
    ({ data_ := [2, 7, 8, 1], root_cmp_cache_ := some 2 } : BinaryHeap Nat).data_[0]? = some 2 ∧
    (downheap natLess { data_ := [2, 7, 8, 1], root_cmp_cache_ := some 2 } 0).1 =
      { data_ := [8, 7, 2, 1], root_cmp_cache_ := none } ∧
    downheapEnd natLess { data_ := [2, 7, 8, 1], root_cmp_cache_ := some 2 } 0 = 2 ∧
    (downheap natLess { data_ := [2, 7, 8, 1], root_cmp_cache_ := some 2 } 0).1.data_[
      downheapEnd natLess { data_ := [2, 7, 8, 1], root_cmp_cache_ := some 2 } 0]? = some 2 ∧
    (downheapEnd natLess { data_ := [2, 7, 8, 1], root_cmp_cache_ := some 2 } 0 ≠ 0 →
      (downheap natLess { data_ := [2, 7, 8, 1], root_cmp_cache_ := some 2 } 0).1.root_cmp_cache_
        = none) :=
  ⟨by decide, by decide, by decide, by decide,
    (cache_invalid_after_push_and_sift natLess
      { data_ := [2, 7, 8, 1], root_cmp_cache_ := some 2 } 0 0).2 2 (by decide)⟩

end BinaryHeap

/-! ## Part XII. The cached state of the child position wrapper -/

namespace IteratorWrapper

variable {UK : Type} [LinearOrder UK] [Inhabited UK]

theorem update_fresh (w : IteratorWrapper UK) (it : InternalIterator UK) :
    CacheFresh (Update { w with iter_ := some it }) ∧
    (Update { w with iter_ := some it }).iter_ = some it := by
  unfold Update CacheFresh
  cases hv : it.Valid <;> simp [hv, Valid, key, IsValuePrepared]

/-- C23. After `Set` of an iterator, and after `Seek`, `SeekForPrev`, `SeekToFirst`,
`SeekToLast`, `Prev` or `Next` on a wrapper that holds the iterator `it`, the wrapper holds the
iterator so positioned, its `Valid()` is that iterator's `Valid()` and, when valid, its `key()`
is that iterator's `key()` and the value is marked not prepared; after `Set(nullptr)` the
wrapper is not valid. -/
theorem wrapper_cache_fresh (w : IteratorWrapper UK) (it : InternalIterator UK)
    (k : ParsedInternalKey UK) :
    (CacheFresh (w.Set (some it)) ∧ (w.Set (some it)).iter_ = some it) ∧
    ((w.Set none).Valid = false ∧ CacheFresh (w.Set none)) ∧
    (w.iter_ = some it →
      (CacheFresh (w.Seek k) ∧ (w.Seek k).iter_ = some (it.Seek k)) ∧
      (CacheFresh (w.SeekForPrev k) ∧ (w.SeekForPrev k).iter_ = some (it.SeekForPrev k)) ∧
      (CacheFresh w.SeekToFirst ∧ w.SeekToFirst.iter_ = some it.SeekToFirst) ∧
      (CacheFresh w.SeekToLast ∧ w.SeekToLast.iter_ = some it.SeekToLast) ∧
      (CacheFresh w.Prev ∧ w.Prev.iter_ = some it.Prev) ∧
      (CacheFresh w.Next ∧ w.Next.iter_ = some it.Next)) := by
  refine ⟨update_fresh w it, ⟨rfl, rfl⟩, ?_⟩
  intro hw
  refine ⟨?_, ?_, ?_, ?_, ?_, ?_⟩
  · simp only [Seek, hw]; exact update_fresh w _
  · simp only [SeekForPrev, hw]; exact update_fresh w _
  · simp only [SeekToFirst, hw]; exact update_fresh w _
  · simp only [SeekToLast, hw]; exact update_fresh w _
  · simp only [Prev, hw]; exact update_fresh w _
  · simp only [Next, hw]
    cases hv : it.Next.Valid <;> simp [hv, CacheFresh, Valid, key, IsValuePrepared]

theorem wrapper_cache_fresh_witness :
    (({ result_ := { key := ⟨0, 0, 0⟩ } } : IteratorWrapper Nat).Set
      (some { run := [⟨1, 5, 1⟩, ⟨3, 4, 1⟩] })).iter_ =
      some { run := [⟨1, 5, 1⟩, ⟨3, 4, 1⟩] } ∧
    ((({ result_ := { key := ⟨0, 0, 0⟩ } } : IteratorWrapper Nat).Set
      (some { run := [⟨1, 5, 1⟩, ⟨3, 4, 1⟩] })).Seek ⟨2, 9, 1⟩).key = ⟨3, 4, 1⟩ ∧
    CacheFresh ((({ result_ := { key := ⟨0, 0, 0⟩ } } : IteratorWrapper Nat).Set
      (some { run := [⟨1, 5, 1⟩, ⟨3, 4, 1⟩] })).Seek ⟨2, 9, 1⟩) :=
  ⟨by decide, by decide,
    ((wrapper_cache_fresh
      (({ result_ := { key := ⟨0, 0, 0⟩ } } : IteratorWrapper Nat).Set
        (some { run := [⟨1, 5, 1⟩, ⟨3, 4, 1⟩] }))
      { run := [⟨1, 5, 1⟩, ⟨3, 4, 1⟩] } ⟨2, 9, 1⟩).2.2 (by decide)).1.1⟩

end IteratorWrapper

/-! ## Part XIII. The visibility decision of `SkipNextDeleted` and `SkipPrevDeleted` -/

namespace MergingIterator

variable {UK : Type} [LinearOrder UK] [Inhabited UK]

theorem head_of_least {l : List Nat} {i : Nat} (hs : l.Pairwise (· < ·)) (hi : i ∈ l)
    (hmin : ∀ j ∈ l, i ≤ j) : l.head? = some i := by
  cases l with
  | nil => cases hi
  | cons a t =>
    simp only [List.head?_cons, Option.some.injEq]
    have h1 := hmin a (List.mem_cons_self a t)
    rcases List.mem_cons.mp hi with h | h
    · exact h.symm
    · have := (List.pairwise_cons.mp hs).1 i h
      omega

/-- C25. When the heap top is a point item of level `l` that is no sentinel and `i` is the
smallest element of the active set, `SkipNextDeleted` and `SkipPrevDeleted` return true iff
`i < l`, or `i = l` and the sequence number of the record is below that of the current
tombstone of level `l`; when they return false the state is unchanged. -/
theorem skip_deleted_decision (e : MergingIterator UK) (current : HeapItemPtr) (i : Nat)
    (htop : e.heap_.top = some current)
    (htype : (e.deref current).type = HeapItemType.ITERATOR)
    (hsent : (e.deref current).iter.IsDeleteRangeSentinelKey = false)
    (hsorted : e.active_.Pairwise (· < ·)) (hi : i ∈ e.active_)
    (hmin : ∀ j ∈ e.active_, i ≤ j) :
    (e.SkipNextDeleted.2 = true ↔
      (i < (e.deref current).level ∨
        (i = (e.deref current).level ∧
          (e.deref current).iter.key.sequence < (e.rti (e.deref current).level).seq))) ∧
    (e.SkipNextDeleted.2 = false → e.SkipNextDeleted.1 = e) ∧
    (e.SkipPrevDeleted.2 = true ↔
      (i < (e.deref current).level ∨
        (i = (e.deref current).level ∧
          (e.deref current).iter.key.sequence < (e.rti (e.deref current).level).seq))) ∧
    (e.SkipPrevDeleted.2 = false → e.SkipPrevDeleted.1 = e) := by
  have hh := head_of_least hsorted hi hmin
  have hn : ((e.deref current).type == HeapItemType.DELETE_RANGE_END) = false := by
    rw [htype]; rfl
  have hp : ((e.deref current).type == HeapItemType.DELETE_RANGE_START) = false := by
    rw [htype]; rfl
  refine ⟨?_, ?_, ?_, ?_⟩
  · simp only [SkipNextDeleted, htop, hn, hsent, hh, Bool.false_eq_true, ↓reduceIte]
    by_cases h1 : i < (e.deref current).level
    · simp [h1]
    · by_cases h2 : i = (e.deref current).level
      · by_cases h3 : (e.deref current).iter.key.sequence < (e.rti (e.deref current).level).seq
        · simp only [h2, h3, lt_irrefl, ↓reduceIte, beq_self_eq_true]
          split_ifs <;> simp [h2]
        · simp [h1, h2, h3]
      · have h2' : (i == (e.deref current).level) = false := by simpa using h2
        simp [h1, h2, h2']
  · simp only [SkipNextDeleted, htop, hn, hsent, hh, Bool.false_eq_true, ↓reduceIte]
    by_cases h1 : i < (e.deref current).level
    · simp [h1]
    · by_cases h2 : i = (e.deref current).level
      · by_cases h3 : (e.deref current).iter.key.sequence < (e.rti (e.deref current).level).seq
        · simp only [h2, h3, lt_irrefl, ↓reduceIte, beq_self_eq_true]
          split_ifs <;> simp [h2]
        · simp [h1, h3]
      · have h2' : (i == (e.deref current).level) = false := by simpa using h2
        simp [h1, h2']
  · simp only [SkipPrevDeleted, htop, hp, hsent, hh, Bool.false_eq_true, ↓reduceIte]
    by_cases h1 : i < (e.deref current).level
    · simp [h1]
    · by_cases h2 : i = (e.deref current).level
      · by_cases h3 : (e.deref current).iter.key.sequence < (e.rti (e.deref current).level).seq
        · simp only [h2, h3, lt_irrefl, ↓reduceIte, beq_self_eq_true]
          split_ifs <;> simp [h2]
        · simp [h1, h2, h3]
      · have h2' : (i == (e.deref current).level) = false := by simpa using h2
        simp [h1, h2, h2']
  · simp only [SkipPrevDeleted, htop, hp, hsent, hh, Bool.false_eq_true, ↓reduceIte]
    by_cases h1 : i < (e.deref current).level
    · simp [h1]
    · by_cases h2 : i = (e.deref current).level
      · by_cases h3 : (e.deref current).iter.key.sequence < (e.rti (e.deref current).level).seq
        · simp only [h2, h3, lt_irrefl, ↓reduceIte, beq_self_eq_true]
          split_ifs <;> simp [h2]
        · simp [h1, h3]
      · have h2' : (i == (e.deref current).level) = false := by simpa using h2
        simp [h1, h2']

theorem skip_deleted_decision_witness :
    activeAtTop.heap_.top = some (HeapItemPtr.child 0) ∧ activeAtTop.active_ = [0] ∧
    (activeAtTop.deref (HeapItemPtr.child 0)).level = 0 ∧
    (activeAtTop.deref (HeapItemPtr.child 0)).iter.key.sequence = 10 ∧
    (activeAtTop.rti 0).seq = 9 ∧
    (activeAtTop.SkipNextDeleted.2 = false → activeAtTop.SkipNextDeleted.1 = activeAtTop) :=
  ⟨by decide, by decide, by decide, by decide, by decide,
    (skip_deleted_decision activeAtTop (HeapItemPtr.child 0) 0 (by decide) (by decide)
      (by decide) (by decide) (by decide) (by decide)).2.1⟩

end MergingIterator

/-! ## Part XIV. `Next()` and `Prev()` without tombstone iterators move one child only -/

namespace MergingIterator

variable {UK : Type} [LinearOrder UK] [Inhabited UK]

theorem updIter_child_frame (e : MergingIterator UK) (s : Nat)
    (f : IteratorWrapper UK → IteratorWrapper UK) :
    (e.updIter (HeapItemPtr.child s) f).children_ = e.children_.set s
      { e.deref (HeapItemPtr.child s) with iter := f (e.deref (HeapItemPtr.child s)).iter } ∧
    (e.updIter (HeapItemPtr.child s) f).pinned_heap_item_ = e.pinned_heap_item_ ∧
    (e.updIter (HeapItemPtr.child s) f).range_tombstone_iters_ = e.range_tombstone_iters_ :=
  ⟨rfl, rfl, rfl⟩

theorem considerStatus_frame (e : MergingIterator UK) (st : Status) :
    (e.considerStatus st).children_ = e.children_ ∧
    (e.considerStatus st).pinned_heap_item_ = e.pinned_heap_item_ ∧
    (e.considerStatus st).range_tombstone_iters_ = e.range_tombstone_iters_ := by
  unfold considerStatus
  split_ifs <;> exact ⟨rfl, rfl, rfl⟩

theorem next_no_tombstones (e : MergingIterator UK) (s fuel : Nat)
    (hrti : e.range_tombstone_iters_ = []) (hcur : e.current_ = some (HeapItemPtr.child s))
    (hdir : e.direction_ = Direction.kForward) :
    ∃ e1, e.Next fuel = some e1 ∧
      e1.children_ = (e.updIter (HeapItemPtr.child s) (fun w => w.Next)).children_ ∧
      e1.pinned_heap_item_ = e.pinned_heap_item_ ∧
      e1.range_tombstone_iters_ = e.range_tombstone_iters_ := by
  have hf : ∀ e3 : MergingIterator UK, e3.range_tombstone_iters_ = [] →
      e3.FindNextVisibleKey fuel = some e3 := by
    intro e3 h3; simp [FindNextVisibleKey, h3]
  simp only [Next, hcur, hdir, bne_self_eq_false, Bool.false_eq_true, ↓reduceIte]
  split_ifs with hv
  · rw [hf _ (by simpa [minUpdateTop, updIter, store] using hrti)]
    exact ⟨_, rfl, rfl, rfl, rfl⟩
  · have hc := considerStatus_frame (e.updIter (HeapItemPtr.child s) (fun w => w.Next))
      ((e.updIter (HeapItemPtr.child s) (fun w => w.Next)).deref (HeapItemPtr.child s)).iter.status
    rw [hf _ (by simp only [minPop]; rw [hc.2.2]; exact hrti)]
    exact ⟨_, rfl, hc.1, hc.2.1, hc.2.2⟩

theorem prev_no_tombstones (e : MergingIterator UK) (s fuel : Nat)
    (hrti : e.range_tombstone_iters_ = []) (hcur : e.current_ = some (HeapItemPtr.child s))
    (hdir : e.direction_ = Direction.kReverse) :
    ∃ e1, e.Prev fuel = some e1 ∧
      e1.children_ = (e.updIter (HeapItemPtr.child s) (fun w => w.Prev)).children_ ∧
      e1.pinned_heap_item_ = e.pinned_heap_item_ ∧
      e1.range_tombstone_iters_ = e.range_tombstone_iters_ := by
  have hf : ∀ e3 : MergingIterator UK, e3.range_tombstone_iters_ = [] →
      e3.FindPrevVisibleKey fuel = some e3 := by
    intro e3 h3; simp [FindPrevVisibleKey, h3]
  simp only [Prev, hcur, hdir, bne_self_eq_false, Bool.false_eq_true, ↓reduceIte]
  split_ifs with hv
  · cases ht : (e.updIter (HeapItemPtr.child s) (fun w => w.Prev)).heap_.top with
    | none =>
      simp only []
      rw [hf _ (by simpa [updIter, store] using hrti)]
      exact ⟨_, rfl, rfl, rfl, rfl⟩
    | some t =>
      simp only []
      rw [hf _ (by simpa [maxReplaceTop, updIter, store] using hrti)]
      exact ⟨_, rfl, rfl, rfl, rfl⟩
  · have hc := considerStatus_frame (e.updIter (HeapItemPtr.child s) (fun w => w.Prev))
      ((e.updIter (HeapItemPtr.child s) (fun w => w.Prev)).deref (HeapItemPtr.child s)).iter.status
    rw [hf _ (by simp only [maxPop]; rw [hc.2.2]; exact hrti)]
    exact ⟨_, rfl, hc.1, hc.2.1, hc.2.2⟩

/-- C27. On a valid engine without tombstone iterators that is in the forward direction and
whose current child `s` is the heap top, `Next()` returns for every fuel, and the children are
those of before with `Next()` applied once to the wrapper of child `s`: every other child is
unchanged. The same holds for `Prev()` in the reverse direction. -/
theorem next_moves_top_child_only (e : MergingIterator UK) (s fuel : Nat)
    (hvalid : e.Valid = true) (hrti : e.range_tombstone_iters_ = [])
    (htop : e.heap_.top = some (HeapItemPtr.child s)) (hcur : e.current_ = e.heap_.top) :
    (e.direction_ = Direction.kForward →
      ∃ e1, e.Next fuel = some e1 ∧
        e1.children_ = e.children_.set s
          { e.deref (HeapItemPtr.child s) with
            iter := (e.deref (HeapItemPtr.child s)).iter.Next } ∧
        (∀ j, j ≠ s → e1.children_[j]? = e.children_[j]?) ∧
        e1.pinned_heap_item_ = e.pinned_heap_item_ ∧
        e1.range_tombstone_iters_ = e.range_tombstone_iters_) ∧
    (e.direction_ = Direction.kReverse →
      ∃ e1, e.Prev fuel = some e1 ∧
        e1.children_ = e.children_.set s
          { e.deref (HeapItemPtr.child s) with
            iter := (e.deref (HeapItemPtr.child s)).iter.Prev } ∧
        (∀ j, j ≠ s → e1.children_[j]? = e.children_[j]?) ∧
        e1.pinned_heap_item_ = e.pinned_heap_item_ ∧
        e1.range_tombstone_iters_ = e.range_tombstone_iters_) := by
  have _ := hvalid
  rw [htop] at hcur
  constructor
  · intro hdir
    obtain ⟨e1, h1, h2, h3, h4⟩ := next_no_tombstones e s fuel hrti hcur hdir
    rw [(updIter_child_frame e s _).1] at h2
    refine ⟨e1, h1, h2, ?_, h3, h4⟩
    intro j hj
    rw [h2, List.getElem?_set_ne (Ne.symm hj)]
  · intro hdir
    obtain ⟨e1, h1, h2, h3, h4⟩ := prev_no_tombstones e s fuel hrti hcur hdir
    rw [(updIter_child_frame e s _).1] at h2
    refine ⟨e1, h1, h2, ?_, h3, h4⟩
    intro j hj
    rw [h2, List.getElem?_set_ne (Ne.symm hj)]

theorem next_moves_top_child_only_witness :
    (((build [[⟨1, 5, 1⟩, ⟨3, 5, 1⟩], [⟨2, 3, 1⟩, ⟨4, 3, 1⟩]] []).SeekToFirst 0).getD
      default).Valid = true ∧
    (((build [[⟨1, 5, 1⟩, ⟨3, 5, 1⟩], [⟨2, 3, 1⟩, ⟨4, 3, 1⟩]] []).SeekToFirst 0).getD
      default).direction_ = Direction.kForward ∧
    ∃ e1, (((build [[⟨1, 5, 1⟩, ⟨3, 5, 1⟩], [⟨2, 3, 1⟩, ⟨4, 3, 1⟩]] []).SeekToFirst 0).getD
        default).Next 0 = some e1 ∧
      e1.children_ =
        (((build [[⟨1, 5, 1⟩, ⟨3, 5, 1⟩], [⟨2, 3, 1⟩, ⟨4, 3, 1⟩]] []).SeekToFirst 0).getD
          default).children_.set 0
          { (((build [[⟨1, 5, 1⟩, ⟨3, 5, 1⟩], [⟨2, 3, 1⟩, ⟨4, 3, 1⟩]] []).SeekToFirst 0).getD
              default).deref (HeapItemPtr.child 0) with
            iter := ((((build [[⟨1, 5, 1⟩, ⟨3, 5, 1⟩], [⟨2, 3, 1⟩, ⟨4, 3, 1⟩]]
              []).SeekToFirst 0).getD default).deref (HeapItemPtr.child 0)).iter.Next } ∧
      (∀ j, j ≠ 0 → e1.children_[j]? =
        (((build [[⟨1, 5, 1⟩, ⟨3, 5, 1⟩], [⟨2, 3, 1⟩, ⟨4, 3, 1⟩]] []).SeekToFirst 0).getD
          default).children_[j]?) ∧
      e1.pinned_heap_item_ =
        (((build [[⟨1, 5, 1⟩, ⟨3, 5, 1⟩], [⟨2, 3, 1⟩, ⟨4, 3, 1⟩]] []).SeekToFirst 0).getD
          default).pinned_heap_item_ ∧
      e1.range_tombstone_iters_ =
        (((build [[⟨1, 5, 1⟩, ⟨3, 5, 1⟩], [⟨2, 3, 1⟩, ⟨4, 3, 1⟩]] []).SeekToFirst 0).getD
          default).range_tombstone_iters_ :=
  ⟨by decide, by decide,
    (next_moves_top_child_only
      (((build [[⟨1, 5, 1⟩, ⟨3, 5, 1⟩], [⟨2, 3, 1⟩, ⟨4, 3, 1⟩]] []).SeekToFirst 0).getD
        default) 0 0 (by decide) (by decide) (by decide) (by decide)).1 (by decide)⟩

end MergingIterator

/-! ## Part XV. The cascading seek targets of `SeekImpl` -/

namespace MergingIterator

open InternalKeyComparator BinaryHeap

variable {UK : Type} [LinearOrder UK] [Inhabited UK]

theorem insertMin_slots (e : MergingIterator UK) (j : Nat) (a b : Bool) :
    (e.InsertRangeTombstoneToMinHeap j a b).range_tombstone_iters_ =
      e.range_tombstone_iters_ := by
  unfold InsertRangeTombstoneToMinHeap
  simp only []
  repeat' split
  all_goals rfl

theorem addToMin_slots (e : MergingIterator UK) (p : HeapItemPtr) :
    (e.AddToMinHeapOrCheckStatus p).range_tombstone_iters_ = e.range_tombstone_iters_ := by
  unfold AddToMinHeapOrCheckStatus considerStatus
  repeat' split
  all_goals rfl

theorem foldl_slots {α : Type} (f : MergingIterator UK → α → MergingIterator UK)
    (hf : ∀ e a, (f e a).range_tombstone_iters_ = e.range_tombstone_iters_) :
    ∀ (xs : List α) (e : MergingIterator UK),
      (xs.foldl f e).range_tombstone_iters_ = e.range_tombstone_iters_ := by
  intro xs
  induction xs with
  | nil => intro e; rfl
  | cons a l ih => intro e; rw [List.foldl_cons, ih, hf]

theorem seekImplInit_slots (e : MergingIterator UK) (s : Nat) :
    (seekImplInit e s).range_tombstone_iters_ = e.range_tombstone_iters_ := by
  have h1 := foldl_slots (fun (e : MergingIterator UK) level =>
    e.AddToMinHeapOrCheckStatus (.child level)) (fun e a => addToMin_slots e _)
    (List.range s) (e.ClearHeaps false)
  have h2 := foldl_slots (fun (e : MergingIterator UK) level =>
      if (e.range_tombstone_iters_[level]?.getD none).isSome && (e.rti level).Valid then
        if e.active_.contains level then e.minPush (.pinned level)
        else e.InsertRangeTombstoneToMinHeap level true false
      else e) (fun e a => by
        simp only []
        repeat' split
        all_goals first | rfl | exact insertMin_slots _ _ _ _)
  unfold seekImplInit seekImplRefill
  simp only []
  split
  · exact (h2 (List.range s) _).trans h1
  · exact h1

theorem updIter_slots (e : MergingIterator UK) (p : HeapItemPtr)
    (f : IteratorWrapper UK → IteratorWrapper UK) :
    (e.updIter p f).range_tombstone_iters_ = e.range_tombstone_iters_ := by
  cases p <;> rfl

theorem compare_ne_gt_iff (a b : UK) : (compare a b != Ordering.gt) = decide (a ≤ b) := by
  rcases lt_trichotomy a b with h | h | h
  · rw [compare_lt_iff_lt.mpr h, decide_eq_true (le_of_lt h)]; rfl
  · rw [compare_eq_iff_eq.mpr h, decide_eq_true (le_of_eq h)]; rfl
  · rw [compare_gt_iff_gt.mpr h, decide_eq_false (not_le.mpr h)]; rfl

/-- The search key after one iteration of the main loop of `SeekImpl`, and the tombstone slots
of the other levels. -/
theorem seekStepMid_cascade (pik : ParsedInternalKey UK) (st : SeekLoopState UK) (lv : Nat) :
    (seekStepMid pik st lv).current_search_key =
      (match st.e.range_tombstone_iters_[lv]?.getD none with
      | some it =>
        if (it.Seek st.current_search_key.user_key).Valid &&
            (it.Seek st.current_search_key.user_key).start_key.user_key ≤
              st.current_search_key.user_key then
          { user_key := (it.Seek st.current_search_key.user_key).end_key.user_key,
            sequence := kMaxSequenceNumber, type := kValueTypeForSeek }
        else st.current_search_key
      | none => st.current_search_key) ∧
    ∀ j, j ≠ lv → (seekStepMid pik st lv).e.range_tombstone_iters_[j]? =
      st.e.range_tombstone_iters_[j]? := by
  have hs := updIter_slots st.e (.child lv) (fun w => w.Seek st.current_search_key)
  unfold seekStepMid
  simp only [hs]
  by_cases hemp : st.e.range_tombstone_iters_.isEmpty = true
  · have hnil : st.e.range_tombstone_iters_ = [] := List.isEmpty_iff.mp hemp
    simp only [hemp, Bool.not_true, Bool.false_eq_true, ↓reduceIte]
    refine ⟨by simp [hnil], ?_⟩
    intro j _
    rw [hs]
  · simp only [hemp, Bool.not_false, ↓reduceIte]
    cases hslot : st.e.range_tombstone_iters_[lv]?.getD none with
    | none =>
      simp only []
      refine ⟨trivial, ?_⟩
      intro j _
      rw [hs]
    | some it =>
      simp only []
      have hlt : lv < st.e.range_tombstone_iters_.length := by
        rcases Nat.lt_or_ge lv st.e.range_tombstone_iters_.length with h | h
        · exact h
        · rw [List.getElem?_eq_none h] at hslot; cases hslot
      have hr : ((st.e.updIter (.child lv) (fun w => w.Seek st.current_search_key)).setRti lv
          (it.Seek st.current_search_key.user_key)).rti lv =
          it.Seek st.current_search_key.user_key :=
        rti_setRti_self _ _ _ (by rw [hs]; exact hlt)
      have hset : ∀ j, j ≠ lv →
          ((st.e.updIter (.child lv) (fun w => w.Seek st.current_search_key)).setRti lv
            (it.Seek st.current_search_key.user_key)).range_tombstone_iters_[j]? =
          st.e.range_tombstone_iters_[j]? := by
        intro j hj
        simp only [setRti, hs]
        rw [List.getElem?_set_ne (Ne.symm hj)]
      rw [hr]
      cases hv : (it.Seek st.current_search_key.user_key).Valid with
      | false =>
        simp only [Bool.false_eq_true, ↓reduceIte, Bool.false_and]
        exact ⟨trivial, hset⟩
      | true =>
        simp only [↓reduceIte, Bool.true_and]
        have hr3 : ∀ a b, (((st.e.updIter (.child lv)
            (fun w => w.Seek st.current_search_key)).setRti lv
            (it.Seek st.current_search_key.user_key)).InsertRangeTombstoneToMinHeap lv a b).rti
              lv = it.Seek st.current_search_key.user_key := by
          intro a b
          rw [rti_eq_of_iters _ _ (insertMin_slots _ _ _ _), hr]
        rw [hr3, compare_ne_gt_iff]
        split
        · refine ⟨rfl, ?_⟩
          intro j hj
          rw [insertMin_slots]; exact hset j hj
        · refine ⟨rfl, ?_⟩
          intro j hj
          rw [insertMin_slots]; exact hset j hj

theorem seekStep_cascade (pik : ParsedInternalKey UK) (st : SeekLoopState UK) (lv : Nat) :
    (SeekImplStep pik st lv).current_search_key =
      (match st.e.range_tombstone_iters_[lv]?.getD none with
      | some it =>
        if (it.Seek st.current_search_key.user_key).Valid &&
            (it.Seek st.current_search_key.user_key).start_key.user_key ≤
              st.current_search_key.user_key then
          { user_key := (it.Seek st.current_search_key.user_key).end_key.user_key,
            sequence := kMaxSequenceNumber, type := kValueTypeForSeek }
        else st.current_search_key
      | none => st.current_search_key) ∧
    ∀ j, j ≠ lv → (SeekImplStep pik st lv).e.range_tombstone_iters_[j]? =
      st.e.range_tombstone_iters_[j]? := by
  obtain ⟨h1, h2⟩ := seekStepMid_cascade pik st lv
  rw [seekImplStep_eq]
  split
  · exact ⟨h1, h2⟩
  · refine ⟨h1, ?_⟩
    intro j hj
    show ((seekStepMid pik st lv).e.AddToMinHeapOrCheckStatus _).range_tombstone_iters_[j]? = _
    rw [addToMin_slots]; exact h2 j hj

/-- The search key that the main loop of `SeekImpl` holds after `k` iterations is the cascaded
target of the level `s + k`. -/
theorem seekImplMain_cascade (e : MergingIterator UK) (target : ParsedInternalKey UK)
    (s : Nat) :
    ∀ k, (seekImplMain e target s k).current_search_key = cascadeTarget e target s (s + k) ∧
      ∀ j, s + k ≤ j → (seekImplMain e target s k).e.range_tombstone_iters_[j]? =
        e.range_tombstone_iters_[j]? := by
  have hbase : ∀ j, j ≤ s → cascadeTarget e target s j = target := by
    intro j hj
    cases j with
    | zero => rfl
    | succ j => simp only [cascadeTarget]; rw [if_pos (by omega)]
  intro k
  induction k with
  | zero =>
    refine ⟨(hbase s (Nat.le_refl s)).symm, ?_⟩
    intro j _
    show (seekImplInit e s).range_tombstone_iters_[j]? = _
    rw [seekImplInit_slots]
  | succ k ih =>
    obtain ⟨i1, i2⟩ := ih
    obtain ⟨c1, c2⟩ := seekStep_cascade target (seekImplMain e target s k) (s + k)
    rw [seekImplMain_succ]
    refine ⟨?_, ?_⟩
    · rw [c1, i2 (s + k) (Nat.le_refl _), i1]
      show _ = cascadeTarget e target s (s + k + 1)
      simp only [cascadeTarget]
      rw [if_neg (by omega)]
    · intro j hj
      rw [c2 j (by omega), i2 j (by omega)]

/-- The main loop of `SeekImpl` and the child of a level `l` from `starting_level` on: when
the loop has ended the child has been sought once, with the search key of its level, and it is
noted for the retry exactly if tombstones are handled and the seek reported try-again. -/
theorem seekImplMain_at (e : MergingIterator UK) (target : ParsedInternalKey UK)
    {s l : Nat} (hs : s ≤ l) (hl : l < e.children_.length) :
    ((seekImplMain e target s (e.children_.length - s)).e.deref (.child l)).iter =
        (e.deref (.child l)).iter.Seek (seekImplMain e target s (l - s)).current_search_key ∧
      (seekImplMain e target s (e.children_.length - s)).prefetched_target.filter
          (fun p => p.1 == l) =
        if (!e.range_tombstone_iters_.isEmpty &&
            ((e.deref (.child l)).iter.Seek
              (seekImplMain e target s (l - s)).current_search_key).status.IsTryAgain) = true
        then [(l, (seekImplMain e target s (l - s)).current_search_key)] else [] := by
  obtain ⟨b1, b2, b3⟩ := seekImplMain_before e target hs (l - s) (by omega)
  obtain ⟨hlen, hslots⟩ := seekImplMain_len e target s (l - s)
  have hstep := seekStep_self target (seekImplMain e target s (l - s)) l (by rw [hlen]; exact hl)
  rw [b1, b2, b3] at hstep
  have hsucc := seekImplMain_succ e target s (l - s)
  rw [show s + (l - s) = l from by omega] at hsucc
  rw [← hsucc, hslots] at hstep
  obtain ⟨c1, _, c3⟩ := hstep
  obtain ⟨a1, a2⟩ := seekImplMain_after e target s l (l - s + 1) (by omega)
    (e.children_.length - s - (l - s + 1))
  rw [show l - s + 1 + (e.children_.length - s - (l - s + 1)) = e.children_.length - s from by
    omega] at a1 a2
  refine ⟨?_, ?_⟩
  · rw [a1.item]; exact c1
  · rw [a2, c3]; simp

/-- The retry loops of `SeekImpl` leave alone a child that does not report try-again and is
not noted for a retry. -/
theorem seekImplRetry_untouched (target : ParsedInternalKey UK) (st : SeekLoopState UK)
    (l : Nat) (hl : l < st.e.children_.length)
    (htry : (st.e.deref (.child l)).iter.status.IsTryAgain = false)
    (hpre : st.prefetched_target.filter (fun p => p.1 == l) = []) :
    SameChild l st.e (seekImplRetry target st) := by
  unfold seekImplRetry
  by_cases hemp : st.e.range_tombstone_iters_.isEmpty = true
  · simp only [hemp, ↓reduceIte]
    rw [range_split _ l hl, List.foldl_append, List.foldl_cons]
    have hf : ∀ (xs : List Nat), (∀ a ∈ xs, a ≠ l) → ∀ e0 : MergingIterator UK,
        SameChild l e0 (xs.foldl (fun (e : MergingIterator UK) level =>
          if (e.deref (.child level)).iter.status.IsTryAgain then
            (e.updIter (.child level) (fun w => w.Seek target)).AddToMinHeapOrCheckStatus
              (.child level)
          else e) e0) := by
      intro xs hxs e0
      apply sameChild_foldl
      intro e1 a ha
      split
      · exact retry_step_other e1 target (hxs a ha)
      · exact sameChild_refl l e1
    have h1 := hf (List.range l) (fun a ha => by
      have := List.mem_range.mp ha; omega) st.e
    obtain ⟨e1, he1⟩ : ∃ e1, e1 = (List.range l).foldl (fun (e : MergingIterator UK) level =>
        if (e.deref (.child level)).iter.status.IsTryAgain then
          (e.updIter (.child level) (fun w => w.Seek target)).AddToMinHeapOrCheckStatus
            (.child level)
        else e) st.e := ⟨_, rfl⟩
    rw [← he1] at h1 ⊢
    have htry1 : (e1.deref (.child l)).iter.status.IsTryAgain = false := by
      rw [h1.item]; exact htry
    simp only [htry1, Bool.false_eq_true, ↓reduceIte]
    exact sameChild_trans h1 (hf _ (fun a ha => by
      have := List.mem_range'_1.mp ha; omega) e1)
  · simp only [hemp, Bool.false_eq_true, ↓reduceIte]
    apply sameChild_foldl
    intro e1 a ha
    have hne : (a.1 == l) = false := by
      by_contra hcon
      have : a ∈ st.prefetched_target.filter (fun p => p.1 == l) :=
        List.mem_filter.mpr ⟨ha, by simpa using hcon⟩
      rw [hpre] at this
      cases this
    exact retry_step_other e1 a.2 (by simpa using hne)

/-- C26. In `SeekImpl(target, starting_level)` the search key that the main loop holds when it
reaches a level `j` from `starting_level` on is the cascaded target `T_j`, and on return the
child of level `j` is what a seek to `T_j` makes of the child of before (and one more seek to
`T_j` when the first one reports try-again). -/
theorem cascading_seek_targets (e : MergingIterator UK) (target : ParsedInternalKey UK)
    (s j : Nat) (hs : s ≤ j) (hj : j < e.children_.length) :
    (seekImplMain e target s (j - s)).current_search_key = cascadeTarget e target s j ∧
    ((e.SeekImpl target s).deref (.child j)).iter =
      (if ((e.deref (.child j)).iter.Seek (cascadeTarget e target s j)).status.IsTryAgain
        then ((e.deref (.child j)).iter.Seek (cascadeTarget e target s j)).Seek
          (cascadeTarget e target s j)
        else (e.deref (.child j)).iter.Seek (cascadeTarget e target s j)) := by
  have hc : (seekImplMain e target s (j - s)).current_search_key =
      cascadeTarget e target s j := by
    have := (seekImplMain_cascade e target s (j - s)).1
    rwa [show s + (j - s) = j from by omega] at this
  refine ⟨hc, ?_⟩
  cases htry : ((e.deref (.child j)).iter.Seek (cascadeTarget e target s j)).status.IsTryAgain
    with
  | true =>
    have h := (seekImpl_try_again e target hs hj (by rw [hc]; exact htry)).1
    rw [hc] at h
    simpa using h
  | false =>
    obtain ⟨m1, m3⟩ := seekImplMain_at e target hs hj
    rw [hc] at m1 m3
    obtain ⟨hlen, _⟩ := seekImplMain_len e target s (e.children_.length - s)
    have hr := seekImplRetry_untouched target
      (seekImplMain e target s (e.children_.length - s)) j (by rw [hlen]; exact hj)
      (by rw [m1]; exact htry) (by rw [m3]; simp [htry])
    rw [seekImpl_eq_retry, hr.item, m1]
    simp

theorem cascading_seek_targets_witness :
    cascadeTarget coveredSecondRun ⟨2, kMaxSequenceNumber, kValueTypeForSeek⟩ 0 1 =
      ⟨4, kMaxSequenceNumber, kValueTypeForSeek⟩ ∧
    ((coveredSecondRun.SeekImpl ⟨2, kMaxSequenceNumber, kValueTypeForSeek⟩ 0).deref
      (.child 1)).iter.key = ⟨4, 3, 1⟩ ∧
    ((coveredSecondRun.SeekImpl ⟨2, kMaxSequenceNumber, kValueTypeForSeek⟩ 0).deref
      (.child 1)).iter =
      (if ((coveredSecondRun.deref (.child 1)).iter.Seek
          (cascadeTarget coveredSecondRun ⟨2, kMaxSequenceNumber, kValueTypeForSeek⟩
            0 1)).status.IsTryAgain
        then ((coveredSecondRun.deref (.child 1)).iter.Seek
          (cascadeTarget coveredSecondRun ⟨2, kMaxSequenceNumber, kValueTypeForSeek⟩ 0 1)).Seek
          (cascadeTarget coveredSecondRun ⟨2, kMaxSequenceNumber, kValueTypeForSeek⟩ 0 1)
        else (coveredSecondRun.deref (.child 1)).iter.Seek
          (cascadeTarget coveredSecondRun ⟨2, kMaxSequenceNumber, kValueTypeForSeek⟩ 0 1)) :=
  ⟨by decide, by decide,
    (cascading_seek_targets coveredSecondRun ⟨2, kMaxSequenceNumber, kValueTypeForSeek⟩ 0 1
      (by decide) (by decide)).2⟩

end MergingIterator

/-! ## Part XVI. The active set and the boundary items in the heap -/

namespace MergingIterator

open InternalKeyComparator BinaryHeap

variable {UK : Type} [LinearOrder UK] [Inhabited UK]

theorem seekImplRefill_children (e : MergingIterator UK) (s : Nat) :
    seekImplRefill e s =
      if !(seekImplChildren e s).range_tombstone_iters_.isEmpty then
        { (List.range s).foldl
            (fun (e : MergingIterator UK) level =>
              if (e.range_tombstone_iters_[level]?.getD none).isSome && (e.rti level).Valid then
                if e.active_.contains level then e.minPush (.pinned level)
                else e.InsertRangeTombstoneToMinHeap level true false
              else e) (seekImplChildren e s) with
          active_ := ((List.range s).foldl
            (fun (e : MergingIterator UK) level =>
              if (e.range_tombstone_iters_[level]?.getD none).isSome && (e.rti level).Valid then
                if e.active_.contains level then e.minPush (.pinned level)
                else e.InsertRangeTombstoneToMinHeap level true false
              else e) (seekImplChildren e s)).active_.filter (fun l => l < s) }
      else seekImplChildren e s := rfl

theorem struct_active_iff {runs : List (List (ParsedInternalKey UK))}
    {tombs : List (Option (List (RangeTombstone UK)))} {e : MergingIterator UK}
    (h : Struct runs tombs e) (L : Nat) :
    L ∈ e.active_ ↔ (HeapItemPtr.pinned L ∈ e.heap_.data_ ∧
      (e.deref (.pinned L)).type = HeapItemType.DELETE_RANGE_END) := by
  rw [h.tomb.active_iff, h.heap.mem_pinned]
  exact ⟨fun ⟨a, b, c⟩ => ⟨⟨a, b⟩, c⟩, fun ⟨⟨a, b⟩, c⟩ => ⟨a, b, c⟩⟩

theorem structR_active_iff {runs : List (List (ParsedInternalKey UK))}
    {tombs : List (Option (List (RangeTombstone UK)))} {e : MergingIterator UK}
    (h : StructR runs tombs e) (L : Nat) :
    L ∈ e.active_ ↔ (HeapItemPtr.pinned L ∈ e.heap_.data_ ∧
      (e.deref (.pinned L)).type = HeapItemType.DELETE_RANGE_START) := by
  rw [h.tomb.active_iff, h.heap.mem_pinned]
  exact ⟨fun ⟨a, b, c⟩ => ⟨⟨a, b⟩, c⟩, fun ⟨⟨a, b⟩, c⟩ => ⟨a, b, c⟩⟩

/-- C24, as stated, fails inside `SeekImpl`. In `Next()` on the engine `beforeCoveredRecord`,
`SkipNextDeleted()` finds the record `(4, 3)` of level 1 covered by the active tombstone of
level 0 and calls `SeekImpl(end_key, 1)`. After `ClearHeaps(false)` and the loop that puts
back the children below level 1 the engine is in the forward direction, the heap top is the
child of level 0, a point item, and level 0 is active, but the boundary item of level 0 is
not in the heap. -/
theorem active_level_without_boundary_item_inside_seekImpl :
    atCoveredRecord.heap_.top = some (HeapItemPtr.child 1) ∧
    atCoveredRecord.active_ = [0] ∧
    atCoveredRecord.SkipNextDeleted.1 =
      atCoveredRecord.SeekImpl (atCoveredRecord.rti 0).end_key 1 ∧
    (seekImplChildren atCoveredRecord 1).direction_ = Direction.kForward ∧
    (seekImplChildren atCoveredRecord 1).heap_.top = some (HeapItemPtr.child 0) ∧
    ((seekImplChildren atCoveredRecord 1).deref (HeapItemPtr.child 0)).type =
      HeapItemType.ITERATOR ∧
    0 ∈ (seekImplChildren atCoveredRecord 1).active_ ∧
    HeapItemPtr.pinned 0 ∉ (seekImplChildren atCoveredRecord 1).heap_.data_ ∧
    ¬ (∀ L, L ∈ (seekImplChildren atCoveredRecord 1).active_ ↔
      (HeapItemPtr.pinned L ∈ (seekImplChildren atCoveredRecord 1).heap_.data_ ∧
        ((seekImplChildren atCoveredRecord 1).deref (HeapItemPtr.pinned L)).type =
          HeapItemType.DELETE_RANGE_END)) :=
  ⟨by decide, by decide, by decide, by decide, by decide, by decide, by decide, by decide,
    fun h => absurd ((h 0).mp (by decide)).1 (by decide)⟩

/-- C24, amended. On return from a placement (`SeekToFirst()`, `SeekToLast()`,
`Seek(target)`) followed by any sequence of `Next()` and `Prev()` on an engine over
well-formed runs without repeated records: in the forward direction a level is in `active_`
iff its boundary item is in the heap with type `DELETE_RANGE_END`, in the reverse direction
iff it is in the heap with type `DELETE_RANGE_START`, and the boundary item of a level is in
the heap at most once. -/
theorem active_iff_boundary_item_on_return (runs : List (List (ParsedInternalKey UK)))
    (tombs : List (Option (List (RangeTombstone UK)))) (fuel : Nat)
    (hwf : WellFormedInput runs tombs) (hnd : runs.flatten.Nodup)
    (hfuel : rankBound runs tombs runs.length ≤ fuel) (p : Placement UK) (ms : List Move) :
    ∃ e, positioned fuel runs tombs p ms = some e ∧
      (e.direction_ = Direction.kForward → ∀ L, L ∈ e.active_ ↔
        (HeapItemPtr.pinned L ∈ e.heap_.data_ ∧
          (e.deref (.pinned L)).type = HeapItemType.DELETE_RANGE_END)) ∧
      (e.direction_ = Direction.kReverse → ∀ L, L ∈ e.active_ ↔
        (HeapItemPtr.pinned L ∈ e.heap_.data_ ∧
          (e.deref (.pinned L)).type = HeapItemType.DELETE_RANGE_START)) ∧
      ∀ L, e.heap_.data_.count (HeapItemPtr.pinned L) ≤ 1 := by
  have hwf' := inputWF_of_wellFormed hwf
  obtain ⟨out, _, hp, hs⟩ := forwardScan_tombs runs tombs hwf' fuel
    (visibleRecords runs tombs).length hfuel (Nat.le_refl _)
  have hd := distinctRuns_of_nodup hnd
  obtain ⟨e0, hplace, hr0⟩ := reach_place hwf' hp hs hfuel p
  obtain ⟨e, hwalk, hr⟩ := reach_walk hp hs hd hfuel ms e0 hr0
  refine ⟨e, ?_, ?_⟩
  · unfold positioned
    rw [hplace]
    exact hwalk
  rcases hr with ⟨i, hpos⟩ | ⟨n, hpos⟩
  · have hst := hpos.1.fwd.struct
    refine ⟨fun _ L => struct_active_iff hst L, ?_, ?_⟩
    · intro hrev
      rw [hpos.1.forward] at hrev
      cases hrev
    · intro L
      exact List.nodup_iff_count_le_one.mp hst.heap.nodup _
  · have hst := hpos.1.fwd.struct
    refine ⟨?_, fun _ L => structR_active_iff hst L, ?_⟩
    · intro hfw
      rw [hpos.1.reverse] at hfw
      cases hfw
    · intro L
      exact List.nodup_iff_count_le_one.mp hst.heap.nodup _

theorem active_iff_boundary_item_on_return_witness :
    WellFormedInput [[(⟨3, 10, 1⟩ : ParsedInternalKey Nat), ⟨4, 2, 1⟩]]
      [some [mkTombstone 1 5 9]] ∧
    ([[(⟨3, 10, 1⟩ : ParsedInternalKey Nat), ⟨4, 2, 1⟩]]).flatten.Nodup ∧
    (∃ e, positioned 12 [[(⟨3, 10, 1⟩ : ParsedInternalKey Nat), ⟨4, 2, 1⟩]]
        [some [mkTombstone 1 5 9]] Placement.first [] = some e ∧ e.active_ = [0] ∧
      e.heap_.data_ = [HeapItemPtr.child 0, HeapItemPtr.pinned 0] ∧
      (e.deref (.pinned 0)).type = HeapItemType.DELETE_RANGE_END) ∧
    ∃ e, positioned 12 [[(⟨3, 10, 1⟩ : ParsedInternalKey Nat), ⟨4, 2, 1⟩]]
        [some [mkTombstone 1 5 9]] Placement.first [] = some e ∧
      (e.direction_ = Direction.kForward → ∀ L, L ∈ e.active_ ↔
        (HeapItemPtr.pinned L ∈ e.heap_.data_ ∧
          (e.deref (.pinned L)).type = HeapItemType.DELETE_RANGE_END)) ∧
      (e.direction_ = Direction.kReverse → ∀ L, L ∈ e.active_ ↔
        (HeapItemPtr.pinned L ∈ e.heap_.data_ ∧
          (e.deref (.pinned L)).type = HeapItemType.DELETE_RANGE_START)) ∧
      ∀ L, e.heap_.data_.count (HeapItemPtr.pinned L) ≤ 1 :=
  ⟨by decide, by decide, ⟨_, rfl, by decide, by decide, by decide⟩,
    active_iff_boundary_item_on_return _ _ 12 (by decide) (by decide) (by decide)
      Placement.first []⟩

end MergingIterator

/-! ## Part XVII. The bytewise comparators of encoded keys and the cached key prefix -/

namespace Bytewise

theorem cons_lt_cons_iff (a b : Fin 256) (as bs : List (Fin 256)) :
    a :: as < b :: bs ↔ a < b ∨ (a = b ∧ as < bs) := by
  constructor
  · intro h
    cases h with
    | rel h1 => exact Or.inl h1
    | cons h3 => exact Or.inr ⟨rfl, h3⟩
  · rintro (h | ⟨h1, h2⟩)
    · exact List.Lex.rel h
    · subst h1
      exact List.Lex.cons h2

theorem not_lt_nil (l : List (Fin 256)) : ¬ l < [] := by
  intro h
  cases h

theorem nil_lt_cons (b : Fin 256) (bs : List (Fin 256)) : [] < b :: bs :=
  List.Lex.nil

/-- The sign of `memcmp` on the first `n` bytes is the lexicographic comparison of these
bytes. -/
theorem memcmp_spec : ∀ (n : Nat) (x y : List (Fin 256)), n ≤ x.length → n ≤ y.length →
    (memcmp x y n = Ordering.lt ↔ x.take n < y.take n) ∧
    (memcmp x y n = Ordering.gt ↔ y.take n < x.take n) ∧
    (memcmp x y n = Ordering.eq ↔ x.take n = y.take n) := by
  intro n
  induction n with
  | zero =>
    intro x y _ _
    have h0 : memcmp x y 0 = Ordering.eq := by
      cases x <;> cases y <;> rfl
    rw [h0]
    simp only [List.take_zero, reduceCtorEq, false_iff, true_iff, and_true]
    exact ⟨not_lt_nil _, not_lt_nil _⟩
  | succ k ih =>
    intro x y hx hy
    cases x with
    | nil => simp at hx
    | cons a as =>
      cases y with
      | nil => simp at hy
      | cons b bs =>
        simp only [List.length_cons, Nat.add_le_add_iff_right] at hx hy
        obtain ⟨i1, i2, i3⟩ := ih as bs hx hy
        simp only [memcmp, List.take_succ_cons, cons_lt_cons_iff, List.cons.injEq]
        by_cases h1 : a < b
        · simp only [h1, ↓reduceIte, true_or, true_iff, reduceCtorEq, false_iff]
          refine ⟨trivial, ?_, ?_⟩
          · rintro (h | ⟨h, _⟩)
            · exact lt_asymm h1 h
            · rw [h] at h1; exact lt_irrefl _ h1
          · rintro ⟨h, _⟩
            rw [h] at h1; exact lt_irrefl _ h1
        · by_cases h2 : b < a
          · simp only [h1, h2, ↓reduceIte, reduceCtorEq, true_or, true_iff, false_iff]
            refine ⟨?_, trivial, ?_⟩
            · rintro (h | ⟨h, _⟩)
              · exact h
              · rw [h] at h2; exact lt_irrefl _ h2
            · rintro ⟨h, _⟩
              rw [h] at h2; exact lt_irrefl _ h2
          · have hab : a = b := le_antisymm (not_lt.mp h2) (not_lt.mp h1)
            subst hab
            simp only [lt_irrefl, ↓reduceIte, false_or, true_and]
            exact ⟨i1, i2, i3⟩

/-- The lexicographic order of two byte strings, from their common length: the first `n`
bytes decide, and when they agree the shorter string is the smaller. -/
theorem lex_take_min : ∀ (ux uy : List (Fin 256)),
    (ux < uy ↔ ux.take (min ux.length uy.length) < uy.take (min ux.length uy.length) ∨
      (ux.take (min ux.length uy.length) = uy.take (min ux.length uy.length) ∧
        ux.length < uy.length)) ∧
    (ux = uy ↔ ux.take (min ux.length uy.length) = uy.take (min ux.length uy.length) ∧
      ux.length = uy.length) := by
  intro ux
  induction ux with
  | nil =>
    intro uy
    cases uy with
    | nil => simp [not_lt_nil]
    | cons b bs => simp [nil_lt_cons, not_lt_nil]
  | cons a as ih =>
    intro uy
    cases uy with
    | nil => simp [not_lt_nil]
    | cons b bs =>
      obtain ⟨i1, i2⟩ := ih bs
      have hmin : min (a :: as).length (b :: bs).length = min as.length bs.length + 1 := by
        simp only [List.length_cons]; omega
      rw [hmin]
      simp only [List.take_succ_cons, cons_lt_cons_iff, List.cons.injEq, List.length_cons,
        Nat.add_lt_add_iff_right, Nat.add_right_cancel_iff]
      constructor
      · constructor
        · rintro (h | ⟨h1, h2⟩)
          · exact Or.inl (Or.inl h)
          · rcases i1.mp h2 with h | ⟨h3, h4⟩
            · exact Or.inl (Or.inr ⟨h1, h⟩)
            · exact Or.inr ⟨⟨h1, h3⟩, h4⟩
        · rintro ((h | ⟨h1, h2⟩) | ⟨⟨h1, h3⟩, h4⟩)
          · exact Or.inl h
          · exact Or.inr ⟨h1, i1.mpr (Or.inl h2)⟩
          · exact Or.inr ⟨h1, i1.mpr (Or.inr ⟨h3, h4⟩)⟩
      · constructor
        · rintro ⟨h1, h2⟩
          exact ⟨⟨h1, (i2.mp h2).1⟩, (i2.mp h2).2⟩
        · rintro ⟨⟨h1, h3⟩, h4⟩
          exact ⟨h1, i2.mpr ⟨h3, h4⟩⟩

/-- The body that the eight comparison functions share, on the user keys and the trailers. -/
theorem bytewise_core (ux uy : List (Fin 256)) (tx ty : Nat) :
    ((if memcmp ux uy (min ux.length uy.length) != Ordering.eq then
        memcmp ux uy (min ux.length uy.length) == Ordering.lt
      else if ux.length != uy.length then decide (ux.length < uy.length)
      else decide (tx > ty)) = true ↔ ux < uy ∨ (ux = uy ∧ tx > ty)) ∧
    ((if memcmp ux uy (min ux.length uy.length) != Ordering.eq then
        memcmp ux uy (min ux.length uy.length) == Ordering.gt
      else if ux.length != uy.length then decide (ux.length > uy.length)
      else decide (tx > ty)) = true ↔ uy < ux ∨ (ux = uy ∧ tx > ty)) := by
  obtain ⟨m1, m2, m3⟩ := memcmp_spec (min ux.length uy.length) ux uy (Nat.min_le_left _ _)
    (Nat.min_le_right _ _)
  obtain ⟨l1, l2⟩ := lex_take_min ux uy
  obtain ⟨r1, _⟩ := lex_take_min uy ux
  rw [Nat.min_comm uy.length ux.length] at r1
  cases hc : memcmp ux uy (min ux.length uy.length) with
  | lt =>
    have ht := m1.mp hc
    have hlt : ux < uy := l1.mpr (Or.inl ht)
    have hne : ux ≠ uy := fun h => by rw [h] at hlt; exact lt_irrefl _ hlt
    have hf : ((Ordering.lt != Ordering.eq) = true) := rfl
    constructor
    · rw [if_pos hf]
      exact ⟨fun _ => Or.inl hlt, fun _ => rfl⟩
    · rw [if_pos hf]
      constructor
      · intro h; cases h
      · rintro (h | ⟨h, _⟩)
        · exact absurd h (lt_asymm hlt)
        · exact absurd h hne
  | gt =>
    have ht := m2.mp hc
    have hgt : uy < ux := r1.mpr (Or.inl ht)
    have hne : ux ≠ uy := fun h => by rw [h] at hgt; exact lt_irrefl _ hgt
    have hf : ((Ordering.gt != Ordering.eq) = true) := rfl
    constructor
    · rw [if_pos hf]
      constructor
      · intro h; cases h
      · rintro (h | ⟨h, _⟩)
        · exact absurd h (lt_asymm hgt)
        · exact absurd h hne
    · rw [if_pos hf]
      exact ⟨fun _ => Or.inl hgt, fun _ => rfl⟩
  | eq =>
    have ht := m3.mp hc
    have hf : ¬ ((Ordering.eq != Ordering.eq) = true) := by decide
    rw [if_neg hf, if_neg hf]
    by_cases hlen : ux.length = uy.length
    · have heq : ux = uy := l2.mpr ⟨ht, hlen⟩
      have hn : ¬ ((ux.length != uy.length) = true) := by simp [hlen]
      rw [if_neg hn, if_neg hn]
      subst heq
      simp [lt_irrefl]
    · have hn : (ux.length != uy.length) = true := by simpa using hlen
      have hne : ux ≠ uy := fun h => hlen (by rw [h])
      rw [if_pos hn, if_pos hn]
      constructor
      · rw [decide_eq_true_iff]
        constructor
        · intro h; exact Or.inl (l1.mpr (Or.inr ⟨ht, h⟩))
        · rintro (h | ⟨h, _⟩)
          · rcases l1.mp h with h1 | ⟨_, h2⟩
            · rw [ht] at h1; exact absurd h1 (lt_irrefl _)
            · exact h2
          · exact absurd h hne
      · rw [decide_eq_true_iff]
        constructor
        · intro h; exact Or.inl (r1.mpr (Or.inr ⟨ht.symm, h⟩))
        · rintro (h | ⟨h, _⟩)
          · rcases r1.mp h with h1 | ⟨_, h2⟩
            · rw [ht] at h1; exact absurd h1 (lt_irrefl _)
            · exact h2
          · exact absurd h hne

theorem memcmp_take_left : ∀ (n : Nat) (x y : List (Fin 256)) (k : Nat), n ≤ k →
    memcmp (x.take k) y n = memcmp x y n := by
  intro n
  induction n with
  | zero =>
    intro x y k _
    have h0 : ∀ x y : List (Fin 256), memcmp x y 0 = Ordering.eq := by
      intro x y; cases x <;> cases y <;> rfl
    rw [h0, h0]
  | succ m ih =>
    intro x y k hk
    obtain ⟨k', rfl⟩ : ∃ k', k = k' + 1 := ⟨k - 1, by omega⟩
    cases x with
    | nil => rfl
    | cons a as =>
      cases y with
      | nil => rfl
      | cons b bs =>
        simp only [List.take_succ_cons, memcmp]
        rw [ih as bs k' (by omega)]

theorem memcmp_take_right : ∀ (n : Nat) (x y : List (Fin 256)) (k : Nat), n ≤ k →
    memcmp x (y.take k) n = memcmp x y n := by
  intro n
  induction n with
  | zero =>
    intro x y k _
    have h0 : ∀ x y : List (Fin 256), memcmp x y 0 = Ordering.eq := by
      intro x y; cases x <;> cases y <;> rfl
    rw [h0, h0]
  | succ m ih =>
    intro x y k hk
    obtain ⟨k', rfl⟩ : ∃ k', k = k' + 1 := ⟨k - 1, by omega⟩
    cases x with
    | nil => cases y <;> rfl
    | cons a as =>
      cases y with
      | nil => rfl
      | cons b bs =>
        simp only [List.take_succ_cons, memcmp]
        rw [ih as bs k' (by omega)]

theorem sizeSub_eq {a : Nat} (h8 : 8 ≤ a) (hlt : a < 2 ^ 64) : sizeSub a 8 = a - 8 := by
  unfold sizeSub
  have : a + 2 ^ 64 - 8 = (a - 8) + 2 ^ 64 := by omega
  rw [this, Nat.add_mod_right, Nat.mod_eq_of_lt (by omega)]

theorem userKeyOf_length {x : Slice} (h8 : 8 ≤ x.length) :
    (userKeyOf x).length = x.length - 8 := by
  unfold userKeyOf
  rw [List.length_take]
  omega

theorem getUnalignedU64_trailer {x : Slice} (h8 : 8 ≤ x.length) :
    GetUnalignedU64 x (x.length - 8) = trailerOf x := by
  unfold GetUnalignedU64 trailerOf loadHost
  simp only [kLittleEndian, ↓reduceIte]
  rw [List.take_of_length_le (by rw [List.length_drop]; omega)]

theorem slice_facts {x : Slice} (h8 : 8 ≤ x.length) (hlt : x.length < 2 ^ 64) :
    sizeSub x.length 8 = (userKeyOf x).length ∧
    ∀ (y : List (Fin 256)) (n : Nat), n ≤ (userKeyOf x).length →
      memcmp x y n = memcmp (userKeyOf x) y n ∧ memcmp y x n = memcmp y (userKeyOf x) n := by
  refine ⟨by rw [sizeSub_eq h8 hlt, userKeyOf_length h8], ?_⟩
  intro y n hn
  rw [userKeyOf_length h8] at hn
  exact ⟨(memcmp_take_left n x y _ hn).symm, (memcmp_take_right n y x _ hn).symm⟩

/-- The comparison of two encoded keys, on their user keys and the numbers that the code reads
as trailers. -/
theorem compare_slice_slice {x y : Slice} (hx : 8 ≤ x.length) (hx2 : x.length < 2 ^ 64)
    (hy : 8 ≤ y.length) (hy2 : y.length < 2 ^ 64) :
    (BytewiseCompareInternalKey x y = true ↔ userKeyOf x < userKeyOf y ∨
      (userKeyOf x = userKeyOf y ∧
        GetUnalignedU64 x (sizeSub x.length 8) > GetUnalignedU64 y (sizeSub y.length 8))) ∧
    (RevBytewiseCompareInternalKey x y = true ↔ userKeyOf y < userKeyOf x ∨
      (userKeyOf x = userKeyOf y ∧
        GetUnalignedU64 x (sizeSub x.length 8) > GetUnalignedU64 y (sizeSub y.length 8))) := by
  obtain ⟨sx, mx⟩ := slice_facts hx hx2
  obtain ⟨sy, my⟩ := slice_facts hy hy2
  have lx := userKeyOf_length hx
  have ly := userKeyOf_length hy
  have hn : sizeSub (min x.length y.length) 8 =
      min (userKeyOf x).length (userKeyOf y).length := by
    rw [sizeSub_eq (by omega) (by omega), lx, ly]; omega
  have hm : memcmp x y (min (userKeyOf x).length (userKeyOf y).length) =
      memcmp (userKeyOf x) (userKeyOf y) (min (userKeyOf x).length (userKeyOf y).length) := by
    rw [(mx y _ (Nat.min_le_left _ _)).1, (my (userKeyOf x) _ (Nat.min_le_right _ _)).2]
  have hl1 : (x.length != y.length) = ((userKeyOf x).length != (userKeyOf y).length) := by
    rw [lx, ly, Bool.eq_iff_iff]; simp only [bne_iff_ne, ne_eq]; omega
  have hl2 : decide (x.length < y.length) =
      decide ((userKeyOf x).length < (userKeyOf y).length) := by
    rw [lx, ly, Bool.eq_iff_iff]; simp only [decide_eq_true_eq]; omega
  have hl3 : decide (x.length > y.length) =
      decide ((userKeyOf x).length > (userKeyOf y).length) := by
    rw [lx, ly, Bool.eq_iff_iff]; simp only [decide_eq_true_eq]; omega
  have hc := bytewise_core (userKeyOf x) (userKeyOf y)
    (GetUnalignedU64 x (min (userKeyOf x).length (userKeyOf y).length))
    (GetUnalignedU64 y (min (userKeyOf x).length (userKeyOf y).length))
  have hfix : ∀ P : Prop, userKeyOf x = userKeyOf y →
      ((GetUnalignedU64 x (min (userKeyOf x).length (userKeyOf y).length) >
        GetUnalignedU64 y (min (userKeyOf x).length (userKeyOf y).length)) ↔
      (GetUnalignedU64 x (sizeSub x.length 8) > GetUnalignedU64 y (sizeSub y.length 8))) := by
    intro _ h
    rw [sx, sy, ← h, Nat.min_self]
  constructor
  · unfold BytewiseCompareInternalKey
    simp only []
    rw [hn, hm, hl1, hl2, hc.1]
    constructor
    · rintro (h | ⟨h1, h2⟩)
      · exact Or.inl h
      · exact Or.inr ⟨h1, (hfix True h1).mp h2⟩
    · rintro (h | ⟨h1, h2⟩)
      · exact Or.inl h
      · exact Or.inr ⟨h1, (hfix True h1).mpr h2⟩
  · unfold RevBytewiseCompareInternalKey
    simp only []
    rw [hn, hm, hl1, hl3, hc.2]
    constructor
    · rintro (h | ⟨h1, h2⟩)
      · exact Or.inl h
      · exact Or.inr ⟨h1, (hfix True h1).mp h2⟩
    · rintro (h | ⟨h1, h2⟩)
      · exact Or.inl h
      · exact Or.inr ⟨h1, (hfix True h1).mpr h2⟩

theorem compare_slice_parsed {x : Slice} (y : ParsedInternalKey Slice) (hx : 8 ≤ x.length)
    (hx2 : x.length < 2 ^ 64) :
    (BytewiseCompareInternalKeySP x y = true ↔ userKeyOf x < y.user_key ∨
      (userKeyOf x = y.user_key ∧
        GetUnalignedU64 x (sizeSub x.length 8) > packSequenceAndType y)) ∧
    (RevBytewiseCompareInternalKeySP x y = true ↔ y.user_key < userKeyOf x ∨
      (userKeyOf x = y.user_key ∧
        GetUnalignedU64 x (sizeSub x.length 8) > packSequenceAndType y)) := by
  obtain ⟨sx, mx⟩ := slice_facts hx hx2
  have hc := bytewise_core (userKeyOf x) y.user_key
    (GetUnalignedU64 x (userKeyOf x).length) (packSequenceAndType y)
  constructor
  · unfold BytewiseCompareInternalKeySP
    simp only []
    rw [sx, (mx y.user_key _ (Nat.min_le_left _ _)).1, hc.1]
  · unfold RevBytewiseCompareInternalKeySP
    simp only []
    rw [sx, (mx y.user_key _ (Nat.min_le_left _ _)).1, hc.2]

theorem compare_parsed_slice (x : ParsedInternalKey Slice) {y : Slice} (hy : 8 ≤ y.length)
    (hy2 : y.length < 2 ^ 64) :
    (BytewiseCompareInternalKeyPS x y = true ↔ x.user_key < userKeyOf y ∨
      (x.user_key = userKeyOf y ∧
        packSequenceAndType x > GetUnalignedU64 y (sizeSub y.length 8))) ∧
    (RevBytewiseCompareInternalKeyPS x y = true ↔ userKeyOf y < x.user_key ∨
      (x.user_key = userKeyOf y ∧
        packSequenceAndType x > GetUnalignedU64 y (sizeSub y.length 8))) := by
  obtain ⟨sy, my⟩ := slice_facts hy hy2
  have hc := bytewise_core x.user_key (userKeyOf y)
    (packSequenceAndType x) (GetUnalignedU64 y (userKeyOf y).length)
  constructor
  · unfold BytewiseCompareInternalKeyPS
    simp only []
    rw [sy, (my x.user_key _ (Nat.min_le_right _ _)).2, hc.1]
  · unfold RevBytewiseCompareInternalKeyPS
    simp only []
    rw [sy, (my x.user_key _ (Nat.min_le_right _ _)).2, hc.2]

theorem compare_parsed_parsed (x y : ParsedInternalKey Slice) :
    (BytewiseCompareInternalKeyPP x y = true ↔ x.user_key < y.user_key ∨
      (x.user_key = y.user_key ∧ packSequenceAndType x > packSequenceAndType y)) ∧
    (RevBytewiseCompareInternalKeyPP x y = true ↔ y.user_key < x.user_key ∨
      (x.user_key = y.user_key ∧ packSequenceAndType x > packSequenceAndType y)) :=
  bytewise_core x.user_key y.user_key (packSequenceAndType x) (packSequenceAndType y)

theorem toBytesLE_leValue : ∀ l : List (Fin 256), toBytesLE l.length (leValue l) = l := by
  intro l
  induction l with
  | nil => rfl
  | cons a as ih =>
    have h1 : (a.val + 256 * leValue as) % 256 = a.val := by
      rw [Nat.add_mul_mod_self_left]; exact Nat.mod_eq_of_lt a.isLt
    have h2 : (a.val + 256 * leValue as) / 256 = leValue as := by
      rw [Nat.add_mul_div_left _ _ (by decide : 0 < 256), Nat.div_eq_of_lt a.isLt,
        Nat.zero_add]
    simp only [List.length_cons, toBytesLE, leValue, h2, ih, List.cons.injEq, and_true]
    exact Fin.ext h1

theorem slice_split {x : Slice} (h8 : 8 ≤ x.length) :
    x = userKeyOf x ++ toBytesLE 8 (trailerOf x) := by
  have hl : (x.drop (x.length - 8)).length = 8 := by rw [List.length_drop]; omega
  have h := toBytesLE_leValue (x.drop (x.length - 8))
  rw [hl] at h
  unfold userKeyOf trailerOf
  rw [h, List.take_append_drop]

/-- C21. For encoded internal keys `x`, `y` of at least 8 bytes (a user key followed by the
8-byte little-endian trailer): `BytewiseCompareInternalKey(x, y)` is true iff the user key of
`x` is lexicographically smaller than that of `y`, or the user keys are equal and the trailer
of `x` is the greater number; `RevBytewiseCompareInternalKey(x, y)` is true iff the user key of
`x` is lexicographically greater, or the user keys are equal and the trailer of `x` is the
greater number. -/
theorem bytewise_compare_internal_key (x y : Slice) (hx : 8 ≤ x.length)
    (hx2 : x.length < 2 ^ 64) (hy : 8 ≤ y.length) (hy2 : y.length < 2 ^ 64) :
    (BytewiseCompareInternalKey x y = true ↔
      userKeyOf x < userKeyOf y ∨ (userKeyOf x = userKeyOf y ∧ trailerOf x > trailerOf y)) ∧
    (RevBytewiseCompareInternalKey x y = true ↔
      userKeyOf y < userKeyOf x ∨ (userKeyOf x = userKeyOf y ∧ trailerOf x > trailerOf y)) ∧
    (x = userKeyOf x ++ toBytesLE 8 (trailerOf x) ∧ y = userKeyOf y ++ toBytesLE 8 (trailerOf y))
    := by
  have h := compare_slice_slice hx hx2 hy hy2
  rw [sizeSub_eq hx hx2, sizeSub_eq hy hy2, getUnalignedU64_trailer hx,
    getUnalignedU64_trailer hy] at h
  exact ⟨h.1, h.2, slice_split hx, slice_split hy⟩

theorem bytewise_compare_internal_key_witness :
    BytewiseCompareInternalKey [97, 98, 1, 5, 0, 0, 0, 0, 0, 0]
      [97, 98, 1, 3, 0, 0, 0, 0, 0, 0] = true ∧
    trailerOf [97, 98, 1, 5, 0, 0, 0, 0, 0, 0] = 5 * 256 + 1 ∧
    (BytewiseCompareInternalKey [97, 98, 1, 5, 0, 0, 0, 0, 0, 0]
        [97, 98, 1, 3, 0, 0, 0, 0, 0, 0] = true ↔
      userKeyOf [97, 98, 1, 5, 0, 0, 0, 0, 0, 0] < userKeyOf [97, 98, 1, 3, 0, 0, 0, 0, 0, 0] ∨
        (userKeyOf [97, 98, 1, 5, 0, 0, 0, 0, 0, 0] =
            userKeyOf [97, 98, 1, 3, 0, 0, 0, 0, 0, 0] ∧
          trailerOf [97, 98, 1, 5, 0, 0, 0, 0, 0, 0] >
            trailerOf [97, 98, 1, 3, 0, 0, 0, 0, 0, 0])) :=
  ⟨by decide, by decide,
    (bytewise_compare_internal_key [97, 98, 1, 5, 0, 0, 0, 0, 0, 0]
      [97, 98, 1, 3, 0, 0, 0, 0, 0, 0] (by decide) (by decide) (by decide) (by decide)).1⟩

theorem leValue_append : ∀ xs ys : List (Fin 256),
    leValue (xs ++ ys) = leValue xs + 256 ^ xs.length * leValue ys := by
  intro xs ys
  induction xs with
  | nil => simp [leValue]
  | cons a as ih =>
    have h1 : leValue (a :: (as ++ ys)) = a.val + 256 * leValue (as ++ ys) := rfl
    have h2 : leValue (a :: as) = a.val + 256 * leValue as := rfl
    rw [List.cons_append, h1, h2, ih, List.length_cons, pow_succ]
    ring

theorem leValue_zeros : ∀ k : Nat, leValue (List.replicate k (0 : Fin 256)) = 0 := by
  intro k
  induction k with
  | zero => rfl
  | succ k ih => simp [List.replicate_succ, leValue, ih]

theorem beValue_append : ∀ xs ys : List (Fin 256),
    beValue (xs ++ ys) = beValue xs * 256 ^ ys.length + beValue ys := by
  intro xs ys
  induction xs with
  | nil => simp [beValue]
  | cons a as ih =>
    have h1 : beValue (a :: (as ++ ys)) =
        a.val * 256 ^ (as ++ ys).length + beValue (as ++ ys) := rfl
    have h2 : beValue (a :: as) = a.val * 256 ^ as.length + beValue as := rfl
    rw [List.cons_append, h1, h2, ih, List.length_append, pow_add]
    ring

theorem leValue_lt : ∀ l : List (Fin 256), leValue l < 256 ^ l.length := by
  intro l
  induction l with
  | nil => simp [leValue]
  | cons a as ih =>
    have ha := a.isLt
    simp only [leValue, List.length_cons, pow_succ]
    omega

theorem beValue_lt : ∀ l : List (Fin 256), beValue l < 256 ^ l.length := by
  intro l
  induction l with
  | nil => simp [beValue]
  | cons a as ih =>
    have ha := a.isLt
    have h1 : a.val * 256 ^ as.length ≤ 255 * 256 ^ as.length :=
      Nat.mul_le_mul_right _ (by omega)
    simp only [beValue, List.length_cons, pow_succ]
    omega

theorem bswap_64_leValue (l : List (Fin 256)) (hl : l.length = 8) :
    bswap_64 (leValue l) = beValue l := by
  unfold bswap_64
  have h := toBytesLE_leValue l
  rw [hl] at h
  rw [h]

/-- The byte swap of a 16-byte integer that was loaded least significant byte first is the
number that the bytes are most significant byte first. -/
theorem bswap_prefix_leValue (bs : List (Fin 256)) (hl : bs.length = 16) :
    bswap_prefix (leValue bs) = beValue bs := by
  have hlo : (bs.take 8).length = 8 := by rw [List.length_take]; omega
  have hhi : (bs.drop 8).length = 8 := by rw [List.length_drop]; omega
  have hsplit : bs = bs.take 8 ++ bs.drop 8 := (List.take_append_drop 8 bs).symm
  have h1 := leValue_lt (bs.take 8)
  have h2 := leValue_lt (bs.drop 8)
  have h3 := beValue_lt (bs.take 8)
  have h4 := beValue_lt (bs.drop 8)
  rw [hlo] at h1 h3
  rw [hhi] at h2 h4
  have hp : (256 : Nat) ^ 8 = 2 ^ 64 := by norm_num
  rw [hp] at h1 h2 h3 h4
  have hx : leValue bs = leValue (bs.take 8) + 2 ^ 64 * leValue (bs.drop 8) := by
    conv_lhs => rw [hsplit]
    rw [leValue_append, hlo, hp]
  have hmod : leValue bs % 2 ^ 64 = leValue (bs.take 8) := by
    rw [hx, Nat.add_mul_mod_self_left, Nat.mod_eq_of_lt h1]
  have hdiv : (leValue bs >>> 64) % 2 ^ 64 = leValue (bs.drop 8) := by
    rw [Nat.shiftRight_eq_div_pow, hx, Nat.add_mul_div_left _ _ (by norm_num : 0 < 2 ^ 64),
      Nat.div_eq_of_lt h1, Nat.zero_add, Nat.mod_eq_of_lt h2]
  unfold bswap_prefix
  rw [hmod, hdiv, bswap_64_leValue _ hlo, bswap_64_leValue _ hhi, Nat.shiftLeft_eq]
  have hlt : beValue (bs.take 8) * 2 ^ 64 < 2 ^ 128 := by
    have : beValue (bs.take 8) * 2 ^ 64 < 2 ^ 64 * 2 ^ 64 :=
      Nat.mul_lt_mul_of_pos_right h3 (by norm_num)
    calc beValue (bs.take 8) * 2 ^ 64 < 2 ^ 64 * 2 ^ 64 := this
      _ = 2 ^ 128 := by norm_num
  rw [Nat.mod_eq_of_lt hlt, Nat.mul_comm, ← Nat.mul_add_lt_is_or h4]
  conv_rhs => rw [hsplit]
  rw [beValue_append, hhi, hp, Nat.mul_comm]

theorem padTake_length (k : Nat) (u : List (Fin 256)) : (padTake k u).length = k := by
  unfold padTake
  rw [List.length_append, List.length_replicate, List.length_take]
  omega

theorem hostPrefix_of_bytes (bytes : List (Fin 256)) (hl : bytes.length ≤ 16) :
    bswap_prefix (loadHost bytes 16) =
      beValue (bytes ++ List.replicate (16 - bytes.length) 0) := by
  have h := bswap_prefix_leValue (bytes ++ List.replicate (16 - bytes.length) 0)
    (by rw [List.length_append, List.length_replicate]; omega)
  rw [leValue_append, leValue_zeros, Nat.mul_zero, Nat.add_zero] at h
  unfold loadHost
  simp only [kLittleEndian, ↓reduceIte]
  exact h

/-- The cached prefix of a user key is the number that its first 16 bytes, filled up with
zero bytes, are most significant byte first. -/
theorem hostPrefixCacheUK_eq (uk : Slice) : HostPrefixCacheUK uk = beValue (padTake 16 uk) := by
  unfold HostPrefixCacheUK padTake
  simp only [kLittleEndian, ↓reduceIte, List.take_length, ite_self]
  by_cases h : uk.length ≥ 16
  · rw [if_pos h]
    exact hostPrefix_of_bytes _ (by rw [List.length_take]; omega)
  · rw [if_neg h, List.take_of_length_le (by omega : uk.length ≤ 16)]
    exact hostPrefix_of_bytes _ (by omega)

theorem hostPrefixCacheIK_eq (ik : Slice) (h8 : 8 ≤ ik.length) (hlt : ik.length < 2 ^ 64) :
    HostPrefixCacheIK ik = beValue (padTake 16 (userKeyOf ik)) := by
  unfold HostPrefixCacheIK padTake
  simp only [kLittleEndian, ↓reduceIte]
  have hu : userKeyOf ik = ik.take (ik.length - 8) := rfl
  by_cases h : ik.length ≥ 16 + 8
  · rw [if_pos h]
    have ht : (userKeyOf ik).take 16 = ik.take 16 := by
      rw [hu, List.take_take, Nat.min_eq_left (by omega)]
    rw [ht]
    exact hostPrefix_of_bytes _ (by rw [List.length_take]; omega)
  · rw [if_neg h, sizeSub_eq h8 hlt]
    have ht : (userKeyOf ik).take 16 = ik.take (ik.length - 8) := by
      rw [hu, List.take_take, Nat.min_eq_right (by omega)]
    rw [ht]
    exact hostPrefix_of_bytes _ (by rw [List.length_take]; omega)

theorem beValue_lt_iff : ∀ xs ys : List (Fin 256), xs.length = ys.length →
    (beValue xs < beValue ys ↔ xs < ys) := by
  intro xs
  induction xs with
  | nil =>
    intro ys h
    cases ys with
    | nil => simp [beValue]
    | cons b bs => simp at h
  | cons a as ih =>
    intro ys h
    cases ys with
    | nil => simp at h
    | cons b bs =>
      simp only [List.length_cons, Nat.add_right_cancel_iff] at h
      have hA := beValue_lt as
      have hB := beValue_lt bs
      rw [h] at hA
      rw [cons_lt_cons_iff]
      simp only [beValue, h]
      have hpos : 0 < 256 ^ bs.length := Nat.pow_pos (by norm_num)
      constructor
      · intro hlt
        rcases Nat.lt_trichotomy a.val b.val with hab | hab | hab
        · exact Or.inl hab
        · right
          refine ⟨Fin.ext hab, (ih bs h).mp ?_⟩
          rw [hab] at hlt
          omega
        · exfalso
          have : (b.val + 1) * 256 ^ bs.length ≤ a.val * 256 ^ bs.length :=
            Nat.mul_le_mul_right _ hab
          rw [Nat.add_mul, Nat.one_mul] at this
          omega
      · rintro (hab | ⟨hab, hl⟩)
        · have : (a.val + 1) * 256 ^ bs.length ≤ b.val * 256 ^ bs.length :=
            Nat.mul_le_mul_right _ hab
          rw [Nat.add_mul, Nat.one_mul] at this
          omega
        · have := (ih bs h).mpr hl
          rw [hab]
          omega

theorem padTake_lt : ∀ (k : Nat) (x y : List (Fin 256)), padTake k x < padTake k y → x < y := by
  intro k
  induction k with
  | zero =>
    intro x y h
    simp [padTake] at h
  | succ k ih =>
    intro x y h
    have hnil : ∀ k : Nat, padTake k ([] : List (Fin 256)) = List.replicate k 0 := by
      intro k; simp [padTake]
    have hcons : ∀ (a : Fin 256) (as : List (Fin 256)),
        padTake (k + 1) (a :: as) = a :: padTake k as := by
      intro a as
      simp [padTake]
    have hzero : padTake (k + 1) ([] : List (Fin 256)) = 0 :: padTake k [] := by
      rw [hnil, hnil, List.replicate_succ]
    cases x with
    | nil =>
      cases y with
      | nil => exact absurd h (lt_irrefl _)
      | cons b bs => exact nil_lt_cons b bs
    | cons a as =>
      cases y with
      | nil =>
        rw [hcons, hzero, cons_lt_cons_iff] at h
        rcases h with h | ⟨_, h⟩
        · exact absurd h (by simp)
        · exact absurd (ih as [] h) (not_lt_nil _)
      | cons b bs =>
        rw [hcons, hcons, cons_lt_cons_iff] at h
        rw [cons_lt_cons_iff]
        rcases h with h | ⟨h1, h2⟩
        · exact Or.inl h
        · exact Or.inr ⟨h1, ih as bs h2⟩

/-- A smaller cached prefix means a smaller user key. -/
theorem prefix_lt_imp_lt (x y : List (Fin 256))
    (h : beValue (padTake 16 x) < beValue (padTake 16 y)) : x < y :=
  padTake_lt 16 x y ((beValue_lt_iff _ _ (by rw [padTake_length, padTake_length])).mp h)

/-- The comparison of two items without prefixes, on their user keys and trailers. -/
theorem items_core (a b : HeapItemBytes) (ha : ItemEncoded a) (hb : ItemEncoded b) :
    (bytewiseOfItems a b = true ↔ itemUserKey a < itemUserKey b ∨
      (itemUserKey a = itemUserKey b ∧ itemTrailer a > itemTrailer b)) ∧
    (revBytewiseOfItems a b = true ↔ itemUserKey b < itemUserKey a ∨
      (itemUserKey a = itemUserKey b ∧ itemTrailer a > itemTrailer b)) := by
  unfold bytewiseOfItems revBytewiseOfItems itemUserKey itemTrailer
  by_cases h1 : a.type = HeapItemType.ITERATOR
  · obtain ⟨a8, a64⟩ := ha h1
    by_cases h2 : b.type = HeapItemType.ITERATOR
    · obtain ⟨b8, b64⟩ := hb h2
      simp only [h1, h2, ↓reduceIte]
      exact compare_slice_slice a8 a64 b8 b64
    · simp only [h1, h2, ↓reduceIte]
      exact compare_slice_parsed _ a8 a64
  · by_cases h2 : b.type = HeapItemType.ITERATOR
    · obtain ⟨b8, b64⟩ := hb h2
      simp only [h1, h2, ↓reduceIte]
      exact compare_parsed_slice _ b8 b64
    · simp only [h1, h2, ↓reduceIte]
      exact compare_parsed_parsed _ _

theorem fresh_prefix (x : HeapItemAndPrefix) (hf : PrefixFresh x) (he : ItemEncoded x.item_ptr) :
    HeapItemAndPrefix.key_prefix x = beValue (padTake 16 (itemUserKey x.item_ptr)) := by
  obtain ⟨ht, hu⟩ := hf
  have hk : HeapItemAndPrefix.key_prefix (UpdatePrefixCache x) =
      HeapItemAndPrefix.key_prefix x := by rw [hu]
  rw [← hk]
  unfold UpdatePrefixCache itemUserKey
  simp only [ht]
  by_cases h1 : x.item_ptr.type = HeapItemType.ITERATOR
  · obtain ⟨a8, a64⟩ := he h1
    simp only [h1, ↓reduceIte]
    exact hostPrefixCacheIK_eq _ a8 a64
  · simp only [h1, ↓reduceIte]
    exact hostPrefixCacheUK_eq _

theorem core_of_lt {ux uy : List (Fin 256)} (tx ty : Nat) (h : ux < uy) :
    (ux < uy ∨ (ux = uy ∧ tx > ty)) ∧ ¬ (uy < ux ∨ (uy = ux ∧ ty > tx)) := by
  refine ⟨Or.inl h, ?_⟩
  rintro (h1 | ⟨h1, _⟩)
  · exact lt_asymm h h1
  · rw [h1] at h; exact lt_irrefl _ h

/-- C22. For heap items `a`, `b` whose cached prefix and type agree with their key and type,
each of the four comparators with prefixes returns what the comparison function returns on the
keys of the items without prefixes; that function orders by user key and then by trailer; and
a smaller prefix means a lexicographically smaller user key, of any length. -/
theorem prefix_cache_is_pure_optimisation (a b : HeapItemAndPrefix)
    (ha : PrefixFresh a) (hb : PrefixFresh b)
    (hea : ItemEncoded a.item_ptr) (heb : ItemEncoded b.item_ptr) :
    MaxHeapBytewiseComp a b = bytewiseOfItems a.item_ptr b.item_ptr ∧
    MinHeapBytewiseComp a b = bytewiseOfItems b.item_ptr a.item_ptr ∧
    MaxHeapRevBytewiseComp a b = revBytewiseOfItems a.item_ptr b.item_ptr ∧
    MinHeapRevBytewiseComp a b = revBytewiseOfItems b.item_ptr a.item_ptr ∧
    ( HeapItemAndPrefix.key_prefix a < HeapItemAndPrefix.key_prefix b →
      itemUserKey a.item_ptr < itemUserKey b.item_ptr) ∧
    (bytewiseOfItems a.item_ptr b.item_ptr = true ↔
      itemUserKey a.item_ptr < itemUserKey b.item_ptr ∨
        (itemUserKey a.item_ptr = itemUserKey b.item_ptr ∧
          itemTrailer a.item_ptr > itemTrailer b.item_ptr)) ∧
    (revBytewiseOfItems a.item_ptr b.item_ptr = true ↔
      itemUserKey b.item_ptr < itemUserKey a.item_ptr ∨
        (itemUserKey a.item_ptr = itemUserKey b.item_ptr ∧
          itemTrailer a.item_ptr > itemTrailer b.item_ptr)) := by
  have pa := fresh_prefix a ha hea
  have pb := fresh_prefix b hb heb
  have hlt : HeapItemAndPrefix.key_prefix a < HeapItemAndPrefix.key_prefix b →
      itemUserKey a.item_ptr < itemUserKey b.item_ptr := by
    intro h
    rw [pa, pb] at h
    exact prefix_lt_imp_lt _ _ h
  have hgt : HeapItemAndPrefix.key_prefix b < HeapItemAndPrefix.key_prefix a →
      itemUserKey b.item_ptr < itemUserKey a.item_ptr := by
    intro h
    rw [pa, pb] at h
    exact prefix_lt_imp_lt _ _ h
  obtain ⟨cab, rab⟩ := items_core a.item_ptr b.item_ptr hea heb
  obtain ⟨cba, rba⟩ := items_core b.item_ptr a.item_ptr heb hea
  have tab : ∀ h : itemUserKey a.item_ptr < itemUserKey b.item_ptr,
      bytewiseOfItems a.item_ptr b.item_ptr = true ∧
      bytewiseOfItems b.item_ptr a.item_ptr = false ∧
      revBytewiseOfItems a.item_ptr b.item_ptr = false ∧
      revBytewiseOfItems b.item_ptr a.item_ptr = true := by
    intro h
    have c := core_of_lt (itemTrailer a.item_ptr) (itemTrailer b.item_ptr) h
    refine ⟨cab.mpr c.1, ?_, ?_, rba.mpr (Or.inl h)⟩
    · rw [Bool.eq_false_iff]; exact fun hc => c.2 (cba.mp hc)
    · rw [Bool.eq_false_iff]
      intro hc
      rcases rab.mp hc with h1 | ⟨h1, _⟩
      · exact lt_asymm h h1
      · rw [h1] at h; exact lt_irrefl _ h
  have tba : ∀ h : itemUserKey b.item_ptr < itemUserKey a.item_ptr,
      bytewiseOfItems b.item_ptr a.item_ptr = true ∧
      bytewiseOfItems a.item_ptr b.item_ptr = false ∧
      revBytewiseOfItems b.item_ptr a.item_ptr = false ∧
      revBytewiseOfItems a.item_ptr b.item_ptr = true := by
    intro h
    have c := core_of_lt (itemTrailer b.item_ptr) (itemTrailer a.item_ptr) h
    refine ⟨cba.mpr c.1, ?_, ?_, rab.mpr (Or.inl h)⟩
    · rw [Bool.eq_false_iff]; exact fun hc => c.2 (cab.mp hc)
    · rw [Bool.eq_false_iff]
      intro hc
      rcases rba.mp hc with h1 | ⟨h1, _⟩
      · exact lt_asymm h h1
      · rw [h1] at h; exact lt_irrefl _ h
  have hta := ha.1
  have htb := hb.1
  refine ⟨?_, ?_, ?_, ?_, hlt, cab, rab⟩
  · unfold MaxHeapBytewiseComp
    by_cases h1 : HeapItemAndPrefix.key_prefix a < HeapItemAndPrefix.key_prefix b
    · rw [if_pos h1, (tab (hlt h1)).1]
    · rw [if_neg h1]
      by_cases h2 : HeapItemAndPrefix.key_prefix a > HeapItemAndPrefix.key_prefix b
      · rw [if_pos h2, (tba (hgt h2)).2.1]
      · rw [if_neg h2, hta, htb]; rfl
  · unfold MinHeapBytewiseComp
    by_cases h1 : HeapItemAndPrefix.key_prefix a > HeapItemAndPrefix.key_prefix b
    · rw [if_pos h1, (tba (hgt h1)).1]
    · rw [if_neg h1]
      by_cases h2 : HeapItemAndPrefix.key_prefix a < HeapItemAndPrefix.key_prefix b
      · rw [if_pos h2, (tab (hlt h2)).2.1]
      · rw [if_neg h2, hta, htb]
        unfold bytewiseOfItems
        by_cases h3 : a.item_ptr.type = HeapItemType.ITERATOR <;>
          by_cases h4 : b.item_ptr.type = HeapItemType.ITERATOR <;>
          simp only [h3, h4, ↓reduceIte]
  · unfold MaxHeapRevBytewiseComp
    by_cases h1 : HeapItemAndPrefix.key_prefix a > HeapItemAndPrefix.key_prefix b
    · rw [if_pos h1, (tba (hgt h1)).2.2.2]
    · rw [if_neg h1]
      by_cases h2 : HeapItemAndPrefix.key_prefix a < HeapItemAndPrefix.key_prefix b
      · rw [if_pos h2, (tab (hlt h2)).2.2.1]
      · rw [if_neg h2, hta, htb]; rfl
  · unfold MinHeapRevBytewiseComp
    by_cases h1 : HeapItemAndPrefix.key_prefix a < HeapItemAndPrefix.key_prefix b
    · rw [if_pos h1, (tab (hlt h1)).2.2.2]
    · rw [if_neg h1]
      by_cases h2 : HeapItemAndPrefix.key_prefix a > HeapItemAndPrefix.key_prefix b
      · rw [if_pos h2, (tba (hgt h2)).2.2.1]
      · rw [if_neg h2, hta, htb]
        unfold revBytewiseOfItems
        by_cases h3 : a.item_ptr.type = HeapItemType.ITERATOR <;>
          by_cases h4 : b.item_ptr.type = HeapItemType.ITERATOR <;>
          simp only [h3, h4, ↓reduceIte]

theorem prefix_cache_is_pure_optimisation_witness :
    PrefixFresh (HeapItemAndPrefix.ofItem pointItemAb) ∧
    PrefixFresh (HeapItemAndPrefix.ofItem boundaryItemAbc) ∧
    HeapItemAndPrefix.key_prefix (HeapItemAndPrefix.ofItem pointItemAb) =
      (97 * 256 + 98) * 256 ^ 14 ∧
    HeapItemAndPrefix.key_prefix (HeapItemAndPrefix.ofItem boundaryItemAbc) =
      ((97 * 256 + 98) * 256 + 99) * 256 ^ 13 ∧
    MaxHeapBytewiseComp (HeapItemAndPrefix.ofItem pointItemAb)
      (HeapItemAndPrefix.ofItem boundaryItemAbc) = true ∧
    MaxHeapBytewiseComp (HeapItemAndPrefix.ofItem pointItemAb)
        (HeapItemAndPrefix.ofItem boundaryItemAbc) =
      bytewiseOfItems (HeapItemAndPrefix.ofItem pointItemAb).item_ptr
        (HeapItemAndPrefix.ofItem boundaryItemAbc).item_ptr :=
  ⟨by decide, by decide, by decide, by decide, by decide,
    (prefix_cache_is_pure_optimisation (HeapItemAndPrefix.ofItem pointItemAb)
      (HeapItemAndPrefix.ofItem boundaryItemAbc) (by decide) (by decide) (by decide)
      (by decide)).1⟩

end Bytewise

/-! ## Part XVIII. The overloads of the bytewise comparison agree, and the heap comparators are
strict weak orders -/

namespace Bytewise

open BinaryHeap

theorem leValue_toBytesLE : ∀ (n v : Nat), leValue (toBytesLE n v) = v % 256 ^ n := by
  intro n
  induction n with
  | zero => intro v; simp [toBytesLE, leValue, Nat.mod_one]
  | succ k ih =>
    intro v
    have h1 : leValue (toBytesLE (k + 1) v) = v % 256 + 256 * leValue (toBytesLE k (v / 256)) :=
      rfl
    rw [h1, ih, pow_succ, Nat.mul_comm (256 ^ k) 256, Nat.mod_mul]

theorem toBytesLE_length : ∀ (n v : Nat), (toBytesLE n v).length = n := by
  intro n
  induction n with
  | zero => intro v; rfl
  | succ k ih => intro v; simp [toBytesLE, ih]

theorem packSequenceAndType_lt (p : ParsedInternalKey Slice) (ht : p.type < 256) :
    packSequenceAndType p < 2 ^ 64 := by
  unfold packSequenceAndType
  exact Nat.or_lt_two_pow (Nat.mod_lt _ (by norm_num)) (by omega)

/-- The encoded key of a parsed key: its length, its user key and its trailer. -/
theorem encode_facts (p : ParsedInternalKey Slice) (hp : Encodable p) :
    8 ≤ (encodeInternalKey p).length ∧ (encodeInternalKey p).length < 2 ^ 64 ∧
    userKeyOf (encodeInternalKey p) = p.user_key ∧
    GetUnalignedU64 (encodeInternalKey p) (sizeSub (encodeInternalKey p).length 8) =
      packSequenceAndType p := by
  have hlen : (encodeInternalKey p).length = p.user_key.length + 8 := by
    unfold encodeInternalKey
    rw [List.length_append, toBytesLE_length]
  have h8 : 8 ≤ (encodeInternalKey p).length := by omega
  have h64 : (encodeInternalKey p).length < 2 ^ 64 := by rw [hlen]; exact hp.2
  refine ⟨h8, h64, ?_, ?_⟩
  · unfold userKeyOf
    rw [hlen, Nat.add_sub_cancel]
    unfold encodeInternalKey
    rw [List.take_left' rfl]
  · rw [sizeSub_eq h8 h64, getUnalignedU64_trailer h8]
    unfold trailerOf
    rw [hlen, Nat.add_sub_cancel]
    unfold encodeInternalKey
    rw [List.drop_left' rfl, leValue_toBytesLE]
    have : (256 : Nat) ^ 8 = 2 ^ 64 := by norm_num
    rw [this, Nat.mod_eq_of_lt (packSequenceAndType_lt p hp.1)]

/-- C38. For an encoded internal key `x` of at least 8 bytes and parsed keys `p`, `q` that
have an encoded form: each overload of `BytewiseCompareInternalKey` and of
`RevBytewiseCompareInternalKey` with a parsed argument returns what the overload on two encoded
keys returns when the parsed key is replaced by its encoded form, in either argument position
and with both arguments parsed. -/
theorem compare_overloads_agree (x : Slice) (p q : ParsedInternalKey Slice)
    (hx : 8 ≤ x.length) (hx2 : x.length < 2 ^ 64) (hp : Encodable p) (hq : Encodable q) :
    BytewiseCompareInternalKeySP x p = BytewiseCompareInternalKey x (encodeInternalKey p) ∧
    BytewiseCompareInternalKeyPS p x = BytewiseCompareInternalKey (encodeInternalKey p) x ∧
    BytewiseCompareInternalKeyPP p q =
      BytewiseCompareInternalKey (encodeInternalKey p) (encodeInternalKey q) ∧
    RevBytewiseCompareInternalKeySP x p =
      RevBytewiseCompareInternalKey x (encodeInternalKey p) ∧
    RevBytewiseCompareInternalKeyPS p x =
      RevBytewiseCompareInternalKey (encodeInternalKey p) x ∧
    RevBytewiseCompareInternalKeyPP p q =
      RevBytewiseCompareInternalKey (encodeInternalKey p) (encodeInternalKey q) := by
  obtain ⟨p8, p64, pu, pt⟩ := encode_facts p hp
  obtain ⟨q8, q64, qu, qt⟩ := encode_facts q hq
  have sp := compare_slice_parsed p hx hx2
  have ps := compare_parsed_slice p hx hx2
  have pp := compare_parsed_parsed p q
  have xe := compare_slice_slice hx hx2 p8 p64
  have ex := compare_slice_slice p8 p64 hx hx2
  have ee := compare_slice_slice p8 p64 q8 q64
  rw [pu, pt] at xe ex ee
  rw [qu, qt] at ee
  exact ⟨Bool.eq_iff_iff.mpr (sp.1.trans xe.1.symm), Bool.eq_iff_iff.mpr (ps.1.trans ex.1.symm),
    Bool.eq_iff_iff.mpr (pp.1.trans ee.1.symm), Bool.eq_iff_iff.mpr (sp.2.trans xe.2.symm),
    Bool.eq_iff_iff.mpr (ps.2.trans ex.2.symm), Bool.eq_iff_iff.mpr (pp.2.trans ee.2.symm)⟩

theorem compare_overloads_agree_witness :
    encodeInternalKey { user_key := [97, 98], sequence := 5, type := 1 } =
      [97, 98, 1, 5, 0, 0, 0, 0, 0, 0] ∧
    BytewiseCompareInternalKeySP [97, 98, 1, 3, 0, 0, 0, 0, 0, 0]
      { user_key := [97, 98], sequence := 5, type := 1 } = false ∧
    BytewiseCompareInternalKeySP [97, 98, 1, 3, 0, 0, 0, 0, 0, 0]
        { user_key := [97, 98], sequence := 5, type := 1 } =
      BytewiseCompareInternalKey [97, 98, 1, 3, 0, 0, 0, 0, 0, 0]
        (encodeInternalKey { user_key := [97, 98], sequence := 5, type := 1 }) :=
  ⟨by decide, by decide,
    (compare_overloads_agree [97, 98, 1, 3, 0, 0, 0, 0, 0, 0]
      { user_key := [97, 98], sequence := 5, type := 1 }
      { user_key := [97], sequence := 7, type := 1 }
      (by decide) (by decide) (by decide) (by decide)).1⟩

/-- A comparator that orders by a key in a linear order and then by the greater number is a
strict weak order. -/
theorem swo_of_key {α β : Type} [LinearOrder β] (f : α → β) (g : α → Nat)
    (cmp : α → α → Bool)
    (h : ∀ a b, cmp a b = true ↔ f a < f b ∨ (f a = f b ∧ g a > g b)) :
    StrictWeakOrder cmp := by
  have hf : ∀ a b, cmp a b = false ↔ f b < f a ∨ (f a = f b ∧ g a ≤ g b) := by
    intro a b
    rw [← Bool.not_eq_true, h]
    constructor
    · intro hn
      rcases lt_trichotomy (f a) (f b) with h1 | h1 | h1
      · exact absurd (Or.inl h1) hn
      · right
        refine ⟨h1, ?_⟩
        by_contra hc
        exact hn (Or.inr ⟨h1, by omega⟩)
      · exact Or.inl h1
    · rintro (h1 | ⟨h1, h2⟩) (h3 | ⟨h3, h4⟩)
      · exact lt_asymm h1 h3
      · rw [h3] at h1; exact lt_irrefl _ h1
      · rw [h1] at h3; exact lt_irrefl _ h3
      · omega
  refine ⟨?_, ?_, ?_⟩
  · intro a
    rw [hf]
    exact Or.inr ⟨rfl, le_refl _⟩
  · intro a b c h1 h2
    rw [h] at h1 h2 ⊢
    rcases h1 with h1 | ⟨h1, h1'⟩ <;> rcases h2 with h2 | ⟨h2, h2'⟩
    · exact Or.inl (lt_trans h1 h2)
    · exact Or.inl (by rw [← h2]; exact h1)
    · exact Or.inl (by rw [h1]; exact h2)
    · exact Or.inr ⟨h1.trans h2, by omega⟩
  · intro a b c h1 h2 h3 h4
    rw [hf] at h1 h2 h3 h4
    have e1 : f a = f b ∧ g a = g b := by
      rcases h1 with h1 | ⟨h1, h1'⟩ <;> rcases h2 with h2 | ⟨h2, h2'⟩
      · exact absurd h2 (lt_asymm h1)
      · rw [h2] at h1; exact absurd h1 (lt_irrefl _)
      · rw [h1] at h2; exact absurd h2 (lt_irrefl _)
      · exact ⟨h1, by omega⟩
    have e2 : f b = f c ∧ g b = g c := by
      rcases h3 with h3 | ⟨h3, h3'⟩ <;> rcases h4 with h4 | ⟨h4, h4'⟩
      · exact absurd h4 (lt_asymm h3)
      · rw [h4] at h3; exact absurd h3 (lt_irrefl _)
      · rw [h3] at h4; exact absurd h4 (lt_irrefl _)
      · exact ⟨h3, by omega⟩
    rw [hf, hf]
    exact ⟨Or.inr ⟨e1.1.trans e2.1, by omega⟩, Or.inr ⟨(e1.1.trans e2.1).symm, by omega⟩⟩

/-- On items with a coherent prefix each comparator with prefixes returns what the comparison
of the keys of the items returns. -/
theorem comparators_eq_items (a b : HeapItemAndPrefix)
    (ha : PrefixFresh a) (hb : PrefixFresh b)
    (hea : ItemEncoded a.item_ptr) (heb : ItemEncoded b.item_ptr) :
    MaxHeapBytewiseComp a b = bytewiseOfItems a.item_ptr b.item_ptr ∧
    MinHeapBytewiseComp a b = bytewiseOfItems b.item_ptr a.item_ptr ∧
    MaxHeapRevBytewiseComp a b = revBytewiseOfItems a.item_ptr b.item_ptr ∧
    MinHeapRevBytewiseComp a b = revBytewiseOfItems b.item_ptr a.item_ptr := by
  have pa := fresh_prefix a ha hea
  have pb := fresh_prefix b hb heb
  have hlt : HeapItemAndPrefix.key_prefix a < HeapItemAndPrefix.key_prefix b →
      itemUserKey a.item_ptr < itemUserKey b.item_ptr := by
    intro h
    rw [pa, pb] at h
    exact prefix_lt_imp_lt _ _ h
  have hgt : HeapItemAndPrefix.key_prefix b < HeapItemAndPrefix.key_prefix a →
      itemUserKey b.item_ptr < itemUserKey a.item_ptr := by
    intro h
    rw [pa, pb] at h
    exact prefix_lt_imp_lt _ _ h
  obtain ⟨cab, rab⟩ := items_core a.item_ptr b.item_ptr hea heb
  obtain ⟨cba, rba⟩ := items_core b.item_ptr a.item_ptr heb hea
  have tab : ∀ h : itemUserKey a.item_ptr < itemUserKey b.item_ptr,
      bytewiseOfItems a.item_ptr b.item_ptr = true ∧
      bytewiseOfItems b.item_ptr a.item_ptr = false ∧
      revBytewiseOfItems a.item_ptr b.item_ptr = false ∧
      revBytewiseOfItems b.item_ptr a.item_ptr = true := by
    intro h
    have c := core_of_lt (itemTrailer a.item_ptr) (itemTrailer b.item_ptr) h
    refine ⟨cab.mpr c.1, ?_, ?_, rba.mpr (Or.inl h)⟩
    · rw [Bool.eq_false_iff]; exact fun hc => c.2 (cba.mp hc)
    · rw [Bool.eq_false_iff]
      intro hc
      rcases rab.mp hc with h1 | ⟨h1, _⟩
      · exact lt_asymm h h1
      · rw [h1] at h; exact lt_irrefl _ h
  have tba : ∀ h : itemUserKey b.item_ptr < itemUserKey a.item_ptr,
      bytewiseOfItems b.item_ptr a.item_ptr = true ∧
      bytewiseOfItems a.item_ptr b.item_ptr = false ∧
      revBytewiseOfItems b.item_ptr a.item_ptr = false ∧
      revBytewiseOfItems a.item_ptr b.item_ptr = true := by
    intro h
    have c := core_of_lt (itemTrailer b.item_ptr) (itemTrailer a.item_ptr) h
    refine ⟨cba.mpr c.1, ?_, ?_, rab.mpr (Or.inl h)⟩
    · rw [Bool.eq_false_iff]; exact fun hc => c.2 (cab.mp hc)
    · rw [Bool.eq_false_iff]
      intro hc
      rcases rba.mp hc with h1 | ⟨h1, _⟩
      · exact lt_asymm h h1
      · rw [h1] at h; exact lt_irrefl _ h
  have hta := ha.1
  have htb := hb.1
  refine ⟨?_, ?_, ?_, ?_⟩
  · unfold MaxHeapBytewiseComp
    by_cases h1 : HeapItemAndPrefix.key_prefix a < HeapItemAndPrefix.key_prefix b
    · rw [if_pos h1, (tab (hlt h1)).1]
    · rw [if_neg h1]
      by_cases h2 : HeapItemAndPrefix.key_prefix a > HeapItemAndPrefix.key_prefix b
      · rw [if_pos h2, (tba (hgt h2)).2.1]
      · rw [if_neg h2, hta, htb]; rfl
  · unfold MinHeapBytewiseComp
    by_cases h1 : HeapItemAndPrefix.key_prefix a > HeapItemAndPrefix.key_prefix b
    · rw [if_pos h1, (tba (hgt h1)).1]
    · rw [if_neg h1]
      by_cases h2 : HeapItemAndPrefix.key_prefix a < HeapItemAndPrefix.key_prefix b
      · rw [if_pos h2, (tab (hlt h2)).2.1]
      · rw [if_neg h2, hta, htb]
        unfold bytewiseOfItems
        by_cases h3 : a.item_ptr.type = HeapItemType.ITERATOR <;>
          by_cases h4 : b.item_ptr.type = HeapItemType.ITERATOR <;>
          simp only [h3, h4, ↓reduceIte]
  · unfold MaxHeapRevBytewiseComp
    by_cases h1 : HeapItemAndPrefix.key_prefix a > HeapItemAndPrefix.key_prefix b
    · rw [if_pos h1, (tba (hgt h1)).2.2.2]
    · rw [if_neg h1]
      by_cases h2 : HeapItemAndPrefix.key_prefix a < HeapItemAndPrefix.key_prefix b
      · rw [if_pos h2, (tab (hlt h2)).2.2.1]
      · rw [if_neg h2, hta, htb]; rfl
  · unfold MinHeapRevBytewiseComp
    by_cases h1 : HeapItemAndPrefix.key_prefix a < HeapItemAndPrefix.key_prefix b
    · rw [if_pos h1, (tab (hlt h1)).2.2.2]
    · rw [if_neg h1]
      by_cases h2 : HeapItemAndPrefix.key_prefix a > HeapItemAndPrefix.key_prefix b
      · rw [if_pos h2, (tba (hgt h2)).2.2.1]
      · rw [if_neg h2, hta, htb]
        unfold revBytewiseOfItems
        by_cases h3 : a.item_ptr.type = HeapItemType.ITERATOR <;>
          by_cases h4 : b.item_ptr.type = HeapItemType.ITERATOR <;>
          simp only [h3, h4, ↓reduceIte]

/-- Each `Min` comparator is the converse of the `Max` comparator, on all items. -/
theorem min_eq_max_converse (a b : HeapItemAndPrefix) :
    MinHeapBytewiseComp a b = MaxHeapBytewiseComp b a ∧
    MinHeapRevBytewiseComp a b = MaxHeapRevBytewiseComp b a := by
  unfold MinHeapBytewiseComp MaxHeapBytewiseComp MinHeapRevBytewiseComp MaxHeapRevBytewiseComp
  constructor
  · by_cases h1 : HeapItemAndPrefix.key_prefix a > HeapItemAndPrefix.key_prefix b
    · have h1' : HeapItemAndPrefix.key_prefix b < HeapItemAndPrefix.key_prefix a := h1
      rw [if_pos h1, if_pos h1']
    · have h1' : ¬ HeapItemAndPrefix.key_prefix b < HeapItemAndPrefix.key_prefix a := h1
      rw [if_neg h1, if_neg h1']
      by_cases h2 : HeapItemAndPrefix.key_prefix a < HeapItemAndPrefix.key_prefix b
      · have h2' : HeapItemAndPrefix.key_prefix b > HeapItemAndPrefix.key_prefix a := h2
        rw [if_pos h2, if_pos h2']
      · have h2' : ¬ HeapItemAndPrefix.key_prefix b > HeapItemAndPrefix.key_prefix a := h2
        rw [if_neg h2, if_neg h2']
        by_cases h3 : a.iter_type = HeapItemType.ITERATOR <;>
          by_cases h4 : b.iter_type = HeapItemType.ITERATOR <;>
          simp only [h3, h4, ↓reduceIte]
  · by_cases h1 : HeapItemAndPrefix.key_prefix a < HeapItemAndPrefix.key_prefix b
    · have h1' : HeapItemAndPrefix.key_prefix b > HeapItemAndPrefix.key_prefix a := h1
      rw [if_pos h1, if_pos h1']
    · have h1' : ¬ HeapItemAndPrefix.key_prefix b > HeapItemAndPrefix.key_prefix a := h1
      rw [if_neg h1, if_neg h1']
      by_cases h2 : HeapItemAndPrefix.key_prefix a > HeapItemAndPrefix.key_prefix b
      · have h2' : HeapItemAndPrefix.key_prefix b < HeapItemAndPrefix.key_prefix a := h2
        rw [if_pos h2, if_pos h2']
      · have h2' : ¬ HeapItemAndPrefix.key_prefix b < HeapItemAndPrefix.key_prefix a := h2
        rw [if_neg h2, if_neg h2']
        by_cases h3 : a.iter_type = HeapItemType.ITERATOR <;>
          by_cases h4 : b.iter_type = HeapItemType.ITERATOR <;>
          simp only [h3, h4, ↓reduceIte]

/-- C37. On heap items with coherent cached prefixes each of the four heap comparators is a
strict weak order (irreflexive, transitive, with transitive incomparability), and on all
items each `Min` comparator is the converse of the `Max` comparator of the same order. There
are coherent items that a comparator tells apart. -/
theorem heap_comparators_are_strict_weak_orders :
    StrictWeakOrder (fun a b : CoherentItem => MaxHeapBytewiseComp a.1 b.1) ∧
    StrictWeakOrder (fun a b : CoherentItem => MinHeapBytewiseComp a.1 b.1) ∧
    StrictWeakOrder (fun a b : CoherentItem => MaxHeapRevBytewiseComp a.1 b.1) ∧
    StrictWeakOrder (fun a b : CoherentItem => MinHeapRevBytewiseComp a.1 b.1) ∧
    (∀ a b : HeapItemAndPrefix, MinHeapBytewiseComp a b = MaxHeapBytewiseComp b a) ∧
    (∀ a b : HeapItemAndPrefix, MinHeapRevBytewiseComp a b = MaxHeapRevBytewiseComp b a) ∧
    (∃ a b : CoherentItem, MaxHeapBytewiseComp a.1 b.1 = true ∧
      MinHeapBytewiseComp a.1 b.1 = false) := by
  have hmax : ∀ a b : CoherentItem, MaxHeapBytewiseComp a.1 b.1 = true ↔
      itemUserKey a.1.item_ptr < itemUserKey b.1.item_ptr ∨
        (itemUserKey a.1.item_ptr = itemUserKey b.1.item_ptr ∧
          itemTrailer a.1.item_ptr > itemTrailer b.1.item_ptr) := by
    intro a b
    rw [(comparators_eq_items a.1 b.1 a.2.1 b.2.1 a.2.2 b.2.2).1]
    exact (items_core _ _ a.2.2 b.2.2).1
  have hrev : ∀ a b : CoherentItem, MaxHeapRevBytewiseComp a.1 b.1 = true ↔
      OrderDual.toDual (itemUserKey a.1.item_ptr) < OrderDual.toDual (itemUserKey b.1.item_ptr) ∨
        (OrderDual.toDual (itemUserKey a.1.item_ptr) =
            OrderDual.toDual (itemUserKey b.1.item_ptr) ∧
          itemTrailer a.1.item_ptr > itemTrailer b.1.item_ptr) := by
    intro a b
    rw [(comparators_eq_items a.1 b.1 a.2.1 b.2.1 a.2.2 b.2.2).2.2.1]
    exact (items_core _ _ a.2.2 b.2.2).2
  have s1 := swo_of_key (fun a : CoherentItem => itemUserKey a.1.item_ptr)
    (fun a => itemTrailer a.1.item_ptr) _ hmax
  have s2 := swo_of_key
    (fun a : CoherentItem => OrderDual.toDual (itemUserKey a.1.item_ptr))
    (fun a => itemTrailer a.1.item_ptr) _ hrev
  have conv : ∀ {cmpMax cmpMin : CoherentItem → CoherentItem → Bool},
      StrictWeakOrder cmpMax → (∀ a b, cmpMin a b = cmpMax b a) → StrictWeakOrder cmpMin := by
    intro cmpMax cmpMin hs hc
    refine ⟨?_, ?_, ?_⟩
    · intro a; rw [hc]; exact hs.irrefl a
    · intro a b c h1 h2
      rw [hc] at h1 h2 ⊢
      exact hs.trans c b a h2 h1
    · intro a b c h1 h2 h3 h4
      rw [hc] at h1 h2 h3 h4
      rw [hc, hc]
      have := hs.incomp_trans a b c h2 h1 h4 h3
      exact ⟨this.2, this.1⟩
  exact ⟨s1, conv s1 (fun a b => (min_eq_max_converse a.1 b.1).1), s2,
    conv s2 (fun a b => (min_eq_max_converse a.1 b.1).2),
    fun a b => (min_eq_max_converse a b).1, fun a b => (min_eq_max_converse a b).2,
    ⟨HeapItemAndPrefix.ofItem pointItemAb, by decide⟩,
    ⟨HeapItemAndPrefix.ofItem boundaryItemAbc, by decide⟩,
    (by decide : MaxHeapBytewiseComp (HeapItemAndPrefix.ofItem pointItemAb)
      (HeapItemAndPrefix.ofItem boundaryItemAbc) = true),
    (by decide : MinHeapBytewiseComp (HeapItemAndPrefix.ofItem pointItemAb)
      (HeapItemAndPrefix.ofItem boundaryItemAbc) = false)⟩

end Bytewise

/-! ## Part XIX. The root cache after `pop`, and the comparator calls of `replace_top` that
leave the value at the root -/

namespace BinaryHeap

variable {T : Type}

/-- The child picked at the root of a heap with at least two elements is the left or the right
child, when a cached child is. -/
theorem pickChild_root_child (cmp : T → T → Bool) (n : Nat) (cache : Option Nat) (v : T)
    (data : List T) (hc : ∀ c, cache = some c → c = 1 ∨ c = 2) :
    (pickChild cmp n cache v data 0).1 = 1 ∨ (pickChild cmp n cache v data 0).1 = 2 := by
  unfold pickChild
  dsimp only
  split
  · rename_i hb
    simp only [beq_self_eq_true, Bool.true_and] at hb
    cases cache with
    | none => simp [cacheBelow] at hb
    | some c => simpa using hc c rfl
  · split
    · split
      · right; rfl
      · left; rfl
    · left; rfl

/-- The final state of the loop of `downheap` started at the root: either the element stays
(one iteration, which records the picked child), or it ends below the root. -/
theorem downheapLoop_at_root (cmp : T → T → Bool) (data : List T) (cache : Option Nat) (v : T)
    (hn : 2 ≤ data.length) (hc : ∀ c, cache = some c → c = 1 ∨ c = 2) :
    downheapLoop cmp data.length cache v data.length { data := data, index := 0 } =
        { data := data, index := 0,
          picked_child := some (pickChild cmp data.length cache v data 0).1,
          cmps := (pickChild cmp data.length cache v data 0).2 + 1 } ∨
    0 < (downheapLoop cmp data.length cache v data.length { data := data, index := 0 }).index := by
  obtain ⟨k, hk⟩ : ∃ k, data.length = k + 1 := ⟨data.length - 1, by omega⟩
  have h12 := pickChild_root_child cmp data.length cache v data hc
  by_cases hcm : cmp v (data[(pickChild cmp data.length cache v data 0).1]?.getD v) = true
  · right
    have hleft : ¬ get_left 0 ≥ data.length := by unfold get_left; omega
    generalize hF : data.length = F at *
    subst hk
    unfold downheapLoop
    simp only [hleft, ↓reduceIte, hcm, Bool.not_true, Bool.false_eq_true]
    refine Nat.lt_of_lt_of_le ?_ (downheapLoop_index_ge cmp (k + 1) cache v k _)
    show 0 < (pickChild cmp (k + 1) cache v data 0).1
    omega
  · left
    have hc' : cmp v (data[(pickChild cmp data.length cache v data 0).1]?.getD v) = false := by
      simpa using hcm
    have hstop := downheapLoop_stop cmp data.length cache v k
      { data := data, index := 0 } (by show get_left 0 < data.length; unfold get_left; omega) hc'
    rw [← hk] at hstop
    rw [hstop]
    simp

/-- A `downheap` from the root of a heap with at least two elements: when the element stays
at the root the data is unchanged, the cache is the picked child, and the comparator is called
once for the element after the calls that pick the child; when the element ends below the root
the cache is reset. -/
theorem downheap_at_root (cmp : T → T → Bool) (g : BinaryHeap T) (hn : 2 ≤ g.data_.length)
    (hc : CacheChild g) :
    ∃ v, g.data_[0]? = some v ∧
    (downheapEnd cmp g 0 = 0 →
      downheap cmp g 0 =
        ({ data_ := g.data_,
           root_cmp_cache_ :=
             some (pickChild cmp g.data_.length g.root_cmp_cache_ v g.data_ 0).1 },
          (pickChild cmp g.data_.length g.root_cmp_cache_ v g.data_ 0).2 + 1)) ∧
    (downheapEnd cmp g 0 ≠ 0 → (downheap cmp g 0).1.root_cmp_cache_ = none) := by
  cases hd : g.data_ with
  | nil => rw [hd] at hn; simp at hn
  | cons a l =>
    refine ⟨a, by simp, ?_, ?_⟩
    · intro hstay
      unfold downheapEnd at hstay
      rw [hd] at hstay hn
      simp only [List.length_cons, List.getElem?_cons_zero] at hstay
      unfold downheap
      simp only [hd, List.length_cons, List.getElem?_cons_zero]
      rcases downheapLoop_at_root cmp (a :: l) g.root_cmp_cache_ a hn hc with h1 | h1
      · simp only [List.length_cons] at h1
        rw [h1]
        simp
      · simp only [List.length_cons] at h1
        omega
    · intro hmove
      unfold downheapEnd at hmove
      rw [hd] at hmove
      simp only [List.length_cons, List.getElem?_cons_zero] at hmove
      unfold downheap
      simp only [hd, List.length_cons, List.getElem?_cons_zero]
      simp [hmove]

/-- Neither sift leaves a cached child other than the left or the right child of the root. -/
theorem downheap_cacheChild (cmp : T → T → Bool) (g : BinaryHeap T) (hc : CacheChild g) :
    CacheChild (downheap cmp g 0).1 := by
  by_cases hn : 2 ≤ g.data_.length
  · obtain ⟨v, hv, h1, h2⟩ := downheap_at_root cmp g hn hc
    by_cases he : downheapEnd cmp g 0 = 0
    · rw [h1 he]
      intro c hcc
      simp only [Option.some.injEq] at hcc
      rw [← hcc]
      exact pickChild_root_child cmp _ _ v _ hc
    · intro c hcc
      rw [h2 he] at hcc
      simp at hcc
  · cases hd : g.data_ with
    | nil =>
      unfold downheap
      simp only [hd, List.getElem?_nil]
      exact hc
    | cons a l =>
      cases hl : l with
      | nil =>
        intro c hcc
        unfold downheap at hcc
        simp [hd, hl, downheapLoop, get_left] at hcc
      | cons b m => rw [hd, hl] at hn; simp at hn

theorem upheap_cacheChild (cmp : T → T → Bool) (g : BinaryHeap T) (index : Nat)
    (hc : CacheChild g) : CacheChild (upheap cmp g index).1 := by
  unfold upheap
  split
  · exact hc
  · intro c hcc
    simp at hcc

theorem popTail_cacheChild (cmp : T → T → Bool) (g : BinaryHeap T) (hc : CacheChild g) :
    CacheChild (if !g.empty then downheap cmp g get_root
      else (g.reset_root_cmp_cache, 0)).1 := by
  split
  · exact downheap_cacheChild cmp g hc
  · intro c hcc
    simp [reset_root_cmp_cache] at hcc

/-- On every heap built by the public operations a cached child is the left or the right child
of the root. -/
theorem reachable_cacheChild {cmp : T → T → Bool} {h : BinaryHeap T} (hr : Reachable cmp h) :
    CacheChild h := by
  induction hr with
  | empty => intro c hc; simp at hc
  | push h v _ ih => exact upheap_cacheChild cmp _ _ ih
  | pop h _ _ ih =>
    unfold pop popC
    split
    · exact ih
    · exact popTail_cacheChild cmp _ ih
  | replace_top h v _ hne ih =>
    unfold replace_top replace_topC
    simp only [hne, Bool.false_eq_true, ↓reduceIte]
    exact downheap_cacheChild cmp _ ih
  | update_top h w _ hne ih =>
    unfold update_top update_topC
    split
    · exact ih
    · exact downheap_cacheChild cmp _ ih
  | clear h _ _ => intro c hc; simp [clear] at hc

/-- On a heap with more than one element `pop()` is the root sift of the heap with the back
element moved to the front. -/
theorem popC_eq_downheap (cmp : T → T → Bool) (h : BinaryHeap T) (hn : 1 < h.data_.length) :
    popC cmp h = downheap cmp h.popShifted 0 ∧
      h.popShifted.data_.length = h.data_.length - 1 ∧
      h.popShifted.root_cmp_cache_ = h.root_cmp_cache_ := by
  unfold popC popShifted
  cases hl : h.data_.getLast? with
  | none =>
    rw [List.getLast?_eq_none_iff] at hl
    rw [hl] at hn; simp at hn
  | some back =>
    simp only [hn, ↓reduceIte, gt_iff_lt]
    have hlen : ((h.data_.set 0 back).dropLast).length = h.data_.length - 1 := by simp
    have hemp : (({ h with data_ := (h.data_.set 0 back).dropLast } : BinaryHeap T).empty) =
        false := by
      simp only [empty, List.isEmpty_eq_false]
      intro h0
      rw [h0] at hlen
      simp at hlen
      omega
    simp only [hemp, Bool.not_false, ↓reduceIte, get_root]
    exact ⟨trivial, hlen, trivial⟩

theorem heapFiveThreeFour_reachable : Reachable natLess heapFiveThreeFour :=
  Reachable.push _ _ (Reachable.push _ _ (Reachable.push _ _ Reachable.empty))

/-- C31, as stated, fails: `pop()` on the reachable three-element heap `[5, 3, 4]` moves `4` to
the root, where it stays; the sift records the child it was compared with, so the cache is index
1 and not the sentinel. -/
theorem pop_keeps_cache_when_back_stays_at_root :
    ¬ ∀ h : BinaryHeap Nat, Reachable natLess h → 1 < h.size →
      (pop natLess h).root_cmp_cache_ = none := by
  intro hall
  have h1 := hall heapFiveThreeFour heapFiveThreeFour_reachable (by decide)
  revert h1
  decide

/-- C31, amended. After `pop()` on a reachable heap that held more than one element, the root
comparison cache is invalid when the heap held exactly two elements or when the element moved
from the back is sifted below the root. When the heap held three or more elements and the moved
element stays at the root, the cache is the child it was compared with: index 1 or 2, below the
new size, and the data is the shifted data. Under a strict weak order the cache is valid for
the new data in every case. -/
theorem pop_cache_after_sift (cmp : T → T → Bool) (h : BinaryHeap T) (hr : Reachable cmp h)
    (hn : 1 < h.size) :
    ((h.size = 2 ∨ downheapEnd cmp h.popShifted 0 ≠ 0) →
      (pop cmp h).root_cmp_cache_ = none) ∧
    (2 < h.size → downheapEnd cmp h.popShifted 0 = 0 →
      ∃ c, (pop cmp h).root_cmp_cache_ = some c ∧ (c = 1 ∨ c = 2) ∧ c < (pop cmp h).size ∧
        (pop cmp h).data_ = h.popShifted.data_) ∧
    (StrictWeakOrder cmp → CacheValid cmp (pop cmp h).root_cmp_cache_ (pop cmp h).data_) := by
  obtain ⟨hp, hlen, hcache⟩ := popC_eq_downheap cmp h hn
  have hn' : 1 < h.data_.length := hn
  have hcc : CacheChild h.popShifted := by
    intro c hc
    rw [hcache] at hc
    exact reachable_cacheChild hr c hc
  have hne : h.empty = false := by
    simp only [empty, List.isEmpty_eq_false]
    intro h0
    simp [size, h0] at hn
  refine ⟨?_, ?_, fun hswo => (reachable_inv hswo (Reachable.pop h hr hne)).2⟩
  · intro hcase
    unfold pop
    rw [hp]
    by_cases h2 : h.size = 2
    · have h2' : h.data_.length = 2 := h2
      have hl1 : h.popShifted.data_.length = 1 := by
        rw [hlen]; omega
      cases hd : h.popShifted.data_ with
      | nil => rw [hd] at hl1; simp at hl1
      | cons a l =>
        cases hl : l with
        | nil =>
          unfold downheap
          simp [hd, hl, downheapLoop, get_left]
        | cons b m => rw [hd, hl] at hl1; simp at hl1
    · have h2' : h.data_.length ≠ 2 := h2
      have hmove : downheapEnd cmp h.popShifted 0 ≠ 0 := by
        rcases hcase with hc | hc
        · exact absurd hc h2
        · exact hc
      obtain ⟨_, _, _, h3⟩ := downheap_at_root cmp h.popShifted
        (by rw [hlen]; omega) hcc
      exact h3 hmove
  · intro h3 hstay
    have h3' : 2 < h.data_.length := h3
    have hl2 : 2 ≤ h.popShifted.data_.length := by
      rw [hlen]; omega
    obtain ⟨v, _, h1, _⟩ := downheap_at_root cmp h.popShifted hl2 hcc
    unfold pop
    rw [hp, h1 hstay]
    refine ⟨_, rfl, pickChild_root_child cmp _ _ v _ hcc, ?_, rfl⟩
    exact pickChild_root_lt cmp _ _ v _ hl2

theorem pop_cache_after_sift_witness :
    Reachable natLess heapFiveThreeFour ∧ 1 < heapFiveThreeFour.size ∧
    ((heapFiveThreeFour.size = 2 ∨ downheapEnd natLess heapFiveThreeFour.popShifted 0 ≠ 0) →
      (pop natLess heapFiveThreeFour).root_cmp_cache_ = none) ∧
    (2 < heapFiveThreeFour.size → downheapEnd natLess heapFiveThreeFour.popShifted 0 = 0 →
      ∃ c, (pop natLess heapFiveThreeFour).root_cmp_cache_ = some c ∧ (c = 1 ∨ c = 2) ∧
        c < (pop natLess heapFiveThreeFour).size ∧
        (pop natLess heapFiveThreeFour).data_ = heapFiveThreeFour.popShifted.data_) ∧
    (StrictWeakOrder natLess →
      CacheValid natLess (pop natLess heapFiveThreeFour).root_cmp_cache_
        (pop natLess heapFiveThreeFour).data_) :=
  ⟨heapFiveThreeFour_reachable, by decide,
    pop_cache_after_sift natLess heapFiveThreeFour heapFiveThreeFour_reachable (by decide)⟩

/-- C32. On a reachable heap with at least two elements, let `replace_top(v)` leave `v` at the
root (`update_top()` after the root was overwritten by `v` is the same computation). Then the
call invokes the comparator once when the cache was usable, and otherwise (in particular with
the cache at the sentinel) once when the heap has two elements and twice when it has more; the
data is the old data with `v` at the root and the new cache is below the size; and an
immediately following `replace_top(w)` or `update_top()` whose value also stays at the root
invokes the comparator exactly once. -/
theorem staying_at_root_costs_one_comparison (cmp : T → T → Bool) (h : BinaryHeap T)
    (hr : Reachable cmp h) (hn : 2 ≤ h.size) (v : T)
    (hv : downheapEnd cmp (h.withRoot v) 0 = 0) :
    update_topC cmp (h.withRoot v) = replace_topC cmp h v ∧
    (replace_topC cmp h v).2 =
      (if cacheBelow h.root_cmp_cache_ h.size = true then 1
       else if h.size = 2 then 1 else 2) ∧
    (h.root_cmp_cache_ = none →
      (replace_topC cmp h v).2 = if h.size = 2 then 1 else 2) ∧
    (replace_topC cmp h v).1.data_ = h.data_.set 0 v ∧
    cacheBelow (replace_topC cmp h v).1.root_cmp_cache_ (replace_topC cmp h v).1.size = true ∧
    (∀ w, downheapEnd cmp ((replace_topC cmp h v).1.withRoot w) 0 = 0 →
      (replace_topC cmp (replace_topC cmp h v).1 w).2 = 1 ∧
      (update_topC cmp ((replace_topC cmp h v).1.withRoot w)).2 = 1 ∧
      (replace_topC cmp (replace_topC cmp h v).1 w).1.data_ = h.data_.set 0 w) := by
  have key : ∀ (g : BinaryHeap T), CacheChild g → 2 ≤ g.data_.length → ∀ u : T,
      downheapEnd cmp (g.withRoot u) 0 = 0 →
      update_topC cmp (g.withRoot u) = replace_topC cmp g u ∧
      (replace_topC cmp g u).2 =
        (if cacheBelow g.root_cmp_cache_ g.data_.length = true then 1
         else if g.data_.length = 2 then 1 else 2) ∧
      (replace_topC cmp g u).1.data_ = g.data_.set 0 u ∧
      cacheBelow (replace_topC cmp g u).1.root_cmp_cache_ g.data_.length = true ∧
      CacheChild (replace_topC cmp g u).1 := by
    intro g hc hlen u hu
    have hemp : g.empty = false := by
      simp only [empty, List.isEmpty_eq_false]
      intro h0; rw [h0] at hlen; simp at hlen
    have hemp2 : (g.withRoot u).empty = false := by
      simp only [empty, withRoot, List.isEmpty_eq_false]
      intro h0
      have h1 := congrArg List.length h0
      rw [List.length_set] at h1
      rw [h1] at hlen
      simp at hlen
    have hlen2 : 2 ≤ (g.withRoot u).data_.length := by simpa [withRoot] using hlen
    have hcc : CacheChild (g.withRoot u) := hc
    obtain ⟨x, hx, h1, _⟩ := downheap_at_root cmp (g.withRoot u) hlen2 hcc
    have hrep : replace_topC cmp g u = downheap cmp (g.withRoot u) 0 := by
      unfold replace_topC
      simp only [hemp, Bool.false_eq_true, ↓reduceIte, get_root]
      rfl
    have hupd : update_topC cmp (g.withRoot u) = downheap cmp (g.withRoot u) 0 := by
      unfold update_topC
      simp only [hemp2, Bool.false_eq_true, ↓reduceIte, get_root]
    have hL : (g.withRoot u).data_.length = g.data_.length := by simp [withRoot]
    refine ⟨by rw [hupd, hrep], ?_, ?_, ?_, ?_⟩
    · rw [hrep, h1 hu]
      show (pickChild cmp _ _ x _ 0).2 + 1 = _
      rw [pickChild_snd, hL]
      show (if (((0 : Nat) == 0) && cacheBelow g.root_cmp_cache_ g.data_.length) = true
        then 0 else if get_left 0 + 1 < g.data_.length then 1 else 0) + 1 = _
      simp only [beq_self_eq_true, Bool.true_and, get_left]
      split
      · rfl
      · split
        · rw [if_neg (by omega)]
        · rw [if_pos (by omega)]
    · rw [hrep, h1 hu]; rfl
    · rw [hrep, h1 hu]
      show cacheBelow (some (pickChild cmp _ _ x _ 0).1) _ = true
      have := pickChild_root_lt cmp (g.withRoot u).data_.length
        (g.withRoot u).root_cmp_cache_ x (g.withRoot u).data_ hlen2
      rw [hL] at this ⊢
      simpa [cacheBelow] using this
    · rw [hrep]
      exact downheap_cacheChild cmp _ hcc
  obtain ⟨k1, k2, k3, k4, k5⟩ := key h (reachable_cacheChild hr) hn v hv
  have hsz : (replace_topC cmp h v).1.size = h.size := by
    simp only [size, k3, List.length_set]
  have hsz2 : (replace_topC cmp h v).1.data_.length = h.data_.length := by
    simp only [k3, List.length_set]
  refine ⟨k1, k2, ?_, k3, by rw [hsz]; exact k4, ?_⟩
  · intro hnone
    rw [k2, hnone]
    simp [cacheBelow, size]
  · intro w hw
    obtain ⟨j1, j2, j3, _, _⟩ := key (replace_topC cmp h v).1 k5
      (by rw [hsz2]; exact hn) w hw
    rw [hsz2] at j2
    have hk4 : cacheBelow (replace_topC cmp h v).1.root_cmp_cache_ h.data_.length = true := k4
    rw [if_pos hk4] at j2
    refine ⟨j2, by rw [j1]; exact j2, ?_⟩
    rw [j3, k3]
    simp

theorem staying_at_root_costs_one_comparison_witness :
    Reachable natLess heapFiveThreeFour ∧ 2 ≤ heapFiveThreeFour.size ∧
    downheapEnd natLess (heapFiveThreeFour.withRoot 6) 0 = 0 ∧
    heapFiveThreeFour.root_cmp_cache_ = none ∧
    (replace_topC natLess heapFiveThreeFour 6).2 = 2 ∧
    (replace_topC natLess (replace_topC natLess heapFiveThreeFour 6).1 7).2 = 1 ∧
    (update_topC natLess (heapFiveThreeFour.withRoot 6) = replace_topC natLess heapFiveThreeFour 6 ∧
    (replace_topC natLess heapFiveThreeFour 6).2 =
      (if cacheBelow heapFiveThreeFour.root_cmp_cache_ heapFiveThreeFour.size = true then 1
       else if heapFiveThreeFour.size = 2 then 1 else 2) ∧
    (heapFiveThreeFour.root_cmp_cache_ = none →
      (replace_topC natLess heapFiveThreeFour 6).2 =
        if heapFiveThreeFour.size = 2 then 1 else 2) ∧
    (replace_topC natLess heapFiveThreeFour 6).1.data_ = heapFiveThreeFour.data_.set 0 6 ∧
    cacheBelow (replace_topC natLess heapFiveThreeFour 6).1.root_cmp_cache_
      (replace_topC natLess heapFiveThreeFour 6).1.size = true ∧
    (∀ w, downheapEnd natLess ((replace_topC natLess heapFiveThreeFour 6).1.withRoot w) 0 = 0 →
      (replace_topC natLess (replace_topC natLess heapFiveThreeFour 6).1 w).2 = 1 ∧
      (update_topC natLess ((replace_topC natLess heapFiveThreeFour 6).1.withRoot w)).2 = 1 ∧
      (replace_topC natLess (replace_topC natLess heapFiveThreeFour 6).1 w).1.data_ =
        heapFiveThreeFour.data_.set 0 w)) :=
  ⟨heapFiveThreeFour_reachable, by decide, by decide, by decide, by decide, by decide,
    staying_at_root_costs_one_comparison natLess heapFiveThreeFour heapFiveThreeFour_reachable
      (by decide) 6 (by decide)⟩

end BinaryHeap

/-! ## Part XX. The upper bound in `InsertRangeTombstoneToMinHeap` -/

namespace BinaryHeap

variable {T : Type}

theorem downheap_data_perm (cmp : T → T → Bool) (h : BinaryHeap T) :
    (downheap cmp h get_root).1.data_.Perm h.data_ := by
  unfold downheap get_root
  cases hd : h.data_ with
  | nil => simp [hd]
  | cons a l =>
    simp only [List.getElem?_cons_zero]
    have hperm := downheapLoop_perm cmp (a :: l).length h.root_cmp_cache_ a (a :: l).length
      { data := a :: l, index := 0 } rfl (by simp)
    simpa using hperm

theorem pop_data_perm (cmp : T → T → Bool) (h : BinaryHeap T) :
    (pop cmp h).data_.Perm h.data_.tail := by
  unfold pop popC
  cases hd : h.data_ with
  | nil => simp [hd]
  | cons x xs =>
    cases hxs : xs with
    | nil => simp [empty, reset_root_cmp_cache]
    | cons y ys =>
      have hback : (x :: y :: ys).getLast? = some ((y :: ys).getLast (by simp)) := by
        simp [List.getLast?_eq_getLast]
      simp only [hback]
      have hsplit : (y :: ys).dropLast ++ [(y :: ys).getLast (by simp)] = y :: ys :=
        List.dropLast_append_getLast _
      generalize (y :: ys).getLast (by simp) = back at *
      have hdl : ((x :: y :: ys).set 0 back).dropLast = back :: (y :: ys).dropLast := by
        simp
      simp only [List.length_cons, gt_iff_lt, Nat.lt_add_left_iff_pos, Nat.zero_lt_succ,
        ↓reduceIte, hdl, empty, List.isEmpty_cons, Bool.not_false, List.tail_cons]
      refine (downheap_data_perm cmp _).trans ?_
      simp only []
      exact (List.perm_append_singleton back _).symm.trans (by rw [hsplit])

theorem replace_top_data_perm (cmp : T → T → Bool) (h : BinaryHeap T) (v : T)
    (hne : h.empty = false) : (replace_top cmp h v).data_.Perm (v :: h.data_.tail) := by
  unfold replace_top replace_topC
  simp only [hne, Bool.false_eq_true, ↓reduceIte]
  refine (downheap_data_perm cmp _).trans ?_
  cases hd : h.data_ with
  | nil => simp [empty, hd] at hne
  | cons x xs => simp

end BinaryHeap

namespace MergingIterator

open InternalKeyComparator BinaryHeap

variable {UK : Type} [LinearOrder UK] [Inhabited UK]

/-- The request for an end key does not read the upper bound. -/
theorem insertMin_end_key_eq (e : MergingIterator UK) (level : Nat) (r : Bool) :
    e.InsertRangeTombstoneToMinHeap level false r =
      if r then
        ({ e.store (.pinned level)
            { (e.pinned_heap_item_[level]?.getD default).SetTombstoneKey (e.rti level).end_key
              with type := HeapItemType.DELETE_RANGE_END } with
          active_ := setInsert level e.active_ } : MergingIterator UK).minReplaceTop
          (.pinned level)
      else
        ({ e.store (.pinned level)
            { (e.pinned_heap_item_[level]?.getD default).SetTombstoneKey (e.rti level).end_key
              with type := HeapItemType.DELETE_RANGE_END } with
          active_ := setInsert level e.active_ } : MergingIterator UK).minPush
          (.pinned level) := by
  unfold InsertRangeTombstoneToMinHeap
  cases e.iterate_upper_bound_ <;> simp

/-- C34. With `iterate_upper_bound` set, `InsertRangeTombstoneToMinHeap` asked for the start key
of a tombstone whose start user key is at or after the bound changes nothing when it was to
push, and is `minHeap_.pop()` when it was to replace the top: the active set, the children and
the boundary items are as before, the heap holds the former entries without the top, one fewer
on a non-empty heap. Asked for the end key it is not filtered, whatever the bound and the
keys: the level is added to the active set, the boundary item becomes the end endpoint, and
its pointer is pushed, or replaces the top. -/
theorem upper_bound_filters_start_key_only (e : MergingIterator UK) (level : Nat) (ub : UK)
    (hub : e.iterate_upper_bound_ = some ub) :
    (ub ≤ (e.rti level).start_key.user_key →
      e.InsertRangeTombstoneToMinHeap level true false = e ∧
      e.InsertRangeTombstoneToMinHeap level true true = e.minPop ∧
      e.minPop.active_ = e.active_ ∧
      e.minPop.pinned_heap_item_ = e.pinned_heap_item_ ∧
      e.minPop.children_ = e.children_ ∧
      e.minPop.heap_.data_.Perm e.heap_.data_.tail ∧
      (e.heap_.empty = false → e.minPop.heap_.size + 1 = e.heap_.size)) ∧
    (∀ replace_top : Bool,
      (e.InsertRangeTombstoneToMinHeap level false replace_top).active_ =
        setInsert level e.active_ ∧
      level ∈ (e.InsertRangeTombstoneToMinHeap level false replace_top).active_ ∧
      (e.InsertRangeTombstoneToMinHeap level false replace_top).pinned_heap_item_ =
        e.pinned_heap_item_.set level
          { (e.pinned_heap_item_[level]?.getD default).SetTombstoneKey (e.rti level).end_key
            with type := HeapItemType.DELETE_RANGE_END } ∧
      ((replace_top = true → e.heap_.empty = false) →
        (e.InsertRangeTombstoneToMinHeap level false replace_top).heap_.data_.Perm
          (HeapItemPtr.pinned level ::
            (if replace_top then e.heap_.data_.tail else e.heap_.data_)))) := by
  refine ⟨?_, ?_⟩
  · intro hge
    have hout : (true && compare (e.rti level).start_key.user_key ub != .lt) = true := by
      rw [Bool.true_and]
      cases hc : compare (e.rti level).start_key.user_key ub with
      | lt => exact absurd (compare_lt_iff_lt.mp hc) (not_lt.mpr hge)
      | eq => rfl
      | gt => rfl
    refine ⟨?_, ?_, rfl, rfl, rfl, pop_data_perm _ _, ?_⟩
    · unfold InsertRangeTombstoneToMinHeap
      simp only [hub, hout, ↓reduceIte, Bool.false_eq_true]
    · unfold InsertRangeTombstoneToMinHeap
      simp only [hub, hout, ↓reduceIte]
    · intro hne
      have hp := (pop_data_perm e.minCmp e.heap_).length_eq
      show (pop e.minCmp e.heap_).data_.length + 1 = e.heap_.data_.length
      rw [hp]
      cases hd : e.heap_.data_ with
      | nil => simp [empty, hd] at hne
      | cons x xs => simp
  · intro r
    rw [insertMin_end_key_eq]
    cases r with
    | false =>
      refine ⟨rfl, ?_, rfl, ?_⟩
      · show level ∈ setInsert level e.active_
        exact (mem_setInsert level level e.active_).mpr (Or.inl rfl)
      · intro _
        exact push_perm _ _ _
    | true =>
      refine ⟨rfl, ?_, rfl, ?_⟩
      · show level ∈ setInsert level e.active_
        exact (mem_setInsert level level e.active_).mpr (Or.inl rfl)
      · intro hne
        exact replace_top_data_perm _ _ _ (hne rfl)

theorem upper_bound_filters_start_key_only_witness :
    boundedAtThree.iterate_upper_bound_ = some 3 ∧
    (boundedAtThree.rti 0).Valid = true ∧
    3 ≤ (boundedAtThree.rti 0).start_key.user_key ∧
    boundedAtThree.heap_.data_ = [HeapItemPtr.child 0] ∧
    boundedAtThree.InsertRangeTombstoneToMinHeap 0 true false = boundedAtThree ∧
    boundedAtThree.InsertRangeTombstoneToMinHeap 0 true true = boundedAtThree.minPop ∧
    boundedAtThree.minPop.heap_.size + 1 = boundedAtThree.heap_.size ∧
    (boundedAtThree.InsertRangeTombstoneToMinHeap 0 false false).active_ =
      setInsert 0 boundedAtThree.active_ ∧
    0 ∈ (boundedAtThree.InsertRangeTombstoneToMinHeap 0 false true).active_ :=
  ⟨by decide, by decide, by decide, by decide,
    ((upper_bound_filters_start_key_only boundedAtThree 0 3 (by decide)).1 (by decide)).1,
    ((upper_bound_filters_start_key_only boundedAtThree 0 3 (by decide)).1 (by decide)).2.1,
    ((upper_bound_filters_start_key_only boundedAtThree 0 3 (by decide)).1
      (by decide)).2.2.2.2.2.2 (by decide),
    ((upper_bound_filters_start_key_only boundedAtThree 0 3 (by decide)).2 false).1,
    ((upper_bound_filters_start_key_only boundedAtThree 0 3 (by decide)).2 true).2.1⟩

end MergingIterator

/-! ## Part XXI. The endpoints that `SeekToFirst` and `SeekToLast` insert -/

namespace MergingIterator

open InternalKeyComparator BinaryHeap

variable {UK : Type} [LinearOrder UK] [Inhabited UK]

theorem seekToFirst_eq_fill (e : MergingIterator UK) (fuel : Nat) :
    e.SeekToFirst fuel =
      finishSeek Direction.kForward ((seekToFirstFill e).FindNextVisibleKey fuel) := by
  have h1 : e.SeekToFirst fuel =
      match (seekToFirstFill e).FindNextVisibleKey fuel with
      | some e3 =>
        some { ({ e3 with direction_ := Direction.kForward } : MergingIterator UK) with
          current_ := ({ e3 with direction_ := Direction.kForward } :
            MergingIterator UK).CurrentForward }
      | none => none := rfl
  rw [h1]
  cases (seekToFirstFill e).FindNextVisibleKey fuel <;> rfl

theorem seekToLast_eq_fill (e : MergingIterator UK) (fuel : Nat) :
    e.SeekToLast fuel =
      finishSeek Direction.kReverse ((seekToLastFill e).FindPrevVisibleKey fuel) := by
  have h1 : e.SeekToLast fuel =
      match (seekToLastFill e).FindPrevVisibleKey fuel with
      | some e3 =>
        some { ({ e3 with direction_ := Direction.kReverse } : MergingIterator UK) with
          current_ := ({ e3 with direction_ := Direction.kReverse } :
            MergingIterator UK).CurrentReverse }
      | none => none := rfl
  rw [h1]
  cases (seekToLastFill e).FindPrevVisibleKey fuel <;> rfl

/-- The state of `SeekToFirst()` before the visibility loop. -/
theorem seekToFirstFill_firstB {runs : List (List (ParsedInternalKey UK))}
    {tombs : List (Option (List (RangeTombstone UK)))} {e : MergingIterator UK}
    (hb : Base runs tombs e) : FirstB runs tombs runs.length (seekToFirstFill e) := by
  obtain ⟨e0, he0⟩ : ∃ e0 : MergingIterator UK,
      e0 = { e.ClearHeaps true with status_ := Status.OK } := ⟨_, rfl⟩
  have hbase0 : Base runs tombs e0 := by
    rw [he0]; exact base_of_eq hb rfl rfl rfl rfl hb.no_upper_bound
  have hA0 : FirstA runs tombs 0 e0 := by
    refine ⟨hbase0, by rw [he0]; rfl, ?_, fun l hl => by omega⟩
    apply heapPart_of_mem
    · rw [he0]; simp [ClearHeaps, BinaryHeap.clear]
    · intro p
      rw [he0]
      cases p <;> simp [InHeapSpec, ClearHeaps, BinaryHeap.clear]
    · rw [he0]; exact heapInv_clear _ e.heap_
  obtain ⟨e1, he1⟩ : ∃ e1, e1 = (List.range e0.children_.length).foldl
      (fun (e : MergingIterator UK) level =>
        (e.updIter (.child level) (fun w => w.SeekToFirst)).AddToMinHeapOrCheckStatus
          (.child level)) e0 := ⟨_, rfl⟩
  have hA : FirstA runs tombs runs.length e1 := by
    rw [he1, hbase0.children_len]; exact firstA_loop hA0 runs.length (le_refl _)
  have hB0 : FirstB runs tombs 0 e1 :=
    ⟨hA.base, hA.active, ⟨fun j hj => by omega, fun j => by rw [hA.active]; simp,
      by rw [hA.active]; exact List.Pairwise.nil⟩, hA.heap, hA.idx, fun j hj => by omega⟩
  have hfill : seekToFirstFill e = (List.range e1.range_tombstone_iters_.length).foldl
      (fun (e : MergingIterator UK) i =>
        match e.range_tombstone_iters_[i]?.getD none with
        | some it =>
          let e := e.setRti i it.SeekToFirst
          if (e.rti i).Valid then e.InsertRangeTombstoneToMinHeap i true false else e
        | none => e) e1 := by
    rw [he1, he0]; rfl
  rw [hfill, hA.base.rti_len]
  exact firstB_loop hB0 runs.length (le_refl _)

theorem seekToFirstFill_fwd {runs : List (List (ParsedInternalKey UK))}
    {tombs : List (Option (List (RangeTombstone UK)))} {e : MergingIterator UK}
    (hb : Base runs tombs e) : FwdT runs tombs (seekToFirstFill e) := by
  have hB := seekToFirstFill_firstB hb
  obtain ⟨B, hBl⟩ := lowerBound_exists (seekToFirstFill e) hB.heap.inv
  refine ⟨⟨hB.base, hB.tomb, hB.heap⟩, ?_, ?_, B, hBl, ?_⟩
  · intro j L hjL hL hv t ht
    rw [hB.tidx j (by omega)] at ht
    simp at ht
  · intro j L hjL hL hv hact
    rw [hB.active] at hact
    simp at hact
  · intro l idx r hl hidx
    rw [hB.idx l hl] at hidx
    omega

/-- The state of `SeekToLast()` before the visibility loop. -/
theorem seekToLastFill_lastB {runs : List (List (ParsedInternalKey UK))}
    {tombs : List (Option (List (RangeTombstone UK)))} {e : MergingIterator UK}
    (hb : Base runs tombs e) : LastB runs tombs runs.length (seekToLastFill e) := by
  obtain ⟨e0, he0⟩ : ∃ e0 : MergingIterator UK,
      e0 = { (e.ClearHeaps true).InitMaxHeap with status_ := Status.OK } := ⟨_, rfl⟩
  have hbase0 : Base runs tombs e0 := by
    rw [he0]; exact base_of_eq hb rfl rfl rfl rfl hb.no_upper_bound
  have hA0 : LastA runs tombs 0 e0 := by
    refine ⟨hbase0, by rw [he0]; rfl, ?_, fun l hl => by omega⟩
    apply heapPartR_of_mem
    · rw [he0]; simp [ClearHeaps, InitMaxHeap, BinaryHeap.clear]
    · intro p
      rw [he0]
      cases p <;> simp [InHeapSpec, ClearHeaps, InitMaxHeap, BinaryHeap.clear]
    · rw [he0]; exact heapInv_clear _ (e.ClearHeaps true).heap_
  obtain ⟨e1, he1⟩ : ∃ e1, e1 = (List.range e0.children_.length).foldl
      (fun (e : MergingIterator UK) level =>
        (e.updIter (.child level) (fun w => w.SeekToLast)).AddToMaxHeapOrCheckStatus
          (.child level)) e0 := ⟨_, rfl⟩
  have hA : LastA runs tombs runs.length e1 := by
    rw [he1, hbase0.children_len]; exact lastA_loop hA0 runs.length (le_refl _)
  have hB0 : LastB runs tombs 0 e1 :=
    ⟨hA.base, hA.active, ⟨fun j hj => by omega, fun j => by rw [hA.active]; simp,
      by rw [hA.active]; exact List.Pairwise.nil⟩, hA.heap, hA.idx, fun j hj => by omega⟩
  have hfill : seekToLastFill e = (List.range e1.range_tombstone_iters_.length).foldl
      (fun (e : MergingIterator UK) i =>
        match e.range_tombstone_iters_[i]?.getD none with
        | some it =>
          let e := e.setRti i it.SeekToLast
          if (e.rti i).Valid then e.InsertRangeTombstoneToMaxHeap i true false else e
        | none => e) e1 := by
    rw [he1, he0]; rfl
  rw [hfill, hA.base.rti_len]
  exact lastB_loop hB0 runs.length (le_refl _)

theorem seekToLastFill_bwd {runs : List (List (ParsedInternalKey UK))}
    {tombs : List (Option (List (RangeTombstone UK)))} {e : MergingIterator UK}
    (hb : Base runs tombs e) : BwdT runs tombs (seekToLastFill e) := by
  have hB := seekToLastFill_lastB hb
  obtain ⟨B, hBl⟩ := upperBound_exists (seekToLastFill e) hB.heap.inv
  refine ⟨⟨hB.base, hB.tomb, hB.heap⟩, ?_, ?_, ?_, B, hBl, ?_⟩
  · intro j L hjL hL hv t ht
    rw [hB.tidx j (by omega)] at ht
    simp at ht
  · intro j L hjL hL hv hact
    rw [hB.active] at hact
    simp at hact
  · intro L L' idx r hLL hL' hv hidx hr
    rw [hB.idx L (by omega)] at hidx
    rw [List.getElem?_eq_none hidx] at hr
    simp at hr
  · intro l idx r hl hidx hr
    rw [hB.idx l hl] at hidx
    rw [List.getElem?_eq_none hidx] at hr
    simp at hr

theorem rti_ext (a b : TruncatedRangeDelIterator UK) (h1 : a.tombstones = b.tombstones)
    (h2 : a.pos = b.pos) : a = b := by
  cases a; cases b; simp only [TruncatedRangeDelIterator.mk.injEq]; exact ⟨h1, h2⟩

/-- C33, as stated, fails: `SeekToFirst()` on the engine whose first run carries the tombstone
`[3, 5)` puts the boundary item of that run into the heap as the start endpoint with key 3, and
no end endpoint is in the heap, neither before the visibility loop nor when `SeekToFirst()`
returns; `SeekToLast()` puts it in as the end endpoint with key 5. -/
theorem seek_to_first_inserts_start_endpoint :
    (tombstoneOnFirstRun.rti 0).SeekToFirst.Valid = true ∧
    (tombstoneOnFirstRun.rti 0).SeekToFirst.end_key.user_key = 5 ∧
    (tombstoneOnFirstRun.rti 0).SeekToLast.Valid = true ∧
    (tombstoneOnFirstRun.rti 0).SeekToLast.start_key.user_key = 3 ∧
    HeapItemPtr.pinned 0 ∈ (seekToFirstFill tombstoneOnFirstRun).heap_.data_ ∧
    ((seekToFirstFill tombstoneOnFirstRun).deref (.pinned 0)).type =
      HeapItemType.DELETE_RANGE_START ∧
    ((seekToFirstFill tombstoneOnFirstRun).deref (.pinned 0)).parsed_ikey.user_key = 3 ∧
    (∀ p ∈ (seekToFirstFill tombstoneOnFirstRun).heap_.data_,
      ((seekToFirstFill tombstoneOnFirstRun).deref p).type ≠ HeapItemType.DELETE_RANGE_END) ∧
    tombstoneOnFirstRun.SeekToFirst 8 = some beforeCoveredRecord ∧
    (∀ p ∈ beforeCoveredRecord.heap_.data_,
      (beforeCoveredRecord.deref p).type ≠ HeapItemType.DELETE_RANGE_END) ∧
    HeapItemPtr.pinned 0 ∈ (seekToLastFill tombstoneOnFirstRun).heap_.data_ ∧
    ((seekToLastFill tombstoneOnFirstRun).deref (.pinned 0)).type =
      HeapItemType.DELETE_RANGE_END ∧
    ((seekToLastFill tombstoneOnFirstRun).deref (.pinned 0)).parsed_ikey.user_key = 5 ∧
    (∀ p ∈ (seekToLastFill tombstoneOnFirstRun).heap_.data_,
      ((seekToLastFill tombstoneOnFirstRun).deref p).type ≠
        HeapItemType.DELETE_RANGE_START) := by
  decide

/-- C33, amended. On an engine over sorted runs with per-run tombstone lists (no upper bound),
`SeekToFirst()` is the visibility loop run on a state in which no level is active and in which,
for every level, the tombstone iterator has been sought to its first tombstone and, exactly when
it is valid then, the boundary item of the level is in the heap, as the start endpoint of that
tombstone (the near endpoint of a forward scan). `SeekToLast()` is the same with the last
tombstone and its end endpoint. -/
theorem seek_to_first_inserts_near_endpoints (runs : List (List (ParsedInternalKey UK)))
    (tombs : List (Option (List (RangeTombstone UK)))) (e : MergingIterator UK)
    (hb : Base runs tombs e) (fuel : Nat) :
    (e.SeekToFirst fuel =
        finishSeek Direction.kForward ((seekToFirstFill e).FindNextVisibleKey fuel) ∧
      (seekToFirstFill e).active_ = [] ∧
      ∀ j, j < runs.length →
        (seekToFirstFill e).rti j = (e.rti j).SeekToFirst ∧
        (HeapItemPtr.pinned j ∈ (seekToFirstFill e).heap_.data_ ↔
          (e.rti j).SeekToFirst.Valid = true) ∧
        ((e.rti j).SeekToFirst.Valid = true →
          ((seekToFirstFill e).deref (.pinned j)).type = HeapItemType.DELETE_RANGE_START ∧
          ((seekToFirstFill e).deref (.pinned j)).parsed_ikey.user_key =
            (e.rti j).SeekToFirst.start_key.user_key ∧
          ((seekToFirstFill e).deref (.pinned j)).parsed_ikey.sequence =
            kMaxSequenceNumber)) ∧
    (e.SeekToLast fuel =
        finishSeek Direction.kReverse ((seekToLastFill e).FindPrevVisibleKey fuel) ∧
      (seekToLastFill e).active_ = [] ∧
      ∀ j, j < runs.length →
        (seekToLastFill e).rti j = (e.rti j).SeekToLast ∧
        (HeapItemPtr.pinned j ∈ (seekToLastFill e).heap_.data_ ↔
          (e.rti j).SeekToLast.Valid = true) ∧
        ((e.rti j).SeekToLast.Valid = true →
          ((seekToLastFill e).deref (.pinned j)).type = HeapItemType.DELETE_RANGE_END ∧
          ((seekToLastFill e).deref (.pinned j)).parsed_ikey.user_key =
            (e.rti j).SeekToLast.end_key.user_key ∧
          ((seekToLastFill e).deref (.pinned j)).parsed_ikey.sequence =
            kMaxSequenceNumber)) := by
  refine ⟨⟨seekToFirst_eq_fill e fuel, (seekToFirstFill_firstB hb).active, ?_⟩,
    ⟨seekToLast_eq_fill e fuel, (seekToLastFill_lastB hb).active, ?_⟩⟩
  · intro j hj
    have hB := seekToFirstFill_firstB hb
    have ht1 := hB.base.rti_tombs j hj
    have ht0 := hb.rti_tombs j hj
    have hidx := hB.tidx j hj
    have hpos := hB.base.rti_pos j
    have hlink : (seekToFirstFill e).rti j = (e.rti j).SeekToFirst := by
      apply rti_ext
      · rw [ht1]
        unfold TruncatedRangeDelIterator.SeekToFirst TruncatedRangeDelIterator.place
        split <;> exact ht0.symm
      · unfold tombIdx at hidx
        rw [ht1] at hidx
        unfold TruncatedRangeDelIterator.SeekToFirst TruncatedRangeDelIterator.place
        rw [ht0]
        cases hp : ((seekToFirstFill e).rti j).pos with
        | none =>
          rw [hp] at hidx
          simp only [Option.getD_none] at hidx
          rw [hidx]; simp
        | some i =>
          rw [hp] at hidx
          simp only [Option.getD_some] at hidx
          have := hpos i hj hp
          subst hidx
          simp [this]
    refine ⟨hlink, ?_, ?_⟩
    · rw [hB.heap.mem_pinned j, hlink]
      exact ⟨fun h => h.2, fun h => ⟨hj, h⟩⟩
    · intro hv
      rw [← hlink] at hv ⊢
      have hna : ¬ ((seekToFirstFill e).deref (.pinned j)).type =
          HeapItemType.DELETE_RANGE_END := by
        intro hty
        have := (hB.tomb.active_iff j).mpr ⟨hj, hv, hty⟩
        rw [hB.active] at this
        simp at this
      rcases hB.tomb.pinned_key j hj hv with h | h
      · exact h
      · exact absurd h.1 hna
  · intro j hj
    have hB := seekToLastFill_lastB hb
    have ht1 := hB.base.rti_tombs j hj
    have ht0 := hb.rti_tombs j hj
    have hidx := hB.tidx j hj
    have hpos := hB.base.rti_pos j
    have hlink : (seekToLastFill e).rti j = (e.rti j).SeekToLast := by
      apply rti_ext
      · rw [ht1]
        unfold TruncatedRangeDelIterator.SeekToLast TruncatedRangeDelIterator.place
        split
        · exact ht0.symm
        · split <;> exact ht0.symm
      · unfold tombCnt at hidx
        unfold TruncatedRangeDelIterator.SeekToLast TruncatedRangeDelIterator.place
        rw [ht0]
        cases hp : ((seekToLastFill e).rti j).pos with
        | none =>
          rw [hp] at hidx
          simp only [] at hidx
          rw [← hidx]; simp
        | some i =>
          rw [hp] at hidx
          simp only [] at hidx
          have h0 : ¬ (tombsAt tombs j).length = 0 := by omega
          have h1 : (tombsAt tombs j).length - 1 < (tombsAt tombs j).length := by omega
          simp only [h0, h1, ↓reduceIte]
          congr 1
          omega
    refine ⟨hlink, ?_, ?_⟩
    · rw [hB.heap.mem_pinned j, hlink]
      exact ⟨fun h => h.2, fun h => ⟨hj, h⟩⟩
    · intro hv
      rw [← hlink] at hv ⊢
      have hna : ¬ ((seekToLastFill e).deref (.pinned j)).type =
          HeapItemType.DELETE_RANGE_START := by
        intro hty
        have := (hB.tomb.active_iff j).mpr ⟨hj, hv, hty⟩
        rw [hB.active] at this
        simp at this
      rcases hB.tomb.pinned_key j hj hv with h | h
      · exact absurd h.1 hna
      · exact h

theorem seek_to_first_inserts_near_endpoints_witness :
    Base [[⟨6, 5, 1⟩], [⟨2, 3, 1⟩, ⟨4, 3, 1⟩, ⟨7, 3, 1⟩]] [some [mkTombstone 3 5 9], none]
      tombstoneOnFirstRun ∧
    (tombstoneOnFirstRun.rti 0).SeekToFirst.Valid = true ∧
    (tombstoneOnFirstRun.rti 0).SeekToLast.Valid = true ∧
    ((seekToFirstFill tombstoneOnFirstRun).rti 0 = (tombstoneOnFirstRun.rti 0).SeekToFirst ∧
      (HeapItemPtr.pinned 0 ∈ (seekToFirstFill tombstoneOnFirstRun).heap_.data_ ↔
        (tombstoneOnFirstRun.rti 0).SeekToFirst.Valid = true) ∧
      ((tombstoneOnFirstRun.rti 0).SeekToFirst.Valid = true →
        ((seekToFirstFill tombstoneOnFirstRun).deref (.pinned 0)).type =
          HeapItemType.DELETE_RANGE_START ∧
        ((seekToFirstFill tombstoneOnFirstRun).deref (.pinned 0)).parsed_ikey.user_key =
          (tombstoneOnFirstRun.rti 0).SeekToFirst.start_key.user_key ∧
        ((seekToFirstFill tombstoneOnFirstRun).deref (.pinned 0)).parsed_ikey.sequence =
          kMaxSequenceNumber)) ∧
    ((seekToLastFill tombstoneOnFirstRun).rti 0 = (tombstoneOnFirstRun.rti 0).SeekToLast ∧
      (HeapItemPtr.pinned 0 ∈ (seekToLastFill tombstoneOnFirstRun).heap_.data_ ↔
        (tombstoneOnFirstRun.rti 0).SeekToLast.Valid = true) ∧
      ((tombstoneOnFirstRun.rti 0).SeekToLast.Valid = true →
        ((seekToLastFill tombstoneOnFirstRun).deref (.pinned 0)).type =
          HeapItemType.DELETE_RANGE_END ∧
        ((seekToLastFill tombstoneOnFirstRun).deref (.pinned 0)).parsed_ikey.user_key =
          (tombstoneOnFirstRun.rti 0).SeekToLast.end_key.user_key ∧
        ((seekToLastFill tombstoneOnFirstRun).deref (.pinned 0)).parsed_ikey.sequence =
          kMaxSequenceNumber)) :=
  ⟨build_base _ _ (inputWF_of_wellFormed (by decide)), by decide, by decide,
    (seek_to_first_inserts_near_endpoints
      [[⟨6, 5, 1⟩], [⟨2, 3, 1⟩, ⟨4, 3, 1⟩, ⟨7, 3, 1⟩]] [some [mkTombstone 3 5 9], none]
      tombstoneOnFirstRun (build_base _ _ (inputWF_of_wellFormed (by decide))) 8).1.2.2 0
      (by decide),
    (seek_to_first_inserts_near_endpoints
      [[⟨6, 5, 1⟩], [⟨2, 3, 1⟩, ⟨4, 3, 1⟩, ⟨7, 3, 1⟩]] [some [mkTombstone 3 5 9], none]
      tombstoneOnFirstRun (build_base _ _ (inputWF_of_wellFormed (by decide))) 8).2.2.2 0
      (by decide)⟩

end MergingIterator

/-! ## Part XXII. Termination of the visibility loops -/

namespace MergingIterator

open InternalKeyComparator BinaryHeap

variable {UK : Type} [LinearOrder UK] [Inhabited UK]

theorem popStart_getD {runs : List (List (ParsedInternalKey UK))}
    {tombs : List (Option (List (RangeTombstone UK)))} {e : MergingIterator UK}
    (hf : FwdT runs tombs e) :
    FwdT runs tombs (e.PopDeleteRangeStart.getD default) ∧
      ∀ t, (e.PopDeleteRangeStart.getD default).heap_.top = some t →
        ((e.PopDeleteRangeStart.getD default).deref t).type ≠
          HeapItemType.DELETE_RANGE_START := by
  obtain ⟨e', h1, h2, h3, _⟩ := popStart_spec hf
  rw [h1]
  exact ⟨h2, h3⟩

theorem popEnd_getD {runs : List (List (ParsedInternalKey UK))}
    {tombs : List (Option (List (RangeTombstone UK)))} {e : MergingIterator UK}
    (hf : BwdT runs tombs e) :
    BwdT runs tombs (e.PopDeleteRangeEnd.getD default) ∧
      ∀ t, (e.PopDeleteRangeEnd.getD default).heap_.top = some t →
        ((e.PopDeleteRangeEnd.getD default).deref t).type ≠
          HeapItemType.DELETE_RANGE_END := by
  obtain ⟨e', h1, h2, h3, _⟩ := popEnd_spec hf
  rw [h1]
  exact ⟨h2, h3⟩

/-- The slow path of the forward visibility loop returns with enough fuel. -/
theorem slowPath_returns {runs : List (List (ParsedInternalKey UK))}
    {tombs : List (Option (List (RangeTombstone UK)))} {e : MergingIterator UK}
    (hf : FwdT runs tombs e) (fuel : Nat) (hfuel : rankBound runs tombs runs.length ≤ fuel) :
    ∃ e', e.FindNextVisibleKeySlowPath fuel = some e' ∧ FwdT runs tombs e' ∧
      TopVisible tombs e' := by
  unfold FindNextVisibleKeySlowPath
  obtain ⟨e1, h1, h2, h3, h4, h5, h6⟩ := popStart_spec hf
  rw [h1]
  simp only []
  obtain ⟨e2, g1, g2, g3, _⟩ := findNext_loop fuel e1 h2 h3 (by omega)
  exact ⟨e2, g1, g2, g3⟩

theorem slowPathR_returns {runs : List (List (ParsedInternalKey UK))}
    {tombs : List (Option (List (RangeTombstone UK)))} {e : MergingIterator UK}
    (hf : BwdT runs tombs e) (fuel : Nat) (hfuel : rankBound runs tombs runs.length ≤ fuel) :
    ∃ e', e.FindPrevVisibleKeySlowPath fuel = some e' ∧ BwdT runs tombs e' ∧
      TopVisible tombs e' := by
  unfold FindPrevVisibleKeySlowPath
  obtain ⟨e1, h1, h2, h3, h4, h5, h6⟩ := popEnd_spec hf
  rw [h1]
  simp only []
  have hrk := rankR_lt_bound h2.struct.base
  obtain ⟨e2, g1, g2, g3, _⟩ := findPrev_loop fuel e1 h2 h3 (by omega)
  exact ⟨e2, g1, g2, g3⟩

/-- C36. For sorted runs with per-run tombstone lists, in every state `e` of a forward scan and
every state `r` of a backward scan: `FindNextVisibleKeySlowPath` on `e` and
`FindPrevVisibleKeySlowPath` on `r` return once the fuel reaches a bound that depends on the
runs and the tombstone lists only. Every iteration of the forward loop in which
`SkipNextDeleted` (with the re-seeks of `SeekImpl` inside it) reports a deletion leaves all
levels below some level `l` as they were and, at level `l`, moves the child strictly forward or
leaves it in place and pops or advances the endpoint of the tombstone iterator; the rank, which
stays below the bound, grows strictly, also over the `PopDeleteRangeStart` that ends the
iteration. The backward loop is the mirror image, with a rank that falls. -/
theorem visibility_loops_terminate (runs : List (List (ParsedInternalKey UK)))
    (tombs : List (Option (List (RangeTombstone UK)))) (e r : MergingIterator UK)
    (hf : FwdT runs tombs e) (hr : BwdT runs tombs r) :
    ((∀ fuel, rankBound runs tombs runs.length ≤ fuel →
        ∃ e', e.FindNextVisibleKeySlowPath fuel = some e' ∧ TopVisible tombs e') ∧
      (∀ t, e.heap_.top = some t → (e.deref t).type ≠ HeapItemType.DELETE_RANGE_START →
        e.SkipNextDeleted.2 = true →
        (∃ l, l < runs.length ∧
          (∀ l', l' < l → childIdx runs e.SkipNextDeleted.1 l' = childIdx runs e l' ∧
            tau e.SkipNextDeleted.1 l' = tau e l') ∧
          (childIdx runs e l < childIdx runs e.SkipNextDeleted.1 l ∨
            (childIdx runs e.SkipNextDeleted.1 l = childIdx runs e l ∧
              tau e l < tau e.SkipNextDeleted.1 l))) ∧
        rank runs tombs e < rank runs tombs e.SkipNextDeleted.1 ∧
        ∃ e2, e.SkipNextDeleted.1.PopDeleteRangeStart = some e2 ∧ FwdT runs tombs e2 ∧
          (∀ t, e2.heap_.top = some t →
            (e2.deref t).type ≠ HeapItemType.DELETE_RANGE_START) ∧
          rank runs tombs e < rank runs tombs e2 ∧
          rank runs tombs e2 < rankBound runs tombs runs.length)) ∧
    ((∀ fuel, rankBound runs tombs runs.length ≤ fuel →
        ∃ r', r.FindPrevVisibleKeySlowPath fuel = some r' ∧ TopVisible tombs r') ∧
      (∀ t, r.heap_.top = some t → (r.deref t).type ≠ HeapItemType.DELETE_RANGE_END →
        r.SkipPrevDeleted.2 = true →
        (∃ l, l < runs.length ∧
          (∀ l', l' < l → childCnt r.SkipPrevDeleted.1 l' = childCnt r l' ∧
            tauR r.SkipPrevDeleted.1 l' = tauR r l') ∧
          (childCnt r.SkipPrevDeleted.1 l < childCnt r l ∨
            (childCnt r.SkipPrevDeleted.1 l = childCnt r l ∧
              tauR r.SkipPrevDeleted.1 l < tauR r l))) ∧
        rankR runs tombs r.SkipPrevDeleted.1 < rankR runs tombs r ∧
        ∃ r2, r.SkipPrevDeleted.1.PopDeleteRangeEnd = some r2 ∧ BwdT runs tombs r2 ∧
          (∀ t, r2.heap_.top = some t →
            (r2.deref t).type ≠ HeapItemType.DELETE_RANGE_END) ∧
          rankR runs tombs r2 < rankR runs tombs r ∧
          rankR runs tombs r < rankBound runs tombs runs.length)) := by
  refine ⟨⟨?_, ?_⟩, ⟨?_, ?_⟩⟩
  · intro fuel hfuel
    obtain ⟨e', h1, _, h3⟩ := slowPath_returns hf fuel hfuel
    exact ⟨e', h1, h3⟩
  · intro t ht hns hdel
    rcases skip_spec hf ht hns with ⟨_, h2, h3, _, _⟩ | ⟨h1, _⟩
    · have hrk := rank_lt_of_lexLt hf.struct.base h2.struct.base h3
      obtain ⟨e2, g1, g2, g3, _, g5, _⟩ := popStart_spec h2
      exact ⟨h3, hrk, e2, g1, g2, g3, by omega, rank_lt_bound g2.struct.base⟩
    · rw [h1] at hdel
      exact absurd hdel (by simp)
  · intro fuel hfuel
    obtain ⟨e', h1, _, h3⟩ := slowPathR_returns hr fuel hfuel
    exact ⟨e', h1, h3⟩
  · intro t ht hns hdel
    rcases skip_specR hr ht hns with ⟨_, h2, h3, _, _⟩ | ⟨h1, _⟩
    · have hrk := rankR_lt_of_lexLtR h2.struct.base h3
      obtain ⟨e2, g1, g2, g3, _, g5, _⟩ := popEnd_spec h2
      exact ⟨h3, hrk, e2, g1, g2, g3, by omega, rankR_lt_bound hr.struct.base⟩
    · rw [h1] at hdel
      exact absurd hdel (by simp)

theorem visibility_loops_terminate_witness :
    FwdT [[⟨4, 3, 1⟩]] [some [mkTombstone 3 5 9]] forwardAtCovered ∧
    BwdT [[⟨4, 3, 1⟩]] [some [mkTombstone 3 5 9]] backwardAtCovered ∧
    forwardAtCovered.heap_.top = some (.child 0) ∧
    forwardAtCovered.SkipNextDeleted.2 = true ∧
    backwardAtCovered.heap_.top = some (.child 0) ∧
    backwardAtCovered.SkipPrevDeleted.2 = true ∧
    (∃ e', forwardAtCovered.FindNextVisibleKeySlowPath 6 = some e' ∧
      TopVisible [some [mkTombstone 3 5 9]] e') ∧
    rank [[⟨4, 3, 1⟩]] [some [mkTombstone 3 5 9]] forwardAtCovered <
      rank [[⟨4, 3, 1⟩]] [some [mkTombstone 3 5 9]] forwardAtCovered.SkipNextDeleted.1 ∧
    (∃ r', backwardAtCovered.FindPrevVisibleKeySlowPath 6 = some r' ∧
      TopVisible [some [mkTombstone 3 5 9]] r') ∧
    rankR [[⟨4, 3, 1⟩]] [some [mkTombstone 3 5 9]] backwardAtCovered.SkipPrevDeleted.1 <
      rankR [[⟨4, 3, 1⟩]] [some [mkTombstone 3 5 9]] backwardAtCovered :=
  ⟨(popStart_getD (seekToFirstFill_fwd (build_base _ _ (inputWF_of_wellFormed (by decide))))).1,
    (popEnd_getD (seekToLastFill_bwd (build_base _ _ (inputWF_of_wellFormed (by decide))))).1,
    by decide, by decide, by decide, by decide,
    (visibility_loops_terminate [[⟨4, 3, 1⟩]] [some [mkTombstone 3 5 9]]
      forwardAtCovered backwardAtCovered
      (popStart_getD (seekToFirstFill_fwd
        (build_base _ _ (inputWF_of_wellFormed (by decide))))).1
      (popEnd_getD (seekToLastFill_bwd
        (build_base _ _ (inputWF_of_wellFormed (by decide))))).1).1.1 6 (by decide),
    ((visibility_loops_terminate [[⟨4, 3, 1⟩]] [some [mkTombstone 3 5 9]]
      forwardAtCovered backwardAtCovered
      (popStart_getD (seekToFirstFill_fwd
        (build_base _ _ (inputWF_of_wellFormed (by decide))))).1
      (popEnd_getD (seekToLastFill_bwd
        (build_base _ _ (inputWF_of_wellFormed (by decide))))).1).1.2 (.child 0)
        (by decide) (by decide) (by decide)).2.1,
    (visibility_loops_terminate [[⟨4, 3, 1⟩]] [some [mkTombstone 3 5 9]]
      forwardAtCovered backwardAtCovered
      (popStart_getD (seekToFirstFill_fwd
        (build_base _ _ (inputWF_of_wellFormed (by decide))))).1
      (popEnd_getD (seekToLastFill_bwd
        (build_base _ _ (inputWF_of_wellFormed (by decide))))).1).2.1 6 (by decide),
    ((visibility_loops_terminate [[⟨4, 3, 1⟩]] [some [mkTombstone 3 5 9]]
      forwardAtCovered backwardAtCovered
      (popStart_getD (seekToFirstFill_fwd
        (build_base _ _ (inputWF_of_wellFormed (by decide))))).1
      (popEnd_getD (seekToLastFill_bwd
        (build_base _ _ (inputWF_of_wellFormed (by decide))))).1).2.2 (.child 0)
        (by decide) (by decide) (by decide)).2.1⟩

end MergingIterator

/-! ## Part XXIII. `Seek` and `SeekForPrev` called in any state -/

namespace MergingIterator

open InternalKeyComparator BinaryHeap

variable {UK : Type} [LinearOrder UK] [Inhabited UK]

theorem tombPart_zero {e : MergingIterator UK} {s : Nat} (hs0 : s = 0)
    (ha : e.active_ = []) : TombPart s e :=
  { pinned_key := fun j hj => by omega
    active_iff := fun j => by
      rw [ha]
      constructor
      · intro h; simp at h
      · intro h; omega
    active_sorted := by rw [ha]; exact List.Pairwise.nil }

theorem tombPartR_zero {e : MergingIterator UK} {s : Nat} (hs0 : s = 0)
    (ha : e.active_ = []) : TombPartR s e :=
  { pinned_key := fun j hj => by omega
    active_iff := fun j => by
      rw [ha]
      constructor
      · intro h; simp at h
      · intro h; omega
    active_sorted := by rw [ha]; exact List.Pairwise.nil }

/-- The effect of `SeekImpl(target, 0)` in any state of an engine over `runs` and `tombs`:
with the starting level 0 nothing of the heap and of the active set is kept. -/
theorem seekImpl_spec_base {runs : List (List (ParsedInternalKey UK))}
    {tombs : List (Option (List (RangeTombstone UK)))} {e : MergingIterator UK}
    (hb : Base runs tombs e) {s : Nat} (hsn : s < runs.length) (hs0 : s = 0)
    (target B : ParsedInternalKey UK)
    (hpt : ∀ j L, j ≤ L → L < s → cvalid e L = true →
      ∀ t ∈ (tombsAt tombs j).take (tombIdx e j), t.end_key.user_key ≤ (ckey e L).user_key)
    (has : ∀ j L, j ≤ L → L < s → cvalid e L = true → j ∈ e.active_ →
      (e.rti j).start_key.user_key ≤ (ckey e L).user_key)
    (hT1 : ∀ j, j < s → ∀ t ∈ (tombsAt tombs j).take (tombIdx e j),
      t.end_key.user_key ≤ target.user_key)
    (hT2 : ∀ j, j < s → j ∈ e.active_ → (e.rti j).start_key.user_key ≤ target.user_key)
    (hB1 : keyLe B target)
    (hB1' : ∀ a : UK, keyLt target ⟨a, kMaxSequenceNumber, kTypeRangeDeletion⟩ →
      keyLe B ⟨a, kMaxSequenceNumber, kTypeMaxValid⟩)
    (hB2 : ∀ L, L < s → cvalid e L = true → keyLe B (ckey e L))
    (hB3 : ∀ j, j < s → (e.rti j).Valid = true → keyLe B (hkey e (.pinned j)))
    (hB5 : ∀ l r, s ≤ l → l < runs.length → r ∈ runAt runs l → keyLe B r → keyLt r target →
      suppressed tombs l r) :
    Struct runs tombs (e.SeekImpl target s) ∧
      PassedTombs runs tombs (e.SeekImpl target s) ∧
      ActiveStarted runs (e.SeekImpl target s) ∧
      LowerBound B (e.SeekImpl target s) ∧
      (∀ l, l < s → (e.SeekImpl target s).deref (.child l) = e.deref (.child l)) ∧
      (∀ j, j < s → (e.SeekImpl target s).rti j = e.rti j) ∧
      (∀ j, j < s → (e.SeekImpl target s).deref (.pinned j) = e.deref (.pinned j)) ∧
      (∀ l idx r, s ≤ l → l < runs.length → idx < childIdx runs (e.SeekImpl target s) l →
        (runAt runs l)[idx]? = some r → keyLe B r → suppressed tombs l r) ∧
      (∀ l idx r, s ≤ l → l < runs.length → childIdx runs (e.SeekImpl target s) l ≤ idx →
        (runAt runs l)[idx]? = some r → keyLe target r) ∧
      childIdx runs (e.SeekImpl target s) s =
        ((runAt runs s).takeWhile (fun k => Compare k target == .lt)).length := by
  have hne : e.range_tombstone_iters_.isEmpty = false := by
    cases hl : e.range_tombstone_iters_ with
    | nil =>
      have := hb.rti_len
      rw [hl] at this
      simp at this
      omega
    | cons a t => rfl
  have h1 := refill_children (B := B) hb s (by omega) hB2 s (le_refl s)
  obtain ⟨e1, he1⟩ : ∃ e1, e1 = (List.range s).foldl
      (fun (e : MergingIterator UK) level => e.AddToMinHeapOrCheckStatus (.child level))
      (e.ClearHeaps false) := ⟨_, rfl⟩
  rw [← he1] at h1
  have h2 : RefillInv runs B e s s ((List.range s).foldl
      (fun (e : MergingIterator UK) level =>
        if (e.range_tombstone_iters_[level]?.getD none).isSome && (e.rti level).Valid then
          if e.active_.contains level then e.minPush (.pinned level)
          else e.InsertRangeTombstoneToMinHeap level true false
        else e) e1) := by
    subst hs0
    simpa using h1
  obtain ⟨e1a, he1a⟩ : ∃ e1a, e1a = (List.range s).foldl
      (fun (e : MergingIterator UK) level =>
        if (e.range_tombstone_iters_[level]?.getD none).isSome && (e.rti level).Valid then
          if e.active_.contains level then e.minPush (.pinned level)
          else e.InsertRangeTombstoneToMinHeap level true false
        else e) e1 := ⟨_, rfl⟩
  rw [← he1a] at h2
  have hne1 : e1.range_tombstone_iters_.isEmpty = false := by rw [h1.rtis]; exact hne
  obtain ⟨af, haf⟩ : ∃ af, af = e1a.active_.filter (fun l => l < s) := ⟨_, rfl⟩
  obtain ⟨e3, he3⟩ : ∃ e3 : MergingIterator UK,
      e3 = { e1a with active_ := af, status_ := Status.OK } := ⟨_, rfl⟩
  have hd3 : ∀ p, e3.deref p = e.deref p := by
    intro p
    rw [he3]
    exact deref_eq_of_items e _ h2.children h2.pinned p
  have hr3 : ∀ j, e3.rti j = e.rti j := by
    intro j
    rw [he3]
    exact rti_eq_of_iters e _ h2.rtis j
  have hact3 : e3.active_ = e.active_.filter (fun l => l < s) := by
    rw [he3]
    show af = _
    rw [haf, h2.active]
  have hheap3 : e3.heap_ = e1a.heap_ := by rw [he3]
  have hbase3 : Base runs tombs e3 := by
    rw [he3]
    exact base_of_eq hb h2.children h2.rtis h2.pinned rfl h2.upper
  have hinv0 : SeekInv runs tombs e B target s s { e := e3, current_search_key := target } :=
    { base := hbase3
      tomb := tombPart_zero hs0 (by rw [hact3, hs0]; simp)
      heap := heapPart_frame_level h2.heap hheap3
        (fun l _ => by rw [hd3]; exact (deref_eq_of_items e _ h2.children h2.pinned _).symm)
        (fun l _ => by rw [hd3]; exact (deref_eq_of_items e _ h2.children h2.pinned _).symm)
        (fun j _ => by rw [hr3]; exact (rti_eq_of_iters e _ h2.rtis j).symm)
      bound := lowerBound_frame h2.bound hheap3
        (fun p _ => by rw [hd3]; exact (deref_eq_of_items e _ h2.children h2.pinned _).symm)
      no_prefetch := rfl
      child_low := fun l _ => hd3 _
      rti_low := fun j _ => hr3 j
      pinned_low := fun j _ => hd3 _
      target_le := keyLe_refl _
      csk_init := fun _ => rfl
      pt := fun j L hjL hL hv t ht => by
        rw [cvalid_congr (hd3 _)] at hv
        rw [tombIdx_congr (hr3 j)] at ht
        rw [ckey_congr (hd3 _)]
        exact hpt j L hjL hL hv t ht
      pt' := fun j hj t ht => by
        rw [tombIdx_congr (hr3 j)] at ht
        exact hT1 j hj t ht
      as := fun j L hjL hL hv hact => by
        rw [cvalid_congr (hd3 _)] at hv
        rw [hact3, List.mem_filter] at hact
        rw [ckey_congr (hd3 _), hr3]
        exact has j L hjL hL hv hact.1
      as' := fun j hj hact => by
        rw [hact3, List.mem_filter] at hact
        rw [hr3]
        exact hT2 j hj hact.1
      sp := fun l idx r h1 h2 => by omega
      rt := fun l idx r h1 h2 => by omega
      cc := fun l r h1 h2 h3 h4 h5 => hB5 l r h1 h2 h3 h4 h5
      first := fun h => by omega }
  have hfin := seek_loop hB1 hB1' (runs.length - s) s _ (by omega) (le_refl s) hinv0
  have hres : e.SeekImpl target s =
      ((List.range' s (runs.length - s)).foldl (SeekImplStep target)
        { e := e3, current_search_key := target }).e := by
    unfold SeekImpl
    simp only []
    rw [← he1]
    simp only [hne1, Bool.not_false, ↓reduceIte]
    rw [← he1a, ← haf, ← he3]
    have hlen : e1a.children_.length = runs.length := by
      rw [h2.children]; exact hb.children_len
    rw [hlen]
    have hne3 : (((List.range' s (runs.length - s)).foldl (SeekImplStep target)
        { e := e3, current_search_key := target }).e).range_tombstone_iters_.isEmpty = false := by
      cases hl : (((List.range' s (runs.length - s)).foldl (SeekImplStep target)
        { e := e3, current_search_key := target }).e).range_tombstone_iters_ with
      | nil =>
        have := hfin.base.rti_len
        rw [hl] at this
        simp at this
        omega
      | cons a t => rfl
    simp only [hne3, Bool.false_eq_true, ↓reduceIte, hfin.no_prefetch, List.foldl_nil]
  rw [hres]
  obtain ⟨stf, hstf⟩ : ∃ stf, stf = (List.range' s (runs.length - s)).foldl
      (SeekImplStep target) { e := e3, current_search_key := target } := ⟨_, rfl⟩
  rw [← hstf] at hfin ⊢
  refine ⟨⟨hfin.base, hfin.tomb, hfin.heap⟩, ?_, ?_, hfin.bound, hfin.child_low, hfin.rti_low,
    hfin.pinned_low, hfin.sp, hfin.rt, hfin.first hsn⟩
  · intro j L hjL hL hv t ht
    exact hfin.pt j L hjL hL hv t ht
  · intro j L hjL hL hv hact
    exact hfin.as j L hjL hL hv hact

theorem seekImpl_fwd_base {runs : List (List (ParsedInternalKey UK))}
    {tombs : List (Option (List (RangeTombstone UK)))} {e : MergingIterator UK}
    (hb : Base runs tombs e) (hal : ∀ j ∈ e.active_, j < runs.length)
    (target : ParsedInternalKey UK) :
    FwdT runs tombs (e.SeekImpl target 0) ∧
      visRem runs tombs (e.SeekImpl target 0) =
        (visibleRecords runs tombs).filter (fun k => Compare k target != Ordering.lt) := by
  by_cases hn : runs.length = 0
  · rw [seekImpl_no_levels hb hn target]
    have hbase : Base runs tombs { e.ClearHeaps false with status_ := Status.OK } :=
      base_of_eq hb rfl rfl rfl rfl hb.no_upper_bound
    have hact : e.active_ = [] := by
      cases ha : e.active_ with
      | nil => rfl
      | cons a t =>
        have := hal a (by rw [ha]; exact List.mem_cons_self _ _)
        omega
    refine ⟨⟨⟨hbase, ?_, ?_⟩, ?_, ?_, target, ?_, ?_⟩, ?_⟩
    · refine ⟨fun j hj => by omega, fun j => ?_, ?_⟩
      · show j ∈ e.active_ ↔ _
        rw [hact]
        constructor
        · intro h; simp at h
        · intro h; omega
      · show e.active_.Pairwise _
        rw [hact]; exact List.Pairwise.nil
    · apply heapPart_of_mem
      · simp [ClearHeaps, BinaryHeap.clear]
      · intro p
        cases p <;> simp [InHeapSpec, ClearHeaps, BinaryHeap.clear, hn]
      · exact heapInv_clear _ e.heap_
    · intro j L hjL hL; omega
    · intro j L hjL hL; omega
    · intro p hp
      simp [ClearHeaps, BinaryHeap.clear] at hp
    · intro l idx r hl; omega
    · unfold visRem visibleRecords
      rw [hn]
      rfl
  · have hsn : 0 < runs.length := by omega
    obtain ⟨B, hB1, hB2, hB3⟩ := seekBound_exists target
    obtain ⟨h1, h2, h3, h4, -, -, -, h5, h6, -⟩ := seekImpl_spec_base hb hsn rfl target B
      (fun j L _ hL => by omega) (fun j L _ hL => by omega) (fun j hj => by omega)
      (fun j hj => by omega) hB1 hB2
      (fun L hL => by omega) (fun j hj => by omega)
      (fun l r _ hl hr g1 g2 => by
        exfalso
        have hrun : runAt runs l ∈ runs := by
          unfold runAt
          rw [List.getElem?_eq_getElem hl]
          exact List.getElem_mem _
        exact hB3 r (hb.wf.seq_lt _ hrun r hr) g1 g2)
    refine ⟨⟨h1, h2, h3, B, h4, ?_⟩, ?_⟩
    · intro l idx r hl hidx hr hlt
      exact h5 l idx r (Nat.zero_le _) hl hidx hr (keyLe_of_keyLt hlt)
    · unfold visRem visibleRecords
      rw [filter_flatMap]
      apply List.flatMap_congr
      intro l hl
      have hl' := List.mem_range.mp hl
      unfold visibleOf
      symm
      apply filter_take_drop
      · intro x hx
        obtain ⟨idx, hidx⟩ := List.mem_iff_getElem?.mp hx
        have hlt : idx < childIdx runs (e.SeekImpl target 0) l := by
          by_contra hcon
          rw [List.getElem?_take_eq_none (by omega)] at hidx
          simp at hidx
        rw [List.getElem?_take_of_lt hlt] at hidx
        by_cases hge : keyLe target x
        · have hsup := h5 l idx x (Nat.zero_le _) hl' hlt hidx
            (keyLe_trans hB1 hge)
          simp [hsup]
        · have hlt2 : keyLt x target := not_keyLe_iff.mp hge
          have : Compare x target = .lt := (compare_lt_iff _ _).mpr hlt2
          have hb : (Compare x target != Ordering.lt) = false := by rw [this]; rfl
          rw [hb, Bool.and_false]
      · intro x hx
        obtain ⟨idx, hidx⟩ := List.mem_iff_getElem?.mp hx
        rw [List.getElem?_drop] at hidx
        have hge := h6 l _ x (Nat.zero_le _) hl' (Nat.le_add_right _ idx) hidx
        have hnlt : ¬ keyLt x target := not_keyLt_iff.mpr hge
        have : Compare x target ≠ .lt := fun hc => hnlt ((compare_lt_iff _ _).mp hc)
        exact (ordering_bne_iff _ _).mpr this

/-- The method `Seek(target)`, called in any state of an engine over `runs` and `tombs`,
reaches a state of a forward scan in which the visible records at or after the target are
still to come. -/
theorem seek_spec_base {runs : List (List (ParsedInternalKey UK))}
    {tombs : List (Option (List (RangeTombstone UK)))} {e : MergingIterator UK}
    (hb : Base runs tombs e) (hal : ∀ j ∈ e.active_, j < runs.length) (fuel : Nat)
    (hfuel : rankBound runs tombs runs.length ≤ fuel) (target : ParsedInternalKey UK) :
    ∃ e1, e.Seek fuel target = some e1 ∧ ScanInv runs tombs e1 ∧
      visRem runs tombs e1 =
        (visibleRecords runs tombs).filter (fun k => Compare k target != Ordering.lt) := by
  obtain ⟨hf2, hvis2⟩ := seekImpl_fwd_base hb hal target
  obtain ⟨e3, g1, g2, g3, g4, g5⟩ := findNext_spec hf2 fuel hfuel
  have hseek : e.Seek fuel target = some ({ ({ e3 with direction_ := Direction.kForward } :
      MergingIterator UK) with current_ := e3.heap_.top }) := by
    unfold Seek
    rw [g1]
    rfl
  refine ⟨_, hseek, ?_, ?_⟩
  · refine ⟨⟨⟨base_of_eq g2.struct.base rfl rfl rfl g2.struct.base.status_ok
        g2.struct.base.no_upper_bound, tombPart_of_eq g2.struct.tomb (fun j => rfl)
        (fun j => rfl) rfl, heapPart_frame g2.struct.heap rfl (fun p _ => rfl)
        (fun q => by cases q <;> rfl)⟩, ?_, ?_, ?_⟩, ?_, rfl, rfl⟩
    · exact passedTombs_congr g2.passed_tombs (fun l => rfl) (fun j => rfl)
    · intro j L hjL hL hvL hact
      exact g2.active_started j L hjL hL hvL hact
    · obtain ⟨B', hB1, hB2⟩ := g2.bound
      exact ⟨B', fun p hp => hB1 p hp, passedRecords_congr hB2 (fun l => rfl)⟩
    · intro t' ht'
      exact g3 t' ht'
  · rw [← hvis2, ← g4]
    exact visRem_congr (fun l => rfl)

/-- The effect of `SeekForPrevImpl(target, 0)` in any state of an engine over `runs` and
`tombs`. -/
theorem seekForPrevImpl_spec_base {runs : List (List (ParsedInternalKey UK))}
    {tombs : List (Option (List (RangeTombstone UK)))} {e : MergingIterator UK}
    (hb : Base runs tombs e) {s : Nat} (hsn : s < runs.length) (hs0 : s = 0)
    (target B : ParsedInternalKey UK)
    (hpt : ∀ j L, j ≤ L → L < s → cvalid e L = true →
      ∀ t ∈ (tombsAt tombs j).drop (tombCnt e j), (ckey e L).user_key < t.start_key.user_key)
    (has : ∀ j L, j ≤ L → L < s → cvalid e L = true → j ∈ e.active_ →
      (ckey e L).user_key < (e.rti j).end_key.user_key)
    (hT1 : ∀ j, j < s → ∀ t ∈ (tombsAt tombs j).drop (tombCnt e j),
      target.user_key < t.start_key.user_key)
    (hT2 : ∀ j, j < s → j ∈ e.active_ → target.user_key < (e.rti j).end_key.user_key)
    (hB1 : keyLe target B)
    (hBs : ∀ a : UK, a ≤ target.user_key → keyLe ⟨a, kMaxSequenceNumber, kTypeMaxValid⟩ B)
    (hT : ∀ a : UK, keyLt target ⟨a, kMaxSequenceNumber, kTypeRangeDeletion⟩ →
      target.user_key < a)
    (hB2 : ∀ L, L < s → cvalid e L = true → keyLe (ckey e L) B)
    (hB3 : ∀ j, j < s → (e.rti j).Valid = true → keyLe (hkey e (.pinned j)) B)
    (hB5 : ∀ l r, s ≤ l → l < runs.length → r ∈ runAt runs l → keyLe r B → keyLt target r →
      suppressed tombs l r)
    (hPA : ∀ L idx r, L < s → childCnt e L ≤ idx → (runAt runs L)[idx]? = some r →
      keyLt target r)
    (hPAB : ∀ L L' idx r, L < L' → L' < s → cvalid e L' = true → childCnt e L ≤ idx →
      (runAt runs L)[idx]? = some r → keyLe (ckey e L') r) :
    StructR runs tombs (e.SeekForPrevImpl target s) ∧
      PassedTombsR runs tombs (e.SeekForPrevImpl target s) ∧
      ActiveEnded runs (e.SeekForPrevImpl target s) ∧
      PassedAbove runs (e.SeekForPrevImpl target s) ∧
      UpperBound B (e.SeekForPrevImpl target s) ∧
      (∀ l, l < s → (e.SeekForPrevImpl target s).deref (.child l) = e.deref (.child l)) ∧
      (∀ j, j < s → (e.SeekForPrevImpl target s).rti j = e.rti j) ∧
      (∀ j, j < s → (e.SeekForPrevImpl target s).deref (.pinned j) = e.deref (.pinned j)) ∧
      (∀ l idx r, s ≤ l → l < runs.length → childCnt (e.SeekForPrevImpl target s) l ≤ idx →
        (runAt runs l)[idx]? = some r → keyLe r B → suppressed tombs l r) ∧
      (∀ l idx r, s ≤ l → l < runs.length → idx < childCnt (e.SeekForPrevImpl target s) l →
        (runAt runs l)[idx]? = some r → keyLe r target) ∧
      (∀ j, s ≤ j → j < runs.length →
        ∀ t ∈ (tombsAt tombs j).take (tombCnt (e.SeekForPrevImpl target s) j),
          t.start_key.user_key ≤ target.user_key) ∧
      (∀ j, s ≤ j → j < runs.length → ((e.SeekForPrevImpl target s).rti j).Valid = true →
        (j ∈ (e.SeekForPrevImpl target s).active_ ↔
          keyLt target ((e.SeekForPrevImpl target s).rti j).end_key)) := by
  have hne : e.range_tombstone_iters_.isEmpty = false := by
    cases hl : e.range_tombstone_iters_ with
    | nil =>
      have := hb.rti_len
      rw [hl] at this
      simp at this
      omega
    | cons a t => rfl
  have h1 := refill_childrenR (B := B) hb s (by omega) hB2 s (le_refl s)
  obtain ⟨e1, he1⟩ : ∃ e1, e1 = (List.range s).foldl
      (fun (e : MergingIterator UK) level => e.AddToMaxHeapOrCheckStatus (.child level))
      (e.ClearHeaps false).InitMaxHeap := ⟨_, rfl⟩
  rw [← he1] at h1
  have h2 : RefillInvR runs B e s s ((List.range s).foldl
      (fun (e : MergingIterator UK) level =>
        if (e.range_tombstone_iters_[level]?.getD none).isSome && (e.rti level).Valid then
          e.maxPush (.pinned level)
        else e) e1) := by
    subst hs0
    simpa using h1
  obtain ⟨e1a, he1a⟩ : ∃ e1a, e1a = (List.range s).foldl
      (fun (e : MergingIterator UK) level =>
        if (e.range_tombstone_iters_[level]?.getD none).isSome && (e.rti level).Valid then
          e.maxPush (.pinned level)
        else e) e1 := ⟨_, rfl⟩
  rw [← he1a] at h2
  have hne1 : e1.range_tombstone_iters_.isEmpty = false := by rw [h1.rtis]; exact hne
  obtain ⟨af, haf⟩ : ∃ af, af = e1a.active_.filter (fun l => l < s) := ⟨_, rfl⟩
  obtain ⟨e3, he3⟩ : ∃ e3 : MergingIterator UK,
      e3 = { e1a with active_ := af, status_ := Status.OK } := ⟨_, rfl⟩
  have hd3 : ∀ p, e3.deref p = e.deref p := by
    intro p
    rw [he3]
    exact deref_eq_of_items e _ h2.children h2.pinned p
  have hr3 : ∀ j, e3.rti j = e.rti j := by
    intro j
    rw [he3]
    exact rti_eq_of_iters e _ h2.rtis j
  have hact3 : e3.active_ = e.active_.filter (fun l => l < s) := by
    rw [he3]
    show af = _
    rw [haf, h2.active]
  have hheap3 : e3.heap_ = e1a.heap_ := by rw [he3]
  have hbase3 : Base runs tombs e3 := by
    rw [he3]
    exact base_of_eq hb h2.children h2.rtis h2.pinned rfl h2.upper
  have hinv0 : SeekInvR runs tombs e B target s s { e := e3, current_search_key := target } :=
    { base := hbase3
      tomb := tombPartR_zero hs0 (by rw [hact3, hs0]; simp)
      heap := heapPartR_frame_level h2.heap hheap3
        (fun l _ => by rw [hd3]; exact (deref_eq_of_items e _ h2.children h2.pinned _).symm)
        (fun l _ => by rw [hd3]; exact (deref_eq_of_items e _ h2.children h2.pinned _).symm)
        (fun j _ => by rw [hr3]; exact (rti_eq_of_iters e _ h2.rtis j).symm)
      bound := upperBound_frame h2.bound hheap3
        (fun p _ => by rw [hd3]; exact (deref_eq_of_items e _ h2.children h2.pinned _).symm)
      no_prefetch := rfl
      child_low := fun l _ => hd3 _
      rti_low := fun j _ => hr3 j
      pinned_low := fun j _ => hd3 _
      csk_uk := le_refl _
      csk_rec := fun r _ h => h
      pt := fun j L hjL hL hv t ht => by
        rw [cvalid_congr (hd3 _)] at hv
        rw [tombCnt_congr (hr3 j)] at ht
        rw [ckey_congr (hd3 _)]
        exact hpt j L hjL hL hv t ht
      pt' := fun j hj t ht => by
        rw [tombCnt_congr (hr3 j)] at ht
        exact hT1 j hj t ht
      as := fun j L hjL hL hv hact => by
        rw [cvalid_congr (hd3 _)] at hv
        rw [hact3, List.mem_filter] at hact
        rw [ckey_congr (hd3 _), hr3]
        exact has j L hjL hL hv hact.1
      as' := fun j hj hact => by
        rw [hact3, List.mem_filter] at hact
        rw [hr3]
        exact hT2 j hj hact.1
      sp := fun l idx r h1 h2 => by omega
      rt := fun l idx r h1 h2 => by omega
      rtt := fun j h1 h2 => by omega
      act := fun j h1 h2 => by omega
      cc := fun l r h1 h2 h3 h4 h5 => hB5 l r h1 h2 h3 h4 h5
      pa := fun L idx r hL hidx hr => by
        rw [childCnt_congr (hd3 _)] at hidx
        exact hPA L idx r hL hidx hr
      pab := fun L L' idx r hLL hL' hv hidx hr => by
        rw [cvalid_congr (hd3 _)] at hv
        rw [childCnt_congr (hd3 _)] at hidx
        rw [ckey_congr (hd3 _)]
        exact hPAB L L' idx r hLL hL' hv hidx hr }
  have hfin := seek_loopR hB1 hBs hT (runs.length - s) s _ (by omega) (le_refl s) hinv0
  have hres : e.SeekForPrevImpl target s =
      ((List.range' s (runs.length - s)).foldl (SeekForPrevImplStep target)
        { e := e3, current_search_key := target }).e := by
    unfold SeekForPrevImpl
    simp only []
    rw [← he1]
    simp only [hne1, Bool.not_false, ↓reduceIte]
    rw [← he1a, ← haf, ← he3]
    have hlen : e1a.children_.length = runs.length := by
      rw [h2.children]; exact hb.children_len
    rw [hlen]
    have hne3 : (((List.range' s (runs.length - s)).foldl (SeekForPrevImplStep target)
        { e := e3, current_search_key := target }).e).range_tombstone_iters_.isEmpty = false := by
      cases hl : (((List.range' s (runs.length - s)).foldl (SeekForPrevImplStep target)
        { e := e3, current_search_key := target }).e).range_tombstone_iters_ with
      | nil =>
        have := hfin.base.rti_len
        rw [hl] at this
        simp at this
        omega
      | cons a t => rfl
    simp only [hne3, Bool.false_eq_true, ↓reduceIte, hfin.no_prefetch, List.foldl_nil]
  rw [hres]
  obtain ⟨stf, hstf⟩ : ∃ stf, stf = (List.range' s (runs.length - s)).foldl
      (SeekForPrevImplStep target) { e := e3, current_search_key := target } := ⟨_, rfl⟩
  rw [← hstf] at hfin ⊢
  refine ⟨⟨hfin.base, hfin.tomb, hfin.heap⟩, ?_, ?_, ?_, hfin.bound, hfin.child_low,
    hfin.rti_low, hfin.pinned_low, hfin.sp, hfin.rt, hfin.rtt, hfin.act⟩
  · intro j L hjL hL hv t ht
    exact hfin.pt j L hjL hL hv t ht
  · intro j L hjL hL hv hact
    exact hfin.as j L hjL hL hv hact
  · intro L L' idx r hLL hL' hv hidx hr
    exact hfin.pab L L' idx r hLL hL' hv hidx hr

theorem seekForPrevImpl_no_levels {runs : List (List (ParsedInternalKey UK))}
    {tombs : List (Option (List (RangeTombstone UK)))} {e : MergingIterator UK}
    (hb : Base runs tombs e) (hn : runs.length = 0) (target : ParsedInternalKey UK) :
    e.SeekForPrevImpl target 0 =
      { (e.ClearHeaps false).InitMaxHeap with status_ := Status.OK } := by
  have h1 : e.children_ = [] := List.eq_nil_of_length_eq_zero (by rw [hb.children_len, hn])
  have h2 : e.range_tombstone_iters_ = [] :=
    List.eq_nil_of_length_eq_zero (by rw [hb.rti_len, hn])
  unfold SeekForPrevImpl
  simp [ClearHeaps, InitMaxHeap, h1, h2]

theorem filter_drop_take {α : Type} (p q : α → Bool) (xs : List α) (n : Nat)
    (h1 : ∀ x ∈ xs.drop n, (p x && q x) = false)
    (h2 : ∀ x ∈ xs.take n, q x = true) :
    (xs.filter p).filter q = (xs.take n).filter p := by
  rw [List.filter_filter]
  conv_lhs => rw [← List.take_append_drop n xs]
  rw [List.filter_append]
  have e1 : (xs.drop n).filter (fun a => q a && p a) = [] := by
    rw [List.filter_eq_nil_iff]
    intro x hx
    have := h1 x hx
    rw [Bool.and_comm] at this
    simp [this]
  have e2 : (xs.take n).filter (fun a => q a && p a) = (xs.take n).filter p := by
    apply List.filter_congr
    intro x hx
    rw [h2 x hx, Bool.true_and]
  rw [e1, e2, List.append_nil]

theorem backwardTarget_lt (target : ParsedInternalKey UK) (h : BackwardTarget target) (a : UK)
    (hlt : keyLt target ⟨a, kMaxSequenceNumber, kTypeRangeDeletion⟩) : target.user_key < a := by
  rcases lt_or_eq_of_le (keyLt_user_key hlt) with h1 | h1
  · exact h1
  · exfalso
    have h1' : target.user_key = a := h1
    rw [← h1'] at hlt
    exact ((keyLe_iff _ _).mp h) hlt

theorem backwardTarget_bound (target : ParsedInternalKey UK) (h : BackwardTarget target)
    (a : UK) (ha : a ≤ target.user_key) :
    keyLe ⟨a, kMaxSequenceNumber, kTypeMaxValid⟩ target := by
  rcases lt_or_eq_of_le ha with h1 | h1
  · exact keyLe_of_keyLt (Or.inl h1)
  · subst h1
    refine keyLe_trans ?_ h
    apply keyLe_of_keyLt
    refine Or.inr ⟨rfl, Or.inr ⟨rfl, ?_⟩⟩
    show kTypeRangeDeletion < kTypeMaxValid
    decide

theorem seekForPrevImpl_bwd_base {runs : List (List (ParsedInternalKey UK))}
    {tombs : List (Option (List (RangeTombstone UK)))} {e : MergingIterator UK}
    (hb : Base runs tombs e) (hal : ∀ j ∈ e.active_, j < runs.length)
    (target : ParsedInternalKey UK) (htg : BackwardTarget target) :
    BwdT runs tombs (e.SeekForPrevImpl target 0) ∧
      visRemR runs tombs (e.SeekForPrevImpl target 0) =
        (visibleRecords runs tombs).filter (fun k => Compare k target != Ordering.gt) := by
  by_cases hn : runs.length = 0
  · rw [seekForPrevImpl_no_levels hb hn target]
    have hbase : Base runs tombs
        { (e.ClearHeaps false).InitMaxHeap with status_ := Status.OK } :=
      base_of_eq hb rfl rfl rfl rfl hb.no_upper_bound
    have hact : e.active_ = [] := by
      cases ha : e.active_ with
      | nil => rfl
      | cons a t =>
        have := hal a (by rw [ha]; exact List.mem_cons_self _ _)
        omega
    refine ⟨⟨⟨hbase, ?_, ?_⟩, ?_, ?_, ?_, target, ?_, ?_⟩, ?_⟩
    · refine ⟨fun j hj => by omega, fun j => ?_, ?_⟩
      · show j ∈ e.active_ ↔ _
        rw [hact]
        constructor
        · intro h; simp at h
        · intro h; omega
      · show e.active_.Pairwise _
        rw [hact]; exact List.Pairwise.nil
    · apply heapPartR_of_mem
      · simp [ClearHeaps, InitMaxHeap, BinaryHeap.clear]
      · intro p
        cases p <;> simp [InHeapSpec, ClearHeaps, InitMaxHeap, BinaryHeap.clear, hn]
      · exact heapInv_clear _ (e.ClearHeaps false).heap_
    · intro j L hjL hL; omega
    · intro j L hjL hL; omega
    · intro L L' idx r hLL hL'; omega
    · intro p hp
      simp [ClearHeaps, InitMaxHeap, BinaryHeap.clear] at hp
    · intro l idx r hl; omega
    · unfold visRemR visibleRecords
      rw [hn]
      rfl
  · have hsn : 0 < runs.length := by omega
    obtain ⟨h1, h2, h3, h3a, h4, -, -, -, h5, h6, -, -⟩ :=
      seekForPrevImpl_spec_base hb hsn rfl target target
        (fun j L _ hL => by omega) (fun j L _ hL => by omega) (fun j hj => by omega)
        (fun j hj => by omega) (keyLe_refl _) (backwardTarget_bound target htg)
        (backwardTarget_lt target htg)
        (fun L hL => by omega) (fun j hj => by omega)
        (fun l r _ hl hr g1 g2 => absurd g2 ((keyLe_iff _ _).mp g1))
        (fun L idx r hL => by omega) (fun L L' idx r _ hL' => by omega)
    refine ⟨⟨h1, h2, h3, h3a, target, h4, ?_⟩, ?_⟩
    · intro l idx r hl hidx hr hlt
      exact h5 l idx r (Nat.zero_le _) hl hidx hr (keyLe_of_keyLt hlt)
    · unfold visRemR visibleRecords
      rw [filter_flatMap]
      apply List.flatMap_congr
      intro l hl
      have hl' := List.mem_range.mp hl
      unfold visibleOf
      symm
      apply filter_drop_take
      · intro x hx
        obtain ⟨idx, hidx⟩ := List.mem_iff_getElem?.mp hx
        rw [List.getElem?_drop] at hidx
        by_cases hle : keyLe x target
        · have hsup := h5 l _ x (Nat.zero_le _) hl' (Nat.le_add_right _ idx) hidx hle
          simp [hsup]
        · have hgt : keyLt target x := not_keyLe_iff.mp hle
          have : Compare x target = .gt := (compare_gt_iff _ _).mpr hgt
          have hb2 : (Compare x target != Ordering.gt) = false := by rw [this]; rfl
          rw [hb2, Bool.and_false]
      · intro x hx
        obtain ⟨idx, hidx⟩ := List.mem_iff_getElem?.mp hx
        have hlt : idx < childCnt (e.SeekForPrevImpl target 0) l := by
          by_contra hcon
          rw [List.getElem?_take_eq_none (by omega)] at hidx
          simp at hidx
        rw [List.getElem?_take_of_lt hlt] at hidx
        have hle := h6 l idx x (Nat.zero_le _) hl' hlt hidx
        exact (ordering_bne_iff _ _).mpr hle

/-- The method `SeekForPrev(target)`, called in any state of an engine over `runs` and `tombs`,
reaches a state of a backward scan in which the visible records at or before the target are
still to come. -/
theorem seekForPrev_spec_base {runs : List (List (ParsedInternalKey UK))}
    {tombs : List (Option (List (RangeTombstone UK)))} {e : MergingIterator UK}
    (hb : Base runs tombs e) (hal : ∀ j ∈ e.active_, j < runs.length) (fuel : Nat)
    (hfuel : rankBound runs tombs runs.length ≤ fuel) (target : ParsedInternalKey UK)
    (htg : BackwardTarget target) :
    ∃ e1, e.SeekForPrev fuel target = some e1 ∧ ScanInvR runs tombs e1 ∧
      visRemR runs tombs e1 =
        (visibleRecords runs tombs).filter (fun k => Compare k target != Ordering.gt) := by
  obtain ⟨hf2, hvis2⟩ := seekForPrevImpl_bwd_base hb hal target htg
  obtain ⟨e3, g1, g2, g3, g4, g5⟩ := findPrev_spec hf2 fuel hfuel
  have hseek : e.SeekForPrev fuel target =
      some ({ ({ e3 with direction_ := Direction.kReverse } :
        MergingIterator UK) with current_ := e3.heap_.top }) := by
    unfold SeekForPrev
    rw [g1]
    rfl
  refine ⟨_, hseek, ?_, ?_⟩
  · refine ⟨⟨⟨base_of_eq g2.struct.base rfl rfl rfl g2.struct.base.status_ok
        g2.struct.base.no_upper_bound, tombPartR_of_eq g2.struct.tomb (fun j => rfl)
        (fun j => rfl) rfl, heapPartR_frame g2.struct.heap rfl (fun p _ => rfl)
        (fun q => by cases q <;> rfl)⟩, ?_, ?_, ?_, ?_⟩, ?_, rfl, rfl⟩
    · exact passedTombsR_congr g2.passed_tombs (fun l => rfl) (fun j => rfl)
    · intro j L hjL hL hvL hact
      exact g2.active_ended j L hjL hL hvL hact
    · exact passedAbove_congr g2.passed_above (fun l => rfl)
    · obtain ⟨B', hB1, hB2⟩ := g2.bound
      exact ⟨B', fun p hp => hB1 p hp, passedRecordsR_congr hB2 (fun l => rfl)⟩
    · intro t' ht'
      exact g3 t' ht'
  · rw [← hvis2, ← g4]
    exact visRemR_congr (fun l => rfl)

/-- In a sorted list, the records at or before a target are those up to some position. -/
theorem filter_le_take (target : ParsedInternalKey UK) :
    ∀ out : List (ParsedInternalKey UK), out.Pairwise keyLe →
      ∃ n, n ≤ out.length ∧
        out.filter (fun x => Compare x target != Ordering.gt) = out.take n := by
  intro out
  induction out with
  | nil => intro _; exact ⟨0, le_refl _, rfl⟩
  | cons a l ih =>
    intro hs
    obtain ⟨h1, h2⟩ := List.pairwise_cons.mp hs
    by_cases ha : keyLe a target
    · obtain ⟨n, hn, hi⟩ := ih h2
      refine ⟨n + 1, by simp; omega, ?_⟩
      have hp : (Compare a target != Ordering.gt) = true := (ordering_bne_iff _ _).mpr ha
      rw [List.filter_cons]
      simp only [hp, ↓reduceIte, List.take_succ_cons, hi]
    · refine ⟨0, Nat.zero_le _, ?_⟩
      rw [List.take_zero, List.filter_eq_nil_iff]
      intro x hx
      have hax : keyLe a x := by
        rcases List.mem_cons.mp hx with h | h
        · rw [h]; exact keyLe_refl _
        · exact h1 x h
      have h3 : keyLt target x := keyLt_of_keyLt_of_keyLe (not_keyLe_iff.mp ha) hax
      have h4 : Compare x target = .gt := (compare_gt_iff _ _).mpr h3
      rw [h4]
      decide

end MergingIterator

/-! ## Part XXIV. The assertions of `CurrentForward` and `CurrentReverse` -/

namespace MergingIterator

open InternalKeyComparator BinaryHeap

variable {UK : Type} [LinearOrder UK] [Inhabited UK]

theorem topIsIterator_of_record {e : MergingIterator UK} (h : TopIsRecord e) :
    TopIsIterator e := by
  rcases h with h | ⟨s, h1, h2, _⟩
  · exact Or.inl h
  · exact Or.inr ⟨_, h1, h2⟩

theorem topIsRecord_of_base {runs : List (List (ParsedInternalKey UK))}
    {tombs : List (Option (List (RangeTombstone UK)))} {e : MergingIterator UK}
    (hb : Base runs tombs e)
    (hm : ∀ l, HeapItemPtr.child l ∈ e.heap_.data_ → l < runs.length)
    (hv : TopVisible tombs e) : TopIsRecord e := by
  cases ht : e.heap_.top with
  | none =>
    left
    have := (top_none_iff e).mp ht
    simp [BinaryHeap.empty, this]
  | some t =>
    right
    obtain ⟨s, hs, _⟩ := hv t ht
    subst hs
    have hmem : HeapItemPtr.child s ∈ e.heap_.data_ := by
      rw [top_data e _ ht]
      exact List.mem_cons_self _ _
    have hc := hb.child_at s (hm s hmem)
    refine ⟨s, ht, hc.2.1, ?_⟩
    unfold HeapItem.IsDeleteRangeSentinelKey
    rw [childAt_not_sentinel hc, Bool.and_false]

theorem topIsRecord_of_fwd {runs : List (List (ParsedInternalKey UK))}
    {tombs : List (Option (List (RangeTombstone UK)))} {e : MergingIterator UK}
    (hs : Struct runs tombs e) (hv : TopVisible tombs e) : TopIsRecord e :=
  topIsRecord_of_base hs.base (fun l h => ((hs.heap.mem_child l).mp h).1) hv

theorem topIsRecord_of_bwd {runs : List (List (ParsedInternalKey UK))}
    {tombs : List (Option (List (RangeTombstone UK)))} {e : MergingIterator UK}
    (hs : StructR runs tombs e) (hv : TopVisible tombs e) : TopIsRecord e :=
  topIsRecord_of_base hs.base (fun l h => ((hs.heap.mem_child l).mp h).1) hv

/-- More fuel does not change what the forward visibility loop returns. -/
theorem findNextLoop_mono : ∀ (f : Nat) (e e' : MergingIterator UK),
    FindNextVisibleKeyLoop f e = some e' → ∀ k, FindNextVisibleKeyLoop (f + k) e = some e' := by
  intro f
  induction f with
  | zero => intro e e' h; simp [FindNextVisibleKeyLoop] at h
  | succ f ih =>
    intro e e' h k
    have hk : f + 1 + k = (f + k) + 1 := by omega
    rw [hk]
    unfold FindNextVisibleKeyLoop at h ⊢
    cases ht : e.heap_.top with
    | none => rw [ht] at h; exact h
    | some t =>
      rw [ht] at h
      simp only [] at h ⊢
      split at h
      · rename_i hc
        rw [if_pos hc]
        split at h
        · rename_i hd
          rw [if_pos hd]
          cases hp : e.SkipNextDeleted.1.PopDeleteRangeStart with
          | none => rw [hp] at h; simp at h
          | some e1 =>
            rw [hp] at h
            exact ih e1 e' h k
        · rename_i hd
          rw [if_neg hd]
          exact h
      · rename_i hc
        rw [if_neg hc]
        exact h

theorem findPrevLoop_mono : ∀ (f : Nat) (e e' : MergingIterator UK),
    FindPrevVisibleKeyLoop f e = some e' → ∀ k, FindPrevVisibleKeyLoop (f + k) e = some e' := by
  intro f
  induction f with
  | zero => intro e e' h; simp [FindPrevVisibleKeyLoop] at h
  | succ f ih =>
    intro e e' h k
    have hk : f + 1 + k = (f + k) + 1 := by omega
    rw [hk]
    unfold FindPrevVisibleKeyLoop at h ⊢
    cases ht : e.heap_.top with
    | none => rw [ht] at h; exact h
    | some t =>
      rw [ht] at h
      simp only [] at h ⊢
      split at h
      · rename_i hc
        rw [if_pos hc]
        split at h
        · rename_i hd
          rw [if_pos hd]
          cases hp : e.SkipPrevDeleted.1.PopDeleteRangeEnd with
          | none => rw [hp] at h; simp at h
          | some e1 =>
            rw [hp] at h
            exact ih e1 e' h k
        · rename_i hd
          rw [if_neg hd]
          exact h
      · rename_i hc
        rw [if_neg hc]
        exact h

theorem findNext_mono (f : Nat) (e e' : MergingIterator UK)
    (h : e.FindNextVisibleKey f = some e') (k : Nat) :
    e.FindNextVisibleKey (f + k) = some e' := by
  unfold FindNextVisibleKey at h ⊢
  split at h
  · rename_i hc; rw [if_pos hc]; exact h
  · rename_i hc
    rw [if_neg hc]
    unfold FindNextVisibleKeySlowPath at h ⊢
    cases hp : e.PopDeleteRangeStart with
    | none => rw [hp] at h; simp at h
    | some e1 =>
      rw [hp] at h
      exact findNextLoop_mono f e1 e' h k

theorem findPrev_mono (f : Nat) (e e' : MergingIterator UK)
    (h : e.FindPrevVisibleKey f = some e') (k : Nat) :
    e.FindPrevVisibleKey (f + k) = some e' := by
  unfold FindPrevVisibleKey at h ⊢
  split at h
  · rename_i hc; rw [if_pos hc]; exact h
  · rename_i hc
    rw [if_neg hc]
    unfold FindPrevVisibleKeySlowPath at h ⊢
    cases hp : e.PopDeleteRangeEnd with
    | none => rw [hp] at h; simp at h
    | some e1 =>
      rw [hp] at h
      exact findPrevLoop_mono f e1 e' h k

/-- Whenever the forward visibility loop returns in a state of a forward scan, the heap is
empty or a child is on top. -/
theorem findNext_top {runs : List (List (ParsedInternalKey UK))}
    {tombs : List (Option (List (RangeTombstone UK)))} {e : MergingIterator UK}
    (hf : FwdT runs tombs e) (f : Nat) (e' : MergingIterator UK)
    (h : e.FindNextVisibleKey f = some e') : TopIsRecord e' := by
  obtain ⟨e2, h1, h2, h3, _⟩ := findNext_spec hf (f + rankBound runs tombs runs.length)
    (Nat.le_add_left _ _)
  have := findNext_mono f e e' h (rankBound runs tombs runs.length)
  rw [h1] at this
  cases this
  exact topIsRecord_of_fwd h2.struct h3

theorem findPrev_top {runs : List (List (ParsedInternalKey UK))}
    {tombs : List (Option (List (RangeTombstone UK)))} {e : MergingIterator UK}
    (hf : BwdT runs tombs e) (f : Nat) (e' : MergingIterator UK)
    (h : e.FindPrevVisibleKey f = some e') : TopIsRecord e' := by
  obtain ⟨e2, h1, h2, h3, _⟩ := findPrev_spec hf (f + rankBound runs tombs runs.length)
    (Nat.le_add_left _ _)
  have := findPrev_mono f e e' h (rankBound runs tombs runs.length)
  rw [h1] at this
  cases this
  exact topIsRecord_of_bwd h2.struct h3

theorem popStartLoop_top : ∀ (f : Nat) (e e' : MergingIterator UK),
    PopDeleteRangeStartLoop f e = some e' →
    ∀ t, e'.heap_.top = some t → (e'.deref t).type ≠ HeapItemType.DELETE_RANGE_START := by
  intro f
  induction f with
  | zero => intro e e' h; simp [PopDeleteRangeStartLoop] at h
  | succ f ih =>
    intro e e' h
    unfold PopDeleteRangeStartLoop at h
    cases ht : e.heap_.top with
    | none =>
      rw [ht] at h
      simp only [Option.some.injEq] at h
      subst h
      intro t ht'
      rw [ht] at ht'
      cases ht'
    | some t0 =>
      rw [ht] at h
      simp only [] at h
      split at h
      · exact ih _ e' h
      · rename_i hc
        simp only [Option.some.injEq] at h
        subst h
        intro t ht'
        rw [ht] at ht'
        cases ht'
        intro hty
        rw [hty] at hc
        exact hc rfl

theorem popEndLoop_top : ∀ (f : Nat) (e e' : MergingIterator UK),
    PopDeleteRangeEndLoop f e = some e' →
    ∀ t, e'.heap_.top = some t → (e'.deref t).type ≠ HeapItemType.DELETE_RANGE_END := by
  intro f
  induction f with
  | zero => intro e e' h; simp [PopDeleteRangeEndLoop] at h
  | succ f ih =>
    intro e e' h
    unfold PopDeleteRangeEndLoop at h
    cases ht : e.heap_.top with
    | none =>
      rw [ht] at h
      simp only [Option.some.injEq] at h
      subst h
      intro t ht'
      rw [ht] at ht'
      cases ht'
    | some t0 =>
      rw [ht] at h
      simp only [] at h
      split at h
      · exact ih _ e' h
      · rename_i hc
        simp only [Option.some.injEq] at h
        subst h
        intro t ht'
        rw [ht] at ht'
        cases ht'
        intro hty
        rw [hty] at hc
        exact hc rfl

/-- When `SkipNextDeleted` reports no deletion, it has changed nothing and the top of the heap
is neither an end endpoint nor an item whose child shows a file-boundary sentinel. -/
theorem skipNext_false (e : MergingIterator UK) (t : HeapItemPtr) (ht : e.heap_.top = some t)
    (h : e.SkipNextDeleted.2 = false) :
    e.SkipNextDeleted.1 = e ∧ (e.deref t).type ≠ HeapItemType.DELETE_RANGE_END ∧
      (e.deref t).iter.IsDeleteRangeSentinelKey = false := by
  unfold SkipNextDeleted at h ⊢
  rw [ht] at h ⊢
  simp only [] at h ⊢
  by_cases h1 : ((e.deref t).type == HeapItemType.DELETE_RANGE_END) = true
  · rw [if_pos h1] at h
    split at h <;> simp at h
  · rw [if_neg h1] at h ⊢
    by_cases h2 : (e.deref t).iter.IsDeleteRangeSentinelKey = true
    · rw [if_pos h2] at h
      simp at h
    · rw [if_neg h2] at h ⊢
      refine ⟨?_, fun hty => h1 (by rw [hty]; rfl), by simpa using h2⟩
      cases ha : e.active_.head? with
      | none => rfl
      | some i =>
        rw [ha] at h
        simp only [] at h ⊢
        split
        · rename_i hc; rw [if_pos hc] at h; simp at h
        · rename_i hc
          rw [if_neg hc] at h
          split
          · rename_i hc2
            rw [if_pos hc2] at h
            split
            · rename_i hc3
              rw [if_pos hc3] at h
              split at h <;> simp at h
            · rfl
          · rfl

theorem skipPrev_false (e : MergingIterator UK) (t : HeapItemPtr) (ht : e.heap_.top = some t)
    (h : e.SkipPrevDeleted.2 = false) :
    e.SkipPrevDeleted.1 = e ∧ (e.deref t).type ≠ HeapItemType.DELETE_RANGE_START ∧
      (e.deref t).iter.IsDeleteRangeSentinelKey = false := by
  unfold SkipPrevDeleted at h ⊢
  rw [ht] at h ⊢
  simp only [] at h ⊢
  by_cases h1 : ((e.deref t).type == HeapItemType.DELETE_RANGE_START) = true
  · rw [if_pos h1] at h
    split at h <;> simp at h
  · rw [if_neg h1] at h ⊢
    by_cases h2 : (e.deref t).iter.IsDeleteRangeSentinelKey = true
    · rw [if_pos h2] at h
      simp at h
    · rw [if_neg h2] at h ⊢
      refine ⟨?_, fun hty => h1 (by rw [hty]; rfl), by simpa using h2⟩
      cases ha : e.active_.head? with
      | none => rfl
      | some i =>
        rw [ha] at h
        simp only [] at h ⊢
        split
        · rename_i hc; rw [if_pos hc] at h; simp at h
        · rename_i hc
          rw [if_neg hc] at h
          split
          · rename_i hc2
            rw [if_pos hc2] at h
            split
            · rename_i hc3
              rw [if_pos hc3] at h
              split at h <;> simp at h
            · rfl
          · rfl

/-- The exit of the forward visibility loop, from the code alone. -/
theorem findNextLoop_exit : ∀ (f : Nat) (e e' : MergingIterator UK),
    FindNextVisibleKeyLoop f e = some e' →
    (∀ t, e.heap_.top = some t → (e.deref t).type ≠ HeapItemType.DELETE_RANGE_START) →
    ExitTop HeapItemType.DELETE_RANGE_START HeapItemType.DELETE_RANGE_END e' := by
  intro f
  induction f with
  | zero => intro e e' h; simp [FindNextVisibleKeyLoop] at h
  | succ f ih =>
    intro e e' h hns
    unfold FindNextVisibleKeyLoop at h
    cases ht : e.heap_.top with
    | none =>
      rw [ht] at h
      simp only [Option.some.injEq] at h
      subst h
      intro t ht'
      rw [ht] at ht'
      cases ht'
    | some t0 =>
      rw [ht] at h
      simp only [] at h
      split at h
      · split at h
        · cases hp : e.SkipNextDeleted.1.PopDeleteRangeStart with
          | none => rw [hp] at h; simp at h
          | some e1 =>
            rw [hp] at h
            exact ih e1 e' h (popStartLoop_top _ _ _ hp)
        · rename_i hd
          simp only [Option.some.injEq] at h
          obtain ⟨g1, g2, g3⟩ := skipNext_false e t0 ht (by simpa using hd)
          rw [g1] at h
          subst h
          intro t ht'
          rw [ht] at ht'
          cases ht'
          refine ⟨hns _ ht, ?_, fun hty => absurd hty g2⟩
          unfold HeapItem.IsDeleteRangeSentinelKey
          rw [g3, Bool.and_false]
      · rename_i hc
        simp only [Option.some.injEq] at h
        subst h
        intro t ht'
        rw [ht] at ht'
        cases ht'
        simp only [Bool.or_eq_true, Bool.not_eq_true', not_or, Bool.not_eq_false,
          Bool.not_eq_true] at hc
        refine ⟨hns _ ht, hc.2, fun _ => ?_⟩
        simpa using hc.1

theorem findPrevLoop_exit : ∀ (f : Nat) (e e' : MergingIterator UK),
    FindPrevVisibleKeyLoop f e = some e' →
    (∀ t, e.heap_.top = some t → (e.deref t).type ≠ HeapItemType.DELETE_RANGE_END) →
    ExitTop HeapItemType.DELETE_RANGE_END HeapItemType.DELETE_RANGE_START e' := by
  intro f
  induction f with
  | zero => intro e e' h; simp [FindPrevVisibleKeyLoop] at h
  | succ f ih =>
    intro e e' h hns
    unfold FindPrevVisibleKeyLoop at h
    cases ht : e.heap_.top with
    | none =>
      rw [ht] at h
      simp only [Option.some.injEq] at h
      subst h
      intro t ht'
      rw [ht] at ht'
      cases ht'
    | some t0 =>
      rw [ht] at h
      simp only [] at h
      split at h
      · split at h
        · cases hp : e.SkipPrevDeleted.1.PopDeleteRangeEnd with
          | none => rw [hp] at h; simp at h
          | some e1 =>
            rw [hp] at h
            exact ih e1 e' h (popEndLoop_top _ _ _ hp)
        · rename_i hd
          simp only [Option.some.injEq] at h
          obtain ⟨g1, g2, g3⟩ := skipPrev_false e t0 ht (by simpa using hd)
          rw [g1] at h
          subst h
          intro t ht'
          rw [ht] at ht'
          cases ht'
          refine ⟨hns _ ht, ?_, fun hty => absurd hty g2⟩
          unfold HeapItem.IsDeleteRangeSentinelKey
          rw [g3, Bool.and_false]
      · rename_i hc
        simp only [Option.some.injEq] at h
        subst h
        intro t ht'
        rw [ht] at ht'
        cases ht'
        simp only [Bool.or_eq_true, Bool.not_eq_true', not_or, Bool.not_eq_false,
          Bool.not_eq_true] at hc
        refine ⟨hns _ ht, hc.2, fun _ => ?_⟩
        simpa using hc.1

theorem slowPath_exit (f : Nat) (e e' : MergingIterator UK)
    (h : e.FindNextVisibleKeySlowPath f = some e') :
    ExitTop HeapItemType.DELETE_RANGE_START HeapItemType.DELETE_RANGE_END e' := by
  unfold FindNextVisibleKeySlowPath at h
  cases hp : e.PopDeleteRangeStart with
  | none => rw [hp] at h; simp at h
  | some e1 =>
    rw [hp] at h
    exact findNextLoop_exit f e1 e' h (popStartLoop_top _ _ _ hp)

theorem slowPathR_exit (f : Nat) (e e' : MergingIterator UK)
    (h : e.FindPrevVisibleKeySlowPath f = some e') :
    ExitTop HeapItemType.DELETE_RANGE_END HeapItemType.DELETE_RANGE_START e' := by
  unfold FindPrevVisibleKeySlowPath at h
  cases hp : e.PopDeleteRangeEnd with
  | none => rw [hp] at h; simp at h
  | some e1 =>
    rw [hp] at h
    exact findPrevLoop_exit f e1 e' h (popEndLoop_top _ _ _ hp)

theorem build_idle (runs : List (List (ParsedInternalKey UK)))
    (tombs : List (Option (List (RangeTombstone UK)))) :
    (build runs tombs).heap_.data_ = [] ∧ (build runs tombs).active_ = [] ∧
      (build runs tombs).current_ = none := by
  unfold build
  rw [addRti_foldl]
  unfold Finish
  cases tombs with
  | nil => simp [MergingIterTmpl]
  | cons t ts => simp [MergingIterTmpl]

theorem targetsOK_head {c : Call UK} {cs : List (Call UK)} (h : TargetsOK (c :: cs)) :
    TargetsOK [c] := by
  intro x hx
  rw [List.mem_singleton] at hx
  rw [hx]
  exact h c (List.mem_cons_self _ _)

theorem targetsOK_tail {c : Call UK} {cs : List (Call UK)} (h : TargetsOK (c :: cs)) :
    TargetsOK cs :=
  fun x hx => h x (List.mem_cons_of_mem _ hx)

/-- Every public call made on the engine as built, or in a state that the public calls have
reached, returns: `Next()` and `Prev()` on an engine that is not valid change nothing, and
every other call reaches a state of a scan in its direction. -/
theorem reach_call {runs : List (List (ParsedInternalKey UK))}
    {tombs : List (Option (List (RangeTombstone UK)))} {out : List (ParsedInternalKey UK)}
    (hwf : InputWF runs tombs) (hp : out.Perm (visibleRecords runs tombs))
    (hs : out.Pairwise keyLe) (hd : DistinctRuns runs) {fuel : Nat}
    (hfuel : rankBound runs tombs runs.length ≤ fuel) {e : MergingIterator UK}
    (h : e = build runs tombs ∨ Reach runs tombs out e) (c : Call UK) (hc : TargetsOK [c]) :
    ∃ e', callBy fuel c e = some e' ∧
      ((e.Valid = false ∧ e' = e ∧ (c = Call.next ∨ c = Call.prev)) ∨
        ((∃ i, PosF runs tombs out i e') ∧ c.direction = Direction.kForward) ∨
        ((∃ n, PosR runs tombs out n e') ∧ c.direction = Direction.kReverse)) := by
  have hb : Base runs tombs e := by
    rcases h with h | h
    · rw [h]; exact build_base runs tombs hwf
    · exact reach_base h
  have hal : ∀ j ∈ e.active_, j < runs.length := by
    intro j hj
    rcases h with h | ⟨_, h⟩ | ⟨_, h⟩
    · rw [h, (build_idle runs tombs).2.1] at hj
      simp at hj
    · exact ((h.1.fwd.struct.tomb.active_iff j).mp hj).1
    · exact ((h.1.fwd.struct.tomb.active_iff j).mp hj).1
  have hmove : ∀ m : Move, ∃ e', moveBy fuel m e = some e' ∧
      ((e.Valid = false ∧ e' = e) ∨
        (e.Valid = true ∧ ∃ i, At runs tombs out i e)) := by
    intro m
    by_cases hv : e.Valid = true
    · have hr : Reach runs tombs out e := by
        rcases h with h | h
        · exfalso
          rw [valid_current hb, h, (build_idle runs tombs).2.2] at hv
          simp at hv
        · exact h
      obtain ⟨e', h1, _⟩ := reach_move hp hs hd hfuel hr m
      exact ⟨e', h1, Or.inr ⟨hv, reach_at hfuel hr hv⟩⟩
    · have hcur : e.current_ = none := by
        rw [valid_current hb] at hv
        cases hcur : e.current_ with
        | none => rfl
        | some t => rw [hcur] at hv; simp at hv
      refine ⟨e, ?_, Or.inl ⟨by simpa using hv, rfl⟩⟩
      cases m with
      | next =>
        show e.Next fuel = some e
        unfold Next
        rw [hcur]
      | prev =>
        show e.Prev fuel = some e
        unfold Prev
        rw [hcur]
  cases c with
  | seekToFirst =>
    obtain ⟨e1, h1, h2, h3⟩ := seekToFirst_spec_t hb fuel hfuel
    refine ⟨e1, h1, Or.inr (Or.inl ⟨⟨0, h2, ?_⟩, rfl⟩)⟩
    rw [h3, List.drop_zero]
    exact hp.symm
  | seekToLast =>
    obtain ⟨e1, h1, h2, h3⟩ := seekToLast_spec_t hb fuel hfuel
    refine ⟨e1, h1, Or.inr (Or.inr ⟨⟨out.length, h2, le_refl _, ?_⟩, rfl⟩)⟩
    rw [h3, List.take_length]
    exact hp.symm
  | seek target =>
    obtain ⟨e1, h1, h2, h3⟩ := seek_spec_base hb hal fuel hfuel target
    obtain ⟨i, hi⟩ := filter_ge_drop target out hs
    refine ⟨e1, h1, Or.inr (Or.inl ⟨⟨i, h2, ?_⟩, rfl⟩)⟩
    rw [h3, ← hi]
    exact (hp.filter _).symm
  | seekForPrev target =>
    have htg : BackwardTarget target := hc _ (List.mem_singleton.mpr rfl)
    obtain ⟨e1, h1, h2, h3⟩ := seekForPrev_spec_base hb hal fuel hfuel target htg
    obtain ⟨n, hn, hi⟩ := filter_le_take target out hs
    refine ⟨e1, h1, Or.inr (Or.inr ⟨⟨n, h2, hn, ?_⟩, rfl⟩)⟩
    rw [h3, ← hi]
    exact (hp.filter _).symm
  | next =>
    obtain ⟨e', h1, h2⟩ := hmove Move.next
    rcases h2 with ⟨hv, he⟩ | ⟨hv, i, hat⟩
    · exact ⟨e', h1, Or.inl ⟨hv, he, Or.inl rfl⟩⟩
    · obtain ⟨e2, g1, g2⟩ := next_at hp hs hd hfuel hat
      exact ⟨e2, g1, Or.inr (Or.inl ⟨⟨i + 1, g2⟩, rfl⟩)⟩
  | prev =>
    obtain ⟨e', h1, h2⟩ := hmove Move.prev
    rcases h2 with ⟨hv, he⟩ | ⟨hv, i, hat⟩
    · exact ⟨e', h1, Or.inl ⟨hv, he, Or.inr rfl⟩⟩
    · obtain ⟨e2, g1, g2⟩ := prev_at hp hs hd hfuel hat
      exact ⟨e2, g1, Or.inr (Or.inr ⟨⟨i, g2⟩, rfl⟩)⟩

theorem reach_callAll {runs : List (List (ParsedInternalKey UK))}
    {tombs : List (Option (List (RangeTombstone UK)))} {out : List (ParsedInternalKey UK)}
    (hwf : InputWF runs tombs) (hp : out.Perm (visibleRecords runs tombs))
    (hs : out.Pairwise keyLe) (hd : DistinctRuns runs) {fuel : Nat}
    (hfuel : rankBound runs tombs runs.length ≤ fuel) :
    ∀ (cs : List (Call UK)) (e : MergingIterator UK),
      (e = build runs tombs ∨ Reach runs tombs out e) → TargetsOK cs →
      ∃ e', callAll fuel cs e = some e' ∧ (e' = build runs tombs ∨ Reach runs tombs out e') := by
  intro cs
  induction cs with
  | nil => intro e h _; exact ⟨e, rfl, h⟩
  | cons c cs ih =>
    intro e h htg
    obtain ⟨e1, h1, h2⟩ := reach_call hwf hp hs hd hfuel h c (targetsOK_head htg)
    have h3 : e1 = build runs tombs ∨ Reach runs tombs out e1 := by
      rcases h2 with ⟨_, he, _⟩ | ⟨g, _⟩ | ⟨g, _⟩
      · rw [he]; exact h
      · exact Or.inr (Or.inl g)
      · exact Or.inr (Or.inr g)
    obtain ⟨e2, h4, h5⟩ := ih e1 h3 (targetsOK_tail htg)
    refine ⟨e2, ?_, h5⟩
    unfold callAll
    rw [h1]
    exact h4

/-- What holds between two public calls: the top of the heap is the item of a child or the
heap is empty, and `current_` is the top of the heap. -/
theorem reach_top {runs : List (List (ParsedInternalKey UK))}
    {tombs : List (Option (List (RangeTombstone UK)))} {out : List (ParsedInternalKey UK)}
    {e : MergingIterator UK} (h : e = build runs tombs ∨ Reach runs tombs out e) :
    TopIsRecord e ∧ e.current_ = e.heap_.top := by
  rcases h with h | ⟨_, h⟩ | ⟨_, h⟩
  · rw [h]
    obtain ⟨h1, _, h3⟩ := build_idle runs tombs
    refine ⟨Or.inl ?_, ?_⟩
    · simp [BinaryHeap.empty, h1]
    · rw [h3]
      simp [BinaryHeap.top, h1]
  · exact ⟨topIsRecord_of_fwd h.1.fwd.struct h.1.vis, h.1.current⟩
  · exact ⟨topIsRecord_of_bwd h.1.fwd.struct h.1.vis, h.1.current⟩

/-- C35. In any state of any engine, also one whose children show file-boundary sentinels,
whenever `FindNextVisibleKeySlowPath` returns the top of the heap is not a start endpoint, it is
not a file-boundary sentinel, and it is an end endpoint only if no level is active
(`FindPrevVisibleKeySlowPath`: the same with start and end exchanged). For sorted runs without
repeated internal keys, with per-run tombstone lists, and fuel for the visibility loops: in a
state `e` of a forward scan `FindNextVisibleKey` returns, and whenever it returns the heap is
empty or its top is the item of a child, a point item (type `ITERATOR`) that is not a
file-boundary sentinel, so not a tombstone endpoint; the same holds of `FindPrevVisibleKey` in
a state `r` of a backward scan. After every sequence of the public calls `SeekToFirst`,
`SeekToLast`, `Seek`, `SeekForPrev` (on backward targets), `Next` and `Prev` on the engine as
built the same holds and `current_` is the top of the heap; and every further call (`Next` and
`Prev` on a valid engine, as they require) returns in a state whose direction is that of the
call and in which the heap is empty or its top has type `ITERATOR`: the assertions of
`CurrentForward`, respectively `CurrentReverse`. -/
theorem current_assertions_hold (runs : List (List (ParsedInternalKey UK)))
    (tombs : List (Option (List (RangeTombstone UK)))) (fuel : Nat)
    (hwf : WellFormedInput runs tombs) (hnd : runs.flatten.Nodup)
    (hfuel : rankBound runs tombs runs.length ≤ fuel)
    (e r : MergingIterator UK) (hf : FwdT runs tombs e) (hr : BwdT runs tombs r)
    (cs : List (Call UK)) (htg : TargetsOK cs) :
    (∀ (x x' : MergingIterator UK) (f : Nat), x.FindNextVisibleKeySlowPath f = some x' →
      ExitTop HeapItemType.DELETE_RANGE_START HeapItemType.DELETE_RANGE_END x') ∧
    (∀ (x x' : MergingIterator UK) (f : Nat), x.FindPrevVisibleKeySlowPath f = some x' →
      ExitTop HeapItemType.DELETE_RANGE_END HeapItemType.DELETE_RANGE_START x') ∧
    ((∃ e', e.FindNextVisibleKey fuel = some e') ∧
      ∀ f e', e.FindNextVisibleKey f = some e' → TopIsRecord e') ∧
    ((∃ r', r.FindPrevVisibleKey fuel = some r') ∧
      ∀ f r', r.FindPrevVisibleKey f = some r' → TopIsRecord r') ∧
    ∃ e1, callAll fuel cs (build runs tombs) = some e1 ∧
      TopIsRecord e1 ∧ e1.current_ = e1.heap_.top ∧
      ∀ c : Call UK, TargetsOK [c] → (c = Call.next ∨ c = Call.prev → e1.Valid = true) →
        ∃ e2, callBy fuel c e1 = some e2 ∧ e2.direction_ = c.direction ∧
          TopIsIterator e2 ∧ TopIsRecord e2 ∧ e2.current_ = e2.heap_.top := by
  have hwf' := inputWF_of_wellFormed hwf
  obtain ⟨out, _, hp, hs⟩ := forwardScan_tombs runs tombs hwf' fuel
    (visibleRecords runs tombs).length hfuel (Nat.le_refl _)
  have hd := distinctRuns_of_nodup hnd
  refine ⟨fun x x' f h => slowPath_exit f x x' h, fun x x' f h => slowPathR_exit f x x' h,
    ⟨?_, fun f e' h => findNext_top hf f e' h⟩,
    ⟨?_, fun f r' h => findPrev_top hr f r' h⟩, ?_⟩
  · obtain ⟨e', h1, _⟩ := findNext_spec hf fuel hfuel
    exact ⟨e', h1⟩
  · obtain ⟨r', h1, _⟩ := findPrev_spec hr fuel hfuel
    exact ⟨r', h1⟩
  · obtain ⟨e1, h1, h2⟩ := reach_callAll hwf' hp hs hd hfuel cs (build runs tombs)
      (Or.inl rfl) htg
    obtain ⟨h3, h4⟩ := reach_top h2
    refine ⟨e1, h1, h3, h4, ?_⟩
    intro c hc hv
    obtain ⟨e2, g1, g2⟩ := reach_call hwf' hp hs hd hfuel h2 c hc
    refine ⟨e2, g1, ?_⟩
    rcases g2 with ⟨hnv, _, hcc⟩ | ⟨⟨i, g⟩, hdir⟩ | ⟨⟨n, g⟩, hdir⟩
    · rw [hv hcc] at hnv
      cases hnv
    · have ht := reach_top (Or.inr (Or.inl ⟨i, g⟩) :
        e2 = build runs tombs ∨ Reach runs tombs out e2)
      exact ⟨by rw [hdir]; exact g.1.forward, topIsIterator_of_record ht.1, ht.1, ht.2⟩
    · have ht := reach_top (Or.inr (Or.inr ⟨n, g⟩) :
        e2 = build runs tombs ∨ Reach runs tombs out e2)
      exact ⟨by rw [hdir]; exact g.1.reverse, topIsIterator_of_record ht.1, ht.1, ht.2⟩

theorem current_assertions_hold_witness :
    WellFormedInput runsWithTombstone tombsOnFirstRun ∧
    runsWithTombstone.flatten.Nodup ∧
    rankBound runsWithTombstone tombsOnFirstRun runsWithTombstone.length ≤ 24 ∧
    TargetsOK callsBackAndForth ∧
    FwdT runsWithTombstone tombsOnFirstRun
      (seekToFirstFill (build runsWithTombstone tombsOnFirstRun)) ∧
    BwdT runsWithTombstone tombsOnFirstRun
      (seekToLastFill (build runsWithTombstone tombsOnFirstRun)) ∧
    ((∀ (x x' : MergingIterator Nat) (f : Nat), x.FindNextVisibleKeySlowPath f = some x' →
      ExitTop HeapItemType.DELETE_RANGE_START HeapItemType.DELETE_RANGE_END x') ∧
    (∀ (x x' : MergingIterator Nat) (f : Nat), x.FindPrevVisibleKeySlowPath f = some x' →
      ExitTop HeapItemType.DELETE_RANGE_END HeapItemType.DELETE_RANGE_START x') ∧
    ((∃ e', (seekToFirstFill (build runsWithTombstone tombsOnFirstRun)).FindNextVisibleKey 24 =
          some e') ∧
      ∀ f e', (seekToFirstFill (build runsWithTombstone tombsOnFirstRun)).FindNextVisibleKey f =
          some e' → TopIsRecord e') ∧
    ((∃ r', (seekToLastFill (build runsWithTombstone tombsOnFirstRun)).FindPrevVisibleKey 24 =
          some r') ∧
      ∀ f r', (seekToLastFill (build runsWithTombstone tombsOnFirstRun)).FindPrevVisibleKey f =
          some r' → TopIsRecord r') ∧
    ∃ e1, callAll 24 callsBackAndForth (build runsWithTombstone tombsOnFirstRun) = some e1 ∧
      TopIsRecord e1 ∧ e1.current_ = e1.heap_.top ∧
      ∀ c : Call Nat, TargetsOK [c] → (c = Call.next ∨ c = Call.prev → e1.Valid = true) →
        ∃ e2, callBy 24 c e1 = some e2 ∧ e2.direction_ = c.direction ∧
          TopIsIterator e2 ∧ TopIsRecord e2 ∧ e2.current_ = e2.heap_.top) :=
  ⟨by decide, by decide, by decide, by decide,
    seekToFirstFill_fwd (build_base _ _ (inputWF_of_wellFormed (by decide))),
    seekToLastFill_bwd (build_base _ _ (inputWF_of_wellFormed (by decide))),
    current_assertions_hold runsWithTombstone tombsOnFirstRun 24 (by decide) (by decide)
      (by decide) (seekToFirstFill (build runsWithTombstone tombsOnFirstRun))
      (seekToLastFill (build runsWithTombstone tombsOnFirstRun))
      (seekToFirstFill_fwd (build_base _ _ (inputWF_of_wellFormed (by decide))))
      (seekToLastFill_bwd (build_base _ _ (inputWF_of_wellFormed (by decide))))
      callsBackAndForth (by decide)⟩

end MergingIterator
